import Mathlib

/-! # Starling protocol: framing, routing, transport and synchronisation layers

A shallow embedding of parts of the Go implementation:

* `packet_layer` : `packet_header.go`, `encoder.go`, `decoder.go`, and `packet_layer.go`
  (sending, and `ReceivePacket`)
* `transport_layer` : `session_state.go` (`ReceiveACK`, `ReceiveDATA`, the ACK of
  `startAckTimer`), `packet.go`, `packet_data.go`, `packet_ack.go`
* `network_layer` : the codecs of `packet_rreq.go`, `packet_rrep.go`, `packet_sess.go`,
  `packet_rerr.go`, and `packet_decoding.go`; `session.go`, `routing_table.go`,
  `network_layer.go` and the packet handlers
* `contact_bitmap` : `contact_bitmap.go`
* `device`, `utils` : `device.go`, `contacts_container.go`, `maps.go`
* `sync` : `digest.go`, `delta.go`, `model.go`, `packet_pull.go`, `packet_push.go`,
  `sync.go`, `packet.go`
* `application_layer` : `handlePacket` of `application_layer.go` and `handleSyncPacket` of
  `sync_extension.go`

Bytes are natural numbers below 256, Go slices are lists, Go maps are association lists
whose list order stands for the (unspecified) iteration order, and pointer receivers
become explicit state passing.
-/

set_option autoImplicit false

namespace packet_layer

/-! ## packet_header.go -/

structure packetFlags where
  NonEmpty : Bool
  Continuation : Bool
  deriving DecidableEq, Repr

structure packetHeader where
  size : Nat
  flags : packetFlags
  deriving DecidableEq, Repr

def newPacketHeader (size : Nat) (flags : packetFlags) : packetHeader :=
  { size := size, flags := flags }

def newPacketFlags (continuation : Bool) : packetFlags :=
  { NonEmpty := true, Continuation := continuation }

/-- The closure `bitRep` of `packetFlags.toByte`: `1 << (7 - bitIdx)` as a byte. -/
def bitRep (value : Bool) (bitIdx : Nat) : Nat :=
  if value then (1 <<< (7 - bitIdx)) % 256 else 0

def packetFlags.toByte (flags : packetFlags) : Nat :=
  (0 ||| bitRep flags.NonEmpty 0) ||| bitRep flags.Continuation 1

/-- The closure `readBit` of `packetFlagsFromByte`. -/
def readBit (b : Nat) (bitIdx : Nat) : Bool :=
  decide (b &&& ((1 <<< (7 - bitIdx)) % 256) > 0)

def packetFlagsFromByte (b : Nat) : packetFlags :=
  { NonEmpty := readBit b 0, Continuation := readBit b 1 }

/-- The header bytes of `packetHeader.toBytes`: `byte(size>>8) & 0b11 | flags` and
`byte(size & 0xff)`. -/
def packetHeader.toBytes (header : packetHeader) : Nat × Nat :=
  ((((header.size >>> 8) % 256) &&& 0b11) ||| header.flags.toByte,
   (header.size &&& 0xff) % 256)

def packetHeaderFromBytes (bytes : List Nat) : Except String packetHeader :=
  if bytes.length < 2 then
    .error "corrupt packet: header expected at least 2 bytes"
  else
    let flags := packetFlagsFromByte (bytes.getD 0 0)
    let size := (((bytes.getD 0 0) &&& 0x3F) <<< 8) ||| (bytes.getD 1 0)
    .ok { flags := flags, size := size }

/-! ## encoder.go -/

structure PacketEncoder where
  packets : List (List Nat)
  workingPacket : List Nat
  cursor : Nat
  packetSize : Nat
  deriving DecidableEq, Repr

/-- The constructor `NewPacketEncoder`; `none` stands for the two panics on an out-of-range
packet size. -/
def NewPacketEncoder (packetSize : Nat) : Option PacketEncoder :=
  if packetSize < 3 then none
  else if packetSize ≥ 1 <<< 14 then none
  else some { packets := [], workingPacket := List.replicate packetSize 0,
              cursor := 0, packetSize := packetSize }

def PacketEncoder.PopPacket (encoder : PacketEncoder) : PacketEncoder × List Nat :=
  match encoder.packets with
  | [] =>
    if encoder.cursor > 0 then
      ({ encoder with workingPacket := List.replicate encoder.packetSize 0, cursor := 0 },
       encoder.workingPacket.take encoder.cursor)
    else (encoder, [])
  | p :: rest => ({ encoder with packets := rest }, p)

def PacketEncoder.PacketCount (encoder : PacketEncoder) : Nat :=
  if encoder.cursor > 0 then encoder.packets.length + 1 else encoder.packets.length

def PacketEncoder.writeNextPacket (encoder : PacketEncoder) : PacketEncoder :=
  { encoder with
    packets := encoder.packets ++ [encoder.workingPacket.take encoder.cursor],
    workingPacket := List.replicate encoder.packetSize 0,
    cursor := 0 }

/-- Go's builtin `copy(dst[off:], src)`: overwrite `dst` from offset `off` with as much of
`src` as fits. -/
def copyAt (dst : List Nat) (off : Nat) (src : List Nat) : List Nat :=
  dst.take off ++ src.take (dst.length - off) ++ dst.drop (off + src.length)

/-- The closure `copyMessage` of `EncodeMessage`. The two header bytes are written at
`cursor` and `cursor + 1`; both are in range because `EncodeMessage` flushes the working
packet whenever `cursor ≥ packetSize - 2`. -/
def PacketEncoder.copyMessage (encoder : PacketEncoder) (message : List Nat)
    (flags : packetFlags) : Except String PacketEncoder :=
  let header := newPacketHeader message.length flags
  let headerBytes := header.toBytes
  let wp := (encoder.workingPacket.set encoder.cursor headerBytes.1).set
    (encoder.cursor + 1) headerBytes.2
  if message.length > (wp.drop (encoder.cursor + 2)).length then
    .error "message does not fit in packet"
  else
    .ok { encoder with
          workingPacket := copyAt wp (encoder.cursor + 2) message,
          cursor := encoder.cursor + (message.length + 2) }

/-- The loop `for len(remaining) > 0` of `EncodeMessage`. Every round that continues drops
`packetSize - 2 ≥ 1` bytes of `remaining`, so `remaining.length` rounds of fuel suffice. -/
def PacketEncoder.encodeRemaining :
    Nat → PacketEncoder → List Nat → Except String PacketEncoder
  | 0, encoder, _ => .ok encoder
  | fuel + 1, encoder, remaining =>
    if remaining.length > 0 then
      if remaining.length > encoder.packetSize - encoder.cursor - 2 then
        match encoder.copyMessage
            (remaining.take (encoder.packetSize - encoder.cursor - 2)) (newPacketFlags true) with
        | .error e => .error e
        | .ok encoder1 =>
          let encoder2 := encoder1.writeNextPacket
          PacketEncoder.encodeRemaining fuel encoder2 (remaining.drop (encoder2.packetSize - 2))
      else
        encoder.copyMessage remaining (newPacketFlags false)
    else .ok encoder

def PacketEncoder.EncodeMessage (encoder : PacketEncoder) (message : List Nat) :
    Except String PacketEncoder :=
  -- edge case with a single byte left
  let encoder := if encoder.cursor ≥ encoder.packetSize - 2 then encoder.writeNextPacket
                 else encoder
  if message.length > encoder.packetSize - encoder.cursor - 2 then
    let startReadCount := encoder.packetSize - encoder.cursor - 2
    match encoder.copyMessage (message.take startReadCount) (newPacketFlags true) with
    | .error e => .error e
    | .ok encoder1 =>
      let remaining := message.drop startReadCount
      PacketEncoder.encodeRemaining remaining.length encoder1.writeNextPacket remaining
  else
    encoder.copyMessage message (newPacketFlags false)

/-! ## decoder.go -/

structure PacketDecoder where
  packets : List (List Nat)
  cursor : Nat
  deriving DecidableEq, Repr

def NewPacketDecoder : PacketDecoder := { packets := [], cursor := 0 }

def PacketDecoder.PacketCount (decoder : PacketDecoder) : Nat := decoder.packets.length

def PacketDecoder.AppendPacket (decoder : PacketDecoder) (packet : List Nat) :
    PacketDecoder × Except String Unit :=
  if packet.length ≥ 1 <<< 14 then
    (decoder, .error "PacketDecoder.AppendPacket: packetSize should be at most 8192")
  else
    ({ decoder with packets := decoder.packets ++ [packet] }, .ok ())

def PacketDecoder.readNextPacket (decoder : PacketDecoder) : PacketDecoder :=
  { packets := decoder.packets.drop 1, cursor := 0 }

/-- The loop of `skipEmptyPackets`. A round that continues removes the front packet, so
`packets.length + 1` rounds of fuel suffice. -/
def PacketDecoder.skipEmptyLoop : Nat → PacketDecoder → PacketDecoder × Except String Unit
  | 0, decoder => (decoder, .ok ())
  | fuel + 1, decoder =>
    match decoder.packets with
    | [] => (decoder, .ok ())
    | front :: _ =>
      let packet := front.drop decoder.cursor
      if packet.length < 2 then (decoder.readNextPacket, .ok ())
      else
        match packetHeaderFromBytes packet with
        | .error e => (decoder, .error e)
        | .ok header =>
          if !header.flags.NonEmpty then
            PacketDecoder.skipEmptyLoop fuel decoder.readNextPacket
          else (decoder, .ok ())

def PacketDecoder.skipEmptyPackets (decoder : PacketDecoder) :
    PacketDecoder × Except String Unit :=
  PacketDecoder.skipEmptyLoop (decoder.packets.length + 1) decoder

/-- The loop `for packetElm != nil` of `HasMessage` over the remaining list elements. The
test `cursor >= len(packet)-3` is on Go ints; `cursor + 3 ≥ len(packet)` is the same test
without a negative intermediate value. -/
def hasMessageLoop : Nat → List (List Nat) → Nat → Except String Bool
  | 0, _, _ => .ok false
  | _ + 1, [], _ => .ok false
  | fuel + 1, packet :: rest, cursor =>
    match packetHeaderFromBytes (packet.drop cursor) with
    | .error e => .error e
    | .ok header =>
      if !header.flags.Continuation then .ok true
      else
        let cursor1 := cursor + (header.size + 2)
        if cursor1 + 3 ≥ packet.length then hasMessageLoop fuel rest 0
        else hasMessageLoop fuel (packet :: rest) cursor1

/-- Fuel for `hasMessageLoop`: a round either moves to the next packet or advances the
cursor by at least two bytes inside the current one. -/
def hasMessageFuel (packets : List (List Nat)) : Nat :=
  (packets.map (fun p => p.length + 1)).sum + 1

def PacketDecoder.HasMessage (decoder : PacketDecoder) : PacketDecoder × Except String Bool :=
  match decoder.skipEmptyPackets with
  | (decoder1, .error e) => (decoder1.readNextPacket, .error e)
  | (decoder1, .ok ()) =>
    if decoder1.packets.length = 0 then (decoder1, .ok false)
    else (decoder1, hasMessageLoop (hasMessageFuel decoder1.packets) decoder1.packets
            decoder1.cursor)

/-- The loop `for decoder.packets.Len() > 0 && continuation` of `ReadMessage`; the result
carries the final value of `continuation`. The test `header.size > len(packet)-2` is written
`header.size + 2 > len(packet)`: the header was parsed, so `len(packet) ≥ 2`. -/
def PacketDecoder.readLoop :
    Nat → PacketDecoder → List Nat → Bool → PacketDecoder × Except String (List Nat × Bool)
  | 0, decoder, msg, continuation => (decoder, .ok (msg, continuation))
  | fuel + 1, decoder, msg, continuation =>
    match decoder.packets with
    | [] => (decoder, .ok (msg, continuation))
    | front :: _ =>
      if continuation then
        let packet := front.drop decoder.cursor
        match packetHeaderFromBytes packet with
        | .error e => (decoder.readNextPacket, .error e)
        | .ok header =>
          if header.size + 2 > packet.length then
            (decoder.readNextPacket, .error "corrupt packet: header size longer than packet")
          else
            let msg1 := msg ++ (packet.take (header.size + 2)).drop 2
            let decoder1 := { decoder with cursor := decoder.cursor + (header.size + 2) }
            let decoder2 := if decoder1.cursor ≥ front.length then decoder1.readNextPacket
                            else decoder1
            PacketDecoder.readLoop fuel decoder2 msg1 header.flags.Continuation
      else (decoder, .ok (msg, continuation))

def PacketDecoder.ReadMessage (decoder : PacketDecoder) :
    PacketDecoder × Except String (List Nat) :=
  match decoder.HasMessage with
  | (decoder1, .error e) => (decoder1, .error e)
  | (decoder1, .ok hasMsg) =>
    if !hasMsg then (decoder1, .error "no message to read")
    else
      match PacketDecoder.readLoop (hasMessageFuel decoder1.packets) decoder1 [] true with
      | (decoder2, .error e) => (decoder2, .error e)
      | (decoder2, .ok (msg, continuation)) =>
        if continuation then
          (decoder2, .error "panic: unreachable: should have been caught by decoder.HasMessage()")
        else (decoder2, .ok msg)

/-- The loop `for encoder.PacketCount() > 0 { decoder.AppendPacket(encoder.PopPacket()) }`
of `FuzzPacketBundle`. -/
def transferPackets : Nat → PacketEncoder → PacketDecoder → PacketEncoder × PacketDecoder
  | 0, encoder, decoder => (encoder, decoder)
  | fuel + 1, encoder, decoder =>
    if encoder.PacketCount > 0 then
      let (encoder1, packet) := encoder.PopPacket
      transferPackets fuel encoder1 (decoder.AppendPacket packet).1
    else (encoder, decoder)

/-- The body of `FuzzPacketBundle`: encode one message with packet size `k`, move every
packet to a fresh decoder, then `HasMessage`, `ReadMessage`, `HasMessage`. -/
def encodeThenDecode (k : Nat) (m : List Nat) :
    Option (Except String Bool × Except String (List Nat) × Except String Bool) :=
  match NewPacketEncoder k with
  | none => none
  | some encoder =>
    match encoder.EncodeMessage m with
    | .error _ => none
    | .ok encoder1 =>
      let decoder := (transferPackets encoder1.PacketCount encoder1 NewPacketDecoder).2
      let (decoder1, has1) := decoder.HasMessage
      let (decoder2, msg) := decoder1.ReadMessage
      let (_, has2) := decoder2.HasMessage
      some (has1, msg, has2)

end packet_layer

namespace transport_layer

/-! ## session_state.go

`SequenceID` is a `uint32`: sequence numbers are natural numbers below `2 ^ 32`, and the one
addition that can leave that range, `latestSeq + 1` in `ReceiveDATA`, is reduced modulo
`2 ^ 32`. -/

structure DATAPacket where
  SeqID : Nat
  Data : List Nat
  deriving DecidableEq, Repr

def NewDATAPacket (seqID : Nat) (data : List Nat) : DATAPacket :=
  { SeqID := seqID, Data := data }

structure ACKPacket where
  LatestSeqID : Nat
  MissingSeqIDs : List Nat
  deriving DecidableEq, Repr

structure outboxMessage where
  session : Nat
  messageID : Nat
  body : List Nat
  deriving DecidableEq, Repr

structure awaitingACK where
  message : outboxMessage
  sequenceID : Nat
  timestamp : Nat
  deriving DecidableEq, Repr

structure ReceiverState where
  ackTimer : Bool
  latestSeq : Nat
  missingSeqs : List Nat
  awaitingDelivery : List DATAPacket
  deriving DecidableEq, Repr

structure SenderState where
  timeoutTimer : Bool
  awaitingACKs : List awaitingACK
  nextSequenceID : Nat
  deriving DecidableEq, Repr

structure SessionState where
  sessionID : Nat
  sender : SenderState
  receiver : ReceiverState
  deriving DecidableEq, Repr

def NewSessionState (sessionID : Nat) : SessionState :=
  { sessionID := sessionID,
    sender := { timeoutTimer := false, awaitingACKs := [], nextSequenceID := 1 },
    receiver := { ackTimer := false, latestSeq := 0, missingSeqs := [], awaitingDelivery := [] } }

/-- What one `ReceiveACK` call produces besides the new state: the packets it returns for
resending and the message ids passed to `transport.events.MessageDelivered`, in call order. -/
structure ACKResult where
  resendPackets : List DATAPacket
  newAwaitingACKs : List awaitingACK
  delivered : List Nat
  deriving DecidableEq, Repr

/-- One round of the loop `for _, awaiting := range state.sender.awaitingACKs`. -/
def receiveACKStep (packet : ACKPacket) (acc : ACKResult) (awaiting : awaitingACK) : ACKResult :=
  let seqID := awaiting.sequenceID
  if seqID ≤ packet.LatestSeqID then
    if packet.MissingSeqIDs.contains seqID then
      { acc with
        resendPackets := acc.resendPackets ++ [NewDATAPacket seqID awaiting.message.body],
        newAwaitingACKs := acc.newAwaitingACKs ++ [awaiting] }
    else
      { acc with delivered := acc.delivered ++ [awaiting.message.messageID] }
  else acc

/-- The method `SessionState.ReceiveACK`: the new state, the packets to resend and the
`MessageDelivered` events. -/
def SessionState.ReceiveACK (state : SessionState) (packet : ACKPacket) :
    SessionState × List DATAPacket × List Nat :=
  let r := state.sender.awaitingACKs.foldl (receiveACKStep packet)
    { resendPackets := [], newAwaitingACKs := [], delivered := [] }
  ({ state with sender := { state.sender with awaitingACKs := r.newAwaitingACKs } },
   r.resendPackets, r.delivered)

/-- The call `slices.SortFunc(packetsToDeliver, cmp.Compare(a.SeqID, b.SeqID))`. Go's sort
is not stable; the embedding fixes the order of packets with equal sequence numbers to the
order of arrival in the slice, and no statement below depends on that choice. -/
def sortBySeq (packets : List DATAPacket) : List DATAPacket :=
  packets.insertionSort (fun a b => a.SeqID ≤ b.SeqID)

/-- The method `SessionState.ReceiveDATA`: the new state and the packets that can now be delivered.
`startAckTimer` sets `ackTimer` and schedules the ACK; only the flag is part of the state. -/
def SessionState.ReceiveDATA (state : SessionState) (packet : DATAPacket) :
    SessionState × List DATAPacket :=
  let r0 := { state.receiver with ackTimer := true }
  -- Add potential missing sequenceIDs
  let r1 : ReceiverState :=
    if r0.latestSeq < packet.SeqID then
      { r0 with
        missingSeqs := r0.missingSeqs ++
          List.range' (r0.latestSeq + 1) (packet.SeqID - (r0.latestSeq + 1)),
        latestSeq := packet.SeqID }
    else r0
  let (r2, packetsToDeliver) : ReceiverState × List DATAPacket :=
    match r1.missingSeqs with
    | first :: rest =>
      if first = packet.SeqID then
        -- This packet was the earliest missing packet
        let deliverUntil :=
          match rest with
          | second :: _ => second
          | [] => (r1.latestSeq + 1) % 2 ^ 32
        let toDeliver := r1.awaitingDelivery.filter (fun p => decide (p.SeqID < deliverUntil))
        let newAwaitingDelivery :=
          r1.awaitingDelivery.filter (fun p => !decide (p.SeqID < deliverUntil))
        ({ r1 with awaitingDelivery := newAwaitingDelivery }, toDeliver ++ [packet])
      else if first < packet.SeqID then
        ({ r1 with awaitingDelivery := r1.awaitingDelivery ++ [packet] }, [])
      else (r1, [])
    | [] => (r1, [packet])
  -- Check if incoming sequenceID is in missingSeqs and remove it
  let r3 := { r2 with missingSeqs := r2.missingSeqs.erase packet.SeqID }
  ({ state with receiver := r3 }, sortBySeq packetsToDeliver)

/-- Feed packets one at a time to `ReceiveDATA`; the list of the lists each call returns. -/
def receiveAll : SessionState → List DATAPacket → List (List DATAPacket)
  | _, [] => []
  | state, packet :: packets =>
    (state.ReceiveDATA packet).2 :: receiveAll (state.ReceiveDATA packet).1 packets

/-- The sequence numbers delivered, over all calls, in delivery order. -/
def deliveredSeqs (state : SessionState) (packets : List DATAPacket) : List Nat :=
  (receiveAll state packets).flatten.map (fun p => p.SeqID)

end transport_layer

namespace sync

/-! ## digest.go

A `Version` is a `uint32`, here a natural number; the only arithmetic on it that can leave
the range is `d.MaxVersion += 1` in `IncrementNode`, reduced modulo `2 ^ 32`. A Go map is an `AList`
(unique keys); the order of its entries stands for the iteration order, which Go leaves
unspecified. -/

abbrev NodePublicKey := List Nat
abbrev Signature := List Nat

abbrev DigestNodes := AList (fun _ : NodePublicKey => Nat)

structure Digest where
  Nodes : DigestNodes
  MaxVersion : Nat
  deriving DecidableEq

def NewDigest : Digest := { Nodes := ∅, MaxVersion := 0 }

/-- The map read `d.Nodes[node]`: the zero value when the key is absent. -/
def Digest.version (d : Digest) (node : NodePublicKey) : Nat :=
  (d.Nodes.lookup node).getD 0

def Digest.IncrementNode (d : Digest) (node : NodePublicKey) : Digest × Nat :=
  let nodes := if node ∈ d.Nodes then d.Nodes else d.Nodes.insert node 0
  let maxVersion := (d.MaxVersion + 1) % 2 ^ 32
  let nodes := nodes.insert node maxVersion
  ({ Nodes := nodes, MaxVersion := maxVersion }, maxVersion)

def Digest.UpdateNode (d : Digest) (node : NodePublicKey) (version : Nat) :
    Digest × Nat :=
  let nodes := if node ∈ d.Nodes then d.Nodes else d.Nodes.insert node 0
  let newVersion := max ((nodes.lookup node).getD 0) version
  let nodes := nodes.insert node newVersion
  ({ Nodes := nodes, MaxVersion := max newVersion d.MaxVersion }, newVersion)

def Digest.SubtractNodes (d other : Digest) : List NodePublicKey :=
  d.Nodes.keys.filter (fun node => decide (node ∉ other.Nodes))

def Digest.IntersectingNodes (d other : Digest) : List NodePublicKey :=
  d.Nodes.keys.filter (fun node => decide (node ∈ other.Nodes))

/-! ## delta.go -/

structure Delta where
  PublicKey : NodePublicKey
  Version : Nat
  Value : List Nat
  AttachedSecret : Option (List Nat)
  Signature : Signature
  deriving DecidableEq, Repr

def NewDelta (publicKey : NodePublicKey) (version : Nat) (value : List Nat)
    (attachedSecret : Option (List Nat)) (signature : Signature) : Delta :=
  { PublicKey := publicKey, Version := version, Value := value,
    AttachedSecret := attachedSecret, Signature := signature }

abbrev Deltas := List Delta

/-- The call `sort.Sort(delta)` with `Less(i, j) = d[i].Version < d[j].Version`. Go's sort
is not stable; the embedding keeps deltas of equal version in slice order. -/
def sortDeltas (deltas : Deltas) : Deltas :=
  deltas.insertionSort (fun a b => a.Version ≤ b.Version)

/-! ## model.go -/

/-- A stored message; `AttachedSecret = none` is the nil slice. -/
structure Message where
  Value : List Nat
  Signature : Signature
  AttachedSecret : Option (List Nat)
  deriving DecidableEq, Repr

abbrev NodeState := AList (fun _ : Nat => Message)
abbrev ModelNodeStates := AList (fun _ : NodePublicKey => NodeState)
abbrev Digests := AList (fun _ : NodePublicKey => Digest)

inductive ModelType where
  | group
  | link
  deriving DecidableEq, Repr

structure Model where
  Digests : Digests
  PrivateKey : List Nat
  PublicKey : NodePublicKey
  NodeStates : ModelNodeStates
  Type_ : ModelType
  deriving DecidableEq

/-- The two `crypto/ed25519` operations the model uses, taken as parameters:
`privateKey.Public()` and `ed25519.Sign`. -/
structure Ed25519 where
  publicKey : List Nat → NodePublicKey
  sign : List Nat → List Nat → Signature

def NewMessage (value : List Nat) (signature : Signature) (attachedSecret : Option (List Nat)) :
    Message :=
  { Value := value, Signature := signature, AttachedSecret := attachedSecret }

def NewNodeState : NodeState := ∅

def ExtractNodePublicKey (ed : Ed25519) (privateKey : List Nat) : NodePublicKey :=
  ed.publicKey privateKey

def NewModel (ed : Ed25519) (privateKey : List Nat) (modelType : ModelType) : Model :=
  { Digests := ∅, PrivateKey := privateKey, PublicKey := ExtractNodePublicKey ed privateKey,
    NodeStates := ∅, Type_ := modelType }

/-- The bytes `binary.BigEndian.AppendUint32` appends for a value below `2 ^ 32`. -/
def encodeUint32 (v : Nat) : List Nat :=
  [v / 2 ^ 24 % 256, v / 2 ^ 16 % 256, v / 2 ^ 8 % 256, v % 256]

/-- The method `Model.Digest`: the model's own digest, created on first use. -/
def Model.Digest (s : Model) : Model × sync.Digest :=
  match s.Digests.lookup s.PublicKey with
  | some d => (s, d)
  | none =>
    let d := (NewDigest.UpdateNode s.PublicKey 0).1
    ({ s with Digests := s.Digests.insert s.PublicKey d }, d)

/-- The message `NewMessage` signs. -/
def signedBytes (publicKey : NodePublicKey) (version : Nat) (value : List Nat)
    (attachedSecret : Option (List Nat)) : List Nat :=
  publicKey ++ encodeUint32 version ++ encodeUint32 (value.length % 2 ^ 32) ++ value ++
    (match attachedSecret with
     | some secret => 0x01 :: secret
     | none => [0x00])

/-- The assignment `s.NodeStates[pk][version] = msg` on a map of maps. -/
def setEntry (states : ModelNodeStates) (pk : NodePublicKey) (version : Nat)
    (msg : Message) : ModelNodeStates :=
  states.insert pk (((states.lookup pk).getD ∅).insert version msg)

def Model.NewMessage (ed : Ed25519) (s : Model) (value : List Nat)
    (attachedSecret : Option (List Nat)) : Model × Nat :=
  let (s1, d) := s.Digest
  let (d1, newVersion) := d.IncrementNode s1.PublicKey
  let s2 := { s1 with Digests := s1.Digests.insert s1.PublicKey d1 }
  let s3 := if s2.PublicKey ∈ s2.NodeStates then s2
            else { s2 with NodeStates := s2.NodeStates.insert s2.PublicKey NewNodeState }
  let signature := ed.sign s3.PrivateKey (signedBytes s3.PublicKey newVersion value attachedSecret)
  let msg := sync.NewMessage value signature attachedSecret
  ({ s3 with NodeStates := setEntry s3.NodeStates s3.PublicKey newVersion msg }, newVersion)

def Model.UpdateDigest (s : Model) (baseNode nodeToUpdate : NodePublicKey) (version : Nat) :
    Model × Bool :=
  let s1 := if baseNode ∈ s.Digests then s
            else { s with Digests := s.Digests.insert baseNode NewDigest }
  let base := (s1.Digests.lookup baseNode).getD NewDigest
  let old := base.Nodes.lookup nodeToUpdate
  let (base1, newVersion) := base.UpdateNode nodeToUpdate version
  ({ s1 with Digests := s1.Digests.insert baseNode base1 },
   match old with
   | none => true
   | some oldVersion => decide (oldVersion < newVersion))

/-- The deltas `Delta` collects for one node: the stored entries that pass `keep`. -/
def nodeDeltas (states : ModelNodeStates) (keep : Nat → Bool) (node : NodePublicKey) :
    Deltas :=
  (((states.lookup node).getD ∅).entries.filter (fun e => keep e.1)).map
    (fun e => NewDelta node e.1 e.2.Value e.2.AttachedSecret e.2.Signature)

def Model.Delta (s : Model) (digest : sync.Digest) : Model × Deltas :=
  let (s1, own) := s.Digest
  let delta1 := (digest.IntersectingNodes own).flatMap
    (fun node => nodeDeltas s1.NodeStates (fun version => decide (digest.version node < version)) node)
  let delta2 := (own.SubtractNodes digest).flatMap
    (fun node => nodeDeltas s1.NodeStates (fun _ => true) node)
  (s1, sortDeltas (delta1 ++ delta2))

/-- One round of the loop of `Merge`, on the pair (model, `stateChanged`). -/
def mergeStep (sender : NodePublicKey) (acc : Model × Bool) (delta : Delta) : Model × Bool :=
  let s := acc.1
  let found := decide (delta.PublicKey ∈ s.NodeStates)
  let s1 := if found then s
            else { s with NodeStates := s.NodeStates.insert delta.PublicKey NewNodeState }
  let stored := ((s1.NodeStates.lookup delta.PublicKey).getD ∅).lookup delta.Version
  let differs := match stored with
    | none => true
    | some msg => !decide (msg.Value = delta.Value)
  let msg := NewMessage delta.Value delta.Signature delta.AttachedSecret
  let s2 := { s1 with NodeStates := setEntry s1.NodeStates delta.PublicKey delta.Version msg }
  -- Update our, original sender and push sender digests
  let (s3, own) := s2.Digest
  let own1 := (own.UpdateNode delta.PublicKey delta.Version).1
  let s4 := { s3 with Digests := s3.Digests.insert s3.PublicKey own1 }
  let s5 := (s4.UpdateDigest delta.PublicKey delta.PublicKey delta.Version).1
  let s6 := (s5.UpdateDigest sender delta.PublicKey delta.Version).1
  (s6, acc.2 || !found || differs)

def Model.Merge (s : Model) (sender : NodePublicKey) (deltas : Deltas) : Model × Bool :=
  deltas.foldl (mergeStep sender) (s, false)

/-- The stored message `s.NodeStates[pk][version]`, if any. -/
def Model.entry (s : Model) (pk : NodePublicKey) (version : Nat) : Option Message :=
  (s.NodeStates.lookup pk).bind (fun state => state.lookup version)

end sync

/-! # Wire formats: Go slices, `encoding/binary`, and the packet codecs

A Go function that can end in a run-time panic returns an `Option`: `none` is the panic.
A decoder of Go type `([]byte) (*T, error)` therefore has type
`List Nat → Option (Except String T)`. A slice has its capacity equal to its length, so that
`buf[lo:hi]` panics exactly when it reaches past the bytes of `buf`; `int` has 64 bits, and
since no `int` value computed below exceeds `2 ^ 40` it is a natural number. -/

namespace builtin

/-- A byte string: every element is below 256. -/
def IsBytes (buf : List Nat) : Prop := ∀ b ∈ buf, b < 256

/-- The index expression `buf[i]`. -/
def index (buf : List Nat) (i : Nat) : Option Nat := buf[i]?

/-- The slice expression `buf[lo:hi]`. -/
def slice (buf : List Nat) (lo hi : Nat) : Option (List Nat) :=
  if lo ≤ hi ∧ hi ≤ buf.length then some ((buf.take hi).drop lo) else none

/-- The slice expression `buf[lo:]`. -/
def sliceFrom (buf : List Nat) (lo : Nat) : Option (List Nat) :=
  if lo ≤ buf.length then some (buf.drop lo) else none

end builtin

namespace binary

/-- The function `binary.BigEndian.AppendUint16`. -/
def AppendUint16 (b : List Nat) (v : Nat) : List Nat :=
  b ++ [v / 2 ^ 8 % 256, v % 256]

/-- The function `binary.BigEndian.AppendUint32`. -/
def AppendUint32 (b : List Nat) (v : Nat) : List Nat :=
  b ++ [v / 2 ^ 24 % 256, v / 2 ^ 16 % 256, v / 2 ^ 8 % 256, v % 256]

/-- The function `binary.BigEndian.AppendUint64`. -/
def AppendUint64 (b : List Nat) (v : Nat) : List Nat :=
  b ++ [v / 2 ^ 56 % 256, v / 2 ^ 48 % 256, v / 2 ^ 40 % 256, v / 2 ^ 32 % 256,
        v / 2 ^ 24 % 256, v / 2 ^ 16 % 256, v / 2 ^ 8 % 256, v % 256]

/-- The function `binary.BigEndian.Uint16`: it reads `b[0]` and `b[1]` and panics on a
shorter slice. -/
def Uint16 (b : List Nat) : Option Nat :=
  match b with
  | b0 :: b1 :: _ => some (b0 * 2 ^ 8 + b1)
  | _ => none

/-- The function `binary.BigEndian.Uint32`: it reads `b[0]` to `b[3]` and panics on a shorter
slice. -/
def Uint32 (b : List Nat) : Option Nat :=
  match b with
  | b0 :: b1 :: b2 :: b3 :: _ => some (b0 * 2 ^ 24 + b1 * 2 ^ 16 + b2 * 2 ^ 8 + b3)
  | _ => none

/-- The function `binary.BigEndian.Uint64`: it reads `b[0]` to `b[7]` and panics on a shorter
slice. -/
def Uint64 (b : List Nat) : Option Nat :=
  match b with
  | b0 :: b1 :: b2 :: b3 :: b4 :: b5 :: b6 :: b7 :: _ =>
    some (b0 * 2 ^ 56 + b1 * 2 ^ 48 + b2 * 2 ^ 40 + b3 * 2 ^ 32 +
          b4 * 2 ^ 24 + b5 * 2 ^ 16 + b6 * 2 ^ 8 + b7)
  | _ => none

end binary

namespace network_layer

open builtin

/-! ## packet.go, routing_table.go -/

def RREQ : Nat := 0x01
def RREP : Nat := 0x02
def SESS : Nat := 0x03
def RERR : Nat := 0x04

/-- The constant `contact_bitmap.BITMAP_SIZE`. -/
def BITMAP_SIZE : Nat := 2048 / 8

def EncodeSessionID (session : Nat) (buf : List Nat) : List Nat :=
  binary.AppendUint64 buf session

/-- The method `RequestID.Encode`. -/
def RequestID.Encode (r : Nat) (buf : List Nat) : List Nat :=
  binary.AppendUint64 buf r

def DecodeSessionID (buf : List Nat) : Option Nat := binary.Uint64 buf

def DecodeRequestID (buf : List Nat) : Option Nat := binary.Uint64 buf

/-- The method `TTL.Encode`. -/
def TTL.Encode (ttl : Nat) (buf : List Nat) : List Nat :=
  binary.AppendUint16 buf ttl

def DecodeTTL (buf : List Nat) : Option Nat := binary.Uint16 buf

/-- The call `ecdh.X25519().NewPublicKey(key)`: an X25519 public key is its 32 bytes, and
any other length is an error. -/
def NewPublicKey (key : List Nat) : Except String (List Nat) :=
  if key.length ≠ 32 then .error "crypto/ecdh: invalid public key" else .ok key

/-! ## packet_rreq.go -/

/-- An RREQ packet; `EphemeralKey` holds the bytes `EphemeralKey.Bytes()`. -/
structure RREQPacket where
  RequestID : Nat
  TTL : Nat
  EphemeralKey : List Nat
  ContactMask : List Nat
  deriving DecidableEq, Repr

/-- The constructor `NewRREQPacket`; it panics on a bitmap of the wrong size. -/
def NewRREQPacket (reqID ttl : Nat) (ephemeralKey contactMap : List Nat) : Option RREQPacket :=
  if contactMap.length ≠ BITMAP_SIZE then none
  else some { RequestID := reqID, TTL := ttl, EphemeralKey := ephemeralKey,
              ContactMask := contactMap }

def RREQPacket.EncodePacket (packet : RREQPacket) : List Nat :=
  let buf := [] ++ [RREQ]
  let buf := RequestID.Encode packet.RequestID buf
  let buf := TTL.Encode packet.TTL buf
  let buf := buf ++ packet.EphemeralKey
  buf ++ packet.ContactMask

def DecodeRREQ (buf : List Nat) : Option (Except String RREQPacket) :=
  if buf.length < 43 + BITMAP_SIZE then
    some (.error "buffer too small when decoding RREQ")
  else do
    let b0 ← index buf 0
    if b0 ≠ RREQ then
      some (.error "wrong packet header when decoding RREQ packet")
    else do
      let reqID ← (sliceFrom buf 1).bind DecodeRequestID
      let ttl ← (sliceFrom buf 9).bind DecodeTTL
      let keyBytes ← slice buf 11 43
      match NewPublicKey keyBytes with
      | .error e => some (.error e)
      | .ok ephemeralKey => do
        let contactMap ← slice buf 43 (43 + BITMAP_SIZE)
        let packet ← NewRREQPacket reqID ttl ephemeralKey contactMap
        some (.ok packet)

/-! ## packet_rrep.go -/

/-- An RREP packet; `Cipher` is the authentication tag with the optional payload. -/
structure RREPPacket where
  RequestID : Nat
  SessionID : Nat
  EphemeralKey : List Nat
  Nonce : List Nat
  Cipher : List Nat
  deriving DecidableEq, Repr

def EncodeRREPHeader (reqID sessID : Nat) (ephemeralKey : List Nat) : List Nat :=
  let buf := [RREP]
  let buf := RequestID.Encode reqID buf
  let buf := EncodeSessionID sessID buf
  buf ++ ephemeralKey

/-- The conversion `uint32(n - 16)` of the `int` value `n - 16`. -/
def uint32Minus16 (n : Nat) : Nat := (((n : Int) - 16) % 2 ^ 32).toNat

def RREPPacket.EncodePacket (p : RREPPacket) : List Nat :=
  let buf := EncodeRREPHeader p.RequestID p.SessionID p.EphemeralKey
  let buf := buf ++ p.Nonce
  let buf := binary.AppendUint32 buf (uint32Minus16 p.Cipher.length)
  buf ++ p.Cipher

/-- The function `DecodeRREP`. The length test is on `int`s, the upper bound
`65+payloadSize+16` of the slice is a `uint32`. -/
def DecodeRREP (buf : List Nat) : Option (Except String RREPPacket) :=
  if buf.length < 65 then
    some (.error "buffer too small when decoding RREP")
  else do
    let b0 ← index buf 0
    if b0 ≠ RREP then
      some (.error "wrong packet header when decoding RREP packet")
    else do
      let reqID ← (sliceFrom buf 1).bind DecodeRequestID
      let sessID ← (sliceFrom buf 9).bind DecodeSessionID
      let keyBytes ← slice buf 17 49
      match NewPublicKey keyBytes with
      | .error e => some (.error e)
      | .ok ephemeralKey => do
        let nonce ← slice buf 49 61
        let payloadSize ← (slice buf 61 65).bind binary.Uint32
        if buf.length < 65 + payloadSize + 16 then
          some (.error "buffer too small to decode RREP payload")
        else do
          let cipher ← slice buf 65 ((65 + payloadSize + 16) % 2 ^ 32)
          some (.ok { RequestID := reqID, SessionID := sessID, EphemeralKey := ephemeralKey,
                      Nonce := nonce, Cipher := cipher })

/-! ## packet_sess.go -/

structure SESSPacket where
  SessionID : Nat
  Nonce : List Nat
  Cipher : List Nat
  deriving DecidableEq, Repr

def SESSPacket.EncodePacket (packet : SESSPacket) : List Nat :=
  let buf := [] ++ [SESS]
  let buf := EncodeSessionID packet.SessionID buf
  let buf := buf ++ packet.Nonce
  let buf := binary.AppendUint32 buf (uint32Minus16 packet.Cipher.length)
  buf ++ packet.Cipher

/-- The function `DecodeSESS`. The length test is on `int`s, the upper bound `25+size+16` of
the slice is a `uint32`. -/
def DecodeSESS (buf : List Nat) : Option (Except String SESSPacket) :=
  if buf.length < 41 then
    some (.error "buffer too small when decoding SESS")
  else do
    let b0 ← index buf 0
    if b0 ≠ SESS then
      some (.error "wrong packet header when decoding SESS packet")
    else do
      let sessID ← (sliceFrom buf 1).bind DecodeSessionID
      let nonce ← slice buf 9 21
      let size ← (slice buf 21 25).bind binary.Uint32
      if buf.length < 41 + size then
        some (.error "buffer too small when decoding SESS cipher")
      else do
        let cipher ← slice buf 25 ((25 + size + 16) % 2 ^ 32)
        some (.ok { SessionID := sessID, Nonce := nonce, Cipher := cipher })

/-! ## packet_rerr.go -/

structure RERRPacket where
  SessionID : Nat
  deriving DecidableEq, Repr

def NewRERR (sessionID : Nat) : RERRPacket := { SessionID := sessionID }

def RERRPacket.EncodePacket (p : RERRPacket) : List Nat :=
  let buf := [] ++ [RERR]
  EncodeSessionID p.SessionID buf

def DecodeRERR (buf : List Nat) : Option (Except String RERRPacket) :=
  if buf.length < 9 then
    some (.error "buffer too small when decoding RERR")
  else do
    let b0 ← index buf 0
    if b0 ≠ RERR then
      some (.error "wrong packet header when decoding RERR packet")
    else do
      let sessID ← (sliceFrom buf 1).bind DecodeSessionID
      some (.ok (NewRERR sessID))

/-! ## packet_decoding.go -/

/-- The interface `Packet` with its four implementations. -/
inductive Packet where
  | rreq (p : RREQPacket)
  | rrep (p : RREPPacket)
  | sess (p : SESSPacket)
  | rerr (p : RERRPacket)
  deriving DecidableEq, Repr

def Packet.EncodePacket : Packet → List Nat
  | .rreq p => p.EncodePacket
  | .rrep p => p.EncodePacket
  | .sess p => p.EncodePacket
  | .rerr p => p.EncodePacket

/-- The function `DecodeRoutingPacket`; it reads `data[0]` before any length test. -/
def DecodeRoutingPacket (data : List Nat) : Option (Except String Packet) := do
  let packet_type ← index data 0
  if packet_type = RREQ then (DecodeRREQ data).map (fun r => r.map Packet.rreq)
  else if packet_type = RREP then (DecodeRREP data).map (fun r => r.map Packet.rrep)
  else if packet_type = RERR then (DecodeRERR data).map (fun r => r.map Packet.rerr)
  else if packet_type = SESS then (DecodeSESS data).map (fun r => r.map Packet.sess)
  else some (.error "invalid network packet type")

end network_layer

namespace transport_layer

open builtin

/-! ## packet.go, packet_data.go, packet_ack.go -/

def DATA : Nat := 0x01
def ACK : Nat := 0x02

/-- The method `SequenceID.Encode`. -/
def SequenceID.Encode (s : Nat) (buf : List Nat) : List Nat :=
  binary.AppendUint32 buf s

def DecodeSequenceID (buf : List Nat) : Option Nat := binary.Uint32 buf

def NewACKPacket (latestSeqID : Nat) (missingSeqIDs : List Nat) : ACKPacket :=
  { LatestSeqID := latestSeqID, MissingSeqIDs := missingSeqIDs }

def DATAPacket.EncodePacket (d : DATAPacket) : List Nat :=
  let buf := [] ++ [DATA]
  let buf := SequenceID.Encode d.SeqID buf
  buf ++ d.Data

def DecodeDataPacket (buf : List Nat) : Option (Except String DATAPacket) :=
  if buf.length < 5 then
    some (.error "buffer too small when decoding DATA packet")
  else do
    let b0 ← index buf 0
    if b0 ≠ DATA then
      some (.error "wrong packet header when decoding ACP packet")
    else do
      let seqID ← (sliceFrom buf 1).bind DecodeSequenceID
      let data ← sliceFrom buf 5
      some (.ok (NewDATAPacket seqID data))

def ACKPacket.EncodePacket (d : ACKPacket) : List Nat :=
  let buf := [] ++ [ACK]
  let buf := SequenceID.Encode d.LatestSeqID buf
  let buf := binary.AppendUint32 buf (d.MissingSeqIDs.length % 2 ^ 32)
  d.MissingSeqIDs.foldl (fun buf seq => binary.AppendUint32 buf seq) buf

/-- The loop `for i := 0; i < count; i++` of `DecodeACKPacket`, from index `i` with `n`
rounds to go: the values `DecodeSequenceID(buf[9+i*4:])` in order. -/
def decodeMissingAcks (buf : List Nat) : Nat → Nat → Option (List Nat)
  | _, 0 => some []
  | i, n + 1 => do
    let seq ← (sliceFrom buf (9 + i * 4)).bind DecodeSequenceID
    let rest ← decodeMissingAcks buf (i + 1) n
    some (seq :: rest)

def DecodeACKPacket (buf : List Nat) : Option (Except String ACKPacket) :=
  if buf.length < 9 then
    some (.error "buffer too small when decoding ACK packet")
  else do
    let b0 ← index buf 0
    if b0 ≠ ACK then
      some (.error "wrong packet header when decoding ACP packet")
    else do
      let latestSeqID ← (sliceFrom buf 1).bind DecodeSequenceID
      let count ← (sliceFrom buf 5).bind binary.Uint32
      if buf.length < 9 + count * 4 then
        some (.error "buffer too small when decoding missing seq ids in ACK packet")
      else do
        let missingAcks ← decodeMissingAcks buf 0 count
        some (.ok (NewACKPacket latestSeqID missingAcks))

/-- The interface `Packet` with its two implementations. -/
inductive Packet where
  | data (p : DATAPacket)
  | ack (p : ACKPacket)
  deriving DecidableEq, Repr

/-- The method `TransportLayer.decodeTransportPacket`; it reads `data[0]` before any length
test. -/
def decodeTransportPacket (data : List Nat) : Option (Except String Packet) := do
  let packet_type ← index data 0
  if packet_type = DATA then (DecodeDataPacket data).map (fun r => r.map Packet.data)
  else if packet_type = ACK then (DecodeACKPacket data).map (fun r => r.map Packet.ack)
  else some (.error "invalid transport packet type")

end transport_layer

namespace sync

open builtin

/-! ## Wire formats of digest.go, delta.go, packet_pull.go, packet_push.go

`ed25519.Verify` is a parameter `verify publicKey message signature`. -/

/-- The method `Version.Encode`. -/
def Version.Encode (v : Nat) (buf : List Nat) : List Nat := binary.AppendUint32 buf v

def DecodeVersion (buf : List Nat) : Option Nat := binary.Uint32 buf

/-- The method `NodePublicKey.Encode`. -/
def NodePublicKey.Encode (s : NodePublicKey) (buf : List Nat) : List Nat := buf ++ s

/-- The conversion `NodePublicKey(buf[0:32])`. -/
def DecodeNodePublicKey (buf : List Nat) : Option NodePublicKey := slice buf 0 32

/-- The method `Signature.Encode`. -/
def Signature.Encode (s : Signature) (buf : List Nat) : List Nat := buf ++ s

/-- The loop `for i := 4; i < 4+digestCount*36; i += 36` of `DecodeDigest`, at offset `i`
with `n` rounds to go. -/
def decodeDigestLoop (buf : List Nat) :
    Nat → Nat → DigestNodes → Nat → Option (DigestNodes × Nat)
  | _, 0, digestNodes, maxVersion => some (digestNodes, maxVersion)
  | i, n + 1, digestNodes, maxVersion => do
    let node ← (sliceFrom buf i).bind DecodeNodePublicKey
    let version ← (sliceFrom buf (i + 32)).bind DecodeVersion
    decodeDigestLoop buf (i + 36) n (digestNodes.insert node version) (max maxVersion version)

/-- The function `DecodeDigest`: the digest and the number of bytes read. -/
def DecodeDigest (buf : List Nat) : Option (Except String (Digest × Nat)) :=
  if buf.length < 4 then
    some (.error "error decoding digest: 'buffer too short'")
  else do
    let digestCount ← binary.Uint32 buf
    if buf.length < 4 + digestCount * 36 then
      some (.error "error decoding digest: 'buffer too short'")
    else do
      let r ← decodeDigestLoop buf 4 digestCount ∅ 0
      some (.ok ({ Nodes := r.1, MaxVersion := r.2 }, 4 + digestCount * 36))

def Digest.EncodeWithoutSender (d : Digest) (buf : List Nat) (sender : NodePublicKey) :
    List Nat :=
  let nodeCount := d.Nodes.entries.length
  let nodeCount := if sender ∈ d.Nodes then nodeCount - 1 else nodeCount
  let buf := binary.AppendUint32 buf (nodeCount % 2 ^ 32)
  d.Nodes.entries.foldl
    (fun buf e => if e.1 = sender then buf
                  else Version.Encode e.2 (NodePublicKey.Encode e.1 buf)) buf

def Delta.Encode (d : Delta) (buf : List Nat) : List Nat :=
  let buf := NodePublicKey.Encode d.PublicKey buf
  let buf := Version.Encode d.Version buf
  let buf := binary.AppendUint32 buf (d.Value.length % 2 ^ 32)
  let buf := buf ++ d.Value
  let buf := match d.AttachedSecret with
    | some secret => (buf ++ [0x01]) ++ secret
    | none => buf ++ [0x00]
  buf ++ d.Signature

/-- The function `DecodeDelta`: the delta and the number of bytes read. The length tests are
on `int`s, the upper bound `40+length` of the value slice is a `uint32`. -/
def DecodeDelta (verify : List Nat → List Nat → List Nat → Bool) (buf : List Nat) :
    Option (Except String (Delta × Nat)) :=
  if buf.length < 40 then
    some (.error "error decoding delta: 'buffer too short'")
  else do
    let publicKey ← (sliceFrom buf 0).bind DecodeNodePublicKey
    let version ← (sliceFrom buf 32).bind DecodeVersion
    let length ← (sliceFrom buf 36).bind binary.Uint32
    if buf.length < 40 + length + 65 then
      some (.error "error decoding delta: 'buffer too short'")
    else do
      let value ← slice buf 40 ((40 + length) % 2 ^ 32)
      let offset := 40 + length
      let flag ← index buf offset
      let hasContactAttached := decide (flag = 0x01)
      let offset := offset + 1
      let attached ←
        if hasContactAttached then
          if buf.length < offset + 32 + 64 then
            some (Except.error "error decoding delta: 'buffer too short'")
          else (slice buf offset (offset + 32)).map (fun secret => .ok (some secret, offset + 32))
        else some (.ok (none, offset))
      match attached with
      | .error e => some (.error e)
      | .ok (attachedSecret, offset) => do
        let signature ← slice buf offset (offset + 64)
        let signed ← slice buf 0 offset
        if !verify publicKey signed signature then
          some (.error "invalid signature for delta")
        else
          some (.ok (NewDelta publicKey version value attachedSecret signature, offset + 64))

/-- The method `Deltas.Encode`. -/
def Deltas.Encode (d : Deltas) (buf : List Nat) : List Nat :=
  let buf := binary.AppendUint32 buf (d.length % 2 ^ 32)
  d.foldl (fun buf delta => delta.Encode buf) buf

/-- The loop `for i := 0; i < deltaCount; i++` of `DecodeDeltas` with `n` rounds to go. -/
def decodeDeltasLoop (verify : List Nat → List Nat → List Nat → Bool) (buf : List Nat) :
    Nat → Nat → Deltas → Option (Except String (Deltas × Nat))
  | 0, current, deltas => some (.ok (deltas, current))
  | n + 1, current, deltas => do
    let rest ← sliceFrom buf current
    let r ← DecodeDelta verify rest
    match r with
    | .error e => some (.error e)
    | .ok (delta, readCount) =>
      decodeDeltasLoop verify buf n (current + readCount) (deltas ++ [delta])

/-- The function `DecodeDeltas`: the deltas and the number of bytes read. -/
def DecodeDeltas (verify : List Nat → List Nat → List Nat → Bool) (buf : List Nat) :
    Option (Except String (Deltas × Nat)) :=
  if buf.length < 4 then
    some (.error "error decoding deltas: 'buffer too short'")
  else do
    let deltaCount ← binary.Uint32 buf
    decodeDeltasLoop verify buf deltaCount 4 []

/-! ### packet.go, packet_pull.go -/

def SYNC_PULL : Nat := 0
def SYNC_PUSH : Nat := 1

/-- A pull packet; `digest` is the digest the Go field points to. -/
structure PullPacket where
  senderPublicKey : NodePublicKey
  senderVersion : Nat
  digest : Digest
  signature : Signature
  deriving DecidableEq

def pullPacketHeader (senderPublicKey : NodePublicKey) (senderVersion : Nat) (digest : Digest) :
    List Nat :=
  let buf := [SYNC_PULL]
  let buf := NodePublicKey.Encode senderPublicKey buf
  let buf := Version.Encode senderVersion buf
  digest.EncodeWithoutSender buf senderPublicKey

/-- The method `Model.NewPullPacket`; the call `model.Digest()` may create the own digest. -/
def Model.NewPullPacket (ed : Ed25519) (model : Model) : Model × PullPacket :=
  let (model1, digest) := model.Digest
  let senderVersion := digest.version model1.PublicKey
  let header := pullPacketHeader model1.PublicKey senderVersion digest
  let signature := ed.sign model1.PrivateKey header
  (model1, { senderPublicKey := model1.PublicKey, senderVersion := senderVersion,
             digest := digest, signature := signature })

def PullPacket.Encode (packet : PullPacket) : List Nat :=
  let buf := pullPacketHeader packet.senderPublicKey packet.senderVersion packet.digest
  Signature.Encode packet.signature buf

def DecodePullPacket (verify : List Nat → List Nat → List Nat → Bool) (buf : List Nat) :
    Option (Except String PullPacket) :=
  if buf.length < 37 then
    some (.error "error decoding sync pull packet 'buffer too short'")
  else do
    let b0 ← index buf 0
    if b0 ≠ SYNC_PULL then
      some (.error "error decoding sync pull packet 'invalid packet type'")
    else do
      let senderPublicKey ← (slice buf 1 33).bind DecodeNodePublicKey
      let senderVersion ← (slice buf 33 37).bind DecodeVersion
      let rest ← sliceFrom buf 37
      let r ← DecodeDigest rest
      match r with
      | .error e => some (.error e)
      | .ok (digest, digestLen) =>
        -- Reinsert sender in digest
        let digest := (digest.UpdateNode senderPublicKey senderVersion).1
        if buf.length < 37 + digestLen + 64 then
          some (.error "error decoding sync pull packet 'buffer too short'")
        else do
          let signature ← slice buf (37 + digestLen) (37 + digestLen + 64)
          let signed ← slice buf 0 (37 + digestLen)
          if !verify senderPublicKey signed signature then
            some (.error "error decoding sync pull packet 'invalid signature'")
          else
            some (.ok { senderPublicKey := senderPublicKey, senderVersion := senderVersion,
                        digest := digest, signature := signature })

/-! ### packet_push.go -/

structure PushPacket where
  senderPublicKey : NodePublicKey
  receiverPublicKey : NodePublicKey
  delta : Deltas
  signature : Signature
  deriving DecidableEq, Repr

def pushPacketHeader (senderPublicKey receiverPublicKey : NodePublicKey) (delta : Deltas) :
    List Nat :=
  let buf := [SYNC_PUSH]
  let buf := NodePublicKey.Encode senderPublicKey buf
  let buf := NodePublicKey.Encode receiverPublicKey buf
  Deltas.Encode delta buf

def Model.NewPushPacket (ed : Ed25519) (model : Model) (receiverPublicKey : NodePublicKey)
    (delta : Deltas) : PushPacket :=
  let header := pushPacketHeader model.PublicKey receiverPublicKey delta
  let signature := ed.sign model.PrivateKey header
  { senderPublicKey := model.PublicKey, receiverPublicKey := receiverPublicKey,
    delta := delta, signature := signature }

def PushPacket.Encode (packet : PushPacket) : List Nat :=
  let buf := pushPacketHeader packet.senderPublicKey packet.receiverPublicKey packet.delta
  buf ++ packet.signature

/-- The function `DecodePushPacket`. There is no length test between `DecodeDeltas` and the
slice `buf[65+deltaCount : 65+deltaCount+64]`. -/
def DecodePushPacket (verify : List Nat → List Nat → List Nat → Bool) (buf : List Nat) :
    Option (Except String PushPacket) :=
  if buf.length < 69 then
    some (.error "error decoding push packet 'buffer too short'")
  else do
    let b0 ← index buf 0
    if b0 ≠ SYNC_PUSH then
      some (.error "error decoding push packet 'invalid packet type'")
    else do
      let senderPublicKey ← (slice buf 1 33).bind DecodeNodePublicKey
      let receiverPublicKey ← (slice buf 33 65).bind DecodeNodePublicKey
      let rest ← sliceFrom buf 65
      let r ← DecodeDeltas verify rest
      match r with
      | .error e => some (.error e)
      | .ok (delta, deltaCount) => do
        let signature ← slice buf (65 + deltaCount) (65 + deltaCount + 64)
        let signed ← slice buf 0 (65 + deltaCount)
        if !verify senderPublicKey signed signature then
          some (.error "error decoding push packet 'invalid signature'")
        else
          some (.ok { senderPublicKey := senderPublicKey,
                      receiverPublicKey := receiverPublicKey,
                      delta := delta, signature := signature })

end sync

namespace packet_layer

open builtin

/-! ## decoder.go with its run-time panics

The functions of `decoder.go` once more, now with every operation that can panic made
explicit: `Front()` of an empty list is nil and dereferencing it panics, a slice expression
panics out of range, and `ReadMessage` panics on its `unreachable` branch. The result `none`
is a panic or, in a loop, the exhaustion of the fuel. -/

/-- The method `frontPacket`: `decoder.packets.Front().Value`. -/
def PacketDecoder.frontPacketChecked (decoder : PacketDecoder) : Option (List Nat) :=
  decoder.packets.head?

/-- The method `readNextPacket`: `decoder.packets.Remove(decoder.packets.Front())`. -/
def PacketDecoder.readNextPacketChecked (decoder : PacketDecoder) : Option PacketDecoder :=
  match decoder.packets with
  | [] => none
  | _ :: rest => some { packets := rest, cursor := 0 }

/-- The loop of `skipEmptyPackets`. -/
def PacketDecoder.skipEmptyLoopChecked :
    Nat → PacketDecoder → Option (PacketDecoder × Except String Unit)
  | 0, _ => none
  | fuel + 1, decoder =>
    if decoder.packets.length = 0 then some (decoder, .ok ())
    else do
      let front ← decoder.frontPacketChecked
      let packet ← sliceFrom front decoder.cursor
      if packet.length < 2 then do
        let decoder1 ← decoder.readNextPacketChecked
        some (decoder1, .ok ())
      else
        match packetHeaderFromBytes packet with
        | .error e => some (decoder, .error e)
        | .ok header =>
          if !header.flags.NonEmpty then do
            let decoder1 ← decoder.readNextPacketChecked
            PacketDecoder.skipEmptyLoopChecked fuel decoder1
          else some (decoder, .ok ())

def PacketDecoder.skipEmptyPacketsChecked (decoder : PacketDecoder) :
    Option (PacketDecoder × Except String Unit) :=
  PacketDecoder.skipEmptyLoopChecked (decoder.packets.length + 1) decoder

/-- The loop `for packetElm != nil` of `HasMessage` over the remaining list elements. -/
def hasMessageLoopChecked : Nat → List (List Nat) → Nat → Option (Except String Bool)
  | 0, _, _ => none
  | _ + 1, [], _ => some (.ok false)
  | fuel + 1, packet :: rest, cursor => do
    let tail ← sliceFrom packet cursor
    match packetHeaderFromBytes tail with
    | .error e => some (.error e)
    | .ok header =>
      if !header.flags.Continuation then some (.ok true)
      else
        let cursor1 := cursor + (header.size + 2)
        if cursor1 + 3 ≥ packet.length then hasMessageLoopChecked fuel rest 0
        else hasMessageLoopChecked fuel (packet :: rest) cursor1

def PacketDecoder.HasMessageChecked (decoder : PacketDecoder) :
    Option (PacketDecoder × Except String Bool) := do
  let r ← decoder.skipEmptyPacketsChecked
  match r with
  | (decoder1, .error e) => do
    let decoder2 ← decoder1.readNextPacketChecked
    some (decoder2, .error e)
  | (decoder1, .ok ()) =>
    if decoder1.packets.length = 0 then some (decoder1, .ok false)
    else
      (hasMessageLoopChecked (hasMessageFuel decoder1.packets) decoder1.packets
        decoder1.cursor).map (fun r => (decoder1, r))

/-- The loop `for decoder.packets.Len() > 0 && continuation` of `ReadMessage`; the result
carries the final value of `continuation`. -/
def PacketDecoder.readLoopChecked :
    Nat → PacketDecoder → List Nat → Bool →
      Option (PacketDecoder × Except String (List Nat × Bool))
  | 0, _, _, _ => none
  | fuel + 1, decoder, msg, continuation =>
    if decoder.packets.length > 0 ∧ continuation = true then do
      let front ← decoder.frontPacketChecked
      let packet ← sliceFrom front decoder.cursor
      match packetHeaderFromBytes packet with
      | .error e => do
        let decoder1 ← decoder.readNextPacketChecked
        some (decoder1, .error e)
      | .ok header =>
        if header.size + 2 > packet.length then do
          let decoder1 ← decoder.readNextPacketChecked
          some (decoder1, .error "corrupt packet: header size longer than packet")
        else do
          let body ← slice packet 2 (header.size + 2)
          let msg1 := msg ++ body
          let decoder1 : PacketDecoder :=
            { packets := decoder.packets, cursor := decoder.cursor + (header.size + 2) }
          let front1 ← decoder1.frontPacketChecked
          let decoder2 ← if decoder1.cursor ≥ front1.length then decoder1.readNextPacketChecked
                         else some decoder1
          PacketDecoder.readLoopChecked fuel decoder2 msg1 header.flags.Continuation
    else some (decoder, .ok (msg, continuation))

def PacketDecoder.ReadMessageChecked (decoder : PacketDecoder) :
    Option (PacketDecoder × Except String (List Nat)) := do
  let r ← decoder.HasMessageChecked
  match r with
  | (decoder1, .error e) => some (decoder1, .error e)
  | (decoder1, .ok hasMsg) =>
    if !hasMsg then some (decoder1, .error "no message to read")
    else do
      let r2 ← PacketDecoder.readLoopChecked (hasMessageFuel decoder1.packets) decoder1 [] true
      match r2 with
      | (decoder2, .error e) => some (decoder2, .error e)
      | (decoder2, .ok (msg, continuation)) =>
        if continuation then none
        else some (decoder2, .ok msg)

/-- A call on a decoder: `AppendPacket(packet)`, `HasMessage()` or `ReadMessage()`. -/
inductive Call where
  | append (packet : List Nat)
  | hasMessage
  | readMessage
  deriving DecidableEq, Repr

/-- A sequence of calls on a decoder, results discarded; `none` when a call panics. -/
def runCalls : PacketDecoder → List Call → Option PacketDecoder
  | decoder, [] => some decoder
  | decoder, .append packet :: calls => runCalls (decoder.AppendPacket packet).1 calls
  | decoder, .hasMessage :: calls => do
    let r ← decoder.HasMessageChecked
    runCalls r.1 calls
  | decoder, .readMessage :: calls => do
    let r ← decoder.ReadMessageChecked
    runCalls r.1 calls

/-- The loop of `FuzzDecodeRandomBytes`,
`for hasMsg || err != nil { if err == nil { ReadMessage() }; hasMsg, err = HasMessage() }`,
entered with the result of a first `HasMessage()`: the decoder when the loop ends, `none` on
a panic or when `fuel` rounds do not suffice. -/
def fuzzLoop : Nat → PacketDecoder → Option PacketDecoder
  | 0, _ => none
  | fuel + 1, decoder => do
    let r ← decoder.HasMessageChecked
    match r with
    | (decoder1, .ok false) => some decoder1
    | (decoder1, .ok true) => do
      let r2 ← decoder1.ReadMessageChecked
      fuzzLoop fuel r2.1
    | (decoder1, .error _) => fuzzLoop fuel decoder1

/-- The cursor is inside the front packet, and `0` when there is no packet. -/
def PacketDecoder.CursorInRange (decoder : PacketDecoder) : Prop :=
  match decoder.packets with
  | [] => decoder.cursor = 0
  | front :: _ => decoder.cursor ≤ front.length

/-- The bytes and packets still to be read: one for each packet and each of its bytes, less
the cursor. -/
def PacketDecoder.remaining (decoder : PacketDecoder) : Nat :=
  (decoder.packets.map (fun p => p.length + 1)).sum - decoder.cursor

/-- From `(packets, cursor)` the look-ahead of `HasMessage` finds the end of a message,
either right away or, when at most three bytes of the front packet are left, from the next
packet on. -/
def MessageAhead (packets : List (List Nat)) (cursor : Nat) : Prop :=
  (∃ fuel, hasMessageLoop fuel packets cursor = .ok true) ∨
  ∃ front rest, packets = front :: rest ∧ front.length ≤ cursor + 3 ∧
    ∃ fuel, hasMessageLoop fuel rest 0 = .ok true

end packet_layer

namespace packet_layer

open builtin

/-! ## encoder.go with its run-time panics

The functions of `encoder.go` once more with the bounds checks of the Go run time: an index
or slice expression out of range is `none`, and so is the exhaustion of the fuel of a loop.
The differences `packetSize - 2` and `packetSize - cursor - 2` are computed in `Int`, as the
Go `int` values they are. `EncodeMessageChecked` also returns the bodies of the frames it
wrote: the argument `message` of every call of the closure `copyMessage`, in the order of
the calls. -/

def PacketEncoder.PopPacketChecked (encoder : PacketEncoder) :
    Option (PacketEncoder × List Nat) :=
  match encoder.packets with
  | [] =>
    if encoder.cursor > 0 then do
      let packet ← slice encoder.workingPacket 0 encoder.cursor
      some ({ encoder with workingPacket := List.replicate encoder.packetSize 0, cursor := 0 },
            packet)
    else some (encoder, [])
  | p :: rest => some ({ encoder with packets := rest }, p)

def PacketEncoder.writeNextPacketChecked (encoder : PacketEncoder) : Option PacketEncoder := do
  let packet ← slice encoder.workingPacket 0 encoder.cursor
  some { encoder with
         packets := encoder.packets ++ [packet],
         workingPacket := List.replicate encoder.packetSize 0,
         cursor := 0 }

/-- The closure `copyMessage` of `EncodeMessage`: the two writes `workingPacket[cursor]` and
`workingPacket[cursor+1]`, the slice `workingPacket[cursor+2:]`, and `copy`. -/
def PacketEncoder.copyMessageChecked (encoder : PacketEncoder) (message : List Nat)
    (flags : packetFlags) : Option (Except String PacketEncoder) :=
  let header := newPacketHeader message.length flags
  let headerBytes := header.toBytes
  if ¬ encoder.cursor < encoder.workingPacket.length then none
  else
    let wp := encoder.workingPacket.set encoder.cursor headerBytes.1
    if ¬ encoder.cursor + 1 < wp.length then none
    else
      let wp := wp.set (encoder.cursor + 1) headerBytes.2
      match sliceFrom wp (encoder.cursor + 2) with
      | none => none
      | some room =>
        if message.length > room.length then
          some (.error "message does not fit in packet")
        else
          some (.ok { encoder with
                      workingPacket := copyAt wp (encoder.cursor + 2) message,
                      cursor := encoder.cursor + (message.length + 2) })

/-- The loop `for len(remaining) > 0` of `EncodeMessage`; `frames` collects the frame bodies
written so far. -/
def PacketEncoder.encodeRemainingChecked :
    Nat → PacketEncoder → List Nat → List (List Nat) →
      Option (Except String (PacketEncoder × List (List Nat)))
  | 0, encoder, remaining, frames =>
    if remaining.length > 0 then none else some (.ok (encoder, frames))
  | fuel + 1, encoder, remaining, frames =>
    if remaining.length > 0 then
      let room : Int := (encoder.packetSize : Int) - (encoder.cursor : Int) - 2
      if (remaining.length : Int) > room then
        if room < 0 then none
        else do
          let chunk ← slice remaining 0 room.toNat
          match ← encoder.copyMessageChecked chunk (newPacketFlags true) with
          | .error e => some (.error e)
          | .ok encoder1 => do
            let encoder2 ← encoder1.writeNextPacketChecked
            if (encoder2.packetSize : Int) - 2 < 0 then none
            else do
              let rest ← sliceFrom remaining ((encoder2.packetSize : Int) - 2).toNat
              PacketEncoder.encodeRemainingChecked fuel encoder2 rest (frames ++ [chunk])
      else do
        match ← encoder.copyMessageChecked remaining (newPacketFlags false) with
        | .error e => some (.error e)
        | .ok encoder1 => some (.ok (encoder1, frames ++ [remaining]))
    else some (.ok (encoder, frames))

/-- The method `EncodeMessage`; the result carries the bodies of the frames written. -/
def PacketEncoder.EncodeMessageChecked (encoder : PacketEncoder) (message : List Nat) :
    Option (Except String (PacketEncoder × List (List Nat))) := do
  -- edge case with a single byte left
  let encoder ←
    if (encoder.cursor : Int) ≥ (encoder.packetSize : Int) - 2 then
      encoder.writeNextPacketChecked
    else some encoder
  let room : Int := (encoder.packetSize : Int) - (encoder.cursor : Int) - 2
  if (message.length : Int) > room then
    -- break up
    let startReadCount := room
    if startReadCount < 0 then none
    else do
      let chunk ← slice message 0 startReadCount.toNat
      match ← encoder.copyMessageChecked chunk (newPacketFlags true) with
      | .error e => some (.error e)
      | .ok encoder1 => do
        let encoder2 ← encoder1.writeNextPacketChecked
        let remaining ← sliceFrom message startReadCount.toNat
        PacketEncoder.encodeRemainingChecked remaining.length encoder2 remaining [chunk]
  else do
    match ← encoder.copyMessageChecked message (newPacketFlags false) with
    | .error e => some (.error e)
    | .ok encoder1 => some (.ok (encoder1, [message]))

/-- A call of the encoder by its user. -/
inductive EncoderCall where
  | encodeMessage (message : List Nat)
  | popPacket
  deriving DecidableEq, Repr

/-- What a run of calls has produced: the encoder, the bodies of the frames written by
`EncodeMessage`, and the packets returned by `PopPacket`. -/
structure EncoderRun where
  encoder : PacketEncoder
  frames : List (List Nat)
  popped : List (List Nat)
  deriving DecidableEq, Repr

/-- Runs the calls in order. The run stops with `.error` at the first `EncodeMessage` that
returns an error, and is `none` when a call panics. -/
def runEncoderCalls : EncoderRun → List EncoderCall → Option (Except String EncoderRun)
  | run, [] => some (.ok run)
  | run, .encodeMessage message :: calls =>
    match run.encoder.EncodeMessageChecked message with
    | none => none
    | some (.error e) => some (.error e)
    | some (.ok (encoder, frames)) =>
      runEncoderCalls { run with encoder := encoder, frames := run.frames ++ frames } calls
  | run, .popPacket :: calls =>
    match run.encoder.PopPacketChecked with
    | none => none
    | some (encoder, packet) =>
      runEncoderCalls { run with encoder := encoder, popped := run.popped ++ [packet] } calls

end packet_layer

namespace binary

/-- The function `binary.LittleEndian.Uint16`: it reads `b[0]` and `b[1]` and panics on a
shorter slice. -/
def LittleEndianUint16 (b : List Nat) : Option Nat :=
  match b with
  | b0 :: b1 :: _ => some (b0 + b1 * 2 ^ 8)
  | _ => none

end binary

namespace contact_bitmap

open builtin

/-! ## contact_bitmap.go

`HMAC-SHA256` is a parameter `hmac key message` of the functions below. A `Seed` is a
`uint64`. An `io.Reader` is the stream of bytes it delivers together with the read position:
the readers the repository passes (`crypto/rand.Reader`, `*math/rand.Rand`) fill the whole
buffer and return no error, so that the error branches after `Read` are not reached. -/

def BITMAP_SIZE : Nat := 2048 / 8

/-- The method `Seed.Bytes`. -/
def Seed.Bytes (s : Nat) : List Nat := binary.AppendUint64 [] s

/-- An `io.Reader` that does not fail: byte `i` of the stream is `stream i % 256`, and `pos`
bytes have been read. -/
structure Reader where
  stream : Nat → Nat
  pos : Nat

/-- The method `Read` on a buffer of `n` bytes: the bytes read and the reader after them. -/
def Reader.Read (reader : Reader) (n : Nat) : List Nat × Reader :=
  ((List.range n).map (fun i => reader.stream (reader.pos + i) % 256),
   { reader with pos := reader.pos + n })

def RandomSeed (cryptoRandom : Reader) : Option (Nat × Reader) := do
  let (buf, cryptoRandom) := cryptoRandom.Read 8
  let seed ← binary.Uint64 buf
  some (seed, cryptoRandom)

/-- The function `getBit`: `(bits[index/8] & (1 << (index % 8))) > 0`. -/
def getBit (bits : List Nat) (index : Nat) : Option Bool := do
  let b ← builtin.index bits (index / 8)
  some (decide (b &&& ((1 <<< (index % 8)) % 256) > 0))

/-- The function `setBit`: `bits[index/8] |= 1 << (index % 8)` to set the bit and
`bits[index/8] &= ^(1 << (index % 8))` to clear it. -/
def setBit (bits : List Nat) (index : Nat) (value : Bool) : Option (List Nat) := do
  let b ← builtin.index bits (index / 8)
  if value then
    some (bits.set (index / 8) (b ||| ((1 <<< (index % 8)) % 256)))
  else
    some (bits.set (index / 8) (b &&& (255 ^^^ ((1 <<< (index % 8)) % 256))))

/-- The loop `for slices.Contains(bits, bitIndex)` of `ContactBits`. -/
def resolveCollision : Nat → List Nat → Nat → Option Nat
  | 0, _, _ => none
  | fuel + 1, bits, bitIndex =>
    if bits.contains bitIndex then resolveCollision fuel bits ((bitIndex + 1) % 0x7FF)
    else some bitIndex

/-- The loop `for i := 0; i < 12; i++` of `ContactBits`, with `rounds` rounds left to run from
index `i`. The inner loop runs at most once for each index already chosen. -/
def contactBitsLoop (hash : List Nat) : Nat → Nat → List Nat → Option (List Nat)
  | 0, _, bits => some bits
  | rounds + 1, i, bits => do
    let tail ← sliceFrom hash (i * 2)
    let word ← binary.LittleEndianUint16 tail
    let bitIndex := (word % 2 ^ 16) &&& 0x7FF
    let bitIndex ← resolveCollision (bits.length + 1) bits bitIndex
    contactBitsLoop hash rounds (i + 1) (bits ++ [bitIndex])

def ContactBits (hmac : List Nat → List Nat → List Nat) (seed : Nat) (secret : List Nat) :
    Option (Except String (List Nat)) :=
  if secret.length ≠ 32 then
    some (.error "wrong secret length, expected 32")
  else do
    let hash := hmac secret (Seed.Bytes seed)
    let bits ← contactBitsLoop hash 12 0 []
    some (.ok bits)

end contact_bitmap

namespace device

/-! ## contacts_container.go

The type `MemoryContactsContainer`, the implementation of the interface `ContactsContainer`
that the repository has. A `ContactID` is a Go string and a `SharedSecret` a byte slice. Go
ranges over a map in an unspecified order; `AllGroups` and `AllLinks` return the keys in the
order of the association list. -/

structure ContactsContainer where
  links : AList (fun _ : String => List Nat)
  groups : AList (fun _ : String => List Nat)

def ContactsContainer.ContactSecret (c : ContactsContainer) (contact : String) :
    Except String (List Nat) :=
  match c.links.lookup contact with
  | some secret => .ok secret
  | none =>
    match c.groups.lookup contact with
    | some secret => .ok secret
    | none => .error "contact not found"

def ContactsContainer.DeleteContact (c : ContactsContainer) (contact : String) :
    ContactsContainer :=
  { links := c.links.erase contact, groups := c.groups.erase contact }

def ContactsContainer.AllGroups (c : ContactsContainer) : List String := c.groups.keys

def ContactsContainer.AllLinks (c : ContactsContainer) : List String := c.links.keys

end device

namespace contact_bitmap

open builtin

structure ContactBitmapEncoding where
  Seed : Nat
  Bitmap : List Nat
  ContactCount : Int
  deriving DecidableEq, Repr

/-- What the statements about `EncodeContactBitmap` speak of and the source does not keep:
the contacts encoded (counted by `contactCount`) in the attempt whose bitmap is the best so
far, in the order of the list, and the `contactCount` of every attempt run, in order. -/
structure EncodeTrace where
  encoded : List String
  counts : List Nat
  deriving DecidableEq, Repr

/-- The first loop `for i, bit := range contactBits` of `EncodeContactBitmap`, from index
`i`: `true` when it reaches `continue CONTACTS`. -/
def hasCollision (lockedBits bitmap : List Nat) : Nat → List Nat → Option Bool
  | _, [] => some false
  | i, bit :: rest => do
    let locked ← getBit lockedBits bit
    if locked then
      let value ← getBit bitmap bit
      if value ≠ (i % 2 == 1) then some true
      else hasCollision lockedBits bitmap (i + 1) rest
    else hasCollision lockedBits bitmap (i + 1) rest

/-- The second loop `for i, bit := range contactBits` of `EncodeContactBitmap`, from index
`i`; it returns `lockedBits` and `bitmap`. -/
def setContactBits : List Nat → List Nat → Nat → List Nat → Option (List Nat × List Nat)
  | lockedBits, bitmap, _, [] => some (lockedBits, bitmap)
  | lockedBits, bitmap, i, bit :: rest => do
    let lockedBits ← setBit lockedBits bit true
    let bitmap ← setBit bitmap bit (i % 2 == 1)
    setContactBits lockedBits bitmap (i + 1) rest

/-- The loop `CONTACTS` of `EncodeContactBitmap` over the rest of the contact list. It
returns `bitmap`, `lockedBits` and `contactCount`, and with them the contacts it has
counted. -/
def encodeContacts (hmac : List Nat → List Nat → List Nat) (seed : Nat)
    (contactsContainer : device.ContactsContainer) :
    List String → List Nat → List Nat → Nat → List String →
      Option (Except String (List Nat × List Nat × Nat × List String))
  | [], bitmap, lockedBits, contactCount, encoded =>
    some (.ok (bitmap, lockedBits, contactCount, encoded))
  | contactID :: rest, bitmap, lockedBits, contactCount, encoded =>
    match contactsContainer.ContactSecret contactID with
    | .error e => some (.error e)
    | .ok secret =>
      match ContactBits hmac seed secret with
      | none => none
      | some (.error e) => some (.error e)
      | some (.ok contactBits) =>
        -- Check for collisions
        match hasCollision lockedBits bitmap 0 contactBits with
        | none => none
        | some true =>
          encodeContacts hmac seed contactsContainer rest bitmap lockedBits contactCount encoded
        | some false =>
          -- Since no collisions, set bits
          match setContactBits lockedBits bitmap 0 contactBits with
          | none => none
          | some (lockedBits, bitmap) =>
            encodeContacts hmac seed contactsContainer rest bitmap lockedBits
              (contactCount + 1) (encoded ++ [contactID])

/-- The loop `for ; attempts > 0; attempts--` of `EncodeContactBitmap`. -/
def encodeAttempts (hmac : List Nat → List Nat → List Nat)
    (prioritizedContactList : List String) (contactsContainer : device.ContactsContainer) :
    Nat → Reader → List Nat → Nat → Int → EncodeTrace →
      Option (Except String (ContactBitmapEncoding × EncodeTrace × Reader))
  | 0, cryptoRandom, bestBitmap, bestSeed, bestContactCount, trace =>
    some (.ok ({ Seed := bestSeed, Bitmap := bestBitmap, ContactCount := bestContactCount },
               trace, cryptoRandom))
  | attempts + 1, cryptoRandom, bestBitmap, bestSeed, bestContactCount, trace =>
    match RandomSeed cryptoRandom with
    | none => none
    | some (seed, cryptoRandom) =>
      let (bitmap, cryptoRandom) := cryptoRandom.Read BITMAP_SIZE
      let lockedBits := List.replicate BITMAP_SIZE 0
      match encodeContacts hmac seed contactsContainer prioritizedContactList bitmap lockedBits
          0 [] with
      | none => none
      | some (.error e) => some (.error e)
      | some (.ok (bitmap, _, contactCount, encoded)) =>
        let best : List Nat × Nat × Int × List String :=
          if (contactCount : Int) > bestContactCount then
            (bitmap, seed, (contactCount : Int), encoded)
          else (bestBitmap, bestSeed, bestContactCount, trace.encoded)
        let trace : EncodeTrace :=
          { encoded := best.2.2.2, counts := trace.counts ++ [contactCount] }
        if contactCount = prioritizedContactList.length then
          some (.ok ({ Seed := best.2.1, Bitmap := best.1, ContactCount := best.2.2.1 },
                     trace, cryptoRandom))
        else
          encodeAttempts hmac prioritizedContactList contactsContainer attempts cryptoRandom
            best.1 best.2.1 best.2.2.1 trace

def EncodeContactBitmap (hmac : List Nat → List Nat → List Nat) (cryptoRandom : Reader)
    (prioritizedContactList : List String) (contactsContainer : device.ContactsContainer)
    (attempts : Int) :
    Option (Except String (ContactBitmapEncoding × EncodeTrace × Reader)) :=
  encodeAttempts hmac prioritizedContactList contactsContainer attempts.toNat cryptoRandom
    (List.replicate BITMAP_SIZE 0) 0 (-1) { encoded := [], counts := [] }

/-- The loop `for i, bit := range contactBits` of `DecodeContactBitmap`, from index `i`:
`false` when it reaches `continue CONTACTS`. -/
def matchesBitmap (bitmap : List Nat) : Nat → List Nat → Option Bool
  | _, [] => some true
  | i, bit :: rest => do
    let value ← getBit bitmap bit
    if value ≠ (i % 2 == 1) then some false
    else matchesBitmap bitmap (i + 1) rest

/-- The loop `CONTACTS` of `DecodeContactBitmap` over the rest of `allContacts`. -/
def decodeContacts (hmac : List Nat → List Nat → List Nat)
    (contactsContainer : device.ContactsContainer) (seed : Nat) (bitmap : List Nat) :
    List String → List String → Option (Except String (List String))
  | [], decodedContacts => some (.ok decodedContacts)
  | contactID :: rest, decodedContacts =>
    match contactsContainer.ContactSecret contactID with
    | .error e => some (.error e)
    | .ok contactSecret =>
      match ContactBits hmac seed contactSecret with
      | none => none
      | some (.error e) => some (.error e)
      | some (.ok contactBits) =>
        match matchesBitmap bitmap 0 contactBits with
        | none => none
        | some false => decodeContacts hmac contactsContainer seed bitmap rest decodedContacts
        | some true =>
          decodeContacts hmac contactsContainer seed bitmap rest
            (decodedContacts ++ [contactID])

/-- The function `DecodeContactBitmap`; its argument `random` is not used. The final
`sort.Slice` orders the identifiers as strings. -/
def DecodeContactBitmap (hmac : List Nat → List Nat → List Nat)
    (contactsContainer : device.ContactsContainer) (seed : Nat) (bitmap : List Nat) :
    Option (Except String (List String)) :=
  if bitmap.length ≠ BITMAP_SIZE then
    some (.error "expected length of data to be 256")
  else
    let allContacts := contactsContainer.AllGroups ++ contactsContainer.AllLinks
    match decodeContacts hmac contactsContainer seed bitmap allContacts [] with
    | none => none
    | some (.error e) => some (.error e)
    | some (.ok decodedContacts) =>
      some (.ok (decodedContacts.insertionSort (fun a b => a ≤ b)))

end contact_bitmap

namespace device

/-! ## device.go

A `DeviceAddress` and a `ContactID` are Go strings, a `SessionID` is a `uint64`. Of the
interface `Device` the layers below use `MaxPacketSize`, `SendPacket`, `Rand` and
`CryptoRand`: the device is the function `MaxPacketSize`, the two generators, and the list of
the packets handed to `SendPacket`, oldest first. A `*math/rand.Rand` is the stream of the
values it draws together with the number of draws made. -/

/-- The constants of type `BroadcastStrategy`, an `int`. -/
def BroadcastAll : Int := 0
def BroadcastLogFunc : Int := 1
def BroadcastTwo : Int := 2

/-- The options of `ProtocolOptions`; the two durations are in nanoseconds. -/
structure ProtocolOptions where
  EnableSync : Bool
  DisableAutoRREQOnConnection : Bool
  MaxRREQTTL : Int
  RREQBroadcastStrategy : Int
  ForwardRREQsWhenMatching : Bool
  ACKDelay : Int
  ACKTimeout : Int
  deriving DecidableEq, Repr

def DefaultProtocolOptions : ProtocolOptions :=
  { EnableSync := false,
    DisableAutoRREQOnConnection := false,
    MaxRREQTTL := 10,
    RREQBroadcastStrategy := BroadcastAll,
    ForwardRREQsWhenMatching := false,
    ACKDelay := 1000000000,
    ACKTimeout := 3000000000 }

structure Rand where
  stream : Nat → Nat
  pos : Nat

/-- The method `Int63` of `*rand.Rand`. -/
def Rand.Int63 (random : Rand) : Nat × Rand :=
  (random.stream random.pos % 2 ^ 63, { random with pos := random.pos + 1 })

/-- A draw of `*rand.Rand` below `n`, as `Shuffle` makes it for `n > 0`. -/
def Rand.Intn (random : Rand) (n : Nat) : Nat × Rand :=
  (random.stream random.pos % n, { random with pos := random.pos + 1 })

/-- The call `swap(i, j)` of `Shuffle` on the keys: `keys[j], keys[i] = keys[i], keys[j]`. -/
def swapKeys {K : Type} (keys : List K) (i j : Nat) : List K :=
  match keys[i]?, keys[j]? with
  | some a, some b => (keys.set j a).set i b
  | _, _ => keys

/-- The loop `for ; i > 0; i--` of `Rand.Shuffle`, the Fisher-Yates shuffle: it draws `j`
below `i + 1` and swaps the keys at `i` and `j`. -/
def Rand.shuffleLoop {K : Type} : Nat → Rand → List K → List K × Rand
  | 0, random, keys => (keys, random)
  | i + 1, random, keys =>
    let (j, random) := random.Intn (i + 2)
    Rand.shuffleLoop i random (swapKeys keys (i + 1) j)

/-- The method `Shuffle` of `*rand.Rand` applied to a list of keys. -/
def Rand.Shuffle {K : Type} (random : Rand) (keys : List K) : List K × Rand :=
  Rand.shuffleLoop (keys.length - 1) random keys

structure Device where
  MaxPacketSize : String → Except String Int
  rand : Rand
  cryptoRand : contact_bitmap.Reader
  /-- The calls of `SendPacket`, oldest first. -/
  sent : List (String × List Nat)
  /-- The value `int(math.Log2(float64(n))+1)` that the platform computes in floating point. -/
  log2Plus1 : Int → Int

def Device.SendPacket (dev : Device) (address : String) (packet : List Nat) : Device :=
  { dev with sent := dev.sent ++ [(address, packet)] }

end device

namespace utils

/-! ## maps.go -/

/-- The function `ShuffleMapKeys`: the keys of the map, sorted and then shuffled. -/
def ShuffleMapKeys {K : Type} {V : Type} [LinearOrder K] (random : device.Rand)
    (m : AList (fun _ : K => V)) : List K × device.Rand :=
  random.Shuffle (m.keys.insertionSort (fun a b => a ≤ b))

end utils

namespace packet_layer

/-! ## packet_layer.go -/

structure connection where
  encoder : PacketEncoder
  decoder : PacketDecoder

/-- The function `newConnection`; it panics when `NewPacketEncoder` does. -/
def newConnection (packetSize : Int) : Option connection := do
  let encoder ← NewPacketEncoder packetSize.toNat
  some { encoder := encoder, decoder := NewPacketDecoder }

/-- The packet layer. The field `sendCalls` is not one of the Go struct: it records the
arguments of every call of `SendBytes`, oldest first, for the statements that speak of what
is sent to whom. -/
structure PacketLayer where
  options : device.ProtocolOptions
  connections : AList (fun _ : String => connection)
  sendCalls : List (String × List Nat)

def NewLinkLayer (options : device.ProtocolOptions) : PacketLayer :=
  { options := options, connections := ∅, sendCalls := [] }

def PacketLayer.OnConnection (link : PacketLayer) (dev : device.Device) (address : String) :
    Option PacketLayer :=
  match dev.MaxPacketSize address with
  | .error _ => some link
  | .ok packetSize => do
    let conn ← newConnection packetSize
    some { link with connections := link.connections.insert address conn }

def PacketLayer.OnDisconnection (link : PacketLayer) (address : String) : PacketLayer :=
  { link with connections := link.connections.erase address }

/-- The loop `for conn.encoder.PacketCount() > 0` of `SendBytes`. -/
def sendPackets (address : String) :
    Nat → PacketEncoder → device.Device → Option (PacketEncoder × device.Device)
  | 0, encoder, dev => if encoder.PacketCount > 0 then none else some (encoder, dev)
  | fuel + 1, encoder, dev =>
    if encoder.PacketCount > 0 then do
      let (encoder, packetBytes) ← encoder.PopPacketChecked
      sendPackets address fuel encoder (dev.SendPacket address packetBytes)
    else some (encoder, dev)

/-- The method `SendBytes`. When `EncodeMessage` returns an error the connection is left as
it was. -/
def PacketLayer.SendBytes (link : PacketLayer) (dev : device.Device) (address : String)
    (data : List Nat) : Option (PacketLayer × device.Device × Bool) :=
  let link := { link with sendCalls := link.sendCalls ++ [(address, data)] }
  match dev.MaxPacketSize address with
  | .error _ => some (link, dev, false)
  | .ok packetSize =>
    match link.connections.lookup address with
    | none => some (link, dev, false)
    | some conn => do
      let encoder ←
        (if packetSize ≠ (conn.encoder.packetSize : Int) then NewPacketEncoder packetSize.toNat
         else some conn.encoder)
      match ← encoder.EncodeMessageChecked data with
      | .error _ => some (link, dev, false)
      | .ok (encoder, _) => do
        let (encoder, dev) ← sendPackets address encoder.PacketCount encoder dev
        some ({ link with
                connections := link.connections.insert address { conn with encoder := encoder } },
              dev, true)

/-- The loop of `BroadcastBytes` over the shuffled addresses. -/
def PacketLayer.broadcastLoop (data : List Nat) :
    List String → PacketLayer → device.Device → Option (PacketLayer × device.Device)
  | [], link, dev => some (link, dev)
  | address :: rest, link, dev => do
    let (link, dev, _) ← link.SendBytes dev address data
    PacketLayer.broadcastLoop data rest link dev

def PacketLayer.BroadcastBytes (link : PacketLayer) (dev : device.Device) (data : List Nat) :
    Option (PacketLayer × device.Device) :=
  let (addresses, random) := utils.ShuffleMapKeys dev.rand link.connections
  PacketLayer.broadcastLoop data addresses link { dev with rand := random }

/-- The loop of the case `BroadcastLogFunc`, with the counter `count`. -/
def PacketLayer.broadcastLogFuncLoop (data : List Nat) (exceptAddress : String)
    (connectionCount : Int) :
    List String → Int → PacketLayer → device.Device → Option (PacketLayer × device.Device)
  | [], _, link, dev => some (link, dev)
  | address :: rest, count, link, dev =>
    if address ≠ exceptAddress then
      if count < min connectionCount (dev.log2Plus1 connectionCount) then do
        let (link, dev, _) ← link.SendBytes dev address data
        PacketLayer.broadcastLogFuncLoop data exceptAddress connectionCount rest (count + 1)
          link dev
      else
        PacketLayer.broadcastLogFuncLoop data exceptAddress connectionCount rest (count + 1)
          link dev
    else
      PacketLayer.broadcastLogFuncLoop data exceptAddress connectionCount rest count link dev

/-- The loop of the case `BroadcastAll`. -/
def PacketLayer.broadcastAllLoop (data : List Nat) (exceptAddress : String) :
    List String → PacketLayer → device.Device → Option (PacketLayer × device.Device)
  | [], link, dev => some (link, dev)
  | address :: rest, link, dev =>
    if address ≠ exceptAddress then do
      let (link, dev, _) ← link.SendBytes dev address data
      PacketLayer.broadcastAllLoop data exceptAddress rest link dev
    else PacketLayer.broadcastAllLoop data exceptAddress rest link dev

/-- The loop `for i := range 2` of the case `BroadcastTwo`, from index `i`. -/
def PacketLayer.broadcastTwoLoop (data : List Nat) (adresses : List String) :
    List Nat → PacketLayer → device.Device → Option (PacketLayer × device.Device)
  | [], link, dev => some (link, dev)
  | i :: rest, link, dev =>
    if adresses.length > i then do
      let address ← adresses[i]?
      let (link, dev, _) ← link.SendBytes dev address data
      PacketLayer.broadcastTwoLoop data adresses rest link dev
    else PacketLayer.broadcastTwoLoop data adresses rest link dev

/-- The method `BroadcastBytesExcept`: broadcasts bytes to some of the neighbours, except for
`exceptAddress`. An option that is none of the three strategies is a panic. -/
def PacketLayer.BroadcastBytesExcept (link : PacketLayer) (dev : device.Device)
    (data : List Nat) (exceptAddress : String) : Option (PacketLayer × device.Device) :=
  if link.options.RREQBroadcastStrategy = device.BroadcastLogFunc then
    let connectionCount : Int := (link.connections.keys.length : Int) - 1
    let (addresses, random) := utils.ShuffleMapKeys dev.rand link.connections
    PacketLayer.broadcastLogFuncLoop data exceptAddress connectionCount addresses 0 link
      { dev with rand := random }
  else if link.options.RREQBroadcastStrategy = device.BroadcastAll then
    let (addresses, random) := utils.ShuffleMapKeys dev.rand link.connections
    PacketLayer.broadcastAllLoop data exceptAddress addresses link { dev with rand := random }
  else if link.options.RREQBroadcastStrategy = device.BroadcastTwo then
    let (adresses, random) := utils.ShuffleMapKeys dev.rand link.connections
    PacketLayer.broadcastTwoLoop data adresses [0, 1] link { dev with rand := random }
  else none

end packet_layer

namespace network_layer

/-! ## session.go, routing_table.go, network_layer.go and the packet handlers

The cryptographic primitives are parameters, collected in `Crypto`. The callbacks of the
interface `NetworkLayerEvents` are those of the transport layer: `SessionEstablished` and
`SessionBroken` are recorded in a log, oldest first; `ReplyPayload` is a function; and since
the transport layer's `SessionBroken` calls `BroadcastRouteRequest` when it has messages
waiting, `hasPending n` says whether it has when the log holds `n` events. What else the
transport layer does inside a callback does not touch the two tables and is not part of the
model. Logging is left out. A handler returns `none` when it panics. -/

structure Crypto where
  /-- The function `HMAC-SHA256(key, message)`. -/
  hmac : List Nat → List Nat → List Nat
  /-- The function `X25519(scalar, point)`. -/
  x25519 : List Nat → List Nat → List Nat
  /-- The public key of an X25519 private key. -/
  publicKey : List Nat → List Nat
  /-- The first `n` bytes of `HKDF-SHA256` of a secret with no salt and no info. -/
  hkdf : List Nat → Nat → List Nat
  /-- The function `Seal` of AES-GCM: key, nonce, plaintext, additional data. -/
  gcmSeal : List Nat → List Nat → List Nat → List Nat → List Nat
  /-- The function `Open` of AES-GCM: key, nonce, ciphertext, additional data; `none` when
  the authentication fails. -/
  gcmOpen : List Nat → List Nat → List Nat → List Nat → Option (List Nat)

/-- The call `ecdh.X25519().NewPrivateKey(key)`. -/
def NewPrivateKey (key : List Nat) : Except String (List Nat) :=
  if key.length ≠ 32 then .error "crypto/ecdh: invalid private key size" else .ok key

/-- The method `PrivateKey.ECDH` for X25519: an all-zero shared secret is an error. -/
def ECDH (crypto : Crypto) (ephemeralKey remoteEphemeralKey : List Nat) :
    Except String (List Nat) :=
  let out := crypto.x25519 ephemeralKey remoteEphemeralKey
  if out.all (fun b => b == 0) then .error "crypto/ecdh: bad X25519 remote ECDH input"
  else .ok out

/-- The call `ecdh.X25519().GenerateKey(rand)`: the private key is 32 bytes of the reader. -/
def GenerateKey (cryptoRand : contact_bitmap.Reader) : List Nat × contact_bitmap.Reader :=
  cryptoRand.Read 32

/-- The call `aes.NewCipher(key)`: the key has 16, 24 or 32 bytes. -/
def NewCipher (key : List Nat) : Except String (List Nat) :=
  if key.length = 16 ∨ key.length = 24 ∨ key.length = 32 then .ok key
  else .error "crypto/aes: invalid key size"

/-- The method `Seal` of the GCM of a cipher; it panics on a nonce that has not 12 bytes. -/
def Seal (crypto : Crypto) (aesgcm nonce plaintext additionalData : List Nat) :
    Option (List Nat) :=
  if nonce.length ≠ 12 then none else some (crypto.gcmSeal aesgcm nonce plaintext additionalData)

/-- The method `Open` of the GCM of a cipher; it panics on a nonce that has not 12 bytes. -/
def Open (crypto : Crypto) (aesgcm nonce ciphertext additionalData : List Nat) :
    Option (Except String (List Nat)) :=
  if nonce.length ≠ 12 then none
  else
    match crypto.gcmOpen aesgcm nonce ciphertext additionalData with
    | none => some (.error "cipher: message authentication failed")
    | some plaintext => some (.ok plaintext)

def SessionSecret (crypto : Crypto) (container : device.ContactsContainer) (contact : String)
    (ephemeral remoteEphemeral : List Nat) : Except String (List Nat) :=
  match container.ContactSecret contact with
  | .error e => .error e
  | .ok contactSecret =>
    match NewPrivateKey ephemeral with
    | .error e => .error e
    | .ok ephemeralKey =>
      match NewPublicKey remoteEphemeral with
      | .error e => .error e
      | .ok remoteEphemeralKey =>
        match ECDH crypto ephemeralKey remoteEphemeralKey with
        | .error e => .error e
        | .ok ephemeralSecret =>
          let secret := contactSecret ++ ephemeralSecret
          let sessionSecret := crypto.hkdf secret 32
          let n := sessionSecret.length
          if n ≠ 32 then .error "failed to read 32 bytes session secret"
          else .ok sessionSecret

structure RequestTableEntry where
  RequestID : Nat
  SourceNeighbour : Option String
  EphemeralPrivateKey : Option (List Nat)
  deriving DecidableEq, Repr

def NewRequestTableEntry (reqID : Nat) (source : Option String)
    (ephemeral : Option (List Nat)) : RequestTableEntry :=
  { RequestID := reqID, SourceNeighbour := source, EphemeralPrivateKey := ephemeral }

/-- A session table entry; a nil pointer and the nil slice are `none`. -/
structure SessionTableEntry where
  RequestID : Nat
  SessionID : Nat
  Contact : Option String
  SourceNeighbour : Option String
  TargetNeighbour : Option String
  SessionSecret : Option (List Nat)
  deriving DecidableEq, Repr

def SessionTableEntry.EndpointSession (s : SessionTableEntry) : Bool :=
  s.Contact ≠ none

def SessionEntryFromRREQ (random : device.Rand) (contact : Option String)
    (reqEntry : RequestTableEntry) (sender : Option String)
    (sessionSecret : Option (List Nat)) : SessionTableEntry × device.Rand :=
  let (sessionID, random) := random.Int63
  ({ RequestID := reqEntry.RequestID,
     SessionID := sessionID,
     Contact := contact,
     SourceNeighbour := sender,
     TargetNeighbour := none,
     SessionSecret := sessionSecret }, random)

/-- The function `SessionEntryFromRREP`; its argument `random` is not used. -/
def SessionEntryFromRREP (contact : Option String) (reqEntry : RequestTableEntry)
    (rrep : RREPPacket) (sender : Option String) (sessionSecret : Option (List Nat)) :
    SessionTableEntry :=
  { RequestID := reqEntry.RequestID,
    SessionID := rrep.SessionID,
    Contact := contact,
    SourceNeighbour := reqEntry.SourceNeighbour,
    TargetNeighbour := sender,
    SessionSecret := sessionSecret }

/-- A callback of `NetworkLayerEvents` that was made. -/
inductive NetworkEvent where
  | SessionEstablished (session : Nat) (contact : String) (address : String)
      (payload : List Nat) (isInitiator : Bool)
  | SessionBroken (session : Nat)
  deriving DecidableEq, Repr

structure NetworkLayerEvents where
  ReplyPayload : Nat → String → List Nat
  hasPending : Nat → Bool
  log : List NetworkEvent

/-- The network layer; `contacts` is `dev.ContactsContainer()`. -/
structure NetworkLayer where
  dev : device.Device
  contacts : device.ContactsContainer
  events : NetworkLayerEvents
  options : device.ProtocolOptions
  packetLayer : packet_layer.PacketLayer
  requestTable : AList (fun _ : Nat => RequestTableEntry)
  sessionTable : AList (fun _ : Nat => SessionTableEntry)

def NewNetworkLayer (dev : device.Device) (contacts : device.ContactsContainer)
    (events : NetworkLayerEvents) (options : device.ProtocolOptions) : NetworkLayer :=
  { dev := dev, contacts := contacts, events := events, options := options,
    packetLayer := packet_layer.NewLinkLayer options,
    requestTable := ∅, sessionTable := ∅ }

/-- A message handed to the upper layer by `handleSESSPacket`. -/
structure SessionMessage where
  sessionID : Nat
  data : List Nat
  deriving DecidableEq, Repr

/-- The call `network.packetLayer.SendBytes(address, data)`. -/
def NetworkLayer.SendBytes (network : NetworkLayer) (address : String) (data : List Nat) :
    Option (NetworkLayer × Bool) := do
  let (link, dev, successful) ← network.packetLayer.SendBytes network.dev address data
  some ({ network with packetLayer := link, dev := dev }, successful)

def NetworkLayer.BroadcastPacket (network : NetworkLayer) (packet : Packet) :
    Option NetworkLayer := do
  let (link, dev) ← network.packetLayer.BroadcastBytes network.dev packet.EncodePacket
  some { network with packetLayer := link, dev := dev }

def NetworkLayer.BroadcastPacketExcept (network : NetworkLayer) (packet : Packet)
    (except : String) : Option NetworkLayer := do
  let (link, dev) ←
    network.packetLayer.BroadcastBytesExcept network.dev packet.EncodePacket except
  some { network with packetLayer := link, dev := dev }

def NetworkLayer.sendRouteError (network : NetworkLayer) (targetAddr : String) (sessID : Nat) :
    Option NetworkLayer := do
  let packet := NewRERR sessID
  let (network, _) ← network.SendBytes targetAddr packet.EncodePacket
  some network

/-- The inner loop of `buildRouteRequest` over the shuffled session ids: whether one of
the sessions is with `contact`. -/
def NetworkLayer.hasSessionLoop (network : NetworkLayer) (contact : String) :
    List Nat → Option Bool
  | [] => some false
  | sessionID :: rest => do
    let session ← network.sessionTable.lookup sessionID
    if session.Contact ≠ none ∧ some contact = session.Contact then some true
    else NetworkLayer.hasSessionLoop network contact rest

/-- The loop of `buildRouteRequest` over `allContacts`. -/
def NetworkLayer.prioritizeLoop (network : NetworkLayer) :
    List String → device.Rand → List String → Option (List String × device.Rand)
  | [], random, prioritizedContacts => some (prioritizedContacts, random)
  | contact :: rest, random, prioritizedContacts => do
    let (sessionIDs, random) := utils.ShuffleMapKeys random network.sessionTable
    let hasSession ← network.hasSessionLoop contact sessionIDs
    if !hasSession then
      NetworkLayer.prioritizeLoop network rest random (prioritizedContacts ++ [contact])
    else NetworkLayer.prioritizeLoop network rest random prioritizedContacts

/-- The method `buildRouteRequest`: builds a new RREQ packet based on the current state of
the network layer. -/
def NetworkLayer.buildRouteRequest (crypto : Crypto) (network : NetworkLayer) (ttl : Nat) :
    Option (NetworkLayer × Except String RREQPacket) := do
  let allContacts := network.contacts.AllGroups ++ network.contacts.AllLinks
  let (prioritizedContacts, random) ← network.prioritizeLoop allContacts network.dev.rand []
  let network := { network with dev := { network.dev with rand := random } }
  match ← contact_bitmap.EncodeContactBitmap crypto.hmac network.dev.cryptoRand
      prioritizedContacts network.contacts 5 with
  | .error e => some (network, .error e)
  | .ok (bitmapResult, _, cryptoRand) =>
    let network := { network with dev := { network.dev with cryptoRand := cryptoRand } }
    if bitmapResult.ContactCount = 0 then
      some (network, .error "no contacts encoded in route request")
    else do
      let requestID := bitmapResult.Seed
      let (ephemeralPrivate, cryptoRand) := GenerateKey network.dev.cryptoRand
      let network := { network with dev := { network.dev with cryptoRand := cryptoRand } }
      let requestTableEntry := NewRequestTableEntry requestID none (some ephemeralPrivate)
      let network :=
        { network with requestTable := network.requestTable.insert requestID requestTableEntry }
      let rreq ← NewRREQPacket requestID ttl (crypto.publicKey ephemeralPrivate)
        bitmapResult.Bitmap
      some (network, .ok rreq)

/-- The conversion `TTL(network.options.MaxRREQTTL)` of an `int` to a `uint16`. -/
def NetworkLayer.maxTTL (network : NetworkLayer) : Nat :=
  (network.options.MaxRREQTTL % 2 ^ 16).toNat

def NetworkLayer.BroadcastRouteRequest (crypto : Crypto) (network : NetworkLayer) :
    Option NetworkLayer := do
  let ttl := network.maxTTL
  match ← network.buildRouteRequest crypto ttl with
  | (network, .error _) => some network
  | (network, .ok rreqPacket) => do
    let (link, dev) ← network.packetLayer.BroadcastBytes network.dev rreqPacket.EncodePacket
    some { network with packetLayer := link, dev := dev }

def NetworkLayer.SendRouteRequest (crypto : Crypto) (network : NetworkLayer)
    (address : String) (ttl : Nat) : Option NetworkLayer := do
  match ← network.buildRouteRequest crypto ttl with
  | (network, .error _) => some network
  | (network, .ok rreqPacket) => do
    let (network, _) ← network.SendBytes address rreqPacket.EncodePacket
    some network

def NetworkLayer.SessionEstablished (network : NetworkLayer) (contact : String)
    (session : Nat) (address : String) (payload : List Nat) (isInitiator : Bool) :
    NetworkLayer :=
  { network with events := { network.events with
      log := network.events.log ++
        [NetworkEvent.SessionEstablished session contact address payload isInitiator] } }

/-- The call `network.events.SessionBroken(sessID)`. -/
def NetworkLayer.eventSessionBroken (crypto : Crypto) (network : NetworkLayer)
    (sessID : Nat) : Option NetworkLayer :=
  let network := { network with events := { network.events with
      log := network.events.log ++ [NetworkEvent.SessionBroken sessID] } }
  if network.events.hasPending network.events.log.length then
    network.BroadcastRouteRequest crypto
  else some network

def NetworkLayer.SessionBroken (crypto : Crypto) (network : NetworkLayer) (sessID : Nat)
    (address : Option String) : Option NetworkLayer :=
  match network.sessionTable.lookup sessID with
  | none => some network
  | some sessionTableEntry => do
    let network ←
      (if address = none then
        -- Session broken due to timeout. Send RERR
        match sessionTableEntry.SourceNeighbour, sessionTableEntry.TargetNeighbour with
        | some source, _ => network.sendRouteError source sessID
        | none, some target => network.sendRouteError target sessID
        | none, none => some network
      else some network)
    let entry ← network.sessionTable.lookup sessID
    let isEndpointSession := entry.EndpointSession
    let network := { network with sessionTable := network.sessionTable.erase sessID }
    if isEndpointSession then network.eventSessionBroken crypto sessID
    else some network

def NetworkLayer.forwardRouteReply (crypto : Crypto) (network : NetworkLayer)
    (rrep : RREPPacket) (session : SessionTableEntry) : Option NetworkLayer := do
  let source ← session.SourceNeighbour
  let (network, successful) ← network.SendBytes source rrep.EncodePacket
  if !successful then do
    let network ←
      (match session.TargetNeighbour with
      | some target => network.sendRouteError target session.SessionID
      | none => some network)
    network.SessionBroken crypto session.SessionID session.SourceNeighbour
  else some network

def NetworkLayer.forwardRouteRequest (network : NetworkLayer) (rreq : RREQPacket)
    (sender : String) : Option NetworkLayer :=
  let rreq := if rreq.TTL > network.maxTTL then { rreq with TTL := network.maxTTL } else rreq
  -- We are not recipient, and thus forward the rreq if TTL is not 0
  let rreq := { rreq with TTL := (rreq.TTL + 2 ^ 16 - 1) % 2 ^ 16 }
  if rreq.TTL ≤ 0 then some network
  else network.BroadcastPacketExcept (Packet.rreq rreq) sender

/-- The method `NewRREP`; the nonce is 12 bytes of the reader. -/
def NetworkLayer.NewRREP (crypto : Crypto) (network : NetworkLayer) (reqID sessID : Nat)
    (sessionSecret ownEphemeralPublicKey payload : List Nat) :
    Option (NetworkLayer × Except String RREPPacket) :=
  let (nonce, cryptoRand) := network.dev.cryptoRand.Read 12
  let network := { network with dev := { network.dev with cryptoRand := cryptoRand } }
  match NewCipher sessionSecret with
  | .error e => some (network, .error e)
  | .ok aesgcm => do
    let headers := EncodeRREPHeader reqID sessID ownEphemeralPublicKey
    let cipher ← Seal crypto aesgcm nonce payload headers
    some (network, .ok { RequestID := reqID, SessionID := sessID,
                         EphemeralKey := ownEphemeralPublicKey, Nonce := nonce,
                         Cipher := cipher })

/-- The loop of `handleRouteRequest` over the decoded contacts. -/
def NetworkLayer.replyLoop (crypto : Crypto) (rreq : RREQPacket) (sender : String) :
    List String → NetworkLayer → Option NetworkLayer
  | [], network => some network
  | contactID :: rest, network => do
    -- Create session
    let request := network.requestTable.lookup rreq.RequestID
    let (ephemeralPrivate, cryptoRand) := GenerateKey network.dev.cryptoRand
    let network := { network with dev := { network.dev with cryptoRand := cryptoRand } }
    match SessionSecret crypto network.contacts contactID ephemeralPrivate rreq.EphemeralKey with
    | .error _ => some network
    | .ok sessionSecret => do
      let request ← request
      let (sessionEntry, random) :=
        SessionEntryFromRREQ network.dev.rand (some contactID) request (some sender)
          (some sessionSecret)
      let network := { network with dev := { network.dev with rand := random } }
      let sessionID := sessionEntry.SessionID
      let network :=
        { network with sessionTable := network.sessionTable.insert sessionID sessionEntry }
      let network := network.SessionEstablished contactID sessionID sender [] false
      let payload := network.events.ReplyPayload sessionID contactID
      match ← network.NewRREP crypto rreq.RequestID sessionID sessionSecret
          (crypto.publicKey ephemeralPrivate) payload with
      | (network, .error _) => NetworkLayer.replyLoop crypto rreq sender rest network
      | (network, .ok rrep) => do
        let network ← network.forwardRouteReply crypto rrep sessionEntry
        let network ←
          (if network.options.ForwardRREQsWhenMatching then
            network.forwardRouteRequest rreq sender
          else some network)
        NetworkLayer.replyLoop crypto rreq sender rest network

def NetworkLayer.handleRouteRequest (crypto : Crypto) (network : NetworkLayer)
    (rreq : RREQPacket) (sender : String) : Option NetworkLayer :=
  -- Check if we have seen this RREQ before
  match network.requestTable.lookup rreq.RequestID with
  | some _ => some network
  | none =>
    -- Create table entry
    let networkTableEntry : RequestTableEntry :=
      { RequestID := rreq.RequestID, SourceNeighbour := some sender,
        EphemeralPrivateKey := none }
    let network :=
      { network with
        requestTable := network.requestTable.insert rreq.RequestID networkTableEntry }
    -- Check if we are recipient
    match contact_bitmap.DecodeContactBitmap crypto.hmac network.contacts rreq.RequestID
        rreq.ContactMask with
    | none => none
    | some (.error _) => some network
    | some (.ok decodedContacts) =>
      if decodedContacts.length = 0 then network.forwardRouteRequest rreq sender
      else
        -- We are a recipient and thus reply with a RREP
        NetworkLayer.replyLoop crypto rreq sender decodedContacts network

/-- The loop of `handleRouteReply` over the contacts, for a request of this node. -/
def NetworkLayer.openLoop (crypto : Crypto) (rrep : RREPPacket) (sender : String)
    (request : RequestTableEntry) (headers : List Nat) :
    List String → NetworkLayer → Option NetworkLayer
  | [], network => some network
  | contact :: rest, network => do
    let ephemeralPrivate ← request.EphemeralPrivateKey
    match SessionSecret crypto network.contacts contact ephemeralPrivate rrep.EphemeralKey with
    | .error _ => some network
    | .ok sessionSecret =>
      match NewCipher sessionSecret with
      | .error _ => some network
      | .ok aesgcm => do
        match ← Open crypto aesgcm rrep.Nonce rrep.Cipher headers with
        | .error _ => NetworkLayer.openLoop crypto rrep sender request headers rest network
        | .ok payload =>
          let session :=
            SessionEntryFromRREP (some contact) request rrep (some sender) (some sessionSecret)
          let network :=
            { network with sessionTable := network.sessionTable.insert rrep.SessionID session }
          some (network.SessionEstablished contact session.SessionID sender payload true)

def NetworkLayer.handleRouteReply (crypto : Crypto) (network : NetworkLayer)
    (rrep : RREPPacket) (sender : String) : Option NetworkLayer :=
  match network.requestTable.lookup rrep.RequestID with
  | none => some network
  | some request =>
    if request.SourceNeighbour = none then
      let headers := EncodeRREPHeader rrep.RequestID rrep.SessionID rrep.EphemeralKey
      let contacts := network.contacts.AllLinks ++ network.contacts.AllGroups
      NetworkLayer.openLoop crypto rrep sender request headers contacts network
    else
      let session := SessionEntryFromRREP none request rrep (some sender) none
      let network :=
        { network with sessionTable := network.sessionTable.insert rrep.SessionID session }
      network.forwardRouteReply crypto rrep session

/-- The bytes of `fmt.Sprintf("%d", sessionID)`. -/
def sessionHeaders (sessionID : Nat) : List Nat :=
  (Nat.repr sessionID).toList.map Char.toNat

def NetworkLayer.decryptSESSPacket (crypto : Crypto) (packet : SESSPacket)
    (session : SessionTableEntry) : Option (Except String SessionMessage) :=
  match session.Contact with
  | none => some (.error "contact not found")
  | some _ =>
    match NewCipher (session.SessionSecret.getD []) with
    | .error e => some (.error e)
    | .ok aesgcm => do
      let headers := sessionHeaders packet.SessionID
      match ← Open crypto aesgcm packet.Nonce packet.Cipher headers with
      | .error e => some (.error e)
      | .ok data => some (.ok { sessionID := packet.SessionID, data := data })

def NetworkLayer.handleSESSPacket (crypto : Crypto) (network : NetworkLayer)
    (packet : SESSPacket) (sender : String) : Option (NetworkLayer × Option SessionMessage) :=
  match network.sessionTable.lookup packet.SessionID with
  | none => some (network, none)
  | some session =>
    match session.SourceNeighbour, session.TargetNeighbour with
    | some source, some target =>
      let fromAddr := source
      let toAddr := target
      if fromAddr ≠ sender then
        let (fromAddr, toAddr) := (toAddr, fromAddr)
        if fromAddr ≠ sender then some (network, none)
        else do
          -- Forward packet
          let (network, _) ← network.SendBytes toAddr packet.EncodePacket
          some (network, none)
      else do
        -- Forward packet
        let (network, _) ← network.SendBytes toAddr packet.EncodePacket
        some (network, none)
    | _, _ => do
      match ← NetworkLayer.decryptSESSPacket crypto packet session with
      | .error _ => some (network, none)
      | .ok decrypted => some (network, some decrypted)

def NetworkLayer.handleRouteErrorPacket (crypto : Crypto) (network : NetworkLayer)
    (rerr : RERRPacket) (sender : String) : Option NetworkLayer :=
  let sessID := rerr.SessionID
  match network.sessionTable.lookup sessID with
  | none => some network
  | some entry =>
    match entry.SourceNeighbour, entry.TargetNeighbour with
    | some source, some target => do
      let network ←
        (if sender = source then network.sendRouteError target sessID
        else if sender = target then network.sendRouteError source sessID
        else some network)
      some { network with sessionTable := network.sessionTable.erase sessID }
    | _, _ =>
      -- We are one of the contacts
      network.SessionBroken crypto sessID (some sender)

/-- The loop of `handleDisconnect` over the shuffled session ids. -/
def NetworkLayer.disconnectLoop (crypto : Crypto) (failedNode : String) :
    List Nat → NetworkLayer → Option NetworkLayer
  | [], network => some network
  | sessID :: rest, network => do
    let entry ← network.sessionTable.lookup sessID
    let network ←
      (if (entry.SourceNeighbour = none ∧ entry.TargetNeighbour ≠ none ∧
            entry.TargetNeighbour = some failedNode) ∨
          (entry.TargetNeighbour = none ∧ entry.SourceNeighbour ≠ none ∧
            entry.SourceNeighbour = some failedNode) then
        network.SessionBroken crypto sessID (some failedNode)
      else
        match entry.SourceNeighbour, entry.TargetNeighbour with
        | some source, some target =>
          -- Make sure to send error packet the correct direction if applicable
          if source = failedNode then
            (network.sendRouteError target entry.SessionID).map fun network =>
              { network with sessionTable := network.sessionTable.erase sessID }
          else if target = failedNode then
            (network.sendRouteError source entry.SessionID).map fun network =>
              { network with sessionTable := network.sessionTable.erase sessID }
          else some network
        | _, _ => some network)
    NetworkLayer.disconnectLoop crypto failedNode rest network

def NetworkLayer.handleDisconnect (crypto : Crypto) (network : NetworkLayer)
    (failedNode : String) : Option NetworkLayer :=
  -- Check if we have session related to the failed node
  let (sessIDs, random) := utils.ShuffleMapKeys network.dev.rand network.sessionTable
  let network := { network with dev := { network.dev with rand := random } }
  NetworkLayer.disconnectLoop crypto failedNode sessIDs network

/-- The loop of `DeleteContact` over the shuffled session ids. -/
def NetworkLayer.deleteContactLoop (crypto : Crypto) (contact : String) :
    List Nat → NetworkLayer → Option NetworkLayer
  | [], network => some network
  | sessionID :: rest, network => do
    let session ← network.sessionTable.lookup sessionID
    let network ←
      (if session.Contact ≠ none ∧ session.Contact = some contact then
        (network.SessionBroken crypto sessionID none).map fun network =>
          { network with
            requestTable := network.requestTable.erase session.RequestID,
            sessionTable := network.sessionTable.erase session.SessionID }
      else some network)
    NetworkLayer.deleteContactLoop crypto contact rest network

def NetworkLayer.DeleteContact (crypto : Crypto) (network : NetworkLayer) (contact : String) :
    Option NetworkLayer :=
  let network := { network with contacts := network.contacts.DeleteContact contact }
  let (sessionIDs, random) := utils.ShuffleMapKeys network.dev.rand network.sessionTable
  let network := { network with dev := { network.dev with rand := random } }
  NetworkLayer.deleteContactLoop crypto contact sessionIDs network

def NetworkLayer.handlePacket (crypto : Crypto) (network : NetworkLayer) (sender : String)
    (packet : Packet) : Option (NetworkLayer × Option SessionMessage) :=
  match packet with
  | .rreq rreq => (network.handleRouteRequest crypto rreq sender).map (fun n => (n, none))
  | .rrep rrep => (network.handleRouteReply crypto rrep sender).map (fun n => (n, none))
  | .sess data => network.handleSESSPacket crypto data sender
  | .rerr rerr => (network.handleRouteErrorPacket crypto rerr sender).map (fun n => (n, none))

def NetworkLayer.OnConnection (crypto : Crypto) (network : NetworkLayer) (address : String) :
    Option NetworkLayer := do
  let link ← network.packetLayer.OnConnection network.dev address
  let network := { network with packetLayer := link }
  if !network.options.DisableAutoRREQOnConnection then
    network.SendRouteRequest crypto address 1
  else some network

def NetworkLayer.OnDisconnection (crypto : Crypto) (network : NetworkLayer)
    (address : String) : Option NetworkLayer :=
  let network := { network with packetLayer := network.packetLayer.OnDisconnection address }
  network.handleDisconnect crypto address

end network_layer

namespace packet_layer

/-! ## packet_layer.go: `ReceivePacket`

The loop `for { ... }` of `ReceivePacket` has no bound of its own: it ends when `HasMessage`
returns false without an error, and takes another round after every error. The embedding
gives it `fuel` rounds; the result `none` is a panic inside a call or the exhaustion of the
fuel. -/

/-- The loop of `ReceivePacket`: an error of `HasMessage` or of `ReadMessage` is logged and
the loop continues. -/
def receiveLoop :
    Nat → PacketDecoder → List (List Nat) → Option (PacketDecoder × List (List Nat))
  | 0, _, _ => none
  | fuel + 1, decoder, messages =>
    match decoder.HasMessageChecked with
    | none => none
    | some (decoder, .error _) => receiveLoop fuel decoder messages
    | some (decoder, .ok false) => some (decoder, messages)
    | some (decoder, .ok true) =>
      match decoder.ReadMessageChecked with
      | none => none
      | some (decoder, .error _) => receiveLoop fuel decoder messages
      | some (decoder, .ok msg) => receiveLoop fuel decoder (messages ++ [msg])

/-- The method `ReceivePacket`, its loop run with `fuel` rounds: the messages decoded. -/
def PacketLayer.ReceivePacket (fuel : Nat) (link : PacketLayer) (sender : String)
    (packet : List Nat) : Option (PacketLayer × List (List Nat)) :=
  match link.connections.lookup sender with
  | none => some (link, [])
  | some conn =>
    match conn.decoder.AppendPacket packet with
    | (_, .error _) => some (link, [])
    | (decoder, .ok ()) =>
      match receiveLoop fuel decoder [] with
      | none => none
      | some (decoder, messages) =>
        some ({ link with
                connections := link.connections.insert sender { conn with decoder := decoder } },
              messages)

end packet_layer

namespace sync

/-! ## sync.go, and `ReceiveSyncPacket` of packet.go

The maps `state` and `sessions` are association lists; a `*Model` that the Go code changes
through the pointer is written back to `state` in place. The callbacks of the interface
`SyncEvents` are recorded in `events`, oldest first (logging is left out); what the
application layer does inside a callback is not part of the model. The call `json.Marshal`
of `EncodeToJSON` is the parameter `marshal`: it is applied to `state[contact]`, which is the
nil pointer for a contact without a model. The result `none` is a run-time panic: in `Delta`
a digest that is the nil pointer is dereferenced (`digest.IntersectingNodes` ranges over
`d.Nodes`), and `sessionDigest := contactState.Digests[publicKey]` is the nil pointer when no
digest is stored for the key. -/

/-- The method `Model.UpdateDigests`: whether some entry of `digest` is new or has changed,
and the model with `digest` stored for `node`. -/
def Model.UpdateDigests (s : Model) (node : NodePublicKey) (digest : sync.Digest) :
    Model × Bool :=
  let digestChange := digest.Nodes.entries.any fun e =>
    match s.Digests.lookup node with
    | some old =>
      match old.Nodes.lookup e.1 with
      | none => true
      | some oldVersion => decide (oldVersion ≠ e.2)
    | none => true
  -- Update entire digest
  ({ s with Digests := s.Digests.insert node digest }, digestChange)

structure syncSession where
  contact : String
  publicKey : NodePublicKey
  receivePull : Bool
  deriving DecidableEq, Repr

/-- A callback of `SyncEvents` that was made. -/
inductive SyncEvent where
  | PushSyncUpdates (contact : String) (session : Nat) (pushPacket : PushPacket)
  | DiscoverContact (contact : String)
  | SyncStateChanged (contact : String) (updatedState : List Nat)
  deriving DecidableEq

structure Sync where
  state : AList (fun _ : String => Model)
  sessions : AList (fun _ : Nat => syncSession)
  events : List SyncEvent

def NewSync : Sync := { state := ∅, sessions := ∅, events := [] }

def Sync.ContactState (marshal : Option Model → Except String (List Nat)) (sync : Sync)
    (contact : String) : Except String (List Nat) :=
  marshal (sync.state.lookup contact)

/-- The method `notifyStateChanges`: notify locally that state has changed. -/
def Sync.notifyStateChanges (marshal : Option Model → Except String (List Nat)) (sync : Sync)
    (contact : String) : Sync × Except String Unit :=
  match sync.ContactState marshal contact with
  | .error e => (sync, .error e)
  | .ok newState =>
    ({ sync with events := sync.events ++ [SyncEvent.SyncStateChanged contact newState] },
     .ok ())

def Sync.NewContact (ed : Ed25519) (marshal : Option Model → Except String (List Nat))
    (sync : Sync) (contact : String) (privateKey : List Nat) (modelType : ModelType) :
    Sync × Except String Unit :=
  let sync := { sync with state := sync.state.insert contact (NewModel ed privateKey modelType) }
  sync.notifyStateChanges marshal contact

def Sync.DeleteContact (sync : Sync) (contact : String) : Sync :=
  { sync with state := sync.state.erase contact }

def Sync.HasContact (sync : Sync) (contact : String) : Bool :=
  (sync.state.lookup contact).isSome

def Sync.updateSyncSession (sync : Sync) (session : Nat) (contact : String)
    (publicKey : NodePublicKey) (receivePull : Bool) : Sync :=
  let pullValue :=
    match sync.sessions.lookup session with
    | some found => receivePull || found.receivePull
    | none => receivePull
  { sync with
    sessions := sync.sessions.insert session
      { contact := contact, publicKey := publicKey, receivePull := pullValue } }

def Sync.SessionBroken (sync : Sync) (session : Nat) : Sync :=
  { sync with sessions := sync.sessions.erase session }

/-- The loop `for session, identity := range sync.sessions` of `pushStateUpdates`, over
the entries of the map that are left: the model, `shouldDiscoverContact`, and the callbacks
made. -/
def pushLoop (ed : Ed25519) (contact : String) :
    List (Sigma fun _ : Nat => syncSession) → Model → Bool → List SyncEvent →
      Option (Model × Bool × List SyncEvent)
  | [], contactState, shouldDiscoverContact, events =>
    some (contactState, shouldDiscoverContact, events)
  | ⟨session, identity⟩ :: rest, contactState, shouldDiscoverContact, events =>
    if identity.contact ≠ contact then
      pushLoop ed contact rest contactState shouldDiscoverContact events
    else
      -- if we have only received a PUSH packet on this session (thus not received a digest)
      -- then we should wait for a PULL before proactively sending a PUSH.
      if !identity.receivePull then pushLoop ed contact rest contactState false events
      else
        match contactState.Digests.lookup identity.publicKey with
        | none => none
        | some sessionDigest =>
          let (contactState, delta) := contactState.Delta sessionDigest
          if delta.length > 0 then
            let replyPushPacket := contactState.NewPushPacket ed identity.publicKey delta
            pushLoop ed contact rest contactState false
              (events ++ [SyncEvent.PushSyncUpdates contact session replyPushPacket])
          else pushLoop ed contact rest contactState false events

/-- The method `pushStateUpdates`: checks if all sessions are up to date and sends
`PushSyncUpdates` events to all outdated sessions. -/
def Sync.pushStateUpdates (ed : Ed25519) (sync : Sync) (contact : String) :
    Option (Sync × Except String Unit) :=
  match sync.state.lookup contact with
  | none => some (sync, .error "error pushing state updates 'contact not found'")
  | some contactState =>
    match pushLoop ed contact sync.sessions.entries contactState true sync.events with
    | none => none
    | some (contactState, shouldDiscoverContact, events) =>
      let sync :=
        { sync with state := sync.state.replace contact contactState, events := events }
      if shouldDiscoverContact then
        some ({ sync with events := sync.events ++ [SyncEvent.DiscoverContact contact] }, .ok ())
      else some (sync, .ok ())

def Sync.NewMessage (ed : Ed25519) (marshal : Option Model → Except String (List Nat))
    (sync : Sync) (contact : String) (body : List Nat) (attachedSecret : Option (List Nat)) :
    Option (Sync × Except String Unit) :=
  match sync.state.lookup contact with
  | none => some (sync, .error "error updating node digest 'contact not found'")
  | some contactState =>
    let contactState := (contactState.NewMessage ed body attachedSecret).1
    let sync := { sync with state := sync.state.replace contact contactState }
    match sync.notifyStateChanges marshal contact with
    | (sync, .error e) => some (sync, .error e)
    | (sync, .ok ()) => sync.pushStateUpdates ed contact

def Sync.MergePushPacket (ed : Ed25519) (marshal : Option Model → Except String (List Nat))
    (sync : Sync) (session : Nat) (contact : String) (pushPacket : PushPacket) :
    Option (Sync × Except String Unit) :=
  match sync.state.lookup contact with
  | none => some (sync, .error "state for contact not found")
  | some contactState =>
    let sync := sync.updateSyncSession session contact pushPacket.senderPublicKey false
    let (contactState, stateChanged) :=
      contactState.Merge pushPacket.senderPublicKey pushPacket.delta
    let sync := { sync with state := sync.state.replace contact contactState }
    if !stateChanged then some (sync, .ok ())
    else
      match sync.notifyStateChanges marshal contact with
      | (sync, .error e) => some (sync, .error e)
      | (sync, .ok ()) =>
        match sync.pushStateUpdates ed contact with
        | none => none
        | some (sync, .error e) => some (sync, .error ("error merging delta: " ++ e))
        | some (sync, .ok ()) => some (sync, .ok ())

/-- The method `HandlePullPacket`, called in a response to a pull packet. -/
def Sync.HandlePullPacket (ed : Ed25519) (marshal : Option Model → Except String (List Nat))
    (sync : Sync) (session : Nat) (contact : String) (publicKey : NodePublicKey)
    (digest : Digest) : Option (Sync × Except String Unit) :=
  match sync.state.lookup contact with
  | none => some (sync, .error "error updating node digest 'contact not found'")
  | some contactState =>
    let sync := sync.updateSyncSession session contact publicKey true
    let (contactState, digestUpdated) := contactState.UpdateDigests publicKey digest
    let sync := { sync with state := sync.state.replace contact contactState }
    let notified : Sync × Except String Unit :=
      if digestUpdated then sync.notifyStateChanges marshal contact else (sync, .ok ())
    match notified with
    | (sync, .error e) => some (sync, .error e)
    | (sync, .ok ()) =>
      match contactState.Digests.lookup publicKey with
      | none => none
      | some sessionDigest =>
        let (contactState, delta) := contactState.Delta sessionDigest
        let sync := { sync with state := sync.state.replace contact contactState }
        if delta.length > 0 then
          let replyPushPacket := contactState.NewPushPacket ed publicKey delta
          some ({ sync with
                  events := sync.events ++
                    [SyncEvent.PushSyncUpdates contact session replyPushPacket] }, .ok ())
        else some (sync, .ok ())

/-- The method `ReceiveSyncPacket`. It reads `packet[0]` without a length test. Its receiver
is `none` when it is the nil pointer: `HandlePullPacket` and `MergePushPacket` dereference
it in their first statement. -/
def ReceiveSyncPacket (ed : Ed25519) (verify : List Nat → List Nat → List Nat → Bool)
    (marshal : Option Model → Except String (List Nat)) (sync : Option Sync)
    (contact : String) (session : Nat) (packet : List Nat) :
    Option (Option Sync × Except String Unit) := do
  let packetType ← builtin.index packet 0
  if packetType = SYNC_PULL then
    match ← DecodePullPacket verify packet with
    | .error e => some (sync, .error e)
    | .ok pullPacket => do
      let receiver ← sync
      let (receiver, r) ← receiver.HandlePullPacket ed marshal session contact
        pullPacket.senderPublicKey pullPacket.digest
      some (some receiver, r)
  else if packetType = SYNC_PUSH then
    match ← DecodePushPacket verify packet with
    | .error e => some (sync, .error e)
    | .ok pushPacket => do
      let receiver ← sync
      let (receiver, r) ← receiver.MergePushPacket ed marshal session contact pushPacket
      some (some receiver, r)
  else some (sync, .error "invalid packet type")

end sync

namespace application_layer

/-! ## application_layer.go, sync_extension.go

Of the application layer the model keeps the options, the pointer `sync` (`none` is nil:
`NewApplicationLayer` creates the `Sync` only when `EnableSync` is set) and the payloads
handed to `dev.ProcessMessage`. -/

structure ApplicationLayer where
  options : device.ProtocolOptions
  sync : Option sync.Sync
  /-- The calls of `dev.ProcessMessage`, oldest first. -/
  processed : List (Nat × List Nat)

def NewApplicationLayer (options : device.ProtocolOptions) : ApplicationLayer :=
  { options := options,
    sync := if options.EnableSync then some sync.NewSync else none,
    processed := [] }

/-- The method `handleSyncPacket`: an error of `ReceiveSyncPacket` is logged. -/
def ApplicationLayer.handleSyncPacket (ed : sync.Ed25519)
    (verify : List Nat → List Nat → List Nat → Bool)
    (marshal : Option sync.Model → Except String (List Nat)) (app : ApplicationLayer)
    (session : Nat) (contact : String) (packet : List Nat) : Option ApplicationLayer := do
  let body ← builtin.sliceFrom packet 1
  let (receiver, _) ← sync.ReceiveSyncPacket ed verify marshal app.sync contact session body
  some { app with sync := receiver }

def ApplicationLayer.handlePacket (ed : sync.Ed25519)
    (verify : List Nat → List Nat → List Nat → Bool)
    (marshal : Option sync.Model → Except String (List Nat)) (app : ApplicationLayer)
    (session : Nat) (contact : String) (packet : List Nat) : Option ApplicationLayer :=
  if packet.length = 0 then some app
  else do
    let tag ← builtin.index packet 0
    if tag = 0x01 then do
      -- user data
      let body ← builtin.sliceFrom packet 1
      some { app with processed := app.processed ++ [(session, body)] }
    else if tag = 0x02 then
      -- sync extension
      app.handleSyncPacket ed verify marshal session contact packet
    else some app

end application_layer

namespace transport_layer

/-- The packet the delayed function of `startAckTimer` builds when it runs:
`NewACKPacket(state.receiver.latestSeq, state.receiver.missingSeqs)`. -/
def SessionState.ackPacket (state : SessionState) : ACKPacket :=
  NewACKPacket state.receiver.latestSeq state.receiver.missingSeqs

end transport_layer

/-! # Definitions used in the statements: invariants, runs and concrete inputs -/

namespace transport_layer

/-- The sequence number up to which a receiver has delivered: one below the first missing
sequence number, or `latestSeq` when nothing is missing. -/
def horizon (missingSeqs : List Nat) (latestSeq : Nat) : Nat :=
  match missingSeqs with
  | [] => latestSeq
  | first :: _ => first - 1

/-- The receiver invariant for arrivals with pairwise different sequence numbers: `R` are
the packets received so far and `D` the packets delivered so far, in delivery order. -/
structure RecvInv (r : ReceiverState) (D R : List DATAPacket) : Prop where
  nodup : (R.map DATAPacket.SeqID).Nodup
  sorted : r.missingSeqs.Sorted (fun a b => a < b)
  missing_iff : ∀ x, x ∈ r.missingSeqs ↔
    (1 ≤ x ∧ x ≤ r.latestSeq ∧ x ∉ R.map DATAPacket.SeqID)
  bound : ∀ p ∈ R, 1 ≤ p.SeqID ∧ p.SeqID ≤ r.latestSeq
  latest_lt : r.latestSeq + 1 < 2 ^ 32
  delivered : D.map DATAPacket.SeqID = List.range' 1 (horizon r.missingSeqs r.latestSeq)
  perm : (D ++ r.awaitingDelivery).Perm R
  latest_mem : r.latestSeq = 0 ∨ r.latestSeq ∈ R.map DATAPacket.SeqID

/-- The arrival order `N, 1, 2, …, N - 1` of the packets with sequence numbers `1 … N`,
each with an empty body. -/
def lastFirstArrival (N : Nat) : List DATAPacket :=
  NewDATAPacket N [] :: (List.range' 1 (N - 1)).map (fun i => NewDATAPacket i [])

end transport_layer

namespace sync

/-- The model's own digest as `Model.Digest` returns it. -/
def Model.ownDigest (s : Model) : sync.Digest := s.Digest.2

/-- The entry `states[pk][version]` of a map of maps, if any. -/
def entryOf (states : ModelNodeStates) (pk : NodePublicKey) (version : Nat) :
    Option Message :=
  (states.lookup pk).bind (fun state => state.lookup version)

/-- The stored message a delta carries. -/
def Delta.message (delta : Delta) : Message :=
  NewMessage delta.Value delta.Signature delta.AttachedSecret

/-- In the digest map `ds`, the digest kept for `base` has an entry for `node` with a
version of at least `v`. -/
def hasVersion (ds : Digests) (base node : NodePublicKey) (v : Nat) : Prop :=
  ∃ dg, ds.lookup base = some dg ∧ ∃ ver, dg.Nodes.lookup node = some ver ∧ v ≤ ver

/-- The last delta of the list for the pair (author, version), if any. -/
def lastDeltaFor (deltas : Deltas) (pk : NodePublicKey) (version : Nat) : Option Delta :=
  (deltas.filter (fun delta => decide (delta.PublicKey = pk ∧ delta.Version = version))).getLast?

/-- Every version recorded in the digest is at most its `MaxVersion`. `NewDigest` has this
property and `UpdateNode` keeps it, as does `IncrementNode` while `MaxVersion` does not wrap. -/
def Digest.WF (d : sync.Digest) : Prop :=
  ∀ n v, d.Nodes.lookup n = some v → v ≤ d.MaxVersion

/-- The method `NewMessage` called once per element of the list; the versions returned, in call order. -/
def publishAll (ed : Ed25519) :
    Model → List (List Nat × Option (List Nat)) → Model × List Nat
  | s, [] => (s, [])
  | s, (value, attachedSecret) :: rest =>
    let r := s.NewMessage ed value attachedSecret
    let rs := publishAll ed r.1 rest
    (rs.1, r.2 :: rs.2)

/-- A stand-in for `crypto/ed25519` used to evaluate the model on concrete inputs: the
public key is the private key and a signature is the key followed by the message. -/
def edStub : Ed25519 :=
  { publicKey := fun privateKey => privateKey,
    sign := fun privateKey message => privateKey ++ message }

/-- The model of node `[1]` after merging, from sender `[2]`, a delta of author `[2]` with
version `2 ^ 32 - 1`, and then publishing one message: its version counter has wrapped. -/
def modelWrapped : Model :=
  ((((NewModel edStub [1] ModelType.link).Merge [2]
    [NewDelta [2] 4294967295 [] none [0]]).1).NewMessage edStub [] none).1

/-- A link model of the node with key `[1]` after publishing the message "hi". -/
def modelHi : Model := ((NewModel edStub [1] ModelType.link).NewMessage edStub [104, 105] none).1

/-! ### Three models of one contact -/

inductive Peer where
  | A
  | B
  | C
  deriving DecidableEq, Repr, Fintype

/-- The three models of one contact, by peer. -/
abbrev Net := Peer → Model

/-- The calls that make up an interleaving: `publish i value secret` is
`i.NewMessage(value, secret)`, and `sync x y` is the step in which `y` pulls from `x`,
`y.Merge(x.PublicKey, x.Delta(y.Digest()))`. -/
inductive Step where
  | publish (i : Peer) (value : List Nat) (secret : Option (List Nat))
  | sync (x y : Peer)
  deriving DecidableEq, Repr

def Step.isPublish : Step → Bool
  | .publish _ _ _ => true
  | .sync _ _ => false

/-- One step. In `sync x y` the calls run in Go's evaluation order: `y.Digest()`, then
`x.Delta`, then `y.Merge`. -/
def Net.step (ed : Ed25519) (net : Net) : Step → Net
  | .publish i value secret =>
    Function.update net i ((net i).NewMessage ed value secret).1
  | .sync x y =>
    let net1 := Function.update net y (net y).Digest.1
    let digest := (net y).Digest.2
    let net2 := Function.update net1 x ((net1 x).Delta digest).1
    let deltas := ((net1 x).Delta digest).2
    Function.update net2 y ((net2 y).Merge (net2 x).PublicKey deltas).1

def Net.run (ed : Ed25519) (net : Net) (steps : List Step) : Net :=
  steps.foldl (Net.step ed) net

/-- Three models created by `NewModel` from the private keys `keys`. -/
def Net.init (ed : Ed25519) (keys : Peer → List Nat) (t : ModelType) : Net :=
  fun i => NewModel ed (keys i) t

/-- The private keys `[1]`, `[2]`, `[3]` for the peers `A`, `B`, `C`. -/
def demoKeys : Peer → List Nat
  | .A => [1]
  | .B => [2]
  | .C => [3]

/-- The interleaving of `TestThreeNodeTransitiveMerge`: `A` and `B` publish one message
each, `C` pulls from `A` and from `B`, then `A` and `B` pull from `C`. -/
def demoSteps : List Step :=
  [.publish .A [119, 111, 114, 108, 100] none, .publish .B [121, 111, 117] none,
   .sync .A .C, .sync .B .C, .sync .C .A, .sync .C .B]

/-- Every pairwise delta is empty: for all peers `x ≠ y`, `x.Delta(y.Digest())` is empty. -/
def Net.Quiescent (net : Net) : Prop :=
  ∀ x y, x ≠ y → ((net x).Delta (net y).ownDigest).2 = []

/-- One round of pull/push steps without `NewMessage`: `C` pulls from `A` and from `B`, then
`A` and `B` pull from `C`. -/
def syncRound : List Step :=
  [Step.sync Peer.A Peer.C, Step.sync Peer.B Peer.C, Step.sync Peer.C Peer.A,
   Step.sync Peer.C Peer.B]

/-- Equality of two `NodeStates` maps as Go compares maps: the same authors, and under each
author the same versions with the same messages. -/
def sameNodeStates (a b : ModelNodeStates) : Prop :=
  ∀ pk, (pk ∈ a ↔ pk ∈ b) ∧ ∀ v, entryOf a pk v = entryOf b pk v

/-- The digest updated with every delta of the list in turn, as `Merge` does to the own
digest. -/
def absorb (d : sync.Digest) (deltas : Deltas) : sync.Digest :=
  deltas.foldl (fun d delta => (d.UpdateNode delta.PublicKey delta.Version).1) d

/-- The invariant of three models exchanging deltas. `pk` gives each peer's public key and
`c` bounds every `max_version` (it counts the `NewMessage` calls so far).

* `origin`: every stored entry is an entry its author holds, with the same message;
* `complete`: a model holds every entry of an author up to the version its own digest
  records for that author;
* `covered`: the own digest covers every stored entry;
* `behind`: the own digest records for an author at most what the author's own digest
  records. -/
structure NetInv (pk : Peer → NodePublicKey) (c : Nat) (net : Net) : Prop where
  keys : ∀ i, (net i).PublicKey = pk i
  origin : ∀ i p v m, (net i).entry p v = some m → ∃ a, p = pk a ∧ (net a).entry p v = some m
  complete : ∀ i a d v m, (net i).ownDigest.Nodes.lookup (pk a) = some d →
    (net a).entry (pk a) v = some m → v ≤ d → (net i).entry (pk a) v = some m
  covered : ∀ i p v m, (net i).entry p v = some m →
    ∃ d, (net i).ownDigest.Nodes.lookup p = some d ∧ v ≤ d
  wf : ∀ i, (net i).ownDigest.WF
  bound : ∀ i, (net i).ownDigest.MaxVersion ≤ c
  nonempty : ∀ i p, p ∈ (net i).NodeStates → ∃ v m, (net i).entry p v = some m
  behind : ∀ i p d, (net i).ownDigest.Nodes.lookup p = some d →
    ∃ a, p = pk a ∧ ∃ d', (net a).ownDigest.Nodes.lookup p = some d' ∧ d ≤ d'

/-- The interleaving in which `A` publishes `n` messages, `B` pulls from `A`, `A` publishes
once more, `A` pulls from `B` and `C` pulls from `B`. -/
def wrapSteps (n : Nat) : List Step :=
  List.replicate n (Step.publish Peer.A [] none) ++
    [Step.sync Peer.A Peer.B, Step.publish Peer.A [] none, Step.sync Peer.B Peer.A,
     Step.sync Peer.B Peer.C]

end sync

namespace network_layer

/-- The routing packets with every field in the range of its Go type: identifiers are
`uint64`, the TTL is a `uint16`, an X25519 key has 32 bytes, the bitmap `BITMAP_SIZE` bytes, a
nonce 12 bytes, and a ciphertext holds at least the 16 bytes of its tag. -/
def Packet.InRange : Packet → Prop
  | .rreq p => p.RequestID < 2 ^ 64 ∧ p.TTL < 2 ^ 16 ∧ p.EphemeralKey.length = 32 ∧
      p.ContactMask.length = 256
  | .rrep p => p.RequestID < 2 ^ 64 ∧ p.SessionID < 2 ^ 64 ∧ p.EphemeralKey.length = 32 ∧
      p.Nonce.length = 12 ∧ 16 ≤ p.Cipher.length
  | .sess p => p.SessionID < 2 ^ 64 ∧ p.Nonce.length = 12 ∧ 16 ≤ p.Cipher.length
  | .rerr p => p.SessionID < 2 ^ 64

/-- The length of the payload inside the ciphertext: `len(Cipher) - 16`. -/
def Packet.payloadLen : Packet → Nat
  | .rreq _ => 0
  | .rrep p => p.Cipher.length - 16
  | .sess p => p.Cipher.length - 16
  | .rerr _ => 0

/-- The length of the encoding, by kind. -/
def Packet.wireLength : Packet → Nat
  | .rreq _ => 299
  | .rrep p => 65 + (p.Cipher.length - 16) + 16
  | .sess p => 41 + (p.Cipher.length - 16)
  | .rerr _ => 9

/-- An RREP packet whose ciphertext has `n + 16` zero bytes. -/
def rrepOfPayloadLen (n : Nat) : Packet :=
  .rrep ⟨0, 0, List.replicate 32 0, List.replicate 12 0, List.replicate (n + 16) 0⟩

/-- A buffer of `n + 65` bytes that starts like an RREP packet and declares a payload of
`2 ^ 32 - 81` bytes. -/
def rrepDeclaringHuge (n : Nat) : List Nat :=
  [RREP] ++ List.replicate 60 0 ++ [255, 255, 255, 175] ++ List.replicate n 0

end network_layer

namespace transport_layer

/-- The sequence number `0` listed `n` times. -/
def zeroSeqs (n : Nat) : List Nat := List.replicate n 0

end transport_layer

namespace sync

/-- The list `l` cut or filled with zeros to `n` bytes. -/
def pad (n : Nat) (l : List Nat) : List Nat := (l ++ List.replicate n 0).take n

/-- A stand-in for `crypto/ed25519` with keys of 32 and signatures of 64 bytes, used to
evaluate the codecs on concrete inputs: the public key is the padded private key, and a
signature is the public key followed by the first 32 bytes of the message. -/
def edFixed : Ed25519 :=
  { publicKey := fun privateKey => pad 32 privateKey,
    sign := fun privateKey message => pad 32 privateKey ++ pad 32 message }

/-- The function `ed25519.Verify` for `edFixed`. -/
def edFixedVerify (publicKey message signature : List Nat) : Bool :=
  decide (signature = publicKey ++ pad 32 message)

/-- The push packet with no deltas that the node with private key `[1]` signs for the
receiver with public key `pad 32 [2]`. -/
def emptyPush : PushPacket :=
  (NewModel edFixed [1] ModelType.link).NewPushPacket edFixed (pad 32 [2]) []

end sync

namespace sync

/-- The facts about `crypto/ed25519` that the codec statements use: a public key has 32 and
a signature 64 bytes, and `Verify` accepts what `Sign` produces under the matching key. -/
structure Ed25519.Sound (ed : Ed25519) (verify : List Nat → List Nat → List Nat → Bool) :
    Prop where
  publicKey_length : ∀ sk, (ed.publicKey sk).length = 32
  sign_length : ∀ sk m, (ed.sign sk m).length = 64
  verify_sign : ∀ sk m, verify (ed.publicKey sk) m (ed.sign sk m) = true

/-- A message as `NewMessage` stores it for the author `pk` under `version`: the signature
is the author's over the bytes `NewMessage` signs, the version is a `uint32`, and the
attached secret is absent or has 32 bytes. -/
def PublishedBy (ed : Ed25519) (pk : NodePublicKey) (version : Nat) (msg : Message) : Prop :=
  (∃ sk, ed.publicKey sk = pk ∧
    msg.Signature = ed.sign sk (signedBytes pk version msg.Value msg.AttachedSecret)) ∧
  version < 2 ^ 32 ∧ ∀ secret, msg.AttachedSecret = some secret → secret.length = 32

/-- Every message the model stores was published by `NewMessage`, by this model or by the
model of its author. -/
def Model.AllPublished (ed : Ed25519) (s : Model) : Prop :=
  ∀ pk v msg, s.entry pk v = some msg → PublishedBy ed pk v msg

/-- The flag byte and the attached secret as `NewMessage` signs and `Delta.Encode` writes
them. -/
def secretBytes (attachedSecret : Option (List Nat)) : List Nat :=
  match attachedSecret with
  | some secret => 0x01 :: secret
  | none => [0x00]

/-- A delta that `DecodeDelta` reads back from its encoding: a key of 32 bytes, a `uint32`
version, a value shorter than `2 ^ 32 - 40` bytes, a secret that is absent or has 32 bytes, and
a signature of 64 bytes that `verify` accepts for the bytes `NewMessage` signs. -/
def Delta.Encodable (verify : List Nat → List Nat → List Nat → Bool) (delta : Delta) : Prop :=
  delta.PublicKey.length = 32 ∧ delta.Version < 2 ^ 32 ∧ delta.Value.length + 40 < 2 ^ 32 ∧
  (∀ s, delta.AttachedSecret = some s → s.length = 32) ∧ delta.Signature.length = 64 ∧
  verify delta.PublicKey
    (signedBytes delta.PublicKey delta.Version delta.Value delta.AttachedSecret)
    delta.Signature = true

/-- The model of the node with private key `[1]` after publishing "invitation" with a
32-byte secret attached and then "hello" without one. -/
def modelInvitation : Model :=
  (((NewModel edFixed [1] ModelType.link).NewMessage edFixed
    [105, 110, 118, 105, 116, 97, 116, 105, 111, 110] (some (List.replicate 32 7))).1.NewMessage
    edFixed [104, 101, 108, 108, 111] none).1

/-- The model of the node with private key `[1]` after publishing one message of `n` zero
bytes. -/
def modelBigValue (n : Nat) : Model :=
  ((NewModel edFixed [1] ModelType.link).NewMessage edFixed (List.replicate n 0) none).1

end sync

namespace sync

/-- The entries of the digest other than the sender's, in iteration order: the entries
`EncodeWithoutSender` writes. -/
def Digest.otherEntries (d : Digest) (sender : NodePublicKey) :
    List (Sigma fun _ : NodePublicKey => Nat) :=
  d.Nodes.entries.filter (fun e => !decide (e.1 = sender))

/-- The bytes of one digest entry: the key followed by the version. -/
def encodeEntry (e : Sigma fun _ : NodePublicKey => Nat) : List Nat :=
  e.1 ++ encodeUint32 e.2

/-- The field `MaxVersion` is the maximum of the recorded versions: no version is above it
and one is equal to it. -/
def Digest.Tight (d : Digest) : Prop :=
  d.WF ∧ ∃ n, d.Nodes.lookup n = some d.MaxVersion

/-- Every key of the digest has 32 bytes and every version is a `uint32`. -/
def Digest.InRange (d : Digest) : Prop :=
  ∀ n v, d.Nodes.lookup n = some v → n.length = 32 ∧ v < 2 ^ 32

/-- The models reachable from `NewModel` by `NewMessage` and `Merge`, with two provisos:
`NewMessage` is not called when the version counter is at `2 ^ 32 - 1`, and the deltas
merged have keys of 32 bytes and `uint32` versions, as every decoded delta has. -/
inductive Reachable (ed : Ed25519) : Model → Prop where
  | newModel (privateKey : List Nat) (t : ModelType) : Reachable ed (NewModel ed privateKey t)
  | newMessage (s : Model) (value : List Nat) (secret : Option (List Nat)) :
      Reachable ed s → s.ownDigest.MaxVersion + 1 < 2 ^ 32 →
      Reachable ed (s.NewMessage ed value secret).1
  | merge (s : Model) (sender : NodePublicKey) (deltas : Deltas) :
      Reachable ed s → (∀ delta ∈ deltas, delta.PublicKey.length = 32 ∧ delta.Version < 2 ^ 32) →
      Reachable ed (s.Merge sender deltas).1

/-- The model of the node with private key `[1]` after publishing "hello" and merging, from
the sender `pad 32 [2]`, that node's deltas with versions 1 and 3. -/
def modelTwoNodes : Model :=
  (((NewModel edFixed [1] ModelType.link).NewMessage edFixed [104, 101, 108, 108, 111] none).1.Merge
    (pad 32 [2]) [NewDelta (pad 32 [2]) 1 [120] none (List.replicate 64 0),
                  NewDelta (pad 32 [2]) 3 [121] none (List.replicate 64 0)]).1

/-- The model of the node with private key `[1]` after merging, from the sender `pad 32 [2]`,
a delta with version `2 ^ 32 - 1` signed by that node, and then publishing one message: its
version counter has wrapped to `0`. -/
def modelWrapped32 : Model :=
  (((NewModel edFixed [1] ModelType.link).Merge (pad 32 [2])
    [NewDelta (pad 32 [2]) 4294967295 [] none
      (edFixed.sign [2] (signedBytes (pad 32 [2]) 4294967295 [] none))]).1.NewMessage
    edFixed [] none).1

end sync

namespace packet_layer

/-- Within `fuel` frames, the frames that `ReadMessage` reads from `(packets, cursor)` on,
each the continuation of the one before, come to a frame whose header declares a size larger
than the bytes that remain in its packet. -/
def readsOversizedFrame : Nat → List (List Nat) → Nat → Bool
  | 0, _, _ => false
  | _ + 1, [], _ => false
  | fuel + 1, p :: rest, c =>
    match packetHeaderFromBytes (p.drop c) with
    | .error _ => false
    | .ok header =>
      if header.size + 2 > (p.drop c).length then true
      else if header.flags.Continuation then
        if c + (header.size + 2) ≥ p.length then readsOversizedFrame fuel rest 0
        else readsOversizedFrame fuel (p :: rest) (c + (header.size + 2))
      else false

end packet_layer

namespace packet_layer

/-- The state of an encoder of packet size `k` between two calls: the working packet has
`k` bytes, the cursor is inside it, and no finished packet is longer than `k`. -/
def PacketEncoder.WellFormed (k : Nat) (encoder : PacketEncoder) : Prop :=
  encoder.packetSize = k ∧ encoder.workingPacket.length = k ∧ encoder.cursor ≤ k ∧
    ∀ p ∈ encoder.packets, p.length ≤ k

end packet_layer

namespace contact_bitmap

/-- A stand-in for `HMAC-SHA256` with the right output length: the first 32 bytes of the
message followed by the key followed by zeros. -/
def hmacFixed (key message : List Nat) : List Nat :=
  (message ++ key ++ List.replicate 32 0).take 32

end contact_bitmap

namespace contact_bitmap

/-- Bit `index` of a bit array, `false` outside the array. -/
def bitAt (bits : List Nat) (index : Nat) : Bool :=
  (bits.getD (index / 8) 0).testBit (index % 8)

/-- The bit a contact wants at the `i`-th of its indices: `i%2 == 1`. -/
def wanted (i : Nat) : Bool := i % 2 == 1

/-- The bitmap has, at every index of `contactBits`, the bit the contact wants there; the
indices are numbered from `i`. -/
def Matches (bitmap : List Nat) (i : Nat) (contactBits : List Nat) : Prop :=
  ∀ p (h : p < contactBits.length), bitAt bitmap (contactBits.get ⟨p, h⟩) = wanted (i + p)

/-- No locked bit among the indices of `contactBits` differs from what the contact wants. -/
def Consistent (lockedBits bitmap : List Nat) (i : Nat) (contactBits : List Nat) : Prop :=
  ∀ p (h : p < contactBits.length), bitAt lockedBits (contactBits.get ⟨p, h⟩) = true →
    bitAt bitmap (contactBits.get ⟨p, h⟩) = wanted (i + p)

end contact_bitmap

namespace contact_bitmap

/-- The test that `DecodeContactBitmap` makes for one contact: its secret is found, it
yields indices, and the bitmap has the wanted bit at each of them. -/
def matchesContact (hmac : List Nat → List Nat → List Nat)
    (contactsContainer : device.ContactsContainer) (seed : Nat) (bitmap : List Nat)
    (contactID : String) : Bool :=
  match contactsContainer.ContactSecret contactID with
  | .error _ => false
  | .ok secret =>
    match ContactBits hmac seed secret with
    | some (.ok contactBits) => matchesBitmap bitmap 0 contactBits == some true
    | _ => false

/-- The container has a secret of 32 bytes for the contact. -/
def HasSecret32 (contactsContainer : device.ContactsContainer) (contactID : String) : Prop :=
  ∃ secret, contactsContainer.ContactSecret contactID = .ok secret ∧ secret.length = 32

/-- Every bit locked in `lockedBits` is locked in `lockedBits1` and has kept its value from
`bitmap` to `bitmap1`. -/
def Keeps (lockedBits bitmap lockedBits1 bitmap1 : List Nat) : Prop :=
  ∀ j, bitAt lockedBits j = true →
    bitAt lockedBits1 j = true ∧ bitAt bitmap1 j = bitAt bitmap j

end contact_bitmap

namespace contact_bitmap

/-- The best attempt so far of `EncodeContactBitmap`: `bitmap` and `seed` are those of an
attempt that encoded the contacts `trace.encoded`, exactly the listed contacts that the
bitmap matches; `count` is their number and the largest `contactCount` of the attempts run;
every listed contact has a secret of 32 bytes; and no attempt counted more contacts than
are listed, or none of a list that is not empty. -/
def BestOf (hmac : List Nat → List Nat → List Nat) (contactsContainer : device.ContactsContainer)
    (list : List String) (bitmap : List Nat) (seed : Nat) (count : Int) (trace : EncodeTrace) :
    Prop :=
  bitmap.length = 256 ∧
    trace.encoded = list.filter (matchesContact hmac contactsContainer seed bitmap) ∧
    count = (trace.encoded.length : Int) ∧
    (∀ c ∈ list, HasSecret32 contactsContainer c) ∧
    (∃ n ∈ trace.counts, (n : Int) = count) ∧
    (∀ n ∈ trace.counts, (n : Int) ≤ count) ∧
    ∀ n ∈ trace.counts, n ≤ list.length ∧ (list ≠ [] → 1 ≤ n)

end contact_bitmap

namespace contact_bitmap

/-- Every contact of the container has a secret of 32 bytes. -/
def AllSecrets32 (contactsContainer : device.ContactsContainer) : Prop :=
  ∀ c ∈ contactsContainer.AllGroups ++ contactsContainer.AllLinks,
    HasSecret32 contactsContainer c

/-- A reader that delivers zero bytes. -/
def readerZero : Reader := { stream := fun _ => 0, pos := 0 }

/-- A container with one link, of a 32-byte secret. -/
def containerA : device.ContactsContainer :=
  { links := AList.insert "a" (List.replicate 32 1) ∅, groups := ∅ }

/-- The container `containerA` with a second link, of a 16-byte secret. -/
def containerShortSecret : device.ContactsContainer :=
  { links := AList.insert "d" (List.replicate 16 2) (AList.insert "a" (List.replicate 32 1) ∅),
    groups := ∅ }

/-- What `EncodeContactBitmap` returns for the contact of `containerA` from `readerZero`
under `hmacFixed`: the indices of the contact are 0, 1, 2, 3, 257, ..., 264, and those at the
odd positions are set. -/
def encodingA : ContactBitmapEncoding :=
  { Seed := 0,
    Bitmap := 10 :: List.replicate 31 0 ++ [84, 1] ++ List.replicate 222 0,
    ContactCount := 1 }

end contact_bitmap

namespace device

/-- A generator whose every draw is zero. -/
def randZero : Rand := { stream := fun _ => 0, pos := 0 }

/-- A device on which every address has the packet size 100 and nothing has been sent. -/
def deviceQuiet : Device :=
  { MaxPacketSize := fun _ => .ok 100,
    rand := randZero,
    cryptoRand := contact_bitmap.readerZero,
    sent := [],
    log2Plus1 := fun n => (Nat.log2 n.toNat : Int) + 1 }

end device

namespace packet_layer

/-- The packet layer with strategy `BroadcastTwo` and the one connection to "A". -/
def linkTwoOnlyA : Option PacketLayer :=
  (NewLinkLayer { device.DefaultProtocolOptions with
    RREQBroadcastStrategy := device.BroadcastTwo }).OnConnection device.deviceQuiet "A"

end packet_layer

namespace network_layer

/-- Stand-ins for the cryptographic primitives with outputs of the right lengths: every
public key and every shared secret is a fixed string that is not zero, the key derivation
pads or cuts its input, sealing appends a tag of sixteen zero bytes, and opening accepts
exactly what sealing produces. -/
def cryptoFixed : Crypto :=
  { hmac := contact_bitmap.hmacFixed,
    x25519 := fun _ _ => List.replicate 32 1,
    publicKey := fun _ => List.replicate 32 9,
    hkdf := fun secret n => (secret ++ List.replicate n 0).take n,
    gcmSeal := fun _ _ plaintext _ => plaintext ++ List.replicate 16 0,
    gcmOpen := fun _ _ ciphertext _ =>
      if 16 ≤ ciphertext.length ∧ ciphertext.drop (ciphertext.length - 16) = List.replicate 16 0
      then some (ciphertext.take (ciphertext.length - 16)) else none }

/-- The properties of X25519 and HKDF that the derivation of a session key relies on, for
the key pairs `(a, publicKey a)` and `(b, publicKey b)`: public keys have 32 bytes, the two
sides compute the same shared secret, it is not zero, and HKDF delivers the 32 bytes asked
for. -/
structure Crypto.KeyAgreement (crypto : Crypto) (a b : List Nat) : Prop where
  publicKey_length_a : (crypto.publicKey a).length = 32
  publicKey_length_b : (crypto.publicKey b).length = 32
  shared : crypto.x25519 a (crypto.publicKey b) = crypto.x25519 b (crypto.publicKey a)
  shared_ne_zero : (crypto.x25519 a (crypto.publicKey b)).all (fun x => x == 0) = false
  hkdf_length : ∀ secret, (crypto.hkdf secret 32).length = 32

/-- The events of an upper layer that replies with an empty payload and has nothing
waiting; no callback has been made. -/
def eventsQuiet : NetworkLayerEvents :=
  { ReplyPayload := fun _ _ => [], hasPending := fun _ => false, log := [] }

/-- An RREQ with TTL 0. -/
def rreqTTL0 : RREQPacket :=
  { RequestID := 7, TTL := 0, EphemeralKey := List.replicate 32 9,
    ContactMask := List.replicate 256 0 }

/-- A network layer that has observed the request with id 7 from "A". -/
def networkSeen7 : NetworkLayer :=
  { NewNetworkLayer device.deviceQuiet contact_bitmap.containerA eventsQuiet
      device.DefaultProtocolOptions with
    requestTable := AList.insert 7
      { RequestID := 7, SourceNeighbour := some "A", EphemeralPrivateKey := none } ∅ }

end network_layer

namespace network_layer

/-- Exactly one of `SourceNeighbour` and `TargetNeighbour` is set. -/
def SessionTableEntry.OneNeighbour (e : SessionTableEntry) : Prop :=
  (e.SourceNeighbour ≠ none ∧ e.TargetNeighbour = none) ∨
    (e.SourceNeighbour = none ∧ e.TargetNeighbour ≠ none)

/-- An endpoint session: contact and session secret are set, and exactly one neighbour. -/
def SessionTableEntry.Endpoint (e : SessionTableEntry) : Prop :=
  e.Contact ≠ none ∧ e.SessionSecret ≠ none ∧ e.OneNeighbour

/-- A relay session: both neighbours are set, contact and session secret are not. -/
def SessionTableEntry.Relay (e : SessionTableEntry) : Prop :=
  e.Contact = none ∧ e.SessionSecret = none ∧
    e.SourceNeighbour ≠ none ∧ e.TargetNeighbour ≠ none

/-- Every entry that `network1` has in its session table is an entry of `network` or is an
endpoint or a relay session. -/
def Grows (network network1 : NetworkLayer) : Prop :=
  ∀ id e, network1.sessionTable.lookup id = some e →
    network.sessionTable.lookup id = some e ∨ e.Endpoint ∨ e.Relay

/-- One step of the network layer: a packet handled, a connection made or lost, a contact
deleted, a route request originated, a session timed out by the transport layer
(`SessionBroken` with no address), or a change of what the layer does not own (device,
contacts, upper layer, connections) that leaves the two tables as they are. -/
inductive Step (crypto : Crypto) : NetworkLayer → NetworkLayer → Prop where
  | handlePacket (network : NetworkLayer) (sender : String) (packet : Packet)
      (network1 : NetworkLayer) (message : Option SessionMessage)
      (h : network.handlePacket crypto sender packet = some (network1, message)) :
      Step crypto network network1
  | onConnection (network : NetworkLayer) (address : String) (network1 : NetworkLayer)
      (h : network.OnConnection crypto address = some network1) : Step crypto network network1
  | onDisconnection (network : NetworkLayer) (address : String) (network1 : NetworkLayer)
      (h : network.OnDisconnection crypto address = some network1) :
      Step crypto network network1
  | deleteContact (network : NetworkLayer) (contact : String) (network1 : NetworkLayer)
      (h : network.DeleteContact crypto contact = some network1) : Step crypto network network1
  | broadcastRouteRequest (network network1 : NetworkLayer)
      (h : network.BroadcastRouteRequest crypto = some network1) : Step crypto network network1
  | sendRouteRequest (network : NetworkLayer) (address : String) (ttl : Nat)
      (network1 : NetworkLayer)
      (h : network.SendRouteRequest crypto address ttl = some network1) :
      Step crypto network network1
  | sessionTimeout (network : NetworkLayer) (sessID : Nat) (network1 : NetworkLayer)
      (h : network.SessionBroken crypto sessID none = some network1) :
      Step crypto network network1
  | environment (network network1 : NetworkLayer)
      (hrequest : network1.requestTable = network.requestTable)
      (hsession : network1.sessionTable = network.sessionTable) : Step crypto network network1

/-- The states of the network layer reached from a new one. -/
inductive Reachable (crypto : Crypto) : NetworkLayer → Prop where
  | init (dev : device.Device) (contacts : device.ContactsContainer)
      (events : NetworkLayerEvents) (options : device.ProtocolOptions) :
      Reachable crypto (NewNetworkLayer dev contacts events options)
  | step (network network1 : NetworkLayer) (h : Reachable crypto network)
      (hstep : Step crypto network network1) : Reachable crypto network1

end network_layer

namespace network_layer

/-- A container without contacts. -/
def containerEmpty : device.ContactsContainer := { links := ∅, groups := ∅ }

/-- An RREQ with request id 7 and TTL 5 that encodes no contact. -/
def rreq7 : RREQPacket :=
  { RequestID := 7, TTL := 5, EphemeralKey := List.replicate 32 9,
    ContactMask := List.replicate 256 0 }

/-- An RREP to the request with id 7, for the session with id 9. -/
def rrep7 : RREPPacket :=
  { RequestID := 7, SessionID := 9, EphemeralKey := List.replicate 32 9,
    Nonce := List.replicate 12 0, Cipher := List.replicate 16 0 }

/-- A new network layer of a node without contacts. -/
def network0 : NetworkLayer :=
  NewNetworkLayer device.deviceQuiet containerEmpty eventsQuiet device.DefaultProtocolOptions

/-- The node after the connection of "A". -/
def network1 : NetworkLayer :=
  (network0.OnConnection cryptoFixed "A").getD network0

/-- The node after it has then received `rreq7` from "A". -/
def network2 : NetworkLayer :=
  ((network1.handlePacket cryptoFixed "A" (Packet.rreq rreq7)).map Prod.fst).getD network0

/-- The node after it has then received `rrep7` from "B": it relays session 9. -/
def network3 : NetworkLayer :=
  ((network2.handlePacket cryptoFixed "B" (Packet.rrep rrep7)).map Prod.fst).getD network0

/-- The node `network0` after the connection of "B". -/
def networkOnlyB : NetworkLayer :=
  (network0.OnConnection cryptoFixed "B").getD network0

end network_layer

namespace packet_layer

/-- The packet layer fits its device: every packet size the device reports is one that
`NewPacketEncoder` accepts, and the encoder of every connection is in a state between two
calls. `NewLinkLayer` has this property and `OnConnection` and `SendBytes` keep it. -/
def PacketLayer.Ready (dev : device.Device) (link : PacketLayer) : Prop :=
  (∀ address k, dev.MaxPacketSize address = .ok k → 3 ≤ k ∧ k < 2 ^ 14) ∧
    ∀ address conn, link.connections.lookup address = some conn →
      ∃ k, 3 ≤ k ∧ conn.encoder.WellFormed k

end packet_layer

namespace network_layer

/-- What a handler has done besides changing the two tables and drawing random numbers: the
callbacks `newLog` were made and `SendBytes` was called with `newCalls`, in that order each;
contacts, options, the device's packet sizes and the rest of the upper layer are as
before. -/
structure Effect (network network1 : NetworkLayer) (newLog : List NetworkEvent)
    (newCalls : List (String × List Nat)) : Prop where
  contacts : network1.contacts = network.contacts
  options : network1.options = network.options
  replyPayload : network1.events.ReplyPayload = network.events.ReplyPayload
  hasPending : network1.events.hasPending = network.events.hasPending
  log : network1.events.log = network.events.log ++ newLog
  sendCalls : network1.packetLayer.sendCalls = network.packetLayer.sendCalls ++ newCalls
  maxPacketSize : network1.dev.MaxPacketSize = network.dev.MaxPacketSize

/-- The bytes are those of an RERR packet: the first is the packet type `RERR`. -/
def isRERR (data : List Nat) : Bool := data.head? == some RERR

end network_layer

namespace network_layer

/-- The options of a node that sends no route request of its own when a connection is
made. -/
def optionsNoAuto : device.ProtocolOptions :=
  { device.DefaultProtocolOptions with DisableAutoRREQOnConnection := true }

/-- An RREQ with request id 0 whose bitmap encodes the contact of `containerA`. -/
def rreqA : RREQPacket :=
  { RequestID := 0, TTL := 5, EphemeralKey := List.replicate 32 9,
    ContactMask := contact_bitmap.encodingA.Bitmap }

/-- A new network layer of a node with the contact of `containerA`. -/
def networkA0 : NetworkLayer :=
  NewNetworkLayer device.deviceQuiet contact_bitmap.containerA eventsQuiet optionsNoAuto

/-- The node after the connection of "A". -/
def networkA1 : NetworkLayer :=
  (networkA0.OnConnection cryptoFixed "A").getD networkA0

/-- The node after it has then received `rreqA` from "A": it is an endpoint of session 0,
with the contact "a". -/
def networkA2 : NetworkLayer :=
  ((networkA1.handlePacket cryptoFixed "A" (Packet.rreq rreqA)).map Prod.fst).getD networkA0

/-- A SESS packet of session 9. -/
def sess9 : SESSPacket :=
  { SessionID := 9, Nonce := List.replicate 12 0, Cipher := List.replicate 16 0 }

end network_layer

namespace network_layer

/-- An RREQ with request id 0 and TTL 5 that encodes no contact. -/
def rreq0 : RREQPacket :=
  { RequestID := 0, TTL := 5, EphemeralKey := List.replicate 32 9,
    ContactMask := List.replicate 256 0 }

/-- The node `networkA1` after it has received `rreq0` from "A": it has the request id 0
in its request table, with the source neighbour "A". -/
def networkB : NetworkLayer :=
  ((networkA1.handlePacket cryptoFixed "A" (Packet.rreq rreq0)).map Prod.fst).getD networkA0

end network_layer

namespace network_layer

/-- One neighbour of the session is not set and the other is `address`. -/
def SessionTableEntry.OnlyNeighbour (e : SessionTableEntry) (address : String) : Prop :=
  (e.SourceNeighbour = none ∧ e.TargetNeighbour = some address) ∨
    (e.TargetNeighbour = none ∧ e.SourceNeighbour = some address)

/-- Both neighbours of the session are set, one of them is `address`, and `other` is the
other one: the target neighbour when `address` is the source neighbour, the source
neighbour when `address` is the target neighbour only. -/
def SessionTableEntry.RelayTo (e : SessionTableEntry) (address other : String) : Prop :=
  (e.SourceNeighbour = some address ∧ e.TargetNeighbour = some other) ∨
    (e.SourceNeighbour = some other ∧ other ≠ address ∧ e.TargetNeighbour = some address)

/-- Every entry of the session table is an endpoint or a relay session, is stored under its
own session id, and that id is a `uint64`. -/
def SessionTableOK (network : NetworkLayer) : Prop :=
  ∀ id e, network.sessionTable.lookup id = some e →
    (e.Endpoint ∨ e.Relay) ∧ e.SessionID = id ∧ id < 2 ^ 64

end network_layer

namespace network_layer

/-- Every entry that `network1` has in its session table is an entry of `network` or is
stored under its own session id. -/
def KeyGrows (network network1 : NetworkLayer) : Prop :=
  ∀ id e, network1.sessionTable.lookup id = some e →
    network.sessionTable.lookup id = some e ∨ e.SessionID = id

end network_layer

namespace network_layer

/-- The entry is that of a request this node has originated: no source neighbour, and the
ephemeral private key is kept. -/
def RequestTableEntry.Own (e : RequestTableEntry) : Prop :=
  e.SourceNeighbour = none ∧ e.EphemeralPrivateKey ≠ none

/-- Every request id in the request table of `network` is in that of `network1`, with the
entry it had or with the entry of a request that this node has originated. -/
def ReqKeeps (network network1 : NetworkLayer) : Prop :=
  ∀ id e, network.requestTable.lookup id = some e →
    ∃ e1, network1.requestTable.lookup id = some e1 ∧ (e1 = e ∨ e1.Own)

end network_layer

namespace packet_layer

/-- A packet that holds one frame: a continuation frame with an empty body. -/
def continuationOnly : List Nat := [192, 0]

/-- A packet layer with the one connection to "A". -/
def linkA : PacketLayer :=
  ((NewLinkLayer device.DefaultProtocolOptions).OnConnection device.deviceQuiet "A").getD
    (NewLinkLayer device.DefaultProtocolOptions)

/-- The packet layer `linkA` after it has received `continuationOnly` from "A". -/
def linkWaiting : PacketLayer :=
  ((linkA.ReceivePacket 1 "A" continuationOnly).map Prod.fst).getD linkA

/-- A decoder that holds `continuationOnly` followed by an empty packet. -/
def decoderStuck : PacketDecoder := { packets := [continuationOnly, []], cursor := 0 }

end packet_layer

namespace sync

/-- A stand-in for `json.Marshal`: the content of the state handed to `SyncStateChanged` is
not looked at. -/
def marshalFixed (_ : Option Model) : Except String (List Nat) := .ok []

/-- The pull packet of the node with private key `[1]`, which has published nothing. -/
def pullFixed : PullPacket := ((NewModel edFixed [1] ModelType.link).NewPullPacket edFixed).2

/-- The push packet with no deltas that the node with private key `[2]` signs for the
receiver with public key `pad 32 [9]`. -/
def pushOther : PushPacket :=
  (NewModel edFixed [2] ModelType.link).NewPushPacket edFixed (pad 32 [9]) []

/-- A run of the sync layer: the contact `"c"` is created with private key `[9]`; on
session `1` first the pull packet `pullFixed` is received and then the push packet
`pushOther`, which is signed with another key and carries no deltas. -/
def syncRun : Option (Sync × Except String Unit) :=
  let created := (NewSync.NewContact edFixed marshalFixed "c" [9] ModelType.link).1
  match ReceiveSyncPacket edFixed edFixedVerify marshalFixed (some created) "c" 1
      pullFixed.Encode with
  | some (some pulled, .ok ()) =>
    match ReceiveSyncPacket edFixed edFixedVerify marshalFixed (some pulled) "c" 1
        pushOther.Encode with
    | some (some pushed, r) => some (pushed, r)
    | _ => none
  | _ => none

/-- The callbacks `pushStateUpdates` is to make for the sessions `entries` of the map
`sessions`, in the order of the iteration: a `PushSyncUpdates` for each session of `contact`
that has received a pull packet and whose delta against the digest stored for its key is not
empty. -/
def pushEvents (ed : Ed25519) (contact : String) (contactState : Model)
    (entries : List (Sigma fun _ : Nat => syncSession)) : List SyncEvent :=
  entries.filterMap fun e =>
    if e.2.contact = contact ∧ e.2.receivePull = true then
      match contactState.Digests.lookup e.2.publicKey with
      | some sessionDigest =>
        let delta := (contactState.Delta sessionDigest).2
        if delta.length > 0 then
          some (SyncEvent.PushSyncUpdates contact e.1
            (contactState.NewPushPacket ed e.2.publicKey delta))
        else none
      | none => none
    else none

end sync

namespace application_layer

def optionsSync : device.ProtocolOptions :=
  { device.DefaultProtocolOptions with EnableSync := true }

end application_layer

namespace transport_layer

/-- The state after `ReceiveDATA` has been called with each of the packets in turn. -/
def SessionState.receiveMany (state : SessionState) (packets : List DATAPacket) :
    SessionState :=
  packets.foldl (fun s p => (s.ReceiveDATA p).1) state

/-- The invariant of the receiver's gap list: `S` are the sequence numbers received so
far, in any order and with repetitions. -/
structure GapInv (r : ReceiverState) (S : List Nat) : Prop where
  sorted : r.missingSeqs.Sorted (fun a b => a < b)
  missing_iff : ∀ x, x ∈ r.missingSeqs ↔ (1 ≤ x ∧ x ≤ r.latestSeq ∧ x ∉ S)
  bound : ∀ s ∈ S, s ≤ r.latestSeq
  latest_mem : r.latestSeq = 0 ∨ r.latestSeq ∈ S

end transport_layer

namespace packet_layer

/-- A frame of a packet: the body that follows the two header bytes, and the
continuation flag of the header. -/
structure Frame where
  body : List Nat
  cont : Bool
  deriving DecidableEq, Repr

/-- The header of the frame as `copyMessage` builds it. -/
def Frame.header (f : Frame) : packetHeader :=
  newPacketHeader f.body.length (newPacketFlags f.cont)

/-- The bytes of a frame: the two header bytes and the body. -/
def Frame.bytes (f : Frame) : List Nat :=
  f.header.toBytes.1 :: f.header.toBytes.2 :: f.body

/-- The bytes of a packet made of the given frames. -/
def framesBytes (fs : List Frame) : List Nat := fs.flatMap Frame.bytes

end packet_layer

namespace packet_layer

/-- The frames `fr` are those of the one message `m`: continuation frames followed by one
frame that ends the message, with the bodies making up `m`. -/
inductive Chunks : List Nat → List Frame → Prop
  | last (b : List Nat) : Chunks b [⟨b, false⟩]
  | cont (b m : List Nat) (fr : List Frame) : Chunks m fr → Chunks (b ++ m) (⟨b, true⟩ :: fr)

/-- The frames are those of the messages, in order. -/
inductive Encodes : List (List Nat) → List Frame → Prop
  | nil : Encodes [] []
  | cons (m : List Nat) (ms : List (List Nat)) (fr rest : List Frame) :
    Chunks m fr → Encodes ms rest → Encodes (m :: ms) (fr ++ rest)

/-- The frames of one packet as the encoder writes them: at least one frame, every body
shorter than 1024 bytes, and a continuation frame only in the last place. -/
def PacketOK (fs : List Frame) : Prop :=
  fs ≠ [] ∧ (∀ f ∈ fs, f.body.length < 1024) ∧ ∀ f ∈ fs.dropLast, f.cont = false

/-- The decoder stands at the start of the frame stream `S`: the rest of its front packet
are the frames of the head of `S`, and its other packets are the tail of `S`. -/
def PacketDecoder.Holds (d : PacketDecoder) (S : List (List Frame)) : Prop :=
  match S with
  | [] => d.packets = [] ∧ d.cursor = 0
  | fs :: S1 =>
    ∃ p, d.packets = p :: S1.map framesBytes ∧ d.cursor ≤ p.length ∧
      p.drop d.cursor = framesBytes fs

end packet_layer

namespace packet_layer

/-- The encoder of packet size `k` holds the finished packets with the frames `F` and a
working packet with the frames `cur`, none of which is a continuation frame. -/
structure EncInv (k : Nat) (e : PacketEncoder) (F : List (List Frame)) (cur : List Frame) :
    Prop where
  wf : e.WellFormed k
  packets : e.packets = F.map framesBytes
  working : e.workingPacket.take e.cursor = framesBytes cur
  ok : ∀ x ∈ F, PacketOK x
  small : ∀ f ∈ cur, f.body.length < 1024
  final : ∀ f ∈ cur, f.cont = false

end packet_layer

namespace packet_layer

/-- The encoder is called with `EncodeMessage` for each message in turn; `none` when a call
panics or returns an error. -/
def encodeAll : PacketEncoder → List (List Nat) → Option PacketEncoder
  | encoder, [] => some encoder
  | encoder, message :: messages =>
    match encoder.EncodeMessageChecked message with
    | some (.ok (encoder1, _)) => encodeAll encoder1 messages
    | _ => none

/-- The loop `for encoder.PacketCount() > 0 { encoder.PopPacket() }`: the packets popped, in
order; `none` on a panic or when `fuel` rounds do not suffice. -/
def popAll : Nat → PacketEncoder → Option (List (List Nat))
  | 0, encoder => if encoder.PacketCount > 0 then none else some []
  | fuel + 1, encoder =>
    if encoder.PacketCount > 0 then
      match encoder.PopPacketChecked with
      | some (encoder1, packet) => (popAll fuel encoder1).map (fun packets => packet :: packets)
      | none => none
    else some []

/-- The decoder after `AppendPacket` has been called with each packet in turn; `none` when a
call returns an error. -/
def appendAll : PacketDecoder → List (List Nat) → Option PacketDecoder
  | decoder, [] => some decoder
  | decoder, packet :: packets =>
    match decoder.AppendPacket packet with
    | (decoder1, .ok ()) => appendAll decoder1 packets
    | (_, .error _) => none

/-- The loop that calls `ReadMessage` while `HasMessage` returns true: the decoder at the
point where `HasMessage` has returned false, and the messages read, in order; `none` when a
call panics or returns an error, or when `fuel` rounds do not suffice. -/
def readAll : Nat → PacketDecoder → Option (PacketDecoder × List (List Nat))
  | 0, _ => none
  | fuel + 1, decoder =>
    match decoder.HasMessageChecked with
    | some (decoder1, .ok true) =>
      match decoder1.ReadMessageChecked with
      | some (decoder2, .ok msg) =>
        (readAll fuel decoder2).map (fun r => (r.1, msg :: r.2))
      | _ => none
    | some (decoder1, .ok false) => some (decoder1, [])
    | _ => none

end packet_layer

/-! # Theorems -/

namespace packet_layer

set_option maxRecDepth 100000

/-- C1 (code defect): with packet size 1026, a message of 1024 zero bytes is encoded as one
frame whose header keeps only two high bits of the size (`& 0b11`), so the decoder reads
size 0: `HasMessage` is true, `ReadMessage` returns the empty message without error instead
of the 1024 bytes, and `HasMessage` is then false. -/
theorem C1_roundtrip_loses_message_at_1026 :
    encodeThenDecode 1026 (List.replicate 1024 0) = some (.ok true, .ok [], .ok false) := by
  rfl

set_option maxRecDepth 512

end packet_layer

namespace transport_layer

/-- C3 (code defect): on a fresh session state, DATA packet 1 followed by a second copy of
DATA packet 1 delivers sequence number 1 twice: with `missingSeqs` empty `ReceiveDATA`
delivers the packet although its sequence number is not above `latestSeq`. -/
theorem C3_duplicate_delivered_twice :
    deliveredSeqs (NewSessionState 0) [⟨1, [104, 105]⟩, ⟨1, [104, 105]⟩] = [1, 1] := by
  decide

/-- C4 (code defect): with messages 1 (id 10) and 2 (id 20) awaiting, `ACK(latest = 1, missing
= [])` signals delivery of message 10, resends nothing, and leaves `awaitingACKs` empty: the
entry with sequence number 2, above `latest`, is dropped instead of kept. -/
theorem C4_entry_above_latest_dropped :
    ({ NewSessionState 0 with
        sender := { timeoutTimer := true,
                    awaitingACKs := [⟨⟨0, 10, [97]⟩, 1, 0⟩, ⟨⟨0, 20, [98]⟩, 2, 0⟩],
                    nextSequenceID := 3 } } : SessionState).ReceiveACK ⟨1, []⟩
      = ({ NewSessionState 0 with
            sender := { timeoutTimer := true, awaitingACKs := [], nextSequenceID := 3 } },
         [], [10]) := by
  decide

/-- The loop of `ReceiveACK` from any accumulator, as three filters of the awaiting list. -/
theorem foldl_receiveACKStep (packet : ACKPacket) (l : List awaitingACK) (acc : ACKResult) :
    l.foldl (receiveACKStep packet) acc =
      { resendPackets := acc.resendPackets ++
          (l.filter (fun a => decide (a.sequenceID ≤ packet.LatestSeqID) &&
              packet.MissingSeqIDs.contains a.sequenceID)).map
            (fun a => NewDATAPacket a.sequenceID a.message.body),
        newAwaitingACKs := acc.newAwaitingACKs ++
          l.filter (fun a => decide (a.sequenceID ≤ packet.LatestSeqID) &&
              packet.MissingSeqIDs.contains a.sequenceID),
        delivered := acc.delivered ++
          (l.filter (fun a => decide (a.sequenceID ≤ packet.LatestSeqID) &&
              !packet.MissingSeqIDs.contains a.sequenceID)).map
            (fun a => a.message.messageID) } := by
  induction l generalizing acc with
  | nil => simp
  | cons a l ih =>
    rw [List.foldl_cons, ih]
    unfold receiveACKStep
    by_cases h1 : a.sequenceID ≤ packet.LatestSeqID
    · by_cases h2 : a.sequenceID ∈ packet.MissingSeqIDs
      · simp [h1, h2, List.filter_cons]
      · simp [h1, h2, List.filter_cons]
    · simp [h1, List.filter_cons]

/-- C5: for every session state and every ACK, `ReceiveACK` signals `MessageDelivered` with
the message ids of exactly the awaiting entries with `seq ≤ latest` and `seq ∉ missing` (one
event per entry, in list order), returns exactly one DATA packet with the same sequence
number and body per awaiting entry with `seq ≤ latest` and `seq ∈ missing`, and the new
`awaitingACKs` is exactly the list of those resent entries (so delivered ones are removed). -/
theorem C5_ReceiveACK_delivered_and_resent (state : SessionState) (packet : ACKPacket) :
    (state.ReceiveACK packet).2.2 =
        (state.sender.awaitingACKs.filter (fun a => decide (a.sequenceID ≤ packet.LatestSeqID ∧
            a.sequenceID ∉ packet.MissingSeqIDs))).map (fun a => a.message.messageID) ∧
    (state.ReceiveACK packet).2.1 =
        (state.sender.awaitingACKs.filter (fun a => decide (a.sequenceID ≤ packet.LatestSeqID ∧
            a.sequenceID ∈ packet.MissingSeqIDs))).map
          (fun a => ({ SeqID := a.sequenceID, Data := a.message.body } : DATAPacket)) ∧
    (state.ReceiveACK packet).1.sender.awaitingACKs =
        state.sender.awaitingACKs.filter (fun a => decide (a.sequenceID ≤ packet.LatestSeqID ∧
            a.sequenceID ∈ packet.MissingSeqIDs)) := by
  simp only [SessionState.ReceiveACK, foldl_receiveACKStep, List.nil_append, NewDATAPacket]
  refine ⟨?_, ?_, ?_⟩
  · congr 1
    apply List.filter_congr
    intro a _
    simp
  · congr 1
    apply List.filter_congr
    intro a _
    simp
  · apply List.filter_congr
    intro a _
    simp

theorem ReceiveDATA_next (state : SessionState) (p : DATAPacket)
    (hM : state.receiver.missingSeqs = []) (hs : p.SeqID = state.receiver.latestSeq + 1) :
    (state.ReceiveDATA p).1.receiver =
      { ackTimer := true, latestSeq := p.SeqID, missingSeqs := [],
        awaitingDelivery := state.receiver.awaitingDelivery } ∧
    (state.ReceiveDATA p).2 = [p] := by
  simp [SessionState.ReceiveDATA, hM, hs, sortBySeq]

theorem ReceiveDATA_buffer (state : SessionState) (p : DATAPacket) (first : Nat) (rest : List Nat)
    (hM : (if state.receiver.latestSeq < p.SeqID then
            state.receiver.missingSeqs ++ List.range' (state.receiver.latestSeq + 1)
              (p.SeqID - (state.receiver.latestSeq + 1))
           else state.receiver.missingSeqs) = first :: rest)
    (hlt : first < p.SeqID) :
    (state.ReceiveDATA p).1.receiver =
      { ackTimer := true, latestSeq := max state.receiver.latestSeq p.SeqID,
        missingSeqs := first :: rest.erase p.SeqID,
        awaitingDelivery := state.receiver.awaitingDelivery ++ [p] } ∧
    (state.ReceiveDATA p).2 = [] := by
  have hne : first ≠ p.SeqID := Nat.ne_of_lt hlt
  by_cases hL : state.receiver.latestSeq < p.SeqID
  · simp only [hL, if_true] at hM
    simp [SessionState.ReceiveDATA, hL, hM, hne, hlt, sortBySeq, List.erase_cons_tail,
      Nat.max_eq_right (Nat.le_of_lt hL)]
  · simp only [hL, if_false] at hM
    simp [SessionState.ReceiveDATA, hL, hM, hne, hlt, sortBySeq, List.erase_cons_tail,
      Nat.max_eq_left (Nat.le_of_not_lt hL)]

theorem ReceiveDATA_gap (state : SessionState) (p : DATAPacket) (rest : List Nat)
    (hL : ¬ state.receiver.latestSeq < p.SeqID)
    (hM : state.receiver.missingSeqs = p.SeqID :: rest) :
    (state.ReceiveDATA p).1.receiver =
      { ackTimer := true, latestSeq := state.receiver.latestSeq,
        missingSeqs := rest,
        awaitingDelivery := state.receiver.awaitingDelivery.filter
          (fun q => !decide (q.SeqID < (rest.head?.getD ((state.receiver.latestSeq + 1) % 2 ^ 32)))) } ∧
    (state.ReceiveDATA p).2 = sortBySeq (state.receiver.awaitingDelivery.filter
          (fun q => decide (q.SeqID < (rest.head?.getD ((state.receiver.latestSeq + 1) % 2 ^ 32))))
          ++ [p]) := by
  cases rest with
  | nil => simp [SessionState.ReceiveDATA, hL, hM]
  | cons u rest => simp [SessionState.ReceiveDATA, hL, hM]

theorem sortBySeq_perm (l : List DATAPacket) : (sortBySeq l).Perm l :=
  List.perm_insertionSort _ l

theorem sortBySeq_sorted (l : List DATAPacket) :
    ((sortBySeq l).map DATAPacket.SeqID).Sorted (fun a b => a ≤ b) := by
  haveI : IsTotal DATAPacket (fun a b => a.SeqID ≤ b.SeqID) := ⟨fun a b => Nat.le_total _ _⟩
  haveI : IsTrans DATAPacket (fun a b => a.SeqID ≤ b.SeqID) :=
    ⟨fun _ _ _ hab hbc => Nat.le_trans hab hbc⟩
  have h := List.sorted_insertionSort (fun a b : DATAPacket => a.SeqID ≤ b.SeqID) l
  exact List.pairwise_map.mpr h

/-- Sorting packets whose sequence numbers are exactly the interval `[s, s + k)`, each once,
lists them as `s, s + 1, …`. -/
theorem sortBySeq_eq_range (l : List DATAPacket) (s k : Nat)
    (hnd : (l.map DATAPacket.SeqID).Nodup)
    (hmem : ∀ x, x ∈ l.map DATAPacket.SeqID ↔ s ≤ x ∧ x < s + k) :
    (sortBySeq l).map DATAPacket.SeqID = List.range' s k := by
  have hp1 : ((sortBySeq l).map DATAPacket.SeqID).Perm (l.map DATAPacket.SeqID) :=
    (sortBySeq_perm l).map _
  have hp2 : (l.map DATAPacket.SeqID).Perm (List.range' s k) := by
    refine (List.perm_ext_iff_of_nodup hnd (List.nodup_range' s k)).2 ?_
    intro x
    rw [hmem x, List.mem_range'_1]
  have hs2 : (List.range' s k).Sorted (fun a b => a ≤ b) :=
    (List.pairwise_lt_range' s k).imp (fun h => Nat.le_of_lt h)
  exact List.eq_of_perm_of_sorted (hp1.trans hp2) (sortBySeq_sorted l) hs2

theorem range'_sorted_lt (s k : Nat) : (List.range' s k).Sorted (fun a b => a < b) :=
  List.pairwise_lt_range' s k

/-- Case: the packet is the next in order and nothing is missing. -/
theorem ReceiveDATA_inv_next (state : SessionState) (D R : List DATAPacket) (p : DATAPacket)
    (h : RecvInv state.receiver D R) (hnew : p.SeqID ∉ R.map DATAPacket.SeqID)
    (hb : p.SeqID + 1 < 2 ^ 32)
    (hM : state.receiver.missingSeqs = []) (hs : p.SeqID = state.receiver.latestSeq + 1) :
    RecvInv (state.ReceiveDATA p).1.receiver (D ++ (state.ReceiveDATA p).2) (R ++ [p]) ∧
    ((state.ReceiveDATA p).2.map DATAPacket.SeqID).Sorted (fun a b => a < b) := by
  obtain ⟨hr, ho⟩ := ReceiveDATA_next state p hM hs
  rw [hr, ho]
  refine ⟨⟨?_, ?_, ?_, ?_, ?_, ?_, ?_, ?_⟩, ?_⟩
  · rw [List.map_append, List.nodup_append]
    refine ⟨h.nodup, by simp, ?_⟩
    intro x hx hx2
    simp at hx2
    subst hx2
    exact hnew hx
  · simp [List.Sorted]
  · intro x
    simp only [List.not_mem_nil, false_iff, List.map_append, List.mem_append, List.map_cons,
      List.map_nil, List.mem_singleton, not_and, not_not]
    intro hx1 hx2
    by_contra hcon
    push_neg at hcon
    have hxM : x ∈ state.receiver.missingSeqs := by
      rw [h.missing_iff]
      exact ⟨hx1, by omega, hcon.1⟩
    rw [hM] at hxM
    exact absurd hxM (List.not_mem_nil x)
  · intro q hq
    rw [List.mem_append, List.mem_singleton] at hq
    rcases hq with hq | hq
    · have := h.bound q hq
      simp only
      omega
    · subst hq
      simp only
      omega
  · exact hb
  · have hd := h.delivered
    rw [hM] at hd
    simp only [horizon] at hd ⊢
    rw [List.map_append, hd, hs, List.range'_concat]
    simpa [Nat.add_comm] using hs
  · simp only
    have := h.perm
    calc (D ++ [p] ++ state.receiver.awaitingDelivery).Perm
          (D ++ (state.receiver.awaitingDelivery ++ [p])) := by
            rw [List.append_assoc]
            exact List.Perm.append_left D List.perm_append_comm
      _ = ((D ++ state.receiver.awaitingDelivery) ++ [p]) := by rw [List.append_assoc]
      _ |>.Perm (R ++ [p]) := List.Perm.append_right [p] this
  · right
    simp
  · simp [List.Sorted]

/-- Case: an earlier sequence number is still missing, so the packet is buffered. -/
theorem ReceiveDATA_inv_buffer (state : SessionState) (D R : List DATAPacket) (p : DATAPacket)
    (h : RecvInv state.receiver D R) (hnew : p.SeqID ∉ R.map DATAPacket.SeqID)
    (h1 : 1 ≤ p.SeqID) (hb : p.SeqID + 1 < 2 ^ 32)
    (ext : List Nat) (first : Nat) (rest : List Nat)
    (hext : (if state.receiver.latestSeq < p.SeqID then
            state.receiver.missingSeqs ++ List.range' (state.receiver.latestSeq + 1)
              (p.SeqID - (state.receiver.latestSeq + 1))
           else state.receiver.missingSeqs) = ext)
    (hcons : ext = first :: rest) (hlt : first < p.SeqID)
    (hhor : horizon ext (max state.receiver.latestSeq p.SeqID) =
      horizon state.receiver.missingSeqs state.receiver.latestSeq) :
    RecvInv (state.ReceiveDATA p).1.receiver (D ++ (state.ReceiveDATA p).2) (R ++ [p]) ∧
    ((state.ReceiveDATA p).2.map DATAPacket.SeqID).Sorted (fun a b => a < b) := by
  obtain ⟨hr, ho⟩ := ReceiveDATA_buffer state p first rest (hext.trans hcons) hlt
  rw [hr, ho]
  have hne : first ≠ p.SeqID := Nat.ne_of_lt hlt
  have herase : first :: rest.erase p.SeqID = ext.erase p.SeqID := by
    rw [hcons, List.erase_cons_tail]
    simpa using hne
  -- the extended missing list: sorted, and its members
  have hsorted : ext.Sorted (fun a b => a < b) := by
    rw [← hext]
    split
    · rw [List.Sorted, List.pairwise_append]
      refine ⟨h.sorted, range'_sorted_lt _ _, ?_⟩
      intro a ha b hb
      have := ((h.missing_iff a).1 ha).2.1
      rw [List.mem_range'_1] at hb
      omega
    · exact h.sorted
  have hmem : ∀ x, x ∈ ext ↔ (1 ≤ x ∧ x ≤ max state.receiver.latestSeq p.SeqID ∧
      x ∉ R.map DATAPacket.SeqID ∧ (state.receiver.latestSeq < x → x < p.SeqID)) := by
    intro x
    rw [← hext]
    split
    · rename_i hL
      rw [List.mem_append, h.missing_iff, List.mem_range'_1]
      constructor
      · rintro (⟨a, b, c⟩ | ⟨a, b⟩)
        · exact ⟨a, by omega, c, by omega⟩
        · refine ⟨by omega, by omega, ?_, by omega⟩
          intro hx
          obtain ⟨q, hq, rfl⟩ := List.mem_map.1 hx
          have := h.bound q hq
          omega
      · rintro ⟨a, b, c, d⟩
        by_cases hx : x ≤ state.receiver.latestSeq
        · exact Or.inl ⟨a, hx, c⟩
        · right
          have := d (by omega)
          omega
    · rename_i hL
      rw [h.missing_iff]
      constructor
      · rintro ⟨a, b, c⟩
        exact ⟨a, by omega, c, by omega⟩
      · rintro ⟨a, b, c, d⟩
        refine ⟨a, ?_, c⟩
        by_contra hx
        have := d (by omega)
        omega
  rw [herase]
  refine ⟨⟨?_, ?_, ?_, ?_, ?_, ?_, ?_, ?_⟩, ?_⟩
  · rw [List.map_append, List.nodup_append]
    refine ⟨h.nodup, by simp, ?_⟩
    intro x hx hx2
    simp at hx2
    subst hx2
    exact hnew hx
  · exact hsorted.sublist (List.erase_sublist _ _)
  · intro x
    simp only
    rw [hsorted.nodup.mem_erase_iff, hmem x]
    simp only [List.map_append, List.mem_append, List.map_cons, List.map_nil,
      List.mem_singleton, not_or]
    constructor
    · rintro ⟨hx, a, b, c, d⟩
      exact ⟨a, b, c, hx⟩
    · rintro ⟨a, b, c, hx⟩
      refine ⟨hx, a, b, c, ?_⟩
      intro hLx
      have : max state.receiver.latestSeq p.SeqID = p.SeqID := by omega
      omega
  · intro q hq
    rw [List.mem_append, List.mem_singleton] at hq
    rcases hq with hq | hq
    · have := h.bound q hq
      simp only
      omega
    · subst hq
      simp only
      omega
  · have := h.latest_lt
    simp only
    omega
  · simp only [List.append_nil]
    rw [h.delivered, ← hhor]
    have : horizon (ext.erase p.SeqID) (max state.receiver.latestSeq p.SeqID) =
        horizon ext (max state.receiver.latestSeq p.SeqID) := by
      rw [← herase, hcons]
      rfl
    rw [this]
  · simp only [List.append_nil]
    rw [← List.append_assoc]
    exact List.Perm.append_right [p] h.perm
  · simp only [List.map_append, List.mem_append, List.map_cons, List.map_nil,
      List.mem_singleton]
    rcases Nat.le_total state.receiver.latestSeq p.SeqID with hle | hle
    · rw [Nat.max_eq_right hle]
      exact Or.inr (Or.inr rfl)
    · rw [Nat.max_eq_left hle]
      rcases h.latest_mem with h0 | hmemL
      · exact Or.inl h0
      · exact Or.inr (Or.inl hmemL)
  · simp [List.Sorted]

/-- Case: the packet is the earliest missing one; it is delivered with every buffered
packet below the next gap. -/
theorem ReceiveDATA_inv_gap (state : SessionState) (D R : List DATAPacket) (p : DATAPacket)
    (h : RecvInv state.receiver D R) (hnew : p.SeqID ∉ R.map DATAPacket.SeqID)
    (h1 : 1 ≤ p.SeqID) (rest : List Nat)
    (hL : ¬ state.receiver.latestSeq < p.SeqID)
    (hM : state.receiver.missingSeqs = p.SeqID :: rest) :
    RecvInv (state.ReceiveDATA p).1.receiver (D ++ (state.ReceiveDATA p).2) (R ++ [p]) ∧
    ((state.ReceiveDATA p).2.map DATAPacket.SeqID).Sorted (fun a b => a < b) := by
  obtain ⟨hr, ho⟩ := ReceiveDATA_gap state p rest hL hM
  rw [hr, ho]
  have hmod : (state.receiver.latestSeq + 1) % 2 ^ 32 = state.receiver.latestSeq + 1 :=
    Nat.mod_eq_of_lt h.latest_lt
  rw [hmod]
  have hsorted := h.sorted
  rw [hM] at hsorted
  have hsM : p.SeqID ∈ state.receiver.missingSeqs := by rw [hM]; exact List.mem_cons_self _ _
  have hsL : p.SeqID ≤ state.receiver.latestSeq := ((h.missing_iff _).1 hsM).2.1
  -- the bound up to which buffered packets are delivered
  obtain ⟨u, hu, hsu, huL, hhor, hrest⟩ : ∃ u, rest.head?.getD (state.receiver.latestSeq + 1) = u ∧
      p.SeqID < u ∧ u ≤ state.receiver.latestSeq + 1 ∧
      horizon rest state.receiver.latestSeq = u - 1 ∧ ∀ x ∈ rest, u ≤ x := by
    cases rest with
    | nil => exact ⟨state.receiver.latestSeq + 1, rfl, by omega, Nat.le_refl _,
        by simp [horizon], by simp⟩
    | cons u rest' =>
      refine ⟨u, rfl, ?_, ?_, rfl, ?_⟩
      · exact List.rel_of_sorted_cons hsorted u (List.mem_cons_self _ _)
      · have : u ∈ state.receiver.missingSeqs := by rw [hM]; simp
        have := ((h.missing_iff _).1 this).2.1
        omega
      · intro x hx
        rcases List.mem_cons.1 hx with hx | hx
        · omega
        · exact Nat.le_of_lt (List.rel_of_sorted_cons hsorted.of_cons x hx)
  rw [hu]
  have hD : D.map DATAPacket.SeqID = List.range' 1 (p.SeqID - 1) := by
    have := h.delivered
    rw [hM] at this
    exact this
  have hDA : ((D ++ state.receiver.awaitingDelivery).map DATAPacket.SeqID).Nodup :=
    (h.perm.map _).nodup_iff.2 h.nodup
  rw [List.map_append, List.nodup_append] at hDA
  obtain ⟨-, hAnd, hdisj⟩ := hDA
  have hAR : ∀ q ∈ state.receiver.awaitingDelivery, q ∈ R := fun q hq =>
    h.perm.subset (List.mem_append_right _ hq)
  -- what is delivered now: the sequence numbers `p.SeqID, …, u - 1`
  have hout : (sortBySeq (state.receiver.awaitingDelivery.filter
      (fun q => decide (q.SeqID < u)) ++ [p])).map DATAPacket.SeqID =
      List.range' p.SeqID (u - p.SeqID) := by
    apply sortBySeq_eq_range
    · rw [List.map_append, List.nodup_append]
      refine ⟨hAnd.sublist ((List.filter_sublist _).map _), by simp, ?_⟩
      intro x hx hx2
      simp only [List.map_cons, List.map_nil, List.mem_singleton] at hx2
      subst hx2
      obtain ⟨q, hq, hqx⟩ := List.mem_map.1 hx
      exact hnew (List.mem_map.2 ⟨q, hAR q (List.mem_filter.1 hq).1, hqx⟩)
    · intro x
      rw [List.map_append, List.mem_append]
      constructor
      · rintro (hx | hx)
        · obtain ⟨q, hq, rfl⟩ := List.mem_map.1 hx
          obtain ⟨hqA, hqu⟩ := List.mem_filter.1 hq
          have hqu : q.SeqID < u := by simpa using hqu
          have hq1 := (h.bound q (hAR q hqA)).1
          have hnD : q.SeqID ∉ D.map DATAPacket.SeqID := fun hqD =>
            hdisj hqD (List.mem_map.2 ⟨q, hqA, rfl⟩)
          rw [hD, List.mem_range'_1] at hnD
          omega
        · simp only [List.map_cons, List.map_nil, List.mem_singleton] at hx
          omega
      · rintro ⟨hx1, hx2⟩
        by_cases hxs : x = p.SeqID
        · right
          simp [hxs]
        · left
          have hxM : x ∉ state.receiver.missingSeqs := by
            rw [hM]
            intro hx
            rcases List.mem_cons.1 hx with hx | hx
            · exact hxs hx
            · have := hrest x hx
              omega
          rw [h.missing_iff] at hxM
          have hxR : x ∈ R.map DATAPacket.SeqID := by
            by_contra hcon
            exact hxM ⟨by omega, by omega, hcon⟩
          obtain ⟨q, hq, rfl⟩ := List.mem_map.1 hxR
          have hqDA := h.perm.symm.subset hq
          rcases List.mem_append.1 hqDA with hqD | hqA
          · have : q.SeqID ∈ D.map DATAPacket.SeqID := List.mem_map.2 ⟨q, hqD, rfl⟩
            rw [hD, List.mem_range'_1] at this
            omega
          · refine List.mem_map.2 ⟨q, List.mem_filter.2 ⟨hqA, ?_⟩, rfl⟩
            simp only [decide_eq_true_eq]
            omega
  refine ⟨⟨?_, ?_, ?_, ?_, ?_, ?_, ?_, ?_⟩, ?_⟩
  · rw [List.map_append, List.nodup_append]
    refine ⟨h.nodup, by simp, ?_⟩
    intro x hx hx2
    simp at hx2
    subst hx2
    exact hnew hx
  · exact hsorted.of_cons
  · intro x
    simp only [List.map_append, List.mem_append, List.map_cons, List.map_nil,
      List.mem_singleton, not_or]
    constructor
    · intro hx
      have hxM : x ∈ state.receiver.missingSeqs := by rw [hM]; exact List.mem_cons_of_mem _ hx
      obtain ⟨a, b, c⟩ := (h.missing_iff x).1 hxM
      have := hrest x hx
      exact ⟨a, b, c, by omega⟩
    · rintro ⟨a, b, c, d⟩
      have hxM : x ∈ state.receiver.missingSeqs := (h.missing_iff x).2 ⟨a, b, c⟩
      rw [hM] at hxM
      rcases List.mem_cons.1 hxM with hx | hx
      · exact absurd hx d
      · exact hx
  · intro q hq
    rw [List.mem_append, List.mem_singleton] at hq
    rcases hq with hq | hq
    · exact h.bound q hq
    · subst hq
      exact ⟨h1, hsL⟩
  · exact h.latest_lt
  · simp only
    rw [List.map_append, hout, hD, hhor]
    have e1 : List.range' p.SeqID (u - p.SeqID) =
        List.range' (1 + (p.SeqID - 1)) (u - p.SeqID) := by
      congr 1
      omega
    have e2 : u - 1 = (u - p.SeqID) + (p.SeqID - 1) := by omega
    rw [e1, e2]
    exact List.range'_append_1 1 (p.SeqID - 1) (u - p.SeqID)
  · simp only
    have hsplit : (state.receiver.awaitingDelivery.filter (fun q => decide (q.SeqID < u)) ++
        state.receiver.awaitingDelivery.filter (fun q => !decide (q.SeqID < u))).Perm
        state.receiver.awaitingDelivery := List.filter_append_perm _ _
    have h2 : (sortBySeq (state.receiver.awaitingDelivery.filter
        (fun q => decide (q.SeqID < u)) ++ [p]) ++
        state.receiver.awaitingDelivery.filter (fun q => !decide (q.SeqID < u))).Perm
        (state.receiver.awaitingDelivery ++ [p]) := by
      refine ((sortBySeq_perm _).append_right _).trans ?_
      rw [List.append_assoc]
      refine (List.Perm.append_left _ List.perm_append_comm).trans ?_
      rw [← List.append_assoc]
      exact hsplit.append_right [p]
    rw [List.append_assoc]
    refine (List.Perm.append_left D h2).trans ?_
    rw [← List.append_assoc]
    exact h.perm.append_right [p]
  · simp only [List.map_append, List.mem_append]
    rcases h.latest_mem with h0 | hmemL
    · exact Or.inl h0
    · exact Or.inr (Or.inl hmemL)
  · rw [hout]
    exact range'_sorted_lt _ _

/-- One `ReceiveDATA` call on a packet with a new sequence number keeps the receiver
invariant and returns its packets in strictly ascending sequence order. -/
theorem ReceiveDATA_inv (state : SessionState) (D R : List DATAPacket) (p : DATAPacket)
    (h : RecvInv state.receiver D R) (hnew : p.SeqID ∉ R.map DATAPacket.SeqID)
    (h1 : 1 ≤ p.SeqID) (hb : p.SeqID + 1 < 2 ^ 32) :
    RecvInv (state.ReceiveDATA p).1.receiver (D ++ (state.ReceiveDATA p).2) (R ++ [p]) ∧
    ((state.ReceiveDATA p).2.map DATAPacket.SeqID).Sorted (fun a b => a < b) := by
  by_cases hL : state.receiver.latestSeq < p.SeqID
  · by_cases hnext : state.receiver.missingSeqs = [] ∧ p.SeqID = state.receiver.latestSeq + 1
    · exact ReceiveDATA_inv_next state D R p h hnew hb hnext.1 hnext.2
    · cases hMc : state.receiver.missingSeqs with
      | nil =>
        have hgt : state.receiver.latestSeq + 1 < p.SeqID := by
          rcases Nat.lt_or_ge (state.receiver.latestSeq + 1) p.SeqID with hlt | hge
          · exact hlt
          · exact absurd ⟨hMc, by omega⟩ hnext
        obtain ⟨k, hk⟩ : ∃ k, p.SeqID - (state.receiver.latestSeq + 1) = k + 1 :=
          ⟨p.SeqID - (state.receiver.latestSeq + 1) - 1, by omega⟩
        refine ReceiveDATA_inv_buffer state D R p h hnew h1 hb _ (state.receiver.latestSeq + 1)
          (List.range' (state.receiver.latestSeq + 1 + 1) k) rfl ?_ (by omega) ?_
        · rw [if_pos hL, hMc, hk, List.nil_append, List.range'_succ]
        · rw [if_pos hL, hMc, hk, List.nil_append, List.range'_succ]
          simp [horizon]
      | cons m M' =>
        have hm : m ∈ state.receiver.missingSeqs := by rw [hMc]; exact List.mem_cons_self _ _
        have hmL := ((h.missing_iff m).1 hm).2.1
        refine ReceiveDATA_inv_buffer state D R p h hnew h1 hb _ m
          (M' ++ List.range' (state.receiver.latestSeq + 1)
            (p.SeqID - (state.receiver.latestSeq + 1))) rfl ?_ (by omega) ?_
        · rw [if_pos hL, hMc, List.cons_append]
        · rw [if_pos hL, hMc, List.cons_append]
          rfl
  · have hsL : p.SeqID ≤ state.receiver.latestSeq := Nat.le_of_not_lt hL
    have hsM : p.SeqID ∈ state.receiver.missingSeqs := (h.missing_iff _).2 ⟨h1, hsL, hnew⟩
    cases hMc : state.receiver.missingSeqs with
    | nil => rw [hMc] at hsM; exact absurd hsM (List.not_mem_nil _)
    | cons m M' =>
      by_cases hms : m = p.SeqID
      · subst hms
        exact ReceiveDATA_inv_gap state D R p h hnew h1 M' hL hMc
      · have hlt : m < p.SeqID := by
          rw [hMc] at hsM
          rcases List.mem_cons.1 hsM with hx | hx
          · exact absurd hx.symm hms
          · have hs := h.sorted
            rw [hMc] at hs
            exact List.rel_of_sorted_cons hs _ hx
        refine ReceiveDATA_inv_buffer state D R p h hnew h1 hb _ m M' rfl ?_ hlt ?_
        · rw [if_neg hL, hMc]
        · rw [if_neg hL, hMc]
          rfl

theorem RecvInv_fresh (sessionID : Nat) : RecvInv (NewSessionState sessionID).receiver [] [] := by
  refine ⟨by simp, by simp [NewSessionState], ?_, by simp, by simp [NewSessionState], ?_,
    by simp [NewSessionState], Or.inl rfl⟩
  · intro x
    simp [NewSessionState]
    omega
  · simp [NewSessionState, horizon]

/-- Feeding packets with pairwise different, new sequence numbers keeps the invariant, and
every call returns its packets in strictly ascending sequence order. -/
theorem receiveAll_inv (pkts : List DATAPacket) :
    ∀ (state : SessionState) (D R : List DATAPacket), RecvInv state.receiver D R →
      ((R ++ pkts).map DATAPacket.SeqID).Nodup →
      (∀ p ∈ pkts, 1 ≤ p.SeqID ∧ p.SeqID + 1 < 2 ^ 32) →
      (∃ r, RecvInv r (D ++ (receiveAll state pkts).flatten) (R ++ pkts)) ∧
      ∀ out ∈ receiveAll state pkts, (out.map DATAPacket.SeqID).Sorted (fun a b => a < b) := by
  induction pkts with
  | nil =>
    intro state D R h _ _
    simp only [receiveAll, List.flatten_nil, List.append_nil, List.not_mem_nil, false_imp_iff,
      implies_true, and_true]
    exact ⟨_, h⟩
  | cons p pkts ih =>
    intro state D R h hnd hbd
    have hnew : p.SeqID ∉ R.map DATAPacket.SeqID := by
      rw [List.map_append, List.nodup_append] at hnd
      intro hx
      exact hnd.2.2 hx (by simp)
    obtain ⟨hinv, hsorted⟩ := ReceiveDATA_inv state D R p h hnew
      (hbd p (List.mem_cons_self _ _)).1 (hbd p (List.mem_cons_self _ _)).2
    have hnd2 : (((R ++ [p]) ++ pkts).map DATAPacket.SeqID).Nodup := by
      rw [List.append_assoc]
      exact hnd
    obtain ⟨⟨r, hr⟩, hall⟩ := ih (state.ReceiveDATA p).1 _ _ hinv hnd2
      (fun q hq => hbd q (List.mem_cons_of_mem _ hq))
    refine ⟨⟨r, ?_⟩, ?_⟩
    · simp only [receiveAll, List.flatten_cons]
      rw [← List.append_assoc, show R ++ p :: pkts = (R ++ [p]) ++ pkts by simp]
      exact hr
    · intro out hout
      simp only [receiveAll, List.mem_cons] at hout
      rcases hout with rfl | hout
      · exact hsorted
      · exact hall out hout

/-- C2 (amended): for every `n` with `n + 1 < 2 ^ 32` and every arrival order of DATA packets
whose sequence numbers are a permutation of `1 … n`, fed one at a time to `ReceiveDATA` on a
fresh session state: each call returns its packets in strictly ascending sequence order, the
concatenation of the returned lists has the sequence numbers `1, 2, …, n` in that order, and
it consists of exactly the packets that arrived, each once. -/
theorem C2_in_order_delivery (n : Nat) (hn : n + 1 < 2 ^ 32) (sessionID : Nat)
    (pkts : List DATAPacket) (hperm : (pkts.map DATAPacket.SeqID).Perm (List.range' 1 n)) :
    (∀ out ∈ receiveAll (NewSessionState sessionID) pkts,
        (out.map DATAPacket.SeqID).Sorted (fun a b => a < b)) ∧
    (receiveAll (NewSessionState sessionID) pkts).flatten.map DATAPacket.SeqID =
        List.range' 1 n ∧
    ((receiveAll (NewSessionState sessionID) pkts).flatten).Perm pkts := by
  have hmem : ∀ x, x ∈ pkts.map DATAPacket.SeqID ↔ 1 ≤ x ∧ x < 1 + n := by
    intro x
    rw [hperm.mem_iff, List.mem_range'_1]
  have hbd : ∀ p ∈ pkts, 1 ≤ p.SeqID ∧ p.SeqID + 1 < 2 ^ 32 := by
    intro p hp
    have := (hmem p.SeqID).1 (List.mem_map.2 ⟨p, hp, rfl⟩)
    omega
  have hnd : (([] ++ pkts).map DATAPacket.SeqID).Nodup := by
    rw [List.nil_append]
    exact hperm.nodup_iff.2 (List.nodup_range' 1 n)
  obtain ⟨⟨r, hr⟩, hsorted⟩ :=
    receiveAll_inv pkts (NewSessionState sessionID) [] [] (RecvInv_fresh sessionID) hnd hbd
  rw [List.nil_append, List.nil_append] at hr
  -- at the end nothing is missing and the latest sequence number is `n`
  have hLn : r.latestSeq ≤ n := by
    rcases hr.latest_mem with h0 | hm
    · omega
    · have := (hmem _).1 hm
      omega
  have hMnil : r.missingSeqs = [] := by
    cases hMc : r.missingSeqs with
    | nil => rfl
    | cons m M' =>
      have hm : m ∈ r.missingSeqs := by rw [hMc]; exact List.mem_cons_self _ _
      obtain ⟨a, b, c⟩ := (hr.missing_iff m).1 hm
      exact absurd ((hmem m).2 ⟨a, by omega⟩) c
  have hnL : n ≤ r.latestSeq := by
    rcases Nat.eq_zero_or_pos n with h0 | hpos
    · omega
    · obtain ⟨p, hp, hpn⟩ := List.mem_map.1 ((hmem n).2 ⟨hpos, by omega⟩)
      have := (hr.bound p hp).2
      omega
  have hL : r.latestSeq = n := Nat.le_antisymm hLn hnL
  have hD := hr.delivered
  rw [hMnil, horizon, hL] at hD
  refine ⟨hsorted, hD, ?_⟩
  have hlen := (hr.perm.map DATAPacket.SeqID).length_eq
  have hlen2 := hperm.length_eq
  rw [List.map_append, List.length_append, hD, List.length_range', List.length_map] at hlen
  rw [List.length_range'] at hlen2
  have hA : r.awaitingDelivery = [] := by
    apply List.eq_nil_of_length_eq_zero
    rw [List.length_map] at hlen hlen2
    omega
  have := hr.perm
  rw [hA, List.append_nil] at this
  exact this

/-- C2 (witness): the arrival order 3, 1, 2 of three packets. -/
theorem C2_in_order_delivery_witness :
    (3 + 1 < 2 ^ 32 ∧
      (([⟨3, [99]⟩, ⟨1, [97]⟩, ⟨2, [98]⟩] : List DATAPacket).map DATAPacket.SeqID).Perm
        (List.range' 1 3)) ∧
    ((∀ out ∈ receiveAll (NewSessionState 7) [⟨3, [99]⟩, ⟨1, [97]⟩, ⟨2, [98]⟩],
        (out.map DATAPacket.SeqID).Sorted (fun a b => a < b)) ∧
    (receiveAll (NewSessionState 7) [⟨3, [99]⟩, ⟨1, [97]⟩, ⟨2, [98]⟩]).flatten.map
        DATAPacket.SeqID = List.range' 1 3 ∧
    ((receiveAll (NewSessionState 7) [⟨3, [99]⟩, ⟨1, [97]⟩, ⟨2, [98]⟩]).flatten).Perm
        [⟨3, [99]⟩, ⟨1, [97]⟩, ⟨2, [98]⟩]) :=
  ⟨⟨by norm_num, by decide⟩,
   C2_in_order_delivery 3 (by norm_num) 7 [⟨3, [99]⟩, ⟨1, [97]⟩, ⟨2, [98]⟩] (by decide)⟩

theorem lastFirstArrival_perm (N : Nat) (hN : 1 ≤ N) :
    ((lastFirstArrival N).map DATAPacket.SeqID).Perm (List.range' 1 N) := by
  obtain ⟨k, rfl⟩ : ∃ k, N = k + 1 := ⟨N - 1, by omega⟩
  have hmap : ((List.range' 1 k).map (fun i => NewDATAPacket i [])).map DATAPacket.SeqID =
      List.range' 1 k := by
    rw [List.map_map]
    conv_rhs => rw [← List.map_id (List.range' 1 k)]
    rfl
  unfold lastFirstArrival
  rw [List.map_cons, Nat.add_sub_cancel, hmap, List.range'_concat, Nat.mul_comm, Nat.mul_one,
    Nat.add_comm 1 k]
  exact (List.perm_append_singleton _ _).symm

/-- With `latestSeq = N = 2 ^ 32 - 1`, packet `N` buffered and `i, …, N - 1` missing, the
arrivals `i, …, N - 1` deliver exactly themselves: packet `N` stays buffered, also after the
last gap is filled, because `latestSeq + 1` wraps to 0. -/
theorem receiveAll_wrap_tail (N : Nat) (hN : N + 1 = 2 ^ 32) :
    ∀ (k i : Nat), i + k = N → 1 ≤ i → ∀ (state : SessionState),
      state.receiver.latestSeq = N → state.receiver.missingSeqs = List.range' i k →
      state.receiver.awaitingDelivery = [NewDATAPacket N []] →
      (receiveAll state ((List.range' i k).map (fun j => NewDATAPacket j []))).flatten.map
        DATAPacket.SeqID = List.range' i k := by
  intro k
  induction k with
  | zero =>
    intro i _ _ state _ _ _
    simp [receiveAll]
  | succ k ih =>
    intro i hik hi state hL hM hA
    rw [List.range'_succ] at hM ⊢
    have hnl : ¬ state.receiver.latestSeq < (NewDATAPacket i []).SeqID := by
      rw [hL]
      simp only [NewDATAPacket]
      omega
    obtain ⟨hr, ho⟩ := ReceiveDATA_gap state (NewDATAPacket i []) (List.range' (i + 1) k) hnl hM
    have hu : ¬ N < (List.range' (i + 1) k).head?.getD ((state.receiver.latestSeq + 1) % 2 ^ 32) := by
      cases k with
      | zero =>
        rw [hL, hN]
        simp
      | succ k =>
        rw [List.range'_succ]
        simp only [List.head?_cons, Option.getD_some]
        omega
    rw [hA] at hr ho
    have hf1 : ([NewDATAPacket N []].filter (fun q => !decide (q.SeqID <
        (List.range' (i + 1) k).head?.getD ((state.receiver.latestSeq + 1) % 2 ^ 32)))) =
        [NewDATAPacket N []] := by
      rw [List.filter_cons_of_pos]
      · rfl
      · simpa [NewDATAPacket] using hu
    have hf2 : ([NewDATAPacket N []].filter (fun q => decide (q.SeqID <
        (List.range' (i + 1) k).head?.getD ((state.receiver.latestSeq + 1) % 2 ^ 32)))) = [] := by
      rw [List.filter_cons_of_neg]
      · rfl
      · simpa [NewDATAPacket] using hu
    rw [hf1] at hr
    rw [hf2] at ho
    simp only [List.map_cons, receiveAll, List.flatten_cons, List.map_append]
    rw [ih (i + 1) (by omega) (by omega) (state.ReceiveDATA (NewDATAPacket i [])).1
      (by rw [hr]; exact hL) (by rw [hr]) (by rw [hr]), ho]
    simp [sortBySeq, NewDATAPacket]

theorem deliveredSeqs_lastFirstArrival (N : Nat) (hN : N + 1 = 2 ^ 32) (sessionID : Nat) :
    deliveredSeqs (NewSessionState sessionID) (lastFirstArrival N) = List.range' 1 (N - 1) := by
  obtain ⟨k, hk⟩ : ∃ k, N - 1 = k + 1 := ⟨N - 2, by omega⟩
  have hext : (if (NewSessionState sessionID).receiver.latestSeq < (NewDATAPacket N []).SeqID then
      (NewSessionState sessionID).receiver.missingSeqs ++
        List.range' ((NewSessionState sessionID).receiver.latestSeq + 1)
          ((NewDATAPacket N []).SeqID - ((NewSessionState sessionID).receiver.latestSeq + 1))
      else (NewSessionState sessionID).receiver.missingSeqs) = 1 :: List.range' 2 k := by
    simp only [NewSessionState, NewDATAPacket]
    rw [if_pos (by omega), List.nil_append, Nat.zero_add, hk, List.range'_succ]
  obtain ⟨hr, ho⟩ := ReceiveDATA_buffer (NewSessionState sessionID) (NewDATAPacket N []) 1
    (List.range' 2 k) hext (by simp only [NewDATAPacket]; omega)
  have herase : (List.range' 2 k).erase (NewDATAPacket N []).SeqID = List.range' 2 k := by
    apply List.erase_of_not_mem
    rw [List.mem_range'_1]
    simp only [NewDATAPacket]
    omega
  rw [herase] at hr
  unfold deliveredSeqs lastFirstArrival
  simp only [receiveAll, List.flatten_cons, List.map_append]
  rw [receiveAll_wrap_tail N hN (N - 1) 1 (by omega) (Nat.le_refl 1)
    (NewSessionState sessionID |>.ReceiveDATA (NewDATAPacket N [])).1
    (by rw [hr]; simp only [NewSessionState, NewDATAPacket]; omega)
    (by rw [hr, hk, List.range'_succ])
    (by rw [hr]; simp [NewSessionState]), ho]
  simp

/-- C2 (counterexample): the packets with sequence numbers `1 … 2 ^ 32 - 1` arriving in the
order `2 ^ 32 - 1, 1, 2, …, 2 ^ 32 - 2` are a permutation of `1 … n` for `n = 2 ^ 32 - 1`, yet
the delivered sequence numbers are not `1, …, n`: packet `n` is never delivered. -/
theorem C2_fails_at_last_sequence_number :
    ((lastFirstArrival 4294967295).map DATAPacket.SeqID).Perm (List.range' 1 4294967295) ∧
    (receiveAll (NewSessionState 0) (lastFirstArrival 4294967295)).flatten.map DATAPacket.SeqID
      ≠ List.range' 1 4294967295 := by
  refine ⟨lastFirstArrival_perm 4294967295 (by norm_num), ?_⟩
  have h := deliveredSeqs_lastFirstArrival 4294967295 (by norm_num) 0
  unfold deliveredSeqs at h
  rw [h]
  intro hcon
  have := congrArg List.length hcon
  rw [List.length_range', List.length_range'] at this
  omega

end transport_layer
namespace sync

theorem Model.entry_eq (s : Model) (pk : NodePublicKey) (version : Nat) :
    s.entry pk version = entryOf s.NodeStates pk version := rfl

theorem Digest_NodeStates (s : Model) : s.Digest.1.NodeStates = s.NodeStates := by
  unfold Model.Digest
  split <;> rfl

theorem Digest_PublicKey (s : Model) : s.Digest.1.PublicKey = s.PublicKey := by
  unfold Model.Digest
  split <;> rfl

theorem sortDeltas_perm (l : Deltas) : (sortDeltas l).Perm l :=
  List.perm_insertionSort _ l

theorem sortDeltas_sorted (l : Deltas) :
    (sortDeltas l).Sorted (fun a b => a.Version ≤ b.Version) := by
  haveI : IsTotal Delta (fun a b => a.Version ≤ b.Version) := ⟨fun a b => Nat.le_total _ _⟩
  haveI : IsTrans Delta (fun a b => a.Version ≤ b.Version) :=
    ⟨fun _ _ _ hab hbc => Nat.le_trans hab hbc⟩
  exact List.sorted_insertionSort (fun a b : Delta => a.Version ≤ b.Version) l

/-- The deltas collected for one node are the stored entries of that node that pass `keep`. -/
theorem mem_nodeDeltas (states : ModelNodeStates) (keep : Nat → Bool) (node : NodePublicKey)
    (delta : Delta) :
    delta ∈ nodeDeltas states keep node ↔
      delta.PublicKey = node ∧ keep delta.Version = true ∧
      entryOf states node delta.Version = some delta.message := by
  unfold nodeDeltas entryOf
  rw [List.mem_map]
  constructor
  · rintro ⟨e, he, rfl⟩
    obtain ⟨he1, he2⟩ := List.mem_filter.1 he
    refine ⟨rfl, he2, ?_⟩
    have hl : ((states.lookup node).getD ∅).lookup e.1 = some e.2 :=
      AList.mem_lookup_iff.2 he1
    cases hnode : states.lookup node with
    | none =>
      rw [hnode] at hl
      simp at hl
    | some state =>
      rw [hnode] at hl
      simpa [NewDelta, Delta.message, NewMessage] using hl
  · rintro ⟨rfl, hk, he⟩
    cases hnode : states.lookup delta.PublicKey with
    | none =>
      rw [hnode] at he
      simp at he
    | some state =>
      rw [hnode] at he
      rw [Option.some_bind] at he
      refine ⟨⟨delta.Version, delta.message⟩, List.mem_filter.2 ⟨?_, hk⟩, ?_⟩
      · exact AList.mem_lookup_iff.1 he
      · rfl

theorem nodup_nodeDeltas (states : ModelNodeStates) (keep : Nat → Bool)
    (node : NodePublicKey) : (nodeDeltas states keep node).Nodup := by
  unfold nodeDeltas
  refine List.Nodup.map_on ?_ (((states.lookup node).getD ∅).nodupKeys.nodup.sublist
    (List.filter_sublist _))
  intro a _ b _ hab
  simp only [NewDelta, Delta.mk.injEq, true_and] at hab
  obtain ⟨a1, a2⟩ := a
  obtain ⟨b1, b2⟩ := b
  obtain ⟨h1, h2, h3, h4⟩ := hab
  simp only at h1 h2 h3 h4
  subst h1
  congr 1
  cases a2
  cases b2
  simp_all

/-- Deltas collected from a duplicate-free list of nodes are duplicate-free. -/
theorem nodup_flatMap_nodeDeltas (states : ModelNodeStates) (keep : NodePublicKey → Nat → Bool)
    (nodes : List NodePublicKey) (hnd : nodes.Nodup) :
    (nodes.flatMap (fun node => nodeDeltas states (keep node) node)).Nodup := by
  rw [List.nodup_flatMap]
  refine ⟨fun node _ => nodup_nodeDeltas _ _ _, ?_⟩
  refine hnd.imp ?_
  intro a b hab
  intro delta ha hb
  have h1 := ((mem_nodeDeltas _ _ _ _).1 ha).1
  have h2 := ((mem_nodeDeltas _ _ _ _).1 hb).1
  exact hab (h1.symm.trans h2)

theorem Delta_eq (M : Model) (d : sync.Digest) :
    (M.Delta d).2 = sortDeltas
      ((d.IntersectingNodes M.ownDigest).flatMap
        (fun node => nodeDeltas M.NodeStates
          (fun version => decide (d.version node < version)) node) ++
       (M.ownDigest.SubtractNodes d).flatMap
        (fun node => nodeDeltas M.NodeStates (fun _ => true) node)) := by
  simp only [Model.Delta, Model.ownDigest, Digest_NodeStates]

/-- A delta is in `M.Delta(d)` exactly when `M` stores it, its author is in `M`'s own digest,
and `d` lacks the author or records a lower version for the author. -/
theorem mem_Delta (M : Model) (d : sync.Digest) (delta : Delta) :
    delta ∈ (M.Delta d).2 ↔
      (M.entry delta.PublicKey delta.Version = some delta.message ∧
       delta.PublicKey ∈ M.ownDigest.Nodes ∧
       (delta.PublicKey ∉ d.Nodes ∨ d.version delta.PublicKey < delta.Version)) := by
  rw [Delta_eq, (sortDeltas_perm _).mem_iff, List.mem_append, List.mem_flatMap,
    List.mem_flatMap, Model.entry_eq]
  constructor
  · rintro (⟨node, hnode, hd⟩ | ⟨node, hnode, hd⟩)
    · obtain ⟨rfl, hk, he⟩ := (mem_nodeDeltas _ _ _ _).1 hd
      obtain ⟨_, hown⟩ := List.mem_filter.1 hnode
      exact ⟨he, by simpa using hown, Or.inr (by simpa using hk)⟩
    · obtain ⟨rfl, _, he⟩ := (mem_nodeDeltas _ _ _ _).1 hd
      obtain ⟨hown, hnot⟩ := List.mem_filter.1 hnode
      exact ⟨he, AList.mem_keys.2 hown, Or.inl (by simpa using hnot)⟩
  · rintro ⟨he, hown, hcond⟩
    by_cases hin : delta.PublicKey ∈ d.Nodes
    · left
      refine ⟨delta.PublicKey, List.mem_filter.2 ⟨AList.mem_keys.1 hin, by simpa using hown⟩,
        (mem_nodeDeltas _ _ _ _).2 ⟨rfl, ?_, he⟩⟩
      rcases hcond with hc | hc
      · exact absurd hin hc
      · simpa using hc
    · right
      exact ⟨delta.PublicKey,
        List.mem_filter.2 ⟨AList.mem_keys.1 hown, by simpa using hin⟩,
        (mem_nodeDeltas _ _ _ _).2 ⟨rfl, rfl, he⟩⟩

/-- C7: for every model `M` and digest `d`, `M.Delta(d)` contains a delta exactly when
`M.NodeStates` stores its (value, signature, attached secret) at its (author, version), the
author is in `M`'s own digest, and the author is absent from `d.Nodes` or the version is
above `d.Nodes[author]`; it contains each such delta once, and is sorted by version in
ascending order. -/
theorem C7_Delta_contents (M : Model) (d : sync.Digest) :
    (∀ delta : Delta, delta ∈ (M.Delta d).2 ↔
      (M.entry delta.PublicKey delta.Version = some delta.message ∧
       delta.PublicKey ∈ M.ownDigest.Nodes ∧
       (delta.PublicKey ∉ d.Nodes ∨ d.version delta.PublicKey < delta.Version))) ∧
    (M.Delta d).2.Nodup ∧
    (M.Delta d).2.Sorted (fun a b => a.Version ≤ b.Version) := by
  refine ⟨mem_Delta M d, ?_, ?_⟩
  · rw [Delta_eq, (sortDeltas_perm _).nodup_iff, List.nodup_append]
    refine ⟨?_, ?_, ?_⟩
    · exact nodup_flatMap_nodeDeltas M.NodeStates
        (fun node version => decide (d.version node < version)) _
        ((AList.keys_nodup _).sublist (List.filter_sublist _))
    · exact nodup_flatMap_nodeDeltas M.NodeStates (fun _ _ => true) _
        ((AList.keys_nodup _).sublist (List.filter_sublist _))
    · intro delta h1 h2
      obtain ⟨n1, hn1, hd1⟩ := List.mem_flatMap.1 h1
      obtain ⟨n2, hn2, hd2⟩ := List.mem_flatMap.1 h2
      have e1 := ((mem_nodeDeltas _ _ _ _).1 hd1).1
      have e2 := ((mem_nodeDeltas _ _ _ _).1 hd2).1
      have hin : n1 ∈ d.Nodes := AList.mem_keys.2 (List.mem_filter.1 hn1).1
      have hnot : n2 ∉ d.Nodes := by simpa using (List.mem_filter.1 hn2).2
      rw [← e1] at hin
      rw [← e2] at hnot
      exact hnot hin
  · rw [Delta_eq]
    exact sortDeltas_sorted _

/-! ### Digests -/

theorem UpdateNode_lookup (d : sync.Digest) (node : NodePublicKey) (v : Nat)
    (n : NodePublicKey) :
    (d.UpdateNode node v).1.Nodes.lookup n =
      if n = node then some (max (d.version node) v) else d.Nodes.lookup n := by
  unfold Digest.UpdateNode Digest.version
  by_cases hmem : node ∈ d.Nodes
  · by_cases hn : n = node
    · subst hn
      simp [hmem]
    · simp [hmem, hn, AList.lookup_insert_ne hn]
  · have hnone : d.Nodes.lookup node = none := AList.lookup_eq_none.2 hmem
    by_cases hn : n = node
    · subst hn
      simp [hmem, hnone]
    · simp [hmem, hn, AList.lookup_insert_ne hn]

theorem UpdateNode_MaxVersion (d : sync.Digest) (node : NodePublicKey) (v : Nat) :
    (d.UpdateNode node v).1.MaxVersion = max (max (d.version node) v) d.MaxVersion := by
  unfold Digest.UpdateNode Digest.version
  by_cases hmem : node ∈ d.Nodes
  · simp [hmem]
  · have hnone : d.Nodes.lookup node = none := AList.lookup_eq_none.2 hmem
    simp [hmem, hnone]

theorem hasVersion_insert_self (ds : Digests) (base node : NodePublicKey) (v : Nat)
    (X : sync.Digest) : hasVersion (ds.insert base (X.UpdateNode node v).1) base node v := by
  refine ⟨_, AList.lookup_insert ds, max (X.version node) v, ?_, Nat.le_max_right _ _⟩
  rw [UpdateNode_lookup, if_pos rfl]

theorem hasVersion_insert_mono (ds : Digests) (base node' : NodePublicKey) (v' : Nat)
    (X : sync.Digest) (hX : ∀ dg, ds.lookup base = some dg → dg = X)
    (b n : NodePublicKey) (v : Nat) (h : hasVersion ds b n v) :
    hasVersion (ds.insert base (X.UpdateNode node' v').1) b n v := by
  obtain ⟨dg, hdg, ver, hver, hle⟩ := h
  by_cases hb : b = base
  · subst hb
    have := hX dg hdg
    subst this
    refine ⟨_, AList.lookup_insert ds, ?_⟩
    rw [UpdateNode_lookup]
    by_cases hn : n = node'
    · subst hn
      refine ⟨_, by rw [if_pos rfl], ?_⟩
      have : dg.version n = ver := by simp [Digest.version, hver]
      rw [this]
      exact Nat.le_trans hle (Nat.le_max_left _ _)
    · exact ⟨ver, by rw [if_neg hn]; exact hver, hle⟩
  · exact ⟨dg, by rw [AList.lookup_insert_ne hb]; exact hdg, ver, hver, hle⟩

/-! ### `Model.Digest` and `Model.UpdateDigest` -/

theorem Digest_lookup_own (s : Model) :
    s.Digest.1.Digests.lookup s.PublicKey = some s.Digest.2 := by
  unfold Model.Digest
  split
  · rename_i d hd
    exact hd
  · exact AList.lookup_insert _

theorem Digest_hasVersion_mono (s : Model) (b n : NodePublicKey) (v : Nat)
    (h : hasVersion s.Digests b n v) : hasVersion s.Digest.1.Digests b n v := by
  unfold Model.Digest
  split
  · exact h
  · rename_i hnone
    obtain ⟨dg, hdg, rest⟩ := h
    have hb : b ≠ s.PublicKey := by
      rintro rfl
      rw [hnone] at hdg
      cases hdg
    exact ⟨dg, by simp only; rw [AList.lookup_insert_ne hb]; exact hdg, rest⟩

theorem UpdateDigest_NodeStates (s : Model) (base node : NodePublicKey) (v : Nat) :
    (s.UpdateDigest base node v).1.NodeStates = s.NodeStates := by
  unfold Model.UpdateDigest
  by_cases h : base ∈ s.Digests <;> simp [h]

theorem UpdateDigest_PublicKey (s : Model) (base node : NodePublicKey) (v : Nat) :
    (s.UpdateDigest base node v).1.PublicKey = s.PublicKey := by
  unfold Model.UpdateDigest
  by_cases h : base ∈ s.Digests <;> simp [h]

/-- The method `UpdateDigest` replaces the digest kept for `baseNode` (a new one if absent) by its
`UpdateNode`. -/
theorem UpdateDigest_Digests (s : Model) (base node : NodePublicKey) (v : Nat) :
    (s.UpdateDigest base node v).1.Digests =
      (if base ∈ s.Digests then s.Digests else s.Digests.insert base NewDigest).insert base
        (((s.Digests.lookup base).getD NewDigest).UpdateNode node v).1 := by
  unfold Model.UpdateDigest
  by_cases h : base ∈ s.Digests
  · simp [h]
  · have hnone : s.Digests.lookup base = none := AList.lookup_eq_none.2 h
    simp [h, hnone]

theorem UpdateDigest_hasVersion_self (s : Model) (base node : NodePublicKey) (v : Nat) :
    hasVersion (s.UpdateDigest base node v).1.Digests base node v := by
  rw [UpdateDigest_Digests]
  exact hasVersion_insert_self _ _ _ _ _

theorem UpdateDigest_hasVersion_mono (s : Model) (base node : NodePublicKey) (v : Nat)
    (b n : NodePublicKey) (w : Nat) (h : hasVersion s.Digests b n w) :
    hasVersion (s.UpdateDigest base node v).1.Digests b n w := by
  rw [UpdateDigest_Digests]
  apply hasVersion_insert_mono
  · intro dg hdg
    by_cases hmem : base ∈ s.Digests
    · rw [if_pos hmem] at hdg
      rw [hdg]
      rfl
    · rw [if_neg hmem, AList.lookup_insert] at hdg
      have hnone : s.Digests.lookup base = none := AList.lookup_eq_none.2 hmem
      rw [hnone]
      exact (Option.some.inj hdg).symm
  · by_cases hmem : base ∈ s.Digests
    · rw [if_pos hmem]
      exact h
    · rw [if_neg hmem]
      obtain ⟨dg, hdg, rest⟩ := h
      have hb : b ≠ base := by
        rintro rfl
        rw [AList.lookup_eq_none.2 hmem] at hdg
        cases hdg
      exact ⟨dg, by rw [AList.lookup_insert_ne hb]; exact hdg, rest⟩

/-! ### Entries of a map of maps -/

theorem entryOf_setEntry (states : ModelNodeStates) (pk : NodePublicKey) (v : Nat)
    (msg : Message) (pk' : NodePublicKey) (v' : Nat) :
    entryOf (setEntry states pk v msg) pk' v' =
      if pk' = pk ∧ v' = v then some msg else entryOf states pk' v' := by
  unfold entryOf setEntry
  by_cases hpk : pk' = pk
  · subst hpk
    rw [AList.lookup_insert, Option.some_bind]
    by_cases hv : v' = v
    · subst hv
      simp
    · rw [AList.lookup_insert_ne hv]
      simp only [hv, and_false, if_false]
      cases states.lookup pk' <;> simp
  · rw [AList.lookup_insert_ne hpk]
    simp [hpk]

theorem entryOf_insert_empty (states : ModelNodeStates) (pk : NodePublicKey)
    (h : pk ∉ states) (pk' : NodePublicKey) (v' : Nat) :
    entryOf (states.insert pk NewNodeState) pk' v' = entryOf states pk' v' := by
  unfold entryOf
  by_cases hpk : pk' = pk
  · subst hpk
    rw [AList.lookup_insert, AList.lookup_eq_none.2 h]
    simp [NewNodeState]
  · rw [AList.lookup_insert_ne hpk]

/-! ### One round of `Merge` -/

theorem mergeStep_NodeStates (sender : NodePublicKey) (acc : Model × Bool) (delta : Delta) :
    (mergeStep sender acc delta).1.NodeStates =
      setEntry (if delta.PublicKey ∈ acc.1.NodeStates then acc.1.NodeStates
                else acc.1.NodeStates.insert delta.PublicKey NewNodeState)
        delta.PublicKey delta.Version delta.message := by
  simp only [mergeStep, UpdateDigest_NodeStates, Digest_NodeStates, Delta.message]
  by_cases h : delta.PublicKey ∈ acc.1.NodeStates <;> simp [h]

theorem mergeStep_PublicKey (sender : NodePublicKey) (acc : Model × Bool) (delta : Delta) :
    (mergeStep sender acc delta).1.PublicKey = acc.1.PublicKey := by
  simp only [mergeStep, UpdateDigest_PublicKey, Digest_PublicKey]
  by_cases h : delta.PublicKey ∈ acc.1.NodeStates <;> simp [h]

theorem mergeStep_entry (sender : NodePublicKey) (acc : Model × Bool) (delta : Delta)
    (pk : NodePublicKey) (v : Nat) :
    entryOf (mergeStep sender acc delta).1.NodeStates pk v =
      if pk = delta.PublicKey ∧ v = delta.Version then some delta.message
      else entryOf acc.1.NodeStates pk v := by
  rw [mergeStep_NodeStates, entryOf_setEntry]
  by_cases h : delta.PublicKey ∈ acc.1.NodeStates
  · rw [if_pos h]
  · rw [if_neg h, entryOf_insert_empty _ _ h]

/-- The digest map after one round of `Merge`, as three successive updates. -/
theorem mergeStep_Digests (sender : NodePublicKey) (acc : Model × Bool) (delta : Delta) :
    ∃ s2 : Model, s2.PublicKey = acc.1.PublicKey ∧ s2.Digests = acc.1.Digests ∧
      (mergeStep sender acc delta).1.Digests =
        ((({ s2.Digest.1 with
              Digests := s2.Digest.1.Digests.insert s2.Digest.1.PublicKey
                (s2.Digest.2.UpdateNode delta.PublicKey delta.Version).1 } : Model).UpdateDigest
            delta.PublicKey delta.PublicKey delta.Version).1.UpdateDigest
          sender delta.PublicKey delta.Version).1.Digests := by
  by_cases h : delta.PublicKey ∈ acc.1.NodeStates
  · refine ⟨{ acc.1 with
      NodeStates := (setEntry acc.1.NodeStates delta.PublicKey delta.Version delta.message) },
      rfl, rfl, ?_⟩
    simp [mergeStep, h, Delta.message]
  · refine ⟨{ acc.1 with
      NodeStates := (setEntry (acc.1.NodeStates.insert delta.PublicKey NewNodeState)
        delta.PublicKey delta.Version delta.message) }, rfl, rfl, ?_⟩
    simp [mergeStep, h, Delta.message]

theorem mergeStep_hasVersion_mono (sender : NodePublicKey) (acc : Model × Bool) (delta : Delta)
    (b n : NodePublicKey) (w : Nat) (h : hasVersion acc.1.Digests b n w) :
    hasVersion (mergeStep sender acc delta).1.Digests b n w := by
  obtain ⟨s2, _, hD, hstep⟩ := mergeStep_Digests sender acc delta
  rw [hstep]
  apply UpdateDigest_hasVersion_mono
  apply UpdateDigest_hasVersion_mono
  simp only
  apply hasVersion_insert_mono
  · intro dg hdg
    rw [Digest_PublicKey, Digest_lookup_own] at hdg
    exact (Option.some.inj hdg).symm
  · apply Digest_hasVersion_mono
    rw [hD]
    exact h

/-- After one round, our own digest, the author's digest and the sender's digest all have
the delta's author at a version of at least the delta's. -/
theorem mergeStep_hasVersion_new (sender : NodePublicKey) (acc : Model × Bool) (delta : Delta)
    (base : NodePublicKey)
    (hbase : base = acc.1.PublicKey ∨ base = delta.PublicKey ∨ base = sender) :
    hasVersion (mergeStep sender acc delta).1.Digests base delta.PublicKey delta.Version := by
  obtain ⟨s2, hpk, _, hstep⟩ := mergeStep_Digests sender acc delta
  rw [hstep]
  rcases hbase with rfl | rfl | rfl
  · apply UpdateDigest_hasVersion_mono
    apply UpdateDigest_hasVersion_mono
    simp only
    rw [Digest_PublicKey, hpk]
    exact hasVersion_insert_self _ _ _ _ _
  · apply UpdateDigest_hasVersion_mono
    exact UpdateDigest_hasVersion_self _ _ _ _
  · exact UpdateDigest_hasVersion_self _ _ _ _

/-! ### The whole of `Merge` -/

theorem Merge_append (s : Model) (sender : NodePublicKey) (deltas : Deltas) (delta : Delta) :
    s.Merge sender (deltas ++ [delta]) = mergeStep sender (s.Merge sender deltas) delta := by
  simp [Model.Merge, List.foldl_append]

theorem Merge_PublicKey (s : Model) (sender : NodePublicKey) (deltas : Deltas) :
    (s.Merge sender deltas).1.PublicKey = s.PublicKey := by
  induction deltas using List.reverseRecOn with
  | nil => rfl
  | append_singleton deltas delta ih => rw [Merge_append, mergeStep_PublicKey, ih]

theorem lastDeltaFor_append (deltas : Deltas) (delta : Delta) (pk : NodePublicKey)
    (v : Nat) :
    lastDeltaFor (deltas ++ [delta]) pk v =
      if pk = delta.PublicKey ∧ v = delta.Version then some delta
      else lastDeltaFor deltas pk v := by
  unfold lastDeltaFor
  rw [List.filter_append]
  by_cases h : delta.PublicKey = pk ∧ delta.Version = v
  · have h' : pk = delta.PublicKey ∧ v = delta.Version := ⟨h.1.symm, h.2.symm⟩
    rw [if_pos h', List.filter_cons_of_pos (by simpa using h), List.filter_nil,
      List.getLast?_append]
    simp
  · have h' : ¬ (pk = delta.PublicKey ∧ v = delta.Version) := fun hc => h ⟨hc.1.symm, hc.2.symm⟩
    rw [if_neg h', List.filter_cons_of_neg (by simpa using h), List.filter_nil, List.append_nil]

/-- After `Merge`, the entry at (author, version) is the message of the last delta for
that pair, and the old entry when no delta names the pair. -/
theorem Merge_entry (s : Model) (sender : NodePublicKey) (deltas : Deltas)
    (pk : NodePublicKey) (v : Nat) :
    (s.Merge sender deltas).1.entry pk v =
      match lastDeltaFor deltas pk v with
      | some delta => some delta.message
      | none => s.entry pk v := by
  induction deltas using List.reverseRecOn with
  | nil => rfl
  | append_singleton deltas delta ih =>
    rw [Merge_append, Model.entry_eq, mergeStep_entry, lastDeltaFor_append]
    by_cases h : pk = delta.PublicKey ∧ v = delta.Version
    · rw [if_pos h, if_pos h]
    · rw [if_neg h, if_neg h, ← Model.entry_eq, ih]

theorem Merge_hasVersion_mono (s : Model) (sender : NodePublicKey) (deltas : Deltas)
    (b n : NodePublicKey) (w : Nat) (h : hasVersion s.Digests b n w) :
    hasVersion (s.Merge sender deltas).1.Digests b n w := by
  induction deltas using List.reverseRecOn with
  | nil => exact h
  | append_singleton deltas delta ih =>
    rw [Merge_append]
    exact mergeStep_hasVersion_mono _ _ _ _ _ _ ih

theorem Merge_hasVersion (s : Model) (sender : NodePublicKey) (deltas : Deltas)
    (delta : Delta) (hmem : delta ∈ deltas) (base : NodePublicKey)
    (hbase : base = s.PublicKey ∨ base = delta.PublicKey ∨ base = sender) :
    hasVersion (s.Merge sender deltas).1.Digests base delta.PublicKey delta.Version := by
  induction deltas using List.reverseRecOn with
  | nil => exact absurd hmem (List.not_mem_nil _)
  | append_singleton deltas d ih =>
    rw [Merge_append]
    rcases List.mem_append.1 hmem with h | h
    · exact mergeStep_hasVersion_mono _ _ _ _ _ _ (ih h)
    · rw [List.mem_singleton] at h
      subst h
      apply mergeStep_hasVersion_new
      rw [Merge_PublicKey]
      exact hbase

/-- C8: after `M.Merge(sender, deltas)`, for every delta in the list, `NodeStates` holds at
the delta's (author, version) the value, attached secret and signature of the last delta in
the list for that pair; `M`'s own digest, the digest kept for the author and the digest kept
for the sender each have the author at a version of at least the delta's; and the entry at
every (author, version) named by no delta is the one from before the call. -/
theorem C8_Merge_installs_deltas (M : Model) (sender : NodePublicKey) (deltas : Deltas) :
    (∀ delta ∈ deltas,
      (∃ last ∈ deltas, lastDeltaFor deltas delta.PublicKey delta.Version = some last ∧
        (M.Merge sender deltas).1.entry delta.PublicKey delta.Version =
          some { Value := last.Value, Signature := last.Signature,
                 AttachedSecret := last.AttachedSecret }) ∧
      hasVersion (M.Merge sender deltas).1.Digests M.PublicKey delta.PublicKey delta.Version ∧
      hasVersion (M.Merge sender deltas).1.Digests delta.PublicKey delta.PublicKey
        delta.Version ∧
      hasVersion (M.Merge sender deltas).1.Digests sender delta.PublicKey delta.Version) ∧
    (∀ pk v, (∀ delta ∈ deltas, ¬ (delta.PublicKey = pk ∧ delta.Version = v)) →
      (M.Merge sender deltas).1.entry pk v = M.entry pk v) := by
  constructor
  · intro delta hmem
    refine ⟨?_, Merge_hasVersion M sender deltas delta hmem _ (Or.inl rfl),
      Merge_hasVersion M sender deltas delta hmem _ (Or.inr (Or.inl rfl)),
      Merge_hasVersion M sender deltas delta hmem _ (Or.inr (Or.inr rfl))⟩
    have hne : deltas.filter (fun d => decide (d.PublicKey = delta.PublicKey ∧
        d.Version = delta.Version)) ≠ [] := by
      intro hnil
      have : delta ∈ deltas.filter (fun d => decide (d.PublicKey = delta.PublicKey ∧
          d.Version = delta.Version)) := List.mem_filter.2 ⟨hmem, by simp⟩
      rw [hnil] at this
      exact absurd this (List.not_mem_nil _)
    obtain ⟨last, hlast⟩ : ∃ last, lastDeltaFor deltas delta.PublicKey delta.Version =
        some last := by
      unfold lastDeltaFor
      exact ⟨_, List.getLast?_eq_getLast _ hne⟩
    refine ⟨last, ?_, hlast, ?_⟩
    · unfold lastDeltaFor at hlast
      exact (List.mem_filter.1 (List.mem_of_getLast?_eq_some hlast)).1
    · rw [Merge_entry, hlast]
      rfl
  · intro pk v hno
    rw [Merge_entry]
    have : lastDeltaFor deltas pk v = none := by
      unfold lastDeltaFor
      rw [List.getLast?_eq_none_iff, List.filter_eq_nil_iff]
      intro d hd
      simpa using hno d hd
    rw [this]

theorem mergeStep_changed (sender : NodePublicKey) (acc : Model × Bool) (delta : Delta) :
    (mergeStep sender acc delta).2 =
      (acc.2 || decide ((entryOf acc.1.NodeStates delta.PublicKey delta.Version).map
        Message.Value ≠ some delta.Value)) := by
  unfold entryOf
  by_cases h : delta.PublicKey ∈ acc.1.NodeStates
  · obtain ⟨state, hstate⟩ := Option.isSome_iff_exists.1 (AList.lookup_isSome.2 h)
    cases hv : state.lookup delta.Version with
    | none => simp [mergeStep, h, hstate, hv]
    | some msg =>
      by_cases hval : msg.Value = delta.Value <;> simp [mergeStep, h, hstate, hv, hval]
  · have hnone : acc.1.NodeStates.lookup delta.PublicKey = none := AList.lookup_eq_none.2 h
    simp [mergeStep, h, hnone]

/-- C9 (amended): `Model.Merge` returns true if and only if some delta of the list names an
(author, version) at which `NodeStates` had, before the call, no entry or an entry with a
different value; when it returns false the value of every entry is unchanged (signatures,
attached secrets and digests may still have changed). -/
theorem C9_Merge_reports_value_changes (s : Model) (sender : NodePublicKey) (deltas : Deltas) :
    ((s.Merge sender deltas).2 = true ↔
      ∃ delta ∈ deltas, (s.entry delta.PublicKey delta.Version).map Message.Value ≠
        some delta.Value) ∧
    ((s.Merge sender deltas).2 = false →
      ∀ pk v, ((s.Merge sender deltas).1.entry pk v).map Message.Value =
        (s.entry pk v).map Message.Value) := by
  induction deltas using List.reverseRecOn with
  | nil =>
    refine ⟨?_, fun _ _ _ => rfl⟩
    simp [Model.Merge]
  | append_singleton deltas d ih =>
    obtain ⟨ih1, ih2⟩ := ih
    rw [Merge_append, mergeStep_changed]
    cases hb : (s.Merge sender deltas).2 with
    | true =>
      refine ⟨?_, by simp⟩
      simp only [Bool.true_or, true_iff]
      obtain ⟨delta, hmem, hne⟩ := ih1.1 hb
      exact ⟨delta, List.mem_append_left _ hmem, hne⟩
    | false =>
      have hsame := ih2 hb
      have hnone : ¬ ∃ delta ∈ deltas, (s.entry delta.PublicKey delta.Version).map
          Message.Value ≠ some delta.Value := by
        intro hex
        have := ih1.2 hex
        rw [hb] at this
        cases this
      have hq : (entryOf (s.Merge sender deltas).1.NodeStates d.PublicKey d.Version).map
          Message.Value = (s.entry d.PublicKey d.Version).map Message.Value :=
        hsame d.PublicKey d.Version
      rw [hq]
      simp only [Bool.false_or, decide_eq_true_eq, decide_eq_false_iff_not, not_not]
      constructor
      · constructor
        · intro hne
          exact ⟨d, List.mem_append_right _ (List.mem_singleton.2 rfl), hne⟩
        · rintro ⟨delta, hmem, hne⟩
          rcases List.mem_append.1 hmem with h | h
          · exact absurd ⟨delta, h, hne⟩ hnone
          · rw [List.mem_singleton] at h
            subst h
            exact hne
      · intro heq pk v
        rw [Model.entry_eq, mergeStep_entry]
        by_cases hpv : pk = d.PublicKey ∧ v = d.Version
        · rw [if_pos hpv, hpv.1, hpv.2, heq]
          rfl
        · rw [if_neg hpv]
          exact hsame pk v

/-- C9 (counterexample): on the model of node `[1]` holding its own message "hi" at version
1, merging from sender `[2]` a delta for ([1], 1) with the same value but another signature
returns false, although the stored signature changed and a digest for `[2]` was created. -/
theorem C9_false_although_changed :
    (modelHi.Merge [2] [NewDelta [1] 1 [104, 105] none [9, 9]]).2 = false ∧
    (modelHi.entry [1] 1).map Message.Signature ≠
      ((modelHi.Merge [2] [NewDelta [1] 1 [104, 105] none [9, 9]]).1.entry [1] 1).map
        Message.Signature ∧
    modelHi.Digests.lookup [2] = none ∧
    ((modelHi.Merge [2] [NewDelta [1] 1 [104, 105] none [9, 9]]).1.Digests.lookup [2]).map
      (fun d => d.Nodes.lookup [1]) = some (some 1) := by
  decide

theorem IncrementNode_lookup (d : sync.Digest) (node n : NodePublicKey) :
    (d.IncrementNode node).1.Nodes.lookup n =
      if n = node then some ((d.MaxVersion + 1) % 2 ^ 32) else d.Nodes.lookup n := by
  unfold Digest.IncrementNode
  by_cases hn : n = node
  · subst hn
    simp
  · by_cases hmem : node ∈ d.Nodes <;> simp [hmem, hn, AList.lookup_insert_ne hn]

theorem IncrementNode_MaxVersion (d : sync.Digest) (node : NodePublicKey) :
    (d.IncrementNode node).1.MaxVersion = (d.MaxVersion + 1) % 2 ^ 32 := rfl

theorem IncrementNode_version (d : sync.Digest) (node : NodePublicKey) :
    (d.IncrementNode node).2 = (d.MaxVersion + 1) % 2 ^ 32 := rfl

theorem ownDigest_of_lookup (s : Model) (d : sync.Digest)
    (h : s.Digests.lookup s.PublicKey = some d) : s.ownDigest = d := by
  unfold Model.ownDigest Model.Digest
  rw [h]

theorem NewMessage_PublicKey (ed : Ed25519) (s : Model) (value : List Nat)
    (secret : Option (List Nat)) : (s.NewMessage ed value secret).1.PublicKey = s.PublicKey := by
  simp only [Model.NewMessage, Digest_PublicKey]
  split <;> simp [Digest_PublicKey]

theorem NewMessage_PrivateKey_Digest (s : Model) : s.Digest.1.PrivateKey = s.PrivateKey := by
  unfold Model.Digest
  split <;> rfl

theorem NewMessage_version (ed : Ed25519) (s : Model) (value : List Nat)
    (secret : Option (List Nat)) :
    (s.NewMessage ed value secret).2 = (s.ownDigest.MaxVersion + 1) % 2 ^ 32 := by
  simp only [Model.NewMessage, Model.ownDigest]
  rfl

theorem NewMessage_Digests (ed : Ed25519) (s : Model) (value : List Nat)
    (secret : Option (List Nat)) :
    (s.NewMessage ed value secret).1.Digests =
      s.Digest.1.Digests.insert s.PublicKey (s.ownDigest.IncrementNode s.PublicKey).1 := by
  simp only [Model.NewMessage, Model.ownDigest, Digest_PublicKey]
  split <;> simp [Digest_PublicKey]

theorem NewMessage_ownDigest (ed : Ed25519) (s : Model) (value : List Nat)
    (secret : Option (List Nat)) :
    (s.NewMessage ed value secret).1.ownDigest = (s.ownDigest.IncrementNode s.PublicKey).1 := by
  apply ownDigest_of_lookup
  rw [NewMessage_PublicKey, NewMessage_Digests, AList.lookup_insert]

theorem NewMessage_NodeStates (ed : Ed25519) (s : Model) (value : List Nat)
    (secret : Option (List Nat)) :
    (s.NewMessage ed value secret).1.NodeStates =
      setEntry (if s.PublicKey ∈ s.NodeStates then s.NodeStates
                else s.NodeStates.insert s.PublicKey NewNodeState) s.PublicKey
        (s.NewMessage ed value secret).2
        (NewMessage value (ed.sign s.PrivateKey
          (signedBytes s.PublicKey (s.NewMessage ed value secret).2 value secret)) secret) := by
  simp only [Model.NewMessage, Digest_PublicKey, Digest_NodeStates,
    NewMessage_PrivateKey_Digest]
  by_cases h : s.PublicKey ∈ s.NodeStates <;>
    simp [h, Digest_PublicKey, Digest_NodeStates, NewMessage_PrivateKey_Digest]

theorem NewMessage_entry (ed : Ed25519) (s : Model) (value : List Nat)
    (secret : Option (List Nat)) (pk : NodePublicKey) (v : Nat) :
    (s.NewMessage ed value secret).1.entry pk v =
      if pk = s.PublicKey ∧ v = (s.NewMessage ed value secret).2 then
        some (NewMessage value (ed.sign s.PrivateKey
          (signedBytes s.PublicKey (s.NewMessage ed value secret).2 value secret)) secret)
      else s.entry pk v := by
  rw [Model.entry_eq, Model.entry_eq, NewMessage_NodeStates, entryOf_setEntry]
  by_cases h : s.PublicKey ∈ s.NodeStates
  · rw [if_pos h]
  · rw [if_neg h, entryOf_insert_empty _ _ h]

theorem ownDigest_NewModel (ed : Ed25519) (privateKey : List Nat) (t : ModelType) :
    (NewModel ed privateKey t).ownDigest.MaxVersion = 0 := by
  simp [Model.ownDigest, Model.Digest, NewModel, UpdateNode_MaxVersion, NewDigest,
    Digest.version]

/-- Publishing a list of messages without wrapping returns consecutive versions. -/
theorem publishAll_versions (ed : Ed25519) (msgs : List (List Nat × Option (List Nat))) :
    ∀ s : Model, s.ownDigest.MaxVersion + msgs.length < 2 ^ 32 →
      (publishAll ed s msgs).2 = List.range' (s.ownDigest.MaxVersion + 1) msgs.length := by
  induction msgs with
  | nil => intro s _; rfl
  | cons m msgs ih =>
    intro s hlt
    obtain ⟨value, secret⟩ := m
    rw [List.length_cons] at hlt
    have hmod : (s.ownDigest.MaxVersion + 1) % 2 ^ 32 = s.ownDigest.MaxVersion + 1 :=
      Nat.mod_eq_of_lt (by omega)
    have hmax : (s.NewMessage ed value secret).1.ownDigest.MaxVersion =
        s.ownDigest.MaxVersion + 1 := by
      rw [NewMessage_ownDigest, IncrementNode_MaxVersion, hmod]
    simp only [publishAll, List.length_cons, List.range'_succ]
    rw [ih _ (by rw [hmax]; omega), hmax, NewMessage_version, hmod]

/-- C10 (amended): `Model.NewMessage` returns the own digest's `max_version` plus one (as a uint32),
stores the signed message at `NodeStates[own pk][version]`, and leaves the own digest with
both its entry for the own key and its `max_version` equal to that version. While
`max_version < 2 ^ 32 - 1`, and with every version in the own digest at most `max_version`,
the returned version is `max_version + 1` and strictly greater than every version in the
own digest before the call; a fresh model publishes versions 1, 2, 3, …. -/
theorem C10_NewMessage_version (ed : Ed25519) (M : Model) (value : List Nat)
    (secret : Option (List Nat)) :
    (M.NewMessage ed value secret).2 = (M.ownDigest.MaxVersion + 1) % 2 ^ 32 ∧
    (M.NewMessage ed value secret).1.entry M.PublicKey (M.NewMessage ed value secret).2 =
      some { Value := value,
             Signature := ed.sign M.PrivateKey
               (signedBytes M.PublicKey (M.NewMessage ed value secret).2 value secret),
             AttachedSecret := secret } ∧
    (∃ d, (M.NewMessage ed value secret).1.Digests.lookup M.PublicKey = some d ∧
      d.Nodes.lookup M.PublicKey = some (M.NewMessage ed value secret).2 ∧
      d.MaxVersion = (M.NewMessage ed value secret).2) ∧
    (M.ownDigest.MaxVersion < 2 ^ 32 - 1 → M.ownDigest.WF →
      (M.NewMessage ed value secret).2 = M.ownDigest.MaxVersion + 1 ∧
      ∀ n v, M.ownDigest.Nodes.lookup n = some v → v < (M.NewMessage ed value secret).2) ∧
    (∀ (privateKey : List Nat) (t : ModelType) (msgs : List (List Nat × Option (List Nat))),
      msgs.length < 2 ^ 32 →
      (publishAll ed (NewModel ed privateKey t) msgs).2 = List.range' 1 msgs.length) := by
  refine ⟨NewMessage_version ed M value secret, ?_, ?_, ?_, ?_⟩
  · rw [NewMessage_entry, if_pos ⟨rfl, rfl⟩]
    rfl
  · refine ⟨_, by rw [NewMessage_Digests, AList.lookup_insert], ?_, ?_⟩
    · rw [IncrementNode_lookup, if_pos rfl, NewMessage_version]
    · rw [IncrementNode_MaxVersion, NewMessage_version]
  · intro hlt hwf
    have hmod : (M.ownDigest.MaxVersion + 1) % 2 ^ 32 = M.ownDigest.MaxVersion + 1 :=
      Nat.mod_eq_of_lt (by omega)
    rw [NewMessage_version, hmod]
    refine ⟨rfl, fun n v hv => ?_⟩
    have := hwf n v hv
    omega
  · intro privateKey t msgs hlen
    have := publishAll_versions ed msgs (NewModel ed privateKey t)
      (by rw [ownDigest_NewModel]; omega)
    rw [ownDigest_NewModel] at this
    exact this

/-- C10 (witness): the model holding "hi" satisfies both conditions and publishes version 2;
a fresh model publishes versions 1, 2, 3. -/
theorem C10_NewMessage_version_witness :
    (modelHi.ownDigest.MaxVersion < 2 ^ 32 - 1 ∧ modelHi.ownDigest.WF) ∧
    (modelHi.NewMessage edStub [111] none).2 = 2 ∧
    (publishAll edStub (NewModel edStub [5] ModelType.group)
      [([1], none), ([2], some [7]), ([3], none)]).2 = [1, 2, 3] := by
  have h := C10_NewMessage_version edStub modelHi [111] none
  have hmax : modelHi.ownDigest.MaxVersion = 1 := by decide
  have hwf : modelHi.ownDigest.WF := by
    intro n v hv
    rw [hmax]
    have hentries : modelHi.ownDigest.Nodes.entries = [⟨[1], 1⟩] := by rfl
    unfold AList.lookup at hv
    rw [hentries] at hv
    by_cases hn : [1] = n
    · subst hn
      rw [List.dlookup_cons_eq] at hv
      exact Nat.le_of_eq (Option.some.inj hv).symm
    · rw [List.dlookup_cons_ne _ _ (fun h => hn h.symm)] at hv
      cases hv
  refine ⟨⟨by rw [hmax]; norm_num, hwf⟩, ?_, ?_⟩
  · have := (h.2.2.2.1 (by rw [hmax]; norm_num) hwf).1
    rw [this, hmax]
  · exact h.2.2.2.2 [5] ModelType.group [([1], none), ([2], some [7]), ([3], none)]
      (by norm_num)

/-- C10 (counterexample): on a model whose version counter has wrapped, `max_version` is 0,
below `2 ^ 32 - 1`, and `NewMessage` returns version 1, which is not greater than the version
`2 ^ 32 - 1` its own digest records for node `[2]`. -/
theorem C10_version_not_above_digest_after_wrap :
    modelWrapped.ownDigest.MaxVersion = 0 ∧
    (modelWrapped.NewMessage edStub [] none).2 = 1 ∧
    modelWrapped.ownDigest.Nodes.lookup [2] = some 4294967295 := by
  decide

/-! ### The own digest through `Digest`, `Delta`, `NewMessage` and `Merge` -/

theorem Digest_entry (s : Model) (pk : NodePublicKey) (v : Nat) :
    s.Digest.1.entry pk v = s.entry pk v := by
  rw [Model.entry_eq, Model.entry_eq, Digest_NodeStates]

theorem ownDigest_congr (s t : Model) (hD : s.Digests = t.Digests)
    (hP : s.PublicKey = t.PublicKey) : s.ownDigest = t.ownDigest := by
  unfold Model.ownDigest Model.Digest
  rw [hD, hP]
  cases t.Digests.lookup t.PublicKey <;> rfl

theorem Digest_ownDigest (s : Model) : s.Digest.1.ownDigest = s.ownDigest := by
  apply ownDigest_of_lookup
  rw [Digest_PublicKey]
  exact Digest_lookup_own s

theorem Delta_model (s : Model) (d : sync.Digest) : (s.Delta d).1 = s.Digest.1 := rfl

theorem UpdateNode_eq (d : sync.Digest) (node : NodePublicKey) (v : Nat) :
    (d.UpdateNode node v).1 =
      { Nodes := d.Nodes.insert node (max (d.version node) v),
        MaxVersion := max (max (d.version node) v) d.MaxVersion } := by
  unfold Digest.UpdateNode Digest.version
  by_cases h : node ∈ d.Nodes
  · simp [h]
  · have hnone : d.Nodes.lookup node = none := AList.lookup_eq_none.2 h
    simp [h, hnone, AList.insert_insert]

theorem UpdateNode_idem (d : sync.Digest) (node : NodePublicKey) (v : Nat) :
    ((d.UpdateNode node v).1.UpdateNode node v).1 = (d.UpdateNode node v).1 := by
  rw [UpdateNode_eq (d.UpdateNode node v).1, UpdateNode_eq d]
  simp only [Digest.version, AList.lookup_insert, Option.getD_some, AList.insert_insert]
  congr 1
  · congr 1
    omega
  · omega

/-- The method `UpdateDigest` leaves the digest kept under `k` as it is when that digest already
absorbs the update. -/
theorem UpdateDigest_lookup_fixed (s : Model) (base node : NodePublicKey) (v : Nat)
    (k : NodePublicKey) (X : sync.Digest) (hk : s.Digests.lookup k = some X)
    (hX : (X.UpdateNode node v).1 = X) :
    (s.UpdateDigest base node v).1.Digests.lookup k = some X := by
  rw [UpdateDigest_Digests]
  by_cases hb : k = base
  · subst hb
    rw [AList.lookup_insert, hk]
    simp only [Option.getD_some]
    rw [hX]
  · rw [AList.lookup_insert_ne hb]
    by_cases hmem : base ∈ s.Digests
    · rw [if_pos hmem]
      exact hk
    · rw [if_neg hmem, AList.lookup_insert_ne hb]
      exact hk

theorem mergeStep_ownDigest (sender : NodePublicKey) (acc : Model × Bool) (delta : Delta) :
    (mergeStep sender acc delta).1.ownDigest =
      (acc.1.ownDigest.UpdateNode delta.PublicKey delta.Version).1 := by
  apply ownDigest_of_lookup
  rw [mergeStep_PublicKey]
  obtain ⟨s2, hpk, hD, hstep⟩ := mergeStep_Digests sender acc delta
  have hown : s2.ownDigest = acc.1.ownDigest := ownDigest_congr s2 acc.1 hD hpk
  rw [hstep]
  apply UpdateDigest_lookup_fixed
  · apply UpdateDigest_lookup_fixed
    · simp only
      rw [Digest_PublicKey, hpk, AList.lookup_insert]
      show some (s2.ownDigest.UpdateNode delta.PublicKey delta.Version).1 = _
      rw [hown]
    · exact UpdateNode_idem _ _ _
  · exact UpdateNode_idem _ _ _

/-- The own digest after `Merge`: the old one updated with every delta in turn. -/
theorem Merge_ownDigest (s : Model) (sender : NodePublicKey) (deltas : Deltas) :
    (s.Merge sender deltas).1.ownDigest =
      deltas.foldl (fun d delta => (d.UpdateNode delta.PublicKey delta.Version).1)
        s.ownDigest := by
  induction deltas using List.reverseRecOn with
  | nil => rfl
  | append_singleton deltas delta ih =>
    rw [Merge_append, mergeStep_ownDigest, ih, List.foldl_append]
    rfl

/-! ### A digest absorbing a list of deltas -/

theorem Merge_ownDigest_absorb (s : Model) (sender : NodePublicKey) (deltas : Deltas) :
    (s.Merge sender deltas).1.ownDigest = absorb s.ownDigest deltas :=
  Merge_ownDigest s sender deltas

theorem absorb_append (d : sync.Digest) (deltas : Deltas) (delta : Delta) :
    absorb d (deltas ++ [delta]) =
      ((absorb d deltas).UpdateNode delta.PublicKey delta.Version).1 := by
  simp [absorb, List.foldl_append]

theorem UpdateNode_WF (d : sync.Digest) (node : NodePublicKey) (v : Nat) (h : d.WF) :
    (d.UpdateNode node v).1.WF := by
  intro n a ha
  rw [UpdateNode_lookup] at ha
  rw [UpdateNode_MaxVersion]
  by_cases hn : n = node
  · rw [if_pos hn] at ha
    have := Option.some.inj ha
    omega
  · rw [if_neg hn] at ha
    have := h n a ha
    omega

theorem version_le_of_WF (d : sync.Digest) (h : d.WF) (node : NodePublicKey) :
    d.version node ≤ d.MaxVersion := by
  unfold Digest.version
  cases hl : d.Nodes.lookup node with
  | none => exact Nat.zero_le _
  | some a => exact h node a hl

theorem absorb_WF (d : sync.Digest) (deltas : Deltas) (h : d.WF) : (absorb d deltas).WF := by
  induction deltas using List.reverseRecOn with
  | nil => exact h
  | append_singleton deltas delta ih =>
    rw [absorb_append]
    exact UpdateNode_WF _ _ _ ih

theorem absorb_MaxVersion_le (d : sync.Digest) (deltas : Deltas) (h : d.WF) (c : Nat)
    (hd : d.MaxVersion ≤ c) (hv : ∀ delta ∈ deltas, delta.Version ≤ c) :
    (absorb d deltas).MaxVersion ≤ c := by
  induction deltas using List.reverseRecOn with
  | nil => exact hd
  | append_singleton deltas delta ih =>
    rw [absorb_append, UpdateNode_MaxVersion]
    have h1 := ih (fun x hx => hv x (List.mem_append_left _ hx))
    have h2 := version_le_of_WF _ (absorb_WF d deltas h) delta.PublicKey
    have h3 := hv delta (List.mem_append_right _ (List.mem_singleton.2 rfl))
    omega

theorem absorb_mono (d : sync.Digest) (deltas : Deltas) (p : NodePublicKey) (a : Nat)
    (h : d.Nodes.lookup p = some a) :
    ∃ a', (absorb d deltas).Nodes.lookup p = some a' ∧ a ≤ a' := by
  induction deltas using List.reverseRecOn with
  | nil => exact ⟨a, h, Nat.le_refl _⟩
  | append_singleton deltas delta ih =>
    obtain ⟨a', ha', hle⟩ := ih
    rw [absorb_append, UpdateNode_lookup]
    by_cases hp : p = delta.PublicKey
    · subst hp
      refine ⟨_, by rw [if_pos rfl], ?_⟩
      have : (absorb d deltas).version delta.PublicKey = a' := by simp [Digest.version, ha']
      rw [this]
      omega
    · exact ⟨a', by rw [if_neg hp]; exact ha', hle⟩

theorem absorb_covers (d : sync.Digest) (deltas : Deltas) (delta : Delta)
    (hmem : delta ∈ deltas) :
    ∃ a', (absorb d deltas).Nodes.lookup delta.PublicKey = some a' ∧ delta.Version ≤ a' := by
  induction deltas using List.reverseRecOn with
  | nil => exact absurd hmem (List.not_mem_nil _)
  | append_singleton deltas x ih =>
    rw [absorb_append]
    rcases List.mem_append.1 hmem with h | h
    · obtain ⟨a, ha, hle⟩ := ih h
      rw [← absorb_append]
      obtain ⟨a', ha', hle'⟩ := absorb_mono (absorb d deltas) [x] delta.PublicKey a ha
      have e : absorb (absorb d deltas) [x] = absorb d (deltas ++ [x]) := by
        simp [absorb, List.foldl_append]
      rw [e] at ha'
      exact ⟨a', ha', Nat.le_trans hle hle'⟩
    · rw [List.mem_singleton] at h
      subst h
      exact ⟨_, by rw [UpdateNode_lookup, if_pos rfl], Nat.le_max_right _ _⟩

theorem absorb_origin (d : sync.Digest) (deltas : Deltas) (p : NodePublicKey) (a : Nat)
    (h : (absorb d deltas).Nodes.lookup p = some a) :
    d.Nodes.lookup p = some a ∨ ∃ delta ∈ deltas, delta.PublicKey = p ∧ delta.Version = a := by
  induction deltas using List.reverseRecOn generalizing a with
  | nil => exact Or.inl h
  | append_singleton deltas x ih =>
    rw [absorb_append, UpdateNode_lookup] at h
    by_cases hp : p = x.PublicKey
    · subst hp
      rw [if_pos rfl] at h
      have hmax := Option.some.inj h
      rcases Nat.le_total ((absorb d deltas).version x.PublicKey) x.Version with hle | hle
      · right
        exact ⟨x, List.mem_append_right _ (List.mem_singleton.2 rfl), rfl, by omega⟩
      · have ha : a = (absorb d deltas).version x.PublicKey := by omega
        unfold Digest.version at ha hle
        cases hl : (absorb d deltas).Nodes.lookup x.PublicKey with
        | none =>
          rw [hl] at ha hle
          simp only [Option.getD_none] at ha hle
          right
          exact ⟨x, List.mem_append_right _ (List.mem_singleton.2 rfl), rfl, by omega⟩
        | some b =>
          rw [hl] at ha
          simp only [Option.getD_some] at ha
          subst ha
          rcases ih a hl with h1 | ⟨delta, hm, h1, h2⟩
          · exact Or.inl h1
          · exact Or.inr ⟨delta, List.mem_append_left _ hm, h1, h2⟩
    · rw [if_neg hp] at h
      rcases ih a h with h1 | ⟨delta, hm, h1, h2⟩
      · exact Or.inl h1
      · exact Or.inr ⟨delta, List.mem_append_left _ hm, h1, h2⟩

/-! ### The authors present in `NodeStates` -/

theorem mem_setEntry (states : ModelNodeStates) (pk : NodePublicKey) (v : Nat) (msg : Message)
    (p : NodePublicKey) : p ∈ setEntry states pk v msg ↔ p = pk ∨ p ∈ states := by
  unfold setEntry
  rw [AList.mem_insert]

theorem mergeStep_mem_NodeStates (sender : NodePublicKey) (acc : Model × Bool) (delta : Delta)
    (p : NodePublicKey) :
    p ∈ (mergeStep sender acc delta).1.NodeStates ↔
      p = delta.PublicKey ∨ p ∈ acc.1.NodeStates := by
  rw [mergeStep_NodeStates, mem_setEntry]
  by_cases h : delta.PublicKey ∈ acc.1.NodeStates
  · rw [if_pos h]
  · rw [if_neg h, AList.mem_insert]
    tauto

theorem Merge_mem_NodeStates (s : Model) (sender : NodePublicKey) (deltas : Deltas)
    (p : NodePublicKey) :
    p ∈ (s.Merge sender deltas).1.NodeStates ↔
      p ∈ s.NodeStates ∨ ∃ delta ∈ deltas, delta.PublicKey = p := by
  induction deltas using List.reverseRecOn with
  | nil => simp [Model.Merge]
  | append_singleton deltas x ih =>
    rw [Merge_append, mergeStep_mem_NodeStates, ih]
    constructor
    · rintro (h | h | ⟨delta, hm, hd⟩)
      · exact Or.inr ⟨x, List.mem_append_right _ (List.mem_singleton.2 rfl), h.symm⟩
      · exact Or.inl h
      · exact Or.inr ⟨delta, List.mem_append_left _ hm, hd⟩
    · rintro (h | ⟨delta, hm, hd⟩)
      · exact Or.inr (Or.inl h)
      · rcases List.mem_append.1 hm with h | h
        · exact Or.inr (Or.inr ⟨delta, h, hd⟩)
        · rw [List.mem_singleton] at h
          subst h
          exact Or.inl hd.symm

theorem NewMessage_mem_NodeStates (ed : Ed25519) (s : Model) (value : List Nat)
    (secret : Option (List Nat)) (p : NodePublicKey) :
    p ∈ (s.NewMessage ed value secret).1.NodeStates ↔ p = s.PublicKey ∨ p ∈ s.NodeStates := by
  rw [NewMessage_NodeStates, mem_setEntry]
  by_cases h : s.PublicKey ∈ s.NodeStates
  · rw [if_pos h]
  · rw [if_neg h, AList.mem_insert]
    tauto

/-! ### The effect of one step on each model -/

theorem lastDeltaFor_some (deltas : Deltas) (p : NodePublicKey) (v : Nat) (delta : Delta)
    (h : lastDeltaFor deltas p v = some delta) :
    delta ∈ deltas ∧ delta.PublicKey = p ∧ delta.Version = v := by
  unfold lastDeltaFor at h
  have := List.mem_filter.1 (List.mem_of_getLast?_eq_some h)
  exact ⟨this.1, by simpa using this.2⟩

theorem lastDeltaFor_none (deltas : Deltas) (p : NodePublicKey) (v : Nat)
    (h : lastDeltaFor deltas p v = none) :
    ∀ delta ∈ deltas, ¬ (delta.PublicKey = p ∧ delta.Version = v) := by
  unfold lastDeltaFor at h
  rw [List.getLast?_eq_none_iff, List.filter_eq_nil_iff] at h
  intro delta hd
  simpa using h delta hd

theorem step_publish_self (ed : Ed25519) (net : Net) (i : Peer) (value : List Nat)
    (secret : Option (List Nat)) :
    (net.step ed (.publish i value secret)) i = ((net i).NewMessage ed value secret).1 := by
  simp [Net.step]

theorem step_publish_other (ed : Ed25519) (net : Net) (i : Peer) (value : List Nat)
    (secret : Option (List Nat)) (z : Peer) (hz : z ≠ i) :
    (net.step ed (.publish i value secret)) z = net z := by
  simp [Net.step, Function.update_noteq hz]

theorem step_sync_target (ed : Ed25519) (net : Net) (x y : Peer) (hxy : x ≠ y) :
    (net.step ed (.sync x y)) y =
      ((net y).Digest.1.Merge (net x).PublicKey
        ((net x).Delta (net y).ownDigest).2).1 := by
  simp [Net.step, Function.update_noteq hxy, Function.update_noteq hxy.symm, Delta_model,
    Digest_PublicKey, Model.ownDigest]

theorem step_sync_source (ed : Ed25519) (net : Net) (x y : Peer) (hxy : x ≠ y) :
    (net.step ed (.sync x y)) x = (net x).Digest.1 := by
  simp [Net.step, Function.update_noteq hxy, Function.update_noteq hxy.symm, Delta_model]

theorem step_sync_other (ed : Ed25519) (net : Net) (x y z : Peer) (hzx : z ≠ x)
    (hzy : z ≠ y) : (net.step ed (.sync x y)) z = net z := by
  simp [Net.step, Function.update_noteq hzx, Function.update_noteq hzy]

/-- A model other than the target of a sync step keeps its key, entries, own digest and
authors. -/
theorem step_sync_unchanged (ed : Ed25519) (net : Net) (x y z : Peer) (hxy : x ≠ y)
    (hzy : z ≠ y) :
    ((net.step ed (.sync x y)) z).PublicKey = (net z).PublicKey ∧
    (∀ p v, ((net.step ed (.sync x y)) z).entry p v = (net z).entry p v) ∧
    ((net.step ed (.sync x y)) z).ownDigest = (net z).ownDigest ∧
    ((net.step ed (.sync x y)) z).NodeStates = (net z).NodeStates := by
  by_cases hzx : z = x
  · subst hzx
    rw [step_sync_source ed net z y hxy]
    exact ⟨Digest_PublicKey _, Digest_entry _, Digest_ownDigest _, Digest_NodeStates _⟩
  · rw [step_sync_other ed net x y z hzx hzy]
    exact ⟨rfl, fun _ _ => rfl, rfl, rfl⟩

/-- The target of a sync step: its own digest absorbs the deltas, and its entries are
overwritten by the deltas. -/
theorem step_sync_changed (ed : Ed25519) (net : Net) (x y : Peer) (hxy : x ≠ y) :
    ((net.step ed (.sync x y)) y).PublicKey = (net y).PublicKey ∧
    (∀ p v, ((net.step ed (.sync x y)) y).entry p v =
      match lastDeltaFor ((net x).Delta (net y).ownDigest).2 p v with
      | some delta => some delta.message
      | none => (net y).entry p v) ∧
    ((net.step ed (.sync x y)) y).ownDigest =
      absorb (net y).ownDigest ((net x).Delta (net y).ownDigest).2 ∧
    (∀ p, p ∈ ((net.step ed (.sync x y)) y).NodeStates ↔
      p ∈ (net y).NodeStates ∨
        ∃ delta ∈ ((net x).Delta (net y).ownDigest).2, delta.PublicKey = p) := by
  rw [step_sync_target ed net x y hxy]
  refine ⟨?_, ?_, ?_, ?_⟩
  · rw [Merge_PublicKey, Digest_PublicKey]
  · intro p v
    rw [Merge_entry, Digest_entry]
  · rw [Merge_ownDigest_absorb, Digest_ownDigest]
  · intro p
    rw [Merge_mem_NodeStates, Digest_NodeStates]

theorem run_append (ed : Ed25519) (net : Net) (s1 s2 : List Step) :
    net.run ed (s1 ++ s2) = (net.run ed s1).run ed s2 := by
  simp [Net.run, List.foldl_append]

/-! ### The invariant: initial state and `NewMessage` -/

theorem NewModel_entry (ed : Ed25519) (privateKey : List Nat) (t : ModelType)
    (p : NodePublicKey) (v : Nat) : (NewModel ed privateKey t).entry p v = none := by
  simp [Model.entry, NewModel]

theorem NewModel_ownDigest_lookup (ed : Ed25519) (privateKey : List Nat) (t : ModelType)
    (n : NodePublicKey) :
    (NewModel ed privateKey t).ownDigest.Nodes.lookup n =
      if n = ed.publicKey privateKey then some 0 else none := by
  have : (NewModel ed privateKey t).ownDigest =
      (NewDigest.UpdateNode (ed.publicKey privateKey) 0).1 := by
    simp [Model.ownDigest, Model.Digest, NewModel, ExtractNodePublicKey]
  rw [this, UpdateNode_lookup]
  simp [NewDigest, Digest.version]

theorem NetInv_init (ed : Ed25519) (keys : Peer → List Nat) (t : ModelType) :
    NetInv (fun i => ed.publicKey (keys i)) 0 (Net.init ed keys t) := by
  refine ⟨fun i => rfl, ?_, ?_, ?_, ?_, ?_, ?_, ?_⟩
  · intro i p v m h
    simp [Net.init, NewModel_entry] at h
  · intro i a d v m _ h
    simp [Net.init, NewModel_entry] at h
  · intro i p v m h
    simp [Net.init, NewModel_entry] at h
  · intro i n d hd
    simp only [Net.init] at hd ⊢
    rw [NewModel_ownDigest_lookup] at hd
    rw [ownDigest_NewModel]
    split at hd
    · exact Nat.le_of_eq (Option.some.inj hd).symm
    · cases hd
  · intro i
    simp only [Net.init]
    rw [ownDigest_NewModel]
  · intro i p hp
    simp [Net.init, NewModel] at hp
  · intro i p d hd
    simp only [Net.init] at hd ⊢
    rw [NewModel_ownDigest_lookup] at hd
    split at hd
    · rename_i hp
      refine ⟨i, hp, 0, ?_, ?_⟩
      · rw [NewModel_ownDigest_lookup, if_pos hp]
      · exact Nat.le_of_eq (Option.some.inj hd).symm
    · cases hd

theorem NetInv_publish (ed : Ed25519) (pk : Peer → NodePublicKey)
    (hinj : Function.Injective pk) (c : Nat) (net : Net) (h : NetInv pk c net)
    (hc : c + 1 < 2 ^ 32) (i0 : Peer) (value : List Nat) (secret : Option (List Nat)) :
    NetInv pk (c + 1) (net.step ed (.publish i0 value secret)) := by
  have hMax := h.bound i0
  have hmod : ((net i0).ownDigest.MaxVersion + 1) % 2 ^ 32 = (net i0).ownDigest.MaxVersion + 1 :=
    Nat.mod_eq_of_lt (by omega)
  have hvnew : ((net i0).NewMessage ed value secret).2 = (net i0).ownDigest.MaxVersion + 1 := by
    rw [NewMessage_version, hmod]
  -- the new net, model by model
  have hE : ∀ i p v, ((net.step ed (.publish i0 value secret)) i).entry p v =
      if i = i0 ∧ p = pk i0 ∧ v = (net i0).ownDigest.MaxVersion + 1 then
        some (NewMessage value (ed.sign (net i0).PrivateKey
          (signedBytes (net i0).PublicKey ((net i0).NewMessage ed value secret).2 value
            secret)) secret)
      else (net i).entry p v := by
    intro i p v
    by_cases hi : i = i0
    · subst hi
      rw [step_publish_self, NewMessage_entry, h.keys i, hvnew]
      simp
    · rw [step_publish_other _ _ _ _ _ _ hi]
      simp [hi]
  have hD : ∀ i n, ((net.step ed (.publish i0 value secret)) i).ownDigest.Nodes.lookup n =
      if i = i0 ∧ n = pk i0 then some ((net i0).ownDigest.MaxVersion + 1)
      else (net i).ownDigest.Nodes.lookup n := by
    intro i n
    by_cases hi : i = i0
    · subst hi
      rw [step_publish_self, NewMessage_ownDigest, IncrementNode_lookup, h.keys i, hmod]
      simp
    · rw [step_publish_other _ _ _ _ _ _ hi]
      simp [hi]
  have hM : ∀ i, ((net.step ed (.publish i0 value secret)) i).ownDigest.MaxVersion =
      if i = i0 then (net i0).ownDigest.MaxVersion + 1 else (net i).ownDigest.MaxVersion := by
    intro i
    by_cases hi : i = i0
    · subst hi
      rw [step_publish_self, NewMessage_ownDigest, IncrementNode_MaxVersion, hmod]
      simp
    · rw [step_publish_other _ _ _ _ _ _ hi]
      simp [hi]
  -- the new version is above everything recorded for the publisher
  have hF1 : (net i0).entry (pk i0) ((net i0).ownDigest.MaxVersion + 1) = none := by
    cases he : (net i0).entry (pk i0) ((net i0).ownDigest.MaxVersion + 1) with
    | none => rfl
    | some m =>
      obtain ⟨d, hd, hle⟩ := h.covered i0 _ _ m he
      have := h.wf i0 _ d hd
      omega
  have hF2 : ∀ i d, (net i).ownDigest.Nodes.lookup (pk i0) = some d →
      d ≤ (net i0).ownDigest.MaxVersion := by
    intro i d hd
    obtain ⟨a, ha, d', hd', hle⟩ := h.behind i _ d hd
    have := hinj ha
    subst this
    have := h.wf _ _ d' hd'
    omega
  refine ⟨?_, ?_, ?_, ?_, ?_, ?_, ?_, ?_⟩
  · intro i
    by_cases hi : i = i0
    · subst hi
      rw [step_publish_self, NewMessage_PublicKey, h.keys]
    · rw [step_publish_other _ _ _ _ _ _ hi, h.keys]
  · intro i p v m he
    rw [hE] at he
    split at he
    · rename_i hcond
      obtain ⟨hi, hp, hv⟩ := hcond
      refine ⟨i0, hp, ?_⟩
      rw [hE, if_pos ⟨rfl, hp, hv⟩]
      exact he
    · obtain ⟨a, ha, hea⟩ := h.origin i p v m he
      refine ⟨a, ha, ?_⟩
      rw [hE]
      split
      · rename_i hcond
        obtain ⟨hai, hp, hv⟩ := hcond
        subst hai hv
        rw [hp, hF1] at hea
        cases hea
      · exact hea
  · intro i a d v m hd hea hle
    by_cases hia : i = a
    · subst hia
      exact hea
    rw [hD] at hd
    rw [hE] at hea ⊢
    by_cases ha0 : a = i0
    · subst ha0
      have hi0 : i ≠ a := hia
      rw [if_neg (fun hc => hi0 hc.1)] at hd ⊢
      have hdle := hF2 i d hd
      rw [if_neg (fun hc => by omega)] at hea
      exact h.complete i a d v m hd hea hle
    · have hpk : pk a ≠ pk i0 := fun hc => ha0 (hinj hc)
      rw [if_neg (fun hc => ha0 hc.1)] at hea
      rw [if_neg (fun hc => hpk hc.2)] at hd
      rw [if_neg (fun hc => hpk hc.2.1)]
      exact h.complete i a d v m hd hea hle
  · intro i p v m he
    rw [hE] at he
    split at he
    · rename_i hcond
      obtain ⟨hi, hp, hv⟩ := hcond
      refine ⟨(net i0).ownDigest.MaxVersion + 1, ?_, by omega⟩
      rw [hD, if_pos ⟨hi, hp⟩]
    · obtain ⟨d, hd, hle⟩ := h.covered i p v m he
      rw [hD]
      split
      · rename_i hcond
        obtain ⟨hi, hp⟩ := hcond
        subst hi hp
        have := h.wf _ _ d hd
        exact ⟨_, rfl, by omega⟩
      · exact ⟨d, hd, hle⟩
  · intro i n d hd
    rw [hD] at hd
    rw [hM]
    split at hd
    · rename_i hcond
      rw [if_pos hcond.1]
      exact Nat.le_of_eq (Option.some.inj hd).symm
    · have := h.wf i n d hd
      split
      · rename_i hi
        subst hi
        omega
      · exact this
  · intro i
    rw [hM]
    have := h.bound i
    split <;> omega
  · intro i p hp
    by_cases hi : i = i0
    · subst hi
      rw [step_publish_self, NewMessage_mem_NodeStates, h.keys] at hp
      rcases hp with hp | hp
      · have hnew := hE i p ((net i).ownDigest.MaxVersion + 1)
        rw [if_pos ⟨rfl, hp, rfl⟩] at hnew
        exact ⟨_, _, hnew⟩
      · obtain ⟨v, m, he⟩ := h.nonempty i p hp
        by_cases hcond : i = i ∧ p = pk i ∧ v = (net i).ownDigest.MaxVersion + 1
        · have hnew := hE i p v
          rw [if_pos hcond] at hnew
          exact ⟨v, _, hnew⟩
        · exact ⟨v, m, by rw [hE, if_neg hcond]; exact he⟩
    · rw [step_publish_other _ _ _ _ _ _ hi] at hp
      obtain ⟨v, m, he⟩ := h.nonempty i p hp
      exact ⟨v, m, by rw [hE, if_neg (fun hc => hi hc.1)]; exact he⟩
  · intro i p d hd
    rw [hD] at hd
    split at hd
    · rename_i hcond
      refine ⟨i0, hcond.2, (net i0).ownDigest.MaxVersion + 1, ?_, ?_⟩
      · rw [hD, if_pos ⟨rfl, hcond.2⟩]
      · exact Nat.le_of_eq (Option.some.inj hd).symm
    · obtain ⟨a, ha, d', hd', hle⟩ := h.behind i p d hd
      refine ⟨a, ha, ?_⟩
      rw [hD]
      split
      · rename_i hcond
        obtain ⟨hai, hp⟩ := hcond
        subst hai
        have := h.wf _ _ d' hd'
        exact ⟨_, rfl, by omega⟩
      · exact ⟨d', hd', hle⟩

/-! ### The invariant: a pull/push step -/

theorem NetInv_sync (ed : Ed25519) (pk : Peer → NodePublicKey)
    (hinj : Function.Injective pk) (c : Nat) (net : Net) (h : NetInv pk c net)
    (x y : Peer) (hxy : x ≠ y) : NetInv pk c (net.step ed (.sync x y)) := by
  have hds := mem_Delta (net x) (net y).ownDigest
  obtain ⟨hyK, hyE, hyD, hyN⟩ := step_sync_changed ed net x y hxy
  have hz := fun z (hzy : z ≠ y) => step_sync_unchanged ed net x y z hxy hzy
  -- every delta is an entry of `x`, covered by the own digest of `x`
  have hdx : ∀ delta ∈ ((net x).Delta (net y).ownDigest).2,
      (net x).entry delta.PublicKey delta.Version = some delta.message ∧
      ∃ dx, (net x).ownDigest.Nodes.lookup delta.PublicKey = some dx ∧ delta.Version ≤ dx := by
    intro delta hd
    have h1 := ((hds delta).1 hd).1
    exact ⟨h1, h.covered x _ _ _ h1⟩
  -- entries of the target after the step
  have hEy : ∀ p v m, ((net.step ed (.sync x y)) y).entry p v = some m ↔
      ((net y).entry p v = some m ∨ ((net x).entry p v = some m ∧
        ∃ delta ∈ ((net x).Delta (net y).ownDigest).2,
          delta.PublicKey = p ∧ delta.Version = v)) := by
    intro p v m
    rw [hyE]
    cases hl : lastDeltaFor ((net x).Delta (net y).ownDigest).2 p v with
    | none =>
      have hno := lastDeltaFor_none _ _ _ hl
      constructor
      · exact fun he => Or.inl he
      · rintro (he | ⟨_, delta, hd, h1, h2⟩)
        · exact he
        · exact absurd ⟨h1, h2⟩ (hno delta hd)
    | some delta =>
      obtain ⟨hd, h1, h2⟩ := lastDeltaFor_some _ _ _ _ hl
      have hxe := (hdx delta hd).1
      rw [h1, h2] at hxe
      simp only
      constructor
      · intro he
        have : delta.message = m := Option.some.inj he
        rw [this] at hxe
        exact Or.inr ⟨hxe, delta, hd, h1, h2⟩
      · rintro (he | ⟨he, _⟩)
        · obtain ⟨a, ha, hea⟩ := h.origin y p v m he
          obtain ⟨a', ha', hea'⟩ := h.origin x p v _ hxe
          have : a = a' := hinj (ha.symm.trans ha')
          subst this
          rw [hea] at hea'
          rw [← Option.some.inj hea']
        · rw [hxe] at he
          exact he
  have hgrow : ∀ i p v m, (net i).entry p v = some m →
      ((net.step ed (.sync x y)) i).entry p v = some m := by
    intro i p v m he
    by_cases hi : i = y
    · subst hi
      exact (hEy p v m).2 (Or.inl he)
    · rw [(hz i hi).2.1]
      exact he
  have hfrom : ∀ i p v m, ((net.step ed (.sync x y)) i).entry p v = some m →
      (net i).entry p v = some m ∨ (i = y ∧ (net x).entry p v = some m ∧
        ∃ delta ∈ ((net x).Delta (net y).ownDigest).2,
          delta.PublicKey = p ∧ delta.Version = v) := by
    intro i p v m he
    by_cases hi : i = y
    · subst hi
      rcases (hEy p v m).1 he with h1 | h1
      · exact Or.inl h1
      · exact Or.inr ⟨rfl, h1⟩
    · rw [(hz i hi).2.1] at he
      exact Or.inl he
  -- own digests after the step
  have hDmono : ∀ i p d, (net i).ownDigest.Nodes.lookup p = some d →
      ∃ d', ((net.step ed (.sync x y)) i).ownDigest.Nodes.lookup p = some d' ∧ d ≤ d' := by
    intro i p d hd
    by_cases hi : i = y
    · subst hi
      rw [hyD]
      exact absorb_mono _ _ p d hd
    · rw [(hz i hi).2.2.1]
      exact ⟨d, hd, Nat.le_refl _⟩
  have hDfrom : ∀ i p d, ((net.step ed (.sync x y)) i).ownDigest.Nodes.lookup p = some d →
      (net i).ownDigest.Nodes.lookup p = some d ∨ (i = y ∧
        ∃ delta ∈ ((net x).Delta (net y).ownDigest).2,
          delta.PublicKey = p ∧ delta.Version = d) := by
    intro i p d hd
    by_cases hi : i = y
    · subst hi
      rw [hyD] at hd
      rcases absorb_origin _ _ p d hd with h1 | h1
      · exact Or.inl h1
      · exact Or.inr ⟨rfl, h1⟩
    · rw [(hz i hi).2.2.1] at hd
      exact Or.inl hd
  refine ⟨?_, ?_, ?_, ?_, ?_, ?_, ?_, ?_⟩
  · intro i
    by_cases hi : i = y
    · subst hi
      rw [hyK, h.keys]
    · rw [(hz i hi).1, h.keys]
  · intro i p v m he
    have hold : ∃ a, p = pk a ∧ (net a).entry p v = some m := by
      rcases hfrom i p v m he with h1 | ⟨_, h1, _⟩
      · exact h.origin i p v m h1
      · exact h.origin x p v m h1
    obtain ⟨a, ha, hea⟩ := hold
    exact ⟨a, ha, hgrow a p v m hea⟩
  · intro i a d v m hd hea hle
    -- the author's entry is an old one
    have hea0 : (net a).entry (pk a) v = some m := by
      rcases hfrom a _ v m hea with h1 | ⟨_, h1, _⟩
      · exact h1
      · obtain ⟨a', ha', hea'⟩ := h.origin x _ v m h1
        have := hinj ha'
        subst this
        exact hea'
    rcases hDfrom i _ d hd with h1 | ⟨hi, delta, hdel, hp, hv⟩
    · exact hgrow i _ v m (h.complete i a d v m h1 hea0 hle)
    · subst hi
      obtain ⟨_, dx, hdx1, hdx2⟩ := hdx delta hdel
      rw [hp] at hdx1
      have hxe : (net x).entry (pk a) v = some m :=
        h.complete x a dx v m hdx1 hea0 (by omega)
      by_cases hcond : pk a ∉ (net i).ownDigest.Nodes ∨ (net i).ownDigest.version (pk a) < v
      · have hmem : NewDelta (pk a) v m.Value m.AttachedSecret m.Signature ∈
            ((net x).Delta (net i).ownDigest).2 := by
          rw [hds]
          refine ⟨hxe, ?_, hcond⟩
          rw [← AList.lookup_isSome]
          show ((net x).ownDigest.Nodes.lookup (pk a)).isSome = true
          rw [hdx1]
          rfl
        exact (hEy (pk a) v m).2 (Or.inr ⟨hxe, _, hmem, rfl, rfl⟩)
      · push_neg at hcond
        obtain ⟨hmem, hver⟩ := hcond
        obtain ⟨dy, hdy⟩ := Option.isSome_iff_exists.1 (AList.lookup_isSome.2 hmem)
        have : (net i).ownDigest.version (pk a) = dy := by simp [Digest.version, hdy]
        rw [this] at hver
        exact hgrow i _ v m (h.complete i a dy v m hdy hea0 hver)
  · intro i p v m he
    rcases hfrom i p v m he with h1 | ⟨hi, _, delta, hdel, hp, hv⟩
    · obtain ⟨d, hd, hle⟩ := h.covered i p v m h1
      obtain ⟨d', hd', hle'⟩ := hDmono i p d hd
      exact ⟨d', hd', Nat.le_trans hle hle'⟩
    · subst hi
      rw [hyD, ← hp, ← hv]
      exact absorb_covers _ _ delta hdel
  · intro i
    by_cases hi : i = y
    · subst hi
      rw [hyD]
      exact absorb_WF _ _ (h.wf i)
    · rw [(hz i hi).2.2.1]
      exact h.wf i
  · intro i
    by_cases hi : i = y
    · subst hi
      rw [hyD]
      refine absorb_MaxVersion_le _ _ (h.wf i) c (h.bound i) ?_
      intro delta hdel
      obtain ⟨_, dx, hdx1, hdx2⟩ := hdx delta hdel
      have h1 := h.wf x _ dx hdx1
      have h2 := h.bound x
      omega
    · rw [(hz i hi).2.2.1]
      exact h.bound i
  · intro i p hp
    by_cases hi : i = y
    · subst hi
      rw [hyN] at hp
      rcases hp with hp | ⟨delta, hdel, hp⟩
      · obtain ⟨v, m, he⟩ := h.nonempty i p hp
        exact ⟨v, m, hgrow i p v m he⟩
      · refine ⟨delta.Version, delta.message, (hEy p _ _).2 (Or.inr ⟨?_, delta, hdel, hp, rfl⟩)⟩
        rw [← hp]
        exact (hdx delta hdel).1
    · rw [(hz i hi).2.2.2] at hp
      obtain ⟨v, m, he⟩ := h.nonempty i p hp
      exact ⟨v, m, hgrow i p v m he⟩
  · intro i p d hd
    have hold : ∃ a, p = pk a ∧ ∃ d', (net a).ownDigest.Nodes.lookup p = some d' ∧ d ≤ d' := by
      rcases hDfrom i p d hd with h1 | ⟨_, delta, hdel, hp, hv⟩
      · exact h.behind i p d h1
      · obtain ⟨_, dx, hdx1, hdx2⟩ := hdx delta hdel
        rw [hp] at hdx1
        obtain ⟨a, ha, d', hd', hle⟩ := h.behind x p dx hdx1
        exact ⟨a, ha, d', hd', by omega⟩
    obtain ⟨a, ha, d', hd', hle⟩ := hold
    obtain ⟨d'', hd'', hle'⟩ := hDmono a p d' hd'
    exact ⟨a, ha, d'', hd'', Nat.le_trans hle hle'⟩

/-! ### Convergence -/

theorem NetInv_run (ed : Ed25519) (pk : Peer → NodePublicKey) (hinj : Function.Injective pk)
    (steps : List Step) :
    ∀ (net : Net) (c : Nat), NetInv pk c net →
      (∀ x y, Step.sync x y ∈ steps → x ≠ y) →
      c + (steps.filter Step.isPublish).length < 2 ^ 32 →
      NetInv pk (c + (steps.filter Step.isPublish).length) (net.run ed steps) := by
  induction steps with
  | nil =>
    intro net c h _ _
    exact h
  | cons s steps ih =>
    intro net c h hsync hcount
    have hsync' : ∀ x y, Step.sync x y ∈ steps → x ≠ y :=
      fun x y hm => hsync x y (List.mem_cons_of_mem _ hm)
    cases s with
    | publish i value secret =>
      have hf : ((Step.publish i value secret :: steps).filter Step.isPublish).length =
          (steps.filter Step.isPublish).length + 1 := by
        rw [List.filter_cons_of_pos (by rfl), List.length_cons]
      rw [hf] at hcount ⊢
      have := ih (net.step ed (.publish i value secret)) (c + 1)
        (NetInv_publish ed pk hinj c net h (by omega) i value secret) hsync' (by omega)
      have e : c + ((steps.filter Step.isPublish).length + 1) =
          c + 1 + (steps.filter Step.isPublish).length := by omega
      rw [e]
      exact this
    | sync x y =>
      have hf : ((Step.sync x y :: steps).filter Step.isPublish).length =
          (steps.filter Step.isPublish).length := by
        rw [List.filter_cons_of_neg (by simp [Step.isPublish])]
      rw [hf] at hcount ⊢
      exact ih (net.step ed (.sync x y)) c
        (NetInv_sync ed pk hinj c net h x y (hsync x y (List.mem_cons_self _ _))) hsync' hcount

theorem mem_of_entryOf (states : ModelNodeStates) (p : NodePublicKey) (v : Nat) (m : Message)
    (h : entryOf states p v = some m) : p ∈ states := by
  unfold entryOf at h
  rw [← AList.lookup_isSome]
  cases hl : states.lookup p with
  | none => rw [hl] at h; cases h
  | some _ => rfl

/-- In a state that satisfies the invariant and in which every pairwise delta is empty, an
entry held by one model is held by every model. -/
theorem quiescent_entry (pk : Peer → NodePublicKey) (c : Nat)
    (net : Net) (h : NetInv pk c net) (hq : net.Quiescent) (i j : Peer) (p : NodePublicKey)
    (v : Nat) (m : Message) (he : (net i).entry p v = some m) :
    (net j).entry p v = some m := by
  obtain ⟨a, ha, hea⟩ := h.origin i p v m he
  by_cases haj : a = j
  · subst haj
    exact hea
  · have hempty := hq a j haj
    have hds := mem_Delta (net a) (net j).ownDigest
      (NewDelta p v m.Value m.AttachedSecret m.Signature)
    rw [hempty] at hds
    obtain ⟨d, hd, hle⟩ := h.covered a p v m hea
    have hown : p ∈ (net a).ownDigest.Nodes := by
      rw [← AList.lookup_isSome, hd]
      rfl
    have hnot : ¬ (p ∉ (net j).ownDigest.Nodes ∨ (net j).ownDigest.version p < v) := by
      intro hcond
      exact absurd (hds.2 ⟨hea, hown, hcond⟩) (List.not_mem_nil _)
    push_neg at hnot
    obtain ⟨hmem, hver⟩ := hnot
    obtain ⟨dj, hdj⟩ := Option.isSome_iff_exists.1 (AList.lookup_isSome.2 hmem)
    have : (net j).ownDigest.version p = dj := by simp [Digest.version, hdj]
    rw [this] at hver
    subst ha
    exact h.complete j a dj v m hdj hea hver

theorem quiescent_sameNodeStates (pk : Peer → NodePublicKey)
    (c : Nat) (net : Net) (h : NetInv pk c net) (hq : net.Quiescent) (i j : Peer) :
    sameNodeStates (net i).NodeStates (net j).NodeStates := by
  have hmem : ∀ i j p, p ∈ (net i).NodeStates → p ∈ (net j).NodeStates := by
    intro i j p hp
    obtain ⟨v, m, he⟩ := h.nonempty i p hp
    exact mem_of_entryOf _ p v m (quiescent_entry pk c net h hq i j p v m he)
  intro p
  refine ⟨⟨hmem i j p, hmem j i p⟩, fun v => ?_⟩
  cases hi : entryOf (net i).NodeStates p v with
  | some m => exact (quiescent_entry pk c net h hq i j p v m hi).symm
  | none =>
    cases hj : entryOf (net j).NodeStates p v with
    | none => rfl
    | some m =>
      have := quiescent_entry pk c net h hq j i p v m hj
      rw [Model.entry_eq, hi] at this
      cases this

/-- Under the invariant, a pull/push step only adds entries to its target, every entry of
the target afterwards was an entry of the target or of the source, and the target ends up
with every entry of the source. -/
theorem sync_entries (ed : Ed25519) (pk : Peer → NodePublicKey)
    (hinj : Function.Injective pk) (c : Nat) (net : Net) (h : NetInv pk c net)
    (x y : Peer) (hxy : x ≠ y) :
    (∀ i p v m, (net i).entry p v = some m →
      ((net.step ed (.sync x y)) i).entry p v = some m) ∧
    (∀ i p v m, ((net.step ed (.sync x y)) i).entry p v = some m →
      (net i).entry p v = some m ∨ (net x).entry p v = some m) ∧
    (∀ p v m, (net x).entry p v = some m →
      ((net.step ed (.sync x y)) y).entry p v = some m) := by
  have hds := mem_Delta (net x) (net y).ownDigest
  obtain ⟨_, hyE, _, _⟩ := step_sync_changed ed net x y hxy
  have hz := fun z (hzy : z ≠ y) => (step_sync_unchanged ed net x y z hxy hzy).2.1
  have hK : ∀ p v delta, lastDeltaFor ((net x).Delta (net y).ownDigest).2 p v = some delta →
      (net x).entry p v = some delta.message := by
    intro p v delta hl
    obtain ⟨hd, h1, h2⟩ := lastDeltaFor_some _ _ _ _ hl
    have := ((hds delta).1 hd).1
    rw [h1, h2] at this
    exact this
  have hsame : ∀ i j p v m m', (net i).entry p v = some m → (net j).entry p v = some m' →
      m = m' := by
    intro i j p v m m' h1 h2
    obtain ⟨a, ha, hea⟩ := h.origin i p v m h1
    obtain ⟨a', ha', hea'⟩ := h.origin j p v m' h2
    have : a = a' := hinj (ha.symm.trans ha')
    subst this
    rw [hea] at hea'
    exact Option.some.inj hea'
  refine ⟨?_, ?_, ?_⟩
  · intro i p v m he
    by_cases hi : i = y
    · subst hi
      rw [hyE]
      cases hl : lastDeltaFor ((net x).Delta (net i).ownDigest).2 p v with
      | none => exact he
      | some delta =>
        simp only
        rw [hsame i x p v m delta.message he (hK p v delta hl)]
    · rw [hz i hi]
      exact he
  · intro i p v m he
    by_cases hi : i = y
    · subst hi
      rw [hyE] at he
      cases hl : lastDeltaFor ((net x).Delta (net i).ownDigest).2 p v with
      | none =>
        rw [hl] at he
        exact Or.inl he
      | some delta =>
        rw [hl] at he
        simp only at he
        have := hK p v delta hl
        rw [Option.some.inj he] at this
        exact Or.inr this
    · rw [hz i hi] at he
      exact Or.inl he
  · intro p v m he
    rw [hyE]
    cases hl : lastDeltaFor ((net x).Delta (net y).ownDigest).2 p v with
    | some delta =>
      simp only
      have := hK p v delta hl
      rw [he] at this
      exact this.symm
    | none =>
      simp only
      have hno := lastDeltaFor_none _ _ _ hl
      have hnot : NewDelta p v m.Value m.AttachedSecret m.Signature ∉
          ((net x).Delta (net y).ownDigest).2 := fun hm => hno _ hm ⟨rfl, rfl⟩
      rw [hds] at hnot
      obtain ⟨d, hd, hle⟩ := h.covered x p v m he
      have hown : p ∈ (net x).ownDigest.Nodes := by
        rw [← AList.lookup_isSome, hd]
        rfl
      have hcond : ¬ (p ∉ (net y).ownDigest.Nodes ∨ (net y).ownDigest.version p < v) :=
        fun hc => hnot ⟨he, hown, hc⟩
      push_neg at hcond
      obtain ⟨hmem, hver⟩ := hcond
      obtain ⟨dy, hdy⟩ := Option.isSome_iff_exists.1 (AList.lookup_isSome.2 hmem)
      have : (net y).ownDigest.version p = dy := by simp [Digest.version, hdy]
      rw [this] at hver
      obtain ⟨a, ha, hea⟩ := h.origin x p v m he
      subst ha
      exact h.complete y a dy v m hdy hea hver

/-- Under the invariant, when every model holds every entry held by any model, every
pairwise delta is empty. -/
theorem quiescent_of_full (pk : Peer → NodePublicKey) (c : Nat) (net : Net)
    (h : NetInv pk c net)
    (hfull : ∀ i j p v m, (net i).entry p v = some m → (net j).entry p v = some m) :
    net.Quiescent := by
  intro x y _
  rw [List.eq_nil_iff_forall_not_mem]
  intro delta hd
  obtain ⟨he, _, hcond⟩ := (mem_Delta (net x) (net y).ownDigest delta).1 hd
  obtain ⟨d, hdl, hle⟩ := h.covered y _ _ _ (hfull x y _ _ _ he)
  rcases hcond with hc | hc
  · apply hc
    rw [← AList.lookup_isSome, hdl]
    rfl
  · have : (net y).ownDigest.version delta.PublicKey = d := by simp [Digest.version, hdl]
    rw [this] at hc
    omega

/-- From any state that satisfies the invariant, one round of pull/push steps leads to a
state in which every pairwise delta is empty. -/
theorem syncRound_quiescent (ed : Ed25519) (pk : Peer → NodePublicKey)
    (hinj : Function.Injective pk) (c : Nat) (net : Net) (h : NetInv pk c net) :
    (net.run ed syncRound).Quiescent := by
  have hrun : net.run ed syncRound =
      (((net.step ed (.sync .A .C)).step ed (.sync .B .C)).step ed (.sync .C .A)).step ed
        (.sync .C .B) := rfl
  rw [hrun]
  have h1 := NetInv_sync ed pk hinj c net h Peer.A Peer.C (by decide)
  obtain ⟨g1, f1, s1⟩ := sync_entries ed pk hinj c net h Peer.A Peer.C (by decide)
  generalize net.step ed (.sync .A .C) = n1 at h1 g1 f1 s1
  have h2 := NetInv_sync ed pk hinj c n1 h1 Peer.B Peer.C (by decide)
  obtain ⟨g2, f2, s2⟩ := sync_entries ed pk hinj c n1 h1 Peer.B Peer.C (by decide)
  generalize n1.step ed (.sync .B .C) = n2 at h2 g2 f2 s2
  have h3 := NetInv_sync ed pk hinj c n2 h2 Peer.C Peer.A (by decide)
  obtain ⟨g3, f3, s3⟩ := sync_entries ed pk hinj c n2 h2 Peer.C Peer.A (by decide)
  generalize n2.step ed (.sync .C .A) = n3 at h3 g3 f3 s3
  have h4 := NetInv_sync ed pk hinj c n3 h3 Peer.C Peer.B (by decide)
  obtain ⟨g4, f4, s4⟩ := sync_entries ed pk hinj c n3 h3 Peer.C Peer.B (by decide)
  generalize n3.step ed (.sync .C .B) = n4 at h4 g4 f4 s4
  -- after the second step `C` holds every entry, and it keeps them
  have hC2 : ∀ i p v m, (n2 i).entry p v = some m → (n2 Peer.C).entry p v = some m := by
    intro i p v m he
    rcases f2 i p v m he with e1 | e1
    · rcases f1 i p v m e1 with e0 | e0
      · cases i with
        | A => exact g2 _ p v m (s1 p v m e0)
        | B => exact s2 p v m (g1 _ p v m e0)
        | C => exact g2 _ p v m (g1 _ p v m e0)
      · exact g2 _ p v m (s1 p v m e0)
    · exact s2 p v m e1
  have hC3 : ∀ i p v m, (n3 i).entry p v = some m → (n3 Peer.C).entry p v = some m := by
    intro i p v m he
    rcases f3 i p v m he with e2 | e2
    · exact g3 _ p v m (hC2 i p v m e2)
    · exact g3 _ p v m e2
  have hC4 : ∀ i p v m, (n4 i).entry p v = some m → (n3 Peer.C).entry p v = some m := by
    intro i p v m he
    rcases f4 i p v m he with e3 | e3
    · exact hC3 i p v m e3
    · exact e3
  have hall : ∀ j p v m, (n3 Peer.C).entry p v = some m → (n4 j).entry p v = some m := by
    intro j p v m he
    cases j with
    | A => exact g4 _ p v m (s3 p v m ((f3 Peer.C p v m he).elim id id))
    | B => exact s4 p v m he
    | C => exact g4 _ p v m he
  exact quiescent_of_full pk c n4 h4 (fun i j p v m he => hall j p v m (hC4 i p v m he))

/-- C6 (amended): three models created by `NewModel` with distinct public keys, after any
finite interleaving of `NewMessage` calls and pull/push steps between two different models
that contains fewer than `2 ^ 32` `NewMessage` calls: if every pairwise delta is empty, the
three `NodeStates` maps are equal; and continuing with one round of pull/push steps (no
`NewMessage`) leads to a state in which every pairwise delta is empty. -/
theorem C6_convergence (ed : Ed25519) (keys : Peer → List Nat) (t : ModelType)
    (hkeys : Function.Injective (fun i => ed.publicKey (keys i))) (steps : List Step)
    (hsync : ∀ x y, Step.sync x y ∈ steps → x ≠ y)
    (hcount : (steps.filter Step.isPublish).length < 2 ^ 32) :
    (((Net.init ed keys t).run ed steps).Quiescent →
      ∀ i j, sameNodeStates (((Net.init ed keys t).run ed steps) i).NodeStates
        (((Net.init ed keys t).run ed steps) j).NodeStates) ∧
    ((Net.init ed keys t).run ed (steps ++ syncRound)).Quiescent := by
  have hinv := NetInv_run ed _ hkeys steps (Net.init ed keys t) 0 (NetInv_init ed keys t) hsync
    (by omega)
  refine ⟨fun hq => quiescent_sameNodeStates _ _ _ hinv hq, ?_⟩
  rw [run_append]
  exact syncRound_quiescent ed _ hkeys _ _ hinv

/-- C6 (witness): the interleaving of `TestThreeNodeTransitiveMerge` with the keys `[1]`,
`[2]`, `[3]` ends with every pairwise delta empty and equal `NodeStates`. -/
theorem C6_convergence_witness :
    (Function.Injective (fun i => edStub.publicKey (demoKeys i)) ∧
     (∀ x y, Step.sync x y ∈ demoSteps → x ≠ y) ∧
     (demoSteps.filter Step.isPublish).length < 2 ^ 32 ∧
     ((Net.init edStub demoKeys ModelType.group).run edStub demoSteps).Quiescent) ∧
    (∀ i j, sameNodeStates
      (((Net.init edStub demoKeys ModelType.group).run edStub demoSteps) i).NodeStates
      (((Net.init edStub demoKeys ModelType.group).run edStub demoSteps) j).NodeStates) := by
  have h1 : Function.Injective (fun i => edStub.publicKey (demoKeys i)) := by
    intro i j hij
    cases i <;> cases j <;> first | rfl | (exact absurd hij (by decide))
  have h2 : ∀ x y, Step.sync x y ∈ demoSteps → x ≠ y := by
    intro x y hm
    cases x <;> cases y <;> first | (exact absurd hm (by decide)) | (intro h; cases h)
  have h3 : (demoSteps.filter Step.isPublish).length < 2 ^ 32 := by decide
  have h4 : ((Net.init edStub demoKeys ModelType.group).run edStub demoSteps).Quiescent := by
    intro x y _
    cases x <;> cases y <;> rfl
  exact ⟨⟨h1, h2, h3, h4⟩,
    (C6_convergence edStub demoKeys ModelType.group h1 demoSteps h2 h3).1 h4⟩

/-! ### The version counter wrapping around -/

/-- After `k < 2 ^ 32` messages published by `A` alone: `A` holds entries only under its own
key at versions `1 … k`, among them version `k`; its own digest records `k`; `B` and `C` are
as created. -/
theorem publish_phase (ed : Ed25519) (keys : Peer → List Nat) (t : ModelType) (k : Nat)
    (hk : k < 2 ^ 32) :
    (((Net.init ed keys t).run ed (List.replicate k (Step.publish Peer.A [] none)))
        Peer.A).PublicKey = ed.publicKey (keys Peer.A) ∧
    (∀ p v m, (((Net.init ed keys t).run ed (List.replicate k (Step.publish Peer.A [] none)))
        Peer.A).entry p v = some m → p = ed.publicKey (keys Peer.A) ∧ 1 ≤ v ∧ v ≤ k) ∧
    (1 ≤ k → ∃ m, (((Net.init ed keys t).run ed (List.replicate k
        (Step.publish Peer.A [] none))) Peer.A).entry (ed.publicKey (keys Peer.A)) k = some m) ∧
    (((Net.init ed keys t).run ed (List.replicate k (Step.publish Peer.A [] none)))
        Peer.A).ownDigest.MaxVersion = k ∧
    (((Net.init ed keys t).run ed (List.replicate k (Step.publish Peer.A [] none)))
        Peer.A).ownDigest.Nodes.lookup (ed.publicKey (keys Peer.A)) = some k ∧
    (∀ z, z ≠ Peer.A → ((Net.init ed keys t).run ed (List.replicate k
        (Step.publish Peer.A [] none))) z = NewModel ed (keys z) t) := by
  induction k with
  | zero =>
    refine ⟨rfl, ?_, ?_, ?_, ?_, fun z _ => rfl⟩
    · intro p v m he
      simp [Net.run, Net.init, NewModel_entry] at he
    · intro h
      omega
    · simp only [List.replicate_zero, Net.run, List.foldl_nil, Net.init]
      rw [ownDigest_NewModel]
    · simp only [List.replicate_zero, Net.run, List.foldl_nil, Net.init]
      rw [NewModel_ownDigest_lookup]
      simp
  | succ k ih =>
    obtain ⟨hK, hE, _, hM, hD, hZ⟩ := ih (by omega)
    rw [List.replicate_succ', run_append]
    have hrun1 : ∀ net : Net, net.run ed [Step.publish Peer.A [] none] =
        net.step ed (Step.publish Peer.A [] none) := fun _ => rfl
    rw [hrun1]
    have hmod : (k + 1) % 2 ^ 32 = k + 1 := Nat.mod_eq_of_lt hk
    refine ⟨?_, ?_, ?_, ?_, ?_, ?_⟩
    · rw [step_publish_self, NewMessage_PublicKey, hK]
    · intro p v m he
      rw [step_publish_self, NewMessage_entry, NewMessage_version, hM, hmod, hK] at he
      split at he
      · rename_i hc
        exact ⟨hc.1, by omega, by omega⟩
      · obtain ⟨h1, h2, h3⟩ := hE p v m he
        exact ⟨h1, h2, by omega⟩
    · intro _
      rw [step_publish_self, NewMessage_entry, NewMessage_version, hM, hmod, hK,
        if_pos ⟨rfl, rfl⟩]
      exact ⟨_, rfl⟩
    · rw [step_publish_self, NewMessage_ownDigest, IncrementNode_MaxVersion, hM, hmod]
    · rw [step_publish_self, NewMessage_ownDigest, IncrementNode_lookup, hK, if_pos rfl, hM,
        hmod]
    · intro z hz
      rw [step_publish_other _ _ _ _ _ _ hz]
      exact hZ z hz

/-- What a pull/push step does to its target, without any assumption on the state. -/
theorem sync_effect (ed : Ed25519) (net : Net) (x y : Peer) (hxy : x ≠ y) :
    (∀ p v m, ((net.step ed (.sync x y)) y).entry p v = some m →
      (net y).entry p v = some m ∨ (net x).entry p v = some m) ∧
    (∀ p v m, (net y).entry p v = some m →
      ∃ m', ((net.step ed (.sync x y)) y).entry p v = some m') ∧
    (∀ p v m, (net x).entry p v = some m → p ∈ (net x).ownDigest.Nodes →
      (p ∉ (net y).ownDigest.Nodes ∨ (net y).ownDigest.version p < v) →
      (∃ d, ((net.step ed (.sync x y)) y).ownDigest.Nodes.lookup p = some d ∧ v ≤ d) ∧
      ∃ m', ((net.step ed (.sync x y)) y).entry p v = some m') ∧
    (∀ p d, (net y).ownDigest.Nodes.lookup p = some d →
      ∃ d', ((net.step ed (.sync x y)) y).ownDigest.Nodes.lookup p = some d' ∧ d ≤ d') := by
  have hds := mem_Delta (net x) (net y).ownDigest
  obtain ⟨_, hyE, hyD, _⟩ := step_sync_changed ed net x y hxy
  refine ⟨?_, ?_, ?_, ?_⟩
  · intro p v m he
    rw [hyE] at he
    cases hl : lastDeltaFor ((net x).Delta (net y).ownDigest).2 p v with
    | none =>
      rw [hl] at he
      exact Or.inl he
    | some delta =>
      rw [hl] at he
      obtain ⟨hd, h1, h2⟩ := lastDeltaFor_some _ _ _ _ hl
      have hxe := ((hds delta).1 hd).1
      rw [h1, h2] at hxe
      simp only at he
      rw [Option.some.inj he] at hxe
      exact Or.inr hxe
  · intro p v m he
    rw [hyE]
    cases hl : lastDeltaFor ((net x).Delta (net y).ownDigest).2 p v with
    | none => exact ⟨m, he⟩
    | some delta => exact ⟨delta.message, rfl⟩
  · intro p v m he hown hcond
    have hmem : NewDelta p v m.Value m.AttachedSecret m.Signature ∈
        ((net x).Delta (net y).ownDigest).2 := (hds _).2 ⟨he, hown, hcond⟩
    refine ⟨?_, ?_⟩
    · rw [hyD]
      exact absorb_covers _ _ _ hmem
    · rw [hyE]
      cases hl : lastDeltaFor ((net x).Delta (net y).ownDigest).2 p v with
      | none => exact absurd ⟨rfl, rfl⟩ (lastDeltaFor_none _ _ _ hl _ hmem)
      | some delta => exact ⟨delta.message, rfl⟩
  · intro p d hd
    rw [hyD]
    exact absorb_mono _ _ p d hd

/-- A state in which every entry is one of `A` at a version of at most `N`, every own
digest records at least `N` for `A`, and `A` but not `B` holds version 0 of `A`: every
pairwise delta is empty although the `NodeStates` of `A` and `B` differ. -/
theorem quiescent_but_different (net : Net) (pkA : NodePublicKey) (N : Nat)
    (hEnt : ∀ X p v m, (net X).entry p v = some m → p = pkA ∧ v ≤ N)
    (hDig : ∀ Y, ∃ d, (net Y).ownDigest.Nodes.lookup pkA = some d ∧ N ≤ d)
    (hA : ∃ m, (net Peer.A).entry pkA 0 = some m)
    (hB : (net Peer.B).entry pkA 0 = none) :
    net.Quiescent ∧ ¬ sameNodeStates (net Peer.A).NodeStates (net Peer.B).NodeStates := by
  constructor
  · intro x y _
    rw [List.eq_nil_iff_forall_not_mem]
    intro delta hd
    obtain ⟨he, _, hcond⟩ := (mem_Delta (net x) (net y).ownDigest delta).1 hd
    obtain ⟨hp, hv⟩ := hEnt x _ _ _ he
    obtain ⟨d, hdl, hle⟩ := hDig y
    rw [hp] at hcond
    rcases hcond with hc | hc
    · apply hc
      rw [← AList.lookup_isSome, hdl]
      rfl
    · have : (net y).ownDigest.version pkA = d := by simp [Digest.version, hdl]
      rw [this] at hc
      omega
  · intro hsame
    obtain ⟨m, hm⟩ := hA
    have := (hsame pkA).2 0
    rw [← Model.entry_eq, ← Model.entry_eq, hm, hB] at this
    cases this

theorem NewModel_not_mem_ownDigest (ed : Ed25519) (privateKey : List Nat) (t : ModelType)
    (p : NodePublicKey) (hp : p ≠ ed.publicKey privateKey) :
    p ∉ (NewModel ed privateKey t).ownDigest.Nodes := by
  rw [← AList.lookup_eq_none, NewModel_ownDigest_lookup, if_neg hp]

/-- With `N = 2 ^ 32 - 1`: after `A` publishes `N` messages, `B` pulls from `A`, `A`
publishes once more (the version counter wraps to 0), `A` pulls from `B` and `C` pulls from
`B`, every pairwise delta is empty, yet `A` holds its version 0 and `B` does not. -/
theorem wrap_quiescent_but_different (ed : Ed25519) (keys : Peer → List Nat) (t : ModelType)
    (hinj : Function.Injective (fun i => ed.publicKey (keys i))) (N : Nat)
    (hN : N + 1 = 2 ^ 32) :
    ((Net.init ed keys t).run ed (wrapSteps N)).Quiescent ∧
    ¬ sameNodeStates (((Net.init ed keys t).run ed (wrapSteps N)) Peer.A).NodeStates
      (((Net.init ed keys t).run ed (wrapSteps N)) Peer.B).NodeStates := by
  have hAB : ed.publicKey (keys Peer.A) ≠ ed.publicKey (keys Peer.B) :=
    fun hc => absurd (hinj hc) (by decide)
  have hAC : ed.publicKey (keys Peer.A) ≠ ed.publicKey (keys Peer.C) :=
    fun hc => absurd (hinj hc) (by decide)
  obtain ⟨hK1, hE1, hN1, hM1, hD1, hZ1⟩ := publish_phase ed keys t N (by omega)
  obtain ⟨hmN, hEN⟩ := hN1 (by omega)
  unfold wrapSteps
  rw [run_append]
  generalize (Net.init ed keys t).run ed (List.replicate N (Step.publish Peer.A [] none)) = n1
    at hK1 hE1 hM1 hD1 hZ1 hEN
  have hfresh : ∀ z, z ≠ Peer.A → ∀ p v, (n1 z).entry p v = none := by
    intro z hz p v
    rw [hZ1 z hz, NewModel_entry]
  -- `B` pulls from `A`
  have hrun : n1.run ed [Step.sync Peer.A Peer.B, Step.publish Peer.A [] none,
      Step.sync Peer.B Peer.A, Step.sync Peer.B Peer.C] =
      (((n1.step ed (.sync .A .B)).step ed (.publish .A [] none)).step ed
        (.sync .B .A)).step ed (.sync .B .C) := rfl
  rw [hrun]
  obtain ⟨s21, -, s24, -⟩ := sync_effect ed n1 Peer.A Peer.B (by decide)
  obtain ⟨u2K, u2E, u2D, -⟩ := step_sync_unchanged ed n1 Peer.A Peer.B Peer.A (by decide)
    (by decide)
  have u2C := step_sync_other ed n1 Peer.A Peer.B Peer.C (by decide) (by decide)
  have hB2 := s24 _ N hmN hEN (by rw [← AList.lookup_isSome, hD1]; rfl)
    (Or.inl (by rw [hZ1 Peer.B (by decide)]; exact NewModel_not_mem_ownDigest _ _ _ _ hAB))
  have hE2B : ∀ p v m, ((n1.step ed (.sync .A .B)) Peer.B).entry p v = some m →
      p = ed.publicKey (keys Peer.A) ∧ 1 ≤ v ∧ v ≤ N := by
    intro p v m he
    rcases s21 p v m he with h1 | h1
    · rw [hfresh Peer.B (by decide)] at h1
      cases h1
    · exact hE1 p v m h1
  generalize n1.step ed (.sync .A .B) = n2 at hB2 hE2B u2K u2E u2D u2C
  -- `A` publishes once more: version 0
  have hver : ((n2 Peer.A).NewMessage ed [] none).2 = 0 := by
    rw [NewMessage_version, u2D, hM1, hN]
    exact Nat.mod_self _
  have p3A := step_publish_self ed n2 Peer.A [] none
  have p3B := step_publish_other ed n2 Peer.A [] none Peer.B (by decide)
  have p3C := step_publish_other ed n2 Peer.A [] none Peer.C (by decide)
  have hE3A : ∀ p v m, ((n2.step ed (.publish .A [] none)) Peer.A).entry p v = some m →
      p = ed.publicKey (keys Peer.A) ∧ v ≤ N := by
    intro p v m he
    rw [p3A, NewMessage_entry, hver, u2K, hK1] at he
    split at he
    · rename_i hc
      exact ⟨hc.1, by omega⟩
    · rw [u2E] at he
      obtain ⟨h1, _, h3⟩ := hE1 p v m he
      exact ⟨h1, h3⟩
  have hA3 : ∃ m, ((n2.step ed (.publish .A [] none)) Peer.A).entry
      (ed.publicKey (keys Peer.A)) 0 = some m := by
    rw [p3A, NewMessage_entry, hver, u2K, hK1, if_pos ⟨rfl, rfl⟩]
    exact ⟨_, rfl⟩
  have hD3 : ((n2.step ed (.publish .A [] none)) Peer.A).ownDigest.version
      (ed.publicKey (keys Peer.A)) = 0 := by
    unfold Digest.version
    rw [p3A, NewMessage_ownDigest, IncrementNode_lookup, u2K, hK1, if_pos rfl, u2D, hM1, hN]
    simp
  generalize n2.step ed (.publish .A [] none) = n3 at p3B p3C hE3A hA3 hD3
  -- `A` pulls from `B`
  obtain ⟨s41, s43, s44, -⟩ := sync_effect ed n3 Peer.B Peer.A (by decide)
  obtain ⟨-, u4E, u4D, -⟩ := step_sync_unchanged ed n3 Peer.B Peer.A Peer.B (by decide)
    (by decide)
  have u4C := step_sync_other ed n3 Peer.B Peer.A Peer.C (by decide) (by decide)
  obtain ⟨⟨dB, hdB, hdBle⟩, ⟨mB, hmB⟩⟩ := hB2
  have hownB : ed.publicKey (keys Peer.A) ∈ (n3 Peer.B).ownDigest.Nodes := by
    rw [p3B, ← AList.lookup_isSome, hdB]
    rfl
  have hA4 := (s44 _ N mB (by rw [p3B]; exact hmB) hownB
    (Or.inr (by rw [hD3]; omega))).1
  have hA40 := s43 _ 0 _ hA3.choose_spec
  have hE4A : ∀ p v m, ((n3.step ed (.sync .B .A)) Peer.A).entry p v = some m →
      p = ed.publicKey (keys Peer.A) ∧ v ≤ N := by
    intro p v m he
    rcases s41 p v m he with h1 | h1
    · exact hE3A p v m h1
    · rw [p3B] at h1
      obtain ⟨h2, _, h3⟩ := hE2B p v m h1
      exact ⟨h2, h3⟩
  have hE4B : ∀ p v m, ((n3.step ed (.sync .B .A)) Peer.B).entry p v = some m →
      p = ed.publicKey (keys Peer.A) ∧ 1 ≤ v ∧ v ≤ N := by
    intro p v m he
    rw [u4E, p3B] at he
    exact hE2B p v m he
  have hD4B : (n3.step ed (.sync .B .A) Peer.B).ownDigest.Nodes.lookup
      (ed.publicKey (keys Peer.A)) = some dB := by
    rw [u4D, p3B]
    exact hdB
  have hm4B : ((n3.step ed (.sync .B .A)) Peer.B).entry (ed.publicKey (keys Peer.A)) N =
      some mB := by
    rw [u4E, p3B]
    exact hmB
  have h4C : (n3.step ed (.sync .B .A)) Peer.C = NewModel ed (keys Peer.C) t := by
    rw [u4C, p3C, u2C]
    exact hZ1 Peer.C (by decide)
  generalize n3.step ed (.sync .B .A) = n4 at hA4 hA40 hE4A hE4B hD4B hm4B h4C
  -- `C` pulls from `B`
  obtain ⟨s51, -, s54, -⟩ := sync_effect ed n4 Peer.B Peer.C (by decide)
  obtain ⟨-, u5E, u5D, -⟩ := step_sync_unchanged ed n4 Peer.B Peer.C Peer.B (by decide)
    (by decide)
  have u5A := step_sync_other ed n4 Peer.B Peer.C Peer.A (by decide) (by decide)
  have hC5 := (s54 _ N mB hm4B (by rw [← AList.lookup_isSome, hD4B]; rfl)
    (Or.inl (by rw [h4C]; exact NewModel_not_mem_ownDigest _ _ _ _ hAC))).1
  apply quiescent_but_different _ (ed.publicKey (keys Peer.A)) N
  · intro X p v m he
    cases X with
    | A =>
      rw [u5A] at he
      exact hE4A p v m he
    | B =>
      rw [u5E] at he
      obtain ⟨h1, _, h3⟩ := hE4B p v m he
      exact ⟨h1, h3⟩
    | C =>
      rcases s51 p v m he with h1 | h1
      · rw [h4C, NewModel_entry] at h1
        cases h1
      · obtain ⟨h2, _, h3⟩ := hE4B p v m h1
        exact ⟨h2, h3⟩
  · intro Y
    cases Y with
    | A =>
      rw [u5A]
      exact hA4
    | B =>
      rw [u5D]
      exact ⟨dB, hD4B, hdBle⟩
    | C => exact hC5
  · rw [u5A]
    exact hA40
  · rw [u5E]
    cases he : (n4 Peer.B).entry (ed.publicKey (keys Peer.A)) 0 with
    | none => rfl
    | some m =>
      have := (hE4B _ _ _ he).2.1
      omega

/-- C6 (counterexample): with the keys `[1]`, `[2]`, `[3]`, the interleaving in which `A`
publishes `2 ^ 32 - 1` messages, `B` pulls from `A`, `A` publishes once more, `A` pulls from
`B` and `C` pulls from `B` ends with every pairwise delta empty, and the `NodeStates` of `A`
and `B` are different. -/
theorem C6_fails_after_version_wrap :
    Function.Injective (fun i => edStub.publicKey (demoKeys i)) ∧
    (∀ x y, Step.sync x y ∈ wrapSteps 4294967295 → x ≠ y) ∧
    ((Net.init edStub demoKeys ModelType.group).run edStub (wrapSteps 4294967295)).Quiescent ∧
    ¬ sameNodeStates
      (((Net.init edStub demoKeys ModelType.group).run edStub (wrapSteps 4294967295))
        Peer.A).NodeStates
      (((Net.init edStub demoKeys ModelType.group).run edStub (wrapSteps 4294967295))
        Peer.B).NodeStates := by
  have h1 : Function.Injective (fun i => edStub.publicKey (demoKeys i)) := by
    intro i j hij
    cases i <;> cases j <;> first | rfl | (exact absurd hij (by decide))
  refine ⟨h1, ?_, wrap_quiescent_but_different edStub demoKeys ModelType.group h1 4294967295
    (by norm_num)⟩
  intro x y hm
  unfold wrapSteps at hm
  rw [List.mem_append] at hm
  rcases hm with hm | hm
  · have := List.eq_of_mem_replicate hm
    cases this
  · cases x <;> cases y <;> first | (exact absurd hm (by decide)) | (intro h; cases h)

end sync

namespace binary

theorem Uint64_AppendUint64 (v : Nat) (hv : v < 2 ^ 64) (rest : List Nat) :
    Uint64 (AppendUint64 [] v ++ rest) = some v := by
  simp only [AppendUint64, Uint64, List.nil_append, List.cons_append]
  congr 1
  omega

theorem Uint32_AppendUint32 (v : Nat) (hv : v < 2 ^ 32) (rest : List Nat) :
    Uint32 (AppendUint32 [] v ++ rest) = some v := by
  simp only [AppendUint32, Uint32, List.nil_append, List.cons_append]
  congr 1
  omega

theorem Uint16_AppendUint16 (v : Nat) (hv : v < 2 ^ 16) (rest : List Nat) :
    Uint16 (AppendUint16 [] v ++ rest) = some v := by
  simp only [AppendUint16, Uint16, List.nil_append, List.cons_append]
  congr 1
  omega

theorem AppendUint64_eq (b : List Nat) (v : Nat) : AppendUint64 b v = b ++ AppendUint64 [] v := rfl
theorem AppendUint32_eq (b : List Nat) (v : Nat) : AppendUint32 b v = b ++ AppendUint32 [] v := rfl
theorem AppendUint16_eq (b : List Nat) (v : Nat) : AppendUint16 b v = b ++ AppendUint16 [] v := rfl

theorem length_AppendUint64 (v : Nat) : (AppendUint64 [] v).length = 8 := rfl
theorem length_AppendUint32 (v : Nat) : (AppendUint32 [] v).length = 4 := rfl
theorem length_AppendUint16 (v : Nat) : (AppendUint16 [] v).length = 2 := rfl

end binary

namespace builtin

theorem slice_eq (buf : List Nat) (lo hi : Nat) (h1 : lo ≤ hi) (h2 : hi ≤ buf.length) :
    slice buf lo hi = some ((buf.take hi).drop lo) := by
  simp [slice, h1, h2]

theorem sliceFrom_eq (buf : List Nat) (lo : Nat) (h : lo ≤ buf.length) :
    sliceFrom buf lo = some (buf.drop lo) := by
  simp [sliceFrom, h]

/-- The bytes between two offsets of a buffer assembled from three parts. -/
theorem slice_parts (buf pre x post : List Nat) (lo hi : Nat) (hbuf : buf = pre ++ (x ++ post))
    (h1 : pre.length = lo) (h2 : lo + x.length = hi) : slice buf lo hi = some x := by
  subst h1 h2 hbuf
  rw [slice_eq _ _ _ (by omega) (by simp)]
  simp [List.take_append_eq_append_take, List.drop_append_eq_append_drop]

theorem sliceFrom_parts (buf pre post : List Nat) (lo : Nat) (hbuf : buf = pre ++ post)
    (h1 : pre.length = lo) : sliceFrom buf lo = some post := by
  subst h1 hbuf
  rw [sliceFrom_eq _ _ (by simp)]
  simp

theorem index_zero_cons (a : Nat) (l : List Nat) : index (a :: l) 0 = some a := by
  simp [index]

end builtin

namespace network_layer
open builtin

theorem DecodeRREQ_EncodePacket (p : RREQPacket) (h1 : p.RequestID < 2 ^ 64)
    (h2 : p.TTL < 2 ^ 16) (h3 : p.EphemeralKey.length = 32) (h4 : p.ContactMask.length = 256) :
    DecodeRREQ p.EncodePacket = some (.ok p) ∧ p.EncodePacket.length = 299 := by
  have hE : p.EncodePacket = [RREQ] ++ binary.AppendUint64 [] p.RequestID ++
      binary.AppendUint16 [] p.TTL ++ p.EphemeralKey ++ p.ContactMask := by
    simp [RREQPacket.EncodePacket, RequestID.Encode, TTL.Encode, binary.AppendUint64,
      binary.AppendUint16]
  have hlen : p.EncodePacket.length = 299 := by
    rw [hE]; simp [binary.length_AppendUint64, binary.length_AppendUint16, h3, h4]
  refine ⟨?_, hlen⟩
  have s0 : index p.EncodePacket 0 = some RREQ := by rw [hE]; exact index_zero_cons _ _
  have s1 : sliceFrom p.EncodePacket 1 = some (binary.AppendUint64 [] p.RequestID ++
      (binary.AppendUint16 [] p.TTL ++ (p.EphemeralKey ++ p.ContactMask))) :=
    sliceFrom_parts _ [RREQ] _ _ (by simp only [hE, List.append_assoc]) rfl
  have s2 : sliceFrom p.EncodePacket 9 = some (binary.AppendUint16 [] p.TTL ++
      (p.EphemeralKey ++ p.ContactMask)) :=
    sliceFrom_parts _ ([RREQ] ++ binary.AppendUint64 [] p.RequestID) _ _
      (by simp only [hE, List.append_assoc]) rfl
  have s3 : slice p.EncodePacket 11 43 = some p.EphemeralKey :=
    slice_parts _ ([RREQ] ++ binary.AppendUint64 [] p.RequestID ++ binary.AppendUint16 [] p.TTL)
      _ p.ContactMask _ _ (by simp only [hE, List.append_assoc]) rfl (by rw [h3])
  have s4 : slice p.EncodePacket 43 299 = some p.ContactMask :=
    slice_parts _ ([RREQ] ++ binary.AppendUint64 [] p.RequestID ++ binary.AppendUint16 [] p.TTL
      ++ p.EphemeralKey) _ [] _ _ (by simp only [hE, List.append_assoc, List.append_nil])
      (by simp [binary.length_AppendUint64, binary.length_AppendUint16, h3]) (by rw [h4])
  unfold DecodeRREQ
  rw [if_neg (by rw [hlen]; decide)]
  simp only [s0, s1, s2, s3, Option.bind_eq_bind, Option.some_bind, DecodeRequestID,
    DecodeTTL, binary.Uint64_AppendUint64 _ h1, binary.Uint16_AppendUint16 _ h2,
    NewPublicKey, h3, NewRREQPacket, h4, BITMAP_SIZE]
  simp [s4, h4]

/-- The function `DecodeRREP` on a buffer given by its parts: the header fields, a size
field `c`, `c + 16` bytes of ciphertext and any further bytes. -/
theorem DecodeRREP_parts (reqID sessID c : Nat) (key nonce cipher extra : List Nat)
    (h1 : reqID < 2 ^ 64) (h2 : sessID < 2 ^ 64) (h3 : key.length = 32)
    (h4 : nonce.length = 12) (hc : c + 81 < 2 ^ 32) (h5 : cipher.length = c + 16) :
    DecodeRREP (EncodeRREPHeader reqID sessID key ++ nonce ++ binary.AppendUint32 [] c ++
      cipher ++ extra) = some (.ok ⟨reqID, sessID, key, nonce, cipher⟩) := by
  generalize hb : EncodeRREPHeader reqID sessID key ++ nonce ++ binary.AppendUint32 [] c ++
      cipher ++ extra = buf
  have hE : buf = [RREP] ++ binary.AppendUint64 [] reqID ++
      binary.AppendUint64 [] sessID ++ key ++ nonce ++ binary.AppendUint32 [] c ++
      cipher ++ extra := by
    rw [← hb]
    simp [EncodeRREPHeader, RequestID.Encode, EncodeSessionID, binary.AppendUint64]
  have hlen : buf.length = 65 + c + 16 + extra.length := by
    rw [hE]
    simp [binary.length_AppendUint64, binary.length_AppendUint32, h3, h4, h5]
    omega
  have s0 : index buf 0 = some RREP := by rw [hE]; exact index_zero_cons _ _
  have s1 : sliceFrom buf 1 = some (binary.AppendUint64 [] reqID ++
      (binary.AppendUint64 [] sessID ++ (key ++ (nonce ++ (binary.AppendUint32 [] c ++
      (cipher ++ extra)))))) :=
    sliceFrom_parts _ [RREP] _ _ (by simp only [hE, List.append_assoc]) rfl
  have s2 : sliceFrom buf 9 = some (binary.AppendUint64 [] sessID ++ (key ++ (nonce ++
      (binary.AppendUint32 [] c ++ (cipher ++ extra))))) :=
    sliceFrom_parts _ ([RREP] ++ binary.AppendUint64 [] reqID) _ _
      (by simp only [hE, List.append_assoc]) rfl
  have s3 : slice buf 17 49 = some key :=
    slice_parts _ ([RREP] ++ binary.AppendUint64 [] reqID ++ binary.AppendUint64 [] sessID)
      _ (nonce ++ (binary.AppendUint32 [] c ++ (cipher ++ extra))) _ _
      (by simp only [hE, List.append_assoc]) rfl (by rw [h3])
  have s4 : slice buf 49 61 = some nonce :=
    slice_parts _ ([RREP] ++ binary.AppendUint64 [] reqID ++ binary.AppendUint64 [] sessID
      ++ key) _ (binary.AppendUint32 [] c ++ (cipher ++ extra)) _ _
      (by simp only [hE, List.append_assoc])
      (by simp [binary.length_AppendUint64, h3]) (by rw [h4])
  have s5 : slice buf 61 65 = some (binary.AppendUint32 [] c ++ []) :=
    slice_parts _ ([RREP] ++ binary.AppendUint64 [] reqID ++ binary.AppendUint64 [] sessID
      ++ key ++ nonce) _ (cipher ++ extra) _ _
      (by simp only [hE, List.append_assoc, List.append_nil])
      (by simp [binary.length_AppendUint64, h3, h4]) rfl
  have s6 : slice buf 65 (65 + c + 16) = some cipher :=
    slice_parts _ ([RREP] ++ binary.AppendUint64 [] reqID ++ binary.AppendUint64 [] sessID
      ++ key ++ nonce ++ binary.AppendUint32 [] c) _ extra _ _
      (by simp only [hE, List.append_assoc])
      (by simp [binary.length_AppendUint64, binary.length_AppendUint32, h3, h4])
      (by rw [h5]; omega)
  unfold DecodeRREP
  rw [if_neg (by rw [hlen]; omega)]
  simp only [s0, s1, s2, s3, s4, s5, Option.bind_eq_bind, Option.some_bind, DecodeRequestID,
    DecodeSessionID, binary.Uint64_AppendUint64 _ h1, binary.Uint64_AppendUint64 _ h2,
    binary.Uint32_AppendUint32 _ (show c < 2 ^ 32 by omega), NewPublicKey, h3]
  have hm : (65 + c + 16) % 4294967296 = 65 + c + 16 := Nat.mod_eq_of_lt (by omega)
  simp [hm, s6, hlen]

end network_layer

namespace network_layer
open builtin

theorem length_EncodeRREPHeader (reqID sessID : Nat) (key : List Nat) :
    (EncodeRREPHeader reqID sessID key).length = 17 + key.length := by
  simp [EncodeRREPHeader, RequestID.Encode, EncodeSessionID, binary.AppendUint64]
  omega

theorem uint32Minus16_eq (c : Nat) (hc : c < 2 ^ 32) : uint32Minus16 (c + 16) = c := by
  unfold uint32Minus16
  have : ((c + 16 : Nat) : Int) - 16 = (c : Int) := by push_cast; ring
  rw [this]
  have h2 : ((c : Int) % 2 ^ 32) = (c : Int) := Int.emod_eq_of_lt (by omega) (by exact_mod_cast hc)
  rw [h2]; simp

theorem DecodeRREP_EncodePacket (p : RREPPacket) (h1 : p.RequestID < 2 ^ 64)
    (h2 : p.SessionID < 2 ^ 64) (h3 : p.EphemeralKey.length = 32) (h4 : p.Nonce.length = 12)
    (h5 : 16 ≤ p.Cipher.length) (h6 : p.Cipher.length - 16 + 81 < 2 ^ 32) :
    DecodeRREP p.EncodePacket = some (.ok p) ∧
      p.EncodePacket.length = 65 + (p.Cipher.length - 16) + 16 := by
  obtain ⟨c, hc⟩ : ∃ c, p.Cipher.length = c + 16 := ⟨p.Cipher.length - 16, by omega⟩
  have hE : p.EncodePacket = EncodeRREPHeader p.RequestID p.SessionID p.EphemeralKey ++
      p.Nonce ++ binary.AppendUint32 [] c ++ p.Cipher ++ [] := by
    simp [RREPPacket.EncodePacket, hc, uint32Minus16_eq c (by omega), binary.AppendUint32]
  refine ⟨?_, ?_⟩
  · rw [hE]
    exact DecodeRREP_parts _ _ c _ _ _ _ h1 h2 h3 h4 (by omega) hc
  · rw [hE]
    simp [length_EncodeRREPHeader, binary.length_AppendUint32, h3, h4, hc]
    omega

/-- The function `DecodeSESS` on a buffer given by its parts. -/
theorem DecodeSESS_parts (sessID c : Nat) (nonce cipher extra : List Nat)
    (h2 : sessID < 2 ^ 64) (h4 : nonce.length = 12) (hc : c + 41 < 2 ^ 32)
    (h5 : cipher.length = c + 16) :
    DecodeSESS ([SESS] ++ binary.AppendUint64 [] sessID ++ nonce ++ binary.AppendUint32 [] c ++
      cipher ++ extra) = some (.ok ⟨sessID, nonce, cipher⟩) := by
  generalize hE : [SESS] ++ binary.AppendUint64 [] sessID ++ nonce ++
    binary.AppendUint32 [] c ++ cipher ++ extra = buf
  replace hE := hE.symm
  have hlen : buf.length = 41 + c + extra.length := by
    rw [hE]
    simp [binary.length_AppendUint64, binary.length_AppendUint32, h4, h5]
    omega
  have s0 : index buf 0 = some SESS := by rw [hE]; exact index_zero_cons _ _
  have s1 : sliceFrom buf 1 = some (binary.AppendUint64 [] sessID ++ (nonce ++
      (binary.AppendUint32 [] c ++ (cipher ++ extra)))) :=
    sliceFrom_parts _ [SESS] _ _ (by simp only [hE, List.append_assoc]) rfl
  have s4 : slice buf 9 21 = some nonce :=
    slice_parts _ ([SESS] ++ binary.AppendUint64 [] sessID) _
      (binary.AppendUint32 [] c ++ (cipher ++ extra)) _ _
      (by simp only [hE, List.append_assoc]) rfl (by rw [h4])
  have s5 : slice buf 21 25 = some (binary.AppendUint32 [] c ++ []) :=
    slice_parts _ ([SESS] ++ binary.AppendUint64 [] sessID ++ nonce) _ (cipher ++ extra) _ _
      (by simp only [hE, List.append_assoc, List.append_nil])
      (by simp [binary.length_AppendUint64, h4]) rfl
  have s6 : slice buf 25 (25 + c + 16) = some cipher :=
    slice_parts _ ([SESS] ++ binary.AppendUint64 [] sessID ++ nonce ++
      binary.AppendUint32 [] c) _ extra _ _
      (by simp only [hE, List.append_assoc])
      (by simp [binary.length_AppendUint64, binary.length_AppendUint32, h4])
      (by rw [h5]; omega)
  unfold DecodeSESS
  rw [if_neg (by rw [hlen]; omega)]
  simp only [s0, s1, s4, s5, Option.bind_eq_bind, Option.some_bind,
    DecodeSessionID, binary.Uint64_AppendUint64 _ h2,
    binary.Uint32_AppendUint32 _ (show c < 2 ^ 32 by omega)]
  have hm : (25 + c + 16) % 4294967296 = 25 + c + 16 := Nat.mod_eq_of_lt (by omega)
  simp [hm, s6, hlen]

theorem DecodeSESS_EncodePacket (p : SESSPacket)
    (h2 : p.SessionID < 2 ^ 64) (h4 : p.Nonce.length = 12)
    (h5 : 16 ≤ p.Cipher.length) (h6 : p.Cipher.length - 16 + 41 < 2 ^ 32) :
    DecodeSESS p.EncodePacket = some (.ok p) ∧
      p.EncodePacket.length = 41 + (p.Cipher.length - 16) := by
  obtain ⟨c, hc⟩ : ∃ c, p.Cipher.length = c + 16 := ⟨p.Cipher.length - 16, by omega⟩
  have hE : p.EncodePacket = [SESS] ++ binary.AppendUint64 [] p.SessionID ++
      p.Nonce ++ binary.AppendUint32 [] c ++ p.Cipher ++ [] := by
    simp [SESSPacket.EncodePacket, hc, uint32Minus16_eq c (by omega), binary.AppendUint32,
      EncodeSessionID, binary.AppendUint64]
  refine ⟨?_, ?_⟩
  · rw [hE]
    exact DecodeSESS_parts _ c _ _ _ h2 h4 (by omega) hc
  · rw [hE]
    simp [binary.length_AppendUint64, binary.length_AppendUint32, h4, hc]
    omega

theorem DecodeRERR_EncodePacket (p : RERRPacket) (h2 : p.SessionID < 2 ^ 64) :
    DecodeRERR p.EncodePacket = some (.ok p) ∧ p.EncodePacket.length = 9 := by
  have hE : p.EncodePacket = [RERR] ++ binary.AppendUint64 [] p.SessionID := by
    simp [RERRPacket.EncodePacket, EncodeSessionID, binary.AppendUint64]
  have hlen : p.EncodePacket.length = 9 := by rw [hE]; rfl
  refine ⟨?_, hlen⟩
  have s0 : index p.EncodePacket 0 = some RERR := by rw [hE]; exact index_zero_cons _ _
  have s1 : sliceFrom p.EncodePacket 1 = some (binary.AppendUint64 [] p.SessionID ++ []) :=
    sliceFrom_parts _ [RERR] _ _ (by simp only [hE, List.append_nil]) rfl
  unfold DecodeRERR
  rw [if_neg (by rw [hlen]; decide)]
  simp only [s0, s1, Option.bind_eq_bind, Option.some_bind,
    DecodeSessionID, binary.Uint64_AppendUint64 _ h2]
  simp [NewRERR]

end network_layer

namespace binary

theorem Uint16_some (b : List Nat) (h : 2 ≤ b.length) : ∃ v, Uint16 b = some v := by
  match b, h with
  | b0 :: b1 :: _, _ => exact ⟨_, rfl⟩

theorem Uint32_some (b : List Nat) (h : 4 ≤ b.length) : ∃ v, Uint32 b = some v := by
  match b, h with
  | b0 :: b1 :: b2 :: b3 :: _, _ => exact ⟨_, rfl⟩

theorem Uint64_some (b : List Nat) (h : 8 ≤ b.length) : ∃ v, Uint64 b = some v := by
  match b, h with
  | b0 :: b1 :: b2 :: b3 :: b4 :: b5 :: b6 :: b7 :: _, _ => exact ⟨_, rfl⟩

end binary

namespace builtin

theorem index_some (buf : List Nat) (i : Nat) (h : i < buf.length) :
    ∃ b, index buf i = some b := by
  simp [index, h]

theorem slice_some (buf : List Nat) (lo hi : Nat) (h1 : lo ≤ hi) (h2 : hi ≤ buf.length) :
    ∃ x, slice buf lo hi = some x ∧ x.length = hi - lo := by
  refine ⟨_, slice_eq _ _ _ h1 h2, ?_⟩
  simp [List.length_take]
  omega

theorem sliceFrom_Uint16 (buf : List Nat) (lo : Nat) (h : lo + 2 ≤ buf.length) :
    ∃ v, (sliceFrom buf lo).bind binary.Uint16 = some v := by
  rw [sliceFrom_eq _ _ (by omega)]
  exact binary.Uint16_some _ (by simp; omega)

theorem sliceFrom_Uint32 (buf : List Nat) (lo : Nat) (h : lo + 4 ≤ buf.length) :
    ∃ v, (sliceFrom buf lo).bind binary.Uint32 = some v := by
  rw [sliceFrom_eq _ _ (by omega)]
  exact binary.Uint32_some _ (by simp; omega)

theorem sliceFrom_Uint64 (buf : List Nat) (lo : Nat) (h : lo + 8 ≤ buf.length) :
    ∃ v, (sliceFrom buf lo).bind binary.Uint64 = some v := by
  rw [sliceFrom_eq _ _ (by omega)]
  exact binary.Uint64_some _ (by simp; omega)

theorem slice_Uint32 (buf : List Nat) (lo hi : Nat) (h1 : lo + 4 ≤ hi) (h2 : hi ≤ buf.length) :
    ∃ v, (slice buf lo hi).bind binary.Uint32 = some v := by
  obtain ⟨x, hx, hl⟩ := slice_some buf lo hi (by omega) h2
  rw [hx]
  exact binary.Uint32_some _ (by omega)

end builtin

namespace transport_layer
open builtin

theorem DecodeDataPacket_EncodePacket (s : Nat) (d : List Nat) (hs : s < 2 ^ 32) :
    DecodeDataPacket (NewDATAPacket s d).EncodePacket = some (.ok (NewDATAPacket s d)) := by
  have hE : (NewDATAPacket s d).EncodePacket = [DATA] ++ binary.AppendUint32 [] s ++ d := by
    simp [DATAPacket.EncodePacket, SequenceID.Encode, binary.AppendUint32, NewDATAPacket]
  have hlen : (NewDATAPacket s d).EncodePacket.length = 5 + d.length := by
    rw [hE]; simp [binary.length_AppendUint32]; omega
  have s0 : index (NewDATAPacket s d).EncodePacket 0 = some DATA := by
    rw [hE]; exact index_zero_cons _ _
  have s1 : sliceFrom (NewDATAPacket s d).EncodePacket 1 =
      some (binary.AppendUint32 [] s ++ d) :=
    sliceFrom_parts _ [DATA] _ _ (by simp only [hE, List.append_assoc]) rfl
  have s2 : sliceFrom (NewDATAPacket s d).EncodePacket 5 = some d :=
    sliceFrom_parts _ ([DATA] ++ binary.AppendUint32 [] s) _ _ hE rfl
  unfold DecodeDataPacket
  rw [if_neg (by rw [hlen]; omega)]
  simp only [s0, s1, s2, Option.bind_eq_bind, Option.some_bind, DecodeSequenceID,
    binary.Uint32_AppendUint32 _ hs]
  simp

theorem foldl_AppendUint32 (ms buf : List Nat) :
    ms.foldl (fun buf seq => binary.AppendUint32 buf seq) buf =
      buf ++ ms.flatMap (fun seq => binary.AppendUint32 [] seq) := by
  induction ms generalizing buf with
  | nil => simp
  | cons m ms ih =>
    rw [List.foldl_cons, ih, binary.AppendUint32_eq]
    simp [List.flatMap_cons]

theorem ACKPacket_EncodePacket_eq (p : ACKPacket) :
    p.EncodePacket = [ACK] ++ binary.AppendUint32 [] p.LatestSeqID ++
      binary.AppendUint32 [] (p.MissingSeqIDs.length % 2 ^ 32) ++
      p.MissingSeqIDs.flatMap (fun seq => binary.AppendUint32 [] seq) := by
  unfold ACKPacket.EncodePacket
  simp only [foldl_AppendUint32, SequenceID.Encode]
  rw [binary.AppendUint32_eq _ (p.MissingSeqIDs.length % 2 ^ 32), binary.AppendUint32_eq _ p.LatestSeqID]
  simp

/-- The loop of `DecodeACKPacket` over the encodings of `ms`, from index `i`. -/
theorem decodeMissingAcks_parts (ms : List Nat) (hms : ∀ m ∈ ms, m < 2 ^ 32) :
    ∀ (pre extra : List Nat) (i : Nat), pre.length = 9 + i * 4 →
      decodeMissingAcks (pre ++ ms.flatMap (fun seq => binary.AppendUint32 [] seq) ++ extra)
        i ms.length = some ms := by
  induction ms with
  | nil => intro pre extra i _; rfl
  | cons m ms ih =>
    intro pre extra i hpre
    have hm : m < 2 ^ 32 := hms m (by simp)
    have hbuf : pre ++ (m :: ms).flatMap (fun seq => binary.AppendUint32 [] seq) ++ extra =
        (pre ++ binary.AppendUint32 [] m) ++
          ms.flatMap (fun seq => binary.AppendUint32 [] seq) ++ extra := by
      simp [List.flatMap_cons]
    have s1 : sliceFrom (pre ++ (m :: ms).flatMap (fun seq => binary.AppendUint32 [] seq)
        ++ extra) (9 + i * 4) = some (binary.AppendUint32 [] m ++
          (ms.flatMap (fun seq => binary.AppendUint32 [] seq) ++ extra)) :=
      sliceFrom_parts _ pre _ _ (by simp [List.flatMap_cons]) hpre
    simp only [decodeMissingAcks, List.length_cons, s1, Option.bind_eq_bind,
      Option.some_bind, DecodeSequenceID, binary.Uint32_AppendUint32 _ hm]
    rw [hbuf, ih (fun x hx => hms x (by simp [hx])) _ _ (i + 1)
      (by simp [binary.length_AppendUint32, hpre]; omega)]
    rfl

/-- The function `DecodeACKPacket` on a buffer given by its parts: a count field equal to
the number of encoded sequence numbers, followed by any further bytes. -/
theorem DecodeACKPacket_parts (s : Nat) (ms extra : List Nat) (hs : s < 2 ^ 32)
    (hms : ∀ m ∈ ms, m < 2 ^ 32) (hlen : ms.length < 2 ^ 32) :
    DecodeACKPacket ([ACK] ++ binary.AppendUint32 [] s ++ binary.AppendUint32 [] ms.length ++
      ms.flatMap (fun seq => binary.AppendUint32 [] seq) ++ extra) =
      some (.ok (NewACKPacket s ms)) := by
  generalize hE : [ACK] ++ binary.AppendUint32 [] s ++ binary.AppendUint32 [] ms.length ++
      ms.flatMap (fun seq => binary.AppendUint32 [] seq) ++ extra = buf
  replace hE := hE.symm
  have hfl : (ms.flatMap (fun seq => binary.AppendUint32 [] seq)).length = ms.length * 4 := by
    clear hms hlen hE
    induction ms with
    | nil => rfl
    | cons m ms ih => simp [List.flatMap_cons, ih, binary.length_AppendUint32]; omega
  have hl : buf.length = 9 + ms.length * 4 + extra.length := by
    rw [hE]; simp [binary.length_AppendUint32, hfl]; omega
  have s0 : index buf 0 = some ACK := by rw [hE]; exact index_zero_cons _ _
  have s1 : sliceFrom buf 1 = some (binary.AppendUint32 [] s ++
      (binary.AppendUint32 [] ms.length ++
        (ms.flatMap (fun seq => binary.AppendUint32 [] seq) ++ extra))) :=
    sliceFrom_parts _ [ACK] _ _ (by simp only [hE, List.append_assoc]) rfl
  have s2 : sliceFrom buf 5 = some (binary.AppendUint32 [] ms.length ++
        (ms.flatMap (fun seq => binary.AppendUint32 [] seq) ++ extra)) :=
    sliceFrom_parts _ ([ACK] ++ binary.AppendUint32 [] s) _ _
      (by simp only [hE, List.append_assoc]) rfl
  unfold DecodeACKPacket
  rw [if_neg (by rw [hl]; omega)]
  simp only [s0, s1, s2, Option.bind_eq_bind, Option.some_bind, DecodeSequenceID,
    binary.Uint32_AppendUint32 _ hs, binary.Uint32_AppendUint32 _ hlen]
  rw [if_neg (by decide), if_neg (by rw [hl]; omega)]
  rw [hE, decodeMissingAcks_parts ms hms
    ([ACK] ++ binary.AppendUint32 [] s ++ binary.AppendUint32 [] ms.length) extra 0 rfl]
  rfl

theorem DecodeACKPacket_EncodePacket (s : Nat) (ms : List Nat) (hs : s < 2 ^ 32)
    (hms : ∀ m ∈ ms, m < 2 ^ 32) (hlen : ms.length < 2 ^ 32) :
    DecodeACKPacket (NewACKPacket s ms).EncodePacket = some (.ok (NewACKPacket s ms)) := by
  rw [ACKPacket_EncodePacket_eq]
  have h := DecodeACKPacket_parts s ms [] hs hms hlen
  rw [List.append_nil] at h
  show DecodeACKPacket ([ACK] ++ binary.AppendUint32 [] s ++
    binary.AppendUint32 [] (ms.length % 2 ^ 32) ++
    ms.flatMap (fun seq => binary.AppendUint32 [] seq)) = _
  rw [Nat.mod_eq_of_lt hlen]
  exact h

/-- When the number of sequence numbers is a multiple of `2 ^ 32`, the count field is zero
and the decoder returns an empty list. -/
theorem DecodeACKPacket_count_wraps (s : Nat) (ms : List Nat) (hs : s < 2 ^ 32)
    (hlen : ms.length % 2 ^ 32 = 0) :
    DecodeACKPacket (NewACKPacket s ms).EncodePacket = some (.ok (NewACKPacket s [])) := by
  rw [ACKPacket_EncodePacket_eq]
  have h := DecodeACKPacket_parts s [] (ms.flatMap (fun seq => binary.AppendUint32 [] seq)) hs
    (fun m hm => absurd hm (List.not_mem_nil m)) (Nat.pos_of_ne_zero (by norm_num))
  show DecodeACKPacket ([ACK] ++ binary.AppendUint32 [] s ++
    binary.AppendUint32 [] (ms.length % 2 ^ 32) ++
    ms.flatMap (fun seq => binary.AppendUint32 [] seq)) = _
  rw [hlen]
  simpa using h

end transport_layer

namespace transport_layer
open builtin

theorem DecodeDataPacket_ne_none (buf : List Nat) : DecodeDataPacket buf ≠ none := by
  unfold DecodeDataPacket
  split
  · simp
  · rename_i h
    obtain ⟨b0, h0⟩ := index_some buf 0 (by omega)
    obtain ⟨v, hv⟩ := sliceFrom_Uint32 buf 1 (by omega)
    simp only [h0, Option.bind_eq_bind, Option.some_bind, DecodeSequenceID, hv,
      sliceFrom_eq buf 5 (by omega)]
    split <;> simp

theorem decodeMissingAcks_some (buf : List Nat) :
    ∀ (n i : Nat), 9 + (i + n) * 4 ≤ buf.length → ∃ l, decodeMissingAcks buf i n = some l := by
  intro n
  induction n with
  | zero => intro i _; exact ⟨[], rfl⟩
  | succ n ih =>
    intro i h
    obtain ⟨v, hv⟩ := sliceFrom_Uint32 buf (9 + i * 4) (by omega)
    obtain ⟨l, hl⟩ := ih (i + 1) (by omega)
    exact ⟨v :: l, by
      simp only [decodeMissingAcks, DecodeSequenceID, hv, hl, Option.bind_eq_bind,
        Option.some_bind]⟩

theorem DecodeACKPacket_ne_none (buf : List Nat) : DecodeACKPacket buf ≠ none := by
  unfold DecodeACKPacket
  split
  · simp
  · rename_i h
    obtain ⟨b0, h0⟩ := index_some buf 0 (by omega)
    obtain ⟨v, hv⟩ := sliceFrom_Uint32 buf 1 (by omega)
    obtain ⟨c, hc⟩ := sliceFrom_Uint32 buf 5 (by omega)
    simp only [h0, Option.bind_eq_bind, Option.some_bind, DecodeSequenceID, hv, hc]
    split
    · simp
    · split
      · simp
      · rename_i h2
        obtain ⟨l, hl⟩ := decodeMissingAcks_some buf c 0 (by omega)
        simp [hl]

end transport_layer

namespace network_layer
open builtin

theorem DecodeRREQ_ne_none (buf : List Nat) : DecodeRREQ buf ≠ none := by
  unfold DecodeRREQ
  split
  · simp
  · rename_i h
    simp only [BITMAP_SIZE] at h
    obtain ⟨b0, h0⟩ := index_some buf 0 (by omega)
    obtain ⟨v, hv⟩ := sliceFrom_Uint64 buf 1 (by omega)
    obtain ⟨t, ht⟩ := sliceFrom_Uint16 buf 9 (by omega)
    obtain ⟨k, hk, hkl⟩ := slice_some buf 11 43 (by omega) (by omega)
    obtain ⟨m, hm, hml⟩ := slice_some buf 43 (43 + BITMAP_SIZE) (by decide)
      (by simp only [BITMAP_SIZE]; omega)
    simp only [h0, Option.bind_eq_bind, Option.some_bind, DecodeRequestID, DecodeTTL, hv, ht,
      hk, NewPublicKey, hkl, hm, NewRREQPacket, hml]
    split <;> simp [BITMAP_SIZE]

theorem DecodeRERR_ne_none (buf : List Nat) : DecodeRERR buf ≠ none := by
  unfold DecodeRERR
  split
  · simp
  · rename_i h
    obtain ⟨b0, h0⟩ := index_some buf 0 (by omega)
    obtain ⟨v, hv⟩ := sliceFrom_Uint64 buf 1 (by omega)
    simp only [h0, Option.bind_eq_bind, Option.some_bind, DecodeSessionID, hv]
    split <;> simp

theorem DecodeRREP_ne_none (buf : List Nat) (hlen : buf.length < 2 ^ 32) :
    DecodeRREP buf ≠ none := by
  unfold DecodeRREP
  split
  · simp
  · rename_i h
    obtain ⟨b0, h0⟩ := index_some buf 0 (by omega)
    obtain ⟨v, hv⟩ := sliceFrom_Uint64 buf 1 (by omega)
    obtain ⟨w, hw⟩ := sliceFrom_Uint64 buf 9 (by omega)
    obtain ⟨k, hk, hkl⟩ := slice_some buf 17 49 (by omega) (by omega)
    obtain ⟨n, hn, _⟩ := slice_some buf 49 61 (by omega) (by omega)
    obtain ⟨c, hc⟩ := slice_Uint32 buf 61 65 (by omega) (by omega)
    have hkl2 : k.length = 32 := hkl
    simp only [h0, Option.bind_eq_bind, Option.some_bind, DecodeRequestID, DecodeSessionID,
      hv, hw, hk, NewPublicKey, hkl2, hn, hc, ne_eq, not_true_eq_false, if_false]
    by_cases hb : b0 = RREP
    · rw [if_neg (not_not.mpr hb)]
      by_cases h2 : buf.length < 65 + c + 16
      · rw [if_pos h2]; simp
      · rw [if_neg h2]
        have hm : (65 + c + 16) % 2 ^ 32 = 65 + c + 16 := Nat.mod_eq_of_lt (by omega)
        obtain ⟨x, hx, _⟩ := slice_some buf 65 (65 + c + 16) (by omega) (by omega)
        rw [hm, hx]; simp
    · rw [if_pos hb]; simp

theorem DecodeSESS_ne_none (buf : List Nat) (hlen : buf.length < 2 ^ 32) :
    DecodeSESS buf ≠ none := by
  unfold DecodeSESS
  split
  · simp
  · rename_i h
    obtain ⟨b0, h0⟩ := index_some buf 0 (by omega)
    obtain ⟨w, hw⟩ := sliceFrom_Uint64 buf 1 (by omega)
    obtain ⟨n, hn, _⟩ := slice_some buf 9 21 (by omega) (by omega)
    obtain ⟨c, hc⟩ := slice_Uint32 buf 21 25 (by omega) (by omega)
    simp only [h0, Option.bind_eq_bind, Option.some_bind, DecodeSessionID, hw, hn, hc]
    by_cases hb : b0 = SESS
    · rw [if_neg (not_not.mpr hb)]
      by_cases h2 : buf.length < 41 + c
      · rw [if_pos h2]; simp
      · rw [if_neg h2]
        have hm : (25 + c + 16) % 2 ^ 32 = 25 + c + 16 := Nat.mod_eq_of_lt (by omega)
        obtain ⟨x, hx, _⟩ := slice_some buf 25 (25 + c + 16) (by omega) (by omega)
        rw [hm, hx]; simp
    · rw [if_pos hb]; simp

/-- A buffer of at least `2 ^ 32` bytes that declares a payload of `2 ^ 32 - 81` bytes: the
upper bound `65+payloadSize+16` of the slice wraps to `0`. -/
theorem DecodeRREP_declaring_huge (tail : List Nat) (h : 2 ^ 32 ≤ tail.length + 65) :
    DecodeRREP ([RREP] ++ List.replicate 60 0 ++ [255, 255, 255, 175] ++ tail) = none := by
  generalize hE : [RREP] ++ List.replicate 60 0 ++ [255, 255, 255, 175] ++ tail = buf
  replace hE := hE.symm
  have hl : buf.length = tail.length + 65 := by rw [hE]; simp
  have s0 : index buf 0 = some RREP := by rw [hE]; exact index_zero_cons _ _
  obtain ⟨v, hv⟩ := sliceFrom_Uint64 buf 1 (by omega)
  obtain ⟨w, hw⟩ := sliceFrom_Uint64 buf 9 (by omega)
  obtain ⟨k, hk, hkl⟩ := slice_some buf 17 49 (by omega) (by omega)
  obtain ⟨n, hn, _⟩ := slice_some buf 49 61 (by omega) (by omega)
  have s5 : slice buf 61 65 = some [255, 255, 255, 175] :=
    slice_parts _ ([RREP] ++ List.replicate 60 0) _ tail _ _
      (by simp only [hE, List.append_assoc]) (by simp) rfl
  unfold DecodeRREP
  rw [if_neg (by omega)]
  have hkl2 : k.length = 32 := hkl
  simp only [s0, Option.bind_eq_bind, Option.some_bind, DecodeRequestID, DecodeSessionID,
    hv, hw, hk, NewPublicKey, hkl2, hn, s5, binary.Uint32, ne_eq, not_true_eq_false, if_false]
  rw [if_neg (by omega)]
  simp [builtin.slice]

end network_layer

namespace network_layer
open builtin

theorem uint32Minus16_add (n : Nat) : uint32Minus16 (n + 16) = n % 2 ^ 32 := by
  unfold uint32Minus16
  have : ((n + 16 : Nat) : Int) - 16 = (n : Int) := by push_cast; ring
  rw [this]
  omega

theorem DecodeRoutingPacket_rreq (data : List Nat) (h : index data 0 = some RREQ) :
    DecodeRoutingPacket data = (DecodeRREQ data).map (fun r => r.map Packet.rreq) := by
  simp [DecodeRoutingPacket, h]

theorem DecodeRoutingPacket_rrep (data : List Nat) (h : index data 0 = some RREP) :
    DecodeRoutingPacket data = (DecodeRREP data).map (fun r => r.map Packet.rrep) := by
  simp [DecodeRoutingPacket, h, RREP, RREQ]

theorem DecodeRoutingPacket_sess (data : List Nat) (h : index data 0 = some SESS) :
    DecodeRoutingPacket data = (DecodeSESS data).map (fun r => r.map Packet.sess) := by
  simp [DecodeRoutingPacket, h, RREP, RREQ, SESS, RERR]

theorem DecodeRoutingPacket_rerr (data : List Nat) (h : index data 0 = some RERR) :
    DecodeRoutingPacket data = (DecodeRERR data).map (fun r => r.map Packet.rerr) := by
  simp [DecodeRoutingPacket, h, RREP, RREQ, SESS, RERR]

/-- The encoding of an RREP packet with `n + 16` zero bytes of ciphertext, when the size
field `uint32(n)` is zero: a packet with 16 bytes of ciphertext followed by `n` more bytes. -/
theorem DecodeRoutingPacket_size_wraps (n : Nat) (hn : n % 2 ^ 32 = 0) :
    DecodeRoutingPacket (rrepOfPayloadLen n).EncodePacket = some (.ok (rrepOfPayloadLen 0)) := by
  have hE : (rrepOfPayloadLen n).EncodePacket =
      EncodeRREPHeader 0 0 (List.replicate 32 0) ++ List.replicate 12 0 ++
        binary.AppendUint32 [] 0 ++ List.replicate 16 0 ++ List.replicate n 0 := by
    have hr : List.replicate (n + 16) 0 = List.replicate 16 0 ++ List.replicate n 0 := by
      rw [Nat.add_comm, List.replicate_add]
    show binary.AppendUint32 (EncodeRREPHeader 0 0 (List.replicate 32 0) ++ List.replicate 12 0)
      (uint32Minus16 (List.replicate (n + 16) 0).length) ++ List.replicate (n + 16) 0 = _
    rw [List.length_replicate, uint32Minus16_add, hn,
      binary.AppendUint32_eq (EncodeRREPHeader 0 0 (List.replicate 32 0) ++ List.replicate 12 0) 0,
      hr]
    simp only [List.append_assoc]
  have h0 : index (rrepOfPayloadLen n).EncodePacket 0 = some RREP := by
    rw [hE]; exact index_zero_cons _ _
  rw [DecodeRoutingPacket_rrep _ h0, hE,
    DecodeRREP_parts 0 0 0 (List.replicate 32 0) (List.replicate 12 0) (List.replicate 16 0)
      (List.replicate n 0) (by norm_num) (by norm_num) rfl rfl (by norm_num) rfl]
  rfl

/-- C12 (amended): for every routing packet `p` with its fields in range (an RREQ with a
32-byte key and a 256-byte bitmap, an RREP or a SESS with a 12-byte nonce and a ciphertext of
`payload_len + 16` bytes, or an RERR) and `payload_len + 81 < 2 ^ 32`,
`DecodeRoutingPacket(p.EncodePacket())` returns `p` without error, and the encoding has 299,
`65 + payload_len + 16`, `41 + payload_len` and 9 bytes respectively. -/
theorem C12_routing_packet_roundtrip (p : Packet) (hp : p.InRange)
    (hlen : p.payloadLen + 81 < 2 ^ 32) :
    DecodeRoutingPacket p.EncodePacket = some (.ok p) ∧
      p.EncodePacket.length = p.wireLength := by
  cases p with
  | rreq p =>
    obtain ⟨h1, h2, h3, h4⟩ := hp
    have h := DecodeRREQ_EncodePacket p h1 h2 h3 h4
    have h0 : index (Packet.rreq p).EncodePacket 0 = some RREQ := by
      simp [Packet.EncodePacket, RREQPacket.EncodePacket, RequestID.Encode, TTL.Encode,
        binary.AppendUint64, binary.AppendUint16, index]
    refine ⟨?_, h.2⟩
    rw [DecodeRoutingPacket_rreq _ h0]
    show (DecodeRREQ p.EncodePacket).map _ = _
    rw [h.1]; rfl
  | rrep p =>
    obtain ⟨h1, h2, h3, h4, h5⟩ := hp
    have h := DecodeRREP_EncodePacket p h1 h2 h3 h4 h5 hlen
    have h0 : index (Packet.rrep p).EncodePacket 0 = some RREP := by
      simp [Packet.EncodePacket, RREPPacket.EncodePacket, EncodeRREPHeader, RequestID.Encode,
        EncodeSessionID, binary.AppendUint64, binary.AppendUint32, index]
    refine ⟨?_, h.2⟩
    rw [DecodeRoutingPacket_rrep _ h0]
    show (DecodeRREP p.EncodePacket).map _ = _
    rw [h.1]; rfl
  | sess p =>
    obtain ⟨h1, h2, h3⟩ := hp
    have h := DecodeSESS_EncodePacket p h1 h2 h3
      (by simp only [Packet.payloadLen] at hlen; omega)
    have h0 : index (Packet.sess p).EncodePacket 0 = some SESS := by
      simp [Packet.EncodePacket, SESSPacket.EncodePacket,
        EncodeSessionID, binary.AppendUint64, binary.AppendUint32, index]
    refine ⟨?_, h.2⟩
    rw [DecodeRoutingPacket_sess _ h0]
    show (DecodeSESS p.EncodePacket).map _ = _
    rw [h.1]; rfl
  | rerr p =>
    have h := DecodeRERR_EncodePacket p hp
    have h0 : index (Packet.rerr p).EncodePacket 0 = some RERR := by
      simp [Packet.EncodePacket, RERRPacket.EncodePacket,
        EncodeSessionID, binary.AppendUint64, index]
    refine ⟨?_, h.2⟩
    rw [DecodeRoutingPacket_rerr _ h0]
    show (DecodeRERR p.EncodePacket).map _ = _
    rw [h.1]; rfl

/-- C12, witness: the RREP packet with a payload of 3 bytes is in range, and its encoding of
`65 + 3 + 16` bytes decodes to it. -/
theorem C12_routing_packet_roundtrip_witness :
    (rrepOfPayloadLen 3).InRange ∧ (rrepOfPayloadLen 3).payloadLen + 81 < 2 ^ 32 ∧
      DecodeRoutingPacket (rrepOfPayloadLen 3).EncodePacket = some (.ok (rrepOfPayloadLen 3)) ∧
      (rrepOfPayloadLen 3).EncodePacket.length = (rrepOfPayloadLen 3).wireLength :=
  ⟨by simp [rrepOfPayloadLen, Packet.InRange], by simp [rrepOfPayloadLen, Packet.payloadLen],
   C12_routing_packet_roundtrip (rrepOfPayloadLen 3) (by simp [rrepOfPayloadLen, Packet.InRange])
     (by simp [rrepOfPayloadLen, Packet.payloadLen])⟩

/-- C12, counterexample: the RREP packet whose payload has `2 ^ 32` bytes is in range, but
its size field is `uint32(2 ^ 32) = 0`, and decoding its encoding returns a different
packet, the one with an empty payload. -/
theorem C12_fails_for_payload_of_4GiB :
    (rrepOfPayloadLen 4294967296).InRange ∧
      DecodeRoutingPacket (rrepOfPayloadLen 4294967296).EncodePacket =
        some (.ok (rrepOfPayloadLen 0)) ∧
      rrepOfPayloadLen 0 ≠ rrepOfPayloadLen 4294967296 := by
  refine ⟨?_, DecodeRoutingPacket_size_wraps 4294967296 (by norm_num), ?_⟩
  · refine ⟨by norm_num, by norm_num, ?_, ?_, ?_⟩
    · exact List.length_replicate _ _
    · exact List.length_replicate _ _
    · show 16 ≤ (List.replicate (4294967296 + 16) 0).length
      rw [List.length_replicate]; omega
  · intro h
    have h2 : (List.replicate (0 + 16) 0).length = (List.replicate (4294967296 + 16) 0).length := by
      have := congrArg (fun q => match q with
        | Packet.rrep r => r.Cipher.length
        | _ => 0) h
      exact this
    rw [List.length_replicate, List.length_replicate] at h2
    omega

/-- C16 (amended): on every buffer of fewer than `2 ^ 32` bytes, each of `DecodeRREQ`,
`DecodeRREP`, `DecodeSESS`, `DecodeRERR`, `DecodeDataPacket` and `DecodeACKPacket` returns a
packet or an error, whatever the length fields say: no index or slice expression in them
is out of range. -/
theorem C16_decoders_do_not_panic (buf : List Nat) (hlen : buf.length < 2 ^ 32) :
    DecodeRREQ buf ≠ none ∧ DecodeRREP buf ≠ none ∧ DecodeSESS buf ≠ none ∧
      DecodeRERR buf ≠ none ∧ transport_layer.DecodeDataPacket buf ≠ none ∧
      transport_layer.DecodeACKPacket buf ≠ none :=
  ⟨DecodeRREQ_ne_none buf, DecodeRREP_ne_none buf hlen, DecodeSESS_ne_none buf hlen,
   DecodeRERR_ne_none buf, transport_layer.DecodeDataPacket_ne_none buf,
   transport_layer.DecodeACKPacket_ne_none buf⟩

/-- C16, witness: a buffer of 65 bytes that declares an RREP payload of `2 ^ 32 - 1` bytes. -/
theorem C16_decoders_do_not_panic_witness :
    ([2] ++ List.replicate 60 0 ++ [255, 255, 255, 255]).length < 2 ^ 32 ∧
      DecodeRREP ([2] ++ List.replicate 60 0 ++ [255, 255, 255, 255]) ≠ none :=
  ⟨by decide,
   (C16_decoders_do_not_panic ([2] ++ List.replicate 60 0 ++ [255, 255, 255, 255])
     (by decide)).2.1⟩

/-- C16, counterexample: a byte string of `2 ^ 32` bytes that starts like an RREP packet and
declares a payload of `2 ^ 32 - 81` bytes passes the length test of `DecodeRREP`, and the
slice `buf[65 : 65+payloadSize+16]`, whose upper bound wraps to `0`, panics. -/
theorem C16_DecodeRREP_panics_on_4GiB :
    (rrepDeclaringHuge 4294967231).length = 2 ^ 32 ∧ IsBytes (rrepDeclaringHuge 4294967231) ∧
      DecodeRREP (rrepDeclaringHuge 4294967231) = none := by
  refine ⟨?_, ?_, ?_⟩
  · unfold rrepDeclaringHuge
    rw [List.length_append, List.length_replicate]
    rfl
  · intro b hb
    unfold rrepDeclaringHuge at hb
    rw [List.mem_append] at hb
    rcases hb with hb | hb
    · have : ∀ x ∈ [RREP] ++ List.replicate 60 0 ++ [255, 255, 255, 175], x < 256 := by decide
      exact this b hb
    · rw [List.mem_replicate] at hb
      omega
  · exact DecodeRREP_declaring_huge _ (by rw [List.length_replicate]; norm_num)

/-- C18: on the empty byte string, `DecodeRoutingPacket` and `decodeTransportPacket` read
`data[0]` and panic with an index out of range; neither returns an error. -/
theorem C18_empty_input_panics :
    DecodeRoutingPacket [] = none ∧ transport_layer.decodeTransportPacket [] = none :=
  ⟨rfl, rfl⟩

end network_layer

namespace transport_layer

theorem zeroSeqs_count_wraps (n : Nat) (hn : n % 2 ^ 32 = 0) (hpos : 0 < n) :
    DecodeACKPacket (NewACKPacket 7 (zeroSeqs n)).EncodePacket =
        some (.ok (NewACKPacket 7 [])) ∧
      NewACKPacket 7 [] ≠ NewACKPacket 7 (zeroSeqs n) := by
  refine ⟨DecodeACKPacket_count_wraps 7 _ (by decide) ?_, ?_⟩
  · unfold zeroSeqs
    rw [List.length_replicate]
    exact hn
  · intro h
    have h2 := congrArg (fun p => p.MissingSeqIDs.length) h
    simp only [NewACKPacket, zeroSeqs, List.length_replicate, List.length_nil] at h2
    omega

/-- C13 (amended): for every sequence number `s`, byte string `d` and list `ms` of fewer
than `2 ^ 32` sequence numbers, `DecodeDataPacket` returns the packet `(s, d)` from the
encoding of `NewDATAPacket(s, d)`, and `DecodeACKPacket` returns the packet `(s, ms)`, the
missing list in the same order, from the encoding of `NewACKPacket(s, ms)`. -/
theorem C13_transport_packet_roundtrip (s : Nat) (d ms : List Nat) (hs : s < 2 ^ 32)
    (hms : ∀ m ∈ ms, m < 2 ^ 32) (hlen : ms.length < 2 ^ 32) :
    DecodeDataPacket (NewDATAPacket s d).EncodePacket = some (.ok (NewDATAPacket s d)) ∧
      DecodeACKPacket (NewACKPacket s ms).EncodePacket = some (.ok (NewACKPacket s ms)) :=
  ⟨DecodeDataPacket_EncodePacket s d hs, DecodeACKPacket_EncodePacket s ms hs hms hlen⟩

/-- C13, witness: sequence number 7, the data "hi" and the missing list `[5, 3, 6]`. -/
theorem C13_transport_packet_roundtrip_witness :
    DecodeDataPacket (NewDATAPacket 7 [104, 105]).EncodePacket =
        some (.ok (NewDATAPacket 7 [104, 105])) ∧
      DecodeACKPacket (NewACKPacket 7 [5, 3, 6]).EncodePacket =
        some (.ok (NewACKPacket 7 [5, 3, 6])) :=
  C13_transport_packet_roundtrip 7 [104, 105] [5, 3, 6] (by decide) (by decide) (by decide)

/-- C13, counterexample: for the missing list of `2 ^ 32` sequence numbers the count field
is `uint32(2 ^ 32) = 0`, and `DecodeACKPacket` returns the packet with an empty missing
list. -/
theorem C13_fails_for_2pow32_missing :
    DecodeACKPacket (NewACKPacket 7 (zeroSeqs 4294967296)).EncodePacket =
        some (.ok (NewACKPacket 7 [])) ∧
      NewACKPacket 7 [] ≠ NewACKPacket 7 (zeroSeqs 4294967296) :=
  zeroSeqs_count_wraps 4294967296 (by norm_num) (by norm_num)

end transport_layer

namespace sync
open builtin

/-- C11: `UpdateNode(node, v)` sets the entry of `node` to the maximum of its previous value
(0 when absent) and `v`, returns that value, leaves the entry of every other node as it was,
and sets `MaxVersion` to the maximum of the previous `MaxVersion` and the new value; if
`MaxVersion` was at least every entry before the call, it is so afterwards. -/
theorem C11_UpdateNode (d : sync.Digest) (node : NodePublicKey) (v : Nat) :
    (d.UpdateNode node v).1.Nodes.lookup node = some (max ((d.Nodes.lookup node).getD 0) v) ∧
      (d.UpdateNode node v).2 = max ((d.Nodes.lookup node).getD 0) v ∧
      (∀ n, n ≠ node → (d.UpdateNode node v).1.Nodes.lookup n = d.Nodes.lookup n) ∧
      (d.UpdateNode node v).1.MaxVersion =
        max d.MaxVersion (max ((d.Nodes.lookup node).getD 0) v) ∧
      ((∀ n a, d.Nodes.lookup n = some a → a ≤ d.MaxVersion) →
        ∀ n a, (d.UpdateNode node v).1.Nodes.lookup n = some a →
          a ≤ (d.UpdateNode node v).1.MaxVersion) := by
  refine ⟨?_, ?_, ?_, ?_, ?_⟩
  · rw [UpdateNode_lookup, if_pos rfl]; rfl
  · unfold Digest.UpdateNode
    by_cases hmem : node ∈ d.Nodes
    · simp [hmem]
    · have hnone : d.Nodes.lookup node = none := AList.lookup_eq_none.2 hmem
      simp [hmem, hnone]
  · intro n hn
    rw [UpdateNode_lookup, if_neg hn]
  · rw [UpdateNode_MaxVersion, Nat.max_comm]; rfl
  · intro h
    exact UpdateNode_WF d node v h

set_option maxRecDepth 100000

/-- C17: the encoding of the push packet `emptyPush` has 133 bytes and decodes to it; cut
after 69 or after 132 bytes, a prefix that ends inside the signature, it passes the only
length test of `DecodePushPacket`, `DecodeDeltas` reads its four bytes, and the slice
`buf[65+deltaCount : 65+deltaCount+64]` reaches past the end of the buffer: a panic, for
every implementation of `ed25519.Verify`. -/
theorem C17_DecodePushPacket_panics_on_truncated_packet
    (verify : List Nat → List Nat → List Nat → Bool) :
    DecodePushPacket edFixedVerify emptyPush.Encode = some (.ok emptyPush) ∧
      emptyPush.Encode.length = 133 ∧
      DecodePushPacket verify (emptyPush.Encode.take 69) = none ∧
      DecodePushPacket verify (emptyPush.Encode.take 132) = none :=
  ⟨rfl, rfl, rfl, rfl⟩

set_option maxRecDepth 512

end sync

namespace builtin

theorem index_parts (buf pre post : List Nat) (a i : Nat) (hbuf : buf = pre ++ a :: post)
    (h : pre.length = i) : index buf i = some a := by
  subst hbuf h
  unfold index
  rw [List.getElem?_append_right (le_refl _)]
  simp

theorem slice_zero_parts (buf x post : List Nat) (hi : Nat) (hbuf : buf = x ++ post)
    (h : x.length = hi) : slice buf 0 hi = some x :=
  slice_parts buf [] x post 0 hi (by simpa using hbuf) rfl (by omega)

end builtin

namespace sync
open builtin

theorem AppendUint32_encodeUint32 (buf : List Nat) (v : Nat) :
    binary.AppendUint32 buf v = buf ++ encodeUint32 v := rfl

theorem length_encodeUint32 (v : Nat) : (encodeUint32 v).length = 4 := rfl

theorem Uint32_encodeUint32 (v : Nat) (hv : v < 2 ^ 32) (rest : List Nat) :
    binary.Uint32 (encodeUint32 v ++ rest) = some v :=
  binary.Uint32_AppendUint32 v hv rest

/-- The flag byte and the attached secret as `Delta.Encode` and `NewMessage` write them. -/
theorem signedBytes_eq (pk : NodePublicKey) (version : Nat) (value : List Nat)
    (secret : Option (List Nat)) :
    signedBytes pk version value secret =
      pk ++ encodeUint32 version ++ encodeUint32 (value.length % 2 ^ 32) ++ value ++
        secretBytes secret := rfl

/-- The encoding of a delta: the bytes `NewMessage` signs, followed by the signature. -/
theorem Delta_Encode_eq (delta : Delta) (buf : List Nat) :
    delta.Encode buf = buf ++ (signedBytes delta.PublicKey delta.Version delta.Value
      delta.AttachedSecret ++ delta.Signature) := by
  unfold Delta.Encode signedBytes
  cases delta.AttachedSecret <;>
    simp [NodePublicKey.Encode, Version.Encode, AppendUint32_encodeUint32]

theorem length_signedBytes (pk : NodePublicKey) (version : Nat) (value : List Nat)
    (secret : Option (List Nat)) (hpk : pk.length = 32)
    (hsec : ∀ s, secret = some s → s.length = 32) :
    (signedBytes pk version value secret).length =
      41 + value.length + (if secret.isSome then 32 else 0) := by
  rw [signedBytes_eq]
  cases secret with
  | none => simp [length_encodeUint32, hpk, secretBytes]; omega
  | some s => simp [length_encodeUint32, hpk, hsec s rfl, secretBytes]; omega

/-- The function `DecodeDelta` on the encoding of a delta followed by any further bytes. -/
theorem DecodeDelta_parts (verify : List Nat → List Nat → List Nat → Bool)
    (pk : NodePublicKey) (version : Nat) (value : List Nat) (secret : Option (List Nat))
    (sig extra : List Nat) (hpk : pk.length = 32) (hv : version < 2 ^ 32)
    (hval : value.length + 40 < 2 ^ 32) (hsec : ∀ s, secret = some s → s.length = 32)
    (hsig : sig.length = 64)
    (hver : verify pk (signedBytes pk version value secret) sig = true) :
    DecodeDelta verify (signedBytes pk version value secret ++ sig ++ extra) =
      some (.ok (NewDelta pk version value secret sig,
        (signedBytes pk version value secret).length + 64)) := by
  generalize hE : signedBytes pk version value secret ++ sig ++ extra = buf
  replace hE := hE.symm
  have hsl := length_signedBytes pk version value secret hpk hsec
  have hl : buf.length = (signedBytes pk version value secret).length + 64 + extra.length := by
    rw [hE]; simp [hsig]; omega
  have hmod : value.length % 2 ^ 32 = value.length := Nat.mod_eq_of_lt (by omega)
  have hS := signedBytes_eq pk version value secret
  rw [hmod] at hS
  have s0 : sliceFrom buf 0 = some buf := by simp [sliceFrom]
  have s00 : DecodeNodePublicKey buf = some pk :=
    slice_zero_parts _ pk (encodeUint32 version ++ (encodeUint32 value.length ++
      (value ++ (secretBytes secret ++ (sig ++ extra))))) 32
      (by rw [hE, hS]; simp only [List.append_assoc]) hpk
  have s1 : sliceFrom buf 32 = some (encodeUint32 version ++ (encodeUint32 value.length ++
      (value ++ (secretBytes secret ++ (sig ++ extra))))) :=
    sliceFrom_parts _ pk _ _ (by rw [hE, hS]; simp only [List.append_assoc]) hpk
  have s2 : sliceFrom buf 36 = some (encodeUint32 value.length ++
      (value ++ (secretBytes secret ++ (sig ++ extra)))) :=
    sliceFrom_parts _ (pk ++ encodeUint32 version) _ _
      (by rw [hE, hS]; simp only [List.append_assoc]) (by simp [hpk, length_encodeUint32])
  have s3 : slice buf 40 (40 + value.length) = some value :=
    slice_parts _ (pk ++ encodeUint32 version ++ encodeUint32 value.length) _
      (secretBytes secret ++ (sig ++ extra)) _ _
      (by rw [hE, hS]; simp only [List.append_assoc]) (by simp [hpk, length_encodeUint32]) rfl
  have hm2 : (40 + value.length) % 2 ^ 32 = 40 + value.length := Nat.mod_eq_of_lt (by omega)
  unfold DecodeDelta
  rw [if_neg (by rw [hl, hsl]; omega)]
  simp only [s0, s00, s1, s2, Option.bind_eq_bind, Option.some_bind, DecodeVersion,
    Uint32_encodeUint32 _ hv, Uint32_encodeUint32 _ (show value.length < 2 ^ 32 by omega)]
  rw [if_neg (by rw [hl, hsl]; omega), hm2, s3]
  simp only [Option.some_bind]
  cases secret with
  | none =>
    have hsl2 : (signedBytes pk version value none).length = 41 + value.length := by
      rw [hsl]; simp
    have s4 : index buf (40 + value.length) = some 0 :=
      index_parts _ (pk ++ encodeUint32 version ++ encodeUint32 value.length ++ value)
        (sig ++ extra) _ _
        (by rw [hE, hS]; simp only [List.append_assoc, secretBytes, List.cons_append,
          List.nil_append])
        (by simp [hpk, length_encodeUint32]; omega)
    have s5 : slice buf (40 + value.length + 1) (40 + value.length + 1 + 64) = some sig :=
      slice_parts _ (signedBytes pk version value none) _ extra _ _
        (by rw [hE]; simp only [List.append_assoc]) (by rw [hsl2]; omega) (by rw [hsig])
    have s6 : slice buf 0 (40 + value.length + 1) = some (signedBytes pk version value none) :=
      slice_zero_parts _ _ (sig ++ extra) _ (by rw [hE]; simp only [List.append_assoc])
        (by rw [hsl2]; omega)
    simp only [s4, Option.some_bind]
    simp only [show decide ((0 : Nat) = 1) = false from rfl, Bool.false_eq_true, if_false,
      Option.some_bind, s5, s6, hver, Bool.not_true]
    rw [hsl2]
    simp
    omega
  | some sec =>
    have hsec2 : sec.length = 32 := hsec sec rfl
    have hsl2 : (signedBytes pk version value (some sec)).length = 73 + value.length := by
      rw [hsl]; simp; omega
    have s4 : index buf (40 + value.length) = some 1 :=
      index_parts _ (pk ++ encodeUint32 version ++ encodeUint32 value.length ++ value)
        (sec ++ (sig ++ extra)) _ _
        (by rw [hE, hS]; simp only [List.append_assoc, secretBytes, List.cons_append])
        (by simp [hpk, length_encodeUint32]; omega)
    have s4b : slice buf (40 + value.length + 1) (40 + value.length + 1 + 32) = some sec :=
      slice_parts _ (pk ++ encodeUint32 version ++ encodeUint32 value.length ++ value ++ [1])
        _ (sig ++ extra) _ _
        (by rw [hE, hS]; simp only [List.append_assoc, secretBytes, List.cons_append,
          List.nil_append, List.singleton_append])
        (by simp [hpk, length_encodeUint32]; omega) (by rw [hsec2])
    have s5 : slice buf (40 + value.length + 1 + 32) (40 + value.length + 1 + 32 + 64) =
        some sig :=
      slice_parts _ (signedBytes pk version value (some sec)) _ extra _ _
        (by rw [hE]; simp only [List.append_assoc]) (by rw [hsl2]; omega) (by rw [hsig])
    have s6 : slice buf 0 (40 + value.length + 1 + 32) =
        some (signedBytes pk version value (some sec)) :=
      slice_zero_parts _ _ (sig ++ extra) _ (by rw [hE]; simp only [List.append_assoc])
        (by rw [hsl2]; omega)
    simp only [s4, Option.some_bind]
    rw [if_pos (by decide), if_neg (by rw [hl, hsl2]; omega), s4b]
    simp only [Option.map_some', Option.some_bind, s5, s6, hver, Bool.not_true]
    rw [hsl2]
    simp
    omega

end sync

namespace sync
open builtin

theorem foldl_Delta_Encode (ds : Deltas) (buf : List Nat) :
    ds.foldl (fun buf delta => delta.Encode buf) buf =
      buf ++ ds.flatMap (fun delta => delta.Encode []) := by
  induction ds generalizing buf with
  | nil => simp
  | cons d ds ih =>
    rw [List.foldl_cons, ih, Delta_Encode_eq d buf, List.flatMap_cons, Delta_Encode_eq d []]
    simp

theorem Deltas_Encode_eq (ds : Deltas) (buf : List Nat) :
    Deltas.Encode ds buf = buf ++ encodeUint32 (ds.length % 2 ^ 32) ++
      ds.flatMap (fun delta => delta.Encode []) := by
  unfold Deltas.Encode
  rw [foldl_Delta_Encode, AppendUint32_encodeUint32]

theorem length_Delta_Encode (verify : List Nat → List Nat → List Nat → Bool) (d : Delta)
    (h : d.Encodable verify) :
    (d.Encode []).length =
      (signedBytes d.PublicKey d.Version d.Value d.AttachedSecret).length + 64 := by
  rw [Delta_Encode_eq]
  simp [h.2.2.2.2.1]

/-- The loop of `DecodeDeltas` over the encodings of `ds`, from the offset where they
start. -/
theorem decodeDeltasLoop_parts (verify : List Nat → List Nat → List Nat → Bool) (ds : Deltas)
    (hds : ∀ d ∈ ds, d.Encodable verify) :
    ∀ (pre extra : List Nat) (acc : Deltas),
      decodeDeltasLoop verify (pre ++ ds.flatMap (fun delta => delta.Encode []) ++ extra)
        ds.length pre.length acc =
        some (.ok (acc ++ ds, pre.length + (ds.flatMap (fun delta => delta.Encode [])).length)) := by
  induction ds with
  | nil => intro pre extra acc; simp [decodeDeltasLoop]
  | cons d ds ih =>
    intro pre extra acc
    have hd : d.Encodable verify := hds d (by simp)
    obtain ⟨h1, h2, h3, h4, h5, h6⟩ := hd
    have hbuf : pre ++ (d :: ds).flatMap (fun delta => delta.Encode []) ++ extra =
        (pre ++ d.Encode []) ++ ds.flatMap (fun delta => delta.Encode []) ++ extra := by
      simp [List.flatMap_cons]
    have s1 : sliceFrom (pre ++ (d :: ds).flatMap (fun delta => delta.Encode []) ++ extra)
        pre.length = some (signedBytes d.PublicKey d.Version d.Value d.AttachedSecret ++
          d.Signature ++ (ds.flatMap (fun delta => delta.Encode []) ++ extra)) :=
      sliceFrom_parts _ pre _ _ (by simp [List.flatMap_cons, Delta_Encode_eq d []]) rfl
    have hdec := DecodeDelta_parts verify d.PublicKey d.Version d.Value d.AttachedSecret
      d.Signature (ds.flatMap (fun delta => delta.Encode []) ++ extra) h1 h2 h3 h4 h5 h6
    simp only [decodeDeltasLoop, List.length_cons, s1, Option.bind_eq_bind, Option.some_bind,
      hdec]
    rw [hbuf]
    have hlen := length_Delta_Encode verify d (hds d (by simp))
    have hcur : pre.length +
        ((signedBytes d.PublicKey d.Version d.Value d.AttachedSecret).length + 64) =
        (pre ++ d.Encode []).length := by
      rw [List.length_append, hlen]
    rw [hcur, ih (fun x hx => hds x (by simp [hx])) (pre ++ d.Encode []) extra]
    simp [List.flatMap_cons, NewDelta]
    omega

/-- The function `DecodeDeltas` on the encoding of `ds`: the same deltas in the same order,
and the length of the encoding as the number of bytes read. -/
theorem DecodeDeltas_Encode (verify : List Nat → List Nat → List Nat → Bool) (ds : Deltas)
    (hds : ∀ d ∈ ds, d.Encodable verify) (hlen : ds.length < 2 ^ 32) :
    DecodeDeltas verify (Deltas.Encode ds []) =
      some (.ok (ds, (Deltas.Encode ds []).length)) := by
  rw [Deltas_Encode_eq, Nat.mod_eq_of_lt hlen, List.nil_append]
  have h := decodeDeltasLoop_parts verify ds hds (encodeUint32 ds.length) [] []
  rw [List.append_nil] at h
  unfold DecodeDeltas
  rw [if_neg (by simp [length_encodeUint32])]
  simp only [Uint32_encodeUint32 _ hlen, Option.bind_eq_bind, Option.some_bind]
  rw [length_encodeUint32] at h
  rw [h]
  simp [length_encodeUint32]

end sync

namespace sync
open builtin

theorem slice_length_le (buf x : List Nat) (lo hi : Nat) (h : slice buf lo hi = some x) :
    x.length ≤ hi := by
  unfold builtin.slice at h
  split at h
  · have := (Option.some.inj h).symm
    subst this
    rw [List.length_drop, List.length_take]
    omega
  · exact absurd h (by simp)

/-- A value that `DecodeDelta` returns is shorter than `2 ^ 32` bytes. -/
theorem DecodeDelta_value_length (verify : List Nat → List Nat → List Nat → Bool)
    (buf : List Nat) (delta : Delta) (n : Nat)
    (h : DecodeDelta verify buf = some (.ok (delta, n))) : delta.Value.length < 2 ^ 32 := by
  unfold DecodeDelta at h
  split at h
  · simp at h
  · simp only [Option.bind_eq_bind, Option.bind_eq_some] at h
    obtain ⟨pk, _, ver, _, len, _, h⟩ := h
    split at h
    · simp at h
    · simp only [Option.bind_eq_some] at h
      obtain ⟨value, hvalue, flag, _, h⟩ := h
      have hvl := slice_length_le _ _ _ _ hvalue
      have hlt : (40 + len) % 2 ^ 32 < 2 ^ 32 := Nat.mod_lt _ (by norm_num)
      have key : ∀ (secret : Option (List Nat)) (off : Nat),
          ((slice buf off (off + 64)).bind fun signature =>
            (slice buf 0 off).bind fun signed =>
              if (!verify pk signed signature) = true then
                some (Except.error "invalid signature for delta")
              else some (Except.ok (NewDelta pk ver value secret signature, off + 64))) =
            some (.ok (delta, n)) → delta.Value = value := by
        intro secret off hk
        simp only [Option.bind_eq_some] at hk
        obtain ⟨sig, _, signed, _, hk⟩ := hk
        split at hk
        · simp at hk
        · simp only [Option.some.injEq, Except.ok.injEq, Prod.mk.injEq] at hk
          rw [← hk.1]; rfl
      have hv : delta.Value = value := by
        split at h
        · split at h
          · simp at h
          · cases hs : slice buf (40 + len + 1) (40 + len + 1 + 32) with
            | none => rw [hs] at h; simp at h
            | some sec =>
              rw [hs] at h
              exact key _ _ h
        · exact key _ _ h
      rw [hv]
      omega

theorem decodeDeltasLoop_value_length (verify : List Nat → List Nat → List Nat → Bool)
    (buf : List Nat) :
    ∀ (n current : Nat) (acc ds : Deltas) (r : Nat),
      (∀ d ∈ acc, d.Value.length < 2 ^ 32) →
      decodeDeltasLoop verify buf n current acc = some (.ok (ds, r)) →
      ∀ d ∈ ds, d.Value.length < 2 ^ 32 := by
  intro n
  induction n with
  | zero =>
    intro current acc ds r hacc h
    simp only [decodeDeltasLoop, Option.some.injEq, Except.ok.injEq, Prod.mk.injEq] at h
    rw [← h.1]; exact hacc
  | succ n ih =>
    intro current acc ds r hacc h
    simp only [decodeDeltasLoop, Option.bind_eq_bind, Option.bind_eq_some] at h
    obtain ⟨rest, _, res, hres, h⟩ := h
    cases res with
    | error e => simp at h
    | ok p =>
      obtain ⟨delta, readCount⟩ := p
      refine ih _ _ _ _ ?_ h
      intro d hd
      rcases List.mem_append.1 hd with hd | hd
      · exact hacc d hd
      · rw [List.mem_singleton.1 hd]
        exact DecodeDelta_value_length verify _ _ _ hres

/-- Every value that `DecodeDeltas` returns is shorter than `2 ^ 32` bytes. -/
theorem DecodeDeltas_value_length (verify : List Nat → List Nat → List Nat → Bool)
    (buf : List Nat) (ds : Deltas) (r : Nat)
    (h : DecodeDeltas verify buf = some (.ok (ds, r))) : ∀ d ∈ ds, d.Value.length < 2 ^ 32 := by
  unfold DecodeDeltas at h
  split at h
  · simp at h
  · simp only [Option.bind_eq_bind, Option.bind_eq_some] at h
    obtain ⟨c, _, h⟩ := h
    exact decodeDeltasLoop_value_length verify buf c 4 [] ds r (by simp) h

end sync

namespace sync
open builtin

theorem length_pad (n : Nat) (l : List Nat) : (pad n l).length = n := by
  simp [pad]

theorem edFixed_Sound : edFixed.Sound edFixedVerify where
  publicKey_length := fun sk => length_pad 32 sk
  sign_length := fun sk m => by
    show (pad 32 sk ++ pad 32 m).length = 64
    rw [List.length_append, length_pad, length_pad]
  verify_sign := fun sk m => by
    show decide (pad 32 sk ++ pad 32 m = pad 32 sk ++ pad 32 m) = true
    exact decide_eq_true rfl

theorem AllPublished_NewModel (ed : Ed25519) (privateKey : List Nat) (t : ModelType) :
    (NewModel ed privateKey t).AllPublished ed := by
  intro pk v msg h
  rw [NewModel_entry] at h
  exact absurd h (by simp)

/-- The method `NewMessage` keeps `AllPublished` when the model holds the key pair and the
secret is absent or has 32 bytes. -/
theorem AllPublished_NewMessage (ed : Ed25519) (s : Model) (value : List Nat)
    (secret : Option (List Nat)) (hkey : s.PublicKey = ed.publicKey s.PrivateKey)
    (hsec : ∀ x, secret = some x → x.length = 32) (h : s.AllPublished ed) :
    (s.NewMessage ed value secret).1.AllPublished ed := by
  intro pk v msg hm
  rw [NewMessage_entry] at hm
  by_cases hc : pk = s.PublicKey ∧ v = (s.NewMessage ed value secret).2
  · rw [if_pos hc] at hm
    obtain ⟨rfl, rfl⟩ := hc
    have hmsg := (Option.some.inj hm).symm
    subst hmsg
    refine ⟨⟨s.PrivateKey, hkey.symm, rfl⟩, ?_, hsec⟩
    rw [NewMessage_version]
    exact Nat.mod_lt _ (by norm_num)
  · rw [if_neg hc] at hm
    exact h pk v msg hm

/-- A delta of a model whose messages were all published by `NewMessage` is one that
`DecodeDelta` reads back, provided its value is short enough for the `uint32` length field. -/
theorem Encodable_of_mem_Delta (ed : Ed25519) (verify : List Nat → List Nat → List Nat → Bool)
    (hed : ed.Sound verify) (s : Model) (digest : sync.Digest) (hpub : s.AllPublished ed)
    (delta : Delta) (hmem : delta ∈ (s.Delta digest).2)
    (hval : delta.Value.length + 40 < 2 ^ 32) : delta.Encodable verify := by
  obtain ⟨he, _, _⟩ := (mem_Delta s digest delta).1 hmem
  obtain ⟨⟨sk, hpk, hsig⟩, hv, hsec⟩ := hpub _ _ _ he
  have hsig2 : delta.Signature = ed.sign sk
      (signedBytes delta.PublicKey delta.Version delta.Value delta.AttachedSecret) := hsig
  refine ⟨?_, hv, hval, hsec, ?_, ?_⟩
  · rw [← hpk]; exact hed.publicKey_length sk
  · rw [hsig2]; exact hed.sign_length _ _
  · rw [hsig2, ← hpk]; exact hed.verify_sign _ _

/-- The model that published one value of `n` bytes offers, to a peer with an empty digest,
a delta with that value. -/
theorem modelBigValue_Delta (n : Nat) :
    ∃ delta ∈ ((modelBigValue n).Delta NewDigest).2, delta.Value = List.replicate n 0 := by
  let s0 := NewModel edFixed [1] ModelType.link
  let sig := edFixed.sign s0.PrivateKey
    (signedBytes s0.PublicKey (s0.NewMessage edFixed (List.replicate n 0) none).2
      (List.replicate n 0) none)
  refine ⟨NewDelta s0.PublicKey (s0.NewMessage edFixed (List.replicate n 0) none).2
    (List.replicate n 0) none sig, ?_, rfl⟩
  rw [mem_Delta]
  refine ⟨?_, ?_, Or.inl ?_⟩
  · show (s0.NewMessage edFixed (List.replicate n 0) none).1.entry _ _ = _
    rw [NewMessage_entry, if_pos ⟨rfl, rfl⟩]
    rfl
  · show _ ∈ (s0.NewMessage edFixed (List.replicate n 0) none).1.ownDigest.Nodes
    rw [NewMessage_ownDigest, ← AList.lookup_isSome, IncrementNode_lookup]
    simp [NewDelta]
  · simp [NewDigest]

end sync

namespace sync
open builtin

/-- C14 (amended): for every model whose stored messages were all published by `NewMessage`
(signed by their author, the attached secret absent or of 32 bytes) and every digest, if the
deltas `Delta` returns are fewer than `2 ^ 32` and each value is shorter than `2 ^ 32 - 40`
bytes, then `DecodeDeltas(deltas.Encode(nil))` returns the same deltas in the same order and
the full length of the buffer as the number of bytes read; the encoding of each delta is
the byte string `NewMessage` signed followed by the signature, and `verify` accepts it. -/
theorem C14_deltas_roundtrip (ed : Ed25519) (verify : List Nat → List Nat → List Nat → Bool)
    (hed : ed.Sound verify) (s : Model) (digest : sync.Digest) (hpub : s.AllPublished ed)
    (hval : ∀ delta ∈ (s.Delta digest).2, delta.Value.length + 40 < 2 ^ 32)
    (hcount : (s.Delta digest).2.length < 2 ^ 32) :
    DecodeDeltas verify (Deltas.Encode (s.Delta digest).2 []) =
        some (.ok ((s.Delta digest).2, (Deltas.Encode (s.Delta digest).2 []).length)) ∧
      ∀ delta ∈ (s.Delta digest).2,
        delta.Encode [] = signedBytes delta.PublicKey delta.Version delta.Value
          delta.AttachedSecret ++ delta.Signature ∧
        verify delta.PublicKey (signedBytes delta.PublicKey delta.Version delta.Value
          delta.AttachedSecret) delta.Signature = true := by
  have henc : ∀ delta ∈ (s.Delta digest).2, delta.Encodable verify := fun delta hmem =>
    Encodable_of_mem_Delta ed verify hed s digest hpub delta hmem (hval delta hmem)
  refine ⟨DecodeDeltas_Encode verify _ henc hcount, ?_⟩
  intro delta hmem
  refine ⟨?_, (henc delta hmem).2.2.2.2.2⟩
  rw [Delta_Encode_eq, List.nil_append]

theorem modelInvitation_AllPublished : modelInvitation.AllPublished edFixed := by
  unfold modelInvitation
  apply AllPublished_NewMessage
  · rfl
  · intro x hx; exact absurd hx (by simp)
  · apply AllPublished_NewMessage
    · rfl
    · intro x hx
      rw [← Option.some.inj hx]
      rfl
    · exact AllPublished_NewModel _ _ _

/-- C14, witness: the model that published "invitation" with a 32-byte secret and "hello"
without one, and the empty digest of a new peer. -/
theorem C14_deltas_roundtrip_witness :
    (modelInvitation.Delta NewDigest).2.length = 2 ∧
      DecodeDeltas edFixedVerify (Deltas.Encode (modelInvitation.Delta NewDigest).2 []) =
        some (.ok ((modelInvitation.Delta NewDigest).2,
          (Deltas.Encode (modelInvitation.Delta NewDigest).2 []).length)) :=
  ⟨by decide,
   (C14_deltas_roundtrip edFixed edFixedVerify edFixed_Sound modelInvitation NewDigest
     modelInvitation_AllPublished (by decide) (by decide)).1⟩

theorem modelBigValue_AllPublished (n : Nat) : (modelBigValue n).AllPublished edFixed := by
  unfold modelBigValue
  apply AllPublished_NewMessage
  · rfl
  · intro x hx; exact absurd hx (by simp)
  · exact AllPublished_NewModel _ _ _

theorem modelBigValue_not_decoded (n : Nat) (hn : 2 ^ 32 ≤ n) (r : Nat) :
    DecodeDeltas edFixedVerify (Deltas.Encode ((modelBigValue n).Delta NewDigest).2 []) ≠
      some (.ok (((modelBigValue n).Delta NewDigest).2, r)) := by
  intro h
  obtain ⟨delta, hmem, hv⟩ := modelBigValue_Delta n
  have := DecodeDeltas_value_length _ _ _ _ h delta hmem
  rw [hv, List.length_replicate] at this
  omega

/-- C14, counterexample: the model that published, with `NewMessage` and no secret, one value
of `2 ^ 32` bytes holds only messages published by `NewMessage`, and `DecodeDeltas` does not
return the deltas it offers to a new peer from their encoding, whatever the number of bytes
read: the `uint32` length field of the value is `0`. -/
theorem C14_fails_for_value_of_4GiB :
    (modelBigValue 4294967296).AllPublished edFixed ∧
      ∀ r, DecodeDeltas edFixedVerify
          (Deltas.Encode ((modelBigValue 4294967296).Delta NewDigest).2 []) ≠
        some (.ok (((modelBigValue 4294967296).Delta NewDigest).2, r)) :=
  ⟨modelBigValue_AllPublished 4294967296,
   fun r => modelBigValue_not_decoded 4294967296 (by norm_num) r⟩

end sync

namespace sync
open builtin

/-! ### The digest inside a pull packet -/

theorem length_encodeEntry (e : Sigma fun _ : NodePublicKey => Nat) (h : e.1.length = 32) :
    (encodeEntry e).length = 36 := by
  simp [encodeEntry, length_encodeUint32, h]

theorem foldl_encodeEntry (sender : NodePublicKey)
    (l : List (Sigma fun _ : NodePublicKey => Nat)) (buf : List Nat) :
    l.foldl (fun buf e => if e.1 = sender then buf
        else Version.Encode e.2 (NodePublicKey.Encode e.1 buf)) buf =
      buf ++ (l.filter (fun e => !decide (e.1 = sender))).flatMap encodeEntry := by
  induction l generalizing buf with
  | nil => simp
  | cons e l ih =>
    rw [List.foldl_cons, ih]
    by_cases h : e.1 = sender
    · simp [h]
    · simp [h, List.flatMap_cons, encodeEntry, Version.Encode, NodePublicKey.Encode,
        AppendUint32_encodeUint32]

theorem filter_ne_of_not_mem (sender : NodePublicKey)
    (l : List (Sigma fun _ : NodePublicKey => Nat)) (h : sender ∉ l.keys) :
    l.filter (fun e => !decide (e.1 = sender)) = l := by
  rw [List.filter_eq_self]
  intro e he
  have : e.1 ≠ sender := fun hs => h (hs ▸ List.mem_keys_of_mem he)
  simp [this]

theorem length_filter_ne (sender : NodePublicKey)
    (l : List (Sigma fun _ : NodePublicKey => Nat)) (hnd : l.NodupKeys)
    (h : sender ∈ l.keys) :
    (l.filter (fun e => !decide (e.1 = sender))).length + 1 = l.length := by
  induction l with
  | nil => simp at h
  | cons e l ih =>
    rw [List.nodupKeys_cons] at hnd
    by_cases he : e.1 = sender
    · have hnot : sender ∉ l.keys := he ▸ hnd.1
      rw [List.filter_cons_of_neg (by simp [he]), filter_ne_of_not_mem sender l hnot]
      rfl
    · have hin : sender ∈ l.keys := by
        rw [List.keys_cons, List.mem_cons] at h
        rcases h with h | h
        · exact absurd h.symm he
        · exact h
      rw [List.filter_cons_of_pos (by simp [he]), List.length_cons, ih hnd.2 hin,
        List.length_cons]

/-- The count `EncodeWithoutSender` writes is the number of entries it writes. -/
theorem length_otherEntries (d : sync.Digest) (sender : NodePublicKey) :
    (if sender ∈ d.Nodes then d.Nodes.entries.length - 1 else d.Nodes.entries.length) =
      (d.otherEntries sender).length := by
  unfold Digest.otherEntries
  by_cases h : sender ∈ d.Nodes
  · rw [if_pos h]
    have := length_filter_ne sender d.Nodes.entries d.Nodes.nodupKeys (AList.mem_keys.1 h)
    omega
  · rw [if_neg h, filter_ne_of_not_mem sender d.Nodes.entries (fun hk => h (AList.mem_keys.2 hk))]

theorem EncodeWithoutSender_eq (d : sync.Digest) (buf : List Nat) (sender : NodePublicKey) :
    d.EncodeWithoutSender buf sender =
      buf ++ encodeUint32 ((d.otherEntries sender).length % 2 ^ 32) ++
        (d.otherEntries sender).flatMap encodeEntry := by
  unfold Digest.EncodeWithoutSender
  simp only [foldl_encodeEntry, length_otherEntries, AppendUint32_encodeUint32]
  rfl

theorem dlookup_filter_ne (sender k : NodePublicKey)
    (l : List (Sigma fun _ : NodePublicKey => Nat)) :
    List.dlookup k (l.filter (fun e => !decide (e.1 = sender))) =
      if k = sender then none else List.dlookup k l := by
  induction l with
  | nil => simp
  | cons e l ih =>
    obtain ⟨a, v⟩ := e
    by_cases he : a = sender
    · rw [List.filter_cons_of_neg (by simp [he]), ih]
      by_cases hk : k = sender
      · rw [if_pos hk, if_pos hk]
      · rw [if_neg hk, if_neg hk, List.dlookup_cons_ne _ _ (fun h => hk (h.trans he))]
    · rw [List.filter_cons_of_pos (by simp [he])]
      by_cases hka : a = k
      · subst hka
        rw [List.dlookup_cons_eq, List.dlookup_cons_eq, if_neg he]
      · rw [List.dlookup_cons_ne _ _ (fun h => hka h.symm),
          List.dlookup_cons_ne _ _ (fun h => hka h.symm), ih]

/-- A map filled from a list with pairwise different keys holds the entries of the list. -/
theorem lookup_foldl_insert (l : List (Sigma fun _ : NodePublicKey => Nat))
    (hnd : l.NodupKeys) (k : NodePublicKey) :
    ∀ acc : DigestNodes,
      (l.foldl (fun (acc : DigestNodes) e => acc.insert e.1 e.2) acc).lookup k =
        (List.dlookup k l).orElse (fun _ => acc.lookup k) := by
  induction l with
  | nil => intro acc; simp
  | cons e l ih =>
    intro acc
    obtain ⟨a, v⟩ := e
    rw [List.nodupKeys_cons] at hnd
    rw [List.foldl_cons, ih hnd.2]
    by_cases hka : a = k
    · subst hka
      have hnone : List.dlookup a l = none := List.dlookup_eq_none.2 hnd.1
      rw [hnone, List.dlookup_cons_eq]
      simp
    · rw [List.dlookup_cons_ne _ _ (fun h => hka h.symm), AList.lookup_insert_ne (fun h => hka h.symm)]

theorem foldl_max_le (l : List (Sigma fun _ : NodePublicKey => Nat)) (B : Nat)
    (h : ∀ e ∈ l, e.2 ≤ B) : ∀ m, m ≤ B → l.foldl (fun m e => max m e.2) m ≤ B := by
  induction l with
  | nil => intro m hm; exact hm
  | cons e l ih =>
    intro m hm
    rw [List.foldl_cons]
    exact ih (fun x hx => h x (by simp [hx])) _ (Nat.max_le.2 ⟨hm, h e (by simp)⟩)

theorem le_foldl_max (l : List (Sigma fun _ : NodePublicKey => Nat)) :
    ∀ m, m ≤ l.foldl (fun m e => max m e.2) m ∧
      ∀ e ∈ l, e.2 ≤ l.foldl (fun m e => max m e.2) m := by
  induction l with
  | nil => intro m; simp
  | cons e l ih =>
    intro m
    rw [List.foldl_cons]
    obtain ⟨h1, h2⟩ := ih (max m e.2)
    refine ⟨le_trans (Nat.le_max_left _ _) h1, ?_⟩
    intro x hx
    rcases List.mem_cons.1 hx with hx | hx
    · rw [hx]; exact le_trans (Nat.le_max_right _ _) h1
    · exact h2 x hx

/-- The loop of `DecodeDigest` over the encodings of the entries `es`, from the offset where
they start. -/
theorem decodeDigestLoop_parts (es : List (Sigma fun _ : NodePublicKey => Nat))
    (hes : ∀ e ∈ es, e.1.length = 32 ∧ e.2 < 2 ^ 32) :
    ∀ (pre extra : List Nat) (nodes : DigestNodes) (mv : Nat),
      decodeDigestLoop (pre ++ es.flatMap encodeEntry ++ extra) pre.length es.length nodes mv =
        some (es.foldl (fun (acc : DigestNodes) e => acc.insert e.1 e.2) nodes,
              es.foldl (fun m e => max m e.2) mv) := by
  induction es with
  | nil => intro pre extra nodes mv; rfl
  | cons e es ih =>
    intro pre extra nodes mv
    obtain ⟨hk, hv⟩ := hes e (by simp)
    have hbuf : pre ++ (e :: es).flatMap encodeEntry ++ extra =
        (pre ++ encodeEntry e) ++ es.flatMap encodeEntry ++ extra := by
      simp [List.flatMap_cons]
    have s1 : sliceFrom (pre ++ (e :: es).flatMap encodeEntry ++ extra) pre.length =
        some (e.1 ++ (encodeUint32 e.2 ++ (es.flatMap encodeEntry ++ extra))) :=
      sliceFrom_parts _ pre _ _ (by simp [List.flatMap_cons, encodeEntry]) rfl
    have s2 : sliceFrom (pre ++ (e :: es).flatMap encodeEntry ++ extra) (pre.length + 32) =
        some (encodeUint32 e.2 ++ (es.flatMap encodeEntry ++ extra)) :=
      sliceFrom_parts _ (pre ++ e.1) _ _ (by simp [List.flatMap_cons, encodeEntry])
        (by simp [hk])
    have s3 : DecodeNodePublicKey (e.1 ++ (encodeUint32 e.2 ++
        (es.flatMap encodeEntry ++ extra))) = some e.1 :=
      slice_zero_parts _ e.1 _ 32 rfl hk
    simp only [decodeDigestLoop, List.length_cons, s1, s2, s3, Option.bind_eq_bind,
      Option.some_bind, DecodeVersion, Uint32_encodeUint32 _ hv]
    have hcur : pre.length + 36 = (pre ++ encodeEntry e).length := by
      rw [List.length_append, length_encodeEntry e hk]
    rw [hbuf, hcur, ih (fun x hx => hes x (by simp [hx]))]
    rfl

theorem length_flatMap_encodeEntry (es : List (Sigma fun _ : NodePublicKey => Nat))
    (hes : ∀ e ∈ es, e.1.length = 32 ∧ e.2 < 2 ^ 32) :
    (es.flatMap encodeEntry).length = es.length * 36 := by
  induction es with
  | nil => rfl
  | cons e es ih =>
    rw [List.flatMap_cons, List.length_append, length_encodeEntry e (hes e (by simp)).1,
      ih (fun x hx => hes x (by simp [hx])), List.length_cons]
    omega

/-- The function `DecodeDigest` on the encoding of the entries `es` followed by any further
bytes. -/
theorem DecodeDigest_parts (es : List (Sigma fun _ : NodePublicKey => Nat)) (extra : List Nat)
    (hes : ∀ e ∈ es, e.1.length = 32 ∧ e.2 < 2 ^ 32) (hlen : es.length < 2 ^ 32) :
    DecodeDigest (encodeUint32 es.length ++ es.flatMap encodeEntry ++ extra) =
      some (.ok ({ Nodes := es.foldl (fun (acc : DigestNodes) e => acc.insert e.1 e.2) ∅,
                   MaxVersion := es.foldl (fun m e => max m e.2) 0 },
                 4 + es.length * 36)) := by
  have hl : (encodeUint32 es.length ++ es.flatMap encodeEntry ++ extra).length =
      4 + es.length * 36 + extra.length := by
    simp [length_encodeUint32, length_flatMap_encodeEntry es hes]
    omega
  unfold DecodeDigest
  rw [if_neg (by rw [hl]; omega)]
  have hu : binary.Uint32 (encodeUint32 es.length ++ es.flatMap encodeEntry ++ extra) =
      some es.length := by
    rw [List.append_assoc]; exact Uint32_encodeUint32 _ hlen _
  simp only [hu, Option.bind_eq_bind, Option.some_bind]
  rw [if_neg (by rw [hl]; omega)]
  have h := decodeDigestLoop_parts es hes (encodeUint32 es.length) extra ∅ 0
  rw [length_encodeUint32] at h
  rw [h]
  rfl

end sync

namespace sync
open builtin

theorem pullPacketHeader_eq (pk : NodePublicKey) (sv : Nat) (d : sync.Digest) :
    pullPacketHeader pk sv d = [SYNC_PULL] ++ pk ++ encodeUint32 sv ++
      encodeUint32 ((d.otherEntries pk).length % 2 ^ 32) ++
      (d.otherEntries pk).flatMap encodeEntry := by
  unfold pullPacketHeader
  simp only [EncodeWithoutSender_eq, Version.Encode, NodePublicKey.Encode,
    AppendUint32_encodeUint32]

/-- The function `DecodePullPacket` on the encoding of a pull packet: the sender's key and
version, the signature, and the digest rebuilt from the entries written, with the sender's
entry put back by `UpdateNode`. -/
theorem DecodePullPacket_Encode (verify : List Nat → List Nat → List Nat → Bool)
    (pk : NodePublicKey) (sv : Nat) (d : sync.Digest) (sig : List Nat) (hpk : pk.length = 32)
    (hsv : sv < 2 ^ 32)
    (hes : ∀ e ∈ d.otherEntries pk, e.1.length = 32 ∧ e.2 < 2 ^ 32)
    (hcount : (d.otherEntries pk).length < 2 ^ 32) (hsig : sig.length = 64)
    (hver : verify pk (pullPacketHeader pk sv d) sig = true) :
    DecodePullPacket verify (PullPacket.Encode ⟨pk, sv, d, sig⟩) =
      some (.ok ⟨pk, sv,
        (Digest.UpdateNode
          ⟨(d.otherEntries pk).foldl (fun (acc : DigestNodes) e => acc.insert e.1 e.2) ∅,
           (d.otherEntries pk).foldl (fun m e => max m e.2) 0⟩ pk sv).1, sig⟩) := by
  have hH := pullPacketHeader_eq pk sv d
  rw [Nat.mod_eq_of_lt hcount] at hH
  generalize hes' : d.otherEntries pk = es at hH hes hcount
  have hbody := length_flatMap_encodeEntry es hes
  have hE : PullPacket.Encode ⟨pk, sv, d, sig⟩ = [SYNC_PULL] ++ pk ++ encodeUint32 sv ++
      encodeUint32 es.length ++ es.flatMap encodeEntry ++ sig := by
    show Signature.Encode sig (pullPacketHeader pk sv d) = _
    rw [hH]; rfl
  generalize PullPacket.Encode ⟨pk, sv, d, sig⟩ = buf at hE
  have hl : buf.length = 37 + (4 + es.length * 36) + 64 := by
    rw [hE]; simp [hpk, length_encodeUint32, hbody, hsig]; omega
  have hHl : (pullPacketHeader pk sv d).length = 37 + (4 + es.length * 36) := by
    rw [hH]; simp [hpk, length_encodeUint32, hbody]; omega
  have s0 : index buf 0 = some SYNC_PULL := by rw [hE]; exact index_zero_cons _ _
  have s1 : slice buf 1 33 = some pk :=
    slice_parts _ [SYNC_PULL] _ (encodeUint32 sv ++ (encodeUint32 es.length ++
      (es.flatMap encodeEntry ++ sig))) _ _ (by rw [hE]; simp only [List.append_assoc]) rfl
      (by rw [hpk])
  have s1b : DecodeNodePublicKey pk = some pk :=
    slice_zero_parts _ pk [] 32 (by simp) hpk
  have s2 : slice buf 33 37 = some (encodeUint32 sv ++ []) :=
    slice_parts _ ([SYNC_PULL] ++ pk) _ (encodeUint32 es.length ++
      (es.flatMap encodeEntry ++ sig)) _ _
      (by rw [hE]; simp only [List.append_assoc, List.append_nil]) (by simp [hpk]) rfl
  have s3 : sliceFrom buf 37 = some (encodeUint32 es.length ++ es.flatMap encodeEntry ++ sig) :=
    sliceFrom_parts _ ([SYNC_PULL] ++ pk ++ encodeUint32 sv) _ _
      (by rw [hE]; simp only [List.append_assoc]) (by simp [hpk, length_encodeUint32])
  have s4 : slice buf (37 + (4 + es.length * 36)) (37 + (4 + es.length * 36) + 64) = some sig :=
    slice_parts _ (pullPacketHeader pk sv d) _ [] _ _
      (by rw [hE, hH]; simp only [List.append_assoc, List.append_nil]) hHl (by rw [hsig])
  have s5 : slice buf 0 (37 + (4 + es.length * 36)) = some (pullPacketHeader pk sv d) :=
    slice_zero_parts _ _ sig _ (by rw [hE, hH]) hHl
  unfold DecodePullPacket
  rw [if_neg (by rw [hl]; omega)]
  simp only [s0, s1, s1b, s2, s3, Option.bind_eq_bind, Option.some_bind, DecodeVersion,
    Uint32_encodeUint32 _ hsv, DecodeDigest_parts es sig hes hcount]
  rw [if_neg (by decide), if_neg (by rw [hl]; omega)]
  simp only [s4, s5, Option.some_bind, hver, Bool.not_true]
  rfl

/-- The digest `DecodePullPacket` rebuilds records what the digest sent records, when the
sender is in the digest sent with the version `sv`. -/
theorem rebuilt_lookup (pk : NodePublicKey) (sv : Nat) (d : sync.Digest)
    (hown : d.Nodes.lookup pk = some sv) (k : NodePublicKey) :
    (Digest.UpdateNode
      ⟨(d.otherEntries pk).foldl (fun (acc : DigestNodes) e => acc.insert e.1 e.2) ∅,
       (d.otherEntries pk).foldl (fun m e => max m e.2) 0⟩ pk sv).1.Nodes.lookup k =
      d.Nodes.lookup k := by
  have hnd : (d.otherEntries pk).NodupKeys :=
    d.Nodes.nodupKeys.sublist (List.filter_sublist _)
  rw [UpdateNode_lookup]
  by_cases hk : k = pk
  · subst hk
    rw [if_pos rfl, hown]
    have : (Digest.version ⟨(d.otherEntries k).foldl
        (fun (acc : DigestNodes) e => acc.insert e.1 e.2) ∅,
        (d.otherEntries k).foldl (fun m e => max m e.2) 0⟩ k) = 0 := by
      unfold Digest.version
      rw [lookup_foldl_insert _ hnd, Digest.otherEntries, dlookup_filter_ne, if_pos rfl]
      simp
    rw [this, Nat.zero_max]
  · rw [if_neg hk, lookup_foldl_insert _ hnd, Digest.otherEntries, dlookup_filter_ne,
      if_neg hk]
    show (List.dlookup k d.Nodes.entries).orElse _ = List.dlookup k d.Nodes.entries
    cases List.dlookup k d.Nodes.entries <;> simp

theorem mem_otherEntries (pk : NodePublicKey) (d : sync.Digest)
    (e : Sigma fun _ : NodePublicKey => Nat) :
    e ∈ d.otherEntries pk ↔ d.Nodes.lookup e.1 = some e.2 ∧ e.1 ≠ pk := by
  unfold Digest.otherEntries
  rw [List.mem_filter]
  have h1 : e ∈ d.Nodes.entries ↔ d.Nodes.lookup e.1 = some e.2 := by
    obtain ⟨a, v⟩ := e
    exact (AList.mem_lookup_iff).symm
  rw [h1]
  simp

/-- The digest `DecodePullPacket` rebuilds has the `MaxVersion` of the digest sent, when
that is the maximum of the versions recorded. -/
theorem rebuilt_MaxVersion (pk : NodePublicKey) (sv : Nat) (d : sync.Digest)
    (hown : d.Nodes.lookup pk = some sv) (ht : d.Tight) :
    (Digest.UpdateNode
      ⟨(d.otherEntries pk).foldl (fun (acc : DigestNodes) e => acc.insert e.1 e.2) ∅,
       (d.otherEntries pk).foldl (fun m e => max m e.2) 0⟩ pk sv).1.MaxVersion =
      d.MaxVersion := by
  have hnd : (d.otherEntries pk).NodupKeys :=
    d.Nodes.nodupKeys.sublist (List.filter_sublist _)
  rw [UpdateNode_MaxVersion]
  have hv0 : (Digest.version ⟨(d.otherEntries pk).foldl
      (fun (acc : DigestNodes) e => acc.insert e.1 e.2) ∅,
      (d.otherEntries pk).foldl (fun m e => max m e.2) 0⟩ pk) = 0 := by
    unfold Digest.version
    rw [lookup_foldl_insert _ hnd, Digest.otherEntries, dlookup_filter_ne, if_pos rfl]
    simp
  rw [hv0, Nat.zero_max]
  show max sv ((d.otherEntries pk).foldl (fun m e => max m e.2) 0) = d.MaxVersion
  obtain ⟨hwf, n, hn⟩ := ht
  have hle : (d.otherEntries pk).foldl (fun m e => max m e.2) 0 ≤ d.MaxVersion :=
    foldl_max_le _ _ (fun e he => hwf e.1 e.2 ((mem_otherEntries pk d e).1 he).1) 0
      (Nat.zero_le _)
  have hsv : sv ≤ d.MaxVersion := hwf pk sv hown
  apply le_antisymm (Nat.max_le.2 ⟨hsv, hle⟩)
  by_cases hk : n = pk
  · subst hk
    rw [hown] at hn
    rw [← Option.some.inj hn]
    exact Nat.le_max_left _ _
  · have hmem : (⟨n, d.MaxVersion⟩ : Sigma fun _ : NodePublicKey => Nat) ∈ d.otherEntries pk :=
      (mem_otherEntries pk d _).2 ⟨hn, hk⟩
    exact le_trans ((le_foldl_max (d.otherEntries pk) 0).2 _ hmem) (Nat.le_max_right _ _)

end sync

namespace sync
open builtin

/-! ### The own digest of a reachable model -/

theorem UpdateNode_Tight (d : sync.Digest) (node : NodePublicKey) (v : Nat) (h : d.Tight) :
    (d.UpdateNode node v).1.Tight := by
  obtain ⟨hwf, n, hn⟩ := h
  refine ⟨UpdateNode_WF d node v hwf, ?_⟩
  rw [UpdateNode_MaxVersion]
  by_cases hc : d.MaxVersion ≤ max (d.version node) v
  · refine ⟨node, ?_⟩
    rw [UpdateNode_lookup, if_pos rfl, Nat.max_eq_left hc]
  · have hne : n ≠ node := by
      intro hnn
      subst hnn
      have : d.version n = d.MaxVersion := by simp [Digest.version, hn]
      rw [this] at hc
      exact hc (Nat.le_max_left _ _)
    refine ⟨n, ?_⟩
    rw [UpdateNode_lookup, if_neg hne, hn, Nat.max_eq_right (by omega)]

theorem UpdateNode_InRange (d : sync.Digest) (node : NodePublicKey) (v : Nat) (h : d.InRange)
    (hnode : node.length = 32) (hv : v < 2 ^ 32) : (d.UpdateNode node v).1.InRange := by
  intro n a ha
  rw [UpdateNode_lookup] at ha
  by_cases hn : n = node
  · subst hn
    rw [if_pos rfl] at ha
    refine ⟨hnode, ?_⟩
    rw [← Option.some.inj ha]
    have : d.version n < 2 ^ 32 := by
      unfold Digest.version
      cases hl : d.Nodes.lookup n with
      | none => simp
      | some x => exact (h n x hl).2
    exact Nat.max_lt.2 ⟨this, hv⟩
  · rw [if_neg hn] at ha
    exact h n a ha

theorem UpdateNode_mem (d : sync.Digest) (node : NodePublicKey) (v : Nat) (k : NodePublicKey)
    (h : ∃ a, d.Nodes.lookup k = some a) : ∃ a, (d.UpdateNode node v).1.Nodes.lookup k = some a := by
  rw [UpdateNode_lookup]
  by_cases hk : k = node
  · exact ⟨_, by rw [if_pos hk]⟩
  · rw [if_neg hk]; exact h

theorem absorb_Tight (deltas : Deltas) : ∀ d : sync.Digest, d.Tight → (absorb d deltas).Tight := by
  induction deltas with
  | nil => intro d h; exact h
  | cons delta deltas ih =>
    intro d h
    exact ih _ (UpdateNode_Tight d _ _ h)

theorem absorb_InRange (deltas : Deltas)
    (hd : ∀ delta ∈ deltas, delta.PublicKey.length = 32 ∧ delta.Version < 2 ^ 32) :
    ∀ d : sync.Digest, d.InRange → (absorb d deltas).InRange := by
  induction deltas with
  | nil => intro d h; exact h
  | cons delta deltas ih =>
    intro d h
    exact ih (fun x hx => hd x (by simp [hx])) _
      (UpdateNode_InRange d _ _ h (hd delta (by simp)).1 (hd delta (by simp)).2)

theorem absorb_mem (deltas : Deltas) (k : NodePublicKey) :
    ∀ d : sync.Digest, (∃ a, d.Nodes.lookup k = some a) →
      ∃ a, (absorb d deltas).Nodes.lookup k = some a := by
  induction deltas with
  | nil => intro d h; exact h
  | cons delta deltas ih =>
    intro d h
    exact ih _ (UpdateNode_mem d _ _ k h)

theorem NewMessage_PrivateKey (ed : Ed25519) (s : Model) (value : List Nat)
    (secret : Option (List Nat)) : (s.NewMessage ed value secret).1.PrivateKey = s.PrivateKey := by
  simp only [Model.NewMessage]
  split <;> simp [NewMessage_PrivateKey_Digest]

theorem UpdateDigest_PrivateKey (s : Model) (base node : NodePublicKey) (v : Nat) :
    (s.UpdateDigest base node v).1.PrivateKey = s.PrivateKey := by
  unfold Model.UpdateDigest
  by_cases h : base ∈ s.Digests <;> simp [h]

theorem mergeStep_PrivateKey (sender : NodePublicKey) (acc : Model × Bool) (delta : Delta) :
    (mergeStep sender acc delta).1.PrivateKey = acc.1.PrivateKey := by
  simp only [mergeStep, UpdateDigest_PrivateKey, NewMessage_PrivateKey_Digest]
  by_cases h : delta.PublicKey ∈ acc.1.NodeStates <;> simp [h]

theorem Merge_PrivateKey (s : Model) (sender : NodePublicKey) (deltas : Deltas) :
    (s.Merge sender deltas).1.PrivateKey = s.PrivateKey := by
  induction deltas using List.reverseRecOn with
  | nil => rfl
  | append_singleton deltas delta ih => rw [Merge_append, mergeStep_PrivateKey, ih]

/-- What holds of every reachable model: it holds its key pair, and its own digest records
the own key, has `MaxVersion` equal to the maximum of its versions, and has keys of 32 bytes
and `uint32` versions. -/
theorem Reachable_inv (ed : Ed25519) (verify : List Nat → List Nat → List Nat → Bool)
    (hed : ed.Sound verify) (s : Model) (h : Reachable ed s) :
    s.PublicKey = ed.publicKey s.PrivateKey ∧
      (∃ a, s.ownDigest.Nodes.lookup s.PublicKey = some a) ∧
      s.ownDigest.Tight ∧ s.ownDigest.InRange := by
  induction h with
  | newModel privateKey t =>
    have hl := NewModel_ownDigest_lookup ed privateKey t
    refine ⟨rfl, ⟨0, ?_⟩, ⟨?_, ed.publicKey privateKey, ?_⟩, ?_⟩
    · rw [hl]; exact if_pos rfl
    · intro n v hv
      rw [hl] at hv
      by_cases hn : n = ed.publicKey privateKey
      · rw [if_pos hn] at hv
        rw [← Option.some.inj hv]; exact Nat.zero_le _
      · rw [if_neg hn] at hv
        exact absurd hv (by simp)
    · rw [hl, if_pos rfl, ownDigest_NewModel]
    · intro n v hv
      rw [hl] at hv
      by_cases hn : n = ed.publicKey privateKey
      · rw [if_pos hn] at hv
        rw [← Option.some.inj hv, hn]
        exact ⟨hed.publicKey_length _, by norm_num⟩
      · rw [if_neg hn] at hv
        exact absurd hv (by simp)
  | newMessage s value secret _ hlt ih =>
    obtain ⟨hkey, _, ⟨hwf, _⟩, hrange⟩ := ih
    have hmod : (s.ownDigest.MaxVersion + 1) % 2 ^ 32 = s.ownDigest.MaxVersion + 1 :=
      Nat.mod_eq_of_lt hlt
    refine ⟨?_, ?_, ⟨?_, s.PublicKey, ?_⟩, ?_⟩
    · rw [NewMessage_PublicKey, NewMessage_PrivateKey]; exact hkey
    · rw [NewMessage_PublicKey, NewMessage_ownDigest, IncrementNode_lookup, if_pos rfl]
      exact ⟨_, rfl⟩
    · intro n v hv
      rw [NewMessage_ownDigest, IncrementNode_lookup] at hv
      rw [NewMessage_ownDigest, IncrementNode_MaxVersion, hmod]
      by_cases hn : n = s.PublicKey
      · rw [if_pos hn, hmod] at hv
        rw [← Option.some.inj hv]
      · rw [if_neg hn] at hv
        exact Nat.le_succ_of_le (hwf n v hv)
    · rw [NewMessage_ownDigest, IncrementNode_lookup, if_pos rfl, IncrementNode_MaxVersion]
    · intro n v hv
      rw [NewMessage_ownDigest, IncrementNode_lookup] at hv
      by_cases hn : n = s.PublicKey
      · rw [if_pos hn] at hv
        rw [← Option.some.inj hv, hn, hkey]
        exact ⟨hed.publicKey_length _, Nat.mod_lt _ (by norm_num)⟩
      · rw [if_neg hn] at hv
        exact hrange n v hv
  | merge s sender deltas _ hd ih =>
    obtain ⟨hkey, hown, htight, hrange⟩ := ih
    refine ⟨?_, ?_, ?_, ?_⟩
    · rw [Merge_PublicKey, Merge_PrivateKey]; exact hkey
    · rw [Merge_PublicKey, Merge_ownDigest_absorb]
      exact absorb_mem deltas _ _ hown
    · rw [Merge_ownDigest_absorb]; exact absorb_Tight deltas _ htight
    · rw [Merge_ownDigest_absorb]; exact absorb_InRange deltas hd _ hrange

theorem NewPullPacket_eq (ed : Ed25519) (s : Model) :
    (s.NewPullPacket ed).2 =
      ⟨s.PublicKey, s.ownDigest.version s.PublicKey, s.ownDigest,
       ed.sign s.PrivateKey
         (pullPacketHeader s.PublicKey (s.ownDigest.version s.PublicKey) s.ownDigest)⟩ := by
  simp only [Model.NewPullPacket, Digest_PublicKey, NewMessage_PrivateKey_Digest]
  rfl

/-- C15 (amended): for every model reachable from `NewModel` by `NewMessage` and `Merge`
without the version counter wrapping, whose own digest lists fewer than `2 ^ 32` other nodes,
`DecodePullPacket(p.Encode())` for `p = NewPullPacket()` returns a packet without error: the
same sender key, sender version and signature, a digest with the same entry for every node
(the sender's put back from the sender version) and the same `MaxVersion`; and the signature
verifies over the encoded header. -/
theorem C15_pull_packet_roundtrip (ed : Ed25519)
    (verify : List Nat → List Nat → List Nat → Bool) (hed : ed.Sound verify) (s : Model)
    (hreach : Reachable ed s)
    (hcount : (s.ownDigest.otherEntries s.PublicKey).length < 2 ^ 32) :
    ∃ q, DecodePullPacket verify (s.NewPullPacket ed).2.Encode = some (.ok q) ∧
      q.senderPublicKey = (s.NewPullPacket ed).2.senderPublicKey ∧
      q.senderVersion = (s.NewPullPacket ed).2.senderVersion ∧
      q.signature = (s.NewPullPacket ed).2.signature ∧
      (∀ k, q.digest.Nodes.lookup k = (s.NewPullPacket ed).2.digest.Nodes.lookup k) ∧
      q.digest.MaxVersion = (s.NewPullPacket ed).2.digest.MaxVersion ∧
      verify (s.NewPullPacket ed).2.senderPublicKey
        (pullPacketHeader (s.NewPullPacket ed).2.senderPublicKey
          (s.NewPullPacket ed).2.senderVersion (s.NewPullPacket ed).2.digest)
        (s.NewPullPacket ed).2.signature = true := by
  obtain ⟨hkey, ⟨a, hown⟩, htight, hrange⟩ := Reachable_inv ed verify hed s hreach
  have hsv : s.ownDigest.version s.PublicKey = a := by simp [Digest.version, hown]
  have hpk : s.PublicKey.length = 32 := by rw [hkey]; exact hed.publicKey_length _
  have hver : verify s.PublicKey
      (pullPacketHeader s.PublicKey a s.ownDigest)
      (ed.sign s.PrivateKey (pullPacketHeader s.PublicKey a s.ownDigest)) = true := by
    have := hed.verify_sign s.PrivateKey (pullPacketHeader s.PublicKey a s.ownDigest)
    rw [← hkey] at this
    exact this
  rw [NewPullPacket_eq, hsv]
  refine ⟨_, DecodePullPacket_Encode verify s.PublicKey a s.ownDigest _ hpk (hrange _ _ hown).2
    (fun e he => hrange e.1 e.2 ((mem_otherEntries _ _ e).1 he).1) hcount
    (hed.sign_length _ _) hver, rfl, rfl, rfl, ?_, ?_, hver⟩
  · intro k
    exact rebuilt_lookup s.PublicKey a s.ownDigest hown k
  · exact rebuilt_MaxVersion s.PublicKey a s.ownDigest hown htight

theorem modelTwoNodes_Reachable : Reachable edFixed modelTwoNodes := by
  unfold modelTwoNodes
  apply Reachable.merge
  · apply Reachable.newMessage
    · exact Reachable.newModel _ _
    · decide
  · decide

set_option maxRecDepth 100000

/-- C15, witness: the model that published "hello" and merged two deltas of a second node is
reachable, its own digest lists one other node, and its pull packet decodes as stated. -/
theorem C15_pull_packet_roundtrip_witness :
    Reachable edFixed modelTwoNodes ∧
      (modelTwoNodes.ownDigest.otherEntries modelTwoNodes.PublicKey).length = 1 ∧
      ∃ q, DecodePullPacket edFixedVerify (modelTwoNodes.NewPullPacket edFixed).2.Encode =
          some (.ok q) ∧
        q.digest.MaxVersion = (modelTwoNodes.NewPullPacket edFixed).2.digest.MaxVersion :=
  ⟨modelTwoNodes_Reachable, by decide,
   (C15_pull_packet_roundtrip edFixed edFixedVerify edFixed_Sound modelTwoNodes
     modelTwoNodes_Reachable (by decide)).imp (fun _ h => ⟨h.1, h.2.2.2.2.2.1⟩)⟩

/-- C15, counterexample: the model that merged a delta with version `2 ^ 32 - 1` of a second
node and then published one message is reached from `NewModel` by `Merge` and `NewMessage`;
the digest of its pull packet has `MaxVersion = 0`, the wrapped counter, and the packet
`DecodePullPacket` returns from its encoding has a digest with `MaxVersion = 2 ^ 32 - 1`. -/
theorem C15_MaxVersion_differs_after_wrap :
    (modelWrapped32.NewPullPacket edFixed).2.digest.MaxVersion = 0 ∧
      ∃ q, DecodePullPacket edFixedVerify (modelWrapped32.NewPullPacket edFixed).2.Encode =
          some (.ok q) ∧ q.digest.MaxVersion = 4294967295 :=
  ⟨rfl, _, rfl, rfl⟩

set_option maxRecDepth 512

end sync

namespace packet_layer
open builtin

/-! ### The decoder of `decoder.go` does not panic -/

theorem readNextPacket_cons (p : List Nat) (rest : List (List Nat)) (c : Nat) :
    PacketDecoder.readNextPacket ⟨p :: rest, c⟩ = ⟨rest, 0⟩ := rfl

theorem readNextPacketChecked_cons (p : List Nat) (rest : List (List Nat)) (c : Nat) :
    PacketDecoder.readNextPacketChecked ⟨p :: rest, c⟩ = some ⟨rest, 0⟩ := rfl

theorem CursorInRange_zero (packets : List (List Nat)) :
    PacketDecoder.CursorInRange ⟨packets, 0⟩ := by
  cases packets with
  | nil => rfl
  | cons p rest => exact Nat.zero_le _

theorem remaining_cons (p : List Nat) (rest : List (List Nat)) (c : Nat) :
    PacketDecoder.remaining ⟨p :: rest, c⟩ =
      p.length + 1 + PacketDecoder.remaining ⟨rest, 0⟩ - c := by
  simp [PacketDecoder.remaining]

theorem packetHeaderFromBytes_ok (bytes : List Nat) (h : 2 ≤ bytes.length) :
    ∃ header, packetHeaderFromBytes bytes = .ok header := by
  unfold packetHeaderFromBytes
  rw [if_neg (by omega)]
  exact ⟨_, rfl⟩

theorem packetHeaderFromBytes_error (bytes : List Nat) (h : bytes.length < 2) :
    ∃ e, packetHeaderFromBytes bytes = .error e := by
  unfold packetHeaderFromBytes
  rw [if_pos h]
  exact ⟨_, rfl⟩

theorem length_of_packetHeaderFromBytes_ok (bytes : List Nat) (header : packetHeader)
    (h : packetHeaderFromBytes bytes = .ok header) : 2 ≤ bytes.length := by
  by_contra hlt
  obtain ⟨e, he⟩ := packetHeaderFromBytes_error bytes (by omega)
  rw [he] at h
  cases h

theorem ite_not_of_true {α : Type} (b : Bool) (h : b = true) (x y : α) :
    (if (!b) = true then x else y) = y := by
  simp [h]

theorem ite_not_of_false {α : Type} (b : Bool) (h : b = false) (x y : α) :
    (if (!b) = true then x else y) = x := by
  simp [h]

theorem skipEmptyLoop_cons (fuel : Nat) (p : List Nat) (rest : List (List Nat)) (c : Nat) :
    PacketDecoder.skipEmptyLoop (fuel + 1) ⟨p :: rest, c⟩ =
      if (p.drop c).length < 2 then (⟨rest, 0⟩, .ok ())
      else
        match packetHeaderFromBytes (p.drop c) with
        | .error e => (⟨p :: rest, c⟩, .error e)
        | .ok header =>
          if !header.flags.NonEmpty then PacketDecoder.skipEmptyLoop fuel ⟨rest, 0⟩
          else (⟨p :: rest, c⟩, .ok ()) := rfl

theorem skipEmptyLoopChecked_cons (fuel : Nat) (p : List Nat) (rest : List (List Nat)) (c : Nat)
    (hc : c ≤ p.length) :
    PacketDecoder.skipEmptyLoopChecked (fuel + 1) ⟨p :: rest, c⟩ =
      if (p.drop c).length < 2 then some (⟨rest, 0⟩, .ok ())
      else
        match packetHeaderFromBytes (p.drop c) with
        | .error e => some (⟨p :: rest, c⟩, .error e)
        | .ok header =>
          if !header.flags.NonEmpty then PacketDecoder.skipEmptyLoopChecked fuel ⟨rest, 0⟩
          else some (⟨p :: rest, c⟩, .ok ()) := by
  simp only [PacketDecoder.skipEmptyLoopChecked, PacketDecoder.frontPacketChecked,
    List.length_cons, Nat.succ_ne_zero, if_false, List.head?_cons, Option.bind_eq_bind,
    Option.some_bind, sliceFrom, if_pos hc, readNextPacketChecked_cons]

/-- The loop of `skipEmptyPackets` does not panic, never returns an error, keeps the cursor in
range, and removes packets only. -/
theorem skipEmptyLoop_spec :
    ∀ (fuel : Nat) (d : PacketDecoder), d.CursorInRange → d.packets.length < fuel →
      d.skipEmptyLoopChecked fuel = some (d.skipEmptyLoop fuel) ∧
      (d.skipEmptyLoop fuel).2 = .ok () ∧ (d.skipEmptyLoop fuel).1.CursorInRange ∧
      (d.skipEmptyLoop fuel).1.remaining ≤ d.remaining ∧
      (d.skipEmptyLoop fuel).1.packets.length ≤ d.packets.length := by
  intro fuel
  induction fuel with
  | zero => intro d _ h; exact absurd h (Nat.not_lt_zero _)
  | succ fuel ih =>
    intro d hd hf
    obtain ⟨packets, cursor⟩ := d
    cases packets with
    | nil =>
      refine ⟨?_, ?_, hd, le_refl _, le_refl _⟩
      · simp [PacketDecoder.skipEmptyLoopChecked, PacketDecoder.skipEmptyLoop]
      · simp [PacketDecoder.skipEmptyLoop]
    | cons p rest =>
      have hc : cursor ≤ p.length := hd
      have hrem : PacketDecoder.remaining ⟨rest, 0⟩ ≤ PacketDecoder.remaining ⟨p :: rest, cursor⟩ := by
        rw [remaining_cons]; omega
      rw [skipEmptyLoopChecked_cons fuel p rest cursor hc, skipEmptyLoop_cons]
      by_cases hlen : (p.drop cursor).length < 2
      · rw [if_pos hlen, if_pos hlen]
        exact ⟨rfl, rfl, CursorInRange_zero _, hrem, Nat.le_succ _⟩
      · rw [if_neg hlen, if_neg hlen]
        obtain ⟨header, hh⟩ := packetHeaderFromBytes_ok (p.drop cursor) (by omega)
        rw [hh]
        by_cases hne : header.flags.NonEmpty = true
        · simp only
          rw [ite_not_of_true _ hne, ite_not_of_true _ hne]
          exact ⟨rfl, rfl, hd, le_refl _, le_refl _⟩
        · have hne2 : header.flags.NonEmpty = false := by simpa using hne
          simp only
          rw [ite_not_of_false _ hne2, ite_not_of_false _ hne2]
          have hrec := ih ⟨rest, 0⟩ (CursorInRange_zero _)
            (show rest.length < fuel by simp only [List.length_cons] at hf; omega)
          exact ⟨hrec.1, hrec.2.1, hrec.2.2.1, le_trans hrec.2.2.2.1 hrem,
            le_trans hrec.2.2.2.2 (Nat.le_succ _)⟩

theorem hasMessageLoop_cons (fuel : Nat) (p : List Nat) (rest : List (List Nat)) (c : Nat) :
    hasMessageLoop (fuel + 1) (p :: rest) c =
      match packetHeaderFromBytes (p.drop c) with
      | .error e => .error e
      | .ok header =>
        if !header.flags.Continuation then .ok true
        else if c + (header.size + 2) + 3 ≥ p.length then hasMessageLoop fuel rest 0
        else hasMessageLoop fuel (p :: rest) (c + (header.size + 2)) := rfl

theorem hasMessageLoopChecked_cons (fuel : Nat) (p : List Nat) (rest : List (List Nat)) (c : Nat)
    (hc : c ≤ p.length) :
    hasMessageLoopChecked (fuel + 1) (p :: rest) c =
      match packetHeaderFromBytes (p.drop c) with
      | .error e => some (.error e)
      | .ok header =>
        if !header.flags.Continuation then some (.ok true)
        else if c + (header.size + 2) + 3 ≥ p.length then hasMessageLoopChecked fuel rest 0
        else hasMessageLoopChecked fuel (p :: rest) (c + (header.size + 2)) := by
  simp only [hasMessageLoopChecked, Option.bind_eq_bind, sliceFrom, if_pos hc, Option.some_bind]

/-- The look-ahead loop of `HasMessage` does not panic. -/
theorem hasMessageLoopChecked_eq :
    ∀ (fuel : Nat) (packets : List (List Nat)) (c : Nat),
      PacketDecoder.CursorInRange ⟨packets, c⟩ →
      PacketDecoder.remaining ⟨packets, c⟩ < fuel →
      hasMessageLoopChecked fuel packets c = some (hasMessageLoop fuel packets c) := by
  intro fuel
  induction fuel with
  | zero => intro packets c _ h; exact absurd h (Nat.not_lt_zero _)
  | succ fuel ih =>
    intro packets c hd hf
    cases packets with
    | nil => rfl
    | cons p rest =>
      have hc : c ≤ p.length := hd
      rw [hasMessageLoopChecked_cons fuel p rest c hc, hasMessageLoop_cons]
      rw [remaining_cons] at hf
      cases hh : packetHeaderFromBytes (p.drop c) with
      | error e => rfl
      | ok header =>
        simp only
        by_cases hcont : header.flags.Continuation = true
        · rw [ite_not_of_true _ hcont, ite_not_of_true _ hcont]
          by_cases hnext : c + (header.size + 2) + 3 ≥ p.length
          · rw [if_pos hnext, if_pos hnext]
            exact ih rest 0 (CursorInRange_zero _) (by omega)
          · rw [if_neg hnext, if_neg hnext]
            exact ih (p :: rest) _ (show c + (header.size + 2) ≤ p.length by omega)
              (by rw [remaining_cons]; omega)
        · have hc2 : header.flags.Continuation = false := by simpa using hcont
          rw [ite_not_of_false _ hc2, ite_not_of_false _ hc2]

theorem remaining_lt_hasMessageFuel (packets : List (List Nat)) (c : Nat) :
    PacketDecoder.remaining ⟨packets, c⟩ < hasMessageFuel packets := by
  unfold PacketDecoder.remaining hasMessageFuel
  simp only
  omega

/-- The method `HasMessage` does not panic; it keeps the cursor in range and removes packets
only. -/
theorem HasMessage_spec (d : PacketDecoder) (hd : d.CursorInRange) :
    d.HasMessageChecked = some d.HasMessage ∧ d.HasMessage.1.CursorInRange ∧
      d.HasMessage.1.remaining ≤ d.remaining ∧
      d.HasMessage.1.packets.length ≤ d.packets.length ∧
      (d.HasMessage.2 = .ok true →
        hasMessageLoop (hasMessageFuel d.HasMessage.1.packets) d.HasMessage.1.packets
          d.HasMessage.1.cursor = .ok true) ∧
      (d.HasMessage.2 = .ok true → d.HasMessage.1.packets ≠ []) ∧
      ∀ e, d.HasMessage.2 = .error e →
        hasMessageLoop (hasMessageFuel d.HasMessage.1.packets) d.HasMessage.1.packets
          d.HasMessage.1.cursor = .error e := by
  obtain ⟨h1, h2, h3, h4, h5⟩ := skipEmptyLoop_spec (d.packets.length + 1) d hd (Nat.lt_succ_self _)
  unfold PacketDecoder.HasMessageChecked PacketDecoder.HasMessage
    PacketDecoder.skipEmptyPacketsChecked PacketDecoder.skipEmptyPackets
  rw [h1]
  generalize PacketDecoder.skipEmptyLoop (d.packets.length + 1) d = r at h2 h3 h4 h5
  obtain ⟨d1, res⟩ := r
  simp only at h2 h3 h4 h5
  subst h2
  simp only [Option.bind_eq_bind, Option.some_bind]
  by_cases he : d1.packets.length = 0
  · rw [if_pos he, if_pos he]
    exact ⟨rfl, h3, h4, h5, (fun h => by cases h), (fun h => by cases h),
      (fun e h => by cases h)⟩
  · rw [if_neg he, if_neg he]
    rw [hasMessageLoopChecked_eq _ d1.packets d1.cursor h3 (remaining_lt_hasMessageFuel _ _)]
    exact ⟨rfl, h3, h4, h5, (fun h => h), (fun _ hnil => he (by rw [hnil]; rfl)),
      (fun e h => h)⟩

end packet_layer

namespace packet_layer
open builtin

theorem readLoop_false (fuel : Nat) (d : PacketDecoder) (msg : List Nat) :
    PacketDecoder.readLoop fuel d msg false = (d, .ok (msg, false)) := by
  cases fuel with
  | zero => rfl
  | succ fuel =>
    obtain ⟨packets, c⟩ := d
    cases packets <;> rfl

theorem readLoopChecked_false (fuel : Nat) (d : PacketDecoder) (msg : List Nat) :
    PacketDecoder.readLoopChecked (fuel + 1) d msg false = some (d, .ok (msg, false)) := by
  simp [PacketDecoder.readLoopChecked]

theorem readLoop_nil (fuel c : Nat) (msg : List Nat) (cont : Bool) :
    PacketDecoder.readLoop fuel ⟨[], c⟩ msg cont = (⟨[], c⟩, .ok (msg, cont)) := by
  cases fuel <;> rfl

theorem readLoopChecked_nil (fuel c : Nat) (msg : List Nat) (cont : Bool) :
    PacketDecoder.readLoopChecked (fuel + 1) ⟨[], c⟩ msg cont = some (⟨[], c⟩, .ok (msg, cont)) := by
  simp [PacketDecoder.readLoopChecked]

theorem readLoop_cons (fuel : Nat) (p : List Nat) (rest : List (List Nat)) (c : Nat)
    (msg : List Nat) :
    PacketDecoder.readLoop (fuel + 1) ⟨p :: rest, c⟩ msg true =
      match packetHeaderFromBytes (p.drop c) with
      | .error e => (⟨rest, 0⟩, .error e)
      | .ok header =>
        if header.size + 2 > (p.drop c).length then
          (⟨rest, 0⟩, .error "corrupt packet: header size longer than packet")
        else
          PacketDecoder.readLoop fuel
            (if c + (header.size + 2) ≥ p.length then ⟨rest, 0⟩
             else ⟨p :: rest, c + (header.size + 2)⟩)
            (msg ++ ((p.drop c).take (header.size + 2)).drop 2) header.flags.Continuation := rfl

theorem readLoopChecked_cons (fuel : Nat) (p : List Nat) (rest : List (List Nat)) (c : Nat)
    (msg : List Nat) (hc : c ≤ p.length) :
    PacketDecoder.readLoopChecked (fuel + 1) ⟨p :: rest, c⟩ msg true =
      match packetHeaderFromBytes (p.drop c) with
      | .error e => some (⟨rest, 0⟩, .error e)
      | .ok header =>
        if header.size + 2 > (p.drop c).length then
          some (⟨rest, 0⟩, .error "corrupt packet: header size longer than packet")
        else
          PacketDecoder.readLoopChecked fuel
            (if c + (header.size + 2) ≥ p.length then ⟨rest, 0⟩
             else ⟨p :: rest, c + (header.size + 2)⟩)
            (msg ++ ((p.drop c).take (header.size + 2)).drop 2) header.flags.Continuation := by
  simp only [PacketDecoder.readLoopChecked, PacketDecoder.frontPacketChecked,
    List.length_cons, Nat.succ_pos, and_self, if_true, List.head?_cons, Option.bind_eq_bind,
    Option.some_bind, sliceFrom, if_pos hc, readNextPacketChecked_cons, Nat.zero_lt_succ,
    true_and]
  cases hh : packetHeaderFromBytes (p.drop c) with
  | error e => rfl
  | ok header =>
    simp only
    by_cases hs : header.size + 2 > (p.drop c).length
    · rw [if_pos hs, if_pos hs]
    · rw [if_neg hs, if_neg hs]
      have h2 := length_of_packetHeaderFromBytes_ok _ _ hh
      rw [builtin.slice, if_pos ⟨by omega, by omega⟩]
      simp only [Option.some_bind]
      by_cases hn : c + (header.size + 2) ≥ p.length
      · rw [if_pos hn, if_pos hn]
      · rw [if_neg hn, if_neg hn]

/-- The loop of `ReadMessage` does not panic; it keeps the cursor in range, removes packets
only, and a round that reads a frame lowers what remains. -/
theorem readLoop_spec :
    ∀ (fuel : Nat) (d : PacketDecoder) (msg : List Nat) (cont : Bool),
      d.CursorInRange → d.remaining < fuel →
      PacketDecoder.readLoopChecked fuel d msg cont = some (PacketDecoder.readLoop fuel d msg cont) ∧
      (PacketDecoder.readLoop fuel d msg cont).1.CursorInRange ∧
      (PacketDecoder.readLoop fuel d msg cont).1.remaining ≤ d.remaining ∧
      (PacketDecoder.readLoop fuel d msg cont).1.packets.length ≤ d.packets.length ∧
      (cont = true → d.packets ≠ [] →
        (PacketDecoder.readLoop fuel d msg cont).1.remaining < d.remaining) := by
  intro fuel
  induction fuel with
  | zero => intro d _ _ _ h; exact absurd h (Nat.not_lt_zero _)
  | succ fuel ih =>
    intro d msg cont hd hf
    cases cont with
    | false =>
      rw [readLoop_false, readLoopChecked_false]
      exact ⟨rfl, hd, le_refl _, le_refl _, fun h => absurd h (by simp)⟩
    | true =>
      obtain ⟨packets, c⟩ := d
      cases packets with
      | nil =>
        rw [readLoop_nil, readLoopChecked_nil]
        exact ⟨rfl, hd, le_refl _, le_refl _, fun _ h => absurd rfl h⟩
      | cons p rest =>
        have hc : c ≤ p.length := hd
        have hrem : PacketDecoder.remaining ⟨rest, 0⟩ < PacketDecoder.remaining ⟨p :: rest, c⟩ := by
          rw [remaining_cons]; omega
        rw [readLoopChecked_cons fuel p rest c msg hc, readLoop_cons]
        cases hh : packetHeaderFromBytes (p.drop c) with
        | error e =>
          exact ⟨rfl, CursorInRange_zero _, le_of_lt hrem, Nat.le_succ _, fun _ _ => hrem⟩
        | ok header =>
          simp only
          by_cases hs : header.size + 2 > (p.drop c).length
          · rw [if_pos hs, if_pos hs]
            exact ⟨rfl, CursorInRange_zero _, le_of_lt hrem, Nat.le_succ _, fun _ _ => hrem⟩
          · rw [if_neg hs, if_neg hs]
            rw [List.length_drop] at hs
            by_cases hn : c + (header.size + 2) ≥ p.length
            · rw [if_pos hn]
              have hrec := ih ⟨rest, 0⟩ (msg ++ ((p.drop c).take (header.size + 2)).drop 2)
                header.flags.Continuation (CursorInRange_zero _)
                (by rw [remaining_cons] at hf; omega)
              exact ⟨hrec.1, hrec.2.1, le_trans hrec.2.2.1 (le_of_lt hrem),
                le_trans hrec.2.2.2.1 (Nat.le_succ _),
                fun _ _ => lt_of_le_of_lt hrec.2.2.1 hrem⟩
            · rw [if_neg hn]
              have hrem2 : PacketDecoder.remaining ⟨p :: rest, c + (header.size + 2)⟩ <
                  PacketDecoder.remaining ⟨p :: rest, c⟩ := by
                rw [remaining_cons, remaining_cons]; omega
              have hrec := ih ⟨p :: rest, c + (header.size + 2)⟩
                (msg ++ ((p.drop c).take (header.size + 2)).drop 2)
                header.flags.Continuation (show c + (header.size + 2) ≤ p.length by omega)
                (by omega)
              exact ⟨hrec.1, hrec.2.1, le_trans hrec.2.2.1 (le_of_lt hrem2), hrec.2.2.2.1,
                fun _ _ => lt_of_le_of_lt hrec.2.2.1 hrem2⟩

theorem hasMessageLoop_nil (fuel c : Nat) : hasMessageLoop fuel [] c = .ok false := by
  cases fuel <;> rfl

theorem not_MessageAhead_nil (c : Nat) : ¬ MessageAhead [] c := by
  rintro (⟨fuel, h⟩ | ⟨front, rest, h, _⟩)
  · rw [hasMessageLoop_nil] at h
    cases h
  · cases h

/-- A round of the loop of `ReadMessage` that reads a continuation frame leaves a state from
which the end of a message is still ahead. -/
theorem MessageAhead_next (p : List Nat) (rest : List (List Nat)) (c : Nat)
    (header : packetHeader) (hh : packetHeaderFromBytes (p.drop c) = .ok header)
    (hcont : header.flags.Continuation = true) (h : MessageAhead (p :: rest) c) :
    MessageAhead
      (if c + (header.size + 2) ≥ p.length then (⟨rest, 0⟩ : PacketDecoder)
       else ⟨p :: rest, c + (header.size + 2)⟩).packets
      (if c + (header.size + 2) ≥ p.length then (⟨rest, 0⟩ : PacketDecoder)
       else ⟨p :: rest, c + (header.size + 2)⟩).cursor := by
  rcases h with ⟨fuel, h⟩ | ⟨front, rest', heq, hle, fuel, h⟩
  · cases fuel with
    | zero => cases h
    | succ fuel =>
      rw [hasMessageLoop_cons, hh] at h
      simp only at h
      rw [ite_not_of_true _ hcont] at h
      by_cases hn : c + (header.size + 2) ≥ p.length
      · rw [if_pos hn]
        rw [if_pos (by omega)] at h
        exact Or.inl ⟨fuel, h⟩
      · rw [if_neg hn]
        by_cases hn3 : c + (header.size + 2) + 3 ≥ p.length
        · rw [if_pos hn3] at h
          exact Or.inr ⟨p, rest, rfl,
            (show p.length ≤ c + (header.size + 2) + 3 by omega), fuel, h⟩
        · rw [if_neg hn3] at h
          exact Or.inl ⟨fuel, h⟩
  · obtain ⟨hp, hr⟩ := List.cons.inj heq
    rw [← hp] at hle
    rw [← hr] at h
    by_cases hn : c + (header.size + 2) ≥ p.length
    · rw [if_pos hn]
      exact Or.inl ⟨fuel, h⟩
    · rw [if_neg hn]
      exact Or.inr ⟨p, rest, rfl,
        (show p.length ≤ c + (header.size + 2) + 3 by omega), fuel, h⟩

/-- When the end of a message is ahead, the loop of `ReadMessage` ends with an error or with
`continuation` false: the `unreachable` branch of `ReadMessage` is not taken. -/
theorem readLoop_ends :
    ∀ (fuel : Nat) (d : PacketDecoder) (msg : List Nat),
      d.CursorInRange → MessageAhead d.packets d.cursor → d.remaining < fuel →
      ∀ m, (PacketDecoder.readLoop fuel d msg true).2 ≠ .ok (m, true) := by
  intro fuel
  induction fuel with
  | zero => intro d _ _ _ h; exact absurd h (Nat.not_lt_zero _)
  | succ fuel ih =>
    intro d msg hd ha hf m
    obtain ⟨packets, c⟩ := d
    cases packets with
    | nil => exact absurd ha (not_MessageAhead_nil c)
    | cons p rest =>
      have hc : c ≤ p.length := hd
      rw [readLoop_cons]
      cases hh : packetHeaderFromBytes (p.drop c) with
      | error e => simp
      | ok header =>
        simp only
        by_cases hs : header.size + 2 > (p.drop c).length
        · rw [if_pos hs]; simp
        · rw [if_neg hs]
          rw [List.length_drop] at hs
          by_cases hcont : header.flags.Continuation = true
          · rw [hcont]
            refine ih _ _ ?_ (MessageAhead_next p rest c header hh hcont ha) ?_ m
            · by_cases hn : c + (header.size + 2) ≥ p.length
              · rw [if_pos hn]; exact CursorInRange_zero _
              · rw [if_neg hn]; exact (show c + (header.size + 2) ≤ p.length by omega)
            · rw [remaining_cons] at hf
              by_cases hn : c + (header.size + 2) ≥ p.length
              · rw [if_pos hn]; omega
              · rw [if_neg hn, remaining_cons]; omega
          · have hc2 : header.flags.Continuation = false := by simpa using hcont
            rw [hc2, readLoop_false]
            simp

/-- The method `ReadMessage` does not panic; it keeps the cursor in range and removes packets
only. -/
theorem ReadMessage_spec (d : PacketDecoder) (hd : d.CursorInRange) :
    d.ReadMessageChecked = some d.ReadMessage ∧ d.ReadMessage.1.CursorInRange ∧
      d.ReadMessage.1.remaining ≤ d.remaining ∧
      d.ReadMessage.1.packets.length ≤ d.packets.length := by
  obtain ⟨h1, h2, h3, h4, h5, _, _⟩ := HasMessage_spec d hd
  unfold PacketDecoder.ReadMessageChecked PacketDecoder.ReadMessage
  rw [h1]
  have hdef : d.HasMessage = (d.HasMessage.1, d.HasMessage.2) := rfl
  generalize d.HasMessage.1 = d1 at hdef h2 h3 h4 h5
  generalize d.HasMessage.2 = r at hdef h5
  rw [hdef]
  simp only [Option.bind_eq_bind, Option.some_bind]
  cases r with
  | error e => exact ⟨rfl, h2, h3, h4⟩
  | ok hasMsg =>
    simp only
    cases hasMsg with
    | false => exact ⟨rfl, h2, h3, h4⟩
    | true =>
      simp only [Bool.not_true, Bool.false_eq_true, if_false]
      have hahead : MessageAhead d1.packets d1.cursor :=
        Or.inl ⟨hasMessageFuel d1.packets, h5 rfl⟩
      obtain ⟨r1, r2, r3, r4, _⟩ := readLoop_spec (hasMessageFuel d1.packets) d1 [] true h2
        (remaining_lt_hasMessageFuel _ _)
      have hends := readLoop_ends (hasMessageFuel d1.packets) d1 [] h2 hahead
        (remaining_lt_hasMessageFuel _ _)
      rw [r1]
      simp only [Option.some_bind]
      generalize PacketDecoder.readLoop (hasMessageFuel d1.packets) d1 [] true = res
        at r2 r3 r4 hends
      obtain ⟨d2, res2⟩ := res
      cases res2 with
      | error e => exact ⟨rfl, r2, le_trans r3 h3, le_trans r4 h4⟩
      | ok mc =>
        obtain ⟨m, cont⟩ := mc
        cases cont with
        | true => exact absurd rfl (hends m)
        | false => exact ⟨rfl, r2, le_trans r3 h3, le_trans r4 h4⟩

end packet_layer

namespace packet_layer
open builtin

theorem CursorInRange_AppendPacket (d : PacketDecoder) (packet : List Nat) (hd : d.CursorInRange) :
    (d.AppendPacket packet).1.CursorInRange := by
  unfold PacketDecoder.AppendPacket
  split
  · exact hd
  · obtain ⟨packets, c⟩ := d
    cases packets with
    | nil =>
      have hc : c = 0 := hd
      subst hc
      exact Nat.zero_le _
    | cons p rest => exact hd

/-- No sequence of calls panics on a decoder whose cursor is in range. -/
theorem runCalls_isSome (calls : List Call) :
    ∀ d : PacketDecoder, d.CursorInRange → ∃ d', runCalls d calls = some d' ∧ d'.CursorInRange := by
  induction calls with
  | nil => intro d hd; exact ⟨d, rfl, hd⟩
  | cons call calls ih =>
    intro d hd
    cases call with
    | append packet => exact ih _ (CursorInRange_AppendPacket d packet hd)
    | hasMessage =>
      obtain ⟨h1, h2, _⟩ := HasMessage_spec d hd
      simp only [runCalls, h1, Option.bind_eq_bind, Option.some_bind]
      exact ih _ h2
    | readMessage =>
      obtain ⟨h1, h2, _⟩ := ReadMessage_spec d hd
      simp only [runCalls, h1, Option.bind_eq_bind, Option.some_bind]
      exact ih _ h2

/-! ### The loop of `FuzzDecodeRandomBytes` on a single packet -/

theorem hasMessageLoop_single (p : List Nat) :
    ∀ (fuel c : Nat), c + 2 ≤ p.length → ∃ b, hasMessageLoop fuel [p] c = .ok b := by
  intro fuel
  induction fuel with
  | zero => intro c _; exact ⟨false, rfl⟩
  | succ fuel ih =>
    intro c hc
    rw [hasMessageLoop_cons]
    obtain ⟨header, hh⟩ := packetHeaderFromBytes_ok (p.drop c) (by rw [List.length_drop]; omega)
    rw [hh]
    simp only
    by_cases hcont : header.flags.Continuation = true
    · rw [ite_not_of_true _ hcont]
      by_cases hn : c + (header.size + 2) + 3 ≥ p.length
      · rw [if_pos hn, hasMessageLoop_nil]; exact ⟨false, rfl⟩
      · rw [if_neg hn]; exact ih _ (by omega)
    · have hc2 : header.flags.Continuation = false := by simpa using hcont
      rw [ite_not_of_false _ hc2]; exact ⟨true, rfl⟩

theorem skipEmptyLoop_nil (fuel c : Nat) :
    PacketDecoder.skipEmptyLoop fuel ⟨[], c⟩ = (⟨[], c⟩, .ok ()) := by
  cases fuel <;> rfl

/-- On a decoder that holds one packet, `HasMessage` either removes the packet and returns
false, or leaves the decoder as it is and returns true or false; it returns no error. -/
theorem HasMessage_single (p : List Nat) (c : Nat) :
    (PacketDecoder.HasMessage ⟨[p], c⟩ = (⟨[], 0⟩, .ok false)) ∨
      ∃ b, PacketDecoder.HasMessage ⟨[p], c⟩ = (⟨[p], c⟩, .ok b) := by
  have key : PacketDecoder.HasMessage ⟨[p], c⟩ =
      match PacketDecoder.skipEmptyLoop (1 + 1) ⟨[p], c⟩ with
      | (decoder1, .error e) => (decoder1.readNextPacket, Except.error e)
      | (decoder1, .ok ()) =>
        if decoder1.packets.length = 0 then (decoder1, .ok false)
        else (decoder1, hasMessageLoop (hasMessageFuel decoder1.packets) decoder1.packets
                decoder1.cursor) := rfl
  have hskip := skipEmptyLoop_cons 1 p [] c
  by_cases hlen : (p.drop c).length < 2
  · rw [if_pos hlen] at hskip
    left
    rw [key, hskip]
    rfl
  · rw [if_neg hlen] at hskip
    obtain ⟨header, hh⟩ := packetHeaderFromBytes_ok (p.drop c) (by omega)
    rw [hh] at hskip
    simp only at hskip
    by_cases hne : header.flags.NonEmpty = true
    · rw [ite_not_of_true _ hne] at hskip
      right
      rw [List.length_drop] at hlen
      obtain ⟨b, hb⟩ := hasMessageLoop_single p (hasMessageFuel [p]) c (by omega)
      refine ⟨b, ?_⟩
      rw [key, hskip]
      simp only [List.length_cons, List.length_nil, Nat.succ_ne_zero, if_false]
      rw [hb]
    · have hne2 : header.flags.NonEmpty = false := by simpa using hne
      rw [ite_not_of_false _ hne2, skipEmptyLoop_nil] at hskip
      left
      rw [key, hskip]
      rfl

theorem HasMessage_nil (c : Nat) :
    PacketDecoder.HasMessage ⟨[], c⟩ = (⟨[], c⟩, .ok false) := rfl

/-- On a decoder that holds one packet in which `HasMessage` finds a message, `ReadMessage`
leaves less to read. -/
theorem ReadMessage_single (p : List Nat) (c : Nat) (hc : c ≤ p.length)
    (h : PacketDecoder.HasMessage ⟨[p], c⟩ = (⟨[p], c⟩, .ok true)) :
    (PacketDecoder.ReadMessage ⟨[p], c⟩).1.remaining < PacketDecoder.remaining ⟨[p], c⟩ := by
  obtain ⟨_, _, r3, _, r5⟩ := readLoop_spec (hasMessageFuel [p]) ⟨[p], c⟩ [] true hc
    (remaining_lt_hasMessageFuel _ _)
  have hlt := r5 rfl (by simp)
  unfold PacketDecoder.ReadMessage
  rw [h]
  simp only [Bool.not_true, Bool.false_eq_true, if_false]
  generalize PacketDecoder.readLoop (hasMessageFuel [p]) ⟨[p], c⟩ [] true = res at hlt
  obtain ⟨d2, res2⟩ := res
  cases res2 with
  | error e => exact hlt
  | ok mc =>
    obtain ⟨m, cont⟩ := mc
    cases cont <;> exact hlt

/-- The loop of `FuzzDecodeRandomBytes` ends, without a panic, on a decoder that holds at most
one packet. -/
theorem fuzzLoop_single :
    ∀ (fuel : Nat) (d : PacketDecoder), d.CursorInRange → d.packets.length ≤ 1 →
      d.remaining < fuel → ∃ d', fuzzLoop fuel d = some d' := by
  intro fuel
  induction fuel with
  | zero => intro d _ _ h; exact absurd h (Nat.not_lt_zero _)
  | succ fuel ih =>
    intro d hd hone hf
    obtain ⟨h1, _⟩ := HasMessage_spec d hd
    obtain ⟨packets, c⟩ := d
    cases packets with
    | nil =>
      refine ⟨⟨[], c⟩, ?_⟩
      simp only [fuzzLoop, h1, HasMessage_nil, Option.bind_eq_bind, Option.some_bind]
    | cons p rest =>
      cases rest with
      | cons q rest => simp at hone
      | nil =>
        rcases HasMessage_single p c with hH | ⟨b, hH⟩
        · refine ⟨⟨[], 0⟩, ?_⟩
          simp only [fuzzLoop, h1, hH, Option.bind_eq_bind, Option.some_bind]
        · cases b with
          | false =>
            refine ⟨⟨[p], c⟩, ?_⟩
            simp only [fuzzLoop, h1, hH, Option.bind_eq_bind, Option.some_bind]
          | true =>
            obtain ⟨r1, r2, _, r4⟩ := ReadMessage_spec ⟨[p], c⟩ hd
            have hlt := ReadMessage_single p c hd hH
            simp only [fuzzLoop, h1, hH, Option.bind_eq_bind, Option.some_bind, r1]
            exact ih _ r2 r4 (by omega)

/-- C19: no sequence of `AppendPacket`, `HasMessage` and `ReadMessage` calls on a new
`PacketDecoder` panics, whatever the packets hold (`AppendPacket` turns away a packet of
`2 ^ 14` bytes or more): no slice index is out of range, the list is not read when empty, and
the `unreachable` panic of `ReadMessage` is not reached. After a single `AppendPacket`, the loop
`for hasMsg || err != nil { if err == nil { ReadMessage() }; hasMsg, err = HasMessage() }`
ends within `len(packet) + 2` rounds. -/
theorem C19_decoder_does_not_panic (calls : List Call) (packet : List Nat) :
    (∃ d, runCalls NewPacketDecoder calls = some d) ∧
      ∃ d, fuzzLoop (packet.length + 2) (NewPacketDecoder.AppendPacket packet).1 = some d := by
  constructor
  · obtain ⟨d, hd, _⟩ := runCalls_isSome calls NewPacketDecoder rfl
    exact ⟨d, hd⟩
  · apply fuzzLoop_single
    · exact CursorInRange_AppendPacket _ _ rfl
    · unfold PacketDecoder.AppendPacket
      split <;> simp [NewPacketDecoder]
    · unfold PacketDecoder.AppendPacket
      split
      · simp [NewPacketDecoder, PacketDecoder.remaining]
      · simp [NewPacketDecoder, PacketDecoder.remaining]

end packet_layer

namespace packet_layer
open builtin

theorem readsOversizedFrame_cons (fuel : Nat) (p : List Nat) (rest : List (List Nat)) (c : Nat) :
    readsOversizedFrame (fuel + 1) (p :: rest) c =
      match packetHeaderFromBytes (p.drop c) with
      | .error _ => false
      | .ok header =>
        if header.size + 2 > (p.drop c).length then true
        else if header.flags.Continuation then
          if c + (header.size + 2) ≥ p.length then readsOversizedFrame fuel rest 0
          else readsOversizedFrame fuel (p :: rest) (c + (header.size + 2))
        else false := rfl

/-- The loop of `ReadMessage` returns an error when the frames it reads come to one that
declares more bytes than its packet has left. -/
theorem readLoop_oversized :
    ∀ (fuelO fuel : Nat) (packets : List (List Nat)) (c : Nat) (msg : List Nat),
      readsOversizedFrame fuelO packets c = true →
      PacketDecoder.remaining ⟨packets, c⟩ < fuel →
      ∃ e, (PacketDecoder.readLoop fuel ⟨packets, c⟩ msg true).2 = .error e := by
  intro fuelO
  induction fuelO with
  | zero => intro fuel packets c msg h; cases h
  | succ fuelO ih =>
    intro fuel packets c msg h hf
    cases packets with
    | nil => cases h
    | cons p rest =>
      cases fuel with
      | zero => exact absurd hf (Nat.not_lt_zero _)
      | succ fuel =>
        rw [readsOversizedFrame_cons] at h
        rw [readLoop_cons]
        cases hh : packetHeaderFromBytes (p.drop c) with
        | error e => exact ⟨e, rfl⟩
        | ok header =>
          rw [hh] at h
          simp only at h ⊢
          have h2 := length_of_packetHeaderFromBytes_ok _ _ hh
          rw [List.length_drop] at h2
          by_cases hs : header.size + 2 > (p.drop c).length
          · rw [if_pos hs]; exact ⟨_, rfl⟩
          · rw [if_neg hs] at h ⊢
            rw [List.length_drop] at hs
            by_cases hcont : header.flags.Continuation = true
            · rw [if_pos hcont] at h
              rw [hcont]
              rw [remaining_cons] at hf
              by_cases hn : c + (header.size + 2) ≥ p.length
              · rw [if_pos hn] at h ⊢
                exact ih fuel rest 0 _ h (by omega)
              · rw [if_neg hn] at h ⊢
                exact ih fuel (p :: rest) _ _ h (by rw [remaining_cons]; omega)
            · rw [if_neg hcont] at h
              cases h

/-- C20: `AppendPacket` returns an error exactly when the packet has `2 ^ 14` bytes or more,
and then leaves the decoder as it was; otherwise it puts the packet at the end of the queue.
`ReadMessage` returns an error, and so no message, whenever the frames it reads, from the
state `HasMessage` leaves, come to a frame that declares a size larger than the bytes that
remain in its packet. -/
theorem C20_malformed_input_is_an_error (d : PacketDecoder) (packet : List Nat) :
    ((∃ e, (d.AppendPacket packet).2 = .error e) ↔ 2 ^ 14 ≤ packet.length) ∧
      (2 ^ 14 ≤ packet.length → (d.AppendPacket packet).1 = d) ∧
      (packet.length < 2 ^ 14 →
        (d.AppendPacket packet).1.packets = d.packets ++ [packet] ∧
        (d.AppendPacket packet).2 = .ok ()) ∧
      ((∃ fuel, readsOversizedFrame fuel d.HasMessage.1.packets d.HasMessage.1.cursor = true) →
        ∃ e, d.ReadMessage.2 = .error e) := by
  have h14 : (1 <<< 14 : Nat) = 2 ^ 14 := by decide
  refine ⟨?_, ?_, ?_, ?_⟩
  · unfold PacketDecoder.AppendPacket
    rw [h14]
    by_cases h : packet.length ≥ 2 ^ 14
    · rw [if_pos h]
      exact ⟨fun _ => h, fun _ => ⟨_, rfl⟩⟩
    · rw [if_neg h]
      exact ⟨(fun ⟨e, he⟩ => by cases he), (fun h' => absurd h' h)⟩
  · intro h
    unfold PacketDecoder.AppendPacket
    rw [h14, if_pos h]
  · intro h
    unfold PacketDecoder.AppendPacket
    rw [h14, if_neg (by omega)]
    exact ⟨rfl, rfl⟩
  · rintro ⟨fuelO, hO⟩
    unfold PacketDecoder.ReadMessage
    have hdef : d.HasMessage = (d.HasMessage.1, d.HasMessage.2) := rfl
    generalize d.HasMessage.1 = d1 at hdef hO
    generalize d.HasMessage.2 = r at hdef
    rw [hdef]
    cases r with
    | error e => exact ⟨e, rfl⟩
    | ok hasMsg =>
      cases hasMsg with
      | false => exact ⟨_, rfl⟩
      | true =>
        simp only [Bool.not_true, Bool.false_eq_true, if_false]
        obtain ⟨e, he⟩ := readLoop_oversized fuelO (hasMessageFuel d1.packets) d1.packets
          d1.cursor [] hO (remaining_lt_hasMessageFuel _ _)
        have hd1 : (⟨d1.packets, d1.cursor⟩ : PacketDecoder) = d1 := rfl
        rw [hd1] at he
        generalize PacketDecoder.readLoop (hasMessageFuel d1.packets) d1 [] true = res at he
        obtain ⟨d2, res2⟩ := res
        simp only at he
        subst he
        exact ⟨e, rfl⟩

set_option maxRecDepth 100000

/-- C20, witness: a packet of `2 ^ 14` bytes is turned away by a new decoder, and after the
packet `80 05 01 02`, whose only frame declares five bytes where two are left, `HasMessage`
returns true and `ReadMessage` returns an error. -/
theorem C20_malformed_input_is_an_error_witness :
    ((NewPacketDecoder.AppendPacket (List.replicate 16384 0)).1 = NewPacketDecoder) ∧
      (NewPacketDecoder.AppendPacket [0x80, 0x05, 1, 2]).1.HasMessage.2 = .ok true ∧
      ∃ e, (NewPacketDecoder.AppendPacket [0x80, 0x05, 1, 2]).1.ReadMessage.2 = .error e :=
  ⟨(C20_malformed_input_is_an_error NewPacketDecoder (List.replicate 16384 0)).2.1
      (by rw [List.length_replicate]; decide), rfl,
   (C20_malformed_input_is_an_error (NewPacketDecoder.AppendPacket [0x80, 0x05, 1, 2]).1
      []).2.2.2 ⟨1, rfl⟩⟩

set_option maxRecDepth 512

end packet_layer

namespace sync
open builtin

/-! ### The decoders of `sync` other than `DecodePushPacket` do not panic -/

theorem sliceFrom_DecodeNodePublicKey (buf : List Nat) (lo : Nat) (h : lo + 32 ≤ buf.length) :
    ∃ k, (sliceFrom buf lo).bind DecodeNodePublicKey = some k := by
  rw [sliceFrom_eq _ _ (by omega)]
  obtain ⟨x, hx, _⟩ := slice_some (buf.drop lo) 0 32 (Nat.zero_le _) (by simp; omega)
  exact ⟨x, hx⟩

theorem slice_DecodeNodePublicKey (buf : List Nat) (lo hi : Nat) (h1 : lo + 32 ≤ hi)
    (h2 : hi ≤ buf.length) : ∃ k, (slice buf lo hi).bind DecodeNodePublicKey = some k := by
  obtain ⟨x, hx, hl⟩ := slice_some buf lo hi (by omega) h2
  rw [hx]
  obtain ⟨y, hy, _⟩ := slice_some x 0 32 (Nat.zero_le _) (by omega)
  exact ⟨y, hy⟩

theorem decodeDigestLoop_some (buf : List Nat) :
    ∀ (n i : Nat) (nodes : DigestNodes) (mv : Nat), i + n * 36 ≤ buf.length →
      ∃ r, decodeDigestLoop buf i n nodes mv = some r := by
  intro n
  induction n with
  | zero => intro i nodes mv _; exact ⟨_, rfl⟩
  | succ n ih =>
    intro i nodes mv h
    obtain ⟨k, hk⟩ := sliceFrom_DecodeNodePublicKey buf i (by omega)
    obtain ⟨v, hv⟩ := sliceFrom_Uint32 buf (i + 32) (by omega)
    obtain ⟨r, hr⟩ := ih (i + 36) (nodes.insert k v) (max mv v) (by omega)
    exact ⟨r, by
      simp only [decodeDigestLoop, hk, DecodeVersion, hv, Option.bind_eq_bind,
        Option.some_bind, hr]⟩

theorem DecodeDigest_ne_none (buf : List Nat) : DecodeDigest buf ≠ none := by
  unfold DecodeDigest
  split
  · simp
  · rename_i h
    obtain ⟨c, hc⟩ := binary.Uint32_some buf (by omega)
    simp only [hc, Option.bind_eq_bind, Option.some_bind]
    split
    · simp
    · rename_i h2
      obtain ⟨r, hr⟩ := decodeDigestLoop_some buf c 4 ∅ 0 (by omega)
      simp [hr]

/-- The function `DecodeDelta` does not panic on a buffer shorter than `2 ^ 32` bytes, and
reads no more bytes than the buffer has. -/
theorem DecodeDelta_spec (verify : List Nat → List Nat → List Nat → Bool) (buf : List Nat)
    (hlen : buf.length < 2 ^ 32) :
    ∃ r, DecodeDelta verify buf = some r ∧ ∀ d n, r = .ok (d, n) → n ≤ buf.length := by
  unfold DecodeDelta
  by_cases h : buf.length < 40
  · rw [if_pos h]
    exact ⟨_, rfl, fun d n hr => by cases hr⟩
  · rw [if_neg h]
    obtain ⟨k, hk⟩ := sliceFrom_DecodeNodePublicKey buf 0 (by omega)
    obtain ⟨v, hv⟩ := sliceFrom_Uint32 buf 32 (by omega)
    obtain ⟨len, hl⟩ := sliceFrom_Uint32 buf 36 (by omega)
    simp only [hk, DecodeVersion, hv, hl, Option.bind_eq_bind, Option.some_bind]
    by_cases h2 : buf.length < 40 + len + 65
    · rw [if_pos h2]
      exact ⟨_, rfl, fun d n hr => by cases hr⟩
    · rw [if_neg h2]
      have hm : (40 + len) % 2 ^ 32 = 40 + len := Nat.mod_eq_of_lt (by omega)
      obtain ⟨value, hvalue, _⟩ := slice_some buf 40 (40 + len) (by omega) (by omega)
      obtain ⟨flag, hflag⟩ := index_some buf (40 + len) (by omega)
      rw [hm, hvalue, hflag]
      simp only [Option.some_bind]
      have tail : ∀ (secret : Option (List Nat)) (off : Nat), off + 64 ≤ buf.length →
          ∃ r, ((slice buf off (off + 64)).bind fun signature =>
            (slice buf 0 off).bind fun signed =>
              if (!verify k signed signature) = true then
                some (Except.error "invalid signature for delta")
              else some (Except.ok (NewDelta k v value secret signature, off + 64))) = some r ∧
            ∀ d n, r = .ok (d, n) → n ≤ buf.length := by
        intro secret off hoff
        obtain ⟨sig, hsig, _⟩ := slice_some buf off (off + 64) (by omega) hoff
        obtain ⟨signed, hsigned, _⟩ := slice_some buf 0 off (by omega) (by omega)
        rw [hsig, hsigned]
        simp only [Option.some_bind]
        by_cases hver : (!verify k signed sig) = true
        · rw [if_pos hver]
          exact ⟨_, rfl, fun d n hr => by cases hr⟩
        · rw [if_neg hver]
          refine ⟨_, rfl, fun d n hr => ?_⟩
          simp only [Except.ok.injEq, Prod.mk.injEq] at hr
          omega
      by_cases hf : decide (flag = 1) = true
      · rw [if_pos hf]
        by_cases h3 : buf.length < 40 + len + 1 + 32 + 64
        · rw [if_pos h3]
          exact ⟨_, rfl, fun d n hr => by cases hr⟩
        · rw [if_neg h3]
          obtain ⟨sec, hsec, _⟩ := slice_some buf (40 + len + 1) (40 + len + 1 + 32) (by omega)
            (by omega)
          rw [hsec]
          exact tail _ _ (by omega)
      · rw [if_neg hf]
        exact tail _ _ (by omega)

theorem decodeDeltasLoop_some (verify : List Nat → List Nat → List Nat → Bool)
    (buf : List Nat) (hlen : buf.length < 2 ^ 32) :
    ∀ (n current : Nat) (acc : Deltas), current ≤ buf.length →
      ∃ r, decodeDeltasLoop verify buf n current acc = some r := by
  intro n
  induction n with
  | zero => intro current acc _; exact ⟨_, rfl⟩
  | succ n ih =>
    intro current acc hc
    obtain ⟨r, hr, hn⟩ := DecodeDelta_spec verify (buf.drop current)
      (by rw [List.length_drop]; omega)
    simp only [decodeDeltasLoop, sliceFrom_eq buf current hc, Option.bind_eq_bind,
      Option.some_bind, hr]
    cases r with
    | error e => exact ⟨_, rfl⟩
    | ok p =>
      obtain ⟨delta, readCount⟩ := p
      have := hn delta readCount rfl
      rw [List.length_drop] at this
      exact ih _ _ (by omega)

theorem DecodeDeltas_ne_none (verify : List Nat → List Nat → List Nat → Bool) (buf : List Nat)
    (hlen : buf.length < 2 ^ 32) : DecodeDeltas verify buf ≠ none := by
  unfold DecodeDeltas
  split
  · simp
  · rename_i h
    obtain ⟨c, hc⟩ := binary.Uint32_some buf (by omega)
    obtain ⟨r, hr⟩ := decodeDeltasLoop_some verify buf hlen c 4 [] (by omega)
    simp [hc, hr]

theorem DecodePullPacket_ne_none (verify : List Nat → List Nat → List Nat → Bool)
    (buf : List Nat) : DecodePullPacket verify buf ≠ none := by
  unfold DecodePullPacket
  by_cases h : buf.length < 37
  · rw [if_pos h]; simp
  · rw [if_neg h]
    obtain ⟨b0, h0⟩ := index_some buf 0 (by omega)
    obtain ⟨k, hk⟩ := slice_DecodeNodePublicKey buf 1 33 (by omega) (by omega)
    obtain ⟨v, hv⟩ := slice_Uint32 buf 33 37 (by omega) (by omega)
    simp only [h0, Option.bind_eq_bind, Option.some_bind]
    by_cases hb : b0 ≠ SYNC_PULL
    · rw [if_pos hb]; simp
    · rw [if_neg hb]
      simp only [hk, DecodeVersion, hv, Option.some_bind, sliceFrom_eq buf 37 (by omega)]
      cases hd : DecodeDigest (buf.drop 37) with
      | none => exact absurd hd (DecodeDigest_ne_none _)
      | some r =>
        simp only [Option.some_bind]
        cases r with
        | error e => simp
        | ok p =>
          obtain ⟨digest, digestLen⟩ := p
          simp only
          by_cases h2 : buf.length < 37 + digestLen + 64
          · rw [if_pos h2]; simp
          · rw [if_neg h2]
            obtain ⟨sig, hsig, _⟩ := slice_some buf (37 + digestLen) (37 + digestLen + 64)
              (by omega) (by omega)
            obtain ⟨signed, hsigned, _⟩ := slice_some buf 0 (37 + digestLen) (by omega)
              (by omega)
            rw [hsig, hsigned]
            simp only [Option.some_bind]
            split <;> simp

/-- On a buffer shorter than `2 ^ 32` bytes, `DecodeDigest`, `DecodeDelta`, `DecodeDeltas` and
`DecodePullPacket` return a value or an error: of the decoders of `sync`, only
`DecodePushPacket` can panic on such a buffer. -/
theorem sync_decoders_do_not_panic (verify : List Nat → List Nat → List Nat → Bool)
    (buf : List Nat) (hlen : buf.length < 2 ^ 32) :
    DecodeDigest buf ≠ none ∧ DecodeDelta verify buf ≠ none ∧
      DecodeDeltas verify buf ≠ none ∧ DecodePullPacket verify buf ≠ none := by
  refine ⟨DecodeDigest_ne_none buf, ?_, DecodeDeltas_ne_none verify buf hlen,
    DecodePullPacket_ne_none verify buf⟩
  obtain ⟨r, hr, _⟩ := DecodeDelta_spec verify buf hlen
  rw [hr]
  simp

end sync

namespace network_layer
open builtin

/-- On a buffer that is not empty and shorter than `2 ^ 32` bytes, `DecodeRoutingPacket` and
`decodeTransportPacket` return a packet or an error. -/
theorem dispatch_does_not_panic (data : List Nat) (hne : data ≠ [])
    (hlen : data.length < 2 ^ 32) :
    DecodeRoutingPacket data ≠ none ∧ transport_layer.decodeTransportPacket data ≠ none := by
  obtain ⟨b0, h0⟩ := index_some data 0 (List.length_pos.2 hne)
  have h1 := DecodeRREQ_ne_none data
  have h2 := DecodeRREP_ne_none data hlen
  have h3 := DecodeSESS_ne_none data hlen
  have h4 := DecodeRERR_ne_none data
  have h5 := transport_layer.DecodeDataPacket_ne_none data
  have h6 := transport_layer.DecodeACKPacket_ne_none data
  constructor
  · simp only [DecodeRoutingPacket, h0, Option.bind_eq_bind, Option.some_bind]
    split
    · simpa using h1
    · split
      · simpa using h2
      · split
        · simpa using h4
        · split
          · simpa using h3
          · simp
  · simp only [transport_layer.decodeTransportPacket, h0, Option.bind_eq_bind,
      Option.some_bind]
    split
    · simpa using h5
    · split
      · simpa using h6
      · simp

end network_layer

namespace packet_layer
open builtin

/-! ### The encoder: no panic, no error, frames and packets within the packet size -/

theorem length_copyAt (dst src : List Nat) (off : Nat) (h : off + src.length ≤ dst.length) :
    (copyAt dst off src).length = dst.length := by
  simp only [copyAt, List.length_append, List.length_take, List.length_drop]
  omega

theorem NewPacketEncoder_WellFormed (k : Nat) (h3 : 3 ≤ k) (hk : k < 2 ^ 14) :
    ∃ e, NewPacketEncoder k = some e ∧ e.WellFormed k ∧ e.cursor = 0 := by
  have h1 : ¬ k < 3 := by omega
  have h2 : ¬ k ≥ 1 <<< 14 := by
    have : (1 <<< 14 : Nat) = 2 ^ 14 := by decide
    omega
  refine ⟨{ packets := [], workingPacket := List.replicate k 0, cursor := 0, packetSize := k },
    by simp only [NewPacketEncoder, if_neg h1, if_neg h2], ?_, rfl⟩
  refine ⟨rfl, by simp, Nat.zero_le _, ?_⟩
  intro p hp
  cases hp

theorem copyMessageChecked_ok (k : Nat) (e : PacketEncoder) (m : List Nat) (flags : packetFlags)
    (hw : e.WellFormed k) (hfit : e.cursor + 2 + m.length ≤ k) :
    ∃ e1, e.copyMessageChecked m flags = some (.ok e1) ∧ e1.WellFormed k ∧
      e1.cursor = e.cursor + m.length + 2 ∧ e1.packets = e.packets := by
  obtain ⟨hsize, hlen, hcur, hpk⟩ := hw
  have h1 : e.cursor < e.workingPacket.length := by omega
  have h2 : e.cursor + 1 <
      (e.workingPacket.set e.cursor (newPacketHeader m.length flags).toBytes.1).length := by
    rw [List.length_set]; omega
  have h3 : sliceFrom ((e.workingPacket.set e.cursor
      (newPacketHeader m.length flags).toBytes.1).set (e.cursor + 1)
      (newPacketHeader m.length flags).toBytes.2) (e.cursor + 2) =
      some (((e.workingPacket.set e.cursor
      (newPacketHeader m.length flags).toBytes.1).set (e.cursor + 1)
      (newPacketHeader m.length flags).toBytes.2).drop (e.cursor + 2)) := by
    unfold sliceFrom
    rw [if_pos]
    simp only [List.length_set]; omega
  have h4 : ¬ m.length > (((e.workingPacket.set e.cursor
      (newPacketHeader m.length flags).toBytes.1).set (e.cursor + 1)
      (newPacketHeader m.length flags).toBytes.2).drop (e.cursor + 2)).length := by
    simp only [List.length_drop, List.length_set]; omega
  refine ⟨{ e with
      workingPacket := copyAt ((e.workingPacket.set e.cursor
        (newPacketHeader m.length flags).toBytes.1).set (e.cursor + 1)
        (newPacketHeader m.length flags).toBytes.2) (e.cursor + 2) m,
      cursor := e.cursor + (m.length + 2) }, ?_, ?_, ?_, rfl⟩
  · unfold PacketEncoder.copyMessageChecked
    simp only [not_not.2 h1, not_not.2 h2, if_false, h3, if_neg h4]
  · refine ⟨hsize, ?_, ?_, hpk⟩
    · show (copyAt _ _ _).length = k
      rw [length_copyAt]
      · simp only [List.length_set]; exact hlen
      · simp only [List.length_set]; omega
    · show e.cursor + (m.length + 2) ≤ k
      omega
  · show e.cursor + (m.length + 2) = e.cursor + m.length + 2
    omega

theorem writeNextPacketChecked_ok (k : Nat) (e : PacketEncoder) (hw : e.WellFormed k) :
    ∃ e1, e.writeNextPacketChecked = some e1 ∧ e1.WellFormed k ∧ e1.cursor = 0 := by
  obtain ⟨hsize, hlen, hcur, hpk⟩ := hw
  have h1 : slice e.workingPacket 0 e.cursor =
      some ((e.workingPacket.take e.cursor).drop 0) := by
    unfold builtin.slice
    rw [if_pos]
    exact ⟨Nat.zero_le _, by omega⟩
  refine ⟨{ e with
      packets := e.packets ++ [(e.workingPacket.take e.cursor).drop 0],
      workingPacket := List.replicate e.packetSize 0,
      cursor := 0 }, ?_, ?_, rfl⟩
  · unfold PacketEncoder.writeNextPacketChecked
    rw [h1]
    rfl
  · refine ⟨hsize, ?_, Nat.zero_le _, ?_⟩
    · show (List.replicate e.packetSize 0).length = k
      rw [List.length_replicate, hsize]
    · intro p hp
      have hp1 : p ∈ e.packets ++ [(e.workingPacket.take e.cursor).drop 0] := hp
      rcases List.mem_append.1 hp1 with h | h
      · exact hpk p h
      · rw [List.mem_singleton] at h
        rw [h]
        simp only [List.drop_zero, List.length_take]
        omega

theorem PopPacketChecked_ok (k : Nat) (e : PacketEncoder) (hw : e.WellFormed k) :
    ∃ e1 p, e.PopPacketChecked = some (e1, p) ∧ e1.WellFormed k ∧ p.length ≤ k := by
  obtain ⟨hsize, hlen, hcur, hpk⟩ := hw
  unfold PacketEncoder.PopPacketChecked
  cases hps : e.packets with
  | nil =>
    by_cases hc : e.cursor > 0
    · have h1 : slice e.workingPacket 0 e.cursor =
          some ((e.workingPacket.take e.cursor).drop 0) := by
        unfold builtin.slice
        rw [if_pos]
        exact ⟨Nat.zero_le _, by omega⟩
      refine ⟨{ packets := [], workingPacket := List.replicate e.packetSize 0, cursor := 0,
                packetSize := e.packetSize },
        (e.workingPacket.take e.cursor).drop 0, by simp only [if_pos hc, h1]; rfl, ?_, ?_⟩
      · refine ⟨hsize, ?_, Nat.zero_le _, ?_⟩
        · show (List.replicate e.packetSize 0).length = k
          rw [List.length_replicate, hsize]
        · intro p hp
          cases hp
      · simp only [List.drop_zero, List.length_take]
        omega
    · exact ⟨e, [], by simp only [if_neg hc], ⟨hsize, hlen, hcur, hpk⟩, Nat.zero_le _⟩
  | cons p rest =>
    refine ⟨{ e with packets := rest }, p, rfl, ⟨hsize, hlen, hcur, ?_⟩, ?_⟩
    · intro q hq
      exact hpk q (by rw [hps]; exact List.mem_cons_of_mem _ hq)
    · exact hpk p (by rw [hps]; exact List.mem_cons_self _ _)

end packet_layer

namespace packet_layer
open builtin

theorem slice_zero_take (l : List Nat) (n : Nat) (h : n ≤ l.length) :
    builtin.slice l 0 n = some (l.take n) := by
  unfold builtin.slice
  rw [if_pos ⟨Nat.zero_le _, h⟩, List.drop_zero]

theorem sliceFrom_drop (l : List Nat) (n : Nat) (h : n ≤ l.length) :
    builtin.sliceFrom l n = some (l.drop n) := by
  unfold builtin.sliceFrom
  rw [if_pos h]

theorem encodeRemainingChecked_ok (k : Nat) (h3 : 3 ≤ k) :
    ∀ (fuel : Nat) (e : PacketEncoder) (remaining : List Nat) (frames : List (List Nat)),
      e.WellFormed k → e.cursor = 0 → remaining.length ≤ fuel →
      (∀ f ∈ frames, f.length ≤ k - 2) →
      ∃ e1 frames1, PacketEncoder.encodeRemainingChecked fuel e remaining frames =
          some (.ok (e1, frames1)) ∧ e1.WellFormed k ∧ ∀ f ∈ frames1, f.length ≤ k - 2 := by
  intro fuel
  induction fuel with
  | zero =>
    intro e remaining frames hw _ hlen hfr
    have h0 : ¬ remaining.length > 0 := by omega
    exact ⟨e, frames, by rw [PacketEncoder.encodeRemainingChecked, if_neg h0], hw, hfr⟩
  | succ fuel ih =>
    intro e remaining frames hw hc hlen hfr
    have hsize : e.packetSize = k := hw.1
    have hroom : (e.packetSize : Int) - (e.cursor : Int) - 2 = ((k - 2 : Nat) : Int) := by
      rw [hsize, hc]; omega
    rw [PacketEncoder.encodeRemainingChecked]
    by_cases hr : remaining.length > 0
    · rw [if_pos hr]
      simp only [hroom]
      by_cases hbig : (remaining.length : Int) > ((k - 2 : Nat) : Int)
      · rw [if_pos hbig]
        have hnn : ¬ ((k - 2 : Nat) : Int) < 0 := by omega
        rw [if_neg hnn, Int.toNat_ofNat]
        have hbig1 : k - 2 < remaining.length := by omega
        rw [slice_zero_take remaining (k - 2) (by omega)]
        have hchunk : (remaining.take (k - 2)).length = k - 2 := by
          rw [List.length_take]; omega
        obtain ⟨e1, he1, hw1, _, _⟩ := copyMessageChecked_ok k e (remaining.take (k - 2))
          (newPacketFlags true) hw (by rw [hchunk, hc]; omega)
        obtain ⟨e2, he2, hw2, hc2⟩ := writeNextPacketChecked_ok k e1 hw1
        have hsize2 : e2.packetSize = k := hw2.1
        have hnn2 : ¬ (e2.packetSize : Int) - 2 < 0 := by rw [hsize2]; omega
        have hto : ((e2.packetSize : Int) - 2).toNat = k - 2 := by rw [hsize2]; omega
        have hfr1 : ∀ f ∈ frames ++ [remaining.take (k - 2)], f.length ≤ k - 2 := by
          intro f hf
          rcases List.mem_append.1 hf with h | h
          · exact hfr f h
          · rw [List.mem_singleton] at h
            rw [h, hchunk]
        obtain ⟨e3, frames3, he3, hw3, hfr3⟩ := ih e2 (remaining.drop (k - 2))
          (frames ++ [remaining.take (k - 2)]) hw2 hc2
          (by rw [List.length_drop]; omega) hfr1
        refine ⟨e3, frames3, ?_, hw3, hfr3⟩
        simp only [Option.bind_eq_bind, Option.some_bind, he1, he2, if_neg hnn2, hto,
          sliceFrom_drop remaining (k - 2) (by omega), he3]
      · rw [if_neg hbig]
        obtain ⟨e1, he1, hw1, _, _⟩ := copyMessageChecked_ok k e remaining
          (newPacketFlags false) hw (by rw [hc]; omega)
        refine ⟨e1, frames ++ [remaining], ?_, hw1, ?_⟩
        · simp only [Option.bind_eq_bind, Option.some_bind, he1]
        · intro f hf
          rcases List.mem_append.1 hf with h | h
          · exact hfr f h
          · rw [List.mem_singleton] at h
            rw [h]; omega
    · rw [if_neg hr]
      exact ⟨e, frames, rfl, hw, hfr⟩

theorem EncodeMessageChecked_ok (k : Nat) (h3 : 3 ≤ k) (e : PacketEncoder) (message : List Nat)
    (hw : e.WellFormed k) :
    ∃ e1 frames, e.EncodeMessageChecked message = some (.ok (e1, frames)) ∧
      e1.WellFormed k ∧ ∀ f ∈ frames, f.length ≤ k - 2 := by
  -- what follows the edge case with a single byte left
  have tail : ∀ e0 : PacketEncoder, e0.WellFormed k → e0.cursor + 3 ≤ k →
      ∃ e1 frames,
        (if (message.length : Int) > (e0.packetSize : Int) - (e0.cursor : Int) - 2 then
          if (e0.packetSize : Int) - (e0.cursor : Int) - 2 < 0 then none
          else
            (builtin.slice message 0
                ((e0.packetSize : Int) - (e0.cursor : Int) - 2).toNat).bind fun chunk =>
              (e0.copyMessageChecked chunk (newPacketFlags true)).bind fun r =>
                match r with
                | Except.error e => some (Except.error e)
                | Except.ok encoder1 =>
                  encoder1.writeNextPacketChecked.bind fun encoder2 =>
                    (sliceFrom message
                        ((e0.packetSize : Int) - (e0.cursor : Int) - 2).toNat).bind
                      fun remaining =>
                        PacketEncoder.encodeRemainingChecked remaining.length encoder2
                          remaining [chunk]
        else
          (e0.copyMessageChecked message (newPacketFlags false)).bind fun r =>
            match r with
            | Except.error e => some (Except.error e)
            | Except.ok encoder1 => some (Except.ok (encoder1, [message]))) =
          some (.ok (e1, frames)) ∧
        e1.WellFormed k ∧ ∀ f ∈ frames, f.length ≤ k - 2 := by
    intro e0 hw0 hc0
    have hsize0 : e0.packetSize = k := hw0.1
    have hroom : (e0.packetSize : Int) - (e0.cursor : Int) - 2 =
        ((k - e0.cursor - 2 : Nat) : Int) := by
      rw [hsize0]; omega
    simp only [hroom]
    by_cases hbig : (message.length : Int) > ((k - e0.cursor - 2 : Nat) : Int)
    · rw [if_pos hbig]
      have hnn : ¬ ((k - e0.cursor - 2 : Nat) : Int) < 0 := by omega
      rw [if_neg hnn, Int.toNat_ofNat]
      have hbig1 : k - e0.cursor - 2 < message.length := by omega
      rw [slice_zero_take message _ (by omega)]
      have hchunk : (message.take (k - e0.cursor - 2)).length = k - e0.cursor - 2 := by
        rw [List.length_take]; omega
      obtain ⟨e1, he1, hw1, _, _⟩ := copyMessageChecked_ok k e0
        (message.take (k - e0.cursor - 2)) (newPacketFlags true) hw0 (by rw [hchunk]; omega)
      obtain ⟨e2, he2, hw2, hc2⟩ := writeNextPacketChecked_ok k e1 hw1
      have hfr1 : ∀ f ∈ [message.take (k - e0.cursor - 2)], f.length ≤ k - 2 := by
        intro f hf
        rw [List.mem_singleton] at hf
        rw [hf, hchunk]; omega
      obtain ⟨e3, frames3, he3, hw3, hfr3⟩ := encodeRemainingChecked_ok k h3
        (message.drop (k - e0.cursor - 2)).length e2 (message.drop (k - e0.cursor - 2))
        [message.take (k - e0.cursor - 2)] hw2 hc2 (le_refl _) hfr1
      refine ⟨e3, frames3, ?_, hw3, hfr3⟩
      simp only [Option.some_bind, he1, he2, sliceFrom_drop message _ (le_of_lt hbig1), he3]
    · rw [if_neg hbig]
      obtain ⟨e1, he1, hw1, _, _⟩ := copyMessageChecked_ok k e0 message
        (newPacketFlags false) hw0 (by omega)
      refine ⟨e1, [message], ?_, hw1, ?_⟩
      · simp only [Option.some_bind, he1]
      · intro f hf
        rw [List.mem_singleton] at hf
        rw [hf]; omega
  unfold PacketEncoder.EncodeMessageChecked
  simp only [Option.bind_eq_bind]
  by_cases hc : (e.cursor : Int) ≥ (e.packetSize : Int) - 2
  · obtain ⟨e0, he0, hw0, hc0⟩ := writeNextPacketChecked_ok k e hw
    rw [if_pos hc, he0, Option.some_bind]
    exact tail e0 hw0 (by omega)
  · rw [if_neg hc]
    have := hw.1
    exact tail e hw (by omega)

theorem runEncoderCalls_ok (k : Nat) (h3 : 3 ≤ k) (calls : List EncoderCall) :
    ∀ run : EncoderRun, run.encoder.WellFormed k → (∀ f ∈ run.frames, f.length ≤ k - 2) →
      (∀ p ∈ run.popped, p.length ≤ k) →
      ∃ run1, runEncoderCalls run calls = some (.ok run1) ∧ run1.encoder.WellFormed k ∧
        (∀ f ∈ run1.frames, f.length ≤ k - 2) ∧ ∀ p ∈ run1.popped, p.length ≤ k := by
  induction calls with
  | nil =>
    intro run hw hf hp
    exact ⟨run, rfl, hw, hf, hp⟩
  | cons call calls ih =>
    intro run hw hf hp
    cases call with
    | encodeMessage message =>
      obtain ⟨e1, frames, he1, hw1, hf1⟩ := EncodeMessageChecked_ok k h3 run.encoder message hw
      obtain ⟨run1, hrun1, h⟩ := ih { run with encoder := e1, frames := run.frames ++ frames }
        hw1 (by
          intro f hmem
          rcases List.mem_append.1 hmem with h | h
          · exact hf f h
          · exact hf1 f h) hp
      refine ⟨run1, ?_, h⟩
      rw [runEncoderCalls, he1]
      exact hrun1
    | popPacket =>
      obtain ⟨e1, p, he1, hw1, hp1⟩ := PopPacketChecked_ok k run.encoder hw
      obtain ⟨run1, hrun1, h⟩ := ih { run with encoder := e1, popped := run.popped ++ [p] }
        hw1 hf (by
          intro q hmem
          rcases List.mem_append.1 hmem with h | h
          · exact hp q h
          · rw [List.mem_singleton] at h
            rw [h]; exact hp1)
      refine ⟨run1, ?_, h⟩
      rw [runEncoderCalls, he1]
      exact hrun1

/-- C21: on an encoder of packet size `k` with `3 ≤ k < 2 ^ 14`, every sequence of
`EncodeMessage` and `PopPacket` calls runs to its end without a panic (no index or slice
leaves the working packet) and without an error from `EncodeMessage`; every frame written
has a body of at most `k - 2` bytes, and every packet returned by `PopPacket` has at most `k`
bytes. -/
theorem C21_encoder_stays_within_packet_size (k : Nat) (calls : List EncoderCall)
    (h3 : 3 ≤ k) (hk : k < 2 ^ 14) :
    ∃ e run, NewPacketEncoder k = some e ∧
      runEncoderCalls { encoder := e, frames := [], popped := [] } calls = some (.ok run) ∧
      (∀ f ∈ run.frames, f.length ≤ k - 2) ∧ (∀ p ∈ run.popped, p.length ≤ k) ∧
      run.encoder.workingPacket.length = k ∧ run.encoder.cursor ≤ k := by
  obtain ⟨e, he, hw, _⟩ := NewPacketEncoder_WellFormed k h3 hk
  obtain ⟨run, hrun, hw1, hf, hp⟩ := runEncoderCalls_ok k h3 calls
    { encoder := e, frames := [], popped := [] } hw
    (by intro f hmem; cases hmem) (by intro p hmem; cases hmem)
  exact ⟨e, run, he, hrun, hf, hp, hw1.2.1, hw1.2.2.1⟩

theorem C21_encoder_stays_within_packet_size_witness :
    (3 ≤ 5 ∧ 5 < 2 ^ 14) ∧
    ∃ e run, NewPacketEncoder 5 = some e ∧
      runEncoderCalls { encoder := e, frames := [], popped := [] }
        [.encodeMessage [1, 2, 3, 4], .popPacket, .encodeMessage [], .popPacket, .popPacket] =
        some (.ok run) ∧
      (∀ f ∈ run.frames, f.length ≤ 5 - 2) ∧ (∀ p ∈ run.popped, p.length ≤ 5) ∧
      run.encoder.workingPacket.length = 5 ∧ run.encoder.cursor ≤ 5 :=
  ⟨by decide, C21_encoder_stays_within_packet_size 5
    [.encodeMessage [1, 2, 3, 4], .popPacket, .encodeMessage [], .popPacket, .popPacket]
    (by decide) (by decide)⟩

end packet_layer

namespace contact_bitmap
open builtin

/-! ### `ContactBits`: twelve distinct indices below 2048 -/

theorem resolveCollision_orbit (bits : List Nat) :
    ∀ (j fuel b : Nat), b < 2047 → j < fuel → (∀ i < j, (b + i) % 2047 ∈ bits) →
      (b + j) % 2047 ∉ bits → resolveCollision fuel bits b = some ((b + j) % 2047) := by
  intro j
  induction j with
  | zero =>
    intro fuel b hb hf _ hnot
    obtain ⟨f, rfl⟩ : ∃ f, fuel = f + 1 := ⟨fuel - 1, by omega⟩
    have hb0 : (b + 0) % 2047 = b := by omega
    rw [hb0] at hnot ⊢
    have hc : bits.contains b = false := by
      simpa using hnot
    rw [resolveCollision, hc]
    rfl
  | succ j ih =>
    intro fuel b hb hf hall hnot
    obtain ⟨f, rfl⟩ : ∃ f, fuel = f + 1 := ⟨fuel - 1, by omega⟩
    have hmem : b ∈ bits := by
      have := hall 0 (by omega)
      have hb0 : (b + 0) % 2047 = b := by omega
      rwa [hb0] at this
    have hc : bits.contains b = true := by
      simpa using hmem
    rw [resolveCollision, hc, if_pos rfl]
    have hstep : ∀ i, ((b + 1) % 0x7FF + i) % 2047 = (b + (i + 1)) % 2047 := by
      intro i
      have : (0x7FF : Nat) = 2047 := rfl
      omega
    have := ih f ((b + 1) % 0x7FF) (Nat.mod_lt _ (by decide)) (by omega)
      (by intro i hi; rw [hstep]; exact hall (i + 1) (by omega))
      (by rw [hstep]; exact hnot)
    rw [this, hstep]

theorem exists_free_index (bits : List Nat) (b : Nat)
    (hm : (bits.filter (fun x => decide (x < 2047))).length < 2047) :
    ∃ j, j ≤ (bits.filter (fun x => decide (x < 2047))).length ∧ (b + j) % 2047 ∉ bits := by
  by_contra hcon
  push_neg at hcon
  have hsub : (List.range ((bits.filter (fun x => decide (x < 2047))).length + 1)).map
      (fun j => (b + j) % 2047) ⊆ bits.filter (fun x => decide (x < 2047)) := by
    intro x hx
    obtain ⟨j, hj, rfl⟩ := List.mem_map.1 hx
    rw [List.mem_range] at hj
    rw [List.mem_filter]
    exact ⟨hcon j (by omega), by simpa using Nat.mod_lt _ (by decide)⟩
  have hnd : ((List.range ((bits.filter (fun x => decide (x < 2047))).length + 1)).map
      (fun j => (b + j) % 2047)).Nodup := by
    apply List.Nodup.map_on _ (List.nodup_range _)
    intro x hx y hy hxy
    rw [List.mem_range] at hx hy
    simp only at hxy
    omega
  have := (List.Nodup.subperm hnd hsub).length_le
  rw [List.length_map, List.length_range] at this
  omega

theorem resolveCollision_below (bits : List Nat) (b fuel : Nat) (hb : b < 2047)
    (hfuel : (bits.filter (fun x => decide (x < 2047))).length < fuel)
    (hm : (bits.filter (fun x => decide (x < 2047))).length < 2047) :
    ∃ r, resolveCollision fuel bits b = some r ∧ r ∉ bits ∧ r < 2047 := by
  classical
  have hex := exists_free_index bits b hm
  have hex1 : ∃ j, (b + j) % 2047 ∉ bits := by
    obtain ⟨j, _, hj⟩ := hex
    exact ⟨j, hj⟩
  have hmin : ∀ i < Nat.find hex1, (b + i) % 2047 ∈ bits := by
    intro i hi
    by_contra h
    exact Nat.find_min hex1 hi h
  have hle : Nat.find hex1 ≤ (bits.filter (fun x => decide (x < 2047))).length := by
    obtain ⟨j, hj, hjn⟩ := hex
    exact le_trans (Nat.find_min' hex1 hjn) hj
  exact ⟨_, resolveCollision_orbit bits _ fuel b hb (by omega) hmin (Nat.find_spec hex1),
    Nat.find_spec hex1, Nat.mod_lt _ (by decide)⟩

theorem resolveCollision_spec (bits : List Nat) (b : Nat) (hb : b < 2048)
    (hlen : bits.length < 2047) :
    ∃ r, resolveCollision (bits.length + 1) bits b = some r ∧ r ∉ bits ∧ r < 2048 := by
  have hfl : (bits.filter (fun x => decide (x < 2047))).length ≤ bits.length :=
    List.length_filter_le _ _
  by_cases hb1 : b < 2047
  · obtain ⟨r, h1, h2, h3⟩ := resolveCollision_below bits b (bits.length + 1) hb1
      (by omega) (by omega)
    exact ⟨r, h1, h2, by omega⟩
  · have hb2 : b = 2047 := by omega
    subst hb2
    by_cases hmem : 2047 ∈ bits
    · have hc : bits.contains 2047 = true := by simpa using hmem
      have hlt : (bits.filter (fun x => decide (x < 2047))).length < bits.length := by
        rw [List.length_filter_lt_length_iff_exists]
        exact ⟨2047, hmem, by simp⟩
      obtain ⟨r, h1, h2, h3⟩ := resolveCollision_below bits ((2047 + 1) % 0x7FF) bits.length
        (Nat.mod_lt _ (by decide)) hlt (by omega)
      refine ⟨r, ?_, h2, by omega⟩
      rw [resolveCollision, hc, if_pos rfl]
      exact h1
    · have hc : bits.contains 2047 = false := by simpa using hmem
      refine ⟨2047, ?_, hmem, by omega⟩
      rw [resolveCollision, hc]
      rfl

theorem contactBitsLoop_spec (hash : List Nat) (hlen : hash.length = 32) :
    ∀ (rounds i : Nat) (bits : List Nat), i + rounds ≤ 12 → bits.length = i → bits.Nodup →
      (∀ x ∈ bits, x < 2048) →
      ∃ out, contactBitsLoop hash rounds i bits = some out ∧ out.length = i + rounds ∧
        out.Nodup ∧ ∀ x ∈ out, x < 2048 := by
  intro rounds
  induction rounds with
  | zero =>
    intro i bits _ hl hnd hlt
    exact ⟨bits, rfl, by omega, hnd, hlt⟩
  | succ rounds ih =>
    intro i bits hi hl hnd hlt
    have hslice : sliceFrom hash (i * 2) = some (hash.drop (i * 2)) := by
      unfold builtin.sliceFrom
      rw [if_pos (by omega)]
    obtain ⟨b0, b1, rest, hdrop⟩ : ∃ b0 b1 rest, hash.drop (i * 2) = b0 :: b1 :: rest := by
      have h2 : 2 ≤ (hash.drop (i * 2)).length := by
        rw [List.length_drop]; omega
      match hd : hash.drop (i * 2), h2 with
      | b0 :: b1 :: rest, _ => exact ⟨b0, b1, rest, rfl⟩
    have hword : binary.LittleEndianUint16 (hash.drop (i * 2)) = some (b0 + b1 * 2 ^ 8) := by
      rw [hdrop]; rfl
    have hidx : ((b0 + b1 * 2 ^ 8) % 2 ^ 16) &&& 0x7FF < 2048 :=
      Nat.lt_succ_of_le Nat.and_le_right
    obtain ⟨r, hr, hrn, hrlt⟩ := resolveCollision_spec bits _ hidx (by omega)
    have hnd1 : (bits ++ [r]).Nodup := by
      rw [List.nodup_append]
      refine ⟨hnd, List.nodup_singleton r, ?_⟩
      intro x hx hx1
      rw [List.mem_singleton] at hx1
      exact hrn (hx1 ▸ hx)
    have hlt1 : ∀ x ∈ bits ++ [r], x < 2048 := by
      intro x hx
      rcases List.mem_append.1 hx with h | h
      · exact hlt x h
      · rw [List.mem_singleton] at h
        rw [h]; exact hrlt
    obtain ⟨out, hout, h1, h2, h3⟩ := ih (i + 1) (bits ++ [r]) (by omega)
      (by rw [List.length_append, hl]; rfl) hnd1 hlt1
    refine ⟨out, ?_, by omega, h2, h3⟩
    rw [contactBitsLoop]
    simp only [Option.bind_eq_bind, hslice, Option.some_bind, hword, hr, hout]

theorem ContactBits_ok (hmac : List Nat → List Nat → List Nat)
    (hlen : ∀ key message, (hmac key message).length = 32) (seed : Nat) (secret : List Nat)
    (hs : secret.length = 32) :
    ∃ bits, ContactBits hmac seed secret = some (.ok bits) ∧ bits.length = 12 ∧ bits.Nodup ∧
      ∀ b ∈ bits, b < 2048 := by
  obtain ⟨out, hout, h1, h2, h3⟩ := contactBitsLoop_spec (hmac secret (Seed.Bytes seed))
    (hlen _ _) 12 0 [] (by omega) rfl List.nodup_nil (by intro x hx; cases hx)
  refine ⟨out, ?_, by omega, h2, h3⟩
  unfold ContactBits
  rw [if_neg (by rw [hs]; decide)]
  simp only [Option.bind_eq_bind, hout, Option.some_bind]

theorem length_hmacFixed (key message : List Nat) : (hmacFixed key message).length = 32 := by
  simp only [hmacFixed, List.length_take, List.length_append, List.length_replicate]
  omega

/-- C22: `ContactBits(seed, secret)` returns an error when `len(secret) ≠ 32`, and otherwise,
for every seed, twelve indices that are pairwise distinct and each in `[0, 2048)`; `hmac` is
`HMAC-SHA256`, whose output has 32 bytes. -/
theorem C22_ContactBits (hmac : List Nat → List Nat → List Nat)
    (hlen : ∀ key message, (hmac key message).length = 32) (seed : Nat) (secret : List Nat) :
    (secret.length ≠ 32 → ∃ e, ContactBits hmac seed secret = some (.error e)) ∧
    (secret.length = 32 → ∃ bits, ContactBits hmac seed secret = some (.ok bits) ∧
      bits.length = 12 ∧ bits.Nodup ∧ ∀ b ∈ bits, b < 2048) := by
  constructor
  · intro hs
    exact ⟨_, by unfold ContactBits; rw [if_pos hs]⟩
  · intro hs
    exact ContactBits_ok hmac hlen seed secret hs

theorem C22_ContactBits_witness :
    (∀ key message, (hmacFixed key message).length = 32) ∧
    ((List.replicate 32 7).length ≠ 32 →
      ∃ e, ContactBits hmacFixed 5 (List.replicate 32 7) = some (.error e)) ∧
    ((List.replicate 32 7).length = 32 →
      ∃ bits, ContactBits hmacFixed 5 (List.replicate 32 7) = some (.ok bits) ∧
      bits.length = 12 ∧ bits.Nodup ∧ ∀ b ∈ bits, b < 2048) :=
  ⟨length_hmacFixed, C22_ContactBits hmacFixed length_hmacFixed 5 (List.replicate 32 7)⟩

end contact_bitmap

namespace contact_bitmap
open builtin

/-! ### Bits of a bit array -/

theorem decide_and_two_pow_pos (x q : Nat) : decide (x &&& 2 ^ q > 0) = x.testBit q := by
  cases h : x.testBit q with
  | true =>
    have h1 : (x &&& 2 ^ q).testBit q = true := by
      rw [Nat.testBit_and, h, Nat.testBit_two_pow_self]; rfl
    have h2 : x &&& 2 ^ q ≠ 0 := by
      intro h0
      rw [h0, Nat.zero_testBit] at h1
      cases h1
    simpa using Nat.pos_of_ne_zero h2
  | false =>
    have h2 : x &&& 2 ^ q = 0 := by
      apply Nat.eq_of_testBit_eq
      intro i
      rw [Nat.testBit_and, Nat.zero_testBit]
      by_cases hi : q = i
      · subst hi; rw [h]; rfl
      · rw [Nat.testBit_two_pow_of_ne hi, Bool.and_false]
    simp [h2]

theorem mask_eq (index : Nat) : (1 <<< (index % 8)) % 256 = 2 ^ (index % 8) := by
  rw [Nat.one_shiftLeft]
  apply Nat.mod_eq_of_lt
  have h : index % 8 < 8 := Nat.mod_lt _ (by decide)
  calc 2 ^ (index % 8) < 2 ^ 8 := Nat.pow_lt_pow_right (by decide) h
    _ = 256 := by decide

theorem getBit_eq (bits : List Nat) (index : Nat) (h : index / 8 < bits.length) :
    getBit bits index = some (bitAt bits index) := by
  unfold getBit builtin.index bitAt
  rw [List.getElem?_eq_getElem h, List.getD_eq_getElem _ _ h, mask_eq]
  simp only [Option.bind_eq_bind, Option.some_bind, decide_and_two_pow_pos]

theorem bitAt_set_self (bits : List Nat) (index x : Nat) (h : index / 8 < bits.length) :
    bitAt (bits.set (index / 8) x) index = x.testBit (index % 8) := by
  unfold bitAt
  rw [List.getD_eq_getElem _ _ (by rw [List.length_set]; exact h)]
  simp

theorem bitAt_set_other (bits : List Nat) (index j x : Nat) (h : index / 8 < bits.length)
    (hx : ∀ q, q < 8 → q ≠ index % 8 →
      x.testBit q = (bits.getD (index / 8) 0).testBit q)
    (hj : j ≠ index) : bitAt (bits.set (index / 8) x) j = bitAt bits j := by
  unfold bitAt
  by_cases hb : j / 8 = index / 8
  · have hq : j % 8 ≠ index % 8 := by omega
    rw [hb, List.getD_eq_getElem _ _ (by rw [List.length_set]; exact h)]
    simp only [List.getElem_set_self]
    exact hx _ (Nat.mod_lt _ (by decide)) hq
  · congr 1
    simp only [List.getD_eq_getElem?_getD]
    rw [List.getElem?_set_ne (fun h' => hb h'.symm)]

theorem setBit_spec (bits : List Nat) (index : Nat) (value : Bool)
    (h : index / 8 < bits.length) :
    ∃ bits1, setBit bits index value = some bits1 ∧ bits1.length = bits.length ∧
      bitAt bits1 index = value ∧ ∀ j, j ≠ index → bitAt bits1 j = bitAt bits j := by
  have hget : bits.getD (index / 8) 0 = bits[index / 8] := List.getD_eq_getElem _ _ h
  have h8 : index % 8 < 8 := Nat.mod_lt _ (by decide)
  cases value with
  | true =>
    refine ⟨bits.set (index / 8) (bits[index / 8] ||| 2 ^ (index % 8)), ?_, ?_, ?_, ?_⟩
    · unfold setBit builtin.index
      rw [List.getElem?_eq_getElem h, mask_eq]
      rfl
    · rw [List.length_set]
    · rw [bitAt_set_self _ _ _ h, Nat.testBit_or, Nat.testBit_two_pow_self, Bool.or_true]
    · intro j hj
      apply bitAt_set_other _ _ _ _ h _ hj
      intro q _ hq
      rw [Nat.testBit_or, Nat.testBit_two_pow_of_ne (Ne.symm hq), Bool.or_false, hget]
  | false =>
    refine ⟨bits.set (index / 8) (bits[index / 8] &&& (255 ^^^ 2 ^ (index % 8))), ?_, ?_, ?_, ?_⟩
    · unfold setBit builtin.index
      rw [List.getElem?_eq_getElem h, mask_eq]
      rfl
    · rw [List.length_set]
    · rw [bitAt_set_self _ _ _ h, Nat.testBit_and, Nat.testBit_xor,
        Nat.testBit_two_pow_self]
      have : Nat.testBit 255 (index % 8) = true := by
        have := Nat.testBit_two_pow_sub_one 8 (index % 8)
        simpa [h8] using this
      rw [this]
      simp
    · intro j hj
      apply bitAt_set_other _ _ _ _ h _ hj
      intro q hq8 hq
      rw [Nat.testBit_and, Nat.testBit_xor, Nat.testBit_two_pow_of_ne (Ne.symm hq), hget]
      have : Nat.testBit 255 q = true := by
        have := Nat.testBit_two_pow_sub_one 8 q
        simpa [hq8] using this
      rw [this]
      simp

end contact_bitmap

namespace contact_bitmap
open builtin

/-! ### The three loops over the indices of a contact -/

theorem Matches_nil (bitmap : List Nat) (i : Nat) : Matches bitmap i [] := by
  intro p h
  exact absurd h (Nat.not_lt_zero _)

theorem Matches_cons (bitmap : List Nat) (i b : Nat) (rest : List Nat) :
    Matches bitmap i (b :: rest) ↔ bitAt bitmap b = wanted i ∧ Matches bitmap (i + 1) rest := by
  constructor
  · intro h
    refine ⟨h 0 (Nat.zero_lt_succ _), ?_⟩
    intro p hp
    have := h (p + 1) (Nat.succ_lt_succ hp)
    rw [show i + 1 + p = i + (p + 1) by omega]
    exact this
  · rintro ⟨h0, h1⟩ p hp
    cases p with
    | zero => exact h0
    | succ p =>
      have := h1 p (Nat.lt_of_succ_lt_succ hp)
      rw [show i + (p + 1) = i + 1 + p by omega]
      exact this

theorem Consistent_nil (lockedBits bitmap : List Nat) (i : Nat) :
    Consistent lockedBits bitmap i [] := by
  intro p h
  exact absurd h (Nat.not_lt_zero _)

theorem Consistent_cons (lockedBits bitmap : List Nat) (i b : Nat) (rest : List Nat) :
    Consistent lockedBits bitmap i (b :: rest) ↔
      (bitAt lockedBits b = true → bitAt bitmap b = wanted i) ∧
        Consistent lockedBits bitmap (i + 1) rest := by
  constructor
  · intro h
    refine ⟨h 0 (Nat.zero_lt_succ _), ?_⟩
    intro p hp
    have := h (p + 1) (Nat.succ_lt_succ hp)
    rw [show i + 1 + p = i + (p + 1) by omega]
    exact this
  · rintro ⟨h0, h1⟩ p hp
    cases p with
    | zero => exact h0
    | succ p =>
      have := h1 p (Nat.lt_of_succ_lt_succ hp)
      rw [show i + (p + 1) = i + 1 + p by omega]
      exact this

theorem matchesBitmap_spec (bitmap : List Nat) (hb : bitmap.length = 256) :
    ∀ (contactBits : List Nat) (i : Nat), (∀ b ∈ contactBits, b < 2048) →
      ∃ r, matchesBitmap bitmap i contactBits = some r ∧
        (r = true ↔ Matches bitmap i contactBits) := by
  intro contactBits
  induction contactBits with
  | nil =>
    intro i _
    exact ⟨true, rfl, by simp [Matches_nil]⟩
  | cons b rest ih =>
    intro i hlt
    have hb8 : b / 8 < bitmap.length := by
      have := hlt b (List.mem_cons_self _ _)
      omega
    obtain ⟨r, hr, hiff⟩ := ih (i + 1) (fun x hx => hlt x (List.mem_cons_of_mem _ hx))
    rw [matchesBitmap, getBit_eq _ _ hb8]
    simp only [Option.bind_eq_bind, Option.some_bind]
    by_cases hv : bitAt bitmap b = wanted i
    · refine ⟨r, ?_, ?_⟩
      · have : (bitAt bitmap b ≠ (i % 2 == 1)) = False := by
          simpa [wanted] using hv
        simp only [this, if_false]
        exact hr
      · rw [Matches_cons, hiff]
        exact ⟨fun h => ⟨hv, h⟩, fun h => h.2⟩
    · refine ⟨false, ?_, ?_⟩
      · have : (bitAt bitmap b ≠ (i % 2 == 1)) = True := by
          simpa [wanted] using hv
        simp only [this, if_true]
      · rw [Matches_cons]
        constructor
        · intro h; cases h
        · intro h; exact absurd h.1 hv

theorem hasCollision_spec (lockedBits bitmap : List Nat) (hl : lockedBits.length = 256)
    (hb : bitmap.length = 256) :
    ∀ (contactBits : List Nat) (i : Nat), (∀ b ∈ contactBits, b < 2048) →
      ∃ r, hasCollision lockedBits bitmap i contactBits = some r ∧
        (r = false ↔ Consistent lockedBits bitmap i contactBits) := by
  intro contactBits
  induction contactBits with
  | nil =>
    intro i _
    exact ⟨false, rfl, by simp [Consistent_nil]⟩
  | cons b rest ih =>
    intro i hlt
    have hb8 : b / 8 < bitmap.length := by
      have := hlt b (List.mem_cons_self _ _)
      omega
    have hl8 : b / 8 < lockedBits.length := by
      have := hlt b (List.mem_cons_self _ _)
      omega
    obtain ⟨r, hr, hiff⟩ := ih (i + 1) (fun x hx => hlt x (List.mem_cons_of_mem _ hx))
    rw [hasCollision, getBit_eq _ _ hl8]
    simp only [Option.bind_eq_bind, Option.some_bind]
    by_cases hlk : bitAt lockedBits b = true
    · rw [if_pos hlk, getBit_eq _ _ hb8]
      simp only [Option.some_bind]
      by_cases hv : bitAt bitmap b = wanted i
      · refine ⟨r, ?_, ?_⟩
        · have : (bitAt bitmap b ≠ (i % 2 == 1)) = False := by
            simpa [wanted] using hv
          simp only [this, if_false]
          exact hr
        · rw [Consistent_cons, hiff]
          exact ⟨fun h => ⟨fun _ => hv, h⟩, fun h => h.2⟩
      · refine ⟨true, ?_, ?_⟩
        · have : (bitAt bitmap b ≠ (i % 2 == 1)) = True := by
            simpa [wanted] using hv
          simp only [this, if_true]
        · rw [Consistent_cons]
          constructor
          · intro h; cases h
          · intro h; exact absurd (h.1 hlk) hv
    · rw [if_neg hlk]
      refine ⟨r, hr, ?_⟩
      rw [Consistent_cons, hiff]
      exact ⟨fun h => ⟨fun h' => absurd h' hlk, h⟩, fun h => h.2⟩

theorem setContactBits_spec :
    ∀ (contactBits lockedBits bitmap : List Nat) (i : Nat), lockedBits.length = 256 →
      bitmap.length = 256 → contactBits.Nodup → (∀ b ∈ contactBits, b < 2048) →
      ∃ lockedBits1 bitmap1, setContactBits lockedBits bitmap i contactBits =
          some (lockedBits1, bitmap1) ∧
        lockedBits1.length = 256 ∧ bitmap1.length = 256 ∧
        (∀ p (h : p < contactBits.length),
          bitAt lockedBits1 (contactBits.get ⟨p, h⟩) = true ∧
          bitAt bitmap1 (contactBits.get ⟨p, h⟩) = wanted (i + p)) ∧
        ∀ j, j ∉ contactBits →
          bitAt lockedBits1 j = bitAt lockedBits j ∧ bitAt bitmap1 j = bitAt bitmap j := by
  intro contactBits
  induction contactBits with
  | nil =>
    intro lockedBits bitmap i hl hb _ _
    exact ⟨lockedBits, bitmap, rfl, hl, hb, fun p h => absurd h (Nat.not_lt_zero _),
      fun j _ => ⟨rfl, rfl⟩⟩
  | cons b rest ih =>
    intro lockedBits bitmap i hl hb hnd hlt
    have hb2048 := hlt b (List.mem_cons_self _ _)
    obtain ⟨lk1, hlk1, hlen1, hself1, hother1⟩ := setBit_spec lockedBits b true (by omega)
    obtain ⟨bm1, hbm1, hlenb1, hselfb1, hotherb1⟩ :=
      setBit_spec bitmap b (i % 2 == 1) (by omega)
    have hnd' := List.nodup_cons.1 hnd
    obtain ⟨lk2, bm2, hset, hlen2, hlenb2, hin, hout⟩ := ih lk1 bm1 (i + 1)
      (by rw [hlen1, hl]) (by rw [hlenb1, hb]) hnd'.2
      (fun x hx => hlt x (List.mem_cons_of_mem _ hx))
    refine ⟨lk2, bm2, ?_, hlen2, hlenb2, ?_, ?_⟩
    · rw [setContactBits]
      simp only [Option.bind_eq_bind, hlk1, hbm1, Option.some_bind]
      exact hset
    · intro p hp
      cases p with
      | zero =>
        have := hout b hnd'.1
        exact ⟨by show bitAt lk2 b = true; rw [this.1, hself1],
          by show bitAt bm2 b = wanted (i + 0); rw [this.2, hselfb1]; rfl⟩
      | succ p =>
        have := hin p (Nat.lt_of_succ_lt_succ hp)
        rw [show i + (p + 1) = i + 1 + p by omega]
        exact this
    · intro j hj
      have hjb : j ≠ b := fun h => hj (h ▸ List.mem_cons_self _ _)
      have hjr : j ∉ rest := fun h => hj (List.mem_cons_of_mem _ h)
      have := hout j hjr
      exact ⟨by rw [this.1, hother1 j hjb], by rw [this.2, hotherb1 j hjb]⟩

end contact_bitmap

namespace contact_bitmap
open builtin

/-! ### One attempt of `EncodeContactBitmap` -/

theorem Keeps_refl (lockedBits bitmap : List Nat) : Keeps lockedBits bitmap lockedBits bitmap :=
  fun _ h => ⟨h, rfl⟩

theorem Keeps_trans {l0 b0 l1 b1 l2 b2 : List Nat} (h01 : Keeps l0 b0 l1 b1)
    (h12 : Keeps l1 b1 l2 b2) : Keeps l0 b0 l2 b2 := by
  intro j hj
  obtain ⟨h1, h2⟩ := h01 j hj
  obtain ⟨h3, h4⟩ := h12 j h1
  exact ⟨h3, by rw [h4, h2]⟩

theorem matchesContact_iff (hmac : List Nat → List Nat → List Nat)
    (container : device.ContactsContainer) (seed : Nat) (bitmap : List Nat) (c : String)
    (secret contactBits : List Nat) (hb : bitmap.length = 256)
    (hs : container.ContactSecret c = .ok secret)
    (hbits : ContactBits hmac seed secret = some (.ok contactBits))
    (hlt : ∀ b ∈ contactBits, b < 2048) :
    matchesContact hmac container seed bitmap c = true ↔ Matches bitmap 0 contactBits := by
  obtain ⟨r, hr, hiff⟩ := matchesBitmap_spec bitmap hb contactBits 0 hlt
  unfold matchesContact
  simp only [hs, hbits, hr]
  rw [← hiff]
  cases r <;> simp

theorem Keeps_of_set (lockedBits bitmap lockedBits1 bitmap1 contactBits : List Nat)
    (hcons : Consistent lockedBits bitmap 0 contactBits)
    (hin : ∀ p (h : p < contactBits.length),
      bitAt lockedBits1 (contactBits.get ⟨p, h⟩) = true ∧
      bitAt bitmap1 (contactBits.get ⟨p, h⟩) = wanted (0 + p))
    (hout : ∀ j, j ∉ contactBits →
      bitAt lockedBits1 j = bitAt lockedBits j ∧ bitAt bitmap1 j = bitAt bitmap j) :
    Keeps lockedBits bitmap lockedBits1 bitmap1 := by
  intro j hj
  by_cases hmem : j ∈ contactBits
  · obtain ⟨⟨p, hp⟩, rfl⟩ := List.mem_iff_get.1 hmem
    exact ⟨(hin p hp).1, by rw [(hin p hp).2, hcons p hp hj]⟩
  · exact ⟨by rw [(hout j hmem).1, hj], (hout j hmem).2⟩

theorem encodeContacts_ok (hmac : List Nat → List Nat → List Nat)
    (hlen : ∀ key message, (hmac key message).length = 32) (seed : Nat)
    (container : device.ContactsContainer) :
    ∀ (list : List String) (bitmap lockedBits : List Nat) (count : Nat)
      (encoded : List String) (bitmap1 lockedBits1 : List Nat) (count1 : Nat)
      (encoded1 : List String),
      bitmap.length = 256 → lockedBits.length = 256 →
      encodeContacts hmac seed container list bitmap lockedBits count encoded =
        some (.ok (bitmap1, lockedBits1, count1, encoded1)) →
      bitmap1.length = 256 ∧ lockedBits1.length = 256 ∧
        Keeps lockedBits bitmap lockedBits1 bitmap1 ∧
        (∀ c ∈ list, HasSecret32 container c) ∧
        encoded1 = encoded ++ list.filter (matchesContact hmac container seed bitmap1) ∧
        count1 = count + (list.filter (matchesContact hmac container seed bitmap1)).length := by
  intro list
  induction list with
  | nil =>
    intro bitmap lockedBits count encoded bitmap1 lockedBits1 count1 encoded1 hb hl h
    rw [encodeContacts] at h
    simp only [Option.some.injEq, Except.ok.injEq, Prod.mk.injEq] at h
    obtain ⟨rfl, rfl, rfl, rfl⟩ := h
    exact ⟨hb, hl, Keeps_refl _ _, (fun c hc => by cases hc), by simp, by simp⟩
  | cons c rest ih =>
    intro bitmap lockedBits count encoded bitmap1 lockedBits1 count1 encoded1 hb hl h
    rw [encodeContacts] at h
    cases hs : container.ContactSecret c with
    | error e => rw [hs] at h; simp at h
    | ok secret =>
      rw [hs] at h
      simp only at h
      by_cases hs32 : secret.length = 32
      · obtain ⟨bits, hbits, _, hnd, hlt⟩ := ContactBits_ok hmac hlen seed secret hs32
        rw [hbits] at h
        simp only at h
        obtain ⟨r, hr, hiff⟩ := hasCollision_spec lockedBits bitmap hl hb bits 0 hlt
        rw [hr] at h
        have hgood : HasSecret32 container c := ⟨secret, hs, hs32⟩
        cases r with
        | true =>
          simp only at h
          obtain ⟨h1, h2, h3, h4, h5, h6⟩ := ih _ _ _ _ _ _ _ _ hb hl h
          have hnc : ¬ Consistent lockedBits bitmap 0 bits := by
            intro hc
            have := hiff.2 hc
            cases this
          have hnm : matchesContact hmac container seed bitmap1 c = false := by
            rw [Bool.eq_false_iff]
            intro hm
            rw [matchesContact_iff hmac container seed bitmap1 c secret bits h1 hs hbits hlt]
              at hm
            apply hnc
            intro p hp hlocked
            rw [← (h3 _ hlocked).2]
            exact hm p hp
          refine ⟨h1, h2, h3, ?_, ?_, ?_⟩
          · intro x hx
            rcases List.mem_cons.1 hx with rfl | hx
            · exact hgood
            · exact h4 x hx
          · rw [List.filter_cons, hnm]
            exact h5
          · rw [List.filter_cons, hnm]
            exact h6
        | false =>
          simp only at h
          have hc : Consistent lockedBits bitmap 0 bits := hiff.1 rfl
          obtain ⟨lk1, bm1, hset, hlen1, hlenb1, hin, hout⟩ :=
            setContactBits_spec bits lockedBits bitmap 0 hl hb hnd hlt
          rw [hset] at h
          simp only at h
          obtain ⟨h1, h2, h3, h4, h5, h6⟩ := ih _ _ _ _ _ _ _ _ hlenb1 hlen1 h
          have hk : Keeps lockedBits bitmap lk1 bm1 := Keeps_of_set _ _ _ _ _ hc hin hout
          have hm : matchesContact hmac container seed bitmap1 c = true := by
            rw [matchesContact_iff hmac container seed bitmap1 c secret bits h1 hs hbits hlt]
            intro p hp
            rw [(h3 _ (hin p hp).1).2]
            exact (hin p hp).2
          refine ⟨h1, h2, Keeps_trans hk h3, ?_, ?_, ?_⟩
          · intro x hx
            rcases List.mem_cons.1 hx with rfl | hx
            · exact hgood
            · exact h4 x hx
          · rw [List.filter_cons, hm, h5]
            simp
          · rw [List.filter_cons, hm, h6]
            simp only [if_true, List.length_cons]
            omega
      · have herr : ∃ e, ContactBits hmac seed secret = some (.error e) :=
          ⟨_, by unfold ContactBits; rw [if_pos hs32]⟩
        obtain ⟨e, he⟩ := herr
        rw [he] at h
        simp at h

theorem encodeContacts_total (hmac : List Nat → List Nat → List Nat)
    (hlen : ∀ key message, (hmac key message).length = 32) (seed : Nat)
    (container : device.ContactsContainer) :
    ∀ (list : List String) (bitmap lockedBits : List Nat) (count : Nat)
      (encoded : List String),
      bitmap.length = 256 → lockedBits.length = 256 →
      (∀ c ∈ list, HasSecret32 container c) →
      ∃ res, encodeContacts hmac seed container list bitmap lockedBits count encoded =
        some (.ok res) := by
  intro list
  induction list with
  | nil =>
    intro bitmap lockedBits count encoded _ _ _
    exact ⟨_, rfl⟩
  | cons c rest ih =>
    intro bitmap lockedBits count encoded hb hl hgood
    obtain ⟨secret, hs, hs32⟩ := hgood c (List.mem_cons_self _ _)
    obtain ⟨bits, hbits, _, hnd, hlt⟩ := ContactBits_ok hmac hlen seed secret hs32
    obtain ⟨r, hr, _⟩ := hasCollision_spec lockedBits bitmap hl hb bits 0 hlt
    have hrest : ∀ x ∈ rest, HasSecret32 container x :=
      fun x hx => hgood x (List.mem_cons_of_mem _ hx)
    rw [encodeContacts, hs]
    simp only [hbits, hr]
    cases r with
    | true => exact ih _ _ _ _ hb hl hrest
    | false =>
      obtain ⟨lk1, bm1, hset, hlen1, hlenb1, _, _⟩ :=
        setContactBits_spec bits lockedBits bitmap 0 hl hb hnd hlt
      simp only [hset]
      exact ih _ _ _ _ hlenb1 hlen1 hrest

end contact_bitmap

namespace contact_bitmap
open builtin

/-! ### The attempts of `EncodeContactBitmap` -/

theorem length_Read (reader : Reader) (n : Nat) : (reader.Read n).1.length = n := by
  simp [Reader.Read]

theorem RandomSeed_some (reader : Reader) :
    ∃ seed, RandomSeed reader = some (seed, (reader.Read 8).2) := by
  have hread : reader.Read 8 =
      ([reader.stream (reader.pos + 0) % 256, reader.stream (reader.pos + 1) % 256,
        reader.stream (reader.pos + 2) % 256, reader.stream (reader.pos + 3) % 256,
        reader.stream (reader.pos + 4) % 256, reader.stream (reader.pos + 5) % 256,
        reader.stream (reader.pos + 6) % 256, reader.stream (reader.pos + 7) % 256],
       { reader with pos := reader.pos + 8 }) := rfl
  unfold RandomSeed
  rw [hread]
  exact ⟨_, rfl⟩

theorem bitAt_replicate_zero (n j : Nat) : bitAt (List.replicate n 0) j = false := by
  unfold bitAt
  have : (List.replicate n 0).getD (j / 8) 0 = 0 := by
    rw [List.getD_eq_getElem?_getD, List.getElem?_replicate]
    split <;> rfl
  rw [this, Nat.zero_testBit]

theorem encodeContacts_first (hmac : List Nat → List Nat → List Nat)
    (hlen : ∀ key message, (hmac key message).length = 32) (seed : Nat)
    (container : device.ContactsContainer) (list : List String) (bitmap : List Nat)
    (bitmap1 lockedBits1 : List Nat) (count1 : Nat) (encoded1 : List String)
    (hb : bitmap.length = 256) (hne : list ≠ [])
    (h : encodeContacts hmac seed container list bitmap (List.replicate BITMAP_SIZE 0) 0 [] =
      some (.ok (bitmap1, lockedBits1, count1, encoded1))) : 1 ≤ count1 := by
  have hlk : (List.replicate BITMAP_SIZE 0).length = 256 := by
    rw [List.length_replicate]; rfl
  obtain ⟨c, rest, rfl⟩ := List.exists_cons_of_ne_nil hne
  obtain ⟨_, _, _, hgood, _, _⟩ :=
    encodeContacts_ok hmac hlen seed container _ _ _ _ _ _ _ _ _ hb hlk h
  obtain ⟨secret, hs, hs32⟩ := hgood c (List.mem_cons_self _ _)
  obtain ⟨bits, hbits, _, hnd, hlt⟩ := ContactBits_ok hmac hlen seed secret hs32
  obtain ⟨r, hr, hiff⟩ := hasCollision_spec (List.replicate BITMAP_SIZE 0) bitmap hlk hb bits 0 hlt
  have hcons : Consistent (List.replicate BITMAP_SIZE 0) bitmap 0 bits := by
    intro p hp hlocked
    rw [bitAt_replicate_zero] at hlocked
    cases hlocked
  have hrf : r = false := hiff.2 hcons
  subst hrf
  obtain ⟨lk1, bm1, hset, hlen1, hlenb1, _, _⟩ :=
    setContactBits_spec bits (List.replicate BITMAP_SIZE 0) bitmap 0 hlk hb hnd hlt
  rw [encodeContacts, hs] at h
  simp only [hbits, hr, hset] at h
  obtain ⟨_, _, _, _, _, hcnt⟩ :=
    encodeContacts_ok hmac hlen seed container _ _ _ _ _ _ _ _ _ hlenb1 hlen1 h
  omega

theorem encodeAttempts_ok (hmac : List Nat → List Nat → List Nat)
    (hlen : ∀ key message, (hmac key message).length = 32) (list : List String)
    (container : device.ContactsContainer) :
    ∀ (n : Nat) (reader : Reader) (bb : List Nat) (bs : Nat) (bc : Int) (trace : EncodeTrace)
      (r : ContactBitmapEncoding) (trace1 : EncodeTrace) (reader1 : Reader),
      ((bc = -1 ∧ trace.counts = []) ∨ BestOf hmac container list bb bs bc trace) →
      encodeAttempts hmac list container n reader bb bs bc trace =
        some (.ok (r, trace1, reader1)) →
      ((1 ≤ n ∨ BestOf hmac container list bb bs bc trace) →
        BestOf hmac container list r.Bitmap r.Seed r.ContactCount trace1) ∧
      ∃ new, trace1.counts = trace.counts ++ new ∧ new.length ≤ n ∧ (1 ≤ n → new ≠ []) ∧
        (new.length < n → list.length ∈ new) := by
  intro n
  induction n with
  | zero =>
    intro reader bb bs bc trace r trace1 reader1 hinv h
    rw [encodeAttempts] at h
    simp only [Option.some.injEq, Except.ok.injEq, Prod.mk.injEq] at h
    obtain ⟨rfl, rfl, rfl⟩ := h
    refine ⟨?_, [], by simp, by simp, by simp, by simp⟩
    intro h
    rcases h with h | h
    · omega
    · exact h
  | succ n ih =>
    intro reader bb bs bc trace r trace1 reader1 hinv h
    obtain ⟨seed, hseed⟩ := RandomSeed_some reader
    rw [encodeAttempts, hseed] at h
    simp only at h
    have hbm : (((reader.Read 8).2).Read BITMAP_SIZE).1.length = 256 := length_Read _ _
    have hlk : (List.replicate BITMAP_SIZE 0).length = 256 := by
      rw [List.length_replicate]; rfl
    cases henc : encodeContacts hmac seed container list
        (((reader.Read 8).2).Read BITMAP_SIZE).1 (List.replicate BITMAP_SIZE 0) 0 [] with
    | none => rw [henc] at h; simp at h
    | some res =>
      rw [henc] at h
      cases res with
      | error e => simp at h
      | ok res =>
        obtain ⟨bm, lk, cnt, enc⟩ := res
        simp only at h
        obtain ⟨h1, _, _, hgood, henc1, hcnt⟩ :=
          encodeContacts_ok hmac hlen seed container list _ _ _ _ _ _ _ _ hbm hlk henc
        rw [List.nil_append] at henc1
        rw [Nat.zero_add] at hcnt
        have hcntle : cnt ≤ list.length ∧ (list ≠ [] → 1 ≤ cnt) := by
          refine ⟨by rw [hcnt]; exact List.length_filter_le _ _, fun hne => ?_⟩
          exact encodeContacts_first hmac hlen seed container list _ _ _ _ _ hbm hne henc
        -- the best attempt after this one
        have hbest : BestOf hmac container list
            (if (cnt : Int) > bc then (bm, seed, (cnt : Int), enc)
              else (bb, bs, bc, trace.encoded)).1
            (if (cnt : Int) > bc then (bm, seed, (cnt : Int), enc)
              else (bb, bs, bc, trace.encoded)).2.1
            (if (cnt : Int) > bc then (bm, seed, (cnt : Int), enc)
              else (bb, bs, bc, trace.encoded)).2.2.1
            { encoded := (if (cnt : Int) > bc then (bm, seed, (cnt : Int), enc)
                else (bb, bs, bc, trace.encoded)).2.2.2,
              counts := trace.counts ++ [cnt] } := by
          by_cases hgt : (cnt : Int) > bc
          · rw [if_pos hgt]
            refine ⟨h1, henc1, by show (cnt : Int) = (enc.length : Int); rw [henc1, hcnt],
              hgood, ⟨cnt, by simp, rfl⟩, ?_, ?_⟩
            · intro m hm
              rcases List.mem_append.1 hm with hm | hm
              · rcases hinv with ⟨_, hnil⟩ | hb
                · rw [hnil] at hm; cases hm
                · have := hb.2.2.2.2.2.1 m hm
                  show (m : Int) ≤ (cnt : Int)
                  omega
              · rw [List.mem_singleton] at hm
                rw [hm]
            · intro m hm
              rcases List.mem_append.1 hm with hm | hm
              · rcases hinv with ⟨_, hnil⟩ | hb
                · rw [hnil] at hm; cases hm
                · exact hb.2.2.2.2.2.2 m hm
              · rw [List.mem_singleton] at hm
                rw [hm]; exact hcntle
          · rw [if_neg hgt]
            have hb : BestOf hmac container list bb bs bc trace := by
              rcases hinv with ⟨hneg, _⟩ | hb
              · omega
              · exact hb
            obtain ⟨b1, b2, b3, b4, ⟨m0, hm0, hm0e⟩, b6, b7⟩ := hb
            refine ⟨b1, b2, b3, b4, ⟨m0, List.mem_append_left _ hm0, hm0e⟩, ?_, ?_⟩
            · intro m hm
              rcases List.mem_append.1 hm with hm | hm
              · exact b6 m hm
              · rw [List.mem_singleton] at hm
                rw [hm]
                show (cnt : Int) ≤ bc
                omega
            · intro m hm
              rcases List.mem_append.1 hm with hm | hm
              · exact b7 m hm
              · rw [List.mem_singleton] at hm
                rw [hm]; exact hcntle
        by_cases hall : cnt = list.length
        · rw [if_pos hall] at h
          simp only [Option.some.injEq, Except.ok.injEq, Prod.mk.injEq] at h
          obtain ⟨rfl, rfl, rfl⟩ := h
          refine ⟨fun _ => hbest, [cnt], rfl, by simp, by simp, ?_⟩
          intro _
          rw [hall]
          exact List.mem_singleton_self _
        · rw [if_neg hall] at h
          obtain ⟨hb2, new, hnew, hnewlen, _, hnewall⟩ := ih _ _ _ _ _ _ _ _ (Or.inr hbest) h
          refine ⟨fun _ => hb2 (Or.inr hbest), cnt :: new, ?_, ?_, by simp, ?_⟩
          · rw [hnew]
            simp
          · simp only [List.length_cons]
            omega
          · intro hlt
            simp only [List.length_cons] at hlt
            exact List.mem_cons_of_mem _ (hnewall (by omega))

theorem encodeAttempts_total (hmac : List Nat → List Nat → List Nat)
    (hlen : ∀ key message, (hmac key message).length = 32) (list : List String)
    (container : device.ContactsContainer) (hgood : ∀ c ∈ list, HasSecret32 container c) :
    ∀ (n : Nat) (reader : Reader) (bb : List Nat) (bs : Nat) (bc : Int) (trace : EncodeTrace),
      ∃ res, encodeAttempts hmac list container n reader bb bs bc trace = some (.ok res) := by
  intro n
  induction n with
  | zero =>
    intro reader bb bs bc trace
    exact ⟨_, rfl⟩
  | succ n ih =>
    intro reader bb bs bc trace
    obtain ⟨seed, hseed⟩ := RandomSeed_some reader
    have hbm : (((reader.Read 8).2).Read BITMAP_SIZE).1.length = 256 := length_Read _ _
    have hlk : (List.replicate BITMAP_SIZE 0).length = 256 := by
      rw [List.length_replicate]; rfl
    obtain ⟨⟨bm, lk, cnt, enc⟩, hres⟩ := encodeContacts_total hmac hlen seed container list
      (((reader.Read 8).2).Read BITMAP_SIZE).1 (List.replicate BITMAP_SIZE 0) 0 [] hbm hlk hgood
    rw [encodeAttempts, hseed]
    simp only [hres]
    by_cases hall : cnt = list.length
    · rw [if_pos hall]
      exact ⟨_, rfl⟩
    · rw [if_neg hall]
      exact ih _ _ _ _ _

end contact_bitmap

namespace contact_bitmap
open builtin

/-! ### `DecodeContactBitmap` -/

theorem decodeContacts_spec (hmac : List Nat → List Nat → List Nat)
    (hlen : ∀ key message, (hmac key message).length = 32)
    (container : device.ContactsContainer) (seed : Nat) (bitmap : List Nat)
    (hb : bitmap.length = 256) :
    ∀ (list decoded : List String), (∀ c ∈ list, HasSecret32 container c) →
      decodeContacts hmac container seed bitmap list decoded =
        some (.ok (decoded ++ list.filter (matchesContact hmac container seed bitmap))) := by
  intro list
  induction list with
  | nil =>
    intro decoded _
    simp [decodeContacts]
  | cons c rest ih =>
    intro decoded hgood
    obtain ⟨secret, hs, hs32⟩ := hgood c (List.mem_cons_self _ _)
    obtain ⟨bits, hbits, _, _, hlt⟩ := ContactBits_ok hmac hlen seed secret hs32
    obtain ⟨r, hr, _⟩ := matchesBitmap_spec bitmap hb bits 0 hlt
    have hrest : ∀ x ∈ rest, HasSecret32 container x :=
      fun x hx => hgood x (List.mem_cons_of_mem _ hx)
    have hm : matchesContact hmac container seed bitmap c = r := by
      unfold matchesContact
      simp only [hs, hbits, hr]
      cases r <;> rfl
    rw [decodeContacts, hs]
    simp only [hbits, hr]
    cases r with
    | true =>
      simp only
      rw [ih _ hrest, List.filter_cons, hm]
      simp
    | false =>
      simp only
      rw [ih _ hrest, List.filter_cons, hm]
      simp

theorem decodeContacts_error (hmac : List Nat → List Nat → List Nat)
    (hlen : ∀ key message, (hmac key message).length = 32)
    (container : device.ContactsContainer) (seed : Nat) (bitmap : List Nat)
    (hb : bitmap.length = 256) :
    ∀ (list decoded : List String), (∃ c ∈ list, ¬ HasSecret32 container c) →
      ∃ e, decodeContacts hmac container seed bitmap list decoded = some (.error e) := by
  intro list
  induction list with
  | nil =>
    rintro decoded ⟨c, hc, _⟩
    cases hc
  | cons c rest ih =>
    rintro decoded ⟨x, hx, hbad⟩
    rw [decodeContacts]
    cases hs : container.ContactSecret c with
    | error e => exact ⟨e, rfl⟩
    | ok secret =>
      simp only
      by_cases hs32 : secret.length = 32
      · obtain ⟨bits, hbits, _, _, hlt⟩ := ContactBits_ok hmac hlen seed secret hs32
        obtain ⟨r, hr, _⟩ := matchesBitmap_spec bitmap hb bits 0 hlt
        have hx1 : ∃ y ∈ rest, ¬ HasSecret32 container y := by
          rcases List.mem_cons.1 hx with rfl | hx
          · exact absurd ⟨secret, hs, hs32⟩ hbad
          · exact ⟨x, hx, hbad⟩
        simp only [hbits, hr]
        cases r with
        | true => exact ih _ hx1
        | false => exact ih _ hx1
      · refine ⟨"wrong secret length, expected 32", ?_⟩
        have : ContactBits hmac seed secret =
            some (.error "wrong secret length, expected 32") := by
          unfold ContactBits; rw [if_pos hs32]
        rw [this]

theorem DecodeContactBitmap_spec (hmac : List Nat → List Nat → List Nat)
    (hlen : ∀ key message, (hmac key message).length = 32)
    (container : device.ContactsContainer) (seed : Nat) (bitmap : List Nat)
    (hb : bitmap.length = 256) (hgood : AllSecrets32 container) :
    DecodeContactBitmap hmac container seed bitmap =
      some (.ok (((container.AllGroups ++ container.AllLinks).filter
        (matchesContact hmac container seed bitmap)).insertionSort (fun a b => a ≤ b))) := by
  unfold DecodeContactBitmap
  rw [if_neg (by rw [hb]; decide)]
  simp only [decodeContacts_spec hmac hlen container seed bitmap hb _ [] hgood,
    List.nil_append]

theorem DecodeContactBitmap_error (hmac : List Nat → List Nat → List Nat)
    (hlen : ∀ key message, (hmac key message).length = 32)
    (container : device.ContactsContainer) (seed : Nat) (bitmap : List Nat)
    (hb : bitmap.length = 256) (hbad : ¬ AllSecrets32 container) :
    ∃ e, DecodeContactBitmap hmac container seed bitmap = some (.error e) := by
  unfold AllSecrets32 at hbad
  push_neg at hbad
  obtain ⟨e, he⟩ := decodeContacts_error hmac hlen container seed bitmap hb
    (container.AllGroups ++ container.AllLinks) [] hbad
  refine ⟨e, ?_⟩
  unfold DecodeContactBitmap
  rw [if_neg (by rw [hb]; decide)]
  simp only [he]

theorem mem_contacts_of_ContactSecret (container : device.ContactsContainer) (c : String)
    (secret : List Nat) (hs : container.ContactSecret c = .ok secret) :
    c ∈ container.AllGroups ++ container.AllLinks := by
  unfold device.ContactsContainer.ContactSecret at hs
  rw [List.mem_append]
  cases hl : container.links.lookup c with
  | some s =>
    right
    have : (container.links.lookup c).isSome := by rw [hl]; rfl
    exact AList.mem_keys.1 (AList.lookup_isSome.1 this)
  | none =>
    rw [hl] at hs
    simp only at hs
    cases hg : container.groups.lookup c with
    | some s =>
      left
      have : (container.groups.lookup c).isSome := by rw [hg]; rfl
      exact AList.mem_keys.1 (AList.lookup_isSome.1 this)
    | none =>
      rw [hg] at hs
      cases hs

theorem matchesContact_of_secret (hmac : List Nat → List Nat → List Nat)
    (container container1 : device.ContactsContainer) (seed : Nat) (bitmap : List Nat)
    (c c1 : String) (secret : List Nat) (hs : container.ContactSecret c = .ok secret)
    (hs1 : container1.ContactSecret c1 = .ok secret) :
    matchesContact hmac container1 seed bitmap c1 = matchesContact hmac container seed bitmap c := by
  unfold matchesContact
  rw [hs, hs1]

theorem EncodeContactBitmap_Best (hmac : List Nat → List Nat → List Nat)
    (hlen : ∀ key message, (hmac key message).length = 32) (reader : Reader)
    (list : List String) (container : device.ContactsContainer) (attempts : Int)
    (r : ContactBitmapEncoding) (trace : EncodeTrace) (reader1 : Reader)
    (henc : EncodeContactBitmap hmac reader list container attempts =
      some (.ok (r, trace, reader1))) (h1 : 1 ≤ attempts) :
    BestOf hmac container list r.Bitmap r.Seed r.ContactCount trace ∧
      trace.counts ≠ [] ∧ (trace.counts.length : Int) ≤ attempts ∧
      ((trace.counts.length : Int) < attempts → list.length ∈ trace.counts) := by
  unfold EncodeContactBitmap at henc
  obtain ⟨hbest, new, hnew, hnl, hnn, hnall⟩ := encodeAttempts_ok hmac hlen list container _ _ _
    _ _ _ _ _ _ (Or.inl ⟨rfl, rfl⟩) henc
  have hn1 : 1 ≤ attempts.toNat := by omega
  simp only [List.nil_append] at hnew
  rw [hnew]
  exact ⟨hbest (Or.inl hn1), hnn hn1, by omega, fun h => hnall (by omega)⟩

end contact_bitmap

namespace contact_bitmap
open builtin

/-! ### The claims about the contact bitmap -/

theorem length_encodingA : encodingA.Bitmap.length = 256 := by
  simp only [encodingA, List.length_cons, List.length_append, List.length_replicate,
    List.length_nil]

set_option maxRecDepth 1000000

theorem EncodeContactBitmap_containerA :
    EncodeContactBitmap hmacFixed readerZero ["a"] containerA 1 =
      some (.ok (encodingA, { encoded := ["a"], counts := [1] },
        { stream := fun _ => 0, pos := 264 })) := by
  rfl

set_option maxRecDepth 512

theorem containerShortSecret_bad : ¬ AllSecrets32 containerShortSecret := by
  intro h
  obtain ⟨secret, hs, hs32⟩ := h "d" (by decide)
  have hd : containerShortSecret.ContactSecret "d" = .ok (List.replicate 16 2) := by rfl
  rw [hd] at hs
  injection hs with hs
  rw [← hs] at hs32
  simp at hs32

theorem containerA_good : AllSecrets32 containerA := by
  intro c hc
  have hc1 : c = "a" := by
    have : containerA.AllGroups ++ containerA.AllLinks = ["a"] := by rfl
    rw [this] at hc
    simpa using hc
  subst hc1
  exact ⟨List.replicate 32 1, rfl, by simp⟩

theorem containerA_list_good : ∀ c ∈ ["a"], HasSecret32 containerA c := by
  intro c hc
  rw [List.mem_singleton] at hc
  subst hc
  exact ⟨List.replicate 32 1, rfl, by simp⟩

/-- C23, as amended: when `EncodeContactBitmap` has returned `r` after at least one attempt,
every contact encoded in the winning attempt is returned by
`DecodeContactBitmap(container1, r.Seed, r.Bitmap)` for every container `container1` that
holds that contact's secret (under an identifier `c1`, which is the one returned) and holds
only secrets of 32 bytes. -/
theorem C23_no_false_negatives (hmac : List Nat → List Nat → List Nat)
    (hlen : ∀ key message, (hmac key message).length = 32) (reader : Reader)
    (list : List String) (container : device.ContactsContainer) (attempts : Int)
    (r : ContactBitmapEncoding) (trace : EncodeTrace) (reader1 : Reader)
    (container1 : device.ContactsContainer) (c c1 : String) (secret : List Nat)
    (henc : EncodeContactBitmap hmac reader list container attempts =
      some (.ok (r, trace, reader1)))
    (h1 : 1 ≤ attempts) (hc : c ∈ trace.encoded)
    (hs : container.ContactSecret c = .ok secret)
    (hs1 : container1.ContactSecret c1 = .ok secret) (hgood : AllSecrets32 container1) :
    ∃ decoded, DecodeContactBitmap hmac container1 r.Seed r.Bitmap = some (.ok decoded) ∧
      c1 ∈ decoded := by
  obtain ⟨⟨hb, henc1, _⟩, _⟩ :=
    EncodeContactBitmap_Best hmac hlen reader list container attempts r trace reader1 henc h1
  refine ⟨_, DecodeContactBitmap_spec hmac hlen container1 r.Seed r.Bitmap hb hgood, ?_⟩
  rw [henc1, List.mem_filter] at hc
  rw [List.mem_insertionSort, List.mem_filter]
  exact ⟨mem_contacts_of_ContactSecret container1 c1 secret hs1,
    by rw [matchesContact_of_secret hmac container container1 r.Seed r.Bitmap c c1 secret hs hs1]
       exact hc.2⟩

theorem C23_no_false_negatives_witness :
    EncodeContactBitmap hmacFixed readerZero ["a"] containerA 1 =
        some (.ok (encodingA, { encoded := ["a"], counts := [1] },
          { stream := fun _ => 0, pos := 264 })) ∧
      "a" ∈ ["a"] ∧ containerA.ContactSecret "a" = .ok (List.replicate 32 1) ∧
      AllSecrets32 containerA ∧
      ∃ decoded, DecodeContactBitmap hmacFixed containerA encodingA.Seed encodingA.Bitmap =
          some (.ok decoded) ∧ "a" ∈ decoded :=
  ⟨EncodeContactBitmap_containerA, by decide, rfl, containerA_good,
   C23_no_false_negatives hmacFixed length_hmacFixed readerZero ["a"] containerA 1 encodingA
     { encoded := ["a"], counts := [1] } { stream := fun _ => 0, pos := 264 } containerA
     "a" "a" (List.replicate 32 1) EncodeContactBitmap_containerA (by decide) (by decide)
     rfl rfl containerA_good⟩

/-- C23, counterexample: the contact "a" is encoded in the winning attempt for `containerA`;
the container `containerShortSecret` holds the secret of "a" and, for a second link, a secret
of 16 bytes; `DecodeContactBitmap` on it returns an error and no contact. -/
theorem C23_fails_for_container_with_short_secret :
    EncodeContactBitmap hmacFixed readerZero ["a"] containerA 1 =
        some (.ok (encodingA, { encoded := ["a"], counts := [1] },
          { stream := fun _ => 0, pos := 264 })) ∧
      containerShortSecret.ContactSecret "a" = containerA.ContactSecret "a" ∧
      ∃ e, DecodeContactBitmap hmacFixed containerShortSecret encodingA.Seed encodingA.Bitmap =
        some (.error e) :=
  ⟨EncodeContactBitmap_containerA, rfl,
   DecodeContactBitmap_error hmacFixed length_hmacFixed containerShortSecret _ _
     length_encodingA containerShortSecret_bad⟩

/-- C24: when the contact list given to `EncodeContactBitmap` is, in some order, the list of
the contacts of the container, and `r` is returned after at least one attempt, then
`DecodeContactBitmap(container, r.Seed, r.Bitmap)` returns, in some order, exactly the
contacts encoded in the winning attempt, and their number is `r.ContactCount`. -/
theorem C24_decoded_is_encoded (hmac : List Nat → List Nat → List Nat)
    (hlen : ∀ key message, (hmac key message).length = 32) (reader : Reader)
    (list : List String) (container : device.ContactsContainer) (attempts : Int)
    (r : ContactBitmapEncoding) (trace : EncodeTrace) (reader1 : Reader)
    (henc : EncodeContactBitmap hmac reader list container attempts =
      some (.ok (r, trace, reader1)))
    (h1 : 1 ≤ attempts)
    (hperm : list.Perm (container.AllGroups ++ container.AllLinks)) :
    ∃ decoded, DecodeContactBitmap hmac container r.Seed r.Bitmap = some (.ok decoded) ∧
      decoded.Perm trace.encoded ∧ (decoded.length : Int) = r.ContactCount := by
  obtain ⟨⟨hb, henc1, hcount, hgood, _⟩, _⟩ :=
    EncodeContactBitmap_Best hmac hlen reader list container attempts r trace reader1 henc h1
  have hall : AllSecrets32 container := fun c hc => hgood c (hperm.mem_iff.2 hc)
  have hp : (((container.AllGroups ++ container.AllLinks).filter
      (matchesContact hmac container r.Seed r.Bitmap)).insertionSort
      (fun a b => a ≤ b)).Perm trace.encoded := by
    rw [henc1]
    exact (List.perm_insertionSort _ _).trans (hperm.symm.filter _)
  exact ⟨_, DecodeContactBitmap_spec hmac hlen container r.Seed r.Bitmap hb hall, hp,
    by rw [hcount, hp.length_eq]⟩

theorem C24_decoded_is_encoded_witness :
    EncodeContactBitmap hmacFixed readerZero ["a"] containerA 1 =
        some (.ok (encodingA, { encoded := ["a"], counts := [1] },
          { stream := fun _ => 0, pos := 264 })) ∧
      (["a"] : List String).Perm (containerA.AllGroups ++ containerA.AllLinks) ∧
      ∃ decoded, DecodeContactBitmap hmacFixed containerA encodingA.Seed encodingA.Bitmap =
          some (.ok decoded) ∧
        decoded.Perm ["a"] ∧ (decoded.length : Int) = encodingA.ContactCount :=
  ⟨EncodeContactBitmap_containerA, List.Perm.refl _,
   C24_decoded_is_encoded hmacFixed length_hmacFixed readerZero ["a"] containerA 1 encodingA
     { encoded := ["a"], counts := [1] } { stream := fun _ => 0, pos := 264 }
     EncodeContactBitmap_containerA (by decide) (List.Perm.refl _)⟩

/-- C25: for `attempts ≥ 1` and a list that is not empty of contacts whose secrets have 32
bytes, `EncodeContactBitmap` returns, for every random stream, a bitmap of 256 bytes with
`1 ≤ ContactCount ≤ len(list)`. `ContactCount` is the `contactCount` of one of the attempts
run and no attempt run counted more; it is `len(list)` once an attempt has encoded every
contact, and the attempts stop short of `attempts` only after such an attempt. -/
theorem C25_EncodeContactBitmap_succeeds (hmac : List Nat → List Nat → List Nat)
    (hlen : ∀ key message, (hmac key message).length = 32) (reader : Reader)
    (list : List String) (container : device.ContactsContainer) (attempts : Int)
    (h1 : 1 ≤ attempts) (hne : list ≠ [])
    (hgood : ∀ c ∈ list, HasSecret32 container c) :
    ∃ r trace reader1, EncodeContactBitmap hmac reader list container attempts =
        some (.ok (r, trace, reader1)) ∧
      r.Bitmap.length = 256 ∧ 1 ≤ r.ContactCount ∧ r.ContactCount ≤ list.length ∧
      trace.counts ≠ [] ∧ (trace.counts.length : Int) ≤ attempts ∧
      (∃ n ∈ trace.counts, (n : Int) = r.ContactCount) ∧
      (∀ n ∈ trace.counts, (n : Int) ≤ r.ContactCount) ∧
      (list.length ∈ trace.counts → r.ContactCount = list.length) ∧
      ((trace.counts.length : Int) < attempts → list.length ∈ trace.counts) := by
  obtain ⟨⟨r, trace, reader1⟩, henc⟩ := encodeAttempts_total hmac hlen list container hgood
    attempts.toNat reader (List.replicate BITMAP_SIZE 0) 0 (-1) { encoded := [], counts := [] }
  have henc1 : EncodeContactBitmap hmac reader list container attempts =
      some (.ok (r, trace, reader1)) := henc
  obtain ⟨⟨hb, _, _, _, ⟨n0, hn0, hn0e⟩, hmax, hrange⟩, hnn, hle, hstop⟩ :=
    EncodeContactBitmap_Best hmac hlen reader list container attempts r trace reader1 henc1 h1
  have h0 := hrange n0 hn0
  have hpos := h0.2 hne
  refine ⟨r, trace, reader1, henc1, hb, by omega, by omega, hnn, hle, ⟨n0, hn0, hn0e⟩, hmax,
    ?_, hstop⟩
  intro hfull
  have := hmax _ hfull
  omega

theorem C25_EncodeContactBitmap_succeeds_witness :
    ((1 : Int) ≤ 5 ∧ (["a"] : List String) ≠ [] ∧ ∀ c ∈ ["a"], HasSecret32 containerA c) ∧
    ∃ r trace reader1, EncodeContactBitmap hmacFixed readerZero ["a"] containerA 5 =
        some (.ok (r, trace, reader1)) ∧
      r.Bitmap.length = 256 ∧ 1 ≤ r.ContactCount ∧
      r.ContactCount ≤ (["a"] : List String).length ∧
      trace.counts ≠ [] ∧ (trace.counts.length : Int) ≤ 5 ∧
      (∃ n ∈ trace.counts, (n : Int) = r.ContactCount) ∧
      (∀ n ∈ trace.counts, (n : Int) ≤ r.ContactCount) ∧
      ((["a"] : List String).length ∈ trace.counts →
        r.ContactCount = (["a"] : List String).length) ∧
      ((trace.counts.length : Int) < 5 → (["a"] : List String).length ∈ trace.counts) :=
  ⟨⟨by decide, by decide, containerA_list_good⟩,
   C25_EncodeContactBitmap_succeeds hmacFixed length_hmacFixed readerZero ["a"] containerA 5
     (by decide) (by decide) (containerA_list_good)⟩

end contact_bitmap

namespace network_layer

/-! ### Duplicate route requests, the TTL of a forwarded request, session keys -/

/-- C26: `handleRouteRequest` for an RREQ whose request id is in the request table returns the
network layer as it was: the request table, the session table, the log of the callbacks (no
session established), the calls of `SendBytes` and the packets given to the device are all
unchanged. -/
theorem C26_duplicate_RREQ_is_dropped (crypto : Crypto) (network : NetworkLayer)
    (rreq : RREQPacket) (sender : String)
    (h : (network.requestTable.lookup rreq.RequestID).isSome = true) :
    network.handleRouteRequest crypto rreq sender = some network := by
  unfold NetworkLayer.handleRouteRequest
  cases hl : network.requestTable.lookup rreq.RequestID with
  | none => rw [hl] at h; cases h
  | some entry => rfl

theorem C26_duplicate_RREQ_is_dropped_witness :
    (networkSeen7.requestTable.lookup rreqTTL0.RequestID).isSome = true ∧
      networkSeen7.handleRouteRequest cryptoFixed rreqTTL0 "B" = some networkSeen7 :=
  ⟨by decide, C26_duplicate_RREQ_is_dropped cryptoFixed networkSeen7 rreqTTL0 "B" (by decide)⟩

theorem forwardRouteRequest_TTL_zero (network : NetworkLayer) (sender : String) :
    network.forwardRouteRequest rreqTTL0 sender =
      network.BroadcastPacketExcept (Packet.rreq { rreqTTL0 with TTL := 65535 }) sender := by
  unfold NetworkLayer.forwardRouteRequest
  have h1 : ¬ rreqTTL0.TTL > network.maxTTL := by
    show ¬ 0 > network.maxTTL
    omega
  rw [if_neg h1]
  rfl

set_option maxRecDepth 1000000

/-- C27, at the failing input: in every state of the network layer, and for every sender,
`forwardRouteRequest` on an RREQ received with TTL 0 does broadcast it, with the TTL
`65535`: the decrement of the `uint16` wraps around before the test `rreq.TTL <= 0`. On the
node with the default options (`MaxRREQTTL` is 10) and the one neighbour "B", the request
goes to "B", and the two TTL bytes of the packet sent are `255, 255`. -/
theorem C27_TTL_zero_is_forwarded_with_TTL_65535 :
    (∀ (network : NetworkLayer) (sender : String),
      network.forwardRouteRequest rreqTTL0 sender =
        network.BroadcastPacketExcept (Packet.rreq { rreqTTL0 with TTL := 65535 }) sender) ∧
    networkOnlyB.options.MaxRREQTTL = 10 ∧
    (networkOnlyB.forwardRouteRequest rreqTTL0 "A").map (fun n => n.packetLayer.sendCalls) =
      some [("B", [1, 0, 0, 0, 0, 0, 0, 0, 7, 255, 255] ++ List.replicate 32 9 ++
        List.replicate 256 0)] :=
  ⟨forwardRouteRequest_TTL_zero, rfl, rfl⟩

set_option maxRecDepth 512

/-- For an RREQ received with a TTL of at least 1, and options whose `MaxRREQTTL` is at
least 1 as a `uint16`, `forwardRouteRequest` broadcasts exactly when
`min(ttl, max_ttl) - 1 > 0`, and then with this TTL and every other field unchanged. -/
theorem forwardRouteRequest_of_pos (network : NetworkLayer) (rreq : RREQPacket)
    (sender : String) (h1 : 1 ≤ rreq.TTL) (h16 : rreq.TTL < 2 ^ 16) (hmax : 1 ≤ network.maxTTL) :
    network.forwardRouteRequest rreq sender =
      if min rreq.TTL network.maxTTL - 1 > 0 then
        network.BroadcastPacketExcept
          (Packet.rreq { rreq with TTL := min rreq.TTL network.maxTTL - 1 }) sender
      else some network := by
  have hm16 : network.maxTTL < 2 ^ 16 := by
    unfold NetworkLayer.maxTTL
    have := Int.emod_lt_of_pos network.options.MaxRREQTTL (by norm_num : (0 : Int) < 2 ^ 16)
    have := Int.emod_nonneg network.options.MaxRREQTTL (by norm_num : (2 ^ 16 : Int) ≠ 0)
    omega
  unfold NetworkLayer.forwardRouteRequest
  by_cases hgt : rreq.TTL > network.maxTTL
  · have hmin : min rreq.TTL network.maxTTL = network.maxTTL := by omega
    have hw : (network.maxTTL + 2 ^ 16 - 1) % 2 ^ 16 = network.maxTTL - 1 := by omega
    simp only [if_pos hgt, hmin, hw]
    by_cases hz : network.maxTTL - 1 > 0
    · rw [if_neg (by omega), if_pos hz]
    · rw [if_pos (by omega), if_neg hz]
  · have hmin : min rreq.TTL network.maxTTL = rreq.TTL := by omega
    have hw : (rreq.TTL + 2 ^ 16 - 1) % 2 ^ 16 = rreq.TTL - 1 := by omega
    simp only [if_neg hgt, hmin, hw]
    by_cases hz : rreq.TTL - 1 > 0
    · rw [if_neg (by omega), if_pos hz]
    · rw [if_pos (by omega), if_neg hz]

theorem SessionSecret_eq (crypto : Crypto) (container : device.ContactsContainer)
    (contact : String) (s ephemeral remote : List Nat)
    (hs : container.ContactSecret contact = .ok s) (he : ephemeral.length = 32)
    (hr : remote.length = 32) (hnz : (crypto.x25519 ephemeral remote).all (fun x => x == 0) = false)
    (hk : (crypto.hkdf (s ++ crypto.x25519 ephemeral remote) 32).length = 32) :
    SessionSecret crypto container contact ephemeral remote =
      .ok (crypto.hkdf (s ++ crypto.x25519 ephemeral remote) 32) := by
  unfold SessionSecret NewPrivateKey NewPublicKey ECDH
  rw [hs]
  simp only [he, hr, ne_eq, not_true_eq_false, if_false, hnz, Bool.false_eq_true, hk]

/-- C29: for a contact secret `s`, of 32 bytes or any other length, held by both containers
and X25519 key pairs
`(a, publicKey a)` and `(b, publicKey b)` (private keys of 32 bytes, the same shared secret on
both sides), `SessionSecret(s, a, B)` and `SessionSecret(s, b, A)` both succeed with the same
key: the first 32 bytes of HKDF-SHA256 over `s` followed by the X25519 shared secret. -/
theorem C29_session_secret_is_symmetric (crypto : Crypto)
    (container1 container2 : device.ContactsContainer) (contact1 contact2 : String)
    (s a b : List Nat) (hs1 : container1.ContactSecret contact1 = .ok s)
    (hs2 : container2.ContactSecret contact2 = .ok s)
    (ha : a.length = 32) (hb : b.length = 32) (hkeys : crypto.KeyAgreement a b) :
    SessionSecret crypto container1 contact1 a (crypto.publicKey b) =
        .ok (crypto.hkdf (s ++ crypto.x25519 a (crypto.publicKey b)) 32) ∧
      SessionSecret crypto container2 contact2 b (crypto.publicKey a) =
        .ok (crypto.hkdf (s ++ crypto.x25519 a (crypto.publicKey b)) 32) ∧
      (crypto.hkdf (s ++ crypto.x25519 a (crypto.publicKey b)) 32).length = 32 := by
  refine ⟨SessionSecret_eq crypto container1 contact1 s a _ hs1 ha hkeys.publicKey_length_b
    hkeys.shared_ne_zero (hkeys.hkdf_length _), ?_, hkeys.hkdf_length _⟩
  rw [hkeys.shared]
  exact SessionSecret_eq crypto container2 contact2 s b _ hs2 hb hkeys.publicKey_length_a
    (by rw [← hkeys.shared]; exact hkeys.shared_ne_zero) (hkeys.hkdf_length _)

theorem cryptoFixed_KeyAgreement (a b : List Nat) : cryptoFixed.KeyAgreement a b where
  publicKey_length_a := by simp [cryptoFixed]
  publicKey_length_b := by simp [cryptoFixed]
  shared := rfl
  shared_ne_zero := by
    show (List.replicate 32 1).all (fun x => x == 0) = false
    decide
  hkdf_length := by
    intro secret
    simp only [cryptoFixed, List.length_take, List.length_append, List.length_replicate]
    omega

theorem C29_session_secret_is_symmetric_witness :
    (contact_bitmap.containerA.ContactSecret "a" = .ok (List.replicate 32 1) ∧
      contact_bitmap.containerShortSecret.ContactSecret "a" = .ok (List.replicate 32 1) ∧
      (List.replicate 32 3).length = 32 ∧ (List.replicate 32 4).length = 32 ∧
      cryptoFixed.KeyAgreement (List.replicate 32 3) (List.replicate 32 4)) ∧
    (SessionSecret cryptoFixed contact_bitmap.containerA "a" (List.replicate 32 3)
        (cryptoFixed.publicKey (List.replicate 32 4)) =
        .ok (cryptoFixed.hkdf (List.replicate 32 1 ++
          cryptoFixed.x25519 (List.replicate 32 3)
            (cryptoFixed.publicKey (List.replicate 32 4))) 32) ∧
      SessionSecret cryptoFixed contact_bitmap.containerShortSecret "a" (List.replicate 32 4)
        (cryptoFixed.publicKey (List.replicate 32 3)) =
        .ok (cryptoFixed.hkdf (List.replicate 32 1 ++
          cryptoFixed.x25519 (List.replicate 32 3)
            (cryptoFixed.publicKey (List.replicate 32 4))) 32) ∧
      (cryptoFixed.hkdf (List.replicate 32 1 ++
          cryptoFixed.x25519 (List.replicate 32 3)
            (cryptoFixed.publicKey (List.replicate 32 4))) 32).length = 32) :=
  ⟨⟨rfl, rfl, by simp, by simp, cryptoFixed_KeyAgreement _ _⟩,
   C29_session_secret_is_symmetric cryptoFixed contact_bitmap.containerA
     contact_bitmap.containerShortSecret "a" "a" (List.replicate 32 1) (List.replicate 32 3)
     (List.replicate 32 4) rfl rfl (by simp) (by simp) (cryptoFixed_KeyAgreement _ _)⟩

end network_layer

namespace packet_layer

/-! ### `BroadcastBytesExcept` -/

theorem SendBytes_sendCalls (link : PacketLayer) (dev : device.Device) (address : String)
    (data : List Nat) (link1 : PacketLayer) (dev1 : device.Device) (ok : Bool)
    (h : link.SendBytes dev address data = some (link1, dev1, ok)) :
    link1.sendCalls = link.sendCalls ++ [(address, data)] ∧ link1.options = link.options := by
  unfold PacketLayer.SendBytes at h
  simp only at h
  split at h
  · simp only [Option.some.injEq, Prod.mk.injEq] at h
    obtain ⟨rfl, _, _⟩ := h
    exact ⟨rfl, rfl⟩
  · split at h
    · simp only [Option.some.injEq, Prod.mk.injEq] at h
      obtain ⟨rfl, _, _⟩ := h
      exact ⟨rfl, rfl⟩
    · simp only [Option.bind_eq_bind, Option.bind_eq_some] at h
      obtain ⟨encoder, _, r, _, h⟩ := h
      split at h
      · simp only [Option.some.injEq, Prod.mk.injEq] at h
        obtain ⟨rfl, _, _⟩ := h
        exact ⟨rfl, rfl⟩
      · simp only [Option.bind_eq_some] at h
        obtain ⟨⟨encoder1, dev2⟩, _, h⟩ := h
        simp only [Option.some.injEq, Prod.mk.injEq] at h
        obtain ⟨rfl, _, _⟩ := h
        exact ⟨rfl, rfl⟩

/-- Under `BroadcastAll`, the loop calls `SendBytes` once for every address of the shuffled
list other than `exceptAddress`, in order, and for no other. -/
theorem broadcastAllLoop_sendCalls (data : List Nat) (exceptAddress : String) :
    ∀ (addresses : List String) (link : PacketLayer) (dev : device.Device)
      (link1 : PacketLayer) (dev1 : device.Device),
      PacketLayer.broadcastAllLoop data exceptAddress addresses link dev = some (link1, dev1) →
      link1.sendCalls = link.sendCalls ++
        (addresses.filter (fun a => decide (a ≠ exceptAddress))).map (fun a => (a, data)) := by
  intro addresses
  induction addresses with
  | nil =>
    intro link dev link1 dev1 h
    rw [PacketLayer.broadcastAllLoop] at h
    simp only [Option.some.injEq, Prod.mk.injEq] at h
    obtain ⟨rfl, _⟩ := h
    simp
  | cons a rest ih =>
    intro link dev link1 dev1 h
    rw [PacketLayer.broadcastAllLoop] at h
    by_cases ha : a ≠ exceptAddress
    · rw [if_pos ha] at h
      simp only [Option.bind_eq_bind, Option.bind_eq_some] at h
      obtain ⟨⟨link2, dev2, ok⟩, hsend, h⟩ := h
      have h2 := (SendBytes_sendCalls link dev a data link2 dev2 ok hsend).1
      rw [ih link2 dev2 link1 dev1 h, h2, List.filter_cons]
      simp [ha]
    · rw [if_neg ha] at h
      rw [ih link dev link1 dev1 h, List.filter_cons]
      simp [ha]

/-- Under `BroadcastLogFunc`, the loop makes no call of `SendBytes` for `exceptAddress`. -/
theorem broadcastLogFuncLoop_sendCalls (data : List Nat) (exceptAddress : String)
    (connectionCount : Int) :
    ∀ (addresses : List String) (count : Int) (link : PacketLayer) (dev : device.Device)
      (link1 : PacketLayer) (dev1 : device.Device),
      PacketLayer.broadcastLogFuncLoop data exceptAddress connectionCount addresses count
        link dev = some (link1, dev1) →
      ∃ new, link1.sendCalls = link.sendCalls ++ new ∧
        ∀ call ∈ new, call.1 ≠ exceptAddress ∧ call.1 ∈ addresses ∧ call.2 = data := by
  intro addresses
  induction addresses with
  | nil =>
    intro count link dev link1 dev1 h
    rw [PacketLayer.broadcastLogFuncLoop] at h
    simp only [Option.some.injEq, Prod.mk.injEq] at h
    obtain ⟨rfl, _⟩ := h
    exact ⟨[], by simp, by intro c hc; cases hc⟩
  | cons a rest ih =>
    intro count link dev link1 dev1 h
    rw [PacketLayer.broadcastLogFuncLoop] at h
    by_cases ha : a ≠ exceptAddress
    · rw [if_pos ha] at h
      split at h
      · simp only [Option.bind_eq_bind, Option.bind_eq_some] at h
        obtain ⟨⟨link2, dev2, ok⟩, hsend, h⟩ := h
        have h2 := (SendBytes_sendCalls link dev a data link2 dev2 ok hsend).1
        obtain ⟨new, hnew, hall⟩ := ih _ link2 dev2 link1 dev1 h
        refine ⟨(a, data) :: new, by rw [hnew, h2]; simp, ?_⟩
        intro c hc
        rcases List.mem_cons.1 hc with rfl | hc
        · exact ⟨ha, List.mem_cons_self _ _, rfl⟩
        · exact ⟨(hall c hc).1, List.mem_cons_of_mem _ (hall c hc).2.1, (hall c hc).2.2⟩
      · obtain ⟨new, hnew, hall⟩ := ih _ link dev link1 dev1 h
        exact ⟨new, hnew, fun c hc =>
          ⟨(hall c hc).1, List.mem_cons_of_mem _ (hall c hc).2.1, (hall c hc).2.2⟩⟩
    · rw [if_neg ha] at h
      obtain ⟨new, hnew, hall⟩ := ih _ link dev link1 dev1 h
      exact ⟨new, hnew, fun c hc =>
        ⟨(hall c hc).1, List.mem_cons_of_mem _ (hall c hc).2.1, (hall c hc).2.2⟩⟩

/-- Under `BroadcastTwo`, the loop makes at most one call of `SendBytes` for each of the two
indices. -/
theorem broadcastTwoLoop_sendCalls (data : List Nat) (adresses : List String) :
    ∀ (indices : List Nat) (link : PacketLayer) (dev : device.Device)
      (link1 : PacketLayer) (dev1 : device.Device),
      PacketLayer.broadcastTwoLoop data adresses indices link dev = some (link1, dev1) →
      link1.sendCalls.length ≤ link.sendCalls.length + indices.length := by
  intro indices
  induction indices with
  | nil =>
    intro link dev link1 dev1 h
    rw [PacketLayer.broadcastTwoLoop] at h
    simp only [Option.some.injEq, Prod.mk.injEq] at h
    obtain ⟨rfl, _⟩ := h
    simp
  | cons i rest ih =>
    intro link dev link1 dev1 h
    rw [PacketLayer.broadcastTwoLoop] at h
    split at h
    · simp only [Option.bind_eq_bind, Option.bind_eq_some] at h
      obtain ⟨a, _, ⟨link2, dev2, ok⟩, hsend, h⟩ := h
      have h2 := (SendBytes_sendCalls link dev a data link2 dev2 ok hsend).1
      have := ih link2 dev2 link1 dev1 h
      rw [h2] at this
      simp only [List.length_append, List.length_cons, List.length_nil] at this ⊢
      omega
    · have := ih link dev link1 dev1 h
      simp only [List.length_cons]
      omega

set_option maxRecDepth 100000

/-- C28, at the failing input: with the strategy `BroadcastTwo` and the one connection to
"A", `BroadcastBytesExcept(data, "A")` calls `SendBytes("A", data)`, and the framed data is
handed to the device for "A": the case `BroadcastTwo` does not compare the address with
`exceptAddress`, as the cases `BroadcastAll` and `BroadcastLogFunc` do. -/
theorem C28_BroadcastTwo_sends_to_except :
    ∃ link link1 dev1, linkTwoOnlyA = some link ∧
      link.options.RREQBroadcastStrategy = device.BroadcastTwo ∧
      link.connections.keys = ["A"] ∧
      link.BroadcastBytesExcept device.deviceQuiet [7, 8] "A" = some (link1, dev1) ∧
      link1.sendCalls = [("A", [7, 8])] ∧ dev1.sent = [("A", [128, 2, 7, 8])] :=
  ⟨_, _, _, rfl, rfl, rfl, rfl, rfl, rfl⟩

set_option maxRecDepth 512

end packet_layer

namespace network_layer

/-! ### The entries of the session table -/

theorem Grows.refl (network : NetworkLayer) : Grows network network :=
  fun _ _ h => Or.inl h

theorem Grows.of_eq {network network1 : NetworkLayer}
    (h : network1.sessionTable = network.sessionTable) : Grows network network1 := by
  intro id e he
  rw [h] at he
  exact Or.inl he

theorem Grows.trans {n0 n1 n2 : NetworkLayer} (h01 : Grows n0 n1) (h12 : Grows n1 n2) :
    Grows n0 n2 := by
  intro id e he
  rcases h12 id e he with h | h
  · exact h01 id e h
  · exact Or.inr h

theorem Grows.of_erase (network network1 : NetworkLayer) (k : Nat)
    (h : network1.sessionTable = network.sessionTable.erase k) : Grows network network1 := by
  intro id e he
  rw [h] at he
  by_cases hk : id = k
  · subst hk
    rw [AList.lookup_erase] at he
    cases he
  · rw [AList.lookup_erase_ne hk] at he
    exact Or.inl he

theorem Grows.of_insert (network network1 : NetworkLayer) (k : Nat) (v : SessionTableEntry)
    (h : network1.sessionTable = network.sessionTable.insert k v) (hv : v.Endpoint ∨ v.Relay) :
    Grows network network1 := by
  intro id e he
  rw [h] at he
  by_cases hk : id = k
  · subst hk
    rw [AList.lookup_insert] at he
    injection he with he
    subst he
    exact Or.inr hv
  · rw [AList.lookup_insert_ne hk] at he
    exact Or.inl he

theorem SendBytes_sessionTable (network : NetworkLayer) (address : String) (data : List Nat)
    (network1 : NetworkLayer) (ok : Bool)
    (h : network.SendBytes address data = some (network1, ok)) :
    network1.sessionTable = network.sessionTable := by
  unfold NetworkLayer.SendBytes at h
  simp only [Option.bind_eq_bind, Option.bind_eq_some, Option.some.injEq, Prod.mk.injEq] at h
  obtain ⟨⟨link, dev, ok1⟩, _, rfl, _⟩ := h
  rfl

theorem BroadcastPacketExcept_sessionTable (network : NetworkLayer) (packet : Packet)
    (except : String) (network1 : NetworkLayer)
    (h : network.BroadcastPacketExcept packet except = some network1) :
    network1.sessionTable = network.sessionTable := by
  unfold NetworkLayer.BroadcastPacketExcept at h
  simp only [Option.bind_eq_bind, Option.bind_eq_some, Option.some.injEq] at h
  obtain ⟨⟨link, dev⟩, _, rfl⟩ := h
  rfl

theorem sendRouteError_sessionTable (network : NetworkLayer) (targetAddr : String)
    (sessID : Nat) (network1 : NetworkLayer)
    (h : network.sendRouteError targetAddr sessID = some network1) :
    network1.sessionTable = network.sessionTable := by
  unfold NetworkLayer.sendRouteError at h
  simp only [Option.bind_eq_bind, Option.bind_eq_some, Option.some.injEq] at h
  obtain ⟨⟨n2, ok⟩, hs, rfl⟩ := h
  exact SendBytes_sessionTable _ _ _ _ _ hs

theorem buildRouteRequest_sessionTable (crypto : Crypto) (network : NetworkLayer) (ttl : Nat)
    (network1 : NetworkLayer) (r : Except String RREQPacket)
    (h : network.buildRouteRequest crypto ttl = some (network1, r)) :
    network1.sessionTable = network.sessionTable := by
  unfold NetworkLayer.buildRouteRequest at h
  simp only [Option.bind_eq_bind, Option.bind_eq_some] at h
  obtain ⟨⟨prioritized, random⟩, _, enc, _, h⟩ := h
  split at h
  · simp only [Option.some.injEq, Prod.mk.injEq] at h
    obtain ⟨rfl, _⟩ := h
    rfl
  · split at h
    · simp only [Option.some.injEq, Prod.mk.injEq] at h
      obtain ⟨rfl, _⟩ := h
      rfl
    · simp only [Option.bind_eq_some, Option.some.injEq, Prod.mk.injEq] at h
      obtain ⟨rreq, _, rfl, _⟩ := h
      rfl

theorem BroadcastRouteRequest_sessionTable (crypto : Crypto) (network network1 : NetworkLayer)
    (h : network.BroadcastRouteRequest crypto = some network1) :
    network1.sessionTable = network.sessionTable := by
  unfold NetworkLayer.BroadcastRouteRequest at h
  simp only [Option.bind_eq_bind, Option.bind_eq_some] at h
  obtain ⟨⟨n2, r⟩, hb, h⟩ := h
  have h2 := buildRouteRequest_sessionTable crypto network _ n2 r hb
  cases r with
  | error e =>
    simp only [Option.some.injEq] at h
    rw [← h]; exact h2
  | ok rreqPacket =>
    simp only [Option.bind_eq_some, Option.some.injEq] at h
    obtain ⟨⟨link, dev⟩, _, rfl⟩ := h
    exact h2

theorem SendRouteRequest_sessionTable (crypto : Crypto) (network : NetworkLayer)
    (address : String) (ttl : Nat) (network1 : NetworkLayer)
    (h : network.SendRouteRequest crypto address ttl = some network1) :
    network1.sessionTable = network.sessionTable := by
  unfold NetworkLayer.SendRouteRequest at h
  simp only [Option.bind_eq_bind, Option.bind_eq_some] at h
  obtain ⟨⟨n2, r⟩, hb, h⟩ := h
  have h2 := buildRouteRequest_sessionTable crypto network _ n2 r hb
  cases r with
  | error e =>
    simp only [Option.some.injEq] at h
    rw [← h]; exact h2
  | ok rreqPacket =>
    simp only [Option.bind_eq_some, Option.some.injEq] at h
    obtain ⟨⟨n3, ok⟩, hs, rfl⟩ := h
    rw [SendBytes_sessionTable _ _ _ _ _ hs]
    exact h2

theorem eventSessionBroken_sessionTable (crypto : Crypto) (network : NetworkLayer)
    (sessID : Nat) (network1 : NetworkLayer)
    (h : network.eventSessionBroken crypto sessID = some network1) :
    network1.sessionTable = network.sessionTable := by
  unfold NetworkLayer.eventSessionBroken at h
  simp only at h
  split at h
  · have h2 := BroadcastRouteRequest_sessionTable crypto _ _ h
    exact h2
  · simp only [Option.some.injEq] at h
    rw [← h]

theorem SessionBroken_Grows (crypto : Crypto) (network : NetworkLayer) (sessID : Nat)
    (address : Option String) (network1 : NetworkLayer)
    (h : network.SessionBroken crypto sessID address = some network1) :
    Grows network network1 := by
  unfold NetworkLayer.SessionBroken at h
  split at h
  · simp only [Option.some.injEq] at h
    rw [← h]
    exact Grows.refl _
  · rename_i entry hentry
    simp only [Option.bind_eq_bind, Option.bind_eq_some] at h
    obtain ⟨n2, hn2, entry2, _, h⟩ := h
    have h2 : n2.sessionTable = network.sessionTable := by
      split at hn2
      · split at hn2
        · exact sendRouteError_sessionTable _ _ _ _ hn2
        · exact sendRouteError_sessionTable _ _ _ _ hn2
        · simp only [Option.some.injEq] at hn2
          rw [← hn2]
      · simp only [Option.some.injEq] at hn2
        rw [← hn2]
    have h3 : network1.sessionTable = network.sessionTable.erase sessID := by
      split at h
      · rw [eventSessionBroken_sessionTable crypto _ _ _ h]
        show n2.sessionTable.erase sessID = _
        rw [h2]
      · simp only [Option.some.injEq] at h
        rw [← h]
        show n2.sessionTable.erase sessID = _
        rw [h2]
    exact Grows.of_erase _ _ sessID h3

end network_layer

namespace network_layer

theorem forwardRouteReply_Grows (crypto : Crypto) (network : NetworkLayer) (rrep : RREPPacket)
    (session : SessionTableEntry) (network1 : NetworkLayer)
    (h : network.forwardRouteReply crypto rrep session = some network1) :
    Grows network network1 := by
  unfold NetworkLayer.forwardRouteReply at h
  simp only [Option.bind_eq_bind, Option.bind_eq_some] at h
  obtain ⟨source, _, ⟨n2, ok⟩, hs, h⟩ := h
  have h2 := SendBytes_sessionTable _ _ _ _ _ hs
  split at h
  · simp only [Option.bind_eq_some] at h
    obtain ⟨n3, hn3, h⟩ := h
    have h3 : n3.sessionTable = n2.sessionTable := by
      split at hn3
      · exact sendRouteError_sessionTable _ _ _ _ hn3
      · simp only [Option.some.injEq] at hn3
        rw [← hn3]
    exact (Grows.of_eq (h3.trans h2)).trans (SessionBroken_Grows crypto _ _ _ _ h)
  · simp only [Option.some.injEq] at h
    rw [← h]
    exact Grows.of_eq h2

theorem forwardRouteRequest_sessionTable (network : NetworkLayer) (rreq : RREQPacket)
    (sender : String) (network1 : NetworkLayer)
    (h : network.forwardRouteRequest rreq sender = some network1) :
    network1.sessionTable = network.sessionTable := by
  have key : ∀ r : RREQPacket,
      (if r.TTL ≤ 0 then some network
        else network.BroadcastPacketExcept (Packet.rreq r) sender) = some network1 →
      network1.sessionTable = network.sessionTable := by
    intro r hr
    by_cases hz : r.TTL ≤ 0
    · rw [if_pos hz] at hr
      exact congrArg NetworkLayer.sessionTable (Option.some.inj hr).symm
    · rw [if_neg hz] at hr
      exact BroadcastPacketExcept_sessionTable _ _ _ _ hr
  unfold NetworkLayer.forwardRouteRequest at h
  exact key _ h

theorem NewRREP_sessionTable (crypto : Crypto) (network : NetworkLayer) (reqID sessID : Nat)
    (sessionSecret key payload : List Nat) (network1 : NetworkLayer)
    (r : Except String RREPPacket)
    (h : network.NewRREP crypto reqID sessID sessionSecret key payload = some (network1, r)) :
    network1.sessionTable = network.sessionTable ∧
      network1.options = network.options := by
  unfold NetworkLayer.NewRREP at h
  simp only at h
  split at h
  · simp only [Option.some.injEq, Prod.mk.injEq] at h
    obtain ⟨rfl, _⟩ := h
    exact ⟨rfl, rfl⟩
  · simp only [Option.bind_eq_bind, Option.bind_eq_some, Option.some.injEq, Prod.mk.injEq] at h
    obtain ⟨cipher, _, rfl, _⟩ := h
    exact ⟨rfl, rfl⟩

theorem replyLoop_Grows (crypto : Crypto) (rreq : RREQPacket) (sender : String) :
    ∀ (contacts : List String) (network network1 : NetworkLayer),
      NetworkLayer.replyLoop crypto rreq sender contacts network = some network1 →
      Grows network network1 := by
  intro contacts
  induction contacts with
  | nil =>
    intro network network1 h
    rw [NetworkLayer.replyLoop] at h
    simp only [Option.some.injEq] at h
    rw [← h]
    exact Grows.refl _
  | cons contactID rest ih =>
    intro network network1 h
    rw [NetworkLayer.replyLoop] at h
    simp only at h
    split at h
    · simp only [Option.some.injEq] at h
      rw [← h]
      exact Grows.of_eq rfl
    · rename_i sessionSecret _
      simp only [Option.bind_eq_bind, Option.bind_eq_some] at h
      obtain ⟨request, _, ⟨n2, r⟩, hrrep, h⟩ := h
      have hentry : (SessionEntryFromRREQ network.dev.rand (some contactID) request
          (some sender) (some sessionSecret)).1.Endpoint := by
        refine ⟨?_, ?_, Or.inl ⟨?_, rfl⟩⟩ <;> simp [SessionEntryFromRREQ]
      have h2 := NewRREP_sessionTable crypto _ _ _ _ _ _ _ _ hrrep
      have hg2 : Grows network n2 :=
        Grows.of_insert network n2 _ _ h2.1 (Or.inl hentry)
      cases r with
      | error e =>
        simp only at h
        exact hg2.trans (ih _ _ h)
      | ok rrep =>
        simp only [Option.bind_eq_some] at h
        obtain ⟨n3, hfwd, n4, hn4, h⟩ := h
        have hg3 := forwardRouteReply_Grows crypto _ _ _ _ hfwd
        have hg4 : Grows n3 n4 := by
          split at hn4
          · exact Grows.of_eq (forwardRouteRequest_sessionTable _ _ _ _ hn4)
          · simp only [Option.some.injEq] at hn4
            rw [← hn4]
            exact Grows.refl _
        exact ((hg2.trans hg3).trans hg4).trans (ih _ _ h)

theorem handleRouteRequest_Grows (crypto : Crypto) (network : NetworkLayer) (rreq : RREQPacket)
    (sender : String) (network1 : NetworkLayer)
    (h : network.handleRouteRequest crypto rreq sender = some network1) :
    Grows network network1 := by
  unfold NetworkLayer.handleRouteRequest at h
  split at h
  · injection h with h
    rw [← h]
    exact Grows.refl _
  · simp only at h
    split at h
    · cases h
    · injection h with h
      rw [← h]
      exact Grows.of_eq rfl
    · split at h
      · have h2 := forwardRouteRequest_sessionTable _ _ _ _ h
        exact Grows.of_eq h2
      · have h2 := replyLoop_Grows crypto rreq sender _ _ _ h
        exact (Grows.of_eq rfl).trans h2

theorem openLoop_Grows (crypto : Crypto) (rrep : RREPPacket) (sender : String)
    (request : RequestTableEntry) (headers : List Nat)
    (hsource : request.SourceNeighbour = none) :
    ∀ (contacts : List String) (network network1 : NetworkLayer),
      NetworkLayer.openLoop crypto rrep sender request headers contacts network =
        some network1 →
      Grows network network1 := by
  intro contacts
  induction contacts with
  | nil =>
    intro network network1 h
    rw [NetworkLayer.openLoop] at h
    simp only [Option.some.injEq] at h
    rw [← h]
    exact Grows.refl _
  | cons contact rest ih =>
    intro network network1 h
    rw [NetworkLayer.openLoop] at h
    simp only [Option.bind_eq_bind, Option.bind_eq_some] at h
    obtain ⟨ephemeralPrivate, _, h⟩ := h
    split at h
    · simp only [Option.some.injEq] at h
      rw [← h]
      exact Grows.refl _
    · rename_i sessionSecret _
      split at h
      · simp only [Option.some.injEq] at h
        rw [← h]
        exact Grows.refl _
      · simp only [Option.bind_eq_bind, Option.bind_eq_some] at h
        obtain ⟨r, _, h⟩ := h
        cases r with
        | error e =>
          simp only at h
          exact ih _ _ h
        | ok payload =>
          simp only [Option.some.injEq] at h
          rw [← h]
          have hentry : (SessionEntryFromRREP (some contact) request rrep (some sender)
              (some sessionSecret)).Endpoint := by
            refine ⟨?_, ?_, Or.inr ⟨?_, ?_⟩⟩ <;> simp [SessionEntryFromRREP, hsource]
          exact Grows.of_insert network _ _ _ rfl (Or.inl hentry)

theorem handleRouteReply_Grows (crypto : Crypto) (network : NetworkLayer) (rrep : RREPPacket)
    (sender : String) (network1 : NetworkLayer)
    (h : network.handleRouteReply crypto rrep sender = some network1) :
    Grows network network1 := by
  unfold NetworkLayer.handleRouteReply at h
  split at h
  · simp only [Option.some.injEq] at h
    rw [← h]
    exact Grows.refl _
  · rename_i request _
    split at h
    · rename_i hsource
      exact openLoop_Grows crypto rrep sender request _ hsource _ _ _ h
    · rename_i hsource
      have hentry : (SessionEntryFromRREP none request rrep (some sender) none).Relay := by
        refine ⟨rfl, rfl, ?_, ?_⟩
        · exact hsource
        · simp [SessionEntryFromRREP]
      have hg : Grows network { network with
          sessionTable := network.sessionTable.insert rrep.SessionID
            (SessionEntryFromRREP none request rrep (some sender) none) } :=
        Grows.of_insert network _ _ _ rfl (Or.inr hentry)
      exact hg.trans (forwardRouteReply_Grows crypto _ _ _ _ h)

theorem handleSESSPacket_sessionTable (crypto : Crypto) (network : NetworkLayer)
    (packet : SESSPacket) (sender : String) (network1 : NetworkLayer)
    (message : Option SessionMessage)
    (h : network.handleSESSPacket crypto packet sender = some (network1, message)) :
    network1.sessionTable = network.sessionTable := by
  unfold NetworkLayer.handleSESSPacket at h
  split at h
  · simp only [Option.some.injEq, Prod.mk.injEq] at h
    rw [← h.1]
  · split at h
    · simp only at h
      split at h
      · split at h
        · simp only [Option.some.injEq, Prod.mk.injEq] at h
          rw [← h.1]
        · simp only [Option.bind_eq_bind, Option.bind_eq_some, Option.some.injEq,
            Prod.mk.injEq] at h
          obtain ⟨⟨n2, ok⟩, hs, rfl, _⟩ := h
          exact SendBytes_sessionTable _ _ _ _ _ hs
      · simp only [Option.bind_eq_bind, Option.bind_eq_some, Option.some.injEq,
          Prod.mk.injEq] at h
        obtain ⟨⟨n2, ok⟩, hs, rfl, _⟩ := h
        exact SendBytes_sessionTable _ _ _ _ _ hs
    · simp only [Option.bind_eq_bind, Option.bind_eq_some] at h
      obtain ⟨r, _, h⟩ := h
      cases r with
      | error e =>
        simp only [Option.some.injEq, Prod.mk.injEq] at h
        rw [← h.1]
      | ok m =>
        simp only [Option.some.injEq, Prod.mk.injEq] at h
        rw [← h.1]

theorem handleRouteErrorPacket_Grows (crypto : Crypto) (network : NetworkLayer)
    (rerr : RERRPacket) (sender : String) (network1 : NetworkLayer)
    (h : network.handleRouteErrorPacket crypto rerr sender = some network1) :
    Grows network network1 := by
  unfold NetworkLayer.handleRouteErrorPacket at h
  simp only at h
  split at h
  · simp only [Option.some.injEq] at h
    rw [← h]
    exact Grows.refl _
  · split at h
    · simp only [Option.bind_eq_bind, Option.bind_eq_some, Option.some.injEq] at h
      obtain ⟨n2, hn2, rfl⟩ := h
      have h2 : n2.sessionTable = network.sessionTable := by
        split at hn2
        · exact sendRouteError_sessionTable _ _ _ _ hn2
        · split at hn2
          · exact sendRouteError_sessionTable _ _ _ _ hn2
          · simp only [Option.some.injEq] at hn2
            rw [← hn2]
      exact Grows.of_erase network _ rerr.SessionID (by rw [← h2])
    · exact SessionBroken_Grows crypto _ _ _ _ h

theorem disconnectLoop_Grows (crypto : Crypto) (failedNode : String) :
    ∀ (sessIDs : List Nat) (network network1 : NetworkLayer),
      NetworkLayer.disconnectLoop crypto failedNode sessIDs network = some network1 →
      Grows network network1 := by
  intro sessIDs
  induction sessIDs with
  | nil =>
    intro network network1 h
    rw [NetworkLayer.disconnectLoop] at h
    simp only [Option.some.injEq] at h
    rw [← h]
    exact Grows.refl _
  | cons sessID rest ih =>
    intro network network1 h
    rw [NetworkLayer.disconnectLoop] at h
    simp only [Option.bind_eq_bind, Option.bind_eq_some] at h
    obtain ⟨entry, _, n2, hn2, h⟩ := h
    have hg : Grows network n2 := by
      split at hn2
      · exact SessionBroken_Grows crypto _ _ _ _ hn2
      · split at hn2
        · split at hn2
          · simp only [Option.map_eq_some'] at hn2
            obtain ⟨n3, hn3, rfl⟩ := hn2
            exact Grows.of_erase network _ sessID
              (by rw [← sendRouteError_sessionTable _ _ _ _ hn3])
          · split at hn2
            · simp only [Option.map_eq_some'] at hn2
              obtain ⟨n3, hn3, rfl⟩ := hn2
              exact Grows.of_erase network _ sessID
                (by rw [← sendRouteError_sessionTable _ _ _ _ hn3])
            · simp only [Option.some.injEq] at hn2
              rw [← hn2]
              exact Grows.refl _
        · simp only [Option.some.injEq] at hn2
          rw [← hn2]
          exact Grows.refl _
    exact hg.trans (ih _ _ h)

theorem handleDisconnect_Grows (crypto : Crypto) (network : NetworkLayer)
    (failedNode : String) (network1 : NetworkLayer)
    (h : network.handleDisconnect crypto failedNode = some network1) :
    Grows network network1 := by
  unfold NetworkLayer.handleDisconnect at h
  generalize utils.ShuffleMapKeys network.dev.rand network.sessionTable = sh at h
  obtain ⟨sessIDs, random⟩ := sh
  have h2 := disconnectLoop_Grows crypto failedNode _ _ _ h
  exact (Grows.of_eq rfl).trans h2

theorem deleteContactLoop_Grows (crypto : Crypto) (contact : String) :
    ∀ (sessionIDs : List Nat) (network network1 : NetworkLayer),
      NetworkLayer.deleteContactLoop crypto contact sessionIDs network = some network1 →
      Grows network network1 := by
  intro sessionIDs
  induction sessionIDs with
  | nil =>
    intro network network1 h
    rw [NetworkLayer.deleteContactLoop] at h
    simp only [Option.some.injEq] at h
    rw [← h]
    exact Grows.refl _
  | cons sessionID rest ih =>
    intro network network1 h
    rw [NetworkLayer.deleteContactLoop] at h
    simp only [Option.bind_eq_bind, Option.bind_eq_some] at h
    obtain ⟨session, _, n2, hn2, h⟩ := h
    have hg : Grows network n2 := by
      split at hn2
      · simp only [Option.map_eq_some'] at hn2
        obtain ⟨n3, hn3, rfl⟩ := hn2
        exact (SessionBroken_Grows crypto _ _ _ _ hn3).trans
          (Grows.of_erase n3 _ session.SessionID rfl)
      · simp only [Option.some.injEq] at hn2
        rw [← hn2]
        exact Grows.refl _
    exact hg.trans (ih _ _ h)

theorem DeleteContact_Grows (crypto : Crypto) (network : NetworkLayer) (contact : String)
    (network1 : NetworkLayer) (h : network.DeleteContact crypto contact = some network1) :
    Grows network network1 := by
  unfold NetworkLayer.DeleteContact at h
  simp only at h
  generalize utils.ShuffleMapKeys network.dev.rand network.sessionTable = sh at h
  obtain ⟨sessionIDs, random⟩ := sh
  have h2 := deleteContactLoop_Grows crypto contact _ _ _ h
  exact (Grows.of_eq rfl).trans h2

theorem handlePacket_Grows (crypto : Crypto) (network : NetworkLayer) (sender : String)
    (packet : Packet) (network1 : NetworkLayer) (message : Option SessionMessage)
    (h : network.handlePacket crypto sender packet = some (network1, message)) :
    Grows network network1 := by
  unfold NetworkLayer.handlePacket at h
  cases packet with
  | rreq rreq =>
    simp only [Option.map_eq_some', Prod.mk.injEq] at h
    obtain ⟨n2, hn2, rfl, _⟩ := h
    exact handleRouteRequest_Grows crypto _ _ _ _ hn2
  | rrep rrep =>
    simp only [Option.map_eq_some', Prod.mk.injEq] at h
    obtain ⟨n2, hn2, rfl, _⟩ := h
    exact handleRouteReply_Grows crypto _ _ _ _ hn2
  | sess data =>
    exact Grows.of_eq (handleSESSPacket_sessionTable crypto _ _ _ _ _ h)
  | rerr rerr =>
    simp only [Option.map_eq_some', Prod.mk.injEq] at h
    obtain ⟨n2, hn2, rfl, _⟩ := h
    exact handleRouteErrorPacket_Grows crypto _ _ _ _ hn2

theorem OnConnection_Grows (crypto : Crypto) (network : NetworkLayer) (address : String)
    (network1 : NetworkLayer) (h : network.OnConnection crypto address = some network1) :
    Grows network network1 := by
  unfold NetworkLayer.OnConnection at h
  simp only [Option.bind_eq_bind, Option.bind_eq_some] at h
  obtain ⟨link, _, h⟩ := h
  split at h
  · have h2 := SendRouteRequest_sessionTable crypto _ _ _ _ h
    exact Grows.of_eq h2
  · injection h with h
    rw [← h]
    exact Grows.of_eq rfl

theorem OnDisconnection_Grows (crypto : Crypto) (network : NetworkLayer) (address : String)
    (network1 : NetworkLayer) (h : network.OnDisconnection crypto address = some network1) :
    Grows network network1 := by
  unfold NetworkLayer.OnDisconnection at h
  have h2 := handleDisconnect_Grows crypto _ _ _ h
  exact (Grows.of_eq rfl).trans h2

theorem Step_Grows (crypto : Crypto) (network network1 : NetworkLayer)
    (h : Step crypto network network1) : Grows network network1 :=
  match h with
  | .handlePacket _ _ _ _ _ h => handlePacket_Grows crypto _ _ _ _ _ h
  | .onConnection _ _ _ h => OnConnection_Grows crypto _ _ _ h
  | .onDisconnection _ _ _ h => OnDisconnection_Grows crypto _ _ _ h
  | .deleteContact _ _ _ h => DeleteContact_Grows crypto _ _ _ h
  | .broadcastRouteRequest _ _ h => Grows.of_eq (BroadcastRouteRequest_sessionTable crypto _ _ h)
  | .sendRouteRequest _ _ _ _ h => Grows.of_eq (SendRouteRequest_sessionTable crypto _ _ _ _ h)
  | .sessionTimeout _ _ _ h => SessionBroken_Grows crypto _ _ _ _ h
  | .environment _ _ _ hsession => Grows.of_eq hsession

theorem Reachable_entries (crypto : Crypto) (network : NetworkLayer)
    (h : Reachable crypto network) :
    ∀ id e, network.sessionTable.lookup id = some e → e.Endpoint ∨ e.Relay := by
  induction h with
  | init dev contacts events options =>
    intro id e he
    simp [NewNetworkLayer] at he
  | step n n1 _ hstep ih =>
    intro id e he
    rcases Step_Grows crypto n n1 hstep id e he with h | h
    · exact ih id e h
    · exact h

end network_layer

namespace network_layer

/-- C30: in every state reached through the handlers of the network layer, every entry of
the session table has its contact set exactly when its session secret is set, and that
exactly when one of its two neighbours is set and the other is not (an endpoint); an entry
that is no endpoint has both neighbours set and neither contact nor session secret (a
relay). -/
theorem C30_session_entries_are_endpoint_or_relay (crypto : Crypto) (network : NetworkLayer)
    (id : Nat) (e : SessionTableEntry) (h : Reachable crypto network)
    (he : network.sessionTable.lookup id = some e) :
    (e.Contact ≠ none ↔ e.SessionSecret ≠ none) ∧ (e.SessionSecret ≠ none ↔ e.OneNeighbour) ∧
      (¬ e.OneNeighbour →
        e.SourceNeighbour ≠ none ∧ e.TargetNeighbour ≠ none ∧ e.Contact = none ∧
          e.SessionSecret = none) := by
  rcases Reachable_entries crypto network h id e he with ⟨hc, hs, hone⟩ | ⟨hc, hs, hsrc, htgt⟩
  · exact ⟨⟨fun _ => hs, fun _ => hc⟩, ⟨fun _ => hone, fun _ => hs⟩, fun hn => absurd hone hn⟩
  · have hnone : ¬ e.OneNeighbour := by
      rintro (⟨_, h2⟩ | ⟨h1, _⟩)
      · exact htgt h2
      · exact hsrc h1
    exact ⟨⟨fun h1 => absurd hc h1, fun h1 => absurd hs h1⟩,
      ⟨fun h1 => absurd hs h1, fun h1 => absurd h1 hnone⟩, fun _ => ⟨hsrc, htgt, hc, hs⟩⟩

set_option maxRecDepth 1000000

theorem network3_Reachable : Reachable cryptoFixed network3 :=
  Reachable.step network2 network3
    (Reachable.step network1 network2
      (Reachable.step network0 network1 (Reachable.init _ _ _ _)
        (Step.onConnection network0 "A" network1 rfl))
      (Step.handlePacket network1 "A" (Packet.rreq rreq7) network2 none rfl))
    (Step.handlePacket network2 "B" (Packet.rrep rrep7) network3 none rfl)

set_option maxRecDepth 512

set_option maxRecDepth 1000000

theorem network3_lookup : network3.sessionTable.lookup 9 =
    some { RequestID := 7, SessionID := 9, Contact := none, SourceNeighbour := some "A",
           TargetNeighbour := some "B", SessionSecret := none } := by
  rfl

set_option maxRecDepth 512

theorem C30_session_entries_are_endpoint_or_relay_witness :
    Reachable cryptoFixed network3 ∧
      network3.sessionTable.lookup 9 =
        some { RequestID := 7, SessionID := 9, Contact := none, SourceNeighbour := some "A",
               TargetNeighbour := some "B", SessionSecret := none } ∧
      ((none : Option String) ≠ none ↔ (none : Option (List Nat)) ≠ none) ∧
      (SessionTableEntry.mk 7 9 none (some "A") (some "B") none).SourceNeighbour ≠ none :=
  ⟨network3_Reachable, network3_lookup,
   (C30_session_entries_are_endpoint_or_relay cryptoFixed network3 9 _ network3_Reachable
     network3_lookup).1,
   ((C30_session_entries_are_endpoint_or_relay cryptoFixed network3 9 _ network3_Reachable
     network3_lookup).2.2 (by
       rintro (⟨_, h2⟩ | ⟨h1, _⟩)
       · cases h2
       · cases h1)).1⟩

end network_layer

namespace device

/-! ### `Shuffle` permutes the keys -/

theorem swapKeys_perm {K : Type} [DecidableEq K] (keys : List K) (i j : Nat) :
    (swapKeys keys i j).Perm keys := by
  unfold swapKeys
  cases hi : keys[i]? with
  | none => exact List.Perm.refl _
  | some a =>
    cases hj : keys[j]? with
    | none => exact List.Perm.refl _
    | some b =>
      simp only
      obtain ⟨hil, hia⟩ := List.getElem?_eq_some_iff.1 hi
      obtain ⟨hjl, hjb⟩ := List.getElem?_eq_some_iff.1 hj
      rw [List.perm_iff_count]
      intro x
      have hil1 : i < (keys.set j a).length := by rw [List.length_set]; exact hil
      have hget : (keys.set j a)[i] = a := by
        rw [List.getElem_set]
        split
        · rfl
        · exact hia
      rw [List.count_set _ _ _ _ hil1, hget, List.count_set _ _ _ _ hjl, hjb]
      have hb : (if (b == x) = true then 1 else 0) ≤ List.count x keys := by
        split
        · rename_i hbx
          have hbx1 : b = x := by simpa using hbx
          have : x ∈ keys := by rw [← hbx1, ← hjb]; exact List.getElem_mem _
          exact List.count_pos_iff.2 this
        · exact Nat.zero_le _
      omega

theorem shuffleLoop_perm {K : Type} [DecidableEq K] :
    ∀ (i : Nat) (random : Rand) (keys : List K), (Rand.shuffleLoop i random keys).1.Perm keys := by
  intro i
  induction i with
  | zero =>
    intro random keys
    exact List.Perm.refl _
  | succ i ih =>
    intro random keys
    rw [Rand.shuffleLoop]
    exact (ih _ _).trans (swapKeys_perm _ _ _)

theorem Shuffle_perm {K : Type} [DecidableEq K] (random : Rand) (keys : List K) :
    (random.Shuffle keys).1.Perm keys :=
  shuffleLoop_perm _ _ _

end device

namespace utils

theorem ShuffleMapKeys_perm {K : Type} {V : Type} [LinearOrder K] (random : device.Rand)
    (m : AList (fun _ : K => V)) : (ShuffleMapKeys random m).1.Perm m.keys :=
  (device.Shuffle_perm _ _).trans (List.perm_insertionSort _ _)

end utils

namespace packet_layer

/-- Under `BroadcastAll`, when `BroadcastBytesExcept` returns, it has called `SendBytes` with
the data exactly once for every connected address other than `exceptAddress`, in some order,
and for no other address. -/
theorem BroadcastBytesExcept_All (link : PacketLayer) (dev : device.Device) (data : List Nat)
    (exceptAddress : String) (link1 : PacketLayer) (dev1 : device.Device)
    (hall : link.options.RREQBroadcastStrategy = device.BroadcastAll)
    (h : link.BroadcastBytesExcept dev data exceptAddress = some (link1, dev1)) :
    ∃ order : List String,
      order.Perm (link.connections.keys.filter (fun a => decide (a ≠ exceptAddress))) ∧
      order.Nodup ∧
      link1.sendCalls = link.sendCalls ++ order.map (fun a => (a, data)) := by
  unfold PacketLayer.BroadcastBytesExcept at h
  rw [if_neg (by rw [hall]; decide), if_pos hall] at h
  have hperm := utils.ShuffleMapKeys_perm dev.rand link.connections
  generalize utils.ShuffleMapKeys dev.rand link.connections = sh at h hperm
  obtain ⟨addresses, random⟩ := sh
  have h2 := broadcastAllLoop_sendCalls data exceptAddress addresses link _ link1 dev1 h
  have hp : (addresses.filter (fun a => decide (a ≠ exceptAddress))).Perm
      (link.connections.keys.filter (fun a => decide (a ≠ exceptAddress))) :=
    List.Perm.filter _ hperm
  refine ⟨_, hp, ?_, h2⟩
  exact (List.Perm.nodup_iff hp).2 (List.Nodup.filter _ link.connections.keys_nodup)

/-- Under `BroadcastLogFunc`, when `BroadcastBytesExcept` returns, every call of `SendBytes`
it has made is for a connected address other than `exceptAddress`. -/
theorem BroadcastBytesExcept_LogFunc (link : PacketLayer) (dev : device.Device)
    (data : List Nat) (exceptAddress : String) (link1 : PacketLayer) (dev1 : device.Device)
    (hlog : link.options.RREQBroadcastStrategy = device.BroadcastLogFunc)
    (h : link.BroadcastBytesExcept dev data exceptAddress = some (link1, dev1)) :
    ∃ new, link1.sendCalls = link.sendCalls ++ new ∧
      ∀ call ∈ new, call.1 ≠ exceptAddress ∧ call.1 ∈ link.connections.keys ∧
        call.2 = data := by
  unfold PacketLayer.BroadcastBytesExcept at h
  rw [if_pos hlog] at h
  have hperm := utils.ShuffleMapKeys_perm dev.rand link.connections
  generalize utils.ShuffleMapKeys dev.rand link.connections = sh at h hperm
  obtain ⟨addresses, random⟩ := sh
  obtain ⟨new, hnew, hall⟩ := broadcastLogFuncLoop_sendCalls data exceptAddress _ addresses 0
    link _ link1 dev1 h
  exact ⟨new, hnew, fun c hc =>
    ⟨(hall c hc).1, hperm.mem_iff.1 (hall c hc).2.1, (hall c hc).2.2⟩⟩

/-- Under `BroadcastTwo`, when `BroadcastBytesExcept` returns, it has made at most two calls
of `SendBytes`. -/
theorem BroadcastBytesExcept_Two (link : PacketLayer) (dev : device.Device)
    (data : List Nat) (exceptAddress : String) (link1 : PacketLayer) (dev1 : device.Device)
    (htwo : link.options.RREQBroadcastStrategy = device.BroadcastTwo)
    (h : link.BroadcastBytesExcept dev data exceptAddress = some (link1, dev1)) :
    link1.sendCalls.length ≤ link.sendCalls.length + 2 := by
  unfold PacketLayer.BroadcastBytesExcept at h
  rw [if_neg (by rw [htwo]; decide), if_neg (by rw [htwo]; decide), if_pos htwo] at h
  generalize utils.ShuffleMapKeys dev.rand link.connections = sh at h
  obtain ⟨adresses, random⟩ := sh
  exact broadcastTwoLoop_sendCalls data adresses [0, 1] link _ link1 dev1 h

end packet_layer

namespace packet_layer
open builtin

/-! ### The encoder with bounds checks agrees with the encoder without -/

theorem copyMessageChecked_eq (e : PacketEncoder) (m : List Nat) (flags : packetFlags)
    (h : e.cursor + 2 ≤ e.workingPacket.length) :
    e.copyMessageChecked m flags = some (e.copyMessage m flags) := by
  have h1 : e.cursor < e.workingPacket.length := by omega
  have h2 : e.cursor + 1 <
      (e.workingPacket.set e.cursor (newPacketHeader m.length flags).toBytes.1).length := by
    rw [List.length_set]; omega
  unfold PacketEncoder.copyMessageChecked PacketEncoder.copyMessage
  simp only [not_not.2 h1, not_not.2 h2, if_false]
  rw [sliceFrom_drop _ _ (by simp only [List.length_set]; omega)]
  simp only
  split <;> rfl

theorem writeNextPacketChecked_eq (e : PacketEncoder) (h : e.cursor ≤ e.workingPacket.length) :
    e.writeNextPacketChecked = some e.writeNextPacket := by
  unfold PacketEncoder.writeNextPacketChecked PacketEncoder.writeNextPacket
  rw [slice_zero_take _ _ h]
  rfl

theorem copyMessage_WellFormed (k : Nat) (e : PacketEncoder) (m : List Nat)
    (flags : packetFlags) (hw : e.WellFormed k) (hfit : e.cursor + 2 + m.length ≤ k) :
    ∃ e1, e.copyMessage m flags = .ok e1 ∧ e1.WellFormed k ∧
      e1.cursor = e.cursor + m.length + 2 := by
  obtain ⟨e1, he1, hw1, hc1, _⟩ := copyMessageChecked_ok k e m flags hw hfit
  rw [copyMessageChecked_eq e m flags (by have := hw.2.1; omega)] at he1
  exact ⟨e1, Option.some.inj he1, hw1, hc1⟩

theorem writeNextPacket_WellFormed (k : Nat) (e : PacketEncoder) (hw : e.WellFormed k) :
    e.writeNextPacket.WellFormed k ∧ e.writeNextPacket.cursor = 0 := by
  obtain ⟨e1, he1, hw1, hc1⟩ := writeNextPacketChecked_ok k e hw
  rw [writeNextPacketChecked_eq e (by have := hw.2.1; have := hw.2.2.1; omega)] at he1
  rw [Option.some.inj he1]
  exact ⟨hw1, hc1⟩

theorem encodeRemainingChecked_eq (k : Nat) (h3 : 3 ≤ k) :
    ∀ (fuel : Nat) (e : PacketEncoder) (remaining : List Nat) (frames : List (List Nat)),
      e.WellFormed k → e.cursor = 0 → remaining.length ≤ fuel →
      (PacketEncoder.encodeRemainingChecked fuel e remaining frames).map
          (fun r => r.map Prod.fst) =
        some (PacketEncoder.encodeRemaining fuel e remaining) := by
  intro fuel
  induction fuel with
  | zero =>
    intro e remaining frames hw _ hlen
    have h0 : ¬ remaining.length > 0 := by omega
    rw [PacketEncoder.encodeRemainingChecked, if_neg h0, PacketEncoder.encodeRemaining]
    rfl
  | succ fuel ih =>
    intro e remaining frames hw hc hlen
    have hsize : e.packetSize = k := hw.1
    have hroom : (e.packetSize : Int) - (e.cursor : Int) - 2 = ((k - 2 : Nat) : Int) := by
      rw [hsize, hc]; omega
    have hroomN : e.packetSize - e.cursor - 2 = k - 2 := by
      rw [hsize, hc]; omega
    rw [PacketEncoder.encodeRemainingChecked, PacketEncoder.encodeRemaining]
    by_cases hr : remaining.length > 0
    · rw [if_pos hr, if_pos hr]
      simp only [hroom, hroomN]
      by_cases hbig : (remaining.length : Int) > ((k - 2 : Nat) : Int)
      · have hbig1 : remaining.length > k - 2 := by omega
        rw [if_pos hbig, if_pos hbig1]
        have hnn : ¬ ((k - 2 : Nat) : Int) < 0 := by omega
        rw [if_neg hnn, Int.toNat_ofNat, slice_zero_take remaining (k - 2) (by omega)]
        have hchunk : (remaining.take (k - 2)).length = k - 2 := by
          rw [List.length_take]; omega
        obtain ⟨e1, he1, hw1, _⟩ := copyMessage_WellFormed k e (remaining.take (k - 2))
          (newPacketFlags true) hw (by rw [hchunk, hc]; omega)
        have he1c := copyMessageChecked_eq e (remaining.take (k - 2)) (newPacketFlags true)
          (by have := hw.2.1; omega)
        rw [he1] at he1c
        obtain ⟨hw2, hc2⟩ := writeNextPacket_WellFormed k e1 hw1
        have he2c := writeNextPacketChecked_eq e1
          (by have := hw1.2.1; have := hw1.2.2.1; omega)
        have hsize2 : e1.writeNextPacket.packetSize = k := hw2.1
        have hnn2 : ¬ (k : Int) - 2 < 0 := by omega
        have hto : ((k : Int) - 2).toNat = k - 2 := by omega
        simp only [Option.bind_eq_bind, Option.some_bind, he1c, he2c, he1, hsize2, if_neg hnn2,
          hto, sliceFrom_drop remaining (k - 2) (by omega)]
        have hlen2 : (remaining.drop (k - 2)).length ≤ fuel := by
          rw [List.length_drop]; omega
        exact ih e1.writeNextPacket (remaining.drop (k - 2))
          (frames ++ [remaining.take (k - 2)]) hw2 hc2 hlen2
      · have hbig1 : ¬ remaining.length > k - 2 := by omega
        rw [if_neg hbig, if_neg hbig1]
        have he1c := copyMessageChecked_eq e remaining (newPacketFlags false)
          (by have := hw.2.1; omega)
        simp only [Option.bind_eq_bind, Option.some_bind, he1c]
        cases e.copyMessage remaining (newPacketFlags false) <;> rfl
    · rw [if_neg hr, if_neg hr]
      rfl

/-- On an encoder in a state between two calls, `EncodeMessage` with the bounds checks of the
run time returns what `EncodeMessage` without them returns. -/
theorem EncodeMessageChecked_eq (k : Nat) (h3 : 3 ≤ k) (e : PacketEncoder) (message : List Nat)
    (hw : e.WellFormed k) :
    (e.EncodeMessageChecked message).map (fun r => r.map Prod.fst) =
      some (e.EncodeMessage message) := by
  have tail : ∀ e0 : PacketEncoder, e0.WellFormed k → e0.cursor + 3 ≤ k →
      (if (message.length : Int) > (e0.packetSize : Int) - (e0.cursor : Int) - 2 then
          if (e0.packetSize : Int) - (e0.cursor : Int) - 2 < 0 then none
          else
            (builtin.slice message 0
                ((e0.packetSize : Int) - (e0.cursor : Int) - 2).toNat).bind fun chunk =>
              (e0.copyMessageChecked chunk (newPacketFlags true)).bind fun r =>
                match r with
                | Except.error e => some (Except.error e)
                | Except.ok encoder1 =>
                  encoder1.writeNextPacketChecked.bind fun encoder2 =>
                    (sliceFrom message
                        ((e0.packetSize : Int) - (e0.cursor : Int) - 2).toNat).bind
                      fun remaining =>
                        PacketEncoder.encodeRemainingChecked remaining.length encoder2
                          remaining [chunk]
        else
          (e0.copyMessageChecked message (newPacketFlags false)).bind fun r =>
            match r with
            | Except.error e => some (Except.error e)
            | Except.ok encoder1 => some (Except.ok (encoder1, [message]))).map
          (fun r => r.map Prod.fst) =
        some (if message.length > e0.packetSize - e0.cursor - 2 then
          match e0.copyMessage (message.take (e0.packetSize - e0.cursor - 2))
              (newPacketFlags true) with
          | .error e => .error e
          | .ok encoder1 =>
            PacketEncoder.encodeRemaining
              (message.drop (e0.packetSize - e0.cursor - 2)).length
              encoder1.writeNextPacket (message.drop (e0.packetSize - e0.cursor - 2))
        else e0.copyMessage message (newPacketFlags false)) := by
    intro e0 hw0 hc0
    have hsize0 : e0.packetSize = k := hw0.1
    have hroom : (e0.packetSize : Int) - (e0.cursor : Int) - 2 =
        ((k - e0.cursor - 2 : Nat) : Int) := by
      rw [hsize0]; omega
    have hroomN : e0.packetSize - e0.cursor - 2 = k - e0.cursor - 2 := by rw [hsize0]
    simp only [hroom, hroomN]
    by_cases hbig : (message.length : Int) > ((k - e0.cursor - 2 : Nat) : Int)
    · have hbig1 : message.length > k - e0.cursor - 2 := by omega
      rw [if_pos hbig, if_pos hbig1]
      have hnn : ¬ ((k - e0.cursor - 2 : Nat) : Int) < 0 := by omega
      rw [if_neg hnn, Int.toNat_ofNat, slice_zero_take message _ (by omega)]
      have hchunk : (message.take (k - e0.cursor - 2)).length = k - e0.cursor - 2 := by
        rw [List.length_take]; omega
      obtain ⟨e1, he1, hw1, _⟩ := copyMessage_WellFormed k e0
        (message.take (k - e0.cursor - 2)) (newPacketFlags true) hw0 (by rw [hchunk]; omega)
      have he1c := copyMessageChecked_eq e0 (message.take (k - e0.cursor - 2))
        (newPacketFlags true) (by have := hw0.2.1; omega)
      rw [he1] at he1c
      obtain ⟨hw2, hc2⟩ := writeNextPacket_WellFormed k e1 hw1
      have he2c := writeNextPacketChecked_eq e1
        (by have := hw1.2.1; have := hw1.2.2.1; omega)
      simp only [Option.some_bind, he1c, he2c, he1,
        sliceFrom_drop message _ (le_of_lt hbig1)]
      exact encodeRemainingChecked_eq k h3 _ _ _ _ hw2 hc2 (le_refl _)
    · have hbig1 : ¬ message.length > k - e0.cursor - 2 := by omega
      rw [if_neg hbig, if_neg hbig1]
      have he1c := copyMessageChecked_eq e0 message (newPacketFlags false)
        (by have := hw0.2.1; omega)
      simp only [Option.some_bind, he1c]
      cases e0.copyMessage message (newPacketFlags false) <;> rfl
  have hsize : e.packetSize = k := hw.1
  unfold PacketEncoder.EncodeMessageChecked PacketEncoder.EncodeMessage
  simp only [Option.bind_eq_bind]
  by_cases hc : (e.cursor : Int) ≥ (e.packetSize : Int) - 2
  · have hc1 : e.cursor ≥ e.packetSize - 2 := by omega
    obtain ⟨hw0, hc0⟩ := writeNextPacket_WellFormed k e hw
    rw [if_pos hc, if_pos hc1, writeNextPacketChecked_eq e
      (by have := hw.2.1; have := hw.2.2.1; omega), Option.some_bind]
    exact tail _ hw0 (by omega)
  · have hc1 : ¬ e.cursor ≥ e.packetSize - 2 := by omega
    rw [if_neg hc, if_neg hc1]
    exact tail e hw (by omega)

end packet_layer

namespace packet_layer
open builtin

/-! ### `SendBytes` returns -/

theorem PopPacketChecked_count (k : Nat) (e : PacketEncoder) (hw : e.WellFormed k)
    (hpos : e.PacketCount > 0) :
    ∃ e1 p, e.PopPacketChecked = some (e1, p) ∧ e1.WellFormed k ∧
      e1.PacketCount + 1 = e.PacketCount := by
  obtain ⟨e1, p, hpop, hw1, _⟩ := PopPacketChecked_ok k e hw
  refine ⟨e1, p, hpop, hw1, ?_⟩
  obtain ⟨packets, wp, cursor, size⟩ := e
  cases packets with
  | nil =>
    have hc : cursor > 0 := by
      by_contra hc
      simp [PacketEncoder.PacketCount, hc] at hpos
    have hs := slice_zero_take wp cursor (by have := hw.2.1; have := hw.2.2.1; simp only at *; omega)
    simp only [PacketEncoder.PopPacketChecked, if_pos hc, hs, Option.bind_eq_bind,
      Option.some_bind, Option.some.injEq, Prod.mk.injEq] at hpop
    obtain ⟨rfl, _⟩ := hpop
    simp [PacketEncoder.PacketCount, hc]
  | cons q rest =>
    simp only [PacketEncoder.PopPacketChecked, Option.some.injEq, Prod.mk.injEq] at hpop
    obtain ⟨rfl, _⟩ := hpop
    simp only [PacketEncoder.PacketCount, List.length_cons]
    split <;> omega

theorem sendPackets_ok (address : String) (k : Nat) :
    ∀ (fuel : Nat) (e : PacketEncoder) (dev : device.Device), e.WellFormed k →
      e.PacketCount ≤ fuel →
      ∃ e1 dev1, sendPackets address fuel e dev = some (e1, dev1) ∧ e1.WellFormed k ∧
        dev1.MaxPacketSize = dev.MaxPacketSize := by
  intro fuel
  induction fuel with
  | zero =>
    intro e dev hw hle
    have h0 : ¬ e.PacketCount > 0 := by omega
    exact ⟨e, dev, by rw [sendPackets, if_neg h0], hw, rfl⟩
  | succ fuel ih =>
    intro e dev hw hle
    rw [sendPackets]
    by_cases hpos : e.PacketCount > 0
    · rw [if_pos hpos]
      obtain ⟨e1, p, hpop, hw1, hcount⟩ := PopPacketChecked_count k e hw hpos
      obtain ⟨e2, dev2, hsend, hw2, hdev2⟩ :=
        ih e1 (dev.SendPacket address p) hw1 (by omega)
      refine ⟨e2, dev2, ?_, hw2, hdev2⟩
      simp only [Option.bind_eq_bind, hpop, Option.some_bind]
      exact hsend
    · rw [if_neg hpos]
      exact ⟨e, dev, rfl, hw, rfl⟩

theorem Ready.insert (dev dev1 : device.Device) (link : PacketLayer) (address : String)
    (conn : connection) (calls : List (String × List Nat)) (k : Nat) (h3 : 3 ≤ k)
    (hready : link.Ready dev) (hdev : dev1.MaxPacketSize = dev.MaxPacketSize)
    (hw : conn.encoder.WellFormed k) :
    PacketLayer.Ready dev1
      { link with sendCalls := calls, connections := link.connections.insert address conn } := by
  refine ⟨?_, ?_⟩
  · rw [hdev]; exact hready.1
  · intro a c hc
    by_cases ha : a = address
    · subst ha
      simp only [AList.lookup_insert, Option.some.injEq] at hc
      subst hc
      exact ⟨k, h3, hw⟩
    · simp only [AList.lookup_insert_ne ha] at hc
      exact hready.2 a c hc

theorem Ready.of_connections (dev dev1 : device.Device) (link link1 : PacketLayer)
    (hready : link.Ready dev) (hdev : dev1.MaxPacketSize = dev.MaxPacketSize)
    (hconn : link1.connections = link.connections) : link1.Ready dev1 := by
  refine ⟨?_, ?_⟩
  · rw [hdev]; exact hready.1
  · rw [hconn]; exact hready.2

/-- On a packet layer that fits its device, `SendBytes` returns, and the packet layer fits
the device afterwards. -/
theorem SendBytes_ok (link : PacketLayer) (dev : device.Device) (address : String)
    (data : List Nat) (hready : link.Ready dev) :
    ∃ link1 dev1 ok, link.SendBytes dev address data = some (link1, dev1, ok) ∧
      link1.Ready dev1 ∧ dev1.MaxPacketSize = dev.MaxPacketSize := by
  unfold PacketLayer.SendBytes
  simp only
  cases hsize : dev.MaxPacketSize address with
  | error e =>
    exact ⟨_, _, _, rfl, Ready.of_connections dev dev link _ hready rfl rfl, rfl⟩
  | ok packetSize =>
    simp only
    cases hconn : link.connections.lookup address with
    | none =>
      exact ⟨_, _, _, rfl, Ready.of_connections dev dev link _ hready rfl rfl, rfl⟩
    | some conn =>
      simp only
      obtain ⟨hk3, hk14⟩ := hready.1 address packetSize hsize
      obtain ⟨k0, hk0, hw0⟩ := hready.2 address conn hconn
      have henc : ∃ k encoder, 3 ≤ k ∧ encoder.WellFormed k ∧
          (if packetSize ≠ (conn.encoder.packetSize : Int) then
            NewPacketEncoder packetSize.toNat else some conn.encoder) = some encoder := by
        by_cases hne : packetSize ≠ (conn.encoder.packetSize : Int)
        · rw [if_pos hne]
          obtain ⟨e, he, hwe, _⟩ := NewPacketEncoder_WellFormed packetSize.toNat
            (by omega) (by omega)
          exact ⟨_, e, by omega, hwe, he⟩
        · rw [if_neg hne]
          exact ⟨k0, conn.encoder, hk0, hw0, rfl⟩
      obtain ⟨k, encoder, hk, hw, henc⟩ := henc
      obtain ⟨e1, frames, he1, hw1, _⟩ := EncodeMessageChecked_ok k hk encoder data hw
      obtain ⟨e2, dev2, hsend, hw2, hdev2⟩ :=
        sendPackets_ok address k e1.PacketCount e1 dev hw1 (le_refl _)
      refine ⟨_, dev2, true, ?_, Ready.insert dev dev2 link address { conn with encoder := e2 }
        (link.sendCalls ++ [(address, data)]) k hk hready hdev2 hw2, hdev2⟩
      simp only [Option.bind_eq_bind, henc, Option.some_bind, he1, hsend]

theorem broadcastLoop_ok (data : List Nat) :
    ∀ (addresses : List String) (link : PacketLayer) (dev : device.Device), link.Ready dev →
      ∃ link1 dev1, PacketLayer.broadcastLoop data addresses link dev = some (link1, dev1) ∧
        link1.Ready dev1 ∧ dev1.MaxPacketSize = dev.MaxPacketSize ∧
        link1.sendCalls = link.sendCalls ++ addresses.map (fun a => (a, data)) ∧
        link1.options = link.options := by
  intro addresses
  induction addresses with
  | nil =>
    intro link dev hready
    exact ⟨link, dev, rfl, hready, rfl, by simp, rfl⟩
  | cons a rest ih =>
    intro link dev hready
    obtain ⟨link1, dev1, ok, hsend, hready1, hdev1⟩ := SendBytes_ok link dev a data hready
    obtain ⟨hcalls1, hopt1⟩ := SendBytes_sendCalls link dev a data link1 dev1 ok hsend
    obtain ⟨link2, dev2, hloop, hready2, hdev2, hcalls2, hopt2⟩ := ih link1 dev1 hready1
    refine ⟨link2, dev2, ?_, hready2, hdev2.trans hdev1, ?_, hopt2.trans hopt1⟩
    · rw [PacketLayer.broadcastLoop]
      simp only [Option.bind_eq_bind, hsend, Option.some_bind]
      exact hloop
    · rw [hcalls2, hcalls1]
      simp

theorem BroadcastBytes_ok (link : PacketLayer) (dev : device.Device) (data : List Nat)
    (hready : link.Ready dev) :
    ∃ (link1 : PacketLayer) (dev1 : device.Device) (addresses : List String),
      link.BroadcastBytes dev data = some (link1, dev1) ∧
      link1.Ready dev1 ∧ dev1.MaxPacketSize = dev.MaxPacketSize ∧
      link1.sendCalls = link.sendCalls ++ addresses.map (fun a => (a, data)) ∧
      link1.options = link.options := by
  unfold PacketLayer.BroadcastBytes
  generalize utils.ShuffleMapKeys dev.rand link.connections = sh
  obtain ⟨addresses, random⟩ := sh
  obtain ⟨link1, dev1, hloop, hready1, hdev1, hcalls, hopt⟩ :=
    broadcastLoop_ok data addresses link { dev with rand := random }
      (Ready.of_connections dev _ link link hready rfl rfl)
  exact ⟨link1, dev1, addresses, hloop, hready1, hdev1, hcalls, hopt⟩

end packet_layer

namespace contact_bitmap

/-! ### `EncodeContactBitmap` returns for every container -/

theorem encodeContacts_some (hmac : List Nat → List Nat → List Nat)
    (hlen : ∀ key message, (hmac key message).length = 32) (seed : Nat)
    (container : device.ContactsContainer) :
    ∀ (list : List String) (bitmap lockedBits : List Nat) (count : Nat)
      (encoded : List String),
      bitmap.length = 256 → lockedBits.length = 256 →
      ∃ res, encodeContacts hmac seed container list bitmap lockedBits count encoded =
        some res := by
  intro list
  induction list with
  | nil =>
    intro bitmap lockedBits count encoded _ _
    exact ⟨_, rfl⟩
  | cons c rest ih =>
    intro bitmap lockedBits count encoded hb hl
    rw [encodeContacts]
    cases hs : container.ContactSecret c with
    | error e => exact ⟨_, rfl⟩
    | ok secret =>
      simp only
      by_cases h32 : secret.length = 32
      · obtain ⟨bits, hbits, _, hnodup, hlt⟩ := ContactBits_ok hmac hlen seed secret h32
        rw [hbits]
        simp only
        obtain ⟨r, hr, _⟩ := hasCollision_spec lockedBits bitmap hl hb bits 0 hlt
        rw [hr]
        cases r with
        | true => exact ih bitmap lockedBits count encoded hb hl
        | false =>
          simp only
          obtain ⟨l1, b1, hset, hl1, hb1, _⟩ :=
            setContactBits_spec bits lockedBits bitmap 0 hl hb hnodup hlt
          rw [hset]
          exact ih b1 l1 (count + 1) (encoded ++ [c]) hb1 hl1
      · have herr : ContactBits hmac seed secret =
            some (.error "wrong secret length, expected 32") := by
          unfold ContactBits
          rw [if_pos h32]
        rw [herr]
        exact ⟨_, rfl⟩

theorem encodeAttempts_some (hmac : List Nat → List Nat → List Nat)
    (hlen : ∀ key message, (hmac key message).length = 32) (list : List String)
    (container : device.ContactsContainer) :
    ∀ (n : Nat) (reader : Reader) (bb : List Nat) (bs : Nat) (bc : Int) (trace : EncodeTrace),
      ∃ res, encodeAttempts hmac list container n reader bb bs bc trace = some res := by
  intro n
  induction n with
  | zero =>
    intro reader bb bs bc trace
    exact ⟨_, rfl⟩
  | succ n ih =>
    intro reader bb bs bc trace
    obtain ⟨seed, hseed⟩ := RandomSeed_some reader
    have hbm : (((reader.Read 8).2).Read BITMAP_SIZE).1.length = 256 := length_Read _ _
    have hlk : (List.replicate BITMAP_SIZE 0).length = 256 := by
      rw [List.length_replicate]; rfl
    obtain ⟨res, hres⟩ := encodeContacts_some hmac hlen seed container list
      (((reader.Read 8).2).Read BITMAP_SIZE).1 (List.replicate BITMAP_SIZE 0) 0 [] hbm hlk
    rw [encodeAttempts, hseed]
    simp only [hres]
    cases res with
    | error e => exact ⟨_, rfl⟩
    | ok r =>
      obtain ⟨bm, lk, cnt, enc⟩ := r
      simp only
      split
      · exact ⟨_, rfl⟩
      · exact ih _ _ _ _ _

/-- For every container and every list of contacts, `EncodeContactBitmap` returns a bitmap
or an error. -/
theorem EncodeContactBitmap_some (hmac : List Nat → List Nat → List Nat)
    (hlen : ∀ key message, (hmac key message).length = 32) (reader : Reader)
    (list : List String) (container : device.ContactsContainer) (attempts : Int) :
    ∃ res, EncodeContactBitmap hmac reader list container attempts = some res :=
  encodeAttempts_some hmac hlen list container _ _ _ _ _ _

end contact_bitmap

namespace network_layer

/-! ### What the handlers do besides changing the tables -/

theorem Effect.nothing (network : NetworkLayer) : Effect network network [] [] :=
  ⟨rfl, rfl, rfl, rfl, by simp, by simp, rfl⟩

theorem Effect.andThen {n0 n1 n2 : NetworkLayer} {l1 l2 : List NetworkEvent}
    {c1 c2 : List (String × List Nat)} (h01 : Effect n0 n1 l1 c1) (h12 : Effect n1 n2 l2 c2) :
    Effect n0 n2 (l1 ++ l2) (c1 ++ c2) :=
  ⟨h12.contacts.trans h01.contacts, h12.options.trans h01.options,
    h12.replyPayload.trans h01.replyPayload, h12.hasPending.trans h01.hasPending,
    by rw [h12.log, h01.log, List.append_assoc],
    by rw [h12.sendCalls, h01.sendCalls, List.append_assoc],
    h12.maxPacketSize.trans h01.maxPacketSize⟩

theorem SendBytes_Effect (network : NetworkLayer) (address : String) (data : List Nat)
    (hready : network.packetLayer.Ready network.dev) :
    ∃ network1 ok, network.SendBytes address data = some (network1, ok) ∧
      network1.packetLayer.Ready network1.dev ∧
      Effect network network1 [] [(address, data)] ∧
      network1.sessionTable = network.sessionTable ∧
      network1.requestTable = network.requestTable := by
  obtain ⟨link1, dev1, ok, hsend, hready1, hdev1⟩ :=
    packet_layer.SendBytes_ok network.packetLayer network.dev address data hready
  obtain ⟨hcalls, _⟩ := packet_layer.SendBytes_sendCalls _ _ _ _ _ _ _ hsend
  refine ⟨{ network with packetLayer := link1, dev := dev1 }, ok, ?_, hready1,
    ⟨rfl, rfl, rfl, rfl, by simp, hcalls, hdev1⟩, rfl, rfl⟩
  unfold NetworkLayer.SendBytes
  simp only [Option.bind_eq_bind, hsend, Option.some_bind]

theorem sendRouteError_Effect (network : NetworkLayer) (targetAddr : String) (sessID : Nat)
    (hready : network.packetLayer.Ready network.dev) :
    ∃ network1, network.sendRouteError targetAddr sessID = some network1 ∧
      network1.packetLayer.Ready network1.dev ∧
      Effect network network1 [] [(targetAddr, (NewRERR sessID).EncodePacket)] ∧
      network1.sessionTable = network.sessionTable ∧
      network1.requestTable = network.requestTable := by
  obtain ⟨network1, ok, hsend, hready1, heff, hs, hr⟩ :=
    SendBytes_Effect network targetAddr (NewRERR sessID).EncodePacket hready
  refine ⟨network1, ?_, hready1, heff, hs, hr⟩
  unfold NetworkLayer.sendRouteError
  simp only [Option.bind_eq_bind, hsend, Option.some_bind]

theorem hasSessionLoop_some (network : NetworkLayer) (contact : String) :
    ∀ sessionIDs : List Nat, (∀ id ∈ sessionIDs, id ∈ network.sessionTable.keys) →
      ∃ r, network.hasSessionLoop contact sessionIDs = some r := by
  intro sessionIDs
  induction sessionIDs with
  | nil => intro _; exact ⟨_, rfl⟩
  | cons id rest ih =>
    intro hmem
    have hid : id ∈ network.sessionTable := AList.mem_keys.1 (hmem id (List.mem_cons_self _ _))
    obtain ⟨session, hsession⟩ := Option.isSome_iff_exists.1 (AList.lookup_isSome.2 hid)
    rw [NetworkLayer.hasSessionLoop]
    simp only [Option.bind_eq_bind, hsession, Option.some_bind]
    split
    · exact ⟨_, rfl⟩
    · exact ih (fun x hx => hmem x (List.mem_cons_of_mem _ hx))

theorem prioritizeLoop_some (network : NetworkLayer) :
    ∀ (contacts : List String) (random : device.Rand) (prioritized : List String),
      ∃ r, network.prioritizeLoop contacts random prioritized = some r := by
  intro contacts
  induction contacts with
  | nil => intro _ _; exact ⟨_, rfl⟩
  | cons contact rest ih =>
    intro random prioritized
    have hperm := utils.ShuffleMapKeys_perm random network.sessionTable
    rw [NetworkLayer.prioritizeLoop]
    generalize utils.ShuffleMapKeys random network.sessionTable = sh at hperm
    obtain ⟨ids, random1⟩ := sh
    obtain ⟨r, hr⟩ := hasSessionLoop_some network contact ids
      (fun id hid => hperm.mem_iff.1 hid)
    simp only [Option.bind_eq_bind, hr, Option.some_bind]
    split
    · exact ih _ _
    · exact ih _ _

end network_layer

namespace network_layer

theorem buildRouteRequest_ok (crypto : Crypto) (network : NetworkLayer) (ttl : Nat)
    (hlen : ∀ key message, (crypto.hmac key message).length = 32) :
    ∃ network1 r, network.buildRouteRequest crypto ttl = some (network1, r) ∧
      network1.packetLayer = network.packetLayer ∧
      Effect network network1 [] [] ∧
      network1.sessionTable = network.sessionTable := by
  obtain ⟨⟨prioritized, random⟩, hprio⟩ := prioritizeLoop_some network
    (network.contacts.AllGroups ++ network.contacts.AllLinks) network.dev.rand []
  obtain ⟨res, henc⟩ := contact_bitmap.EncodeContactBitmap_some crypto.hmac hlen
    network.dev.cryptoRand prioritized network.contacts 5
  unfold NetworkLayer.buildRouteRequest
  simp only [Option.bind_eq_bind, hprio, Option.some_bind, henc]
  cases res with
  | error e =>
    exact ⟨_, _, rfl, rfl, ⟨rfl, rfl, rfl, rfl, by simp, by simp, rfl⟩, rfl⟩
  | ok r =>
    obtain ⟨bitmapResult, trace, cryptoRand⟩ := r
    simp only
    by_cases h0 : bitmapResult.ContactCount = 0
    · rw [if_pos h0]
      exact ⟨_, _, rfl, rfl, ⟨rfl, rfl, rfl, rfl, by simp, by simp, rfl⟩, rfl⟩
    · rw [if_neg h0]
      have hbest := (contact_bitmap.EncodeContactBitmap_Best crypto.hmac hlen _ _ _ 5
        bitmapResult trace cryptoRand henc (by decide)).1
      have hb : ¬ bitmapResult.Bitmap.length ≠ BITMAP_SIZE := by
        rw [hbest.1]
        decide
      simp only [NewRREQPacket, if_neg hb, Option.some_bind]
      exact ⟨_, _, rfl, rfl, ⟨rfl, rfl, rfl, rfl, by simp, by simp, rfl⟩, rfl⟩

/-- The bytes of an RREQ packet are not those of an RERR packet. -/
theorem isRERR_RREQ (rreq : RREQPacket) : isRERR rreq.EncodePacket = false := by
  simp [isRERR, RREQPacket.EncodePacket, RequestID.Encode, TTL.Encode, binary.AppendUint64,
    binary.AppendUint16, RREQ, RERR]

end network_layer

namespace network_layer

theorem BroadcastRouteRequest_ok (crypto : Crypto) (network : NetworkLayer)
    (hlen : ∀ key message, (crypto.hmac key message).length = 32)
    (hready : network.packetLayer.Ready network.dev) :
    ∃ network1 new, network.BroadcastRouteRequest crypto = some network1 ∧
      network1.packetLayer.Ready network1.dev ∧
      Effect network network1 [] new ∧ (∀ call ∈ new, isRERR call.2 = false) ∧
      network1.sessionTable = network.sessionTable := by
  obtain ⟨n2, r, hbuild, hlink, heff, hs⟩ := buildRouteRequest_ok crypto network network.maxTTL hlen
  have hready2 : n2.packetLayer.Ready n2.dev :=
    packet_layer.Ready.of_connections network.dev n2.dev network.packetLayer n2.packetLayer
      hready heff.maxPacketSize (by rw [hlink])
  unfold NetworkLayer.BroadcastRouteRequest
  simp only [Option.bind_eq_bind, hbuild, Option.some_bind]
  cases r with
  | error e =>
    exact ⟨n2, [], rfl, hready2, heff, (fun _ h => absurd h (List.not_mem_nil _)), hs⟩
  | ok rreqPacket =>
    simp only
    obtain ⟨link1, dev1, addresses, hb, hready1, hdev1, hcalls, _⟩ :=
      packet_layer.BroadcastBytes_ok n2.packetLayer n2.dev rreqPacket.EncodePacket hready2
    simp only [hb, Option.some_bind]
    refine ⟨_, addresses.map (fun a => (a, rreqPacket.EncodePacket)), rfl, hready1, ?_, ?_, hs⟩
    · have h2 : Effect n2 { n2 with packetLayer := link1, dev := dev1 } []
          (addresses.map (fun a => (a, rreqPacket.EncodePacket))) :=
        ⟨rfl, rfl, rfl, rfl, by simp, hcalls, hdev1⟩
      exact heff.andThen h2
    · intro call hcall
      obtain ⟨a, _, rfl⟩ := List.mem_map.1 hcall
      exact isRERR_RREQ rreqPacket

theorem eventSessionBroken_ok (crypto : Crypto) (network : NetworkLayer) (sessID : Nat)
    (hlen : ∀ key message, (crypto.hmac key message).length = 32)
    (hready : network.packetLayer.Ready network.dev) :
    ∃ network1 new, network.eventSessionBroken crypto sessID = some network1 ∧
      network1.packetLayer.Ready network1.dev ∧
      Effect network network1 [NetworkEvent.SessionBroken sessID] new ∧
      (∀ call ∈ new, isRERR call.2 = false) ∧
      network1.sessionTable = network.sessionTable := by
  have h1 : Effect network
      { network with events := { network.events with
          log := network.events.log ++ [NetworkEvent.SessionBroken sessID] } }
      [NetworkEvent.SessionBroken sessID] [] :=
    ⟨rfl, rfl, rfl, rfl, rfl, by simp, rfl⟩
  unfold NetworkLayer.eventSessionBroken
  simp only
  split
  · obtain ⟨n1, new, hb, hready1, heff, hnew, hs⟩ := BroadcastRouteRequest_ok crypto
      { network with events := { network.events with
          log := network.events.log ++ [NetworkEvent.SessionBroken sessID] } } hlen hready
    exact ⟨n1, new, hb, hready1, by simpa using h1.andThen heff, hnew, hs⟩
  · exact ⟨_, [], rfl, hready, h1, (fun _ h => absurd h (List.not_mem_nil _)), rfl⟩

/-- The method `SessionBroken` called with an address, for a session of the table: it
returns, sends no RERR, removes the session, and makes the callback `SessionBroken` once
when the session is an endpoint session and not at all when it is not. -/
theorem SessionBroken_address (crypto : Crypto) (network : NetworkLayer) (sessID : Nat)
    (address : String) (entry : SessionTableEntry)
    (hlen : ∀ key message, (crypto.hmac key message).length = 32)
    (hready : network.packetLayer.Ready network.dev)
    (hentry : network.sessionTable.lookup sessID = some entry) :
    ∃ network1 new, network.SessionBroken crypto sessID (some address) = some network1 ∧
      network1.packetLayer.Ready network1.dev ∧
      Effect network network1
        (if entry.EndpointSession then [NetworkEvent.SessionBroken sessID] else []) new ∧
      (∀ call ∈ new, isRERR call.2 = false) ∧
      network1.sessionTable = network.sessionTable.erase sessID := by
  unfold NetworkLayer.SessionBroken
  rw [hentry]
  have hne : ¬ (some address : Option String) = none := by simp
  simp only [if_neg hne, Option.bind_eq_bind, Option.some_bind, hentry]
  by_cases hend : entry.EndpointSession = true
  · rw [if_pos hend, if_pos hend]
    obtain ⟨n1, new, hb, hready1, heff, hnew, hs⟩ := eventSessionBroken_ok crypto
      { network with sessionTable := network.sessionTable.erase sessID } sessID hlen hready
    exact ⟨n1, new, hb, hready1,
      ⟨heff.contacts, heff.options, heff.replyPayload, heff.hasPending, heff.log,
        heff.sendCalls, heff.maxPacketSize⟩, hnew, hs⟩
  · rw [if_neg hend, if_neg hend]
    exact ⟨_, [], rfl, hready, ⟨rfl, rfl, rfl, rfl, by simp, by simp, rfl⟩,
      (fun _ h => absurd h (List.not_mem_nil _)), rfl⟩

end network_layer

namespace network_layer

/-! ### `handleSESSPacket` and `handleRouteErrorPacket` at a relay -/

/-- C31: for a session with both neighbours set, on a packet layer that fits its device,
`handleSESSPacket` returns without a message for the upper layer and with the session table
as it was. It has called `SendBytes` once, with the encoded packet for the target neighbour,
when the sender is the source neighbour; once, for the source neighbour, when the sender is
not the source but the target neighbour; and not at all when the sender is neither. -/
theorem C31_relay_forwards_SESS (crypto : Crypto) (network : NetworkLayer) (packet : SESSPacket)
    (sender source target : String) (session : SessionTableEntry)
    (hready : network.packetLayer.Ready network.dev)
    (hsession : network.sessionTable.lookup packet.SessionID = some session)
    (hsource : session.SourceNeighbour = some source)
    (htarget : session.TargetNeighbour = some target) :
    ∃ network1, network.handleSESSPacket crypto packet sender = some (network1, none) ∧
      network1.sessionTable = network.sessionTable ∧
      network1.packetLayer.sendCalls = network.packetLayer.sendCalls ++
        (if sender = source then [(target, packet.EncodePacket)]
         else if sender = target then [(source, packet.EncodePacket)] else []) := by
  unfold NetworkLayer.handleSESSPacket
  rw [hsession]
  simp only [hsource, htarget]
  by_cases hs : source ≠ sender
  · have hs1 : ¬ sender = source := fun h => hs h.symm
    rw [if_pos hs, if_neg hs1]
    by_cases ht : target ≠ sender
    · have ht1 : ¬ sender = target := fun h => ht h.symm
      rw [if_pos ht, if_neg ht1]
      exact ⟨network, rfl, rfl, by simp⟩
    · have ht1 : sender = target := (not_not.1 ht).symm
      rw [if_neg ht, if_pos ht1]
      obtain ⟨n1, ok, hsend, _, heff, hst, _⟩ :=
        SendBytes_Effect network source packet.EncodePacket hready
      simp only [Option.bind_eq_bind, hsend, Option.some_bind]
      exact ⟨n1, rfl, hst, heff.sendCalls⟩
  · have hs1 : sender = source := (not_not.1 hs).symm
    rw [if_neg hs, if_pos hs1]
    obtain ⟨n1, ok, hsend, _, heff, hst, _⟩ :=
      SendBytes_Effect network target packet.EncodePacket hready
    simp only [Option.bind_eq_bind, hsend, Option.some_bind]
    exact ⟨n1, rfl, hst, heff.sendCalls⟩

/-- For a session with both neighbours set, `handleRouteErrorPacket` removes the session
whoever the sender is; it sends an RERR to the target neighbour when the sender is the
source neighbour, to the source neighbour when the sender is the target neighbour, and none
when the sender is neither. -/
theorem handleRouteErrorPacket_relay (crypto : Crypto) (network : NetworkLayer)
    (rerr : RERRPacket) (sender source target : String) (entry : SessionTableEntry)
    (hready : network.packetLayer.Ready network.dev)
    (hentry : network.sessionTable.lookup rerr.SessionID = some entry)
    (hsource : entry.SourceNeighbour = some source)
    (htarget : entry.TargetNeighbour = some target) :
    ∃ network1, network.handleRouteErrorPacket crypto rerr sender = some network1 ∧
      network1.sessionTable = network.sessionTable.erase rerr.SessionID ∧
      Effect network network1 []
        (if sender = source then [(target, (NewRERR rerr.SessionID).EncodePacket)]
         else if sender = target then [(source, (NewRERR rerr.SessionID).EncodePacket)]
         else []) := by
  unfold NetworkLayer.handleRouteErrorPacket
  simp only [hentry, hsource, htarget]
  by_cases hs : sender = source
  · rw [if_pos hs, if_pos hs]
    obtain ⟨n1, hsend, _, heff, hst, _⟩ :=
      sendRouteError_Effect network target rerr.SessionID hready
    simp only [Option.bind_eq_bind, hsend, Option.some_bind]
    refine ⟨_, rfl, ?_, ?_⟩
    · show n1.sessionTable.erase rerr.SessionID = _
      rw [hst]
    · exact ⟨heff.contacts, heff.options, heff.replyPayload, heff.hasPending, heff.log,
        heff.sendCalls, heff.maxPacketSize⟩
  · rw [if_neg hs, if_neg hs]
    by_cases ht : sender = target
    · rw [if_pos ht, if_pos ht]
      obtain ⟨n1, hsend, _, heff, hst, _⟩ :=
        sendRouteError_Effect network source rerr.SessionID hready
      simp only [Option.bind_eq_bind, hsend, Option.some_bind]
      refine ⟨_, rfl, ?_, ?_⟩
      · show n1.sessionTable.erase rerr.SessionID = _
        rw [hst]
      · exact ⟨heff.contacts, heff.options, heff.replyPayload, heff.hasPending, heff.log,
          heff.sendCalls, heff.maxPacketSize⟩
    · rw [if_neg ht, if_neg ht]
      simp only [Option.bind_eq_bind, Option.some_bind]
      exact ⟨_, rfl, rfl, ⟨rfl, rfl, rfl, rfl, by simp, by simp, rfl⟩⟩

/-- C32: on a packet layer that fits its device, `handleRouteErrorPacket` returns.
For a session id that is not in the table the network layer is as before. For an endpoint
session with a neighbour not set, the entry is removed, the callback `SessionBroken` is made
once, for this session, and no RERR is sent (what is sent is sent by the upper layer inside
the callback, and is no RERR). For a session with both neighbours set the entry is removed
and one RERR with the session id is sent: to the target neighbour when the sender is the
source neighbour, to the source neighbour when the sender is the target neighbour. -/
theorem C32_handleRouteErrorPacket (crypto : Crypto) (network : NetworkLayer)
    (rerr : RERRPacket) (sender : String)
    (hlen : ∀ key message, (crypto.hmac key message).length = 32)
    (hready : network.packetLayer.Ready network.dev) :
    (network.sessionTable.lookup rerr.SessionID = none →
      network.handleRouteErrorPacket crypto rerr sender = some network) ∧
    (∀ entry, network.sessionTable.lookup rerr.SessionID = some entry →
      entry.EndpointSession = true →
      entry.SourceNeighbour = none ∨ entry.TargetNeighbour = none →
      ∃ network1 new, network.handleRouteErrorPacket crypto rerr sender = some network1 ∧
        network1.sessionTable.lookup rerr.SessionID = none ∧
        network1.events.log =
          network.events.log ++ [NetworkEvent.SessionBroken rerr.SessionID] ∧
        network1.packetLayer.sendCalls = network.packetLayer.sendCalls ++ new ∧
        ∀ call ∈ new, isRERR call.2 = false) ∧
    (∀ entry source target, network.sessionTable.lookup rerr.SessionID = some entry →
      entry.SourceNeighbour = some source → entry.TargetNeighbour = some target →
      ∃ network1, network.handleRouteErrorPacket crypto rerr sender = some network1 ∧
        network1.sessionTable.lookup rerr.SessionID = none ∧
        network1.events.log = network.events.log ∧
        (sender = source → network1.packetLayer.sendCalls =
          network.packetLayer.sendCalls ++ [(target, (NewRERR rerr.SessionID).EncodePacket)]) ∧
        (sender ≠ source → sender = target → network1.packetLayer.sendCalls =
          network.packetLayer.sendCalls ++
            [(source, (NewRERR rerr.SessionID).EncodePacket)])) := by
  refine ⟨?_, ?_, ?_⟩
  · intro hnone
    unfold NetworkLayer.handleRouteErrorPacket
    simp only [hnone]
  · intro entry hentry hend hnil
    obtain ⟨n1, new, hb, _, heff, hnew, hst⟩ :=
      SessionBroken_address crypto network rerr.SessionID sender entry hlen hready hentry
    rw [if_pos hend] at heff
    refine ⟨n1, new, ?_, ?_, heff.log, heff.sendCalls, hnew⟩
    · unfold NetworkLayer.handleRouteErrorPacket
      simp only [hentry]
      rcases hnil with h | h
      · rw [h]
        exact hb
      · rw [h]
        cases entry.SourceNeighbour <;> exact hb
    · rw [hst, AList.lookup_erase]
  · intro entry source target hentry hsource htarget
    obtain ⟨n1, hh, hst, heff⟩ := handleRouteErrorPacket_relay crypto network rerr sender
      source target entry hready hentry hsource htarget
    refine ⟨n1, hh, ?_, by simpa using heff.log, ?_, ?_⟩
    · rw [hst, AList.lookup_erase]
    · intro hs
      have := heff.sendCalls
      rwa [if_pos hs] at this
    · intro hs ht
      have := heff.sendCalls
      rwa [if_neg hs, if_pos ht] at this

end network_layer

namespace packet_layer

/-- A packet layer with one connection, to `a`, whose encoder is in a state between two
calls, on a device that reports the packet size `k` for every address. -/
theorem Ready.single (dev : device.Device) (link : PacketLayer) (a : String) (k : Nat)
    (h3 : 3 ≤ k) (hk : k < 2 ^ 14)
    (hdev : dev.MaxPacketSize = fun _ => .ok (k : Int))
    (hkeys : link.connections.keys = [a])
    (hsize : (link.connections.lookup a).map (fun c => c.encoder.packetSize) = some k)
    (hwp : (link.connections.lookup a).map (fun c => c.encoder.workingPacket.length) = some k)
    (hcur : (link.connections.lookup a).map (fun c => decide (c.encoder.cursor ≤ k)) =
      some true)
    (hpk : (link.connections.lookup a).map
      (fun c => c.encoder.packets.all (fun p => decide (p.length ≤ k))) = some true) :
    link.Ready dev := by
  refine ⟨?_, ?_⟩
  · intro address n hn
    rw [hdev] at hn
    simp only [Except.ok.injEq] at hn
    omega
  · intro address conn hconn
    have hmem : address ∈ link.connections.keys :=
      AList.mem_keys.2 (AList.lookup_isSome.1 (by rw [hconn]; rfl))
    rw [hkeys, List.mem_singleton] at hmem
    subst hmem
    rw [hconn] at hsize hwp hcur hpk
    simp only [Option.map_some', Option.some.injEq, decide_eq_true_eq, List.all_eq_true] at *
    exact ⟨k, h3, hsize, hwp, hcur, hpk⟩

end packet_layer

namespace network_layer

set_option maxRecDepth 1000000

theorem network3_Ready : network3.packetLayer.Ready network3.dev :=
  packet_layer.Ready.single _ _ "A" 100 (by decide) (by decide) rfl rfl rfl rfl rfl rfl

theorem networkA2_Ready : networkA2.packetLayer.Ready networkA2.dev :=
  packet_layer.Ready.single _ _ "A" 100 (by decide) (by decide) rfl rfl rfl rfl rfl rfl

theorem networkA2_Reachable : Reachable cryptoFixed networkA2 :=
  Reachable.step networkA1 networkA2
    (Reachable.step networkA0 networkA1 (Reachable.init _ _ _ _)
      (Step.onConnection networkA0 "A" networkA1 rfl))
    (Step.handlePacket networkA1 "A" (Packet.rreq rreqA) networkA2 none rfl)

theorem networkA2_lookup : networkA2.sessionTable.lookup 0 =
    some ⟨0, 0, some "a", some "A", none, some (List.replicate 32 1)⟩ := rfl

theorem networkA2_request : networkA2.requestTable.lookup 0 = some ⟨0, some "A", none⟩ := rfl

theorem network3_sendCalls : network3.packetLayer.sendCalls =
    [("A", rrep7.EncodePacket)] := rfl

theorem C31_relay_forwards_SESS_witness :
    network3.packetLayer.Ready network3.dev ∧
    network3.sessionTable.lookup sess9.SessionID =
      some ⟨7, 9, none, some "A", some "B", none⟩ ∧
    ∃ network4, network3.handleSESSPacket cryptoFixed sess9 "A" = some (network4, none) ∧
      network4.sessionTable = network3.sessionTable ∧
      network4.packetLayer.sendCalls = network3.packetLayer.sendCalls ++
        (if "A" = "A" then [("B", sess9.EncodePacket)]
         else if "A" = "B" then [("A", sess9.EncodePacket)] else []) :=
  ⟨network3_Ready, network3_lookup,
   C31_relay_forwards_SESS cryptoFixed network3 sess9 "A" "A" "B" _ network3_Ready
     network3_lookup rfl rfl⟩

theorem C32_handleRouteErrorPacket_witness :
    ((∀ key message, (cryptoFixed.hmac key message).length = 32) ∧
      networkA2.packetLayer.Ready networkA2.dev) ∧
    ∃ after new, networkA2.handleRouteErrorPacket cryptoFixed (NewRERR 0) "A" =
        some after ∧
      after.sessionTable.lookup 0 = none ∧
      after.events.log = networkA2.events.log ++ [NetworkEvent.SessionBroken 0] ∧
      after.packetLayer.sendCalls = networkA2.packetLayer.sendCalls ++ new ∧
      ∀ call ∈ new, isRERR call.2 = false :=
  ⟨⟨contact_bitmap.length_hmacFixed, networkA2_Ready⟩,
   (C32_handleRouteErrorPacket cryptoFixed networkA2 (NewRERR 0) "A"
     contact_bitmap.length_hmacFixed networkA2_Ready).2.1 _ networkA2_lookup rfl (Or.inr rfl)⟩

/-- C39: the node `network3` relays session 9 between "A" and "B". An RERR for session 9
that arrives from "C" removes the session from the session table; nothing is sent. -/
theorem C39_RERR_from_a_stranger_removes_the_relay_session :
    network3.sessionTable.lookup 9 = some ⟨7, 9, none, some "A", some "B", none⟩ ∧
    ∃ network4, network3.handleRouteErrorPacket cryptoFixed (NewRERR 9) "C" = some network4 ∧
      network4.sessionTable.lookup 9 = none ∧
      network4.packetLayer.sendCalls = network3.packetLayer.sendCalls :=
  ⟨network3_lookup, _, rfl, rfl, rfl⟩

set_option maxRecDepth 512

end network_layer

namespace network_layer

/-! ### `handleDisconnect` -/

theorem isRERR_RERR (sessID : Nat) : isRERR (NewRERR sessID).EncodePacket = true := by
  simp [isRERR, NewRERR, RERRPacket.EncodePacket, EncodeSessionID, binary.AppendUint64]

theorem RERR_EncodePacket_inj (s t : Nat) (hs : s < 2 ^ 64) (ht : t < 2 ^ 64)
    (h : (NewRERR s).EncodePacket = (NewRERR t).EncodePacket) : s = t := by
  have h1 : binary.AppendUint64 [] s = binary.AppendUint64 [] t := by
    simpa [NewRERR, RERRPacket.EncodePacket, EncodeSessionID, binary.AppendUint64] using h
  have h2 := binary.Uint64_AppendUint64 s hs []
  rw [h1, binary.Uint64_AppendUint64 t ht []] at h2
  exact (Option.some.inj h2).symm

theorem EndpointSession_of_OnlyNeighbour (e : SessionTableEntry) (address : String)
    (hinv : e.Endpoint ∨ e.Relay) (h : e.OnlyNeighbour address) : e.EndpointSession = true := by
  rcases hinv with hend | hrel
  · simpa [SessionTableEntry.EndpointSession] using hend.1
  · rcases h with ⟨h1, _⟩ | ⟨h1, _⟩
    · exact absurd h1 hrel.2.2.1
    · exact absurd h1 hrel.2.2.2

/-- One round of the loop of `handleDisconnect`, for the session `sessID` with entry `entry`. -/
theorem disconnect_round (crypto : Crypto) (network : NetworkLayer) (failedNode : String)
    (sessID : Nat) (entry : SessionTableEntry)
    (hlen : ∀ key message, (crypto.hmac key message).length = 32)
    (hready : network.packetLayer.Ready network.dev)
    (hentry : network.sessionTable.lookup sessID = some entry)
    (hinv : entry.Endpoint ∨ entry.Relay) (hkey : entry.SessionID = sessID) :
    ∃ network1 newLog newCalls,
      (if (entry.SourceNeighbour = none ∧ entry.TargetNeighbour ≠ none ∧
            entry.TargetNeighbour = some failedNode) ∨
          (entry.TargetNeighbour = none ∧ entry.SourceNeighbour ≠ none ∧
            entry.SourceNeighbour = some failedNode) then
        network.SessionBroken crypto sessID (some failedNode)
      else
        match entry.SourceNeighbour, entry.TargetNeighbour with
        | some source, some target =>
          if source = failedNode then
            (network.sendRouteError target entry.SessionID).map fun network =>
              { network with sessionTable := network.sessionTable.erase sessID }
          else if target = failedNode then
            (network.sendRouteError source entry.SessionID).map fun network =>
              { network with sessionTable := network.sessionTable.erase sessID }
          else some network
        | _, _ => some network) = some network1 ∧
      network1.packetLayer.Ready network1.dev ∧
      Effect network network1 newLog newCalls ∧
      (∀ id, id ≠ sessID → network1.sessionTable.lookup id = network.sessionTable.lookup id) ∧
      (entry.OnlyNeighbour failedNode →
        network1.sessionTable.lookup sessID = none ∧
        newLog = [NetworkEvent.SessionBroken sessID] ∧
        ∀ call ∈ newCalls, isRERR call.2 = false) ∧
      (∀ other, entry.RelayTo failedNode other →
        network1.sessionTable.lookup sessID = none ∧ newLog = [] ∧
        newCalls = [(other, (NewRERR sessID).EncodePacket)]) ∧
      (¬ entry.OnlyNeighbour failedNode → (∀ other, ¬ entry.RelayTo failedNode other) →
        network1.sessionTable.lookup sessID = some entry ∧ newLog = [] ∧ newCalls = []) := by
  by_cases hcond : (entry.SourceNeighbour = none ∧ entry.TargetNeighbour ≠ none ∧
      entry.TargetNeighbour = some failedNode) ∨
      (entry.TargetNeighbour = none ∧ entry.SourceNeighbour ≠ none ∧
        entry.SourceNeighbour = some failedNode)
  · -- the only neighbour is the failed node
    have honly : entry.OnlyNeighbour failedNode := by
      rcases hcond with ⟨h1, _, h3⟩ | ⟨h1, _, h3⟩
      · exact Or.inl ⟨h1, h3⟩
      · exact Or.inr ⟨h1, h3⟩
    have hend := EndpointSession_of_OnlyNeighbour entry failedNode hinv honly
    obtain ⟨n1, new, hb, hready1, heff, hnew, hst⟩ :=
      SessionBroken_address crypto network sessID failedNode entry hlen hready hentry
    rw [if_pos hend] at heff
    rw [if_pos hcond]
    refine ⟨n1, _, new, hb, hready1, heff, ?_, ?_, ?_, ?_⟩
    · intro id hid
      rw [hst, AList.lookup_erase_ne hid]
    · intro _
      exact ⟨by rw [hst, AList.lookup_erase], rfl, hnew⟩
    · intro other hrel
      exfalso
      rcases honly with ⟨h1, h2⟩ | ⟨h1, h2⟩ <;> rcases hrel with ⟨h3, h4⟩ | ⟨h3, _, h4⟩
      · rw [h1] at h3; cases h3
      · rw [h1] at h3; cases h3
      · rw [h1] at h4; cases h4
      · rw [h1] at h4; cases h4
    · intro hno _
      exact absurd honly hno
  · have hnotonly : ¬ entry.OnlyNeighbour failedNode := by
      rintro (⟨h1, h2⟩ | ⟨h1, h2⟩)
      · exact hcond (Or.inl ⟨h1, by rw [h2]; simp, h2⟩)
      · exact hcond (Or.inr ⟨h1, by rw [h2]; simp, h2⟩)
    rw [if_neg hcond]
    cases hsrc : entry.SourceNeighbour with
    | none =>
      refine ⟨network, [], [], rfl, hready, Effect.nothing _, fun _ _ => rfl, ?_, ?_, ?_⟩
      · intro h; exact absurd h hnotonly
      · intro other hrel
        rcases hrel with ⟨h3, _⟩ | ⟨h3, _⟩ <;> (rw [hsrc] at h3; cases h3)
      · intro _ _; exact ⟨hentry, rfl, rfl⟩
    | some source =>
      cases htgt : entry.TargetNeighbour with
      | none =>
        refine ⟨network, [], [], rfl, hready, Effect.nothing _, fun _ _ => rfl, ?_, ?_, ?_⟩
        · intro h; exact absurd h hnotonly
        · intro other hrel
          rcases hrel with ⟨_, h4⟩ | ⟨_, _, h4⟩ <;> (rw [htgt] at h4; cases h4)
        · intro _ _; exact ⟨hentry, rfl, rfl⟩
      | some target =>
        simp only
        by_cases hs : source = failedNode
        · rw [if_pos hs, hkey]
          obtain ⟨n1, hsend, hready1, heff, hst, _⟩ :=
            sendRouteError_Effect network target sessID hready
          rw [hsend]
          refine ⟨_, [], _, rfl, hready1,
            ⟨heff.contacts, heff.options, heff.replyPayload, heff.hasPending, heff.log,
              heff.sendCalls, heff.maxPacketSize⟩, ?_, ?_, ?_, ?_⟩
          · intro id hid
            show (n1.sessionTable.erase sessID).lookup id = _
            rw [hst, AList.lookup_erase_ne hid]
          · intro h; exact absurd h hnotonly
          · intro other hrel
            have hother : other = target := by
              rcases hrel with ⟨_, h4⟩ | ⟨h3, hne, _⟩
              · rw [htgt] at h4; exact (Option.some.inj h4).symm
              · rw [hsrc] at h3
                exact absurd ((Option.some.inj h3).symm.trans hs) hne
            subst hother
            refine ⟨?_, rfl, rfl⟩
            show (n1.sessionTable.erase sessID).lookup sessID = none
            rw [AList.lookup_erase]
          · intro _ hno
            exact absurd (Or.inl ⟨by rw [hsrc, hs], htgt⟩) (hno target)
        · rw [if_neg hs]
          by_cases ht : target = failedNode
          · rw [if_pos ht, hkey]
            obtain ⟨n1, hsend, hready1, heff, hst, _⟩ :=
              sendRouteError_Effect network source sessID hready
            rw [hsend]
            refine ⟨_, [], _, rfl, hready1,
              ⟨heff.contacts, heff.options, heff.replyPayload, heff.hasPending, heff.log,
                heff.sendCalls, heff.maxPacketSize⟩, ?_, ?_, ?_, ?_⟩
            · intro id hid
              show (n1.sessionTable.erase sessID).lookup id = _
              rw [hst, AList.lookup_erase_ne hid]
            · intro h; exact absurd h hnotonly
            · intro other hrel
              have hother : other = source := by
                rcases hrel with ⟨h3, _⟩ | ⟨h3, _, _⟩
                · rw [hsrc] at h3; exact absurd (Option.some.inj h3) hs
                · rw [hsrc] at h3; exact (Option.some.inj h3).symm
              subst hother
              refine ⟨?_, rfl, rfl⟩
              show (n1.sessionTable.erase sessID).lookup sessID = none
              rw [AList.lookup_erase]
            · intro _ hno
              exact absurd (Or.inr ⟨hsrc, hs, by rw [htgt, ht]⟩) (hno source)
          · rw [if_neg ht]
            refine ⟨network, [], [], rfl, hready, Effect.nothing _, fun _ _ => rfl, ?_, ?_, ?_⟩
            · intro h; exact absurd h hnotonly
            · intro other hrel
              rcases hrel with ⟨h3, _⟩ | ⟨_, _, h4⟩
              · rw [hsrc] at h3; exact absurd (Option.some.inj h3) hs
              · rw [htgt] at h4; exact absurd (Option.some.inj h4) ht
            · intro _ _; exact ⟨hentry, rfl, rfl⟩

end network_layer

namespace network_layer

/-- The loop of `handleDisconnect` over session ids that are pairwise different and in the
table: it returns; the sessions not in the list are untouched; a session whose only
neighbour is the failed node is removed and the callback `SessionBroken` is made once for it;
a session with both neighbours set, one of them the failed node, is removed and one RERR with
its id is sent, to the other neighbour; every other session of the list stays as it is. -/
theorem disconnectLoop_spec (crypto : Crypto) (failedNode : String)
    (hlen : ∀ key message, (crypto.hmac key message).length = 32) :
    ∀ (ids : List Nat) (network : NetworkLayer), ids.Nodup →
      network.packetLayer.Ready network.dev →
      (∀ id ∈ ids, ∃ e, network.sessionTable.lookup id = some e ∧ (e.Endpoint ∨ e.Relay) ∧
        e.SessionID = id ∧ id < 2 ^ 64) →
      ∃ network1 newLog newCalls,
        NetworkLayer.disconnectLoop crypto failedNode ids network = some network1 ∧
        network1.packetLayer.Ready network1.dev ∧
        Effect network network1 newLog newCalls ∧
        (∀ id, id ∉ ids → network1.sessionTable.lookup id = network.sessionTable.lookup id) ∧
        (∀ id, id ∉ ids → newLog.count (NetworkEvent.SessionBroken id) = 0) ∧
        (∀ id b, id ∉ ids → id < 2 ^ 64 →
          newCalls.count (b, (NewRERR id).EncodePacket) = 0) ∧
        ∀ id ∈ ids, ∀ e, network.sessionTable.lookup id = some e →
          (e.OnlyNeighbour failedNode →
            network1.sessionTable.lookup id = none ∧
            newLog.count (NetworkEvent.SessionBroken id) = 1) ∧
          (∀ other, e.RelayTo failedNode other →
            network1.sessionTable.lookup id = none ∧
            ∀ b, newCalls.count (b, (NewRERR id).EncodePacket) = if b = other then 1 else 0) ∧
          (¬ e.OnlyNeighbour failedNode → (∀ other, ¬ e.RelayTo failedNode other) →
            network1.sessionTable.lookup id = some e) := by
  intro ids
  induction ids with
  | nil =>
    intro network _ hready _
    exact ⟨network, [], [], rfl, hready, Effect.nothing _, fun _ _ => rfl, fun _ _ => rfl,
      fun _ _ _ _ => rfl, fun _ h => absurd h (List.not_mem_nil _)⟩
  | cons sessID rest ih =>
    intro network hnodup hready hall
    obtain ⟨hnotin, hnodup1⟩ := List.nodup_cons.1 hnodup
    obtain ⟨entry, hentry, hinv, hkey, hrange⟩ := hall sessID (List.mem_cons_self _ _)
    obtain ⟨n1, log1, calls1, hround, hready1, heff1, hothers, honly, hrelay, helse⟩ :=
      disconnect_round crypto network failedNode sessID entry hlen hready hentry hinv hkey
    -- what the round has logged and sent, for the other sessions
    have hlog1 : ∀ id, id ≠ sessID → log1.count (NetworkEvent.SessionBroken id) = 0 := by
      intro id hid
      by_cases h1 : entry.OnlyNeighbour failedNode
      · rw [(honly h1).2.1]
        simp [hid]
      · by_cases h2 : ∃ other, entry.RelayTo failedNode other
        · obtain ⟨other, h2⟩ := h2
          rw [(hrelay other h2).2.1]
          rfl
        · rw [(helse h1 (fun other h => h2 ⟨other, h⟩)).2.1]
          rfl
    have hcalls1 : ∀ id b, id ≠ sessID → id < 2 ^ 64 →
        calls1.count (b, (NewRERR id).EncodePacket) = 0 := by
      intro id b hid hlt
      by_cases h1 : entry.OnlyNeighbour failedNode
      · rw [List.count_eq_zero]
        intro hmem
        have := (honly h1).2.2 _ hmem
        rw [isRERR_RERR] at this
        cases this
      · by_cases h2 : ∃ other, entry.RelayTo failedNode other
        · obtain ⟨other, h2⟩ := h2
          rw [(hrelay other h2).2.2, List.count_eq_zero]
          intro hmem
          rw [List.mem_singleton] at hmem
          exact hid (RERR_EncodePacket_inj id sessID hlt hrange (Prod.mk.inj hmem).2)
        · rw [(helse h1 (fun other h => h2 ⟨other, h⟩)).2.2]
          rfl
    have hall1 : ∀ id ∈ rest, ∃ e, n1.sessionTable.lookup id = some e ∧
        (e.Endpoint ∨ e.Relay) ∧ e.SessionID = id ∧ id < 2 ^ 64 := by
      intro id hid
      have hne : id ≠ sessID := fun h => hnotin (h ▸ hid)
      rw [hothers id hne]
      exact hall id (List.mem_cons_of_mem _ hid)
    obtain ⟨n2, log2, calls2, hloop, hready2, heff2, hout2, hlog2, hcalls2, hin2⟩ :=
      ih n1 hnodup1 hready1 hall1
    refine ⟨n2, log1 ++ log2, calls1 ++ calls2, ?_, hready2, heff1.andThen heff2, ?_, ?_, ?_, ?_⟩
    · rw [NetworkLayer.disconnectLoop]
      simp only [Option.bind_eq_bind, hentry, Option.some_bind]
      exact Option.bind_eq_some.2 ⟨n1, hround, hloop⟩
    · intro id hid
      rw [List.mem_cons, not_or] at hid
      rw [hout2 id hid.2, hothers id hid.1]
    · intro id hid
      rw [List.mem_cons, not_or] at hid
      rw [List.count_append, hlog1 id hid.1, hlog2 id hid.2]
    · intro id b hid hlt
      rw [List.mem_cons, not_or] at hid
      rw [List.count_append, hcalls1 id b hid.1 hlt, hcalls2 id b hid.2 hlt]
    · intro id hid e he
      rcases List.mem_cons.1 hid with rfl | hid
      · rw [hentry] at he
        obtain rfl := Option.some.inj he
        refine ⟨?_, ?_, ?_⟩
        · intro h1
          refine ⟨by rw [hout2 id hnotin]; exact (honly h1).1, ?_⟩
          rw [List.count_append, hlog2 id hnotin, (honly h1).2.1]
          simp
        · intro other h2
          refine ⟨by rw [hout2 id hnotin]; exact (hrelay other h2).1, ?_⟩
          intro b
          rw [List.count_append, hcalls2 id b hnotin hrange, (hrelay other h2).2.2]
          by_cases hb : b = other
          · subst hb; simp
          · rw [if_neg hb, List.count_eq_zero.2]
            intro hmem
            rw [List.mem_singleton] at hmem
            exact hb (Prod.mk.inj hmem).1
        · intro h1 h2
          rw [hout2 id hnotin]
          exact (helse h1 h2).1
      · have hne : id ≠ sessID := fun h => hnotin (h ▸ hid)
        have he1 : n1.sessionTable.lookup id = some e := by rw [hothers id hne]; exact he
        obtain ⟨_, _, _, _, hlt⟩ := hall id (List.mem_cons_of_mem _ hid)
        obtain ⟨ha, hb, hc⟩ := hin2 id hid e he1
        refine ⟨?_, ?_, hc⟩
        · intro h1
          refine ⟨(ha h1).1, ?_⟩
          rw [List.count_append, hlog1 id hne, (ha h1).2]
        · intro other h2
          refine ⟨(hb other h2).1, ?_⟩
          intro b
          rw [List.count_append, hcalls1 id b hne hlt, (hb other h2).2 b, Nat.zero_add]

end network_layer

namespace network_layer

/-! ### Every session is stored under its own id -/

theorem KeyGrows.refl_key (network : NetworkLayer) : KeyGrows network network :=
  fun _ _ h => Or.inl h

theorem KeyGrows.of_eq_key {network network1 : NetworkLayer}
    (h : network1.sessionTable = network.sessionTable) : KeyGrows network network1 := by
  intro id e he
  rw [h] at he
  exact Or.inl he

theorem KeyGrows.trans_key {n0 n1 n2 : NetworkLayer} (h01 : KeyGrows n0 n1) (h12 : KeyGrows n1 n2) :
    KeyGrows n0 n2 := by
  intro id e he
  rcases h12 id e he with h | h
  · exact h01 id e h
  · exact Or.inr h

theorem KeyGrows.of_erase_key (network network1 : NetworkLayer) (k : Nat)
    (h : network1.sessionTable = network.sessionTable.erase k) : KeyGrows network network1 := by
  intro id e he
  rw [h] at he
  by_cases hk : id = k
  · subst hk
    rw [AList.lookup_erase] at he
    cases he
  · rw [AList.lookup_erase_ne hk] at he
    exact Or.inl he

theorem KeyGrows.of_insert_key (network network1 : NetworkLayer) (k : Nat) (v : SessionTableEntry)
    (h : network1.sessionTable = network.sessionTable.insert k v) (hv : v.SessionID = k) :
    KeyGrows network network1 := by
  intro id e he
  rw [h] at he
  by_cases hk : id = k
  · subst hk
    rw [AList.lookup_insert] at he
    injection he with he
    subst he
    exact Or.inr hv
  · rw [AList.lookup_insert_ne hk] at he
    exact Or.inl he

theorem SessionBroken_KeyGrows (crypto : Crypto) (network : NetworkLayer) (sessID : Nat)
    (address : Option String) (network1 : NetworkLayer)
    (h : network.SessionBroken crypto sessID address = some network1) :
    KeyGrows network network1 := by
  unfold NetworkLayer.SessionBroken at h
  split at h
  · simp only [Option.some.injEq] at h
    rw [← h]
    exact KeyGrows.refl_key _
  · rename_i entry hentry
    simp only [Option.bind_eq_bind, Option.bind_eq_some] at h
    obtain ⟨n2, hn2, entry2, _, h⟩ := h
    have h2 : n2.sessionTable = network.sessionTable := by
      split at hn2
      · split at hn2
        · exact sendRouteError_sessionTable _ _ _ _ hn2
        · exact sendRouteError_sessionTable _ _ _ _ hn2
        · simp only [Option.some.injEq] at hn2
          rw [← hn2]
      · simp only [Option.some.injEq] at hn2
        rw [← hn2]
    have h3 : network1.sessionTable = network.sessionTable.erase sessID := by
      split at h
      · rw [eventSessionBroken_sessionTable crypto _ _ _ h]
        show n2.sessionTable.erase sessID = _
        rw [h2]
      · simp only [Option.some.injEq] at h
        rw [← h]
        show n2.sessionTable.erase sessID = _
        rw [h2]
    exact KeyGrows.of_erase_key _ _ sessID h3

theorem forwardRouteReply_KeyGrows (crypto : Crypto) (network : NetworkLayer) (rrep : RREPPacket)
    (session : SessionTableEntry) (network1 : NetworkLayer)
    (h : network.forwardRouteReply crypto rrep session = some network1) :
    KeyGrows network network1 := by
  unfold NetworkLayer.forwardRouteReply at h
  simp only [Option.bind_eq_bind, Option.bind_eq_some] at h
  obtain ⟨source, _, ⟨n2, ok⟩, hs, h⟩ := h
  have h2 := SendBytes_sessionTable _ _ _ _ _ hs
  split at h
  · simp only [Option.bind_eq_some] at h
    obtain ⟨n3, hn3, h⟩ := h
    have h3 : n3.sessionTable = n2.sessionTable := by
      split at hn3
      · exact sendRouteError_sessionTable _ _ _ _ hn3
      · simp only [Option.some.injEq] at hn3
        rw [← hn3]
    exact (KeyGrows.of_eq_key (h3.trans h2)).trans_key (SessionBroken_KeyGrows crypto _ _ _ _ h)
  · simp only [Option.some.injEq] at h
    rw [← h]
    exact KeyGrows.of_eq_key h2

theorem replyLoop_KeyGrows (crypto : Crypto) (rreq : RREQPacket) (sender : String) :
    ∀ (contacts : List String) (network network1 : NetworkLayer),
      NetworkLayer.replyLoop crypto rreq sender contacts network = some network1 →
      KeyGrows network network1 := by
  intro contacts
  induction contacts with
  | nil =>
    intro network network1 h
    rw [NetworkLayer.replyLoop] at h
    simp only [Option.some.injEq] at h
    rw [← h]
    exact KeyGrows.refl_key _
  | cons contactID rest ih =>
    intro network network1 h
    rw [NetworkLayer.replyLoop] at h
    simp only at h
    split at h
    · simp only [Option.some.injEq] at h
      rw [← h]
      exact KeyGrows.of_eq_key rfl
    · rename_i sessionSecret _
      simp only [Option.bind_eq_bind, Option.bind_eq_some] at h
      obtain ⟨request, _, ⟨n2, r⟩, hrrep, h⟩ := h
      have h2 := NewRREP_sessionTable crypto _ _ _ _ _ _ _ _ hrrep
      have hg2 : KeyGrows network n2 :=
        KeyGrows.of_insert_key network n2 _ _ h2.1 rfl
      cases r with
      | error e =>
        simp only at h
        exact hg2.trans_key (ih _ _ h)
      | ok rrep =>
        simp only [Option.bind_eq_some] at h
        obtain ⟨n3, hfwd, n4, hn4, h⟩ := h
        have hg3 := forwardRouteReply_KeyGrows crypto _ _ _ _ hfwd
        have hg4 : KeyGrows n3 n4 := by
          split at hn4
          · exact KeyGrows.of_eq_key (forwardRouteRequest_sessionTable _ _ _ _ hn4)
          · simp only [Option.some.injEq] at hn4
            rw [← hn4]
            exact KeyGrows.refl_key _
        exact ((hg2.trans_key hg3).trans_key hg4).trans_key (ih _ _ h)

theorem handleRouteRequest_KeyGrows (crypto : Crypto) (network : NetworkLayer) (rreq : RREQPacket)
    (sender : String) (network1 : NetworkLayer)
    (h : network.handleRouteRequest crypto rreq sender = some network1) :
    KeyGrows network network1 := by
  unfold NetworkLayer.handleRouteRequest at h
  split at h
  · injection h with h
    rw [← h]
    exact KeyGrows.refl_key _
  · simp only at h
    split at h
    · cases h
    · injection h with h
      rw [← h]
      exact KeyGrows.of_eq_key rfl
    · split at h
      · have h2 := forwardRouteRequest_sessionTable _ _ _ _ h
        exact KeyGrows.of_eq_key h2
      · have h2 := replyLoop_KeyGrows crypto rreq sender _ _ _ h
        exact (KeyGrows.of_eq_key rfl).trans_key h2

theorem openLoop_KeyGrows (crypto : Crypto) (rrep : RREPPacket) (sender : String)
    (request : RequestTableEntry) (headers : List Nat) :
    ∀ (contacts : List String) (network network1 : NetworkLayer),
      NetworkLayer.openLoop crypto rrep sender request headers contacts network =
        some network1 →
      KeyGrows network network1 := by
  intro contacts
  induction contacts with
  | nil =>
    intro network network1 h
    rw [NetworkLayer.openLoop] at h
    simp only [Option.some.injEq] at h
    rw [← h]
    exact KeyGrows.refl_key _
  | cons contact rest ih =>
    intro network network1 h
    rw [NetworkLayer.openLoop] at h
    simp only [Option.bind_eq_bind, Option.bind_eq_some] at h
    obtain ⟨ephemeralPrivate, _, h⟩ := h
    split at h
    · simp only [Option.some.injEq] at h
      rw [← h]
      exact KeyGrows.refl_key _
    · rename_i sessionSecret _
      split at h
      · simp only [Option.some.injEq] at h
        rw [← h]
        exact KeyGrows.refl_key _
      · simp only [Option.bind_eq_bind, Option.bind_eq_some] at h
        obtain ⟨r, _, h⟩ := h
        cases r with
        | error e =>
          simp only at h
          exact ih _ _ h
        | ok payload =>
          simp only [Option.some.injEq] at h
          rw [← h]
          exact KeyGrows.of_insert_key network _ _ _ rfl rfl

theorem handleRouteReply_KeyGrows (crypto : Crypto) (network : NetworkLayer) (rrep : RREPPacket)
    (sender : String) (network1 : NetworkLayer)
    (h : network.handleRouteReply crypto rrep sender = some network1) :
    KeyGrows network network1 := by
  unfold NetworkLayer.handleRouteReply at h
  split at h
  · simp only [Option.some.injEq] at h
    rw [← h]
    exact KeyGrows.refl_key _
  · rename_i request _
    split at h
    · exact openLoop_KeyGrows crypto rrep sender request _ _ _ _ h
    · have hg : KeyGrows network { network with
          sessionTable := network.sessionTable.insert rrep.SessionID
            (SessionEntryFromRREP none request rrep (some sender) none) } :=
        KeyGrows.of_insert_key network _ _ _ rfl rfl
      exact hg.trans_key (forwardRouteReply_KeyGrows crypto _ _ _ _ h)

theorem handleRouteErrorPacket_KeyGrows (crypto : Crypto) (network : NetworkLayer)
    (rerr : RERRPacket) (sender : String) (network1 : NetworkLayer)
    (h : network.handleRouteErrorPacket crypto rerr sender = some network1) :
    KeyGrows network network1 := by
  unfold NetworkLayer.handleRouteErrorPacket at h
  simp only at h
  split at h
  · simp only [Option.some.injEq] at h
    rw [← h]
    exact KeyGrows.refl_key _
  · split at h
    · simp only [Option.bind_eq_bind, Option.bind_eq_some, Option.some.injEq] at h
      obtain ⟨n2, hn2, rfl⟩ := h
      have h2 : n2.sessionTable = network.sessionTable := by
        split at hn2
        · exact sendRouteError_sessionTable _ _ _ _ hn2
        · split at hn2
          · exact sendRouteError_sessionTable _ _ _ _ hn2
          · simp only [Option.some.injEq] at hn2
            rw [← hn2]
      exact KeyGrows.of_erase_key network _ rerr.SessionID (by rw [← h2])
    · exact SessionBroken_KeyGrows crypto _ _ _ _ h

theorem disconnectLoop_KeyGrows (crypto : Crypto) (failedNode : String) :
    ∀ (sessIDs : List Nat) (network network1 : NetworkLayer),
      NetworkLayer.disconnectLoop crypto failedNode sessIDs network = some network1 →
      KeyGrows network network1 := by
  intro sessIDs
  induction sessIDs with
  | nil =>
    intro network network1 h
    rw [NetworkLayer.disconnectLoop] at h
    simp only [Option.some.injEq] at h
    rw [← h]
    exact KeyGrows.refl_key _
  | cons sessID rest ih =>
    intro network network1 h
    rw [NetworkLayer.disconnectLoop] at h
    simp only [Option.bind_eq_bind, Option.bind_eq_some] at h
    obtain ⟨entry, _, n2, hn2, h⟩ := h
    have hg : KeyGrows network n2 := by
      split at hn2
      · exact SessionBroken_KeyGrows crypto _ _ _ _ hn2
      · split at hn2
        · split at hn2
          · simp only [Option.map_eq_some'] at hn2
            obtain ⟨n3, hn3, rfl⟩ := hn2
            exact KeyGrows.of_erase_key network _ sessID
              (by rw [← sendRouteError_sessionTable _ _ _ _ hn3])
          · split at hn2
            · simp only [Option.map_eq_some'] at hn2
              obtain ⟨n3, hn3, rfl⟩ := hn2
              exact KeyGrows.of_erase_key network _ sessID
                (by rw [← sendRouteError_sessionTable _ _ _ _ hn3])
            · simp only [Option.some.injEq] at hn2
              rw [← hn2]
              exact KeyGrows.refl_key _
        · simp only [Option.some.injEq] at hn2
          rw [← hn2]
          exact KeyGrows.refl_key _
    exact hg.trans_key (ih _ _ h)

theorem handleDisconnect_KeyGrows (crypto : Crypto) (network : NetworkLayer)
    (failedNode : String) (network1 : NetworkLayer)
    (h : network.handleDisconnect crypto failedNode = some network1) :
    KeyGrows network network1 := by
  unfold NetworkLayer.handleDisconnect at h
  generalize utils.ShuffleMapKeys network.dev.rand network.sessionTable = sh at h
  obtain ⟨sessIDs, random⟩ := sh
  have h2 := disconnectLoop_KeyGrows crypto failedNode _ _ _ h
  exact (KeyGrows.of_eq_key rfl).trans_key h2

theorem deleteContactLoop_KeyGrows (crypto : Crypto) (contact : String) :
    ∀ (sessionIDs : List Nat) (network network1 : NetworkLayer),
      NetworkLayer.deleteContactLoop crypto contact sessionIDs network = some network1 →
      KeyGrows network network1 := by
  intro sessionIDs
  induction sessionIDs with
  | nil =>
    intro network network1 h
    rw [NetworkLayer.deleteContactLoop] at h
    simp only [Option.some.injEq] at h
    rw [← h]
    exact KeyGrows.refl_key _
  | cons sessionID rest ih =>
    intro network network1 h
    rw [NetworkLayer.deleteContactLoop] at h
    simp only [Option.bind_eq_bind, Option.bind_eq_some] at h
    obtain ⟨session, _, n2, hn2, h⟩ := h
    have hg : KeyGrows network n2 := by
      split at hn2
      · simp only [Option.map_eq_some'] at hn2
        obtain ⟨n3, hn3, rfl⟩ := hn2
        exact (SessionBroken_KeyGrows crypto _ _ _ _ hn3).trans_key
          (KeyGrows.of_erase_key n3 _ session.SessionID rfl)
      · simp only [Option.some.injEq] at hn2
        rw [← hn2]
        exact KeyGrows.refl_key _
    exact hg.trans_key (ih _ _ h)

theorem DeleteContact_KeyGrows (crypto : Crypto) (network : NetworkLayer) (contact : String)
    (network1 : NetworkLayer) (h : network.DeleteContact crypto contact = some network1) :
    KeyGrows network network1 := by
  unfold NetworkLayer.DeleteContact at h
  simp only at h
  generalize utils.ShuffleMapKeys network.dev.rand network.sessionTable = sh at h
  obtain ⟨sessionIDs, random⟩ := sh
  have h2 := deleteContactLoop_KeyGrows crypto contact _ _ _ h
  exact (KeyGrows.of_eq_key rfl).trans_key h2

theorem handlePacket_KeyGrows (crypto : Crypto) (network : NetworkLayer) (sender : String)
    (packet : Packet) (network1 : NetworkLayer) (message : Option SessionMessage)
    (h : network.handlePacket crypto sender packet = some (network1, message)) :
    KeyGrows network network1 := by
  unfold NetworkLayer.handlePacket at h
  cases packet with
  | rreq rreq =>
    simp only [Option.map_eq_some', Prod.mk.injEq] at h
    obtain ⟨n2, hn2, rfl, _⟩ := h
    exact handleRouteRequest_KeyGrows crypto _ _ _ _ hn2
  | rrep rrep =>
    simp only [Option.map_eq_some', Prod.mk.injEq] at h
    obtain ⟨n2, hn2, rfl, _⟩ := h
    exact handleRouteReply_KeyGrows crypto _ _ _ _ hn2
  | sess data =>
    exact KeyGrows.of_eq_key (handleSESSPacket_sessionTable crypto _ _ _ _ _ h)
  | rerr rerr =>
    simp only [Option.map_eq_some', Prod.mk.injEq] at h
    obtain ⟨n2, hn2, rfl, _⟩ := h
    exact handleRouteErrorPacket_KeyGrows crypto _ _ _ _ hn2

theorem OnConnection_KeyGrows (crypto : Crypto) (network : NetworkLayer) (address : String)
    (network1 : NetworkLayer) (h : network.OnConnection crypto address = some network1) :
    KeyGrows network network1 := by
  unfold NetworkLayer.OnConnection at h
  simp only [Option.bind_eq_bind, Option.bind_eq_some] at h
  obtain ⟨link, _, h⟩ := h
  split at h
  · have h2 := SendRouteRequest_sessionTable crypto _ _ _ _ h
    exact KeyGrows.of_eq_key h2
  · injection h with h
    rw [← h]
    exact KeyGrows.of_eq_key rfl

theorem OnDisconnection_KeyGrows (crypto : Crypto) (network : NetworkLayer) (address : String)
    (network1 : NetworkLayer) (h : network.OnDisconnection crypto address = some network1) :
    KeyGrows network network1 := by
  unfold NetworkLayer.OnDisconnection at h
  have h2 := handleDisconnect_KeyGrows crypto _ _ _ h
  exact (KeyGrows.of_eq_key rfl).trans_key h2

theorem Step_KeyGrows (crypto : Crypto) (network network1 : NetworkLayer)
    (h : Step crypto network network1) : KeyGrows network network1 :=
  match h with
  | .handlePacket _ _ _ _ _ h => handlePacket_KeyGrows crypto _ _ _ _ _ h
  | .onConnection _ _ _ h => OnConnection_KeyGrows crypto _ _ _ h
  | .onDisconnection _ _ _ h => OnDisconnection_KeyGrows crypto _ _ _ h
  | .deleteContact _ _ _ h => DeleteContact_KeyGrows crypto _ _ _ h
  | .broadcastRouteRequest _ _ h => KeyGrows.of_eq_key (BroadcastRouteRequest_sessionTable crypto _ _ h)
  | .sendRouteRequest _ _ _ _ h => KeyGrows.of_eq_key (SendRouteRequest_sessionTable crypto _ _ _ _ h)
  | .sessionTimeout _ _ _ h => SessionBroken_KeyGrows crypto _ _ _ _ h
  | .environment _ _ _ hsession => KeyGrows.of_eq_key hsession

theorem Reachable_SessionID (crypto : Crypto) (network : NetworkLayer)
    (h : Reachable crypto network) :
    ∀ id e, network.sessionTable.lookup id = some e → e.SessionID = id := by
  induction h with
  | init dev contacts events options =>
    intro id e he
    simp [NewNetworkLayer] at he
  | step n n1 _ hstep ih =>
    intro id e he
    rcases Step_KeyGrows crypto n n1 hstep id e he with h | h
    · exact ih id e h
    · exact h

end network_layer

namespace network_layer

/-- C33: on a packet layer that fits its device and a session table in which every entry is
an endpoint or a relay session stored under its own id (both hold in every state reached
through the handlers, `SessionTableOK_of_Reachable`) and every id is a `uint64` (the type
of `SessionID`), `handleDisconnect(failedNode)` returns, and for every session of the table:
if its only neighbour is `failedNode`, it is removed and the callback `SessionBroken` is
made exactly once for it; if both its neighbours are set and one is `failedNode`, it is
removed and exactly one RERR with its id is sent, to its other neighbour; otherwise its
entry is as before. No session is added. -/
theorem C33_handleDisconnect (crypto : Crypto) (network : NetworkLayer) (failedNode : String)
    (hlen : ∀ key message, (crypto.hmac key message).length = 32)
    (hready : network.packetLayer.Ready network.dev) (hok : SessionTableOK network) :
    ∃ network1 newLog newCalls, network.handleDisconnect crypto failedNode = some network1 ∧
      network1.events.log = network.events.log ++ newLog ∧
      network1.packetLayer.sendCalls = network.packetLayer.sendCalls ++ newCalls ∧
      (∀ id, network.sessionTable.lookup id = none →
        network1.sessionTable.lookup id = none) ∧
      ∀ id e, network.sessionTable.lookup id = some e →
        (e.OnlyNeighbour failedNode →
          network1.sessionTable.lookup id = none ∧
          newLog.count (NetworkEvent.SessionBroken id) = 1) ∧
        (∀ other, e.RelayTo failedNode other →
          network1.sessionTable.lookup id = none ∧
          ∀ b, newCalls.count (b, (NewRERR id).EncodePacket) = if b = other then 1 else 0) ∧
        (¬ e.OnlyNeighbour failedNode → (∀ other, ¬ e.RelayTo failedNode other) →
          network1.sessionTable.lookup id = some e) := by
  have hperm := utils.ShuffleMapKeys_perm network.dev.rand network.sessionTable
  unfold NetworkLayer.handleDisconnect
  generalize utils.ShuffleMapKeys network.dev.rand network.sessionTable = sh at hperm
  obtain ⟨sessIDs, random⟩ := sh
  have hmem : ∀ id, id ∈ sessIDs ↔ id ∈ network.sessionTable := fun id =>
    hperm.mem_iff.trans AList.mem_keys
  have hnodup : sessIDs.Nodup := hperm.nodup_iff.2 network.sessionTable.keys_nodup
  obtain ⟨n1, newLog, newCalls, hloop, _, heff, hout, _, _, hin⟩ :=
    disconnectLoop_spec crypto failedNode hlen sessIDs
      { network with dev := { network.dev with rand := random } } hnodup
      (packet_layer.Ready.of_connections network.dev _ network.packetLayer _ hready rfl rfl)
      (by
        intro id hid
        obtain ⟨e, he⟩ := Option.isSome_iff_exists.1 (AList.lookup_isSome.2 ((hmem id).1 hid))
        exact ⟨e, he, hok id e he⟩)
  refine ⟨n1, newLog, newCalls, hloop, heff.log, heff.sendCalls, ?_, ?_⟩
  · intro id hnone
    have hnot : id ∉ sessIDs := by
      intro hid
      have := AList.lookup_isSome.2 ((hmem id).1 hid)
      rw [hnone] at this
      cases this
    rw [hout id hnot]
    exact hnone
  · intro id e he
    have hid : id ∈ sessIDs := (hmem id).2 (AList.lookup_isSome.1 (by rw [he]; rfl))
    exact hin id hid e he

theorem SessionTableOK_of_Reachable (crypto : Crypto) (network : NetworkLayer)
    (h : Reachable crypto network) (hrange : ∀ id ∈ network.sessionTable.keys, id < 2 ^ 64) :
    SessionTableOK network := by
  intro id e he
  exact ⟨Reachable_entries crypto network h id e he,
    Reachable_SessionID crypto network h id e he,
    hrange id (AList.mem_keys.2 (AList.lookup_isSome.1 (by rw [he]; rfl)))⟩

set_option maxRecDepth 1000000

theorem networkA2_OK : SessionTableOK networkA2 :=
  SessionTableOK_of_Reachable cryptoFixed networkA2 networkA2_Reachable (by
    have hkeys : networkA2.sessionTable.keys = [0] := rfl
    rw [hkeys]
    intro id hid
    rw [List.mem_singleton] at hid
    subst hid
    decide)

theorem C33_handleDisconnect_witness :
    ((∀ key message, (cryptoFixed.hmac key message).length = 32) ∧
      networkA2.packetLayer.Ready networkA2.dev ∧ SessionTableOK networkA2) ∧
    (SessionTableEntry.mk 0 0 (some "a") (some "A") none (some (List.replicate 32 1))).OnlyNeighbour
      "A" ∧
    ∃ after newLog newCalls, networkA2.handleDisconnect cryptoFixed "A" = some after ∧
      after.events.log = networkA2.events.log ++ newLog ∧
      after.packetLayer.sendCalls = networkA2.packetLayer.sendCalls ++ newCalls ∧
      after.sessionTable.lookup 0 = none ∧
      newLog.count (NetworkEvent.SessionBroken 0) = 1 := by
  refine ⟨⟨contact_bitmap.length_hmacFixed, networkA2_Ready, networkA2_OK⟩,
    Or.inr ⟨rfl, rfl⟩, ?_⟩
  obtain ⟨after, newLog, newCalls, h, hlog, hcalls, _, hall⟩ :=
    C33_handleDisconnect cryptoFixed networkA2 "A" contact_bitmap.length_hmacFixed
      networkA2_Ready networkA2_OK
  have h0 := (hall 0 _ networkA2_lookup).1 (Or.inr ⟨rfl, rfl⟩)
  exact ⟨after, newLog, newCalls, h, hlog, hcalls, h0.1, h0.2⟩

set_option maxRecDepth 512

end network_layer

namespace network_layer

/-! ### The entries of the request table -/

theorem ReqKeeps.refl_req (network : NetworkLayer) : ReqKeeps network network :=
  fun _ e h => ⟨e, h, Or.inl rfl⟩

theorem ReqKeeps.of_eq_req {network network1 : NetworkLayer}
    (h : network1.requestTable = network.requestTable) : ReqKeeps network network1 := by
  intro id e he
  rw [← h] at he
  exact ⟨e, he, Or.inl rfl⟩

theorem ReqKeeps.trans_req {n0 n1 n2 : NetworkLayer} (h01 : ReqKeeps n0 n1) (h12 : ReqKeeps n1 n2) :
    ReqKeeps n0 n2 := by
  intro id e he
  obtain ⟨e1, he1, h1⟩ := h01 id e he
  obtain ⟨e2, he2, h2⟩ := h12 id e1 he1
  refine ⟨e2, he2, ?_⟩
  rcases h2 with h2 | h2
  · rw [h2]; exact h1
  · exact Or.inr h2

/-- An entry stored under an id that was not in the table. -/
theorem ReqKeeps.of_insert_new (network network1 : NetworkLayer) (k : Nat)
    (v : RequestTableEntry) (h : network1.requestTable = network.requestTable.insert k v)
    (hnew : network.requestTable.lookup k = none) : ReqKeeps network network1 := by
  intro id e he
  have hk : id ≠ k := by
    intro hk
    rw [hk, hnew] at he
    cases he
  exact ⟨e, by rw [h, AList.lookup_insert_ne hk]; exact he, Or.inl rfl⟩

/-- The entry of a request of this node, stored under whatever id. -/
theorem ReqKeeps.of_insert_own (network network1 : NetworkLayer) (k : Nat)
    (v : RequestTableEntry) (h : network1.requestTable = network.requestTable.insert k v)
    (hv : v.Own) : ReqKeeps network network1 := by
  intro id e he
  by_cases hk : id = k
  · subst hk
    exact ⟨v, by rw [h, AList.lookup_insert], Or.inr hv⟩
  · exact ⟨e, by rw [h, AList.lookup_insert_ne hk]; exact he, Or.inl rfl⟩

theorem SendBytes_requestTable (network : NetworkLayer) (address : String) (data : List Nat)
    (network1 : NetworkLayer) (ok : Bool)
    (h : network.SendBytes address data = some (network1, ok)) :
    network1.requestTable = network.requestTable := by
  unfold NetworkLayer.SendBytes at h
  simp only [Option.bind_eq_bind, Option.bind_eq_some, Option.some.injEq, Prod.mk.injEq] at h
  obtain ⟨⟨link, dev, ok1⟩, _, rfl, _⟩ := h
  rfl

theorem BroadcastPacketExcept_requestTable (network : NetworkLayer) (packet : Packet)
    (except : String) (network1 : NetworkLayer)
    (h : network.BroadcastPacketExcept packet except = some network1) :
    network1.requestTable = network.requestTable := by
  unfold NetworkLayer.BroadcastPacketExcept at h
  simp only [Option.bind_eq_bind, Option.bind_eq_some, Option.some.injEq] at h
  obtain ⟨⟨link, dev⟩, _, rfl⟩ := h
  rfl

theorem sendRouteError_requestTable (network : NetworkLayer) (targetAddr : String)
    (sessID : Nat) (network1 : NetworkLayer)
    (h : network.sendRouteError targetAddr sessID = some network1) :
    network1.requestTable = network.requestTable := by
  unfold NetworkLayer.sendRouteError at h
  simp only [Option.bind_eq_bind, Option.bind_eq_some, Option.some.injEq] at h
  obtain ⟨⟨n2, ok⟩, hs, rfl⟩ := h
  exact SendBytes_requestTable _ _ _ _ _ hs

/-- The method `buildRouteRequest` stores the entry of the new request, an entry of this
node, under the seed it has drawn, and changes no other entry of the request table. -/
theorem buildRouteRequest_ReqKeeps (crypto : Crypto) (network : NetworkLayer) (ttl : Nat)
    (network1 : NetworkLayer) (r : Except String RREQPacket)
    (h : network.buildRouteRequest crypto ttl = some (network1, r)) :
    ReqKeeps network network1 := by
  unfold NetworkLayer.buildRouteRequest at h
  simp only [Option.bind_eq_bind, Option.bind_eq_some] at h
  obtain ⟨⟨prioritized, random⟩, _, enc, _, h⟩ := h
  split at h
  · simp only [Option.some.injEq, Prod.mk.injEq] at h
    obtain ⟨rfl, _⟩ := h
    exact ReqKeeps.of_eq_req rfl
  · split at h
    · simp only [Option.some.injEq, Prod.mk.injEq] at h
      obtain ⟨rfl, _⟩ := h
      exact ReqKeeps.of_eq_req rfl
    · simp only [Option.bind_eq_some, Option.some.injEq, Prod.mk.injEq] at h
      obtain ⟨rreq, _, rfl, _⟩ := h
      exact ReqKeeps.of_insert_own network _ _ _ rfl ⟨rfl, by simp [NewRequestTableEntry]⟩

theorem BroadcastRouteRequest_ReqKeeps (crypto : Crypto) (network network1 : NetworkLayer)
    (h : network.BroadcastRouteRequest crypto = some network1) :
    ReqKeeps network network1 := by
  unfold NetworkLayer.BroadcastRouteRequest at h
  simp only [Option.bind_eq_bind, Option.bind_eq_some] at h
  obtain ⟨⟨n2, r⟩, hb, h⟩ := h
  have h2 := buildRouteRequest_ReqKeeps crypto network _ n2 r hb
  cases r with
  | error e =>
    simp only [Option.some.injEq] at h
    rw [← h]; exact h2
  | ok rreqPacket =>
    simp only [Option.bind_eq_some, Option.some.injEq] at h
    obtain ⟨⟨link, dev⟩, _, rfl⟩ := h
    exact h2.trans_req (ReqKeeps.of_eq_req rfl)

theorem SendRouteRequest_ReqKeeps (crypto : Crypto) (network : NetworkLayer)
    (address : String) (ttl : Nat) (network1 : NetworkLayer)
    (h : network.SendRouteRequest crypto address ttl = some network1) :
    ReqKeeps network network1 := by
  unfold NetworkLayer.SendRouteRequest at h
  simp only [Option.bind_eq_bind, Option.bind_eq_some] at h
  obtain ⟨⟨n2, r⟩, hb, h⟩ := h
  have h2 := buildRouteRequest_ReqKeeps crypto network _ n2 r hb
  cases r with
  | error e =>
    simp only [Option.some.injEq] at h
    rw [← h]; exact h2
  | ok rreqPacket =>
    simp only [Option.bind_eq_some, Option.some.injEq] at h
    obtain ⟨⟨n3, ok⟩, hs, rfl⟩ := h
    exact h2.trans_req (ReqKeeps.of_eq_req (SendBytes_requestTable _ _ _ _ _ hs))

theorem eventSessionBroken_ReqKeeps (crypto : Crypto) (network : NetworkLayer)
    (sessID : Nat) (network1 : NetworkLayer)
    (h : network.eventSessionBroken crypto sessID = some network1) :
    ReqKeeps network network1 := by
  unfold NetworkLayer.eventSessionBroken at h
  simp only at h
  split at h
  · have h2 := BroadcastRouteRequest_ReqKeeps crypto _ _ h
    exact (ReqKeeps.of_eq_req rfl).trans_req h2
  · simp only [Option.some.injEq] at h
    rw [← h]
    exact ReqKeeps.of_eq_req rfl

theorem SessionBroken_ReqKeeps (crypto : Crypto) (network : NetworkLayer) (sessID : Nat)
    (address : Option String) (network1 : NetworkLayer)
    (h : network.SessionBroken crypto sessID address = some network1) :
    ReqKeeps network network1 := by
  unfold NetworkLayer.SessionBroken at h
  split at h
  · simp only [Option.some.injEq] at h
    rw [← h]
    exact ReqKeeps.refl_req _
  · rename_i entry hentry
    simp only [Option.bind_eq_bind, Option.bind_eq_some] at h
    obtain ⟨n2, hn2, entry2, _, h⟩ := h
    have h2 : n2.requestTable = network.requestTable := by
      split at hn2
      · split at hn2
        · exact sendRouteError_requestTable _ _ _ _ hn2
        · exact sendRouteError_requestTable _ _ _ _ hn2
        · simp only [Option.some.injEq] at hn2
          rw [← hn2]
      · simp only [Option.some.injEq] at hn2
        rw [← hn2]
    have h3 : ReqKeeps n2 network1 := by
      split at h
      · have h4 := eventSessionBroken_ReqKeeps crypto _ _ _ h
        exact (ReqKeeps.of_eq_req rfl).trans_req h4
      · simp only [Option.some.injEq] at h
        rw [← h]
        exact ReqKeeps.of_eq_req rfl
    exact (ReqKeeps.of_eq_req h2).trans_req h3

theorem forwardRouteReply_ReqKeeps (crypto : Crypto) (network : NetworkLayer) (rrep : RREPPacket)
    (session : SessionTableEntry) (network1 : NetworkLayer)
    (h : network.forwardRouteReply crypto rrep session = some network1) :
    ReqKeeps network network1 := by
  unfold NetworkLayer.forwardRouteReply at h
  simp only [Option.bind_eq_bind, Option.bind_eq_some] at h
  obtain ⟨source, _, ⟨n2, ok⟩, hs, h⟩ := h
  have h2 := SendBytes_requestTable _ _ _ _ _ hs
  split at h
  · simp only [Option.bind_eq_some] at h
    obtain ⟨n3, hn3, h⟩ := h
    have h3 : n3.requestTable = n2.requestTable := by
      split at hn3
      · exact sendRouteError_requestTable _ _ _ _ hn3
      · simp only [Option.some.injEq] at hn3
        rw [← hn3]
    exact (ReqKeeps.of_eq_req (h3.trans h2)).trans_req (SessionBroken_ReqKeeps crypto _ _ _ _ h)
  · simp only [Option.some.injEq] at h
    rw [← h]
    exact ReqKeeps.of_eq_req h2

theorem forwardRouteRequest_requestTable (network : NetworkLayer) (rreq : RREQPacket)
    (sender : String) (network1 : NetworkLayer)
    (h : network.forwardRouteRequest rreq sender = some network1) :
    network1.requestTable = network.requestTable := by
  have key : ∀ r : RREQPacket,
      (if r.TTL ≤ 0 then some network
        else network.BroadcastPacketExcept (Packet.rreq r) sender) = some network1 →
      network1.requestTable = network.requestTable := by
    intro r hr
    by_cases hz : r.TTL ≤ 0
    · rw [if_pos hz] at hr
      exact congrArg NetworkLayer.requestTable (Option.some.inj hr).symm
    · rw [if_neg hz] at hr
      exact BroadcastPacketExcept_requestTable _ _ _ _ hr
  unfold NetworkLayer.forwardRouteRequest at h
  exact key _ h

theorem NewRREP_requestTable (crypto : Crypto) (network : NetworkLayer) (reqID sessID : Nat)
    (sessionSecret key payload : List Nat) (network1 : NetworkLayer)
    (r : Except String RREPPacket)
    (h : network.NewRREP crypto reqID sessID sessionSecret key payload = some (network1, r)) :
    network1.requestTable = network.requestTable := by
  unfold NetworkLayer.NewRREP at h
  simp only at h
  split at h
  · simp only [Option.some.injEq, Prod.mk.injEq] at h
    obtain ⟨rfl, _⟩ := h
    rfl
  · simp only [Option.bind_eq_bind, Option.bind_eq_some, Option.some.injEq, Prod.mk.injEq] at h
    obtain ⟨cipher, _, rfl, _⟩ := h
    rfl

theorem replyLoop_ReqKeeps (crypto : Crypto) (rreq : RREQPacket) (sender : String) :
    ∀ (contacts : List String) (network network1 : NetworkLayer),
      NetworkLayer.replyLoop crypto rreq sender contacts network = some network1 →
      ReqKeeps network network1 := by
  intro contacts
  induction contacts with
  | nil =>
    intro network network1 h
    rw [NetworkLayer.replyLoop] at h
    simp only [Option.some.injEq] at h
    rw [← h]
    exact ReqKeeps.refl_req _
  | cons contactID rest ih =>
    intro network network1 h
    rw [NetworkLayer.replyLoop] at h
    simp only at h
    split at h
    · simp only [Option.some.injEq] at h
      rw [← h]
      exact ReqKeeps.of_eq_req rfl
    · rename_i sessionSecret _
      simp only [Option.bind_eq_bind, Option.bind_eq_some] at h
      obtain ⟨request, _, ⟨n2, r⟩, hrrep, h⟩ := h
      have h2 := NewRREP_requestTable crypto _ _ _ _ _ _ _ _ hrrep
      have hg2 : ReqKeeps network n2 := ReqKeeps.of_eq_req h2
      cases r with
      | error e =>
        simp only at h
        exact hg2.trans_req (ih _ _ h)
      | ok rrep =>
        simp only [Option.bind_eq_some] at h
        obtain ⟨n3, hfwd, n4, hn4, h⟩ := h
        have hg3 := forwardRouteReply_ReqKeeps crypto _ _ _ _ hfwd
        have hg4 : ReqKeeps n3 n4 := by
          split at hn4
          · exact ReqKeeps.of_eq_req (forwardRouteRequest_requestTable _ _ _ _ hn4)
          · simp only [Option.some.injEq] at hn4
            rw [← hn4]
            exact ReqKeeps.refl_req _
        exact ((hg2.trans_req hg3).trans_req hg4).trans_req (ih _ _ h)

theorem handleRouteRequest_ReqKeeps (crypto : Crypto) (network : NetworkLayer)
    (rreq : RREQPacket) (sender : String) (network1 : NetworkLayer)
    (h : network.handleRouteRequest crypto rreq sender = some network1) :
    ReqKeeps network network1 := by
  unfold NetworkLayer.handleRouteRequest at h
  split at h
  · injection h with h
    rw [← h]
    exact ReqKeeps.refl_req _
  · rename_i hnew
    have hins : ReqKeeps network
        { network with
          requestTable := network.requestTable.insert rreq.RequestID
            { RequestID := rreq.RequestID, SourceNeighbour := some sender,
              EphemeralPrivateKey := none } } :=
      ReqKeeps.of_insert_new network _ _ _ rfl hnew
    simp only at h
    split at h
    · cases h
    · injection h with h
      rw [← h]
      exact hins
    · split at h
      · have h2 := forwardRouteRequest_requestTable _ _ _ _ h
        exact hins.trans_req (ReqKeeps.of_eq_req h2)
      · have h2 := replyLoop_ReqKeeps crypto rreq sender _ _ _ h
        exact hins.trans_req h2

theorem openLoop_requestTable (crypto : Crypto) (rrep : RREPPacket) (sender : String)
    (request : RequestTableEntry) (headers : List Nat) :
    ∀ (contacts : List String) (network network1 : NetworkLayer),
      NetworkLayer.openLoop crypto rrep sender request headers contacts network =
        some network1 →
      network1.requestTable = network.requestTable := by
  intro contacts
  induction contacts with
  | nil =>
    intro network network1 h
    rw [NetworkLayer.openLoop] at h
    simp only [Option.some.injEq] at h
    rw [← h]
  | cons contact rest ih =>
    intro network network1 h
    rw [NetworkLayer.openLoop] at h
    simp only [Option.bind_eq_bind, Option.bind_eq_some] at h
    obtain ⟨ephemeralPrivate, _, h⟩ := h
    split at h
    · simp only [Option.some.injEq] at h
      rw [← h]
    · split at h
      · simp only [Option.some.injEq] at h
        rw [← h]
      · simp only [Option.bind_eq_bind, Option.bind_eq_some] at h
        obtain ⟨r, _, h⟩ := h
        cases r with
        | error e =>
          simp only at h
          exact ih _ _ h
        | ok payload =>
          simp only [Option.some.injEq] at h
          rw [← h]
          rfl

theorem handleRouteReply_ReqKeeps (crypto : Crypto) (network : NetworkLayer) (rrep : RREPPacket)
    (sender : String) (network1 : NetworkLayer)
    (h : network.handleRouteReply crypto rrep sender = some network1) :
    ReqKeeps network network1 := by
  unfold NetworkLayer.handleRouteReply at h
  split at h
  · simp only [Option.some.injEq] at h
    rw [← h]
    exact ReqKeeps.refl_req _
  · rename_i request _
    split at h
    · exact ReqKeeps.of_eq_req (openLoop_requestTable crypto rrep sender request _ _ _ _ h)
    · have h2 := forwardRouteReply_ReqKeeps crypto _ _ _ _ h
      exact (ReqKeeps.of_eq_req rfl).trans_req h2

theorem handleSESSPacket_requestTable (crypto : Crypto) (network : NetworkLayer)
    (packet : SESSPacket) (sender : String) (network1 : NetworkLayer)
    (message : Option SessionMessage)
    (h : network.handleSESSPacket crypto packet sender = some (network1, message)) :
    network1.requestTable = network.requestTable := by
  unfold NetworkLayer.handleSESSPacket at h
  split at h
  · simp only [Option.some.injEq, Prod.mk.injEq] at h
    rw [← h.1]
  · split at h
    · simp only at h
      split at h
      · split at h
        · simp only [Option.some.injEq, Prod.mk.injEq] at h
          rw [← h.1]
        · simp only [Option.bind_eq_bind, Option.bind_eq_some, Option.some.injEq,
            Prod.mk.injEq] at h
          obtain ⟨⟨n2, ok⟩, hs, rfl, _⟩ := h
          exact SendBytes_requestTable _ _ _ _ _ hs
      · simp only [Option.bind_eq_bind, Option.bind_eq_some, Option.some.injEq,
          Prod.mk.injEq] at h
        obtain ⟨⟨n2, ok⟩, hs, rfl, _⟩ := h
        exact SendBytes_requestTable _ _ _ _ _ hs
    · simp only [Option.bind_eq_bind, Option.bind_eq_some] at h
      obtain ⟨r, _, h⟩ := h
      cases r with
      | error e =>
        simp only [Option.some.injEq, Prod.mk.injEq] at h
        rw [← h.1]
      | ok m =>
        simp only [Option.some.injEq, Prod.mk.injEq] at h
        rw [← h.1]

theorem handleRouteErrorPacket_ReqKeeps (crypto : Crypto) (network : NetworkLayer)
    (rerr : RERRPacket) (sender : String) (network1 : NetworkLayer)
    (h : network.handleRouteErrorPacket crypto rerr sender = some network1) :
    ReqKeeps network network1 := by
  unfold NetworkLayer.handleRouteErrorPacket at h
  simp only at h
  split at h
  · simp only [Option.some.injEq] at h
    rw [← h]
    exact ReqKeeps.refl_req _
  · split at h
    · simp only [Option.bind_eq_bind, Option.bind_eq_some, Option.some.injEq] at h
      obtain ⟨n2, hn2, rfl⟩ := h
      have h2 : n2.requestTable = network.requestTable := by
        split at hn2
        · exact sendRouteError_requestTable _ _ _ _ hn2
        · split at hn2
          · exact sendRouteError_requestTable _ _ _ _ hn2
          · simp only [Option.some.injEq] at hn2
            rw [← hn2]
      exact ReqKeeps.of_eq_req h2
    · exact SessionBroken_ReqKeeps crypto _ _ _ _ h

theorem disconnectLoop_ReqKeeps (crypto : Crypto) (failedNode : String) :
    ∀ (sessIDs : List Nat) (network network1 : NetworkLayer),
      NetworkLayer.disconnectLoop crypto failedNode sessIDs network = some network1 →
      ReqKeeps network network1 := by
  intro sessIDs
  induction sessIDs with
  | nil =>
    intro network network1 h
    rw [NetworkLayer.disconnectLoop] at h
    simp only [Option.some.injEq] at h
    rw [← h]
    exact ReqKeeps.refl_req _
  | cons sessID rest ih =>
    intro network network1 h
    rw [NetworkLayer.disconnectLoop] at h
    simp only [Option.bind_eq_bind, Option.bind_eq_some] at h
    obtain ⟨entry, _, n2, hn2, h⟩ := h
    have hg : ReqKeeps network n2 := by
      split at hn2
      · exact SessionBroken_ReqKeeps crypto _ _ _ _ hn2
      · split at hn2
        · split at hn2
          · simp only [Option.map_eq_some'] at hn2
            obtain ⟨n3, hn3, rfl⟩ := hn2
            have h3 := sendRouteError_requestTable _ _ _ _ hn3
            exact ReqKeeps.of_eq_req h3
          · split at hn2
            · simp only [Option.map_eq_some'] at hn2
              obtain ⟨n3, hn3, rfl⟩ := hn2
              have h3 := sendRouteError_requestTable _ _ _ _ hn3
              exact ReqKeeps.of_eq_req h3
            · simp only [Option.some.injEq] at hn2
              rw [← hn2]
              exact ReqKeeps.refl_req _
        · simp only [Option.some.injEq] at hn2
          rw [← hn2]
          exact ReqKeeps.refl_req _
    exact hg.trans_req (ih _ _ h)

theorem handleDisconnect_ReqKeeps (crypto : Crypto) (network : NetworkLayer)
    (failedNode : String) (network1 : NetworkLayer)
    (h : network.handleDisconnect crypto failedNode = some network1) :
    ReqKeeps network network1 := by
  unfold NetworkLayer.handleDisconnect at h
  generalize utils.ShuffleMapKeys network.dev.rand network.sessionTable = sh at h
  obtain ⟨sessIDs, random⟩ := sh
  have h2 := disconnectLoop_ReqKeeps crypto failedNode _ _ _ h
  exact (ReqKeeps.of_eq_req rfl).trans_req h2

theorem handlePacket_ReqKeeps (crypto : Crypto) (network : NetworkLayer) (sender : String)
    (packet : Packet) (network1 : NetworkLayer) (message : Option SessionMessage)
    (h : network.handlePacket crypto sender packet = some (network1, message)) :
    ReqKeeps network network1 := by
  unfold NetworkLayer.handlePacket at h
  cases packet with
  | rreq rreq =>
    simp only [Option.map_eq_some', Prod.mk.injEq] at h
    obtain ⟨n2, hn2, rfl, _⟩ := h
    exact handleRouteRequest_ReqKeeps crypto _ _ _ _ hn2
  | rrep rrep =>
    simp only [Option.map_eq_some', Prod.mk.injEq] at h
    obtain ⟨n2, hn2, rfl, _⟩ := h
    exact handleRouteReply_ReqKeeps crypto _ _ _ _ hn2
  | sess data =>
    exact ReqKeeps.of_eq_req (handleSESSPacket_requestTable crypto _ _ _ _ _ h)
  | rerr rerr =>
    simp only [Option.map_eq_some', Prod.mk.injEq] at h
    obtain ⟨n2, hn2, rfl, _⟩ := h
    exact handleRouteErrorPacket_ReqKeeps crypto _ _ _ _ hn2

theorem OnConnection_ReqKeeps (crypto : Crypto) (network : NetworkLayer) (address : String)
    (network1 : NetworkLayer) (h : network.OnConnection crypto address = some network1) :
    ReqKeeps network network1 := by
  unfold NetworkLayer.OnConnection at h
  simp only [Option.bind_eq_bind, Option.bind_eq_some] at h
  obtain ⟨link, _, h⟩ := h
  split at h
  · have h2 := SendRouteRequest_ReqKeeps crypto _ _ _ _ h
    exact (ReqKeeps.of_eq_req rfl).trans_req h2
  · injection h with h
    rw [← h]
    exact ReqKeeps.of_eq_req rfl

theorem OnDisconnection_ReqKeeps (crypto : Crypto) (network : NetworkLayer) (address : String)
    (network1 : NetworkLayer) (h : network.OnDisconnection crypto address = some network1) :
    ReqKeeps network network1 := by
  unfold NetworkLayer.OnDisconnection at h
  have h2 := handleDisconnect_ReqKeeps crypto _ _ _ h
  exact (ReqKeeps.of_eq_req rfl).trans_req h2

end network_layer

namespace network_layer

/-- C34 (amended): every operation of the network layer other than `DeleteContact` - the
handling of a packet, `BroadcastRouteRequest`, `SendRouteRequest`, `OnConnection`,
`OnDisconnection`, and `SessionBroken` with or without an address - keeps every request id
of the request table, and keeps its entry unless the entry has become that of a request of
this node (no source neighbour, an ephemeral private key), which is what `buildRouteRequest`
stores when it draws an id that is in the table. -/
theorem C34_request_ids_are_kept (crypto : Crypto) (network : NetworkLayer) :
    (∀ sender packet network1 message,
      network.handlePacket crypto sender packet = some (network1, message) →
      ReqKeeps network network1) ∧
    (∀ network1, network.BroadcastRouteRequest crypto = some network1 →
      ReqKeeps network network1) ∧
    (∀ address ttl network1, network.SendRouteRequest crypto address ttl = some network1 →
      ReqKeeps network network1) ∧
    (∀ address network1, network.OnConnection crypto address = some network1 →
      ReqKeeps network network1) ∧
    (∀ address network1, network.OnDisconnection crypto address = some network1 →
      ReqKeeps network network1) ∧
    (∀ sessID address network1, network.SessionBroken crypto sessID address = some network1 →
      ReqKeeps network network1) :=
  ⟨fun sender packet network1 message h =>
      handlePacket_ReqKeeps crypto network sender packet network1 message h,
    fun network1 h => BroadcastRouteRequest_ReqKeeps crypto network network1 h,
    fun address ttl network1 h => SendRouteRequest_ReqKeeps crypto network address ttl network1 h,
    fun address network1 h => OnConnection_ReqKeeps crypto network address network1 h,
    fun address network1 h => OnDisconnection_ReqKeeps crypto network address network1 h,
    fun sessID address network1 h =>
      SessionBroken_ReqKeeps crypto network sessID address network1 h⟩

set_option maxRecDepth 1000000

theorem C34_request_ids_are_kept_witness :
    networkA1.handlePacket cryptoFixed "A" (Packet.rreq rreqA) = some (networkA2, none) ∧
      ReqKeeps networkA1 networkA2 :=
  ⟨rfl, (C34_request_ids_are_kept cryptoFixed networkA1).1 "A" (Packet.rreq rreqA) networkA2
    none rfl⟩

/-- C34 as stated fails for `DeleteContact`: the node `networkA2` holds the request id 0 in
its request table and is an endpoint of session 0, which that request has established with
the contact "a"; `DeleteContact("a")` returns with a request table that has no entry for the
request id 0. -/
theorem C34_DeleteContact_removes_the_request_entry :
    networkA2.requestTable.lookup 0 = some ⟨0, some "A", none⟩ ∧
    ∃ after, networkA2.DeleteContact cryptoFixed "a" = some after ∧
      after.requestTable.lookup 0 = none ∧ ¬ ReqKeeps networkA2 after := by
  refine ⟨rfl, _, rfl, rfl, ?_⟩
  intro hkeeps
  obtain ⟨e1, he1, _⟩ := hkeeps 0 _ networkA2_request
  have hnone : ((networkA2.DeleteContact cryptoFixed "a").map
      (fun n => n.requestTable.lookup 0)) = some none := rfl
  have hsome : ((networkA2.DeleteContact cryptoFixed "a").map
      (fun n => n.requestTable.lookup 0)) = some (some e1) := by
    rw [← he1]
    rfl
  rw [hnone] at hsome
  cases hsome

/-- The entry of a request id is replaced when this node draws the same id for a request
of its own: the node `networkB` holds the id 0 with the source neighbour "A";
`BroadcastRouteRequest`, with a random source that delivers the seed 0, stores under 0 the
entry of its own request. -/
theorem request_entry_replaced_by_own_request :
    networkB.requestTable.lookup 0 = some ⟨0, some "A", none⟩ ∧
    (networkB.BroadcastRouteRequest cryptoFixed).map (fun n => n.requestTable.lookup 0) =
      some (some ⟨0, none, some (List.replicate 32 0)⟩) :=
  ⟨rfl, rfl⟩

set_option maxRecDepth 512

end network_layer

namespace packet_layer

/-! ### `ReceivePacket` -/

/-- When `HasMessage` returns an error and leaves the decoder as it was, the loop of
`ReceivePacket` does not end: no number of rounds suffices. -/
theorem receiveLoop_stuck (decoder : PacketDecoder) (e : String)
    (h : decoder.HasMessageChecked = some (decoder, .error e)) :
    ∀ (fuel : Nat) (messages : List (List Nat)), receiveLoop fuel decoder messages = none := by
  intro fuel
  induction fuel with
  | zero => intro messages; rfl
  | succ fuel ih =>
    intro messages
    rw [receiveLoop, h]
    exact ih messages

/-- C36: the packet layer `linkWaiting` has received from "A" a packet with a continuation
frame, and `ReceivePacket` has returned, without a message. When the empty packet then
arrives from "A", the decoder holds the two packets; `HasMessage` returns an error and drops
no packet - the decoder after the call is the decoder before it - and `ReceivePacket` does
not return: its loop takes another round after the error, whatever the number of rounds. -/
theorem C36_ReceivePacket_does_not_terminate :
    linkA.ReceivePacket 1 "A" continuationOnly = some (linkWaiting, []) ∧
    (linkWaiting.connections.lookup "A").map (fun conn => (conn.decoder.AppendPacket []).1) =
      some decoderStuck ∧
    decoderStuck.HasMessageChecked =
      some (decoderStuck, .error "corrupt packet: header expected at least 2 bytes") ∧
    ∀ fuel, linkWaiting.ReceivePacket fuel "A" [] = none := by
  have hstuck : decoderStuck.HasMessageChecked =
      some (decoderStuck, .error "corrupt packet: header expected at least 2 bytes") := rfl
  refine ⟨rfl, rfl, hstuck, ?_⟩
  intro fuel
  have hconn : ∃ conn, linkWaiting.connections.lookup "A" = some conn ∧
      conn.decoder.AppendPacket [] = (decoderStuck, .ok ()) := ⟨_, rfl, rfl⟩
  obtain ⟨conn, hlookup, happend⟩ := hconn
  unfold PacketLayer.ReceivePacket
  rw [hlookup]
  simp only [happend, receiveLoop_stuck decoderStuck _ hstuck fuel []]

end packet_layer

namespace sync

set_option maxRecDepth 1000000

/-- C35, refuted at the state of `syncRun`: the contact `"c"` has a model, session `1` of
`"c"` has `receivePull = true` and the key `pad 32 [2]`, and the model stores no digest for
that key. There `pushStateUpdates` does not take the empty digest: it hands the nil pointer
to `Delta`, which dereferences it, so the call panics (`none`) instead of emitting
`PushSyncUpdates`; `NewMessage` for `"c"` panics with it. -/
theorem C35_pushStateUpdates_panics_without_a_stored_digest :
    ∃ (pushed : Sync) (contactState : Model),
      syncRun = some (pushed, .ok ()) ∧
      pushed.state.lookup "c" = some contactState ∧
      pushed.sessions.lookup 1 =
        some { contact := "c", publicKey := pad 32 [2], receivePull := true } ∧
      contactState.Digests.lookup (pad 32 [2]) = none ∧
      (contactState.Delta NewDigest).2 = [] ∧
      pushed.pushStateUpdates edFixed "c" = none ∧
      pushed.NewMessage edFixed marshalFixed "c" [104, 105] none = none :=
  ⟨_, _, rfl, rfl, rfl, rfl, rfl, rfl, rfl⟩

set_option maxRecDepth 512

end sync

namespace application_layer

open sync

set_option maxRecDepth 1000000

/-- C37, refuted: `handlePacket` panics (`none`) on the payload `[0x02]`, the tag byte
alone, with sync enabled and with sync disabled, since `ReceiveSyncPacket` reads `packet[0]`
of the empty rest; and with sync disabled it panics on a well-formed signed PULL and on a
well-formed signed PUSH, which reach `HandlePullPacket` and `MergePushPacket` on the nil
`*Sync`. A PULL body that is too short is logged and dropped. -/
theorem C37_handlePacket_panics :
    (NewApplicationLayer optionsSync).handlePacket edFixed edFixedVerify marshalFixed 1 "c"
        [0x02] = none ∧
    (NewApplicationLayer device.DefaultProtocolOptions).handlePacket edFixed edFixedVerify
        marshalFixed 1 "c" [0x02] = none ∧
    DecodePullPacket edFixedVerify pullFixed.Encode = some (.ok pullFixed) ∧
    (NewApplicationLayer device.DefaultProtocolOptions).handlePacket edFixed edFixedVerify
        marshalFixed 1 "c" (0x02 :: pullFixed.Encode) = none ∧
    DecodePushPacket edFixedVerify pushOther.Encode = some (.ok pushOther) ∧
    (NewApplicationLayer device.DefaultProtocolOptions).handlePacket edFixed edFixedVerify
        marshalFixed 1 "c" (0x02 :: pushOther.Encode) = none ∧
    ((NewApplicationLayer optionsSync).handlePacket edFixed edFixedVerify marshalFixed 1 "c"
        [0x02, 0]).isSome = true :=
  ⟨rfl, rfl, rfl, rfl, rfl, rfl, rfl⟩

set_option maxRecDepth 512

end application_layer

namespace sync

theorem Digest_fst_Digest (s : Model) : s.Digest.1.Digest = (s.Digest.1, s.Digest.2) := by
  unfold Model.Digest
  cases h : s.Digests.lookup s.PublicKey with
  | some d => simp [h]
  | none => simp [AList.lookup_insert]

theorem Digest_fst_Delta (s : Model) (d : sync.Digest) :
    s.Digest.1.Delta d = (s.Digest.1, (s.Delta d).2) := by
  have h1 : s.Digest.1.NodeStates = s.NodeStates := by
    unfold Model.Digest
    cases h : s.Digests.lookup s.PublicKey <;> simp
  unfold Model.Delta
  simp only [Digest_fst_Digest, h1]

theorem Digest_fst_lookup (s : Model) (key : NodePublicKey) (d : sync.Digest)
    (h : s.Digests.lookup key = some d) : s.Digest.1.Digests.lookup key = some d := by
  unfold Model.Digest
  cases h1 : s.Digests.lookup s.PublicKey with
  | some d1 => simpa using h
  | none =>
    have hne : key ≠ s.PublicKey := by
      intro he
      rw [he, h1] at h
      cases h
    simp [AList.lookup_insert_ne hne, h]

theorem Digest_fst_NewPushPacket (ed : Ed25519) (s : Model) (receiver : NodePublicKey)
    (delta : Deltas) :
    s.Digest.1.NewPushPacket ed receiver delta = s.NewPushPacket ed receiver delta := by
  unfold Model.NewPushPacket Model.Digest
  cases h : s.Digests.lookup s.PublicKey <;> simp

/-- The loop of `pushStateUpdates` returns when every session of the contact that has
received a pull packet has a digest stored: it makes the callbacks `pushEvents`, and
`shouldDiscoverContact` stays set exactly when no entry is a session of the contact. -/
theorem pushLoop_spec (ed : Ed25519) (contact : String) (s : Model) :
    ∀ (entries : List (Sigma fun _ : Nat => syncSession)),
      (∀ e ∈ entries, e.2.contact = contact → e.2.receivePull = true →
        ∃ d, s.Digests.lookup e.2.publicKey = some d) →
      ∀ (M : Model) (b : Bool) (events : List SyncEvent), (M = s ∨ M = s.Digest.1) →
        ∃ M1, (M1 = s ∨ M1 = s.Digest.1) ∧
          pushLoop ed contact entries M b events =
            some (M1, b && entries.all (fun e => decide (e.2.contact ≠ contact)),
              events ++ pushEvents ed contact s entries) := by
  intro entries
  induction entries with
  | nil =>
    intro _ M b events hM
    exact ⟨M, hM, by simp [pushLoop, pushEvents]⟩
  | cons e rest ih =>
    intro h M b events hM
    have hrest : ∀ e ∈ rest, e.2.contact = contact → e.2.receivePull = true →
        ∃ d, s.Digests.lookup e.2.publicKey = some d :=
      fun e1 h1 => h e1 (List.mem_cons_of_mem _ h1)
    obtain ⟨session, identity⟩ := e
    by_cases hc : identity.contact = contact
    · cases hp : identity.receivePull with
      | false =>
        obtain ⟨M1, hM1, hloop⟩ := ih hrest M false events hM
        refine ⟨M1, hM1, ?_⟩
        simp only [pushLoop, hc, hp, ne_eq, not_true_eq_false, if_false, Bool.not_false,
          if_true, hloop]
        simp [pushEvents, hc, hp]
      | true =>
        obtain ⟨d, hd⟩ := h ⟨session, identity⟩ (List.mem_cons_self _ _) hc hp
        have hdM : M.Digests.lookup identity.publicKey = some d := by
          rcases hM with hM | hM
          · rw [hM]; exact hd
          · rw [hM]; exact Digest_fst_lookup s _ _ hd
        have hDelta : M.Delta d = (s.Digest.1, (s.Delta d).2) := by
          rcases hM with hM | hM
          · rw [hM]; rfl
          · rw [hM]; exact Digest_fst_Delta s d
        by_cases hlen : (s.Delta d).2.length > 0
        · obtain ⟨M1, hM1, hloop⟩ := ih hrest s.Digest.1 false
            (events ++ [SyncEvent.PushSyncUpdates contact session
              (s.Digest.1.NewPushPacket ed identity.publicKey (s.Delta d).2)]) (Or.inr rfl)
          refine ⟨M1, hM1, ?_⟩
          simp only [pushLoop, hc, hp, ne_eq, not_true_eq_false, if_false, Bool.not_true,
            Bool.false_eq_true, hdM, hDelta, hlen, if_true, hloop]
          simp [pushEvents, hc, hp, hd, hlen, Digest_fst_NewPushPacket]
        · obtain ⟨M1, hM1, hloop⟩ := ih hrest s.Digest.1 false events (Or.inr rfl)
          refine ⟨M1, hM1, ?_⟩
          simp only [pushLoop, hc, hp, ne_eq, not_true_eq_false, if_false, Bool.not_true,
            Bool.false_eq_true, hdM, hDelta, hlen, hloop]
          simp [pushEvents, hc, hp, hd, hlen]
    · obtain ⟨M1, hM1, hloop⟩ := ih hrest M b events hM
      refine ⟨M1, hM1, ?_⟩
      simp only [pushLoop, ne_eq, hc, not_false_eq_true, if_true, hloop]
      simp [pushEvents, hc]

/-- The part of C35 that holds: when the contact has a model and a digest is stored for
the key of every session of the contact that has received a pull packet, `pushStateUpdates`
returns without an error, makes the `PushSyncUpdates` callbacks `pushEvents` (none for a
session with `receivePull = false`, none for an empty delta), and after them
`DiscoverContact` exactly when no session of the contact exists. -/
theorem pushStateUpdates_spec (ed : Ed25519) (sync : Sync) (contact : String)
    (contactState : Model) (hstate : sync.state.lookup contact = some contactState)
    (hdigests : ∀ session identity, sync.sessions.lookup session = some identity →
      identity.contact = contact → identity.receivePull = true →
      ∃ d, contactState.Digests.lookup identity.publicKey = some d) :
    ∃ sync1, sync.pushStateUpdates ed contact = some (sync1, .ok ()) ∧
      sync1.sessions = sync.sessions ∧
      sync1.events = sync.events ++ pushEvents ed contact contactState sync.sessions.entries ++
        (if sync.sessions.entries.all (fun e => decide (e.2.contact ≠ contact)) = true
         then [SyncEvent.DiscoverContact contact] else []) := by
  have h : ∀ e ∈ sync.sessions.entries, e.2.contact = contact → e.2.receivePull = true →
      ∃ d, contactState.Digests.lookup e.2.publicKey = some d := by
    intro e he
    refine hdigests e.1 e.2 ?_
    exact AList.mem_lookup_iff.2 (by cases e; exact he)
  obtain ⟨M1, _, hloop⟩ :=
    pushLoop_spec ed contact contactState sync.sessions.entries h contactState true
      sync.events (Or.inl rfl)
  unfold Sync.pushStateUpdates
  rw [hstate]
  simp only [hloop, Bool.true_and]
  by_cases hall : sync.sessions.entries.all (fun e => decide (e.2.contact ≠ contact)) = true
  · rw [if_pos hall, if_pos hall]
    exact ⟨_, rfl, rfl, rfl⟩
  · rw [if_neg hall, if_neg hall]
    exact ⟨_, rfl, rfl, by simp⟩

end sync

namespace transport_layer

theorem ReceiveDATA_latestSeq (state : SessionState) (p : DATAPacket) :
    (state.ReceiveDATA p).1.receiver.latestSeq =
      if state.receiver.latestSeq < p.SeqID then p.SeqID else state.receiver.latestSeq := by
  unfold SessionState.ReceiveDATA
  by_cases h : state.receiver.latestSeq < p.SeqID
  · simp only [h, if_true]
    split <;> (try split) <;> (try split) <;> rfl
  · simp only [h, if_false]
    split <;> (try split) <;> (try split) <;> rfl

theorem ReceiveDATA_missingSeqs (state : SessionState) (p : DATAPacket) :
    (state.ReceiveDATA p).1.receiver.missingSeqs =
      (if state.receiver.latestSeq < p.SeqID then
        state.receiver.missingSeqs ++
          List.range' (state.receiver.latestSeq + 1) (p.SeqID - (state.receiver.latestSeq + 1))
       else state.receiver.missingSeqs).erase p.SeqID := by
  unfold SessionState.ReceiveDATA
  by_cases h : state.receiver.latestSeq < p.SeqID
  · simp only [h, if_true]
    split <;> (try split) <;> (try split) <;> simp_all
  · simp only [h, if_false]
    split <;> (try split) <;> (try split) <;> simp_all

theorem GapInv_fresh (sessionID : Nat) : GapInv (NewSessionState sessionID).receiver [] :=
  { sorted := List.sorted_nil
    missing_iff := by
      intro x
      simp [NewSessionState]
      omega
    bound := fun _ h => absurd h (List.not_mem_nil _)
    latest_mem := Or.inl rfl }

theorem ReceiveDATA_GapInv (state : SessionState) (S : List Nat) (p : DATAPacket)
    (h : GapInv state.receiver S) :
    GapInv (state.ReceiveDATA p).1.receiver (S ++ [p.SeqID]) := by
  obtain ⟨hsorted, hiff, hbound, hlatest⟩ := h
  by_cases hlt : state.receiver.latestSeq < p.SeqID
  · have hnot : p.SeqID ∉ state.receiver.missingSeqs ++
        List.range' (state.receiver.latestSeq + 1)
          (p.SeqID - (state.receiver.latestSeq + 1)) := by
      intro hm
      rcases List.mem_append.1 hm with hm | hm
      · have := (hiff _).1 hm
        omega
      · rw [List.mem_range'_1] at hm
        omega
    have hL : (state.ReceiveDATA p).1.receiver.latestSeq = p.SeqID := by
      rw [ReceiveDATA_latestSeq, if_pos hlt]
    have hM : (state.ReceiveDATA p).1.receiver.missingSeqs =
        state.receiver.missingSeqs ++
          List.range' (state.receiver.latestSeq + 1)
            (p.SeqID - (state.receiver.latestSeq + 1)) := by
      rw [ReceiveDATA_missingSeqs, if_pos hlt, List.erase_of_not_mem hnot]
    refine ⟨?_, ?_, ?_, ?_⟩
    · rw [hM]
      unfold List.Sorted
      rw [List.pairwise_append]
      refine ⟨hsorted, ?_, ?_⟩
      · exact List.pairwise_lt_range' _ _
      · intro a ha b hb
        have := (hiff a).1 ha
        rw [List.mem_range'_1] at hb
        omega
    · intro x
      rw [hM, hL, List.mem_append, hiff, List.mem_range'_1, List.mem_append,
        List.mem_singleton]
      constructor
      · rintro (⟨h1, h2, h3⟩ | ⟨h1, h2⟩)
        · exact ⟨h1, by omega, fun hm => hm.elim h3 (fun he => by omega)⟩
        · refine ⟨by omega, by omega, fun hm => hm.elim (fun hs => ?_) (fun he => by omega)⟩
          have := hbound x hs
          omega
      · rintro ⟨h1, h2, h3⟩
        by_cases hx : x ≤ state.receiver.latestSeq
        · exact Or.inl ⟨h1, hx, fun hs => h3 (Or.inl hs)⟩
        · refine Or.inr ⟨by omega, ?_⟩
          have : x ≠ p.SeqID := fun he => h3 (Or.inr he)
          omega
    · intro s hs
      rw [hL]
      rcases List.mem_append.1 hs with hs | hs
      · have := hbound s hs
        omega
      · rw [List.mem_singleton.1 hs]
    · rw [hL]
      exact Or.inr (List.mem_append_right _ (List.mem_singleton_self _))
  · have hL : (state.ReceiveDATA p).1.receiver.latestSeq = state.receiver.latestSeq := by
      rw [ReceiveDATA_latestSeq, if_neg hlt]
    have hM : (state.ReceiveDATA p).1.receiver.missingSeqs =
        state.receiver.missingSeqs.erase p.SeqID := by
      rw [ReceiveDATA_missingSeqs, if_neg hlt]
    have hnodup : state.receiver.missingSeqs.Nodup :=
      hsorted.imp (fun h => Nat.ne_of_lt h)
    refine ⟨?_, ?_, ?_, ?_⟩
    · rw [hM]
      exact hsorted.sublist (List.erase_sublist _ _)
    · intro x
      rw [hM, hL, hnodup.mem_erase_iff, hiff, List.mem_append, List.mem_singleton]
      constructor
      · rintro ⟨hne, h1, h2, h3⟩
        exact ⟨h1, h2, fun hm => hm.elim h3 hne⟩
      · rintro ⟨h1, h2, h3⟩
        exact ⟨fun he => h3 (Or.inr he), h1, h2, fun hs => h3 (Or.inl hs)⟩
    · intro s hs
      rw [hL]
      rcases List.mem_append.1 hs with hs | hs
      · exact hbound s hs
      · rw [List.mem_singleton.1 hs]
        omega
    · rw [hL]
      exact hlatest.imp id (fun hm => List.mem_append_left _ hm)

theorem receiveMany_GapInv (packets : List DATAPacket) :
    ∀ (state : SessionState) (S : List Nat), GapInv state.receiver S →
      GapInv (state.receiveMany packets).receiver (S ++ packets.map DATAPacket.SeqID) := by
  induction packets with
  | nil =>
    intro state S h
    simpa [SessionState.receiveMany] using h
  | cons p rest ih =>
    intro state S h
    have h1 := ih (state.ReceiveDATA p).1 (S ++ [p.SeqID]) (ReceiveDATA_GapInv state S p h)
    simpa [SessionState.receiveMany, List.append_assoc] using h1

/-- C40: after `ReceiveDATA` has been called on a fresh session state with any packets, in
any order and with any repetitions, the ACK that the timer function builds from
`latestSeq` and `missingSeqs` lists its missing sequence numbers in strictly ascending
order, each of them is smaller than its latest sequence number, and a number is listed
exactly when it lies between 1 and the latest sequence number and no packet with it has been
received. The latest sequence number is the largest one received (0 when nothing or only 0
was received). -/
theorem C40_missingSeqs_are_exactly_the_gaps (sessionID : Nat) (packets : List DATAPacket) :
    ((NewSessionState sessionID).receiveMany packets).ackPacket.MissingSeqIDs.Sorted
        (fun a b => a < b) ∧
    (∀ x ∈ ((NewSessionState sessionID).receiveMany packets).ackPacket.MissingSeqIDs,
      x < ((NewSessionState sessionID).receiveMany packets).ackPacket.LatestSeqID) ∧
    (∀ x, x ∈ ((NewSessionState sessionID).receiveMany packets).ackPacket.MissingSeqIDs ↔
      (1 ≤ x ∧ x ≤ ((NewSessionState sessionID).receiveMany packets).ackPacket.LatestSeqID ∧
        ∀ p ∈ packets, p.SeqID ≠ x)) ∧
    (∀ p ∈ packets,
      p.SeqID ≤ ((NewSessionState sessionID).receiveMany packets).ackPacket.LatestSeqID) ∧
    (((NewSessionState sessionID).receiveMany packets).ackPacket.LatestSeqID = 0 ∨
      ∃ p ∈ packets,
        p.SeqID = ((NewSessionState sessionID).receiveMany packets).ackPacket.LatestSeqID) ∧
    ((NewSessionState sessionID).receiveMany packets).ackPacket.LatestSeqID =
      ((NewSessionState sessionID).receiveMany packets).receiver.latestSeq ∧
    ((NewSessionState sessionID).receiveMany packets).ackPacket.MissingSeqIDs =
      ((NewSessionState sessionID).receiveMany packets).receiver.missingSeqs := by
  have h := receiveMany_GapInv packets (NewSessionState sessionID) [] (GapInv_fresh sessionID)
  rw [List.nil_append] at h
  obtain ⟨hsorted, hiff, hbound, hlatest⟩ := h
  have hmem : ∀ x, x ∉ packets.map DATAPacket.SeqID ↔ ∀ p ∈ packets, p.SeqID ≠ x := by
    intro x
    simp [List.mem_map]
  refine ⟨hsorted, ?_, ?_, ?_, ?_, rfl, rfl⟩
  · intro x hx
    have h1 := (hiff x).1 hx
    have h2 : x ≠ ((NewSessionState sessionID).receiveMany packets).receiver.latestSeq := by
      intro he
      rcases hlatest with h0 | hm
      · have : 1 ≤ x := h1.1
        omega
      · exact h1.2.2 (he ▸ hm)
    have h3 : x ≤ ((NewSessionState sessionID).receiveMany packets).receiver.latestSeq := h1.2.1
    exact Nat.lt_of_le_of_ne h3 h2
  · intro x
    exact (hiff x).trans (by rw [hmem]; exact Iff.rfl)
  · intro p hp
    exact hbound _ (List.mem_map_of_mem _ hp)
  · rcases hlatest with h0 | hm
    · exact Or.inl h0
    · obtain ⟨p, hp, he⟩ := List.mem_map.1 hm
      exact Or.inr ⟨p, hp, he⟩

end transport_layer

namespace packet_layer

theorem header_high_bits :
    ∀ hi < 4, ∀ cont : Bool,
      packetFlagsFromByte (((hi % 256) &&& 0b11) ||| (newPacketFlags cont).toByte) =
          newPacketFlags cont ∧
        ((((hi % 256) &&& 0b11) ||| (newPacketFlags cont).toByte) &&& 0x3F) = hi := by
  decide

/-- For a size below 1024, `packetHeaderFromBytes` reads back the flags and the size that
`toBytes` has written. -/
theorem header_roundtrip_aux :
    ∀ size < 1024, ∀ cont : Bool,
      packetFlagsFromByte (newPacketHeader size (newPacketFlags cont)).toBytes.1 =
          newPacketFlags cont ∧
        ((((newPacketHeader size (newPacketFlags cont)).toBytes.1 &&& 0x3F) <<< 8) |||
          (newPacketHeader size (newPacketFlags cont)).toBytes.2) = size := by
  intro size hsize cont
  have hhi : size / 256 < 4 := by omega
  obtain ⟨h1, h2⟩ := header_high_bits (size / 256) hhi cont
  have hb0 : (newPacketHeader size (newPacketFlags cont)).toBytes.1 =
      (((size / 256) % 256) &&& 0b11) ||| (newPacketFlags cont).toByte := by
    simp only [packetHeader.toBytes, newPacketHeader, Nat.shiftRight_eq_div_pow]
  have hb1 : (newPacketHeader size (newPacketFlags cont)).toBytes.2 = size % 256 := by
    simp only [packetHeader.toBytes, newPacketHeader]
    have h := Nat.and_pow_two_sub_one_eq_mod size 8
    have h255 : (0xff : Nat) = 2 ^ 8 - 1 := by decide
    rw [h255, h]
    have : (2 : Nat) ^ 8 = 256 := by decide
    rw [this, Nat.mod_mod]
  rw [hb0, hb1]
  refine ⟨h1, ?_⟩
  rw [h2, Nat.shiftLeft_eq]
  have hlo : size % 256 < 2 ^ 8 := by
    have : (2 : Nat) ^ 8 = 256 := by decide
    omega
  have hor := Nat.mul_add_lt_is_or hlo (size / 256)
  rw [Nat.mul_comm, ← hor]
  have : (2 : Nat) ^ 8 = 256 := by decide
  rw [this]
  omega

end packet_layer

namespace packet_layer

theorem framesBytes_cons (f : Frame) (fs : List Frame) :
    framesBytes (f :: fs) = f.bytes ++ framesBytes fs := by
  simp [framesBytes]

theorem Frame.length_bytes (f : Frame) : f.bytes.length = f.body.length + 2 := by
  simp [Frame.bytes]

theorem framesBytes_length_pos (fs : List Frame) (h : fs ≠ []) : 2 ≤ (framesBytes fs).length := by
  cases fs with
  | nil => exact absurd rfl h
  | cons f fs =>
    rw [framesBytes_cons, List.length_append, Frame.length_bytes]
    omega

theorem header_of_frames (f : Frame) (fs : List Frame) (h : f.body.length < 1024) :
    packetHeaderFromBytes (framesBytes (f :: fs)) =
      .ok { size := f.body.length, flags := newPacketFlags f.cont } := by
  obtain ⟨h1, h2⟩ := header_roundtrip_aux f.body.length h f.cont
  rw [framesBytes_cons]
  unfold packetHeaderFromBytes
  have hlen : ¬ (f.bytes ++ framesBytes fs).length < 2 := by
    rw [List.length_append, Frame.length_bytes]
    omega
  rw [if_neg hlen]
  have hb0 : (f.bytes ++ framesBytes fs).getD 0 0 = f.header.toBytes.1 := by
    simp [Frame.bytes]
  have hb1 : (f.bytes ++ framesBytes fs).getD 1 0 = f.header.toBytes.2 := by
    simp [Frame.bytes]
  simp only [hb0, hb1]
  unfold Frame.header
  rw [h1, h2]

theorem PacketOK.tail (f : Frame) (fs : List Frame) (h : PacketOK (f :: fs)) (hne : fs ≠ []) :
    PacketOK fs ∧ f.cont = false := by
  obtain ⟨_, h2, h3⟩ := h
  rw [List.dropLast_cons_of_ne_nil hne] at h3
  exact ⟨⟨hne, fun x hx => h2 x (List.mem_cons_of_mem _ hx),
    fun x hx => h3 x (List.mem_cons_of_mem _ hx)⟩, h3 f (List.mem_cons_self _ _)⟩

theorem PacketOK.cont_last (f : Frame) (fs : List Frame) (h : PacketOK (f :: fs))
    (hc : f.cont = true) : fs = [] := by
  by_contra hne
  have := (h.tail f fs hne).2
  rw [hc] at this
  cases this

theorem Chunks.ne_nil (m : List Nat) (fr : List Frame) (h : Chunks m fr) : fr ≠ [] := by
  cases h <;> simp

theorem Holds_map (S : List (List Frame)) :
    PacketDecoder.Holds ⟨S.map framesBytes, 0⟩ S := by
  cases S with
  | nil => exact ⟨rfl, rfl⟩
  | cons fs S1 => exact ⟨framesBytes fs, rfl, Nat.zero_le _, rfl⟩

theorem Holds.CursorInRange (d : PacketDecoder) (S : List (List Frame)) (h : d.Holds S) :
    d.CursorInRange := by
  cases S with
  | nil =>
    obtain ⟨h1, h2⟩ := h
    unfold PacketDecoder.CursorInRange
    rw [h1]
    exact h2
  | cons fs S1 =>
    obtain ⟨p, h1, h2, _⟩ := h
    unfold PacketDecoder.CursorInRange
    rw [h1]
    exact h2

/-- The look-ahead of `HasMessage` finds the end of the message whose frames are next in
the stream. -/
theorem hasMessageLoop_true (m : List Nat) (fr : List Frame) (hch : Chunks m fr) :
    ∀ (fs : List Frame) (S1 : List (List Frame)) (tailFrames : List Frame) (p : List Nat)
      (c fuel : Nat),
      (∀ x ∈ fs :: S1, PacketOK x) → (fs :: S1).flatten = fr ++ tailFrames →
      p.drop c = framesBytes fs → c ≤ p.length → S1.length + 1 ≤ fuel →
      hasMessageLoop fuel (p :: S1.map framesBytes) c = .ok true := by
  induction hch with
  | last b =>
    intro fs S1 tailFrames p c fuel hok hflat hp hc hfuel
    obtain ⟨fuel, rfl⟩ : ∃ n, fuel = n + 1 := ⟨fuel - 1, by omega⟩
    have hfs := hok fs (List.mem_cons_self _ _)
    cases fs with
    | nil => exact absurd rfl hfs.1
    | cons f fs1 =>
      have hf : f = ⟨b, false⟩ := by
        simp only [List.flatten_cons, List.cons_append, List.singleton_append] at hflat
        exact (List.cons.inj hflat).1
      have hsize : f.body.length < 1024 := hfs.2.1 f (List.mem_cons_self _ _)
      rw [hasMessageLoop_cons, hp, header_of_frames f fs1 hsize, hf]
      rfl
  | cont b m1 fr1 hch1 ih =>
    intro fs S1 tailFrames p c fuel hok hflat hp hc hfuel
    obtain ⟨fuel, rfl⟩ : ∃ n, fuel = n + 1 := ⟨fuel - 1, by omega⟩
    have hfs := hok fs (List.mem_cons_self _ _)
    cases fs with
    | nil => exact absurd rfl hfs.1
    | cons f fs1 =>
      have hf : f = ⟨b, true⟩ := by
        simp only [List.flatten_cons, List.cons_append] at hflat
        exact (List.cons.inj hflat).1
      have hnil : fs1 = [] := hfs.cont_last f fs1 (by rw [hf])
      subst hnil
      have hflat1 : S1.flatten = fr1 ++ tailFrames := by
        simp only [List.flatten_cons, List.cons_append, List.nil_append] at hflat
        exact (List.cons.inj hflat).2
      have hsize : f.body.length < 1024 := hfs.2.1 f (List.mem_cons_self _ _)
      have hplen : p.length = c + (f.body.length + 2) := by
        have h1 : (p.drop c).length = (framesBytes [f]).length := by rw [hp]
        rw [List.length_drop, framesBytes_cons, List.length_append, Frame.length_bytes] at h1
        simp only [framesBytes, List.flatMap_nil, List.length_nil] at h1
        omega
      cases S1 with
      | nil =>
        exfalso
        have : fr1 = [] := by
          have h2 : fr1 ++ tailFrames = [] := by rw [← hflat1]; rfl
          exact (List.append_eq_nil.1 h2).1
        exact Chunks.ne_nil _ _ hch1 this
      | cons fs2 S2 =>
        rw [hasMessageLoop_cons, hp, header_of_frames f [] hsize, hf]
        have hb : f.body.length = b.length := by rw [hf]
        have hcond : c + (b.length + 2) + 3 ≥ p.length := by
          rw [hplen, hb]
          omega
        simp only [newPacketFlags, Bool.not_true, Bool.false_eq_true, if_false, hcond, if_true,
          List.map_cons]
        refine ih fs2 S2 tailFrames (framesBytes fs2) 0 fuel ?_ hflat1 rfl (Nat.zero_le _) ?_
        · intro x hx
          exact hok x (List.mem_cons_of_mem _ hx)
        · simp only [List.length_cons] at hfuel
          omega

/-- The loop of `ReadMessage` reads the message whose frames are next in the stream and
leaves the decoder at the start of what follows. -/
theorem readLoop_message (m : List Nat) (fr : List Frame) (hch : Chunks m fr) :
    ∀ (fs : List Frame) (S1 : List (List Frame)) (tailFrames : List Frame) (p : List Nat)
      (c fuel : Nat) (acc : List Nat),
      (∀ x ∈ fs :: S1, PacketOK x) → (fs :: S1).flatten = fr ++ tailFrames →
      p.drop c = framesBytes fs → c ≤ p.length → S1.length + 1 ≤ fuel →
      ∃ d1 S2, PacketDecoder.readLoop fuel ⟨p :: S1.map framesBytes, c⟩ acc true =
          (d1, .ok (acc ++ m, false)) ∧
        d1.Holds S2 ∧ (∀ x ∈ S2, PacketOK x) ∧ S2.flatten = tailFrames := by
  induction hch with
  | last b =>
    intro fs S1 tailFrames p c fuel acc hok hflat hp hc hfuel
    obtain ⟨fuel, rfl⟩ : ∃ n, fuel = n + 1 := ⟨fuel - 1, by omega⟩
    have hfs := hok fs (List.mem_cons_self _ _)
    cases fs with
    | nil => exact absurd rfl hfs.1
    | cons f fs1 =>
      have hf : f = ⟨b, false⟩ := by
        simp only [List.flatten_cons, List.cons_append, List.singleton_append] at hflat
        exact (List.cons.inj hflat).1
      have hflat1 : fs1 ++ S1.flatten = tailFrames := by
        simp only [List.flatten_cons, List.cons_append, List.singleton_append] at hflat
        exact (List.cons.inj hflat).2
      have hsize : f.body.length < 1024 := hfs.2.1 f (List.mem_cons_self _ _)
      have hdlen : (p.drop c).length = f.body.length + 2 + (framesBytes fs1).length := by
        rw [hp, framesBytes_cons, List.length_append, Frame.length_bytes]
      have hbody : ((p.drop c).take (f.body.length + 2)).drop 2 = f.body := by
        rw [hp, framesBytes_cons, ← Frame.length_bytes, List.take_left']
        · simp [Frame.bytes]
        · rfl
      rw [readLoop_cons, hp, header_of_frames f fs1 hsize]
      have hfit : ¬ (f.body.length + 2 > (framesBytes (f :: fs1)).length) := by
        rw [← hp, hdlen]
        omega
      simp only [hfit, if_false]
      have hcont : (newPacketFlags f.cont).Continuation = false := by rw [hf]; rfl
      rw [← hp, hbody, hcont, readLoop_false]
      have hb : f.body = b := by rw [hf]
      rw [hb]
      by_cases hnil : fs1 = []
      · subst hnil
        have hge : c + (b.length + 2) ≥ p.length := by
          rw [List.length_drop] at hdlen
          simp only [framesBytes, List.flatMap_nil, List.length_nil] at hdlen
          rw [hb] at hdlen
          omega
        rw [if_pos hge]
        refine ⟨_, S1, rfl, Holds_map S1, ?_, ?_⟩
        · intro x hx
          exact hok x (List.mem_cons_of_mem _ hx)
        · simpa using hflat1
      · have hpos := framesBytes_length_pos fs1 hnil
        have hlt : ¬ c + (b.length + 2) ≥ p.length := by
          rw [List.length_drop, hb] at hdlen
          omega
        rw [if_neg hlt]
        refine ⟨_, fs1 :: S1, rfl, ⟨p, rfl, ?_, ?_⟩, ?_, ?_⟩
        · show c + (b.length + 2) ≤ p.length
          omega
        · show p.drop (c + (b.length + 2)) = framesBytes fs1
          rw [← List.drop_drop, hp, framesBytes_cons, ← hb,
            ← Frame.length_bytes, List.drop_left']
          rfl
        · intro x hx
          rcases List.mem_cons.1 hx with hx | hx
          · rw [hx]
            exact (hfs.tail f fs1 hnil).1
          · exact hok x (List.mem_cons_of_mem _ hx)
        · simpa using hflat1
  | cont b m1 fr1 hch1 ih =>
    intro fs S1 tailFrames p c fuel acc hok hflat hp hc hfuel
    obtain ⟨fuel, rfl⟩ : ∃ n, fuel = n + 1 := ⟨fuel - 1, by omega⟩
    have hfs := hok fs (List.mem_cons_self _ _)
    cases fs with
    | nil => exact absurd rfl hfs.1
    | cons f fs1 =>
      have hf : f = ⟨b, true⟩ := by
        simp only [List.flatten_cons, List.cons_append] at hflat
        exact (List.cons.inj hflat).1
      have hnil : fs1 = [] := hfs.cont_last f fs1 (by rw [hf])
      subst hnil
      have hflat1 : S1.flatten = fr1 ++ tailFrames := by
        simp only [List.flatten_cons, List.cons_append, List.nil_append] at hflat
        exact (List.cons.inj hflat).2
      have hsize : f.body.length < 1024 := hfs.2.1 f (List.mem_cons_self _ _)
      have hb : f.body = b := by rw [hf]
      have hdlen : (p.drop c).length = f.body.length + 2 := by
        rw [hp, framesBytes_cons, List.length_append, Frame.length_bytes]
        simp [framesBytes]
      have hbody : ((p.drop c).take (f.body.length + 2)).drop 2 = f.body := by
        rw [hp, framesBytes_cons, ← Frame.length_bytes, List.take_left']
        · simp [Frame.bytes]
        · rfl
      cases S1 with
      | nil =>
        exfalso
        have : fr1 = [] := by
          have h2 : fr1 ++ tailFrames = [] := by rw [← hflat1]; rfl
          exact (List.append_eq_nil.1 h2).1
        exact Chunks.ne_nil _ _ hch1 this
      | cons fs2 S2 =>
        rw [readLoop_cons, hp, header_of_frames f [] hsize]
        have hfit : ¬ (f.body.length + 2 > (framesBytes [f]).length) := by
          rw [← hp, hdlen]
          omega
        simp only [hfit, if_false]
        rw [← hp, hbody]
        have hge : c + (f.body.length + 2) ≥ p.length := by
          rw [List.length_drop] at hdlen
          omega
        rw [if_pos hge, hb, hf]
        have hcontTrue : (newPacketFlags (Frame.mk b true).cont).Continuation = true := rfl
        rw [hcontTrue]
        obtain ⟨d1, S3, hread, hholds, hok3, hflat3⟩ :=
          ih fs2 S2 tailFrames (framesBytes fs2) 0 fuel (acc ++ b)
            (fun x hx => hok x (List.mem_cons_of_mem _ hx)) hflat1 rfl (Nat.zero_le _)
            (by simp only [List.length_cons] at hfuel; omega)
        refine ⟨d1, S3, ?_, hholds, hok3, hflat3⟩
        rw [List.map_cons, hread, List.append_assoc]

end packet_layer

namespace packet_layer

theorem length_le_hasMessageFuel (packets : List (List Nat)) :
    packets.length + 1 ≤ hasMessageFuel packets := by
  unfold hasMessageFuel
  have h : packets.length ≤ (packets.map (fun p => p.length + 1)).sum := by
    induction packets with
    | nil => simp
    | cons p rest ih =>
      simp only [List.length_cons, List.map_cons, List.sum_cons]
      omega
  omega

theorem skipEmptyPackets_Holds (d : PacketDecoder) (S : List (List Frame)) (h : d.Holds S)
    (hok : ∀ x ∈ S, PacketOK x) : d.skipEmptyPackets = (d, .ok ()) := by
  obtain ⟨packets, c⟩ := d
  cases S with
  | nil =>
    obtain ⟨h1, h2⟩ := h
    simp only at h1 h2
    subst h1 h2
    rfl
  | cons fs S1 =>
    obtain ⟨p, h1, h2, h3⟩ := h
    simp only at h1 h2 h3
    subst h1
    have hfs := hok fs (List.mem_cons_self _ _)
    cases fs with
    | nil => exact absurd rfl hfs.1
    | cons f fs1 =>
      unfold PacketDecoder.skipEmptyPackets
      simp only [List.length_cons]
      rw [skipEmptyLoop_cons, h3, header_of_frames f fs1 (hfs.2.1 f (List.mem_cons_self _ _))]
      have hlen := framesBytes_length_pos (f :: fs1) (List.cons_ne_nil _ _)
      have hlt : ¬ (framesBytes (f :: fs1)).length < 2 := by omega
      rw [if_neg hlt]
      rfl

theorem HasMessage_Holds_nil (d : PacketDecoder) (h : d.Holds []) :
    d.HasMessage = (d, .ok false) := by
  obtain ⟨packets, c⟩ := d
  obtain ⟨h1, h2⟩ := h
  simp only at h1 h2
  subst h1 h2
  rfl

/-- On a decoder that stands at the start of a message, `HasMessage` returns true and
leaves the decoder as it is. -/
theorem HasMessage_Holds (d : PacketDecoder) (S : List (List Frame)) (m : List Nat)
    (fr tailFrames : List Frame) (h : d.Holds S) (hok : ∀ x ∈ S, PacketOK x)
    (hch : Chunks m fr) (hflat : S.flatten = fr ++ tailFrames) :
    d.HasMessage = (d, .ok true) := by
  have hskip := skipEmptyPackets_Holds d S h hok
  cases S with
  | nil =>
    exfalso
    have h2 : fr ++ tailFrames = [] := by rw [← hflat]; rfl
    exact Chunks.ne_nil _ _ hch (List.append_eq_nil.1 h2).1
  | cons fs S1 =>
    obtain ⟨p, h1, h2, h3⟩ := h
    obtain ⟨packets, c⟩ := d
    simp only at h1 h2 h3
    subst h1
    unfold PacketDecoder.HasMessage
    rw [hskip]
    simp only [List.length_cons, Nat.add_one_ne_zero, if_false]
    rw [hasMessageLoop_true m fr hch fs S1 tailFrames p c _ hok hflat h3 h2]
    have := length_le_hasMessageFuel (p :: S1.map framesBytes)
    simp only [List.length_cons, List.length_map] at this
    omega

/-- On a decoder that stands at the start of a message, `ReadMessage` returns the message
and leaves the decoder at the start of the frames that follow. -/
theorem ReadMessage_Holds (d : PacketDecoder) (S : List (List Frame)) (m : List Nat)
    (fr tailFrames : List Frame) (h : d.Holds S) (hok : ∀ x ∈ S, PacketOK x)
    (hch : Chunks m fr) (hflat : S.flatten = fr ++ tailFrames) :
    ∃ d1 S2, d.ReadMessage = (d1, .ok m) ∧ d1.Holds S2 ∧ (∀ x ∈ S2, PacketOK x) ∧
      S2.flatten = tailFrames := by
  have hhas := HasMessage_Holds d S m fr tailFrames h hok hch hflat
  cases S with
  | nil =>
    exfalso
    have h2 : fr ++ tailFrames = [] := by rw [← hflat]; rfl
    exact Chunks.ne_nil _ _ hch (List.append_eq_nil.1 h2).1
  | cons fs S1 =>
    obtain ⟨p, h1, h2, h3⟩ := h
    obtain ⟨packets, c⟩ := d
    simp only at h1 h2 h3
    subst h1
    have hfuel : S1.length + 1 ≤ hasMessageFuel (p :: S1.map framesBytes) := by
      have := length_le_hasMessageFuel (p :: S1.map framesBytes)
      simp only [List.length_cons, List.length_map] at this
      omega
    obtain ⟨d1, S2, hread, hholds, hok2, hflat2⟩ :=
      readLoop_message m fr hch fs S1 tailFrames p c _ [] hok hflat h3 h2 hfuel
    refine ⟨d1, S2, ?_, hholds, hok2, hflat2⟩
    unfold PacketDecoder.ReadMessage
    rw [hhas]
    simp only [Bool.not_true, Bool.false_eq_true, if_false]
    rw [hread]
    simp

theorem readAll_succ (fuel : Nat) (d : PacketDecoder) :
    readAll (fuel + 1) d =
      match d.HasMessageChecked with
      | some (decoder1, .ok true) =>
        match decoder1.ReadMessageChecked with
        | some (decoder2, .ok msg) =>
          (readAll fuel decoder2).map (fun r => (r.1, msg :: r.2))
        | _ => none
      | some (decoder1, .ok false) => some (decoder1, [])
      | _ => none := rfl

/-- Reading while `HasMessage` is true, from a decoder that stands at the start of the
frames of the messages `ms`, returns exactly `ms`, and ends with `HasMessage` false on a
decoder without packets. -/
theorem readAll_Holds : ∀ (ms : List (List Nat)) (S : List (List Frame)) (d : PacketDecoder),
    d.Holds S → (∀ x ∈ S, PacketOK x) → Encodes ms S.flatten →
    readAll (ms.length + 1) d = some (⟨[], 0⟩, ms) := by
  intro ms
  induction ms with
  | nil =>
    intro S d h hok henc
    have hS : S = [] := by
      cases S with
      | nil => rfl
      | cons fs S1 =>
        exfalso
        generalize hX : (fs :: S1).flatten = X at henc
        cases henc
        have hfs := hok fs (List.mem_cons_self _ _)
        simp only [List.flatten_cons, List.append_eq_nil] at hX
        exact hfs.1 hX.1
    subst hS
    have hspec := (HasMessage_spec d (Holds.CursorInRange d [] h)).1
    rw [HasMessage_Holds_nil d h] at hspec
    obtain ⟨packets, c⟩ := d
    obtain ⟨h1, h2⟩ := h
    simp only at h1 h2
    subst h1 h2
    simp only [readAll, List.length_nil, hspec]
  | cons m ms ih =>
    intro S d h hok henc
    generalize hX : S.flatten = X at henc
    cases henc with
    | cons _ _ fr rest hch hrest =>
      have hspec := (HasMessage_spec d (Holds.CursorInRange d S h)).1
      rw [HasMessage_Holds d S m fr rest h hok hch hX] at hspec
      obtain ⟨d1, S2, hread, hholds, hok2, hflat2⟩ :=
        ReadMessage_Holds d S m fr rest h hok hch hX
      have hspec2 := (ReadMessage_spec d (Holds.CursorInRange d S h)).1
      rw [hread] at hspec2
      have hih := ih S2 d1 hholds hok2 (by rw [hflat2]; exact hrest)
      rw [List.length_cons, readAll_succ, hspec]
      simp only []
      rw [hspec2]
      simp only [hih, Option.map_some']

end packet_layer

namespace packet_layer

theorem take_set_set (c : Nat) : ∀ (W : List Nat) (a b : Nat), c + 2 ≤ W.length →
    ((W.set c a).set (c + 1) b).take (c + 2) = W.take c ++ [a, b] := by
  induction c with
  | zero =>
    intro W a b h
    match W, h with
    | x :: y :: rest, _ => rfl
  | succ c ih =>
    intro W a b h
    match W, h with
    | x :: W1, h =>
      have h1 : c + 2 ≤ W1.length := by
        simp only [List.length_cons] at h
        omega
      simp only [List.set_cons_succ, List.take_succ_cons, List.cons_append]
      rw [ih W1 a b h1]

theorem framesBytes_append (fs gs : List Frame) :
    framesBytes (fs ++ gs) = framesBytes fs ++ framesBytes gs := by
  simp [framesBytes]

theorem framesBytes_singleton (f : Frame) : framesBytes [f] = f.bytes := by
  simp [framesBytes]

theorem EncInv.cursor_eq (k : Nat) (e : PacketEncoder) (F : List (List Frame))
    (cur : List Frame) (h : EncInv k e F cur) : e.cursor = (framesBytes cur).length := by
  have h1 := congrArg List.length h.working
  rw [List.length_take] at h1
  have h2 := h.wf.2.1
  have h3 := h.wf.2.2.1
  omega

/-- The closure `copyMessage` appends one frame to the working packet. -/
theorem copyMessage_frames (k : Nat) (e : PacketEncoder) (body : List Nat) (cont : Bool)
    (F : List (List Frame)) (cur : List Frame) (h : EncInv k e F cur)
    (hfit : e.cursor + 2 + body.length ≤ k) :
    ∃ e1, e.copyMessage body (newPacketFlags cont) = .ok e1 ∧ e1.WellFormed k ∧
      e1.cursor = e.cursor + body.length + 2 ∧ e1.packets = e.packets ∧
      e1.workingPacket.take e1.cursor = framesBytes (cur ++ [⟨body, cont⟩]) := by
  obtain ⟨e1, he1, hw1, hc1⟩ := copyMessage_WellFormed k e body (newPacketFlags cont) h.wf hfit
  refine ⟨e1, he1, hw1, hc1, ?_, ?_⟩
  · unfold PacketEncoder.copyMessage at he1
    simp only at he1
    split at he1
    · cases he1
    · cases he1
      rfl
  · have hWlen : e.workingPacket.length = k := h.wf.2.1
    unfold PacketEncoder.copyMessage at he1
    simp only at he1
    split at he1
    · cases he1
    · cases he1
      simp only
      rw [framesBytes_append, framesBytes_singleton, ← h.working]
      unfold copyAt
      have hlenset : ((e.workingPacket.set e.cursor
          (newPacketHeader body.length (newPacketFlags cont)).toBytes.1).set (e.cursor + 1)
          (newPacketHeader body.length (newPacketFlags cont)).toBytes.2).length = k := by
        rw [List.length_set, List.length_set, hWlen]
      have htk : body.take (((e.workingPacket.set e.cursor
          (newPacketHeader body.length (newPacketFlags cont)).toBytes.1).set (e.cursor + 1)
          (newPacketHeader body.length (newPacketFlags cont)).toBytes.2).length -
            (e.cursor + 2)) = body := by
        rw [hlenset]
        exact List.take_of_length_le (by omega)
      rw [htk, List.append_assoc, take_set_set e.cursor e.workingPacket _ _ (by omega)]
      have hpre : (List.take e.cursor e.workingPacket ++
          [(newPacketHeader body.length (newPacketFlags cont)).toBytes.1,
           (newPacketHeader body.length (newPacketFlags cont)).toBytes.2] ++ body).length =
          e.cursor + (body.length + 2) := by
        simp only [List.length_append, List.length_take, List.length_cons, List.length_nil]
        omega
      rw [← List.append_assoc, List.take_left' hpre]
      simp [Frame.bytes, Frame.header]

theorem writeNextPacket_frames (k : Nat) (e : PacketEncoder) (F : List (List Frame))
    (cur : List Frame) (hw : e.WellFormed k) (hpackets : e.packets = F.map framesBytes)
    (hworking : e.workingPacket.take e.cursor = framesBytes cur)
    (hok : ∀ x ∈ F, PacketOK x) (hcur : PacketOK cur) :
    EncInv k e.writeNextPacket (F ++ [cur]) [] ∧ e.writeNextPacket.cursor = 0 := by
  obtain ⟨hw1, hc1⟩ := writeNextPacket_WellFormed k e hw
  refine ⟨⟨hw1, ?_, ?_, ?_, ?_, ?_⟩, hc1⟩
  · simp [PacketEncoder.writeNextPacket, hpackets, hworking]
  · simp [PacketEncoder.writeNextPacket, framesBytes]
  · intro x hx
    rcases List.mem_append.1 hx with hx | hx
    · exact hok x hx
    · rw [List.mem_singleton.1 hx]
      exact hcur
  · intro f hf
    cases hf
  · intro f hf
    cases hf

theorem Chunks_conts (bodies : List (List Nat)) (b : List Nat) :
    Chunks (bodies.flatten ++ b) (bodies.map (fun x => (⟨x, true⟩ : Frame)) ++ [⟨b, false⟩]) := by
  induction bodies with
  | nil => exact Chunks.last b
  | cons x rest ih =>
    simp only [List.flatten_cons, List.append_assoc, List.map_cons, List.cons_append]
    exact Chunks.cont x _ _ ih

theorem flatten_map_singleton (bodies : List (List Nat)) :
    (bodies.map (fun x => [(⟨x, true⟩ : Frame)])).flatten =
      bodies.map (fun x => (⟨x, true⟩ : Frame)) := by
  induction bodies with
  | nil => rfl
  | cons x rest ih => simp [ih]

theorem Encodes.append (ms : List (List Nat)) (G : List Frame) (h : Encodes ms G)
    (m : List Nat) (fr : List Frame) (hch : Chunks m fr) : Encodes (ms ++ [m]) (G ++ fr) := by
  induction h with
  | nil =>
    have := Encodes.cons m [] fr [] hch Encodes.nil
    simpa using this
  | cons m1 ms1 fr1 rest hch1 _ ih =>
    rw [List.cons_append, List.append_assoc]
    exact Encodes.cons m1 _ fr1 _ hch1 ih

/-- The loop of `EncodeMessage`, entered with an empty working packet and a rest that is
not empty, writes full packets of one continuation frame each and then the frame that ends
the message. -/
theorem encodeRemaining_frames (k : Nat) (h3 : 3 ≤ k) (hk : k ≤ 1025) :
    ∀ (fuel : Nat) (e : PacketEncoder) (remaining : List Nat) (F : List (List Frame)),
      EncInv k e F [] → e.cursor = 0 → remaining.length ≤ fuel → 0 < remaining.length →
      ∃ (e1 : PacketEncoder) (bodies : List (List Nat)) (b : List Nat),
        PacketEncoder.encodeRemaining fuel e remaining = .ok e1 ∧
        remaining = bodies.flatten ++ b ∧
        EncInv k e1 (F ++ bodies.map (fun x => [(⟨x, true⟩ : Frame)])) [⟨b, false⟩] := by
  intro fuel
  induction fuel with
  | zero =>
    intro e remaining F _ _ hlen hpos
    omega
  | succ fuel ih =>
    intro e remaining F hinv hc hlen hpos
    have hsize : e.packetSize = k := hinv.wf.1
    have hroom : e.packetSize - e.cursor - 2 = k - 2 := by rw [hsize, hc]; omega
    rw [PacketEncoder.encodeRemaining, if_pos hpos, hroom]
    by_cases hbig : remaining.length > k - 2
    · rw [if_pos hbig]
      have hchunk : (remaining.take (k - 2)).length = k - 2 := by
        rw [List.length_take]; omega
      obtain ⟨e1, he1, hw1, hc1, hp1, ht1⟩ :=
        copyMessage_frames k e (remaining.take (k - 2)) true F [] hinv
          (by rw [hchunk, hc]; omega)
      rw [he1]
      simp only
      have hpk : PacketOK [(⟨remaining.take (k - 2), true⟩ : Frame)] := by
        refine ⟨List.cons_ne_nil _ _, ?_, ?_⟩
        · intro f hf
          rw [List.mem_singleton.1 hf]
          show (remaining.take (k - 2)).length < 1024
          omega
        · intro f hf
          cases hf
      obtain ⟨hinv2, hc2⟩ := writeNextPacket_frames k e1 F _ hw1
        (by rw [hp1]; exact hinv.packets) (by simpa using ht1) hinv.ok hpk
      have hsize2 : e1.writeNextPacket.packetSize = k := hinv2.wf.1
      rw [hsize2]
      obtain ⟨e3, bodies, b, he3, hrem, hinv3⟩ :=
        ih e1.writeNextPacket (remaining.drop (k - 2)) _ hinv2 hc2
          (by rw [List.length_drop]; omega) (by rw [List.length_drop]; omega)
      refine ⟨e3, remaining.take (k - 2) :: bodies, b, he3, ?_, ?_⟩
      · rw [List.flatten_cons, List.append_assoc, ← hrem, List.take_append_drop]
      · simpa [List.append_assoc] using hinv3
    · rw [if_neg hbig]
      obtain ⟨e1, he1, hw1, hc1, hp1, ht1⟩ :=
        copyMessage_frames k e remaining false F [] hinv (by rw [hc]; omega)
      refine ⟨e1, [], remaining, he1, by simp, ⟨hw1, ?_, by simpa using ht1, ?_, ?_, ?_⟩⟩
      · rw [hp1, hinv.packets]
        simp
      · simpa using hinv.ok
      · intro f hf
        rw [List.mem_singleton.1 hf]
        show remaining.length < 1024
        omega
      · intro f hf
        rw [List.mem_singleton.1 hf]

/-- One call of `EncodeMessage` appends the frames of the message to the frames the encoder
holds. -/
theorem EncodeMessage_frames (k : Nat) (h3 : 3 ≤ k) (hk : k ≤ 1025) (e : PacketEncoder)
    (F : List (List Frame)) (cur : List Frame) (m : List Nat) (hinv : EncInv k e F cur) :
    ∃ e1 F1 cur1 fr, e.EncodeMessage m = .ok e1 ∧ EncInv k e1 F1 cur1 ∧ Chunks m fr ∧
      F1.flatten ++ cur1 = F.flatten ++ cur ++ fr := by
  -- edge case with a single byte left
  have hedge : ∃ F0 cur0, EncInv k
      (if e.cursor ≥ e.packetSize - 2 then e.writeNextPacket else e) F0 cur0 ∧
      (if e.cursor ≥ e.packetSize - 2 then e.writeNextPacket else e).cursor + 3 ≤ k ∧
      F0.flatten ++ cur0 = F.flatten ++ cur := by
    have hsize : e.packetSize = k := hinv.wf.1
    by_cases hge : e.cursor ≥ e.packetSize - 2
    · rw [if_pos hge]
      have hcur : cur ≠ [] := by
        intro hnil
        have := hinv.cursor_eq
        rw [hnil] at this
        simp only [framesBytes, List.flatMap_nil, List.length_nil] at this
        omega
      have hpk : PacketOK cur :=
        ⟨hcur, hinv.small, fun f hf => hinv.final f (List.mem_of_mem_dropLast hf)⟩
      obtain ⟨hinv2, hc2⟩ :=
        writeNextPacket_frames k e F cur hinv.wf hinv.packets hinv.working hinv.ok hpk
      exact ⟨F ++ [cur], [], hinv2, by rw [hc2]; omega, by simp⟩
    · rw [if_neg hge]
      exact ⟨F, cur, hinv, by omega, rfl⟩
  obtain ⟨F0, cur0, hinv0, hc0, hflat0⟩ := hedge
  unfold PacketEncoder.EncodeMessage
  simp only
  generalize (if e.cursor ≥ e.packetSize - 2 then e.writeNextPacket else e) = e0 at hinv0 hc0
  have hsize0 : e0.packetSize = k := hinv0.wf.1
  by_cases hbig : m.length > e0.packetSize - e0.cursor - 2
  · rw [if_pos hbig]
    have hchunk : (m.take (e0.packetSize - e0.cursor - 2)).length =
        e0.packetSize - e0.cursor - 2 := by
      rw [List.length_take]; omega
    obtain ⟨e1, he1, hw1, hc1, hp1, ht1⟩ :=
      copyMessage_frames k e0 (m.take (e0.packetSize - e0.cursor - 2)) true F0 cur0 hinv0
        (by rw [hchunk, hsize0]; omega)
    rw [he1]
    simp only
    have hpk : PacketOK (cur0 ++ [(⟨m.take (e0.packetSize - e0.cursor - 2), true⟩ : Frame)]) := by
      refine ⟨by simp, ?_, ?_⟩
      · intro f hf
        rcases List.mem_append.1 hf with hf | hf
        · exact hinv0.small f hf
        · rw [List.mem_singleton.1 hf]
          show (m.take (e0.packetSize - e0.cursor - 2)).length < 1024
          rw [hchunk, hsize0]
          omega
      · intro f hf
        rw [List.dropLast_concat] at hf
        exact hinv0.final f hf
    obtain ⟨hinv2, hc2⟩ := writeNextPacket_frames k e1 F0 _ hw1
      (by rw [hp1]; exact hinv0.packets) ht1 hinv0.ok hpk
    obtain ⟨e3, bodies, b, he3, hrem, hinv3⟩ :=
      encodeRemaining_frames k h3 hk (m.drop (e0.packetSize - e0.cursor - 2)).length
        e1.writeNextPacket (m.drop (e0.packetSize - e0.cursor - 2)) _ hinv2 hc2 (le_refl _)
        (by rw [List.length_drop]; omega)
    refine ⟨e3, _, _, ⟨m.take (e0.packetSize - e0.cursor - 2), true⟩ ::
      (bodies.map (fun x => (⟨x, true⟩ : Frame)) ++ [⟨b, false⟩]), he3, hinv3, ?_, ?_⟩
    · have h1 := Chunks.cont (m.take (e0.packetSize - e0.cursor - 2)) _ _ (Chunks_conts bodies b)
      rw [← hrem, List.take_append_drop] at h1
      exact h1
    · rw [← hflat0]
      simp [flatten_map_singleton, List.append_assoc]
  · rw [if_neg hbig]
    obtain ⟨e1, he1, hw1, hc1, hp1, ht1⟩ :=
      copyMessage_frames k e0 m false F0 cur0 hinv0 (by rw [hsize0] at hbig; omega)
    refine ⟨e1, F0, cur0 ++ [⟨m, false⟩], [⟨m, false⟩], he1,
      ⟨hw1, by rw [hp1]; exact hinv0.packets, ht1, hinv0.ok, ?_, ?_⟩, Chunks.last m, ?_⟩
    · intro f hf
      rcases List.mem_append.1 hf with hf | hf
      · exact hinv0.small f hf
      · rw [List.mem_singleton.1 hf]
        show m.length < 1024
        rw [hsize0] at hbig
        omega
    · intro f hf
      rcases List.mem_append.1 hf with hf | hf
      · exact hinv0.final f hf
      · rw [List.mem_singleton.1 hf]
    · rw [← hflat0, List.append_assoc]

end packet_layer

namespace packet_layer

theorem EncodeMessageChecked_of_eq (k : Nat) (h3 : 3 ≤ k) (e e1 : PacketEncoder)
    (m : List Nat) (hw : e.WellFormed k) (h : e.EncodeMessage m = .ok e1) :
    ∃ frames, e.EncodeMessageChecked m = some (.ok (e1, frames)) := by
  have heq := EncodeMessageChecked_eq k h3 e m hw
  rw [h] at heq
  cases hr : e.EncodeMessageChecked m with
  | none =>
    rw [hr] at heq
    cases heq
  | some r =>
    rw [hr] at heq
    cases r with
    | error err =>
      simp only [Option.map_some', Except.map] at heq
      cases heq
    | ok v =>
      obtain ⟨a, frames⟩ := v
      simp only [Option.map_some', Except.map] at heq
      have ha : a = e1 := by
        injection heq with h1
        injection h1
      exact ⟨frames, by rw [ha]⟩

/-- Encoding the messages `ms` one after the other appends their frames to the frames the
encoder holds. -/
theorem encodeAll_frames (k : Nat) (h3 : 3 ≤ k) (hk : k ≤ 1025) :
    ∀ (ms : List (List Nat)) (e : PacketEncoder) (F : List (List Frame)) (cur : List Frame)
      (before : List (List Nat)),
      EncInv k e F cur → Encodes before (F.flatten ++ cur) →
      ∃ e1 F1 cur1, encodeAll e ms = some e1 ∧ EncInv k e1 F1 cur1 ∧
        Encodes (before ++ ms) (F1.flatten ++ cur1) := by
  intro ms
  induction ms with
  | nil =>
    intro e F cur before hinv henc
    exact ⟨e, F, cur, rfl, hinv, by simpa using henc⟩
  | cons m ms ih =>
    intro e F cur before hinv henc
    obtain ⟨e1, F1, cur1, fr, he1, hinv1, hch, hflat⟩ :=
      EncodeMessage_frames k h3 hk e F cur m hinv
    obtain ⟨frames, hchecked⟩ := EncodeMessageChecked_of_eq k h3 e e1 m hinv.wf he1
    have henc1 : Encodes (before ++ [m]) (F1.flatten ++ cur1) := by
      rw [hflat]
      exact Encodes.append before _ henc m fr hch
    obtain ⟨e2, F2, cur2, he2, hinv2, henc2⟩ := ih e1 F1 cur1 (before ++ [m]) hinv1 henc1
    refine ⟨e2, F2, cur2, ?_, hinv2, by simpa using henc2⟩
    simp only [encodeAll, hchecked, he2]

theorem popAll_eq : ∀ (n : Nat) (e : PacketEncoder), e.packets.length = n →
    e.cursor ≤ e.workingPacket.length →
    popAll e.PacketCount e =
      some (e.packets ++ (if e.cursor > 0 then [e.workingPacket.take e.cursor] else [])) := by
  intro n
  induction n with
  | zero =>
    intro e hn hc
    obtain ⟨packets, W, c, size⟩ := e
    simp only at hn hc
    have hp : packets = [] := List.length_eq_zero.1 hn
    subst hp
    by_cases hpos : c > 0
    · have hcount : (PacketEncoder.mk [] W c size).PacketCount = 1 := by
        simp [PacketEncoder.PacketCount, hpos]
      rw [hcount]
      simp only [popAll, hcount, PacketEncoder.PopPacketChecked, hpos, if_true,
        slice_zero_take W c hc, Option.bind_eq_bind, Option.some_bind]
      simp [PacketEncoder.PacketCount]
    · have hcount : (PacketEncoder.mk [] W c size).PacketCount = 0 := by
        simp [PacketEncoder.PacketCount, hpos]
      rw [hcount]
      simp [popAll, hcount, hpos]
  | succ n ih =>
    intro e hn hc
    obtain ⟨packets, W, c, size⟩ := e
    simp only at hn hc
    cases packets with
    | nil => simp at hn
    | cons p rest =>
      have hn1 : rest.length = n := by simpa using hn
      have hcount : (PacketEncoder.mk (p :: rest) W c size).PacketCount =
          (PacketEncoder.mk rest W c size).PacketCount + 1 := by
        simp only [PacketEncoder.PacketCount, List.length_cons]
        split <;> omega
      have hih := ih (PacketEncoder.mk rest W c size) hn1 hc
      rw [hcount]
      simp only [popAll, hcount, Nat.succ_pos, if_true, PacketEncoder.PopPacketChecked, hih,
        Option.map_some', List.cons_append, gt_iff_lt, Nat.zero_lt_succ]

theorem appendAll_eq : ∀ (packets : List (List Nat)) (d : PacketDecoder),
    (∀ p ∈ packets, p.length < 2 ^ 14) →
    appendAll d packets = some ⟨d.packets ++ packets, d.cursor⟩ := by
  intro packets
  induction packets with
  | nil =>
    intro d _
    simp [appendAll]
  | cons p rest ih =>
    intro d h
    have hp : ¬ p.length ≥ 1 <<< 14 := by
      have h1 := h p (List.mem_cons_self _ _)
      have : (1 <<< 14 : Nat) = 2 ^ 14 := by decide
      omega
    have hrest := ih ⟨d.packets ++ [p], d.cursor⟩ (fun q hq => h q (List.mem_cons_of_mem _ hq))
    simp only [appendAll, PacketDecoder.AppendPacket, if_neg hp, hrest, List.append_assoc,
      List.singleton_append]

/-- C38: for every packet size `k` with `3 ≤ k ≤ 1025` and every list of messages, an
encoder of that size accepts the messages in order, its packets, popped while
`PacketCount` is positive, are all accepted by a fresh decoder, and on that decoder calling
`ReadMessage` while `HasMessage` is true returns exactly the messages, in the same order,
with no panic and no error; then `HasMessage` is false. -/
theorem C38_encode_decode_roundtrip (k : Nat) (h3 : 3 ≤ k) (hk : k ≤ 1025)
    (messages : List (List Nat)) :
    ∃ (encoder encoder1 : PacketEncoder) (packets : List (List Nat))
      (decoder final : PacketDecoder),
      NewPacketEncoder k = some encoder ∧
      encodeAll encoder messages = some encoder1 ∧
      popAll encoder1.PacketCount encoder1 = some packets ∧
      appendAll NewPacketDecoder packets = some decoder ∧
      readAll (messages.length + 1) decoder = some (final, messages) ∧
      final.HasMessageChecked = some (final, .ok false) := by
  obtain ⟨encoder, hnew, hw, hc⟩ := NewPacketEncoder_WellFormed k h3 (by omega)
  have hinv : EncInv k encoder [] [] := by
    refine ⟨hw, ?_, ?_, ?_, ?_, ?_⟩
    · have h1 : ¬ k < 3 := by omega
      have h2 : ¬ k ≥ 1 <<< 14 := by
        have : (1 <<< 14 : Nat) = 2 ^ 14 := by decide
        omega
      simp only [NewPacketEncoder, if_neg h1, if_neg h2] at hnew
      rw [← Option.some.inj hnew]
      rfl
    · rw [hc]
      rfl
    · intro x hx
      cases hx
    · intro f hf
      cases hf
    · intro f hf
      cases hf
  obtain ⟨encoder1, F, cur, henc, hinv1, hencodes⟩ :=
    encodeAll_frames k h3 hk messages encoder [] [] [] hinv Encodes.nil
  rw [List.nil_append] at hencodes
  have hcursor := hinv1.cursor_eq
  have hpop := popAll_eq encoder1.packets.length encoder1 rfl
    (by have := hinv1.wf.2.1; have := hinv1.wf.2.2.1; omega)
  -- the frames of the packets popped
  have hstream : ∃ S : List (List Frame),
      encoder1.packets ++
          (if encoder1.cursor > 0 then [encoder1.workingPacket.take encoder1.cursor] else []) =
        S.map framesBytes ∧
      (∀ x ∈ S, PacketOK x) ∧ S.flatten = F.flatten ++ cur := by
    by_cases hcur : cur = []
    · refine ⟨F, ?_, hinv1.ok, by rw [hcur, List.append_nil]⟩
      have h0 : ¬ encoder1.cursor > 0 := by
        rw [hcursor, hcur]
        simp [framesBytes]
      rw [if_neg h0, List.append_nil, hinv1.packets]
    · refine ⟨F ++ [cur], ?_, ?_, by simp⟩
      · have hpos : encoder1.cursor > 0 := by
          rw [hcursor]
          have := framesBytes_length_pos cur hcur
          omega
        rw [if_pos hpos, hinv1.packets, hinv1.working]
        simp
      · intro x hx
        rcases List.mem_append.1 hx with hx | hx
        · exact hinv1.ok x hx
        · rw [List.mem_singleton.1 hx]
          exact ⟨hcur, hinv1.small, fun f hf => hinv1.final f (List.mem_of_mem_dropLast hf)⟩
  obtain ⟨S, hS, hok, hflat⟩ := hstream
  rw [hS] at hpop
  have hsmall : ∀ p ∈ S.map framesBytes, p.length < 2 ^ 14 := by
    intro p hp
    rw [← hS] at hp
    rcases List.mem_append.1 hp with hp | hp
    · have := hinv1.wf.2.2.2 p hp
      omega
    · split at hp
      · rw [List.mem_singleton.1 hp, List.length_take]
        have := hinv1.wf.2.1
        omega
      · cases hp
  have happend := appendAll_eq (S.map framesBytes) NewPacketDecoder hsmall
  have hread := readAll_Holds messages S ⟨S.map framesBytes, 0⟩ (Holds_map S) hok
    (by rw [hflat]; exact hencodes)
  refine ⟨encoder, encoder1, S.map framesBytes, ⟨S.map framesBytes, 0⟩, ⟨[], 0⟩, hnew, henc,
    hpop, ?_, hread, rfl⟩
  rw [happend]
  rfl

/-- The roundtrip at packet size 3, the smallest, for three messages of which one is
empty. -/
theorem C38_encode_decode_roundtrip_witness :
    3 ≤ 3 ∧ 3 ≤ 1025 ∧
    ∃ (encoder encoder1 : PacketEncoder) (packets : List (List Nat))
      (decoder final : PacketDecoder),
      NewPacketEncoder 3 = some encoder ∧
      encodeAll encoder [[1, 2], [], [3]] = some encoder1 ∧
      popAll encoder1.PacketCount encoder1 = some packets ∧
      appendAll NewPacketDecoder packets = some decoder ∧
      readAll ([[1, 2], [], [3]].length + 1) decoder = some (final, [[1, 2], [], [3]]) ∧
      final.HasMessageChecked = some (final, .ok false) :=
  ⟨by decide, by decide, C38_encode_decode_roundtrip 3 (by decide) (by decide) [[1, 2], [], [3]]⟩

end packet_layer
